import Mathlib

/-!
# gomerge: a shallow embedding of the merge engine

The Go package `gomerge` (files `merge.go`, `porter.go`) merges a source value
onto a destination through `reflect`.  This file embeds the package in Lean:

* `Kind`, `Ty`: `reflect.Kind` and `reflect.Type`;
* `Val`, `Heap`: run-time values and the memory they live in.  Pointers are
  addresses of heap cells, maps are references to heap map objects (both are
  shared by copying, as in Go).  Slices are modelled by their element
  sequence (the merge engine never writes a slice element in place; spare
  capacity of a backing array is not modelled).  Map keys range over `Key`
  (booleans, integers, strings, pointers);
* `Value`: a `reflect.Value` handle, either the zero Value, a non-addressable
  copy of a value, or an addressable location `(cell, field path)`;
* `M`: computations over the heap that end in a result, a returned `error`,
  a Go panic, or that run out of fuel (the recursion of `deepMerge` follows
  run-time data, which may be cyclic).

The functions of `porter.go` and `merge.go` keep their names.
-/

namespace Gomerge

/-! ## reflect.Kind and reflect.Type -/

/-- The kinds of `reflect.Kind`. -/
inductive Kind
  | Invalid | Bool | Int | Int8 | Int16 | Int32 | Int64
  | Uint | Uint8 | Uint16 | Uint32 | Uint64 | Uintptr
  | Float32 | Float64 | Complex64 | Complex128
  | Array | Chan | Func | Interface | Map | Ptr | Slice | String | Struct
  | UnsafePointer
  deriving DecidableEq, Repr

/-- A `reflect.Type`.  `basic k` is the predeclared type of a scalar kind
(`bool`, `int`, ..., `string`, `unsafe.Pointer`), `named` a defined type with
its underlying type, `iface` the empty interface type `interface{}`.  A struct
field is `(Name, PkgPath, Type)`; `PkgPath` is empty exactly for exported
fields. -/
inductive Ty
  | basic (k : Kind)
  | named (name : String) (underlying : Ty)
  | array (len : Nat) (elem : Ty)
  | chan (elem : Ty)
  | func (ins outs : List Ty)
  | iface
  | map (key elem : Ty)
  | ptr (elem : Ty)
  | slice (elem : Ty)
  | struct (fields : List (String × String × Ty))

mutual
/-- Boolean equality of types (type identity). -/
def Ty.beq : Ty → Ty → Bool
  | .basic a, y => match y with | .basic b => decide (a = b) | _ => false
  | .named n a, y =>
    match y with
    | .named m b => decide (n = m) && Ty.beq a b
    | _ => false
  | .array n a, y =>
    match y with
    | .array m b => decide (n = m) && Ty.beq a b
    | _ => false
  | .chan a, y => match y with | .chan b => Ty.beq a b | _ => false
  | .func a1 a2, y =>
    match y with
    | .func b1 b2 => Ty.beqList a1 b1 && Ty.beqList a2 b2
    | _ => false
  | .iface, y => match y with | .iface => true | _ => false
  | .map a1 a2, y =>
    match y with
    | .map b1 b2 => Ty.beq a1 b1 && Ty.beq a2 b2
    | _ => false
  | .ptr a, y => match y with | .ptr b => Ty.beq a b | _ => false
  | .slice a, y => match y with | .slice b => Ty.beq a b | _ => false
  | .struct a, y => match y with | .struct b => Ty.beqFields a b | _ => false
/-- Boolean equality of type lists. -/
def Ty.beqList : List Ty → List Ty → Bool
  | [], y => match y with | [] => true | _ => false
  | a :: as, y =>
    match y with
    | b :: bs => Ty.beq a b && Ty.beqList as bs
    | _ => false
/-- Boolean equality of struct field lists. -/
def Ty.beqFields :
    List (String × String × Ty) → List (String × String × Ty) → Bool
  | [], y => match y with | [] => true | _ => false
  | (n1, p1, a) :: as, y =>
    match y with
    | (n2, p2, b) :: bs =>
      decide (n1 = n2) && decide (p1 = p2) && Ty.beq a b && Ty.beqFields as bs
    | _ => false
end

mutual
theorem Ty.ty_beq_eq : ∀ a b : Ty, Ty.beq a b = true → a = b
  | .basic a, b => by cases b <;> simp [Ty.beq]
  | .named n a, b => by
    cases b <;> simp [Ty.beq]
    intro h1 h2; exact ⟨h1, Ty.ty_beq_eq _ _ h2⟩
  | .array n a, b => by
    cases b <;> simp [Ty.beq]
    intro h1 h2; exact ⟨h1, Ty.ty_beq_eq _ _ h2⟩
  | .chan a, b => by
    cases b <;> simp [Ty.beq]
    intro h2; exact Ty.ty_beq_eq _ _ h2
  | .func a1 a2, b => by
    cases b <;> simp [Ty.beq]
    intro h1 h2; exact ⟨Ty.ty_beqList_eq _ _ h1, Ty.ty_beqList_eq _ _ h2⟩
  | .iface, b => by cases b <;> simp [Ty.beq]
  | .map a1 a2, b => by
    cases b <;> simp [Ty.beq]
    intro h1 h2; exact ⟨Ty.ty_beq_eq _ _ h1, Ty.ty_beq_eq _ _ h2⟩
  | .ptr a, b => by
    cases b <;> simp [Ty.beq]
    intro h2; exact Ty.ty_beq_eq _ _ h2
  | .slice a, b => by
    cases b <;> simp [Ty.beq]
    intro h2; exact Ty.ty_beq_eq _ _ h2
  | .struct a, b => by
    cases b <;> simp [Ty.beq]
    intro h2; exact Ty.ty_beqFields_eq _ _ h2
theorem Ty.ty_beqList_eq : ∀ a b : List Ty, Ty.beqList a b = true → a = b
  | [], b => by cases b <;> simp [Ty.beqList]
  | a :: as, b => by
    cases b <;> simp [Ty.beqList]
    intro h1 h2; exact ⟨Ty.ty_beq_eq _ _ h1, Ty.ty_beqList_eq _ _ h2⟩
theorem Ty.ty_beqFields_eq :
    ∀ a b : List (String × String × Ty), Ty.beqFields a b = true → a = b
  | [], b => by cases b <;> simp [Ty.beqFields]
  | (n, p, a) :: as, b => by
    cases b with
    | nil => simp [Ty.beqFields]
    | cons hd tl =>
      obtain ⟨n2, p2, b2⟩ := hd
      simp [Ty.beqFields]
      intro h1 h2 h3 h4
      exact ⟨⟨h1, h2, Ty.ty_beq_eq _ _ h3⟩, Ty.ty_beqFields_eq _ _ h4⟩
end

mutual
theorem Ty.ty_beq_refl : ∀ a : Ty, Ty.beq a a = true
  | .basic a => by simp [Ty.beq]
  | .named n a => by simp [Ty.beq, Ty.ty_beq_refl a]
  | .array n a => by simp [Ty.beq, Ty.ty_beq_refl a]
  | .chan a => by simp [Ty.beq, Ty.ty_beq_refl a]
  | .func a1 a2 => by simp [Ty.beq, Ty.ty_beqList_refl a1, Ty.ty_beqList_refl a2]
  | .iface => by simp [Ty.beq]
  | .map a1 a2 => by simp [Ty.beq, Ty.ty_beq_refl a1, Ty.ty_beq_refl a2]
  | .ptr a => by simp [Ty.beq, Ty.ty_beq_refl a]
  | .slice a => by simp [Ty.beq, Ty.ty_beq_refl a]
  | .struct a => by simp [Ty.beq, Ty.ty_beqFields_refl a]
theorem Ty.ty_beqList_refl : ∀ a : List Ty, Ty.beqList a a = true
  | [] => by simp [Ty.beqList]
  | a :: as => by simp [Ty.beqList, Ty.ty_beq_refl a, Ty.ty_beqList_refl as]
theorem Ty.ty_beqFields_refl :
    ∀ a : List (String × String × Ty), Ty.beqFields a a = true
  | [] => by simp [Ty.beqFields]
  | (n, p, a) :: as => by
    simp [Ty.beqFields, Ty.ty_beq_refl a, Ty.ty_beqFields_refl as]
end

instance : DecidableEq Ty := fun a b =>
  if h : Ty.beq a b = true then isTrue (Ty.ty_beq_eq a b h)
  else isFalse (fun e => h (e ▸ Ty.ty_beq_refl a))

/-- The kind of a type: `reflect.Type.Kind`. -/
def Ty.kind : Ty → Kind
  | .basic k => k
  | .named _ u => u.kind
  | .array _ _ => .Array
  | .chan _ => .Chan
  | .func _ _ => .Func
  | .iface => .Interface
  | .map _ _ => .Map
  | .ptr _ => .Ptr
  | .slice _ => .Slice
  | .struct _ => .Struct

/-- The underlying type of a (possibly defined) type. -/
def Ty.underlying : Ty → Ty
  | .named _ u => u.underlying
  | t => t

/-- The element type of an array, chan, map, pointer or slice type:
`reflect.Type.Elem`. -/
def Ty.elem (t : Ty) : Option Ty :=
  match t.underlying with
  | .array _ e => some e
  | .chan e => some e
  | .map _ e => some e
  | .ptr e => some e
  | .slice e => some e
  | _ => none

/-- The fields of a struct type (`NumField` is the length of this list,
`Field(i)` its entry `i`). -/
def Ty.fields (t : Ty) : List (String × String × Ty) :=
  match t.underlying with
  | .struct fs => fs
  | _ => []

/-- The parameter types of a func type: `NumIn`, `In(i)`. -/
def Ty.ins (t : Ty) : List Ty :=
  match t.underlying with
  | .func is _ => is
  | _ => []

/-- The result types of a func type: `NumOut`, `Out(i)`. -/
def Ty.outs (t : Ty) : List Ty :=
  match t.underlying with
  | .func _ os => os
  | _ => []

/-! ## Values and memory -/

/-- A map key: a value of a comparable scalar kind.  `ptr` is a pointer key,
compared by address. -/
inductive Key
  | bool (b : Bool)
  | int (i : Int)
  | uint (n : Nat)
  | str (s : String)
  | ptr (a : Option Nat)
  deriving DecidableEq, Repr

/-- A run-time value.  Signed integers of every width are `int`, unsigned
ones `uint`; `float` holds the IEEE-754 binary64 bit pattern of a
floating-point number, `complex` the patterns of its two parts.  `ptr` holds
the address of a heap cell (`none` is the nil pointer), `map` the reference of
a heap map object, `slice` the elements of a slice (`none` is the nil slice),
`iface` the dynamic type and value held by an interface (`none` is the nil
interface). -/
inductive Val
  | bool (b : Bool)
  | int (i : Int)
  | uint (n : Nat)
  | float (bits : Nat)
  | complex (re im : Nat)
  | str (s : String)
  | ptr (a : Option Nat)
  | uptr (a : Nat)
  | map (r : Option Nat)
  | chan (r : Option Nat)
  | func (r : Option Nat)
  | slice (es : Option (List Val))
  | array (es : List Val)
  | struct (fs : List Val)
  | iface (dyn : Option (Ty × Val))

mutual
/-- Boolean (structural) equality of values. -/
def Val.beq : Val → Val → Bool
  | .bool a, y => match y with | .bool b => decide (a = b) | _ => false
  | .int a, y => match y with | .int b => decide (a = b) | _ => false
  | .uint a, y => match y with | .uint b => decide (a = b) | _ => false
  | .float a, y => match y with | .float b => decide (a = b) | _ => false
  | .complex a1 a2, y =>
    match y with
    | .complex b1 b2 => decide (a1 = b1) && decide (a2 = b2)
    | _ => false
  | .str a, y => match y with | .str b => decide (a = b) | _ => false
  | .ptr a, y => match y with | .ptr b => decide (a = b) | _ => false
  | .uptr a, y => match y with | .uptr b => decide (a = b) | _ => false
  | .map a, y => match y with | .map b => decide (a = b) | _ => false
  | .chan a, y => match y with | .chan b => decide (a = b) | _ => false
  | .func a, y => match y with | .func b => decide (a = b) | _ => false
  | .slice none, y => match y with | .slice none => true | _ => false
  | .slice (some a), y =>
    match y with
    | .slice (some b) => Val.beqList a b
    | _ => false
  | .array a, y => match y with | .array b => Val.beqList a b | _ => false
  | .struct a, y => match y with | .struct b => Val.beqList a b | _ => false
  | .iface none, y => match y with | .iface none => true | _ => false
  | .iface (some (s, a)), y =>
    match y with
    | .iface (some (t, b)) => decide (s = t) && Val.beq a b
    | _ => false
/-- Boolean equality of value lists. -/
def Val.beqList : List Val → List Val → Bool
  | [], y => match y with | [] => true | _ => false
  | a :: as, y => match y with | b :: bs => Val.beq a b && Val.beqList as bs | _ => false
end

mutual
theorem Val.val_beq_eq : ∀ a b : Val, Val.beq a b = true → a = b
  | .bool a, b => by cases b <;> simp [Val.beq]
  | .int a, b => by cases b <;> simp [Val.beq]
  | .uint a, b => by cases b <;> simp [Val.beq]
  | .float a, b => by cases b <;> simp [Val.beq]
  | .complex a1 a2, b => by cases b <;> simp [Val.beq]
  | .str a, b => by cases b <;> simp [Val.beq]
  | .ptr a, b => by cases b <;> simp [Val.beq]
  | .uptr a, b => by cases b <;> simp [Val.beq]
  | .map a, b => by cases b <;> simp [Val.beq]
  | .chan a, b => by cases b <;> simp [Val.beq]
  | .func a, b => by cases b <;> simp [Val.beq]
  | .slice none, b => by
    cases b with
    | slice es => cases es <;> simp [Val.beq]
    | _ => simp [Val.beq]
  | .slice (some a), b => by
    cases b with
    | slice es =>
      cases es with
      | none => simp [Val.beq]
      | some es => simp [Val.beq]; exact Val.val_beqList_eq _ _
    | _ => simp [Val.beq]
  | .array a, b => by
    cases b <;> simp [Val.beq]
    exact Val.val_beqList_eq _ _
  | .struct a, b => by
    cases b <;> simp [Val.beq]
    exact Val.val_beqList_eq _ _
  | .iface none, b => by
    cases b with
    | iface d => cases d <;> simp [Val.beq]
    | _ => simp [Val.beq]
  | .iface (some (s, a)), b => by
    cases b with
    | iface d =>
      cases d with
      | none => simp [Val.beq]
      | some d =>
        obtain ⟨t, b⟩ := d
        simp [Val.beq]
        intro h1 h2; exact ⟨h1, Val.val_beq_eq _ _ h2⟩
    | _ => simp [Val.beq]
theorem Val.val_beqList_eq : ∀ a b : List Val, Val.beqList a b = true → a = b
  | [], b => by cases b <;> simp [Val.beqList]
  | a :: as, b => by
    cases b <;> simp [Val.beqList]
    intro h1 h2; exact ⟨Val.val_beq_eq _ _ h1, Val.val_beqList_eq _ _ h2⟩
end

mutual
theorem Val.val_beq_refl : ∀ a : Val, Val.beq a a = true
  | .bool a => by simp [Val.beq]
  | .int a => by simp [Val.beq]
  | .uint a => by simp [Val.beq]
  | .float a => by simp [Val.beq]
  | .complex a1 a2 => by simp [Val.beq]
  | .str a => by simp [Val.beq]
  | .ptr a => by simp [Val.beq]
  | .uptr a => by simp [Val.beq]
  | .map a => by simp [Val.beq]
  | .chan a => by simp [Val.beq]
  | .func a => by simp [Val.beq]
  | .slice none => by simp [Val.beq]
  | .slice (some a) => by simp [Val.beq, Val.val_beqList_refl a]
  | .array a => by simp [Val.beq, Val.val_beqList_refl a]
  | .struct a => by simp [Val.beq, Val.val_beqList_refl a]
  | .iface none => by simp [Val.beq]
  | .iface (some (s, a)) => by simp [Val.beq, Val.val_beq_refl a]
theorem Val.val_beqList_refl : ∀ a : List Val, Val.beqList a a = true
  | [] => by simp [Val.beqList]
  | a :: as => by simp [Val.beqList, Val.val_beq_refl a, Val.val_beqList_refl as]
end

instance : DecidableEq Val := fun a b =>
  if h : Val.beq a b = true then isTrue (Val.val_beq_eq a b h)
  else isFalse (fun e => h (e ▸ Val.val_beq_refl a))

/-- The value of a key. -/
def Key.toVal : Key → Val
  | .bool b => .bool b
  | .int i => .int i
  | .uint n => .uint n
  | .str s => .str s
  | .ptr a => .ptr a

/-- The memory: `cells` are the allocated variables (a pointer holds an index
into this list), `maps` the map objects (a map value holds an index into this
list), each an association list in iteration order. -/
structure Heap where
  cells : List Val
  maps : List (List (Key × Val))
  deriving DecidableEq

/-- Lookup in a map object: the value stored under key `k`. -/
def mapLookup (k : Key) : List (Key × Val) → Option Val
  | [] => none
  | (k', v) :: r => if k' = k then some v else mapLookup k r

/-- Store `v` under key `k` in a map object (replacing an existing entry in
place, adding a new entry at the end). -/
def mapInsert (k : Key) (v : Val) : List (Key × Val) → List (Key × Val)
  | [] => [(k, v)]
  | (k', v') :: r =>
    if k' = k then (k, v) :: r else (k', v') :: mapInsert k v r

/-- Delete key `k` from a map object. -/
def mapErase (k : Key) (m : List (Key × Val)) : List (Key × Val) :=
  m.filter (fun e => decide (e.1 ≠ k))

/-- The value at a field path below a value (a path descends through struct
fields only). -/
def Val.getPath : Val → List Nat → Option Val
  | v, [] => some v
  | v, i :: p =>
    match v with
    | .struct fs =>
      match fs[i]? with
      | some f => f.getPath p
      | none => none
    | _ => none

/-- Replace the value at a field path below a value. -/
def Val.setPath : Val → List Nat → Val → Option Val
  | _, [], x => some x
  | v, i :: p, x =>
    match v with
    | .struct fs =>
      match fs[i]? with
      | some f =>
        match f.setPath p x with
        | some f' => some (.struct (fs.set i f'))
        | none => none
      | none => none
    | _ => none

/-- Read the location `(a, p)`: field path `p` of cell `a`. -/
def Heap.read (h : Heap) (a : Nat) (p : List Nat) : Option Val :=
  match h.cells[a]? with
  | some c => c.getPath p
  | none => none

/-- Write `x` to the location `(a, p)`. -/
def Heap.write (h : Heap) (a : Nat) (p : List Nat) (x : Val) : Option Heap :=
  match h.cells[a]? with
  | some c =>
    match c.setPath p x with
    | some c' => some { h with cells := h.cells.set a c' }
    | none => none
  | none => none

/-- Allocate a new cell holding `v`; the result is the new heap and the
address of the cell. -/
def Heap.alloc (h : Heap) (v : Val) : Heap × Nat :=
  ({ h with cells := h.cells ++ [v] }, h.cells.length)

/-- Allocate a new, empty map object; the result is the new heap and the
reference of the object. -/
def Heap.allocMap (h : Heap) : Heap × Nat :=
  ({ h with maps := h.maps ++ [[]] }, h.maps.length)

/-- Replace the map object `r`. -/
def Heap.setMap (h : Heap) (r : Nat) (m : List (Key × Val)) : Heap :=
  { h with maps := h.maps.set r m }

/-! ## Outcomes -/

/-- The errors the package returns (one constructor per `errors.New` or
`fmt.Errorf` site, with the types the message prints), and `custom`, an error
returned by a registered function. -/
inductive MergeError
  | targetNil
  | targetNotPtr
  | targetZero
  | sourceZero
  | deepMergeType (src dst : Ty)
  | directMergeInvalidDst
  | directMergeType (src dst : Ty)
  | cannotConvert (src dst : Ty)
  | cannotConvertElem (src dst srcE dstE : Ty)
  | expectedFunc (ft : Ty)
  | expectedThreeIn (ft : Ty)
  | expectedTwoOut (ft : Ty)
  | inOutMismatch (in0 out0 : Ty)
  | expectedOptions (a ft : Ty)
  | expectedError (ft : Ty)
  | custom (msg : String)
  deriving DecidableEq

/-- The run-time panics of `reflect` the package can run into, and
`registration`, the `panic(err)` of `WithMergeFuncs`. -/
inductive PanicKind
  | zeroValue
  | badKind
  | setUnaddressable
  | notAssignable (have_ want : Ty)
  | nilMapAssign
  | indexOutOfRange
  | callArity
  | badConvert (src dst : Ty)
  | inFunc
  | registration (e : MergeError)
  deriving DecidableEq

/-- How a computation ends when it does not produce a result: with a returned
`error`, with a panic, `stuck` (a handle whose type does not fit the value
stored in the untyped heap of this model, or a dangling address: no Go
execution reaches this), or out of fuel. -/
inductive Fault
  | error (e : MergeError)
  | panic (p : PanicKind)
  | stuck
  | outOfFuel
  deriving DecidableEq

/-- The outcome of a computation: a result or a fault, and the heap at that
point. -/
inductive Res (α : Type)
  | ok (a : α) (h : Heap)
  | fail (f : Fault) (h : Heap)
  deriving DecidableEq

/-- The heap of an outcome. -/
def Res.heap {α : Type} : Res α → Heap
  | .ok _ h => h
  | .fail _ h => h

/-- A computation over the heap. -/
def M (α : Type) : Type := Heap → Res α

/-- Sequencing: a fault ends the computation and keeps the heap reached. -/
def M.bind {α β : Type} (x : M α) (f : α → M β) : M β := fun h =>
  match x h with
  | .ok a h' => f a h'
  | .fail e h' => .fail e h'

instance : Monad M where
  pure a := fun h => .ok a h
  bind := M.bind

/-- End with a fault. -/
def M.fail {α : Type} (f : Fault) : M α := fun h => .fail f h

/-- Run a computation that only reads the heap. -/
def M.rd {α : Type} (f : Heap → Except Fault α) : M α := fun h =>
  match f h with
  | .ok a => .ok a h
  | .error e => .fail e h

/-- Run a computation that produces a new heap. -/
def M.upd (f : Heap → Except Fault Heap) : M Unit := fun h =>
  match f h with
  | .ok h' => .ok () h'
  | .error e => .fail e h

/-! ## reflect.Value -/

/-- A `reflect.Value`: the zero Value, a non-addressable value of type `t`
(it carries its own copy of `v`), or an addressable one: the variable in cell
`a`, or the field at `path` below it.  No handle of this package is obtained
through an unexported struct field (`deepMerge` does not walk the fields of a
struct that has one), so the read-only flag of `reflect` is never set and is
not modelled. -/
inductive Value
  | invalid
  | direct (t : Ty) (v : Val)
  | addr (t : Ty) (a : Nat) (path : List Nat)
  deriving DecidableEq

/-- The kind of a handle: `Value.Kind()` (`Invalid` for the zero Value). -/
def Value.kind : Value → Kind
  | .invalid => .Invalid
  | .direct t _ => t.kind
  | .addr t _ _ => t.kind

/-- Whether the handle is not the zero Value: `Value.IsValid()`. -/
def Value.IsValid : Value → Bool
  | .invalid => false
  | _ => true

/-- Whether the handle can be assigned through: `Value.CanSet()`. -/
def Value.CanSet : Value → Bool
  | .addr _ _ _ => true
  | _ => false

/-- The type of a handle: `Value.Type()`, which panics on the zero Value. -/
def Value.typ : Value → Except Fault Ty
  | .invalid => .error (.panic .zeroValue)
  | .direct t _ => .ok t
  | .addr t _ _ => .ok t

/-- The value a handle currently denotes. -/
def Value.load (h : Heap) : Value → Except Fault Val
  | .invalid => .error (.panic .zeroValue)
  | .direct _ v => .ok v
  | .addr _ a p =>
    match h.read a p with
    | some v => .ok v
    | none => .error .stuck

/-- The value an interface holds or a pointer points to: `Value.Elem()`.  The
content of an interface is a non-addressable copy; the pointee of a pointer is
addressable.  A nil interface or pointer gives the zero Value. -/
def Value.Elem (h : Heap) (v : Value) : Except Fault Value :=
  match v.kind with
  | .Interface =>
    match v.load h with
    | .ok (.iface none) => .ok .invalid
    | .ok (.iface (some (t, x))) => .ok (.direct t x)
    | .ok _ => .error .stuck
    | .error e => .error e
  | .Ptr =>
    match v.load h, v.typ with
    | .ok (.ptr none), _ => .ok .invalid
    | .ok (.ptr (some a)), .ok t =>
      match t.elem with
      | some e => .ok (.addr e a [])
      | none => .error .stuck
    | .ok _, _ => .error .stuck
    | .error e, _ => .error e
  | _ => .error (.panic .badKind)

/-- The nil test `Value.IsNil()`; it panics on a kind that has no nil. -/
def Value.IsNil (h : Heap) (v : Value) : Except Fault Bool :=
  match v.kind, v.load h with
  | .Chan, .ok (.chan r) => .ok r.isNone
  | .Func, .ok (.func r) => .ok r.isNone
  | .Interface, .ok (.iface d) => .ok d.isNone
  | .Map, .ok (.map r) => .ok r.isNone
  | .Ptr, .ok (.ptr a) => .ok a.isNone
  | .Slice, .ok (.slice es) => .ok es.isNone
  | .UnsafePointer, .ok (.uptr a) => .ok (a == 0)
  | .Chan, _ => .error .stuck
  | .Func, _ => .error .stuck
  | .Interface, _ => .error .stuck
  | .Map, _ => .error .stuck
  | .Ptr, _ => .error .stuck
  | .Slice, _ => .error .stuck
  | .UnsafePointer, _ => .error .stuck
  | _, _ => .error (.panic .badKind)

/-- The number of fields of a struct handle: `Value.NumField()`. -/
def Value.NumField (v : Value) : Except Fault Nat :=
  match v.kind, v.typ with
  | .Struct, .ok t => .ok t.fields.length
  | _, _ => .error (.panic .badKind)

/-- Field `i` of a struct handle: `Value.Field(i)`.  The field of an
addressable struct is addressable. -/
def Value.Field (v : Value) (i : Nat) : Except Fault Value :=
  match v.kind with
  | .Struct =>
    match v with
    | .invalid => .error (.panic .zeroValue)
    | .direct t x =>
      match t.fields[i]? with
      | some (_, _, ft) =>
        match x with
        | .struct fs =>
          match fs[i]? with
          | some f => .ok (.direct ft f)
          | none => .error .stuck
        | _ => .error .stuck
      | none => .error (.panic .indexOutOfRange)
    | .addr t a p =>
      match t.fields[i]? with
      | some (_, _, ft) => .ok (.addr ft a (p ++ [i]))
      | none => .error (.panic .indexOutOfRange)
  | _ => .error (.panic .badKind)

/-- Whether a type is a defined (named) type: a declared type or one of the
predeclared types. -/
def Ty.isDefined : Ty → Bool
  | .named _ _ => true
  | .basic _ => true
  | _ => false

/-- Assignability of a value of type `src` to a location of type `dst`, as far
as this package exercises it: identical types, an interface destination
(every type implements the empty interface), or identical underlying types
when at least one of the two types is not a defined type (so a `*E` is
assignable to a location of a type declared as `type P *E`). -/
def assignable (dst src : Ty) : Bool :=
  decide (src = dst) || decide (dst.kind = .Interface) ||
    (decide (dst.underlying = src.underlying) &&
      !(dst.isDefined && src.isDefined))

/-- The value stored when a value `x` of type `src` is assigned to a location
of type `dst`: a concrete value assigned to an interface location is wrapped
with its dynamic type. -/
def assignTo (dst src : Ty) (x : Val) : Val :=
  if dst.kind = .Interface ∧ src.kind ≠ .Interface then .iface (some (src, x))
  else x

/-- Assignment through a handle: `dst.Set(x)`.  It panics when `dst` is not
addressable, when `x` is the zero Value, and when the type of `x` is not
assignable to the type of `dst`. -/
def Value.Set (dst x : Value) (h : Heap) : Except Fault Heap :=
  match dst with
  | .addr t a p =>
    match x.typ, x.load h with
    | .ok tx, .ok xv =>
      if assignable t tx then
        match h.write a p (assignTo t tx xv) with
        | some h' => .ok h'
        | none => .error .stuck
      else .error (.panic (.notAssignable tx t))
    | .error e, _ => .error e
    | _, .error e => .error e
  | _ => .error (.panic .setUnaddressable)

/-- The length of an array, map, slice or string: `Value.Len()`. -/
def Value.Len (h : Heap) (v : Value) : Except Fault Nat :=
  match v.kind, v.load h with
  | .Array, .ok (.array es) => .ok es.length
  | .Map, .ok (.map none) => .ok 0
  | .Map, .ok (.map (some r)) =>
    match h.maps[r]? with
    | some m => .ok m.length
    | none => .error .stuck
  | .Slice, .ok (.slice none) => .ok 0
  | .Slice, .ok (.slice (some es)) => .ok es.length
  | .String, .ok (.str s) => .ok s.length
  | .Array, _ => .error .stuck
  | .Map, _ => .error .stuck
  | .Slice, _ => .error .stuck
  | .String, _ => .error .stuck
  | _, _ => .error (.panic .badKind)

/-- The keys of a map, in iteration order: `Value.MapKeys()`. -/
def Value.MapKeys (h : Heap) (v : Value) : Except Fault (List Key) :=
  match v.kind, v.load h with
  | .Map, .ok (.map none) => .ok []
  | .Map, .ok (.map (some r)) =>
    match h.maps[r]? with
    | some m => .ok (m.map (fun e => e.1))
    | none => .error .stuck
  | .Map, _ => .error .stuck
  | _, _ => .error (.panic .badKind)

/-- The entry of a map under a key: `Value.MapIndex(key)`, a non-addressable
copy of the element, or the zero Value when the key is absent (or the map is
nil). -/
def Value.MapIndex (h : Heap) (v : Value) (k : Key) : Except Fault Value :=
  match v.kind, v.load h, v.typ with
  | .Map, .ok (.map none), _ => .ok .invalid
  | .Map, .ok (.map (some r)), .ok t =>
    match h.maps[r]?, t.elem with
    | some m, some e =>
      match mapLookup k m with
      | some x => .ok (.direct e x)
      | none => .ok .invalid
    | _, _ => .error .stuck
  | .Map, _, _ => .error .stuck
  | _, _, _ => .error (.panic .badKind)

/-- Store into a map: `v.SetMapIndex(key, elem)`.  The zero Value as `elem`
deletes the key; storing into a nil map panics. -/
def Value.SetMapIndex (v : Value) (k : Key) (elem : Value) (h : Heap) :
    Except Fault Heap :=
  match v.kind, v.load h, v.typ with
  | .Map, .ok (.map r), .ok t =>
    match elem with
    | .invalid =>
      match r with
      | none => .ok h
      | some r =>
        match h.maps[r]? with
        | some m => .ok (h.setMap r (mapErase k m))
        | none => .error .stuck
    | _ =>
      match elem.typ, elem.load h, t.elem with
      | .ok te, .ok x, some e =>
        if assignable e te then
          match r with
          | none => .error (.panic .nilMapAssign)
          | some r =>
            match h.maps[r]? with
            | some m => .ok (h.setMap r (mapInsert k (assignTo e te x) m))
            | none => .error .stuck
        else .error (.panic (.notAssignable te e))
      | .error e, _, _ => .error e
      | _, .error e, _ => .error e
      | _, _, none => .error .stuck
  | .Map, _, _ => .error .stuck
  | _, _, _ => .error (.panic .badKind)

/-- The zero value of a scalar kind. -/
def zeroOfKind : Kind → Val
  | .Bool => .bool false
  | .Int | .Int8 | .Int16 | .Int32 | .Int64 => .int 0
  | .Uint | .Uint8 | .Uint16 | .Uint32 | .Uint64 | .Uintptr => .uint 0
  | .Float32 | .Float64 => .float 0
  | .Complex64 | .Complex128 => .complex 0 0
  | .String => .str ""
  | .UnsafePointer => .uptr 0
  | _ => .struct []

mutual
/-- The zero value of a type: `reflect.Zero`. -/
def Ty.zero : Ty → Val
  | .basic k => zeroOfKind k
  | .named _ u => u.zero
  | .array n e => .array (List.replicate n e.zero)
  | .chan _ => .chan none
  | .func _ _ => .func none
  | .iface => .iface none
  | .map _ _ => .map none
  | .ptr _ => .ptr none
  | .slice _ => .slice none
  | .struct fs => .struct (Ty.zeroFields fs)
/-- The zero values of the fields of a struct type. -/
def Ty.zeroFields : List (String × String × Ty) → List Val
  | [] => []
  | (_, _, t) :: r => t.zero :: Ty.zeroFields r
end

/-- A pointer to a new zero value: `reflect.New(t)`. -/
def New (t : Ty) : M Value := fun h =>
  .ok (.direct (.ptr t) (.ptr (some (h.alloc t.zero).2))) (h.alloc t.zero).1

/-- A new, empty map: `reflect.MakeMap(t)`. -/
def MakeMap (t : Ty) : M Value := fun h =>
  .ok (.direct t (.map (some h.allocMap.2))) h.allocMap.1

/-- The concatenation of two slices: `reflect.AppendSlice(s, t)`.  Appending
nothing to a nil slice gives a nil slice. -/
def AppendSlice (s t : Value) (h : Heap) : Except Fault Value :=
  match s.kind, t.kind, s.load h, t.load h, s.typ, t.typ with
  | .Slice, .Slice, .ok (.slice a), .ok (.slice b), .ok ts, .ok tt =>
    if ts = tt then
      match a, b.getD [] with
      | none, [] => .ok (.direct ts (.slice none))
      | a, bs => .ok (.direct ts (.slice (some (a.getD [] ++ bs))))
    else .error (.panic (.notAssignable tt ts))
  | .Slice, .Slice, _, _, _, _ => .error .stuck
  | _, _, _, _, _, _ => .error (.panic .badKind)

/-- Append elements to a slice: `reflect.Append(s, x...)`, for elements `xs`
taken from a slice of the same type. -/
def Append (s : Value) (xs : List Val) (h : Heap) : Except Fault Value :=
  match s.kind, s.load h, s.typ with
  | .Slice, .ok (.slice a), .ok ts =>
    match a, xs with
    | none, [] => .ok (.direct ts (.slice none))
    | a, xs => .ok (.direct ts (.slice (some (a.getD [] ++ xs))))
  | .Slice, _, _ => .error .stuck
  | _, _, _ => .error (.panic .badKind)

/-- The elements of a slice, read with `Len()` and `Index(i)`. -/
def sliceElems (v : Value) (h : Heap) : Except Fault (List Val) :=
  match v.kind, v.load h with
  | .Slice, .ok (.slice a) => .ok (a.getD [])
  | .Slice, _ => .error .stuck
  | _, _ => .error (.panic .badKind)

/-- Whether a binary64 bit pattern is a NaN. -/
def floatIsNaN (bits : Nat) : Bool :=
  decide ((bits / 2 ^ 52) % 2 ^ 11 = 2047) && decide (bits % 2 ^ 52 ≠ 0)

/-- Whether a binary64 bit pattern is `+0` or `-0`. -/
def floatIsZero (bits : Nat) : Bool := decide (bits % 2 ^ 63 = 0)

/-- Equality of two values as keys of a Go map, for the hashable scalar kinds
(floating-point keys compare as numbers: a NaN equals nothing, the two zeros
are equal). -/
def keyEq : Val → Val → Bool
  | .bool a, .bool b => decide (a = b)
  | .int a, .int b => decide (a = b)
  | .uint a, .uint b => decide (a = b)
  | .str a, .str b => decide (a = b)
  | .ptr a, .ptr b => decide (a = b)
  | .uptr a, .uptr b => decide (a = b)
  | .float a, .float b =>
    !floatIsNaN a && !floatIsNaN b &&
      (decide (a = b) || (floatIsZero a && floatIsZero b))
  | _, _ => false

/-! ## porter.go: helpers -/

/-- Whether a value is empty for its kind, porter.go `isEmptyValue` (copied
there from encoding/json): length 0 for arrays, maps, slices and strings,
false, 0, and nil for interfaces and pointers.  Every other kind, the zero
Value included, is not empty. -/
def isEmptyValue (h : Heap) (v : Value) : Bool :=
  match v.kind with
  | .Array | .Map | .Slice | .String =>
    match v.Len h with
    | .ok n => n == 0
    | .error _ => false
  | .Bool =>
    match v.load h with
    | .ok (.bool b) => !b
    | _ => false
  | .Int | .Int8 | .Int16 | .Int32 | .Int64 =>
    match v.load h with
    | .ok (.int i) => i == 0
    | _ => false
  | .Uint | .Uint8 | .Uint16 | .Uint32 | .Uint64 | .Uintptr =>
    match v.load h with
    | .ok (.uint n) => n == 0
    | _ => false
  | .Float32 | .Float64 =>
    match v.load h with
    | .ok (.float b) => floatIsZero b
    | _ => false
  | .Interface | .Ptr =>
    match v.IsNil h with
    | .ok b => b
    | .error _ => false
  | _ => false

/-- Whether a struct type has a field that is not exported, porter.go
`hasUnexportedField`: `PkgPath` is non-empty for such a field. -/
def hasUnexportedField (tpy : Ty) : Bool :=
  tpy.fields.any (fun field => decide (field.2.1.length > 0))

/-- The element kinds whose values `UniteSlice` can collect in a set,
porter.go `hashable`. -/
def hashable (t : Ty) : Bool :=
  match t.kind with
  | .Int | .Int8 | .Int16 | .Int32 | .Int64
  | .Uint | .Uint8 | .Uint16 | .Uint32 | .Uint64 | .Uintptr => true
  | .Float32 | .Float64 => true
  | .Bool => true
  | .String => true
  | .Ptr => true
  | .UnsafePointer => true
  | _ => false

/-- Whether the built-in conversion applies from `src` to `dst`, porter.go
`convertible`. -/
def convertible (dst src : Ty) : Bool :=
  match src.kind with
  | .Int | .Int8 | .Int16 | .Int32 | .Int64 =>
    match dst.kind with
    | .Int | .Int8 | .Int16 | .Int32 | .Int64
    | .Uint | .Uint8 | .Uint16 | .Uint32 | .Uint64 | .Uintptr => true
    | .Float32 | .Float64 => true
    | _ => false
  | .Uint | .Uint8 | .Uint16 | .Uint32 | .Uint64 | .Uintptr =>
    match dst.kind with
    | .Int | .Int8 | .Int16 | .Int32 | .Int64
    | .Uint | .Uint8 | .Uint16 | .Uint32 | .Uint64 | .Uintptr => true
    | .Float32 | .Float64 => true
    | _ => false
  | .Float32 | .Float64 =>
    match dst.kind with
    | .Int | .Int8 | .Int16 | .Int32 | .Int64 => true
    | .Uint | .Uint8 | .Uint16 | .Uint32 | .Uint64 | .Uintptr => true
    | .Float32 | .Float64 => true
    | _ => false
  | .Complex64 | .Complex128 =>
    match dst.kind with
    | .Complex64 | .Complex128 => true
    | _ => false
  | .String => decide (dst.kind = .String)
  | _ => false

/-- The value behind the interface layers of a non-addressable value. -/
def derefDirect : Ty → Val → Except Fault Value
  | t, .iface none =>
    if t.kind = .Interface then .ok .invalid else .ok (.direct t (.iface none))
  | t, .iface (some (t', v')) =>
    if t.kind = .Interface then derefDirect t' v'
    else .ok (.direct t (.iface (some (t', v'))))
  | t, v => if t.kind = .Interface then .error .stuck else .ok (.direct t v)

/-- The value behind every interface layer, porter.go `derefInterface`:
`for in.Kind() == reflect.Interface { in = in.Elem() }`. -/
def derefInterface (v : Value) (h : Heap) : Except Fault Value :=
  match v with
  | .invalid => .ok .invalid
  | .direct t x => derefDirect t x
  | .addr t a p =>
    if t.kind = .Interface then
      match h.read a p with
      | some x => derefDirect t x
      | none => .error .stuck
    else .ok (.addr t a p)

/-- The value behind every pointer and interface layer, porter.go `derefPtr`:
`for in.Kind() == reflect.Ptr || in.Kind() == reflect.Interface
{ in = in.Elem() }`.  The loop follows run-time data; `n` bounds the number of
its iterations. -/
def derefPtr (h : Heap) : Nat → Value → Except Fault Value
  | 0, v =>
    if v.kind = .Ptr ∨ v.kind = .Interface then .error .outOfFuel else .ok v
  | n + 1, v =>
    if v.kind = .Ptr ∨ v.kind = .Interface then
      match v.Elem h with
      | .ok e => derefPtr h n e
      | .error f => .error f
    else .ok v

/-! ## merge.go: options, and the registry of porter.go -/

/-- The slice merge strategy, merge.go `SliceMergeMode` (a string type). -/
abbrev SliceMergeMode := String

/-- merge.go `ReplaceSlice`. -/
def ReplaceSlice : SliceMergeMode := "Replace"
/-- merge.go `UniteSlice`. -/
def UniteSlice : SliceMergeMode := "Unite"
/-- merge.go `AppendSlice`. -/
def AppendSliceMode : SliceMergeMode := "Append"

/-- The exported fields of merge.go `Options`: what a registered function can
read of the `*Options` it is passed. -/
structure OptionFields where
  Overwrite : Bool
  GoConvertion : Bool
  SliceMode : SliceMergeMode
  AppendSlice : Bool
  IntersectSlice : Bool

/-- What a call of a Go function value does: it returns its two results (the
second one an `error`, `none` for nil), or it panics. -/
inductive FuncResult
  | returns (ret0 : Val) (err : Option String)
  | panics

/-- A Go function value as `reflect` sees it: its type, and what a call with
two arguments and the options does.  A function reads its arguments and the
heap; it does not write the heap. -/
structure Func where
  typ : Ty
  impl : Heap → Val → Val → OptionFields → FuncResult

/-- The key of the convert table, porter.go `pair`. -/
structure pair where
  Dst : Ty
  Src : Ty
  deriving DecidableEq

/-- Lookup in a Go map used as a table. -/
def tableLookup {κ : Type} [DecidableEq κ] (k : κ) :
    List (κ × Func) → Option Func
  | [] => none
  | (k', f) :: r => if k' = k then some f else tableLookup k r

/-- Store in a Go map used as a table: `table[k] = f`. -/
def tableInsert {κ : Type} [DecidableEq κ] (k : κ) (f : Func) :
    List (κ × Func) → List (κ × Func)
  | [] => [(k, f)]
  | (k', f') :: r =>
    if k' = k then (k, f) :: r else (k', f') :: tableInsert k f r

/-- The registry, porter.go `porter`. -/
structure porter where
  mergeFuncs : List (Ty × Func)
  convertFuncs : List (pair × Func)

/-- porter.go `newPorter`. -/
def newPorter : porter := { mergeFuncs := [], convertFuncs := [] }

/-- merge.go `Options`. -/
structure Options extends OptionFields where
  delegate : porter

/-- merge.go `newOptions`. -/
def newOptions : Options :=
  { Overwrite := true, GoConvertion := true, SliceMode := ReplaceSlice,
    AppendSlice := false, IntersectSlice := false, delegate := newPorter }

/-- The type `error`. -/
def errorType : Ty := .named "error" .iface

/-- The type `reflect.Type`. -/
def reflectType : Ty := .named "reflect.Type" .iface

/-- The type `reflect.Value` (its fields, internal to `reflect`, are not
listed). -/
def reflectValue : Ty := .named "reflect.Value" (.struct [])

/-- The type `porter`. -/
def porterType : Ty :=
  .named "gomerge.porter" (.struct [
    ("mergeFuncs", "gomerge", .map reflectType reflectValue),
    ("convertFuncs", "gomerge",
      .map (.named "gomerge.pair"
        (.struct [("Dst", "", reflectType), ("Src", "", reflectType)]))
        reflectValue)])

/-- The type `Options`. -/
def optionsType : Ty :=
  .named "gomerge.Options" (.struct [
    ("Overwrite", "", .basic .Bool),
    ("GoConvertion", "", .basic .Bool),
    ("SliceMode", "", .named "gomerge.SliceMergeMode" (.basic .String)),
    ("AppendSlice", "", .basic .Bool),
    ("IntersectSlice", "", .basic .Bool),
    ("delegate", "gomerge", .ptr porterType)])

/-- Verifies whether a registered function has a correct signature, porter.go
`verifyCustomMergeFunctionSignature`: the two results are `convertion` and
`err`. -/
def verifyCustomMergeFunctionSignature (ft : Ty) : Bool × Option MergeError :=
  if ft.kind ≠ .Func then (false, some (.expectedFunc ft))
  else if ft.ins.length ≠ 3 then (false, some (.expectedThreeIn ft))
  else if ft.outs.length ≠ 2 then (false, some (.expectedTwoOut ft))
  else
    match ft.ins, ft.outs with
    | [in0, in1, in2], [out0, out1] =>
      let convertion := decide (in0 ≠ in1)
      if in0 ≠ out0 then (convertion, some (.inOutMismatch in0 out0))
      else if Ty.ptr optionsType ≠ in2 then
        (convertion, some (.expectedOptions in2 ft))
      else if out1 ≠ errorType then (convertion, some (.expectedError ft))
      else (convertion, none)
    | _, _ => (false, some (.expectedFunc ft))

/-- Register functions, porter.go `addCustomFuncs`: the result is the registry
after the call and the error returned (`none` for nil).  The loop stores each
function as it goes and returns at the first malformed one. -/
def porter.addCustomFuncs (m : porter) : List Func → porter × Option MergeError
  | [] => (m, none)
  | fv :: fns =>
    match verifyCustomMergeFunctionSignature fv.typ with
    | (_, some err) => (m, some err)
    | (true, none) =>
      match fv.typ.ins with
      | in0 :: in1 :: _ =>
        porter.addCustomFuncs
          { m with convertFuncs := tableInsert ⟨in0, in1⟩ fv m.convertFuncs } fns
      | _ => (m, some (.expectedThreeIn fv.typ))
    | (false, none) =>
      match fv.typ.ins with
      | in0 :: _ =>
        porter.addCustomFuncs
          { m with mergeFuncs := tableInsert in0 fv m.mergeFuncs } fns
      | _ => (m, some (.expectedThreeIn fv.typ))

/-! ## The built-in conversion -/

/-- The floating-point arithmetic of the host, which this model does not
compute: `intToFloat k i` is the number `i` converted to the floating-point
kind `k`, `floatToInt b` is `int64(b)` and `floatToUint b` is `uint64(b)`
(two conversions of their own: they differ on a `b` out of the range of
`int64`, where the result depends on the machine), `floatToFloat k b` the
number `b` converted to kind `k` (all floating-point values are binary64 bit
patterns; a `float32` is held as the binary64 of equal value). -/
structure Host where
  intToFloat : Kind → Int → Nat
  floatToInt : Nat → Int
  floatToUint : Nat → Nat
  floatToFloat : Kind → Nat → Nat

/-- The width in bits of an integer kind (`int`, `uint` and `uintptr` have 64
bits). -/
def intBits : Kind → Nat
  | .Int8 | .Uint8 => 8
  | .Int16 | .Uint16 => 16
  | .Int32 | .Uint32 => 32
  | _ => 64

/-- Truncation of an integer to the signed integer kind `k` (two's
complement). -/
def wrapInt (k : Kind) (i : Int) : Int :=
  (i + 2 ^ (intBits k - 1)) % 2 ^ intBits k - 2 ^ (intBits k - 1)

/-- Truncation of an integer to the unsigned integer kind `k`. -/
def wrapUint (k : Kind) (i : Int) : Nat := (i % 2 ^ intBits k).toNat

/-- The families of kinds between which Go converts. -/
inductive NumClass
  | signed | unsigned | float | complex | string | other
  deriving DecidableEq

/-- The family of a kind. -/
def numClass : Kind → NumClass
  | .Int | .Int8 | .Int16 | .Int32 | .Int64 => .signed
  | .Uint | .Uint8 | .Uint16 | .Uint32 | .Uint64 | .Uintptr => .unsigned
  | .Float32 | .Float64 => .float
  | .Complex64 | .Complex128 => .complex
  | .String => .string
  | _ => .other

/-- Go's conversion of a value `x` of type `src` to type `dst`:
`reflect.Value.Convert`, for the pairs of kinds `convertible` admits (`none`
stands for the panic of `Convert` on another pair). -/
def Convert (H : Host) (src : Ty) (x : Val) (dst : Ty) : Option Val :=
  match numClass src.kind, numClass dst.kind, x with
  | .signed, .signed, .int i => some (.int (wrapInt dst.kind i))
  | .signed, .unsigned, .int i => some (.uint (wrapUint dst.kind i))
  | .signed, .float, .int i => some (.float (H.intToFloat dst.kind i))
  | .unsigned, .signed, .uint n => some (.int (wrapInt dst.kind n))
  | .unsigned, .unsigned, .uint n => some (.uint (wrapUint dst.kind n))
  | .unsigned, .float, .uint n => some (.float (H.intToFloat dst.kind n))
  | .float, .signed, .float b => some (.int (wrapInt dst.kind (H.floatToInt b)))
  | .float, .unsigned, .float b =>
    some (.uint (wrapUint dst.kind (H.floatToUint b)))
  | .float, .float, .float b => some (.float (H.floatToFloat dst.kind b))
  | .complex, .complex, .complex re im =>
    if dst.kind = .Complex64 then
      some (.complex (H.floatToFloat .Float32 re) (H.floatToFloat .Float32 im))
    else some (.complex re im)
  | .string, .string, .str s => some (.str s)
  | _, _, _ => none

/-- The built-in conversion function, porter.go `goConvertion`, of type
`func(dst, src interface{}, o *Options) (interface{}, error)`:
it converts `src` to the type of `dst` if `o.Overwrite` or `dst` is empty, and
returns `dst` otherwise.  A nil `dst` makes it panic (`Type()` or
`Interface()` of the zero Value), as does a nil `src` it has to convert. -/
def goConvertion (H : Host) : Func where
  typ := .func [.iface, .iface, .ptr optionsType] [.iface, errorType]
  impl := fun h dst src o =>
    match dst with
    | .iface (some (dt, dv)) =>
      if o.Overwrite || isEmptyValue h (.direct dt dv) then
        match src with
        | .iface (some (st, sv)) =>
          match Convert H st sv dt with
          | some c => .returns (.iface (some (dt, c))) none
          | none => .panics
        | _ => .panics
      else .returns dst none
    | _ => .panics

/-- Call a registered function, porter.go `callCustom`:
`custom.Call([dstV, srcV, reflect.ValueOf(o)])`, then the two results.
`Call` panics on a zero Value argument and on an argument whose type is not
assignable to the parameter's type. -/
def porter.callCustom (_m : porter) (custom : Func) (dstV srcV : Value)
    (o : Options) : M (Value × Option String) :=
  M.rd fun h =>
    match custom.typ.ins with
    | [p0, p1, p2] =>
      match dstV.typ, srcV.typ with
      | .ok td, .ok ts =>
        if assignable p0 td && assignable p1 ts
            && assignable p2 (.ptr optionsType) then
          match dstV.load h, srcV.load h with
          | .ok dv, .ok sv =>
            match custom.impl h (assignTo p0 td dv) (assignTo p1 ts sv)
                o.toOptionFields with
            | .returns r e =>
              match custom.typ.outs with
              | out0 :: _ :: _ => .ok (.direct out0 r, e)
              | _ => .error (.panic .indexOutOfRange)
            | .panics => .error (.panic .inFunc)
          | .error e, _ => .error e
          | _, .error e => .error e
        else .error (.panic (.notAssignable td p0))
      | .error e, _ => .error e
      | _, .error e => .error e
    | _ => .error (.panic .callArity)

/-- Find a conversion from `src` to `dst`, porter.go `converter`: a registered
convert function for the pair, else the built-in conversion when it is
enabled and applies. -/
def porter.converter (H : Host) (m : porter) (dst src : Ty) (o : Options) :
    Option Func :=
  match tableLookup (pair.mk dst src) m.convertFuncs with
  | some convert => some convert
  | none =>
    if o.GoConvertion && convertible dst src then some (goConvertion H)
    else none

/-! ## porter.go: directMerge, convert, deepMerge -/

/-- Treat `dst` and `src` as single entities and assign, porter.go
`directMerge`. -/
def directMerge (dst src : Value) (o : Options) : M Unit := do
  let dstE ← M.rd (derefInterface dst)
  let srcE ← M.rd (derefInterface src)
  if !dstE.IsValid then M.fail (.error .directMergeInvalidDst)
  else if !srcE.IsValid then pure ()
  else do
    let dstT ← M.rd (fun _ => dstE.typ)
    let srcT ← M.rd (fun _ => srcE.typ)
    if dstT ≠ srcT then M.fail (.error (.directMergeType srcT dstT))
    else if !dst.CanSet then pure ()
    else do
      let empty ← M.rd (fun h => .ok (isEmptyValue h dstE))
      if o.Overwrite || empty then M.upd (dst.Set srcE) else pure ()

/-- The type and kind of the value behind the interface, for a handle whose
type `t` has interface kind (porter.go `convert`: "get true type behind
interface{}"). -/
def trueType (v : Value) (t : Ty) : M (Ty × Kind) :=
  if t.kind = .Interface then do
    let e ← M.rd (derefInterface v)
    let te ← M.rd (fun _ => e.typ)
    pure (te, e.kind)
  else pure (t, t.kind)

/-- Merge values of different types, porter.go `convert`.  `deepMerge` is the
function `convert` calls for a same-typed pair of pointees, `n` the bound
passed to `derefPtr`. -/
def porter.convert (H : Host) (m : porter) (n : Nat)
    (deepMerge : Value → Value → Options → M Unit)
    (dst src : Value) (o : Options) : M Unit := do
  let dstType0 ← M.rd (fun _ => dst.typ)
  let srcType0 ← M.rd (fun _ => src.typ)
  let (dstType, dstKind) ← trueType dst dstType0
  let (srcType, srcKind) ← trueType src srcType0
  match m.converter H dstType srcType o with
  | some convert => do
    let (converted, err) ← m.callCustom convert dst src o
    match err with
    | some e => M.fail (.error (.custom e))
    | none => directMerge dst converted o
  | none =>
    if dstKind = .Ptr ∨ srcKind = .Ptr then do
      let dstEValue ← M.rd (fun h => derefPtr h n dst)
      let dstEType ← M.rd (fun _ => dstEValue.typ)
      let srcEValue ← M.rd (fun h => derefPtr h n src)
      let srcEType ← M.rd (fun _ => srcEValue.typ)
      if dstEType ≠ srcEType then
        match m.converter H dstEType srcEType o with
        | some convert => do
          let (converted, err) ← m.callCustom convert dstEValue srcEValue o
          match err with
          | some e => M.fail (.error (.custom e))
          | none => directMerge dstEValue converted o
        | none =>
          M.fail (.error (.cannotConvertElem srcType dstType srcEType dstEType))
      else deepMerge dstEValue srcEValue o
    else M.fail (.error (.cannotConvert srcType dstType))

/-- The struct case of `deepMerge`: merge the fields `is` pairwise, in order,
returning at the first error. -/
def mergeFields (deepMerge : Value → Value → Options → M Unit)
    (dst src : Value) (o : Options) : List Nat → M Unit
  | [] => pure ()
  | i :: is => do
    let dstF ← M.rd (fun _ => dst.Field i)
    let srcF ← M.rd (fun _ => src.Field i)
    deepMerge dstF srcF o
    mergeFields deepMerge dst src o is

/-- The kinds of map elements `deepMerge` merges in place:
`case reflect.Struct, reflect.Ptr, reflect.Map`. -/
def mergedInPlace (k : Kind) : Bool :=
  decide (k = .Struct) || decide (k = .Ptr) || decide (k = .Map)

/-- The entry of a map under a key, behind its interface layers:
`derefInterface(v.MapIndex(key))`. -/
def mapEntry (v : Value) (key : Key) (h : Heap) : Except Fault Value :=
  match v.MapIndex h key with
  | .ok e => derefInterface e h
  | .error f => .error f

/-- An addressable zero value: `reflect.New(t).Elem()`. -/
def newElem (t : Ty) : M Value := do
  let p ← New t
  M.rd (fun h => p.Elem h)

/-- The body of the key loop of the map case of `deepMerge`. -/
def mergeMapKey (H : Host) (m : porter) (n : Nat)
    (deepMerge : Value → Value → Options → M Unit)
    (dst src : Value) (o : Options) (key : Key) : M Unit := do
  let srcE ← M.rd (mapEntry src key)
  let dstE ← M.rd (mapEntry dst key)
  if !dstE.IsValid then
    -- the key is not present in dst map, set it anyway
    M.upd (dst.SetMapIndex key srcE)
  else do
    let srcEType ← M.rd (fun _ => srcE.typ)
    let dstEType ← M.rd (fun _ => dstE.typ)
    let isEmpty ← M.rd (fun h => .ok (isEmptyValue h dstE))
    let dstE ← if mergedInPlace dstEType.kind then pure dstE
      else newElem dstEType
    if dstEType ≠ srcEType then m.convert H n deepMerge dstE srcE o
    else deepMerge dstE srcE o
    if mergedInPlace dstEType.kind then pure ()
    else if o.Overwrite || isEmpty then M.upd (dst.SetMapIndex key dstE)
    else pure ()

/-- The key loop of the map case of `deepMerge`. -/
def mergeMapKeys (H : Host) (m : porter) (n : Nat)
    (deepMerge : Value → Value → Options → M Unit)
    (dst src : Value) (o : Options) : List Key → M Unit
  | [] => pure ()
  | key :: keys => do
    mergeMapKey H m n deepMerge dst src o key
    mergeMapKeys H m n deepMerge dst src o keys

/-- The slice case of `deepMerge`, for a non-nil source. -/
def mergeSlice (dst src : Value) (o : Options) : M Unit :=
  if o.SliceMode = AppendSliceMode then do
    let appended ← M.rd (AppendSlice dst src)
    directMerge dst appended o
  else if o.SliceMode = UniteSlice then do
    let dstType ← M.rd (fun _ => dst.typ)
    match dstType.elem with
    | none => M.fail .stuck
    | some dstEType =>
      if !hashable dstEType || decide (dstEType.kind = .Bool) then do
        -- exclude bool because it makes no sense to unite two bool slice
        let appended ← M.rd (AppendSlice dst src)
        directMerge dst appended o
      else do
        let existed ← M.rd (sliceElems dst)
        let srcElems ← M.rd (sliceElems src)
        let newElem :=
          srcElems.filter (fun key => !(existed.any (fun e => keyEq e key)))
        if newElem.length > 0 then do
          let appended ← M.rd (Append dst newElem)
          directMerge dst appended o
        else pure ()
  else directMerge dst src o

/-- One level of porter.go `deepMerge`; `deepMerge` stands for the recursive
calls. -/
def porter.deepMergeBody (H : Host) (m : porter) (n : Nat)
    (deepMerge : Value → Value → Options → M Unit)
    (dst src : Value) (o : Options) : M Unit := do
  let dstType ← M.rd (fun _ => dst.typ)
  let srcType ← M.rd (fun _ => src.typ)
  if dstType ≠ srcType then M.fail (.error (.deepMergeType srcType dstType))
  else
    match tableLookup dstType m.mergeFuncs with
    | some merge => do
      let (merged, err) ← m.callCustom merge dst src o
      match err with
      | some e => M.fail (.error (.custom e))
      | none => directMerge dst merged o
    | none =>
      match dst.kind with
      | .Struct =>
        if hasUnexportedField dstType then
          -- if the struct contains unexported field, treating it as a
          -- single entity
          directMerge dst src o
        else do
          let numField ← M.rd (fun _ => dst.NumField)
          mergeFields deepMerge dst src o (List.range numField)
      | .Map => do
        let srcNil ← M.rd (fun h => src.IsNil h)
        if srcNil then pure ()
        else do
          let dstNil ← M.rd (fun h => dst.IsNil h)
          if dstNil then do
            let made ← MakeMap dstType
            M.upd (dst.Set made)
          else pure ()
          let keys ← M.rd (fun h => src.MapKeys h)
          mergeMapKeys H m n deepMerge dst src o keys
      | .Slice => do
        let srcNil ← M.rd (fun h => src.IsNil h)
        if srcNil then pure ()
        else mergeSlice dst src o
      | .Ptr => do
        let srcNil ← M.rd (fun h => src.IsNil h)
        if srcNil then pure ()
        else do
          let dstNil ← M.rd (fun h => dst.IsNil h)
          if dstNil then
            match dstType.elem with
            | some e => do
              let fresh ← New e
              M.upd (dst.Set fresh)
            | none => M.fail .stuck
          else pure ()
          -- dereference, and merge theirs elements
          let dstE ← M.rd (fun h => dst.Elem h)
          let srcE ← M.rd (fun h => src.Elem h)
          let dstEType ← M.rd (fun _ => dstE.typ)
          let srcEType ← M.rd (fun _ => srcE.typ)
          if dstEType ≠ srcEType then m.convert H n deepMerge dstE srcE o
          else deepMerge dstE srcE o
      | .Interface => do
        let srcNil ← M.rd (fun h => src.IsNil h)
        if srcNil then pure ()
        else do
          let dstNil ← M.rd (fun h => dst.IsNil h)
          if dstNil then
            if dst.CanSet then M.upd (dst.Set src) else pure ()
          else do
            let dstE ← M.rd (derefInterface dst)
            let srcE ← M.rd (derefInterface src)
            let dstEType ← M.rd (fun _ => dstE.typ)
            let srcEType ← M.rd (fun _ => srcE.typ)
            if dstEType ≠ srcEType then m.convert H n deepMerge dst src o
            else directMerge dst src o
      | _ => directMerge dst src o

/-- Merge values of the same type, porter.go `deepMerge`.  The recursion
follows the run-time data; `n` bounds its depth. -/
def porter.deepMerge (H : Host) (m : porter) :
    Nat → Value → Value → Options → M Unit
  | 0 => fun _ _ _ => M.fail .outOfFuel
  | n + 1 => m.deepMergeBody H n (porter.deepMerge H m n)

/-- Merge two values, porter.go `defaultMerge`: `convert` for values of
different types, `deepMerge` otherwise. -/
def porter.defaultMerge (H : Host) (m : porter) (n : Nat)
    (dst src : Value) (o : Options) : M Unit := do
  let dstType ← M.rd (fun _ => dst.typ)
  let srcType ← M.rd (fun _ => src.typ)
  if dstType ≠ srcType then m.convert H n (m.deepMerge H n) dst src o
  else m.deepMerge H n dst src o

/-! ## merge.go: the entry point -/

/-- A Go value of type `interface{}`, as `Merge` receives its arguments: nil,
or a dynamic type and a value. -/
abbrev Iface := Option (Ty × Val)

/-- The handle of an `interface{}` argument: `reflect.ValueOf`. -/
def ValueOf : Iface → Value
  | none => .invalid
  | some (t, v) => .direct t v

/-- Find the values to merge, merge.go `resolveValues`: the destination must
be a pointer and lead to a value, the source must lead to a value. -/
def resolveValues (n : Nat) (dst src : Iface) (h : Heap) :
    Except Fault (Value × Value) :=
  if dst.isNone then .error (.error .targetNil)
  else if (ValueOf dst).kind ≠ .Ptr then .error (.error .targetNotPtr)
  else
    match derefPtr h n (ValueOf dst) with
    | .error f => .error f
    | .ok vDst =>
      if !vDst.IsValid then .error (.error .targetZero)
      else
        match derefPtr h n (ValueOf src) with
        | .error f => .error f
        | .ok vSrc =>
          if !vSrc.IsValid then .error (.error .sourceZero)
          else .ok (vDst, vSrc)

/-- The worker of `Merge`, merge.go `merge`.  `vDstCopy := vDst` copies the
handle: both denote the same location. -/
def merge (H : Host) (n : Nat) (dst src : Iface) (o : Options) : M Unit :=
  if src.isNone then pure ()
  else do
    let (vDst, vSrc) ← M.rd (resolveValues n dst src)
    -- make a copy to let dst stay in tact when an error occurs
    let vDstCopy := vDst
    o.delegate.defaultMerge H n vDstCopy vSrc o
    M.upd (vDst.Set vDstCopy)

/-- The option functions of merge.go. -/
inductive OptionFunc
  | WithoutOverwrite
  | WithoutGoConvertion
  | WithSliceMode (mode : SliceMergeMode)
  | WithConverters (fns : List Func)
  | WithMergeFuncs (fns : List Func)

/-- What an option function does to the options; `WithMergeFuncs` (and
`WithConverters`, which calls it) panics on a registration error. -/
def OptionFunc.apply : OptionFunc → Options → Except Fault Options
  | .WithoutOverwrite, o => .ok { o with Overwrite := false }
  | .WithoutGoConvertion, o => .ok { o with GoConvertion := false }
  | .WithSliceMode mode, o => .ok { o with SliceMode := mode }
  | .WithConverters fns, o =>
    match o.delegate.addCustomFuncs fns with
    | (d, none) => .ok { o with delegate := d }
    | (_, some err) => .error (.panic (.registration err))
  | .WithMergeFuncs fns, o =>
    match o.delegate.addCustomFuncs fns with
    | (d, none) => .ok { o with delegate := d }
    | (_, some err) => .error (.panic (.registration err))

/-- Apply option functions in order: `for _, f := range opts { f(o) }`. -/
def applyOptions : List OptionFunc → Options → Except Fault Options
  | [], o => .ok o
  | f :: fs, o =>
    match f.apply o with
    | .ok o' => applyOptions fs o'
    | .error e => .error e

/-- Merge the given source onto the given target following the options given,
merge.go `Merge`. -/
def Merge (H : Host) (n : Nat) (dst src : Iface) (opts : List OptionFunc) :
    M Unit :=
  match applyOptions opts newOptions with
  | .ok o => merge H n dst src o
  | .error e => M.fail e

/-! ## Notions used to state the properties -/

/-- The option functions that only set a policy field: `WithoutOverwrite`,
`WithoutGoConvertion` and `WithSliceMode`. -/
def OptionFunc.isPolicy : OptionFunc → Bool
  | .WithoutOverwrite => true
  | .WithoutGoConvertion => true
  | .WithSliceMode _ => true
  | _ => false

/-- A host whose floating-point conversions are constant: it serves where an
example needs some host and converts no floating-point number. -/
def Host.trivial : Host :=
  { intToFloat := fun _ _ => 0, floatToInt := fun _ => 0,
    floatToUint := fun _ => 0, floatToFloat := fun _ b => b }

/-- An example type: `type T struct { A int; B interface{} }`. -/
def exT : Ty := .named "T" (.struct [("A", "", .basic .Int), ("B", "", .iface)])

/-- A heap with one variable `t = T{A: 1, B: "x"}` in cell 0. -/
def exHeap1 : Heap :=
  ⟨[.struct [.int 1, .iface (some (.basic .String, .str "x"))]], []⟩

/-- The destination `&t`. -/
def exDst1 : Iface := some (.ptr exT, .ptr (some 0))

/-- The source `T{A: 2, B: 3}`. -/
def exSrc1 : Iface :=
  some (exT, .struct [.int 2, .iface (some (.basic .Int, .int 3))])

/-- The example type of porter_test.go:
`type unexport struct { A string; b int }`. -/
def exUnexport : Ty :=
  .named "unexport"
    (.struct [("A", "", .basic .String), ("b", "gomerge", .basic .Int)])

/-- Dereferencing through every pointer and interface layer, as a relation:
`DerefsTo h v w` holds when following `Elem()` from `v`, as long as the kind
is pointer or interface, ends at `w`. -/
inductive DerefsTo (h : Heap) : Value → Value → Prop
  | done (v : Value) : v.kind ≠ .Ptr → v.kind ≠ .Interface → DerefsTo h v v
  | step (v e w : Value) : (v.kind = .Ptr ∨ v.kind = .Interface) →
      v.Elem h = .ok e → DerefsTo h e w → DerefsTo h v w

/-- The scalar kinds: bool, the signed and unsigned integers, the floats and
string. -/
def isScalarKind : Kind → Bool
  | .Bool => true
  | .Int | .Int8 | .Int16 | .Int32 | .Int64 => true
  | .Uint | .Uint8 | .Uint16 | .Uint32 | .Uint64 | .Uintptr => true
  | .Float32 | .Float64 => true
  | .String => true
  | _ => false

/-- The example type of porter_test.go: `type export struct { A string }`. -/
def exExport : Ty := .named "export" (.struct [("A", "", .basic .String)])

/-- A scalar value that is not empty in the sense of `isEmptyValue`: `true`, a
non-zero integer or float, a non-empty string. -/
def Val.nonEmptyScalar : Val → Bool
  | .bool b => b
  | .int i => i != 0
  | .uint n => n != 0
  | .float b => !floatIsZero b
  | .str s => s.length != 0
  | _ => false

/-- Every location that holds a non-empty scalar in `h` holds the same value
in `h'`. -/
def Preserved (h h' : Heap) : Prop :=
  ∀ a p v, h.read a p = some v → v.nonEmptyScalar = true →
    h'.read a p = some v

/-- Run from `h`, the computation `x` changes no location that holds a
non-empty scalar (whether it ends with a result or a fault). -/
def PresAt {α : Type} (h : Heap) (x : M α) : Prop := Preserved h (x h).heap

/-- The computation `x` changes no location that holds a non-empty scalar. -/
def Pres {α : Type} (x : M α) : Prop := ∀ h, PresAt h x

/-- Whether a value is a struct. -/
def Val.isStruct : Val → Bool
  | .struct _ => true
  | _ => false
/-- The type of a merge function for type `t`:
`func(dst, src t, o *Options) (t, error)`. -/
def mergeFuncType (t : Ty) : Ty :=
  .func [t, t, .ptr optionsType] [t, errorType]

/-- The merge function of porter_test.go:
`func(dst, src int, o *Options) (int, error) { return dst + src, nil }`. -/
def exAddInts : Func where
  typ := mergeFuncType (.basic .Int)
  impl := fun _ dst src _ =>
    match dst, src with
    | .int a, .int b => .returns (.int (wrapInt .Int (a + b))) none
    | _, _ => .panics

/-- An example type: `type S struct { N int }`. -/
def exS : Ty := .named "S" (.struct [("N", "", .basic .Int)])

/-- Every location of `h` holds the same value in `h'`. -/
def Extends (h h' : Heap) : Prop :=
  ∀ a p v, h.read a p = some v → h'.read a p = some v

/-- A map entry `x`, stored in a map whose element type is `E`, that is a
scalar: behind the interface layers of `x` (none, when `E` is not an interface
type) is the value `sv` of a type `ts` of scalar kind, for which no merge
function is registered in `m`. -/
def LeafEntry (m : porter) (E : Ty) (x : Val) (ts : Ty) (sv : Val) : Prop :=
  derefDirect E x = .ok (.direct ts sv) ∧ assignTo E ts sv = x ∧
    assignable E ts = true ∧ isScalarKind ts.kind = true ∧
    tableLookup ts m.mergeFuncs = none

/-- The situation of the key loop of `deepMerge` on maps: the destination, at
location `(a, p)`, holds the map object `rd` with content `md`; the source
holds the map object `rs` with content `smap`; `E` is the element type. -/
structure MapCtx (h : Heap) (T E : Ty) (a : Nat) (p : List Nat) (src : Value)
    (rd rs : Nat) (md smap : List (Key × Val)) : Prop where
  kind : T.kind = .Map
  elem : T.elem = some E
  dst : h.read a p = some (.map (some rd))
  styp : src.typ = .ok T
  sload : src.load h = .ok (.map (some rs))
  dmap : h.maps[rd]? = some md
  smap : h.maps[rs]? = some smap

/-- Whether the map entry `x` (element type `E`) is empty: `isEmptyValue` of
the value behind its interface layers.  (For the scalar kinds the heap is not
consulted.) -/
def entryIsEmpty (E : Ty) (x : Val) : Bool :=
  match derefDirect E x with
  | .ok v => isEmptyValue ⟨[], []⟩ v
  | .error _ => false

/-- The entry under a key after the merge of scalar map entries: the entry
`s` of the source if the destination has none, or `Overwrite` is set, or the
destination's entry is empty; the destination's entry `d` otherwise. -/
def mergedEntry (o : Options) (E : Ty) (s d : Option Val) : Option Val :=
  match s, d with
  | none, d => d
  | some xs, none => some xs
  | some xs, some xd =>
    if o.Overwrite = true ∨ entryIsEmpty E xd = true then some xs else some xd

/-- The type `map[string]string`. -/
def exMapSS : Ty := .map (.basic .String) (.basic .String)

/-- The heap of the test "deep merge map[string]string": cell 0 is a variable
holding the map object 0, `{"1": "1", "2": "2"}`; the map object 1 is
`{"1": "2", "3": "3"}`. -/
def exHeapSS : Heap :=
  ⟨[.map (some 0)],
   [[(.str "1", .str "1"), (.str "2", .str "2")],
    [(.str "1", .str "2"), (.str "3", .str "3")]]⟩

/-- The type `map[string]interface{}`. -/
def exMapSI : Ty := .map (.basic .String) .iface

/-- A heap in the manner of the test "deep merge map[string]interface{}": cell
0 is a variable holding the map object 0, `{"str": "", "int": 1}`; the map
object 1 is `{"str": "2", "int": 2, "new": true}`. -/
def exHeapSI : Heap :=
  ⟨[.map (some 0)],
   [[(.str "str", .iface (some (.basic .String, .str ""))),
     (.str "int", .iface (some (.basic .Int, .int 1)))],
    [(.str "str", .iface (some (.basic .String, .str "2"))),
     (.str "int", .iface (some (.basic .Int, .int 2))),
     (.str "new", .iface (some (.basic .Bool, .bool true)))]]⟩

/-- The malformed callback of porter_test.go ("err"):
`func(d string, s int, o *Options) (int, error)`, whose first result type
differs from its first parameter type. -/
def exBadFunc : Func where
  typ := .func [.basic .String, .basic .Int, .ptr optionsType]
    [.basic .Int, errorType]
  impl := fun _ _ _ _ => .returns (.int 0) none

/-- The registry after storing one well-formed callback whose first two
parameter types are `in0` and `in1`: in `mergeFuncs` under `in0` when the two
are equal, in `convertFuncs` under the pair otherwise. -/
def porter.store (m : porter) (fv : Func) (in0 in1 : Ty) : porter :=
  if in0 = in1 then { m with mergeFuncs := tableInsert in0 fv m.mergeFuncs }
  else { m with convertFuncs := tableInsert ⟨in0, in1⟩ fv m.convertFuncs }

/-- The families of kinds as the specification names them: the numeric family
(signed and unsigned integers, `uintptr`, `float32`, `float64`). -/
def isNumericKind : Kind → Bool
  | .Int | .Int8 | .Int16 | .Int32 | .Int64 => true
  | .Uint | .Uint8 | .Uint16 | .Uint32 | .Uint64 | .Uintptr => true
  | .Float32 | .Float64 => true
  | _ => false

/-- The complex kinds. -/
def isComplexKind : Kind → Bool
  | .Complex64 | .Complex128 => true
  | _ => false

/-- The table of the specification for `convertible`, on kinds: both numeric,
or both complex, or both string. -/
def convertibleKinds (dst src : Kind) : Bool :=
  (isNumericKind src && isNumericKind dst) ||
    (isComplexKind src && isComplexKind dst) ||
    (decide (src = .String) && decide (dst = .String))

/-- The signed integer kinds. -/
def isSignedKind : Kind → Bool
  | .Int | .Int8 | .Int16 | .Int32 | .Int64 => true
  | _ => false

/-- The unsigned integer kinds (`uintptr` included). -/
def isUnsignedKind : Kind → Bool
  | .Uint | .Uint8 | .Uint16 | .Uint32 | .Uint64 | .Uintptr => true
  | _ => false

/-- The floating-point kinds. -/
def isFloatKind : Kind → Bool
  | .Float32 | .Float64 => true
  | _ => false

/-- The kinds whose emptiness is a length of 0: array, map, slice, string. -/
def hasLenKind : Kind → Bool
  | .Array | .Map | .Slice | .String => true
  | _ => false

/-- An integer or string value: the elements of a slice whose element kind is
a signed or unsigned integer kind or string. -/
def Val.isIntOrString : Val → Bool
  | .int _ => true
  | .uint _ => true
  | .str _ => true
  | _ => false

/-- The integer and string kinds. -/
def isIntOrStringKind (k : Kind) : Bool :=
  isSignedKind k || isUnsignedKind k || decide (k = .String)

/-- A merge function on `interface{}` that returns its source:
`func(dst, src interface{}, o *Options) (interface{}, error)
{ return src, nil }`. -/
def exTakeSrc : Func where
  typ := mergeFuncType .iface
  impl := fun _ _ src _ => .returns src none

/-- The integer kinds, signed and unsigned. -/
def isIntegerKind (k : Kind) : Bool := isSignedKind k || isUnsignedKind k

/-- A value of the integer kind `k`, as this model holds it: `int` for a
signed kind, `uint` for an unsigned one. -/
def Val.isIntOfKind (k : Kind) : Val → Bool
  | .int _ => isSignedKind k
  | .uint _ => isUnsignedKind k
  | _ => false

/-- The number an integer value holds. -/
def Val.toInt : Val → Option Int
  | .int i => some i
  | .uint n => some (n : Int)
  | _ => none

/-- Whether the number `i` is representable in the integer kind `k`. -/
def intFits (k : Kind) (i : Int) : Bool :=
  if isSignedKind k then
    decide (-(2 ^ (intBits k - 1) : Int) ≤ i) && decide (i < 2 ^ (intBits k - 1))
  else decide (0 ≤ i) && decide (i < 2 ^ intBits k)

/-- The type `map[string]S`, with `S` the struct type `exS`. -/
def exMapStruct : Ty := .map (.basic .String) exS

/-- A heap with a variable (cell 0) holding the map object 0,
`{"k": S{N: 1}}`; the map object 1 is `{"k": S{N: 2}}`. -/
def exHeapStruct : Heap :=
  ⟨[.map (some 0)],
   [[(.str "k", .struct [.int 1])], [(.str "k", .struct [.int 2])]]⟩

/-- A struct type all of whose fields are exported and of scalar kind, with
no merge function registered in `m` for the type or for a field type. -/
def StructOfScalars (m : porter) (E : Ty) : Prop :=
  E.kind = .Struct ∧ hasUnexportedField E = false ∧
    tableLookup E m.mergeFuncs = none ∧
    ∀ f ∈ E.fields, isScalarKind f.2.2.kind = true ∧
      tableLookup f.2.2 m.mergeFuncs = none

/-- A struct value with as many fields as the struct type `E`. -/
def Val.isStructOf (E : Ty) (x : Val) : Prop :=
  ∃ fs, x = .struct fs ∧ fs.length = E.fields.length

/-- The entry under a key after the merge of struct map entries: the
destination's entry `d` if it has one, the entry `s` of the source
otherwise. -/
def keptEntry (s d : Option Val) : Option Val :=
  match d with
  | some xd => some xd
  | none => s

/-- A heap with a variable (cell 0) holding the map object 0, `{"k": 1}` of
type `map[string]interface{}`; the map object 1 is `{"k": nil}`. -/
def exHeapNilEntry : Heap :=
  ⟨[.map (some 0)],
   [[(.str "k", .iface (some (.basic .Int, .int 1)))],
    [(.str "k", .iface none)]]⟩

/-- A heap with a variable (cell 0) holding the map object 0,
`{"k": (*int)(nil)}` of type `map[string]interface{}`; the map object 1 is
`{"k": int32(2)}`. -/
def exHeapNilPtrEntry : Heap :=
  ⟨[.map (some 0)],
   [[(.str "k", .iface (some (.ptr (.basic .Int), .ptr none)))],
    [(.str "k", .iface (some (.basic .Int32, .int 2)))]]⟩

/-- The struct type of merge_test.go:
`type test struct { Int int; String string; Bool bool; Ptr *int;
Slice []string; Map map[string]string }`. -/
def exTest : Ty :=
  .named "test" (.struct [
    ("Int", "", .basic .Int), ("String", "", .basic .String),
    ("Bool", "", .basic .Bool), ("Ptr", "", .ptr (.basic .Int)),
    ("Slice", "", .slice (.basic .String)),
    ("Map", "", .map (.basic .String) (.basic .String))])

/-- The heap of the test "Merge / with overwrite": cell 0 is
`dst = test{Ptr: &vi, Slice: []string{"1"}, Map: map[string]string{"1": "1"}}`,
cell 1 is `vi = 2`, the map object 0 is `{"1": "1"}`. -/
def exHeapTest : Heap :=
  ⟨[.struct [.int 0, .str "", .bool false, .ptr (some 1),
      .slice (some [.str "1"]), .map (some 0)], .int 2],
   [[(.str "1", .str "1")]]⟩

/-- An example type with an unexported field:
`type S struct { P *interface{}; x int }`. -/
def exCyc : Ty :=
  .named "S" (.struct [("P", "", .ptr .iface), ("x", "gomerge", .basic .Int)])

/-- A cyclic heap: cell 0 is a variable `s1` of type `S` whose field `P`
points to cell 1; cell 1 is a variable `di` of type `interface{}` holding
`&s1`; cell 2 is a variable `si` of type `interface{}` holding the struct
`S{P: &si}`. -/
def exHeapCyc : Heap :=
  ⟨[.struct [.ptr (some 1), .int 0],
    .iface (some (.ptr exCyc, .ptr (some 0))),
    .iface (some (exCyc, .struct [.ptr (some 2), .int 0]))], []⟩

/-- The heap of the test "deep merge slice": cell 0 is a variable holding
`[]int{1, 2}`. -/
def exHeapSlice : Heap := ⟨[.slice (some [.int 1, .int 2])], []⟩

/-- The destination: a pointer to the variable in cell 0, of type `[]int`. -/
def exDstSlice : Iface := some (.ptr (.slice (.basic .Int)), .ptr (some 0))

/-- The source `[]int{2, 3}`. -/
def exSrcSlice : Iface :=
  some (.slice (.basic .Int), .slice (some [.int 2, .int 3]))

/-- The heap of the test "map should be replaced" (porter_test.go, "deep merge
interface{}"): cell 0 is the destination slot, an `interface{}` holding the
map object 0, `{"1": "1"}`; the map object 1 is `{"2": "2"}`. -/
def exHeapIfaceMap : Heap :=
  ⟨[.iface (some (exMapSS, .map (some 0)))],
   [[(.str "1", .str "1")], [(.str "2", .str "2")]]⟩

def exPQ : Ty :=
  .named "PQ" (.struct [("P", "", .ptr (.basic .Int)), ("Q", "", .ptr (.basic .Int))])

/-- A heap for `x, y := 1, 7; d := PQ{Q: &x}`: cell 0 is `d`, cell 1 is `x`,
cell 2 is `y`. -/
def exHeapPQ : Heap := ⟨[.struct [.ptr none, .ptr (some 1)], .int 1, .int 7], []⟩

/-- The destination `&d`. -/
def exDstPQ : Iface := some (.ptr exPQ, .ptr (some 0))

/-- The source `PQ{P: &x, Q: &y}`. -/
def exSrcPQ : Iface := some (exPQ, .struct [.ptr (some 1), .ptr (some 2)])

/-- The type `map[string]map[string]interface{}`. -/
def exMapNested : Ty := .map (.basic .String) exMapSI

/-- A heap for `d := map[string]map[string]interface{}{}` and the source
`map[string]map[string]interface{}{"m": {"k": nil}}`: cell 0 is `d`, holding
the empty map object 0; the map object 1 is the source, the map object 2 its
entry under "m". -/
def exHeapNested : Heap :=
  ⟨[.map (some 0)], [[], [(.str "m", .map (some 2))], [(.str "k", .iface none)]]⟩

/-- Whether a handle does not denote a location of the cell `a`: it is a
value, or a location of another cell. -/
def Value.awayFrom (a : Nat) : Value → Bool
  | .addr _ b _ => decide (b ≠ a)
  | _ => true

/-- The outcome with the map object `r` of its heap replaced by `md`. -/
def Res.setMap {α : Type} (x : Res α) (r : Nat) (md : List (Key × Val)) :
    Res α :=
  match x with
  | .ok a h => .ok a (h.setMap r md)
  | .fail f h => .fail f (h.setMap r md)

/-- The computation `x` works on the cell `c` and does not look at the map
object `r`: it does the same whatever `r` holds, it leaves the map objects as
they are, and it writes no cell other than `c`. -/
def Scratch {α : Type} (r c : Nat) (x : M α) : Prop :=
  ∀ h, (∀ md, x (h.setMap r md) = (x h).setMap r md) ∧
    (x h).heap.maps = h.maps ∧
    ∀ a p, a ≠ c → (x h).heap.read a p = h.read a p

/-- The function `f`, called with the options `o`, does not look at the map
object `r`: it returns the same whatever `r` holds. -/
def ReadsNoMap (r : Nat) (o : Options) (f : Func) : Prop :=
  ∀ h md x y,
    f.impl (h.setMap r md) x y o.toOptionFields = f.impl h x y o.toOptionFields

/-- The type `map[string][]int`. -/
def exMapSlices : Ty := .map (.basic .String) (.slice (.basic .Int))

/-- A heap with a variable (cell 0) holding the map object 0, `{"k": [1]}` of
type `map[string][]int`; the map object 1 is `{"k": [2]}`. -/
def exHeapSlices : Heap :=
  ⟨[.map (some 0)],
   [[(.str "k", .slice (some [.int 1]))], [(.str "k", .slice (some [.int 2]))]]⟩

/-- The type `map[string]int`. -/
def exMapInts : Ty := .map (.basic .String) (.basic .Int)

/-- A heap with a variable (cell 0) holding the map object 0, `{"k": 5}` of
type `map[string]int`; the map object 1 is `{"k": 2}`. -/
def exHeapInts : Heap :=
  ⟨[.map (some 0)], [[(.str "k", .int 5)], [(.str "k", .int 2)]]⟩

/-- A part of the memory kept apart from a merge: the cells `cell` and the map
objects `map` are the ones from which some variable handed to the merge can
be reached; `root` tells these variables. -/
structure Region where
  cell : Nat → Bool
  map : Nat → Bool
  root : Nat → Bool

mutual
/-- Whether a value holds a reference into the region: a pointer to one of
its cells or one of its map objects, itself, in its struct fields, in its
array or slice elements, or in what an interface holds, at any depth. -/
def Val.mentions (B : Region) : Val → Bool
  | .ptr (some b) => B.cell b
  | .map (some i) => B.map i
  | .iface (some (_, v)) => Val.mentions B v
  | .struct fs => Val.mentionsList B fs
  | .array es => Val.mentionsList B es
  | .slice (some es) => Val.mentionsList B es
  | _ => false
/-- Whether a value of a list holds a reference into the region. -/
def Val.mentionsList (B : Region) : List Val → Bool
  | [] => false
  | v :: vs => Val.mentions B v || Val.mentionsList B vs
end


/-- Nothing leads into the region `B` from outside of it or from its roots:
the cells and map objects of the region exist, and no cell outside the
region, no root, and no entry of a map object outside the region holds a
reference into the region.  So no root can be reached from what a root holds
(no cycle goes through a root), nor from anything outside the region. -/
def Heap.NoRef (B : Region) (h : Heap) : Prop :=
  (∀ c, B.cell c = true → c < h.cells.length) ∧
  (∀ i, B.map i = true → i < h.maps.length) ∧
  (∀ c x, h.cells[c]? = some x → (B.cell c = false ∨ B.root c = true) →
    Val.mentions B x = false) ∧
  ∀ i mo, h.maps[i]? = some mo → B.map i = false →
    ∀ e ∈ mo, Val.mentions B e.2 = false

/-- A handle that carries no reference into the region and denotes, if a
location, one outside the region or one of a root. -/
def Value.clean (B : Region) : Value → Prop
  | .direct _ x => Val.mentions B x = false
  | .addr _ c _ => B.cell c = false ∨ B.root c = true
  | .invalid => True

/-- A handle that carries no reference into the region and denotes, if a
location, one outside the region. -/
def Value.away (B : Region) : Value → Prop
  | .direct _ x => Val.mentions B x = false
  | .addr _ c _ => B.cell c = false
  | .invalid => True

/-- No location of the zone is written by an assignment through the handle
`dst`: the handle denotes a location outside the region, or a location whose
path neither extends the path of a location of the zone in the same cell nor
is extended by it. -/
def Outside (B : Region) (zone : Nat → List Nat → Prop) (dst : Value) : Prop :=
  match dst with
  | .addr _ c q => B.cell c = true → ∀ r, zone c r → ¬ q <+: r ∧ ¬ r <+: q
  | _ => True

/-- A destination handle for the zone `zone` of the region: it is clean, and
no location of the zone is written through it. -/
def DstOk (B : Region) (zone : Nat → List Nat → Prop) (dst : Value) : Prop :=
  dst.clean B ∧ Outside B zone dst

/-- The computation `x` keeps the region `B` apart, leaves the locations of
the zone (in cells of the region) as they are, and its result satisfies
`Q`. -/
def Safe {α : Type} (B : Region) (zone : Nat → List Nat → Prop)
    (Q : α → Prop) (x : M α) : Prop :=
  ∀ h, h.NoRef B →
    (x h).heap.NoRef B ∧
    (∀ c r, B.cell c = true → zone c r →
      (x h).heap.read c r = h.read c r) ∧
    ∀ v g, x h = .ok v g → Q v

/-- The function `f` does not make up a reference into the region: called on
arguments that hold none, in a heap that keeps the region apart, it returns
none. -/
def FunOk (B : Region) (f : Func) : Prop :=
  ∀ h x y o r e, h.NoRef B → Val.mentions B x = false →
    Val.mentions B y = false → f.impl h x y o = .returns r e →
    Val.mentions B r = false

/-- An example region: the cells 0 and 3 (a variable and another variable
that holds its address), the cell 0 the only root. -/
def exRegion : Region :=
  ⟨fun c => c == 0 || c == 3, fun _ => false, fun c => c == 0⟩

/-- A source handle that the merge into the variable `a` cannot change: a
value that carries no reference into the region, or a location of a root of
the region other than `a`. -/
def Value.fixed (B : Region) (a : Nat) : Value → Prop
  | .direct _ x => Val.mentions B x = false
  | .addr _ s _ => B.cell s = true ∧ B.root s = true ∧ s ≠ a
  | .invalid => True

/-- An example type with an unexported field:
`type U struct { P *int; x int }`. -/
def exNilField : Ty :=
  .named "U" (.struct [("P", "", .ptr (.basic .Int)),
    ("x", "gomerge", .basic .Int)])

/-- An example type: `type W struct { P *int }`. -/
def exPtrField : Ty := .named "W" (.struct [("P", "", .ptr (.basic .Int))])

/-- A merge function for the type `t` that returns its source:
`func(dst, src T, o *Options) (T, error) { return src, nil }`. -/
def exTakeSrcOf (t : Ty) : Func where
  typ := mergeFuncType t
  impl := fun _ _ src _ => .returns src none

/-- The region of the test "Merge / with overwrite": the variable `dst`. -/
def exRegionTest : Region := ⟨fun c => c == 0, fun _ => false, fun c => c == 0⟩

/-- A step from a place in the tree of a destination to a place below it: to
a field of a struct, to the pointee of a pointer, to the entry of a map under
a key. -/
inductive Step
  | field (i : Nat)
  | elem
  | key (k : Key)
  deriving DecidableEq

/-- The shape of the memory a merge works on: `cellPos` and `mapPos` give the
place of each cell and map object of the destination in the tree of the
destination (`none` for the others), `srcCell` and `srcMap` tell the cells and
map objects of the source; `bound` and `boundM` bound them all.  For the
source, `cellTy` is the type of the variable a cell holds and `mapTy` the
element type of a map object; `rank` and `rankM` decrease along the pointers
and maps of the source, which makes it acyclic; `deep` and `deepM` tell the
cells and map objects that can be reached from an entry of a map; `unite`
tells that the slices of the source are asked to be fit for the slice mode
Unite. -/
structure Shape where
  cellPos : Nat → Option (List Step)
  mapPos : Nat → Option (List Step)
  srcCell : Nat → Bool
  srcMap : Nat → Bool
  bound : Nat
  boundM : Nat
  cellTy : Nat → Ty
  mapTy : Nat → Ty
  rank : Nat → Nat
  rankM : Nat → Nat
  deep : Nat → Bool
  deepM : Nat → Bool
  unite : Bool

mutual
/-- Whether a value can stand at the place `π` of the tree of the destination:
a pointer it holds (itself, in a struct field, in an interface) leads to the
cell whose place is the place of the pointer followed by `elem`, a map to the
map object at its own place.  The elements of slices and arrays are not
looked at: a merge never follows them. -/
def Val.fits (σ : Shape) : List Step → Val → Bool
  | π, .ptr (some c) => decide (σ.cellPos c = some (π ++ [.elem]))
  | π, .map (some r) => decide (σ.mapPos r = some π)
  | π, .iface (some (_, v)) => Val.fits σ π v
  | π, .struct fs => Val.fitsFields σ π 0 fs
  | _, _ => true
/-- Whether the values of a list can stand as the fields `i`, `i + 1`, ... of
a struct at the place `π`. -/
def Val.fitsFields (σ : Shape) : List Step → Nat → List Val → Bool
  | _, _, [] => true
  | π, i, v :: vs =>
    Val.fits σ (π ++ [.field i]) v && Val.fitsFields σ π (i + 1) vs
end


/-- The kinds whose values `deepMerge` looks into. -/
def walked (k : Kind) : Bool :=
  decide (k = .Struct) || decide (k = .Ptr) || decide (k = .Map) ||
    decide (k = .Interface) || decide (k = .Slice)

/-- Whether a slice of type `t` of the source is fit for the slice mode Unite,
in which merging it twice is merging it once: it is nil or empty, or its
elements are of a hashable kind other than bool and each of them equals itself
as a key (none is a NaN). -/
def uniteSafe (t : Ty) : Option (List Val) → Bool
  | none => true
  | some l =>
    l.isEmpty ||
      match t.elem with
      | some te =>
        hashable te && !decide (te.kind = .Bool) && l.all (fun e => keyEq e e)
      | none => false

/-- Whether a value is an empty slice that is not nil, or an interface that
holds one. -/
def emptySlice : Val → Bool
  | .slice (some []) => true
  | .iface (some (_, .slice (some []))) => true
  | _ => false

mutual
/-- Whether `v` is a value of type `t` of the source, as far as a merge looks
into it: a struct has the fields of its type; a pointer leads to a cell of the
source that holds a variable of the element type, a map is a map object of the
source with the element type of `t`, both of rank below `n`; an interface
holds a value of a concrete type; a slice type has an element type, and with
`σ.unite` set a slice is fit for the slice mode Unite.  With `d` set, the value is one reached from an entry of a map, and so are the cells and
map objects it leads to. -/
def Val.typed (σ : Shape) (d : Bool) (n : Nat) : Ty → Val → Bool
  | t, .struct fs =>
    if t.kind = .Struct then Val.typedFields σ d n t.fields fs
    else !walked t.kind
  | t, .ptr none => !walked t.kind || decide (t.kind = .Ptr)
  | t, .ptr (some c) =>
    if t.kind = .Ptr then
      σ.srcCell c && decide (t.elem = some (σ.cellTy c)) &&
        decide (σ.rank c < n) && (!d || σ.deep c)
    else !walked t.kind
  | t, .map none => !walked t.kind || decide (t.kind = .Map)
  | t, .map (some r) =>
    if t.kind = .Map then
      σ.srcMap r && decide (t.elem = some (σ.mapTy r)) &&
        decide (σ.rankM r < n) && (!d || σ.deepM r)
    else !walked t.kind
  | t, .iface none => !walked t.kind || decide (t.kind = .Interface)
  | t, .iface (some (t', v')) =>
    if t.kind = .Interface then
      decide (t'.kind ≠ .Interface) && Val.typed σ d n t' v'
    else !walked t.kind
  | t, .slice es =>
    !walked t.kind ||
      (decide (t.kind = .Slice) && t.elem.isSome &&
        (!σ.unite || uniteSafe t es))
  | t, _ => !walked t.kind
/-- Whether the values of a list are the fields of a struct of the source with
the given field types. -/
def Val.typedFields (σ : Shape) (d : Bool) (n : Nat) :
    List (String × String × Ty) → List Val → Bool
  | [], [] => true
  | (_, _, ft) :: ts, v :: vs =>
    Val.typed σ d n ft v && Val.typedFields σ d n ts vs
  | _, _ => false
end


/-- The type of the field at a path below a variable of type `t`. -/
def Ty.atPath : Ty → List Nat → Option Ty
  | t, [] => some t
  | t, i :: q =>
    if t.kind = .Struct then
      match t.fields[i]? with
      | some (_, _, ft) => ft.atPath q
      | none => none
    else none

/-- The cell `c` lies at or below the place `π` of the destination. -/
def Shape.under (σ : Shape) (π : List Step) (c : Nat) : Prop :=
  ∃ ρ, σ.cellPos c = some ρ ∧ π <+: ρ

/-- The cell `c` lies below the place `π` of the destination, and not at
it. -/
def Shape.below (σ : Shape) (π : List Step) (c : Nat) : Prop :=
  ∃ ρ, σ.cellPos c = some ρ ∧ π <+: ρ ∧ ρ ≠ π

/-- The map object `r` lies at or below the place `π` of the destination. -/
def Shape.underM (σ : Shape) (π : List Step) (r : Nat) : Prop :=
  ∃ ρ, σ.mapPos r = some ρ ∧ π <+: ρ

/-- The heap agrees with the shape as far as the source goes: the cells and
map objects of the shape exist, those of the source are apart from those of
the destination, and what they hold are values of their types; the keys of a
map object of the source are distinct, a map object reached from an entry of a
map has no nil interface entry, and with `σ.unite` set no entry of a map
object is an empty slice that is not nil. -/
structure SrcOk (h : Heap) (σ : Shape) : Prop where
  bound_le : σ.bound ≤ h.cells.length
  boundM_le : σ.boundM ≤ h.maps.length
  pos_lt : ∀ c ρ, σ.cellPos c = some ρ → c < σ.bound
  src_lt : ∀ c, σ.srcCell c = true → c < σ.bound
  posM_lt : ∀ r ρ, σ.mapPos r = some ρ → r < σ.boundM
  srcM_lt : ∀ r, σ.srcMap r = true → r < σ.boundM
  disj : ∀ c ρ, σ.cellPos c = some ρ → σ.srcCell c = false
  disjM : ∀ r ρ, σ.mapPos r = some ρ → σ.srcMap r = false
  cell_typed : ∀ c x, σ.srcCell c = true → h.cells[c]? = some x →
    x.typed σ (σ.deep c) (σ.rank c) (σ.cellTy c) = true
  map_typed : ∀ r mo, σ.srcMap r = true → h.maps[r]? = some mo →
    (mo.map Prod.fst).Nodup ∧ ∀ e ∈ mo,
      e.2.typed σ true (σ.rankM r) (σ.mapTy r) = true ∧
      (σ.deepM r = true → e.2 ≠ .iface none) ∧
      (σ.unite = true → emptySlice e.2 = false)

/-- The heap agrees with the shape at and below the place `π`: what each cell
and map object there holds can stand at its place. -/
def WellShaped (h : Heap) (σ : Shape) (π : List Step) : Prop :=
  (∀ c ρ x, σ.cellPos c = some ρ → π <+: ρ → h.cells[c]? = some x →
    x.fits σ ρ = true) ∧
  ∀ r ρ mo, σ.mapPos r = some ρ → π <+: ρ → h.maps[r]? = some mo →
    ∀ e ∈ mo, e.2.fits σ (ρ ++ [.key e.1]) = true

/-- The handle `dst` denotes the place `π` of the destination: a location of
the cell whose place leads to `π` through the fields of the path (or of a cell
allocated since), holding a value that can stand there, or a copy of such a
value. -/
def DstAt (h : Heap) (σ : Shape) (π : List Step) : Value → Prop
  | .addr _ a q => a < h.cells.length ∧
      (∀ x, h.read a q = some x → x.fits σ π = true) ∧
      (σ.bound ≤ a ∨ ∃ π0, σ.cellPos a = some π0 ∧ π = π0 ++ q.map Step.field)
  | .direct _ x => x.fits σ π = true
  | .invalid => True

/-- The handle `src` denotes a value of the source. -/
def SrcIn (σ : Shape) : Value → Prop
  | .addr t s q => σ.srcCell s = true ∧ (σ.cellTy s).atPath q = some t
  | .direct t x => ∃ d n, x.typed σ d n t = true
  | .invalid => True

/-- The location `(c, r)` is not written by an assignment through `dst`. -/
def Free (dst : Value) (c : Nat) (r : List Nat) : Prop :=
  match dst with
  | .addr _ a q => c = a → ¬ q <+: r ∧ ¬ r <+: q
  | _ => True

/-- From `h` to `h1`, only the location `dst` denotes has changed, and cells
may have been allocated. -/
def FrameAt (h h1 : Heap) (dst : Value) : Prop :=
  h.cells.length ≤ h1.cells.length ∧ h1.maps = h.maps ∧
  ∀ c r, c < h.cells.length → Free dst c r → h1.read c r = h.read c r

/-- From `h` to `h1`, only the destination at and below the place `π` has
changed: the location `dst` denotes, the cells below the place, the map
objects at and below it, and what was allocated since. -/
def Frame (h h1 : Heap) (σ : Shape) (π : List Step) (dst : Value) : Prop :=
  h.cells.length ≤ h1.cells.length ∧ h.maps.length ≤ h1.maps.length ∧
  (∀ c r, c < h.cells.length → ¬ σ.below π c → Free dst c r →
    h1.read c r = h.read c r) ∧
  ∀ i, i < h.maps.length → ¬ σ.underM π i → h1.maps[i]? = h.maps[i]?

/-- The heap `g` holds what `h1` holds wherever a merge that led from `h` to
`h1` at the place `π` may look: at the location `dst` denotes, at and below
the place, in what was allocated since `h`, and in the source. -/
def Agree (σ : Shape) (π : List Step) (dst : Value) (h h1 g : Heap) : Prop :=
  h1.cells.length ≤ g.cells.length ∧ h1.maps.length ≤ g.maps.length ∧
  (∀ c, c < h1.cells.length →
    (σ.under π c ∨ h.cells.length ≤ c ∨ σ.srcCell c = true) →
    g.cells[c]? = h1.cells[c]?) ∧
  (∀ i, i < h1.maps.length →
    (σ.underM π i ∨ h.maps.length ≤ i ∨ σ.srcMap i = true) →
    g.maps[i]? = h1.maps[i]?) ∧
  match dst with
  | .addr _ a q => g.read a q = h1.read a q
  | _ => True

/-- The heap `g'` is the heap `g` with new cells, which nothing refers to. -/
def Quiet (g g' : Heap) : Prop := g.cells <+: g'.cells ∧ g'.maps = g.maps

/-- The two heaps hold the same value where the handle looks. -/
def SameAt (g h : Heap) : Value → Prop
  | .addr _ a q => g.read a q = h.read a q
  | _ => True

/-- The computation `x`, run with enough fuel on a heap that agrees with the
outcome `h1` of a merge, succeeds and changes nothing: it leaves the heap
with, at most, new cells that nothing refers to. -/
def Settled (σ : Shape) (π : List Step) (dst : Value) (h h1 : Heap)
    (x : Nat → M Unit) : Prop :=
  ∃ n0, ∀ g, Agree σ π dst h h1 g → ∀ k, n0 ≤ k →
    ∃ g', x k g = .ok () g' ∧ Quiet g g'

/-- The slice mode is one in which merging twice is merging once: it is not
Append, and the slices of the source are fit for Unite if it is Unite. -/
def ModeOk (o : Options) (σ : Shape) : Prop :=
  o.SliceMode ≠ AppendSliceMode ∧ (o.SliceMode = UniteSlice → σ.unite = true)

/-- The statement about `deepMerge` with fuel `n`: a successful run changes
the destination only, and running it again afterwards changes nothing. -/
def Main (H : Host) (m : porter) (o : Options) (n : Nat) : Prop :=
  ∀ σ π dst src h h1, ModeOk o σ → SrcOk h σ → WellShaped h σ π → DstAt h σ π dst →
    SrcIn σ src → m.deepMerge H n dst src o h = .ok () h1 →
    Frame h h1 σ π dst ∧
      Settled σ π dst h h1 (fun k => m.deepMerge H k dst src o)

/-- The frame of the field loop of a struct at the place `π`, for the fields
`is`: only the fields' locations, what lies at and below the fields' places,
and what was allocated since has changed. -/
def FrameL (h h1 : Heap) (σ : Shape) (π : List Step) (dst : Value)
    (is : List Nat) : Prop :=
  h.cells.length ≤ h1.cells.length ∧ h.maps.length ≤ h1.maps.length ∧
  (∀ c r, c < h.cells.length →
    (∀ i ∈ is, ¬ σ.below (π ++ [.field i]) c) →
    (∀ i ∈ is, ∀ df, dst.Field i = .ok df → Free df c r) →
    h1.read c r = h.read c r) ∧
  ∀ r, r < h.maps.length → (∀ i ∈ is, ¬ σ.underM (π ++ [.field i]) r) →
    h1.maps[r]? = h.maps[r]?

/-- The heap `g` holds what `h1` holds wherever the field loop that led from
`h` to `h1` may look. -/
def AgreeL (σ : Shape) (π : List Step) (dst : Value) (is : List Nat)
    (h h1 g : Heap) : Prop :=
  h1.cells.length ≤ g.cells.length ∧ h1.maps.length ≤ g.maps.length ∧
  (∀ c, c < h1.cells.length →
    ((∃ i ∈ is, σ.under (π ++ [.field i]) c) ∨ h.cells.length ≤ c ∨
      σ.srcCell c = true) →
    g.cells[c]? = h1.cells[c]?) ∧
  (∀ r, r < h1.maps.length →
    ((∃ i ∈ is, σ.underM (π ++ [.field i]) r) ∨ h.maps.length ≤ r ∨
      σ.srcMap r = true) →
    g.maps[r]? = h1.maps[r]?) ∧
  ∀ i ∈ is, ∀ df, dst.Field i = .ok df → SameAt g h1 df

/-- The type of the value behind the interface layers of a handle is the same
in the two heaps. -/
def DynKept (h h1 : Heap) (v : Value) : Prop :=
  ∀ e te, derefInterface v h = .ok e → e.typ = .ok te →
    ∃ e', derefInterface v h1 = .ok e' ∧ e'.typ = .ok te

/-- A conversion step of porter.go `convert`: call the conversion function,
then `directMerge` the result. -/
def convStep (m : porter) (f : Func) (dst src : Value) (o : Options) :
    M Unit := do
  let (converted, err) ← m.callCustom f dst src o
  match err with
  | some e => M.fail (.error (.custom e))
  | none => directMerge dst converted o

/-- The type and kind `trueType` finds, as a function of the heap. -/
def trueTypeOf (v : Value) (t : Ty) (h : Heap) : Except Fault (Ty × Kind) :=
  if t.kind = .Interface then
    match derefInterface v h with
    | .ok e =>
      match e.typ with
      | .ok te => .ok (te, e.kind)
      | .error f => .error f
    | .error f => .error f
  else .ok (t, t.kind)

/-- What porter.go `convert` decides to do, as a function of the heap: the
pair of handles to work on, and the conversion function to apply to them, or
none when the pair is to be merged by `deepMerge`. -/
def convPlan (H : Host) (m : porter) (n : Nat) (dst src : Value) (o : Options)
    (h : Heap) : Except Fault (Option Func × Value × Value) :=
  match dst.typ with
  | .error f => .error f
  | .ok dT0 =>
    match src.typ with
    | .error f => .error f
    | .ok sT0 =>
      match trueTypeOf dst dT0 h with
      | .error f => .error f
      | .ok (dT, dK) =>
        match trueTypeOf src sT0 h with
        | .error f => .error f
        | .ok (sT, sK) =>
          match m.converter H dT sT o with
          | some f => .ok (some f, dst, src)
          | none =>
            if dK = .Ptr ∨ sK = .Ptr then
              match derefPtr h n dst with
              | .error f => .error f
              | .ok dE =>
                match dE.typ with
                | .error f => .error f
                | .ok dET =>
                  match derefPtr h n src with
                  | .error f => .error f
                  | .ok sE =>
                    match sE.typ with
                    | .error f => .error f
                    | .ok sET =>
                      if dET ≠ sET then
                        match m.converter H dET sET o with
                        | some f => .ok (some f, dE, sE)
                        | none => .error (.error
                            (.cannotConvertElem sT dT sET dET))
                      else .ok (none, dE, sE)
            else .error (.error (.cannotConvert sT dT))

/-- The dynamic type an interface value holds. -/
def dynTy : Val → Option Ty
  | .iface (some (t, _)) => some t
  | _ => none

/-- The heap `g` holds what `h` holds in the cells and map objects of the
source. -/
def SrcSame (σ : Shape) (h g : Heap) : Prop :=
  (∀ c, σ.srcCell c = true → g.cells[c]? = h.cells[c]?) ∧
  ∀ r, σ.srcMap r = true → g.maps[r]? = h.maps[r]?

/-- What appending the elements `xs` to a slice gives: `reflect.Append` and
`reflect.AppendSlice` leave a nil slice nil when there is nothing to
append. -/
def appendOut : Option (List Val) → List Val → Option (List Val)
  | none, [] => none
  | a, xs => some (a.getD [] ++ xs)

/-- What the slice mode Unite assigns to a destination slice `a` for a source
slice `b` of element type `te`: nothing (`none`), or a slice. -/
def uniteOut (te : Ty) (a b : Option (List Val)) :
    Option (Option (List Val)) :=
  if (!hashable te || decide (te.kind = .Bool)) = true then
    some (appendOut a (b.getD []))
  else if ((b.getD []).filter
      (fun key => !((a.getD []).any (fun e => keyEq e key)))).length > 0 then
    some (appendOut a ((b.getD []).filter
      (fun key => !((a.getD []).any (fun e => keyEq e key)))))
  else none

/-- The handle `v` of type `t` denotes the value `x` of the source: it carries
the value, or is a location of a cell of the source that holds it. -/
def Holds (σ : Shape) (h : Heap) (v : Value) (t : Ty) (x : Val) : Prop :=
  v = .direct t x ∨
    ∃ s q, v = .addr t s q ∧ σ.srcCell s = true ∧ h.read s q = some x

/-- Merging the value `v` denotes into itself, with enough fuel and on a heap
that holds the source, succeeds and changes nothing. -/
def SelfOk (H : Host) (m : porter) (o : Options) (σ : Shape) (h : Heap)
    (v : Value) : Prop :=
  ∃ n0, ∀ g, SrcSame σ h g → ∀ k, n0 ≤ k →
    ∃ g', m.deepMerge H k v v o g = .ok () g' ∧ Quiet g g'

/-- The cell of the handle `dst` lies where a handle at the place `π` may
lie: it is the cell whose place leads to `π` through the fields of the path,
or a cell allocated since. -/
def DstCell (h : Heap) (σ : Shape) (π : List Step) : Value → Prop
  | .addr _ a q => a < h.cells.length ∧
      (σ.bound ≤ a ∨ ∃ π0, σ.cellPos a = some π0 ∧ π = π0 ++ q.map Step.field)
  | _ => True

/-- The setting of the key loop of the map case of `deepMerge`: a destination
map `dst` at the place `π` that holds the map object `rd`, and a source map
`src` of the same type `T` that holds the map object `rs` of the source. -/
structure KeyCtx (σ : Shape) (π : List Step) (dst src : Value) (T E : Ty)
    (rd rs : Nat) : Prop where
  kind : T.kind = .Map
  dtyp : dst.typ = .ok T
  styp : src.typ = .ok T
  elem : T.elem = some E
  elemS : E = σ.mapTy rs
  srcM : σ.srcMap rs = true
  srcIn : SrcIn σ src
  place : σ.mapPos rd = some π ∨ σ.boundM ≤ rd

/-- What holds of the heap all along the key loop. -/
structure KeyInv (σ : Shape) (π : List Step) (dst src : Value) (rd rs : Nat)
    (ms : List (Key × Val)) (h : Heap) : Prop where
  ok : SrcOk h σ
  dcell : DstCell h σ π dst
  dload : dst.load h = .ok (.map (some rd))
  sload : src.load h = .ok (.map (some rs))
  smap : h.maps[rs]? = some ms
  rdlt : rd < h.maps.length

/-- What holds of the heap for a key the loop has not come to yet: the heap
has the shape at the place of the entry, and the entry of the destination
under the key, if there is one, can stand at that place. -/
def KeyFit (σ : Shape) (π : List Step) (rd : Nat) (h : Heap) (k : Key) :
    Prop :=
  WellShaped h σ (π ++ [.key k]) ∧
  ∀ md y, h.maps[rd]? = some md → mapLookup k md = some y →
    y.fits σ (π ++ [.key k]) = true

/-- The frame of the key loop for the keys `ks`: only what lies below the
places of the entries, the entries of the destination map under these keys,
and what was allocated since has changed. -/
def FrameK (σ : Shape) (π : List Step) (rd : Nat) (ks : List Key)
    (h h1 : Heap) : Prop :=
  h.cells.length ≤ h1.cells.length ∧ h.maps.length ≤ h1.maps.length ∧
  (∀ c r, c < h.cells.length → (∀ k ∈ ks, ¬ σ.below (π ++ [.key k]) c) →
    h1.read c r = h.read c r) ∧
  (∀ i, i < h.maps.length → i ≠ rd →
    (∀ k ∈ ks, ¬ σ.underM (π ++ [.key k]) i) → h1.maps[i]? = h.maps[i]?) ∧
  ∃ md md', h.maps[rd]? = some md ∧ h1.maps[rd]? = some md' ∧
    ∀ k', k' ∉ ks → mapLookup k' md' = mapLookup k' md

/-- The heap `g` holds what `h1` holds wherever the key loop for the keys
`ks` that led from `h` to `h1` may look. -/
def AgreeK (σ : Shape) (π : List Step) (dst : Value) (rd : Nat)
    (ks : List Key) (h h1 g : Heap) : Prop :=
  h1.cells.length ≤ g.cells.length ∧ h1.maps.length ≤ g.maps.length ∧
  (∀ c, c < h1.cells.length →
    ((∃ k ∈ ks, σ.under (π ++ [.key k]) c) ∨ h.cells.length ≤ c ∨
      σ.srcCell c = true) → g.cells[c]? = h1.cells[c]?) ∧
  (∀ i, i < h1.maps.length →
    ((∃ k ∈ ks, σ.underM (π ++ [.key k]) i) ∨ h.maps.length ≤ i ∨
      σ.srcMap i = true) → g.maps[i]? = h1.maps[i]?) ∧
  SameAt g h1 dst ∧
  ∃ mg md', g.maps[rd]? = some mg ∧ h1.maps[rd]? = some md' ∧
    ∀ k ∈ ks, mapLookup k mg = mapLookup k md'

/-- The type `type DS struct { P *int; A, B map[string]*int }`. -/
def exDS : Ty :=
  .named "DS" (.struct [("P", "", .ptr (.basic .Int)),
    ("A", "", .map (.basic .String) (.ptr (.basic .Int))),
    ("B", "", .map (.basic .String) (.ptr (.basic .Int)))])

/-- A heap for `x, y := 1, 7; m := map[string]*int{}; d := DS{A: m, B: m}`
and the maps `{"k": &x}` and `{"k": &y}` of a source: cell 0 is `d`, whose
fields `A` and `B` hold the one map object 0; cell 1 is `x`, cell 2 is `y`;
the map objects 1 and 2 are the maps of the source. -/
def exHeapDS : Heap :=
  ⟨[.struct [.ptr none, .map (some 0), .map (some 0)], .int 1, .int 7],
   [[], [(.str "k", .ptr (some 1))], [(.str "k", .ptr (some 2))]]⟩

/-- The destination `&d`. -/
def exDstDS : Iface := some (.ptr exDS, .ptr (some 0))

/-- The source `DS{P: &x, A: {"k": &x}, B: {"k": &y}}`. -/
def exSrcDS : Iface :=
  some (exDS, .struct [.ptr (some 1), .map (some 1), .map (some 2)])

/-- The type
`type W struct { N int; P *int; M map[string]int; I interface{}; S []int }`. -/
def exW : Ty :=
  .named "W" (.struct [("N", "", .basic .Int), ("P", "", .ptr (.basic .Int)),
    ("M", "", .map (.basic .String) (.basic .Int)), ("I", "", .iface),
    ("S", "", .slice (.basic .Int))])

/-- A heap for `p, q := 5, 9` and
`d := W{N: 1, P: &p, M: {"a": 1}, I: "a", S: []int{1}}`: cell 0 is `d`, cell 1
is `p`, cell 2 is `q`; the map object 0 is `d.M`, the map object 1 is the map
`{"b": 2}` of a source. -/
def exHeapW : Heap :=
  ⟨[.struct [.int 1, .ptr (some 1), .map (some 0),
      .iface (some (.basic .String, .str "a")), .slice (some [.int 1])],
    .int 5, .int 9],
   [[(.str "a", .int 1)], [(.str "b", .int 2)]]⟩

/-- The destination `&d`. -/
def exDstW : Iface := some (.ptr exW, .ptr (some 0))

/-- The source `W{N: 2, P: &q, M: {"b": 2}, I: "b", S: []int{2}}`. -/
def exSrcW : Iface :=
  some (exW, .struct [.int 2, .ptr (some 2), .map (some 1),
    .iface (some (.basic .String, .str "b")), .slice (some [.int 2])])

/-- The shape of `exHeapW` for the destination `exDstW` and the source
`exSrcW`: the cell 0 is the pointee of the destination pointer, the cell 1 the
pointee of its field `P`, the map object 0 its field `M`; the cell 2 and the
map object 1 are the source. -/
def exShapeW : Shape where
  cellPos := fun c =>
    match c with
    | 0 => some [.elem]
    | 1 => some [.elem, .field 1, .elem]
    | _ => none
  mapPos := fun r =>
    match r with
    | 0 => some [.elem, .field 2]
    | _ => none
  srcCell := fun c => c == 2
  srcMap := fun r => r == 1
  bound := 3
  boundM := 2
  cellTy := fun _ => .basic .Int
  mapTy := fun _ => .basic .Int
  rank := fun _ => 0
  rankM := fun _ => 0
  deep := fun _ => false
  deepM := fun _ => false
  unite := true

/-- The heap `exHeapW` after `Merge(&d, src)` under the default options. -/
def exHeapW1 : Heap :=
  ⟨[.struct [.int 2, .ptr (some 1), .map (some 0),
      .iface (some (.basic .String, .str "b")), .slice (some [.int 2])],
    .int 9, .int 9],
   [[(.str "a", .int 1), (.str "b", .int 2)], [(.str "b", .int 2)]]⟩

/-- The heap `exHeapW` after `Merge(&d, src)` in the slice mode Unite. -/
def exHeapW2 : Heap :=
  ⟨[.struct [.int 2, .ptr (some 1), .map (some 0),
      .iface (some (.basic .String, .str "b")),
      .slice (some [.int 1, .int 2])],
    .int 9, .int 9],
   [[(.str "a", .int 1), (.str "b", .int 2)], [(.str "b", .int 2)]]⟩

/-! # Theorems -/

/-! ## Basic facts about computations -/

@[simp] theorem M.pure_apply {α : Type} (a : α) (h : Heap) :
    (pure a : M α) h = .ok a h := rfl

@[simp] theorem M.bind_apply {α β : Type} (x : M α) (f : α → M β) (h : Heap) :
    (x >>= f) h = match x h with
      | .ok a h' => f a h'
      | .fail e h' => .fail e h' := rfl

@[simp] theorem M.fail_apply {α : Type} (f : Fault) (h : Heap) :
    (M.fail f : M α) h = .fail f h := rfl

@[simp] theorem M.rd_apply {α : Type} (f : Heap → Except Fault α) (h : Heap) :
    M.rd f h = match f h with
      | .ok a => .ok a h
      | .error e => .fail e h := rfl

@[simp] theorem M.upd_apply (f : Heap → Except Fault Heap) (h : Heap) :
    M.upd f h = match f h with
      | .ok h' => .ok () h'
      | .error e => .fail e h := rfl

/-! ## C2: a nil source -/

theorem applyOptions_policy (opts : List OptionFunc)
    (hopts : ∀ f ∈ opts, f.isPolicy = true) (o : Options) :
    ∃ o', applyOptions opts o = .ok o' := by
  induction opts generalizing o with
  | nil => exact ⟨o, rfl⟩
  | cons f fs ih =>
    have hf := hopts f (List.mem_cons_self _ _)
    have hfs : ∀ g ∈ fs, g.isPolicy = true :=
      fun g hg => hopts g (List.mem_cons_of_mem _ hg)
    cases f <;> simp [OptionFunc.isPolicy] at hf <;>
      simp only [applyOptions, OptionFunc.apply] <;> exact ih hfs _

/-- C2: for every destination `dst` (nil, a non-pointer, or anything else),
every heap, every amount of fuel and every list of `WithoutOverwrite`,
`WithoutGoConvertion` and `WithSliceMode` options, `Merge(dst, nil, opts...)`
returns no error and leaves the heap, hence the destination, unchanged. -/
theorem C2_merge_nil_source (H : Host) (n : Nat) (dst : Iface)
    (opts : List OptionFunc) (hopts : ∀ f ∈ opts, f.isPolicy = true)
    (h : Heap) :
    Merge H n dst none opts h = .ok () h := by
  obtain ⟨o', ho'⟩ := applyOptions_policy opts hopts newOptions
  simp [Merge, ho', merge]

theorem C2_merge_nil_source_witness :
    Merge Host.trivial 0 (some (.basic .Int, .int 1)) none
      [.WithoutOverwrite, .WithSliceMode AppendSliceMode, .WithoutGoConvertion]
      ⟨[.int 7], []⟩ = .ok () ⟨[.int 7], []⟩ :=
  C2_merge_nil_source _ 0 _ _ (by simp [OptionFunc.isPolicy]) _

/-! ## C1: a failed merge -/

/-- C1 (the code breaks it): `Merge(&t, T{A: 2, B: 3})` with
`t = T{A: 1, B: "x"}` returns the error "can not convert int to string" for
field `B`, and `t.A`, merged before, is 2 afterwards: the destination is not
left as it was. -/
theorem C1_failed_merge_mutates (H : Host) :
    Merge H 5 exDst1 exSrc1 [] exHeap1 =
        .fail (.error (.cannotConvert (.basic .Int) (.basic .String)))
          ⟨[.struct [.int 2, .iface (some (.basic .String, .str "x"))]], []⟩ ∧
      exHeap1.read 0 [0] = some (.int 1) ∧
      (Merge H 5 exDst1 exSrc1 [] exHeap1).heap.read 0 [0] = some (.int 2) :=
  ⟨rfl, rfl, rfl⟩

/-! ## Facts about values, paths and the heap -/

theorem Value.kind_of_typ {v : Value} {t : Ty} (hv : v.typ = .ok t) :
    v.kind = t.kind := by
  cases v <;> simp [Value.typ] at hv <;> simp [Value.kind, hv]

theorem Val.setPath_of_getPath {v w : Val} {p : List Nat} (x : Val)
    (hg : v.getPath p = some w) : ∃ v', v.setPath p x = some v' := by
  induction p generalizing v with
  | nil => exact ⟨x, rfl⟩
  | cons i p ih =>
    cases v <;> simp [Val.getPath] at hg
    rename_i fs
    cases hfi : fs[i]? with
    | none => simp [hfi] at hg
    | some f =>
      simp [hfi] at hg
      obtain ⟨f', hf'⟩ := ih hg
      exact ⟨.struct (fs.set i f'), by simp [Val.setPath, hfi, hf']⟩

theorem Val.getPath_setPath {v v' : Val} {p : List Nat} {x : Val}
    (hs : v.setPath p x = some v') : v'.getPath p = some x := by
  induction p generalizing v v' with
  | nil => simp [Val.setPath] at hs; simp [Val.getPath, hs]
  | cons i p ih =>
    cases v <;> simp [Val.setPath] at hs
    rename_i fs
    cases hfi : fs[i]? with
    | none => simp [hfi] at hs
    | some f =>
      simp [hfi] at hs
      cases hf : f.setPath p x with
      | none => simp [hf] at hs
      | some f' =>
        simp [hf] at hs
        subst hs
        have hi : i < fs.length := by
          rcases List.getElem?_eq_some_iff.mp hfi with ⟨hi, _⟩; exact hi
        simp [Val.getPath, List.getElem?_set, hi, ih hf]

theorem Heap.write_of_read {h : Heap} {a : Nat} {p : List Nat} {w : Val}
    (x : Val) (hr : h.read a p = some w) : ∃ h', h.write a p x = some h' := by
  unfold Heap.read at hr
  cases hc : h.cells[a]? with
  | none => simp [hc] at hr
  | some c =>
    simp [hc] at hr
    obtain ⟨c', hc'⟩ := Val.setPath_of_getPath x hr
    exact ⟨{ h with cells := h.cells.set a c' }, by simp [Heap.write, hc, hc']⟩

theorem Heap.read_write {h h' : Heap} {a : Nat} {p : List Nat} {x : Val}
    (hw : h.write a p x = some h') : h'.read a p = some x := by
  unfold Heap.write at hw
  cases hc : h.cells[a]? with
  | none => simp [hc] at hw
  | some c =>
    simp [hc] at hw
    cases hs : c.setPath p x with
    | none => simp [hs] at hw
    | some c' =>
      simp [hs] at hw
      subst hw
      have ha : a < h.cells.length := by
        rcases List.getElem?_eq_some_iff.mp hc with ⟨ha, _⟩; exact ha
      simp [Heap.read, List.getElem?_set, ha, Val.getPath_setPath hs]


@[simp] theorem Value.typ_addr (t : Ty) (a : Nat) (p : List Nat) :
    (Value.addr t a p).typ = .ok t := rfl
@[simp] theorem Value.typ_direct (t : Ty) (v : Val) :
    (Value.direct t v).typ = .ok t := rfl
@[simp] theorem Value.kind_addr (t : Ty) (a : Nat) (p : List Nat) :
    (Value.addr t a p).kind = t.kind := rfl
@[simp] theorem Value.kind_direct (t : Ty) (v : Val) :
    (Value.direct t v).kind = t.kind := rfl
@[simp] theorem Value.kind_invalid : Value.invalid.kind = .Invalid := rfl
@[simp] theorem Value.CanSet_addr (t : Ty) (a : Nat) (p : List Nat) :
    (Value.addr t a p).CanSet = true := rfl
@[simp] theorem Value.CanSet_direct (t : Ty) (v : Val) :
    (Value.direct t v).CanSet = false := rfl
@[simp] theorem Value.IsValid_addr (t : Ty) (a : Nat) (p : List Nat) :
    (Value.addr t a p).IsValid = true := rfl
@[simp] theorem Value.IsValid_direct (t : Ty) (v : Val) :
    (Value.direct t v).IsValid = true := rfl
@[simp] theorem Value.IsValid_invalid : Value.invalid.IsValid = false := rfl
@[simp] theorem Value.load_direct (h : Heap) (t : Ty) (v : Val) :
    (Value.direct t v).load h = .ok v := rfl

theorem Value.load_addr {h : Heap} {t : Ty} {a : Nat} {p : List Nat} {v : Val}
    (hr : h.read a p = some v) : (Value.addr t a p).load h = .ok v := by
  simp [Value.load, hr]

theorem Value.IsValid_of_typ {v : Value} {t : Ty} (hv : v.typ = .ok t) :
    v.IsValid = true := by
  cases v <;> simp [Value.typ] at hv <;> rfl

theorem derefDirect_of_not_iface {t : Ty} (x : Val)
    (hk : t.kind ≠ .Interface) : derefDirect t x = .ok (.direct t x) := by
  cases x with
  | iface d => rcases d with _ | ⟨t', v'⟩ <;> simp [derefDirect, hk]
  | _ => simp [derefDirect, hk]

theorem derefInterface_of_not_iface {v : Value} (h : Heap)
    (hk : v.kind ≠ .Interface) : derefInterface v h = .ok v := by
  cases v with
  | invalid => rfl
  | direct t x => exact derefDirect_of_not_iface x hk
  | addr t a p => simp [derefInterface]; intro hk'; exact absurd hk' hk

theorem assignable_self (t : Ty) : assignable t t = true := by
  simp [assignable]

theorem assignTo_self {t : Ty} (x : Val) (hk : t.kind ≠ .Interface) :
    assignTo t t x = x := by
  simp [assignTo, hk]

/-- `directMerge` onto a settable destination whose kind is not interface:
the assignment happens exactly when the policy allows it. -/
theorem directMerge_addr {T : Ty} {a : Nat} {p : List Nat} {src : Value}
    {h : Heap} {sv dv : Val} (o : Options)
    (hk : T.kind ≠ .Interface) (hst : src.typ = .ok T)
    (hsl : src.load h = .ok sv) (hd : h.read a p = some dv) :
    ∃ h', h.write a p sv = some h' ∧
      directMerge (.addr T a p) src o h =
        .ok () (if o.Overwrite = true ∨ isEmptyValue h (.addr T a p) = true
          then h' else h) := by
  obtain ⟨h', hw⟩ := Heap.write_of_read sv hd
  refine ⟨h', hw, ?_⟩
  have hsk : src.kind ≠ .Interface := by rw [Value.kind_of_typ hst]; exact hk
  simp [directMerge, derefInterface_of_not_iface, hk, hsk,
    Value.IsValid_of_typ hst, hst]
  by_cases hc : o.Overwrite = true ∨ isEmptyValue h (.addr T a p) = true
  · simp [hc, Value.Set, hst, hsl, assignable_self, assignTo_self, hk, hw]
  · simp [hc]

theorem ReplaceSlice_ne_Append : ReplaceSlice ≠ AppendSliceMode := by decide
theorem ReplaceSlice_ne_Unite : ReplaceSlice ≠ UniteSlice := by decide

/-! ## C10: Replace slice mode -/

/-- C10: in Replace slice mode, for a settable destination slice holding `dv`
(nil, empty or not) and a non-nil source slice `sv` (possibly empty) of the
same type, with no merge function registered for that type, `deepMerge`
returns no error; afterwards the destination holds the source slice when
`Overwrite` is set or the destination had length 0, and otherwise the
destination and the whole heap are unchanged. -/
theorem C10_replace_slice (H : Host) (m : porter) (n : Nat) (o : Options)
    (h : Heap) (T : Ty) (a : Nat) (p : List Nat) (dv : Option (List Val))
    (sv : List Val) (src : Value)
    (hk : T.kind = .Slice) (hreg : tableLookup T m.mergeFuncs = none)
    (hmode : o.SliceMode = ReplaceSlice)
    (hd : h.read a p = some (.slice dv))
    (hst : src.typ = .ok T) (hs : src.load h = .ok (.slice (some sv))) :
    ∃ h', m.deepMerge H (n + 1) (.addr T a p) src o h = .ok () h' ∧
      h'.read a p = some (if o.Overwrite = true ∨ (dv.getD []).length = 0
        then .slice (some sv) else .slice dv) ∧
      (¬ (o.Overwrite = true ∨ (dv.getD []).length = 0) → h' = h) := by
  have hki : T.kind ≠ .Interface := by simp [hk]
  obtain ⟨h', hw, hdm⟩ := directMerge_addr o hki hst hs hd
  have hsk := Value.kind_of_typ hst
  have hemp : isEmptyValue h (.addr T a p) = true ↔ (dv.getD []).length = 0 := by
    cases dv <;> simp [isEmptyValue, hk, Value.Len, Value.load_addr hd]
  have hdeep : m.deepMerge H (n + 1) (.addr T a p) src o h =
      directMerge (.addr T a p) src o h := by
    simp [porter.deepMerge, porter.deepMergeBody, hst, hreg, hk,
      Value.IsNil, hsk, hs, mergeSlice, hmode, ReplaceSlice_ne_Append,
      ReplaceSlice_ne_Unite]
  rw [hdeep, hdm]
  by_cases hc : o.Overwrite = true ∨ (dv.getD []).length = 0
  · have hc' : o.Overwrite = true ∨ isEmptyValue h (.addr T a p) = true :=
      hc.imp id hemp.mpr
    rw [if_pos hc', if_pos hc]
    exact ⟨h', rfl, Heap.read_write hw, fun hn => absurd hc hn⟩
  · have hc' : ¬ (o.Overwrite = true ∨ isEmptyValue h (.addr T a p) = true) :=
      fun hx => hc (hx.imp id hemp.mp)
    rw [if_neg hc', if_neg hc]
    exact ⟨h, rfl, hd, fun _ => rfl⟩

theorem C10_replace_slice_witness :
    ∃ h', newPorter.deepMerge Host.trivial 1
        (.addr (.slice (.basic .Int)) 0 [])
        (.direct (.slice (.basic .Int)) (.slice (some [])))
        { newOptions with Overwrite := false }
        ⟨[.slice (some [.int 1, .int 2])], []⟩ = .ok () h' ∧
      h'.read 0 [] = some (if (false = true) ∨
          ((some [Val.int 1, Val.int 2]).getD []).length = 0
        then .slice (some []) else .slice (some [.int 1, .int 2])) ∧
      (¬ ((false = true) ∨ ((some [Val.int 1, Val.int 2]).getD []).length = 0) →
        h' = ⟨[.slice (some [.int 1, .int 2])], []⟩) :=
  C10_replace_slice Host.trivial newPorter 0 { newOptions with Overwrite := false }
    ⟨[.slice (some [.int 1, .int 2])], []⟩ (.slice (.basic .Int)) 0 []
    (some [.int 1, .int 2]) [] _ rfl rfl rfl rfl rfl rfl

/-! ## C7: a struct with an unexported field -/

/-- C7: for a settable destination of a struct type that has an unexported
field (and no merge function registered for the type), `deepMerge` assigns the
struct as one unit: it returns no error, and afterwards the destination holds
the whole source struct `sv` when `Overwrite` is set, and the whole former
destination `dv`, in an unchanged heap, when it is not.  No other outcome
exists, so no result mixes fields of the two. -/
theorem C7_unexported_struct_is_one_unit (H : Host) (m : porter) (n : Nat)
    (o : Options) (h : Heap) (T : Ty) (a : Nat) (p : List Nat) (dv sv : Val)
    (src : Value)
    (hk : T.kind = .Struct) (hun : hasUnexportedField T = true)
    (hreg : tableLookup T m.mergeFuncs = none)
    (hd : h.read a p = some dv)
    (hst : src.typ = .ok T) (hs : src.load h = .ok sv) :
    ∃ h', m.deepMerge H (n + 1) (.addr T a p) src o h = .ok () h' ∧
      h'.read a p = some (if o.Overwrite = true then sv else dv) ∧
      (o.Overwrite = false → h' = h) := by
  have hki : T.kind ≠ .Interface := by simp [hk]
  obtain ⟨h', hw, hdm⟩ := directMerge_addr o hki hst hs hd
  have hemp : isEmptyValue h (.addr T a p) = false := by
    simp [isEmptyValue, hk]
  have hdeep : m.deepMerge H (n + 1) (.addr T a p) src o h =
      directMerge (.addr T a p) src o h := by
    simp [porter.deepMerge, porter.deepMergeBody, hst, hreg, hk, hun]
  rw [hdeep, hdm, hemp]
  cases ho : o.Overwrite
  · exact ⟨h, by simp, by simpa using hd, fun _ => rfl⟩
  · exact ⟨h', by simp, by simpa using Heap.read_write hw, fun hn => by simp at hn⟩

theorem C7_unexported_struct_is_one_unit_witness :
    ∃ h', newPorter.deepMerge Host.trivial 1
        (.addr exUnexport 0 []) (.direct exUnexport (.struct [.str "2", .int 2]))
        newOptions ⟨[.struct [.str "1", .int 1]], []⟩ = .ok () h' ∧
      h'.read 0 [] = some (if newOptions.Overwrite = true
        then .struct [.str "2", .int 2] else .struct [.str "1", .int 1]) ∧
      (newOptions.Overwrite = false → h' = ⟨[.struct [.str "1", .int 1]], []⟩) :=
  C7_unexported_struct_is_one_unit Host.trivial newPorter 0 newOptions
    ⟨[.struct [.str "1", .int 1]], []⟩ exUnexport 0 [] _ _ _ rfl rfl rfl rfl rfl rfl

/-! ## C5: resolveValues -/

theorem DerefsTo.kind_ne {h : Heap} {v w : Value} (hd : DerefsTo h v w) :
    w.kind ≠ .Ptr ∧ w.kind ≠ .Interface := by
  induction hd with
  | done v h1 h2 => exact ⟨h1, h2⟩
  | step v e w _ _ _ ih => exact ih

theorem derefPtr_of_DerefsTo {h : Heap} {v w : Value} (hd : DerefsTo h v w) :
    ∃ n0, ∀ n, n0 ≤ n → derefPtr h n v = .ok w := by
  induction hd with
  | done v h1 h2 =>
    refine ⟨0, fun n _ => ?_⟩
    cases n <;> simp [derefPtr, h1, h2]
  | step v e w hk he _ ih =>
    obtain ⟨n0, hn0⟩ := ih
    refine ⟨n0 + 1, fun n hn => ?_⟩
    obtain ⟨k, rfl⟩ : ∃ k, n = k + 1 := ⟨n - 1, by omega⟩
    simp [derefPtr, hk, he, hn0 k (by omega)]

/-- C5: let the destination argument lead to `d` and the source argument to
`s` when followed through every pointer and interface layer.  Then, with
enough fuel, `resolveValues(dst, src)` returns an error if and only if `dst`
is nil, or `dst` is not a pointer, or `d` is no value, or `s` is no value;
otherwise it returns exactly `(d, s)`; and neither `d` nor `s` has pointer (or
interface) kind. -/
theorem C5_resolveValues_errors (h : Heap) (dst src : Iface) (d s : Value)
    (hd : DerefsTo h (ValueOf dst) d) (hs : DerefsTo h (ValueOf src) s) :
    ∃ n0, ∀ n, n0 ≤ n →
      ((∃ e, resolveValues n dst src h = .error (.error e)) ↔
        (dst = none ∨ (ValueOf dst).kind ≠ .Ptr ∨ d.IsValid = false ∨
          s.IsValid = false)) ∧
      (¬ (dst = none ∨ (ValueOf dst).kind ≠ .Ptr ∨ d.IsValid = false ∨
          s.IsValid = false) → resolveValues n dst src h = .ok (d, s)) ∧
      d.kind ≠ .Ptr ∧ s.kind ≠ .Ptr ∧
      d.kind ≠ .Interface ∧ s.kind ≠ .Interface := by
  obtain ⟨nd, hnd⟩ := derefPtr_of_DerefsTo hd
  obtain ⟨ns, hns⟩ := derefPtr_of_DerefsTo hs
  refine ⟨max nd ns, fun n hn => ?_⟩
  have h1 := hnd n (le_trans (le_max_left _ _) hn)
  have h2 := hns n (le_trans (le_max_right _ _) hn)
  refine ⟨?_, ?_, hd.kind_ne.1, hs.kind_ne.1, hd.kind_ne.2, hs.kind_ne.2⟩
  · cases dst with
    | none => simp [resolveValues]
    | some x =>
      by_cases hk : (ValueOf (some x)).kind = .Ptr
      · cases hdv : d.IsValid <;> cases hsv : s.IsValid <;>
          simp [resolveValues, hk, h1, h2, hdv, hsv]
      · simp [resolveValues, hk]
  · intro hne
    simp only [not_or] at hne
    obtain ⟨hn1, hn2, hn3, hn4⟩ := hne
    cases dst with
    | none => exact absurd rfl hn1
    | some x =>
      simp only [ne_eq, not_not] at hn2
      simp only [Bool.not_eq_false] at hn3 hn4
      simp [resolveValues, hn2, h1, h2, hn3, hn4]

theorem C5_resolveValues_errors_witness :
    ∃ n0, ∀ n, n0 ≤ n →
      ((∃ e, resolveValues n (some (.ptr (.basic .Int), .ptr (some 0)))
            (some (.ptr (.basic .String), .ptr none)) ⟨[.int 1], []⟩ =
          .error (.error e)) ↔
        ((some (Ty.ptr (.basic .Int), Val.ptr (some 0)) : Iface) = none ∨
          (ValueOf (some (.ptr (.basic .Int), .ptr (some 0)))).kind ≠ .Ptr ∨
          (Value.addr (.basic .Int) 0 []).IsValid = false ∨
          Value.invalid.IsValid = false)) ∧
      (¬ ((some (Ty.ptr (.basic .Int), Val.ptr (some 0)) : Iface) = none ∨
          (ValueOf (some (.ptr (.basic .Int), .ptr (some 0)))).kind ≠ .Ptr ∨
          (Value.addr (.basic .Int) 0 []).IsValid = false ∨
          Value.invalid.IsValid = false) →
        resolveValues n (some (.ptr (.basic .Int), .ptr (some 0)))
            (some (.ptr (.basic .String), .ptr none)) ⟨[.int 1], []⟩ =
          .ok (.addr (.basic .Int) 0 [], .invalid)) ∧
      (Value.addr (.basic .Int) 0 []).kind ≠ .Ptr ∧ Value.invalid.kind ≠ .Ptr ∧
      (Value.addr (.basic .Int) 0 []).kind ≠ .Interface ∧
      Value.invalid.kind ≠ .Interface :=
  C5_resolveValues_errors ⟨[.int 1], []⟩ _ _ _ _
    (.step _ (.addr (.basic .Int) 0 []) _ (Or.inl rfl) rfl
      (.done _ (by decide) (by decide)))
    (.step _ .invalid _ (Or.inl rfl) rfl (.done _ (by decide) (by decide)))

theorem Val.getPath_append (v : Val) (p q : List Nat) :
    v.getPath (p ++ q) = (v.getPath p).bind (fun w => w.getPath q) := by
  induction p generalizing v with
  | nil => simp [Val.getPath]
  | cons i p ih =>
    cases v <;> simp [Val.getPath]
    rename_i fs
    cases hfi : fs[i]? with
    | none => simp
    | some f => simp [ih]

theorem Val.setPath_append (v : Val) (p q : List Nat) (x : Val) :
    v.setPath (p ++ q) x =
      (v.getPath p).bind (fun w => (w.setPath q x).bind (fun w' => v.setPath p w')) := by
  induction p generalizing v with
  | nil =>
    simp [Val.getPath, Val.setPath]
  | cons i p ih =>
    cases v <;> simp [Val.getPath, Val.setPath]
    rename_i fs
    cases hfi : fs[i]? with
    | none => simp
    | some f =>
      simp [ih]
      cases hg : f.getPath p with
      | none => simp
      | some w =>
        simp
        cases hs : w.setPath q x with
        | none => simp
        | some w' => simp

theorem Heap.read_append (h : Heap) (a : Nat) (p q : List Nat) :
    h.read a (p ++ q) = (h.read a p).bind (fun w => w.getPath q) := by
  unfold Heap.read
  cases h.cells[a]? <;> simp [Val.getPath_append]

theorem Heap.write_append (h : Heap) (a : Nat) (p q : List Nat) (x : Val) :
    h.write a (p ++ q) x =
      (h.read a p).bind (fun w => (w.setPath q x).bind (fun w' => h.write a p w')) := by
  unfold Heap.read Heap.write
  cases hc : h.cells[a]? with
  | none => simp
  | some c =>
    simp [Val.setPath_append]
    cases hg : c.getPath p with
    | none => simp
    | some w =>
      simp
      cases hs : w.setPath q x with
      | none => simp
      | some w' => simp

/-- Reading a field of a struct stored at a location. -/
theorem Heap.read_field {h : Heap} {a : Nat} {p : List Nat} {fs : List Val}
    (hr : h.read a p = some (.struct fs)) (i : Nat) :
    h.read a (p ++ [i]) = fs[i]? := by
  rw [Heap.read_append, hr]
  simp [Val.getPath]
  cases fs[i]? <;> simp [Val.getPath]

/-- Writing a field of a struct stored at a location is writing the struct
with that field replaced. -/
theorem Heap.write_field {h : Heap} {a : Nat} {p : List Nat} {fs : List Val}
    (hr : h.read a p = some (.struct fs)) {i : Nat} (hi : i < fs.length)
    (x : Val) :
    h.write a (p ++ [i]) x = h.write a p (.struct (fs.set i x)) := by
  rw [Heap.write_append, hr]
  simp [Val.setPath, List.getElem?_eq_getElem hi]

/-! ## C6: a struct whose fields are all exported -/

/-- The field loop succeeds exactly when the field merges succeed one after
the other. -/
theorem mergeFields_ok_iff (dm : Value → Value → Options → M Unit)
    (dst src : Value) (o : Options) (is : List Nat) (h h' : Heap) :
    mergeFields dm dst src o is h = .ok () h' ↔
      ∃ hs : Nat → Heap, hs 0 = h ∧ hs is.length = h' ∧
        ∀ j (hj : j < is.length), ∃ df sf, dst.Field is[j] = .ok df ∧
          src.Field is[j] = .ok sf ∧ dm df sf o (hs j) = .ok () (hs (j + 1)) := by
  induction is generalizing h with
  | nil =>
    simp only [mergeFields, M.pure_apply, List.length_nil]
    constructor
    · intro he
      injection he with _ he
      exact ⟨fun _ => h, rfl, he, fun j hj => absurd hj (Nat.not_lt_zero _)⟩
    · rintro ⟨hs, h0, h1, _⟩
      rw [← h0, ← h1]
  | cons i is ih =>
    simp only [mergeFields, M.bind_apply, M.rd_apply, List.length_cons]
    constructor
    · intro he
      cases hdf : dst.Field i with
      | error e => simp [hdf] at he
      | ok df =>
        cases hsf : src.Field i with
        | error e => simp [hdf, hsf] at he
        | ok sf =>
          simp only [hdf, hsf] at he
          cases hdm : dm df sf o h with
          | fail e h1 => simp [hdm] at he
          | ok u h1 =>
            simp only [hdm] at he
            obtain ⟨hs, h0, hl, hstep⟩ := (ih h1).mp he
            refine ⟨fun j => if j = 0 then h else hs (j - 1), by simp, by simpa using hl, ?_⟩
            intro j hj
            cases j with
            | zero => exact ⟨df, sf, by simpa using hdf, by simpa using hsf, by simpa [h0] using hdm⟩
            | succ j =>
              obtain ⟨df', sf', h1', h2', h3'⟩ := hstep j (by omega)
              exact ⟨df', sf', by simpa using h1', by simpa using h2', by simpa using h3'⟩
    · rintro ⟨hs, h0, hl, hstep⟩
      obtain ⟨df, sf, hdf, hsf, hdm⟩ := hstep 0 (by omega)
      simp only [List.getElem_cons_zero] at hdf hsf
      rw [h0] at hdm
      simp only [hdf, hsf, hdm]
      refine (ih (hs 1)).mpr ⟨fun j => hs (j + 1), rfl, hl, fun j hj => ?_⟩
      obtain ⟨df', sf', h1', h2', h3'⟩ := hstep (j + 1) (by omega)
      exact ⟨df', sf', by simpa using h1', by simpa using h2', h3'⟩

/-- `deepMerge` on a struct whose fields are all exported is the field loop. -/
theorem deepMerge_struct_exported (H : Host) (m : porter) (n : Nat)
    (o : Options) (T : Ty) (dst src : Value)
    (hk : T.kind = .Struct) (hex : hasUnexportedField T = false)
    (hreg : tableLookup T m.mergeFuncs = none)
    (hdt : dst.typ = .ok T) (hst : src.typ = .ok T) (h : Heap) :
    m.deepMerge H (n + 1) dst src o h =
      mergeFields (m.deepMerge H n) dst src o (List.range T.fields.length) h := by
  have hdk := Value.kind_of_typ hdt
  simp [porter.deepMerge, porter.deepMergeBody, hdt, hst, hreg, hdk, hk, hex,
    Value.NumField]

/-- `deepMerge` on a settable destination of scalar kind: `directMerge`. -/
theorem deepMerge_scalar (H : Host) (m : porter) (n : Nat) (o : Options)
    {T : Ty} {a : Nat} {p : List Nat} {src : Value} {h : Heap} {sv dv : Val}
    (hk : isScalarKind T.kind = true) (hreg : tableLookup T m.mergeFuncs = none)
    (hst : src.typ = .ok T) (hsl : src.load h = .ok sv)
    (hd : h.read a p = some dv) :
    ∃ h', h.write a p sv = some h' ∧
      m.deepMerge H (n + 1) (.addr T a p) src o h =
        .ok () (if o.Overwrite = true ∨ isEmptyValue h (.addr T a p) = true
          then h' else h) := by
  have hki : T.kind ≠ .Interface := by
    intro hc; rw [hc] at hk; simp [isScalarKind] at hk
  obtain ⟨h', hw, hdm⟩ := directMerge_addr o hki hst hsl hd
  refine ⟨h', hw, ?_⟩
  rw [← hdm]
  simp only [porter.deepMerge, porter.deepMergeBody, M.bind_apply, M.rd_apply,
    Value.typ_addr, hst, ne_eq, not_true_eq_false, ite_false, hreg,
    Value.kind_addr]
  cases hT : T.kind <;> simp [hT, isScalarKind] at hk <;> rfl

theorem take_drop_set {α : Type} (xs ys : List α) (s : Nat)
    (hx : s < xs.length) (hy : s < ys.length) :
    (xs.take s ++ ys.drop s).set s xs[s] = xs.take (s + 1) ++ ys.drop (s + 1) := by
  induction s generalizing xs ys with
  | zero =>
    cases xs with
    | nil => simp at hx
    | cons x xs =>
      cases ys with
      | nil => simp at hy
      | cons y ys => simp
  | succ s ih =>
    cases xs with
    | nil => simp at hx
    | cons x xs =>
      cases ys with
      | nil => simp at hy
      | cons y ys =>
        simp at hx hy
        simpa using ih xs ys hx hy

theorem list_set_self {α : Type} {l : List α} {i : Nat} {x : α}
    (hx : l[i]? = some x) : l.set i x = l := by
  induction l generalizing i with
  | nil => rfl
  | cons y ys ih =>
    cases i with
    | zero => simp at hx; simp [hx]
    | succ i => simp at hx; simp [ih hx]

theorem Val.setPath_getPath_self {v w : Val} {p : List Nat}
    (hg : v.getPath p = some w) : v.setPath p w = some v := by
  induction p generalizing v with
  | nil => simp [Val.getPath] at hg; simp [Val.setPath, hg]
  | cons i p ih =>
    cases v <;> simp [Val.getPath] at hg
    rename_i fs
    cases hfi : fs[i]? with
    | none => simp [hfi] at hg
    | some f =>
      simp [hfi] at hg
      simp [Val.setPath, hfi, ih hg, list_set_self hfi]

theorem Val.setPath_setPath {v v' : Val} {p : List Nat} {x : Val} (y : Val)
    (hs : v.setPath p x = some v') : v'.setPath p y = v.setPath p y := by
  induction p generalizing v v' with
  | nil => rfl
  | cons i p ih =>
    cases v <;> simp [Val.setPath] at hs
    rename_i fs
    cases hfi : fs[i]? with
    | none => simp [hfi] at hs
    | some f =>
      simp [hfi] at hs
      cases hf : f.setPath p x with
      | none => simp [hf] at hs
      | some f' =>
        simp [hf] at hs
        subst hs
        have hi : i < fs.length := by
          rcases List.getElem?_eq_some_iff.mp hfi with ⟨hi, _⟩; exact hi
        simp [Val.setPath, hfi, hi, List.getElem?_set, ih hf, List.set_set]

theorem Heap.write_read_self {h : Heap} {a : Nat} {p : List Nat} {v : Val}
    (hr : h.read a p = some v) : h.write a p v = some h := by
  unfold Heap.read at hr
  unfold Heap.write
  cases hc : h.cells[a]? with
  | none => simp [hc] at hr
  | some c =>
    simp only [hc] at hr ⊢
    simp [Val.setPath_getPath_self hr, list_set_self hc]

theorem Heap.write_write {h h' : Heap} {a : Nat} {p : List Nat} {x : Val}
    (y : Val) (hw : h.write a p x = some h') :
    h'.write a p y = h.write a p y := by
  unfold Heap.write at hw ⊢
  cases hc : h.cells[a]? with
  | none => simp [hc] at hw
  | some c =>
    simp only [hc] at hw ⊢
    cases hs : c.setPath p x with
    | none => simp [hs] at hw
    | some c' =>
      simp [hs] at hw
      subst hw
      have ha : a < h.cells.length := by
        rcases List.getElem?_eq_some_iff.mp hc with ⟨ha, _⟩; exact ha
      simp [List.getElem?_set, ha, Val.setPath_setPath y hs, List.set_set]

/-- The field loop over scalar fields with `Overwrite` set, from field `s`
on: the destination ends as the source struct. -/
theorem mergeFields_scalar (H : Host) (m : porter) (n : Nat) (o : Options)
    (ho : o.Overwrite = true) (T : Ty) (a : Nat) (p : List Nat)
    (svs dvs : List Val)
    (hsl : svs.length = T.fields.length) (hdl : dvs.length = T.fields.length)
    (hsc : ∀ f ∈ T.fields, isScalarKind f.2.2.kind = true ∧
      tableLookup f.2.2 m.mergeFuncs = none)
    (hk : T.kind = .Struct) (r s : Nat) (hrs : s + r = T.fields.length)
    (h : Heap)
    (hr : h.read a p = some (.struct (svs.take s ++ dvs.drop s))) :
    ∃ h', mergeFields (m.deepMerge H (n + 1)) (.addr T a p)
        (.direct T (.struct svs)) o (List.range' s r) h = .ok () h' ∧
      h.write a p (.struct svs) = some h' := by
  induction r generalizing s h with
  | zero =>
    have e1 : svs.take s = svs := List.take_of_length_le (by omega)
    have e2 : dvs.drop s = [] := List.drop_of_length_le (by omega)
    rw [e1, e2, List.append_nil] at hr
    exact ⟨h, rfl, Heap.write_read_self hr⟩
  | succ r ih =>
    have hs1 : s < T.fields.length := by omega
    have hs2 : s < svs.length := by omega
    have hs3 : s < dvs.length := by omega
    obtain ⟨fld, hfld⟩ : ∃ fld, T.fields[s]? = some fld :=
      ⟨T.fields[s], List.getElem?_eq_getElem hs1⟩
    obtain ⟨nm, pk, ft⟩ := fld
    have hmem : (nm, pk, ft) ∈ T.fields := List.getElem?_mem hfld
    obtain ⟨hsk, hnone⟩ := hsc _ hmem
    have hcur : (svs.take s ++ dvs.drop s)[s]? = some dvs[s] := by
      have hle : (svs.take s).length ≤ s := by simp
      have hl : (svs.take s).length = s := by simp; omega
      rw [List.getElem?_append_right hle, hl, Nat.sub_self, List.getElem?_drop]
      simp [List.getElem?_eq_getElem hs3]
    have hrd : h.read a (p ++ [s]) = some dvs[s] := by
      rw [Heap.read_field hr, hcur]
    obtain ⟨h1, hw1, hdm⟩ := @deepMerge_scalar H m n o _ _ _ _ _ (svs[s]) _ hsk hnone
      (Value.typ_direct ft svs[s]) (Value.load_direct h ft svs[s]) hrd
    have hlen : s < (svs.take s ++ dvs.drop s).length := by simp; omega
    rw [Heap.write_field hr hlen, take_drop_set svs dvs s hs2 hs3] at hw1
    obtain ⟨h', hmf, hw'⟩ := ih (s + 1) (by omega) h1 (Heap.read_write hw1)
    refine ⟨h', ?_, ?_⟩
    · simp only [List.range'_succ, mergeFields, M.bind_apply, M.rd_apply,
        Value.Field, Value.kind_addr, Value.kind_direct, hk, hfld,
        List.getElem?_eq_getElem hs2, hdm, ho, true_or, if_true]
      exact hmf
    · rw [← Heap.write_write _ hw1]; exact hw'

/-- C6: for a struct type whose fields are all exported, with no merge
function registered for it, `deepMerge(dst, src)` succeeds exactly when the
merges of the pairs of corresponding fields succeed one after the other (each
from the heap the one before left): the heaps `hs 0, ..., hs k` are the states
between the field merges, so what field `i` holds after its merge is what
`deepMerge(dst.Field(i), src.Field(i))` made of it.  The merge of a scalar
field with `Overwrite` set assigns the source's value, zero or not; hence a
struct of scalar fields ends as the source struct. -/
theorem C6_struct_is_merged_fieldwise (H : Host) (m : porter) (n : Nat)
    (o : Options) (T : Ty) (dst src : Value)
    (hk : T.kind = .Struct) (hex : hasUnexportedField T = false)
    (hreg : tableLookup T m.mergeFuncs = none)
    (hdt : dst.typ = .ok T) (hst : src.typ = .ok T) :
    (∀ h h', m.deepMerge H (n + 1) dst src o h = .ok () h' ↔
      ∃ hs : Nat → Heap, hs 0 = h ∧ hs T.fields.length = h' ∧
        ∀ i, i < T.fields.length → ∃ df sf, dst.Field i = .ok df ∧
          src.Field i = .ok sf ∧
          m.deepMerge H n df sf o (hs i) = .ok () (hs (i + 1))) ∧
    (o.Overwrite = true →
      ∀ (ft : Ty) (a : Nat) (q : List Nat) (sf : Value) (g : Heap) (x y : Val),
        isScalarKind ft.kind = true → tableLookup ft m.mergeFuncs = none →
        sf.typ = .ok ft → sf.load g = .ok x → g.read a q = some y →
        ∃ g', g.write a q x = some g' ∧
          m.deepMerge H (n + 1) (.addr ft a q) sf o g = .ok () g') ∧
    (o.Overwrite = true →
      ∀ (a : Nat) (p : List Nat) (svs dvs : List Val) (h : Heap),
        dst = .addr T a p → src = .direct T (.struct svs) →
        h.read a p = some (.struct dvs) →
        svs.length = T.fields.length → dvs.length = T.fields.length →
        (∀ f ∈ T.fields, isScalarKind f.2.2.kind = true ∧
          tableLookup f.2.2 m.mergeFuncs = none) →
        ∃ h', h.write a p (.struct svs) = some h' ∧
          m.deepMerge H (n + 2) dst src o h = .ok () h') := by
  refine ⟨fun h h' => ?_, fun ho ft a q sf g x y hsk hn hsft hsl hrd => ?_,
    fun ho a p svs dvs h hd hs hr hsl hdl hsc => ?_⟩
  · rw [deepMerge_struct_exported H m n o T dst src hk hex hreg hdt hst,
      mergeFields_ok_iff]
    constructor
    · rintro ⟨hs, h0, hl, hstep⟩
      refine ⟨hs, h0, by simpa using hl, fun i hi => ?_⟩
      have := hstep i (by simpa using hi)
      simpa using this
    · rintro ⟨hs, h0, hl, hstep⟩
      refine ⟨hs, h0, by simpa using hl, fun j hj => ?_⟩
      have := hstep j (by simpa using hj)
      simpa using this
  · obtain ⟨g', hw, hdm⟩ := deepMerge_scalar H m n o hsk hn hsft hsl hrd
    exact ⟨g', hw, by simpa [ho] using hdm⟩
  · subst hd hs
    rw [deepMerge_struct_exported H m (n + 1) o T _ _ hk hex hreg
        (Value.typ_addr T a p) (Value.typ_direct T _),
      List.range_eq_range']
    obtain ⟨h', hmf, hw⟩ := mergeFields_scalar H m n o ho T a p svs dvs hsl hdl
      hsc hk T.fields.length 0 (by omega) h (by simpa using hr)
    exact ⟨h', hw, hmf⟩

theorem C6_struct_is_merged_fieldwise_witness :
    ∃ h', (⟨[.struct [.str "1"]], []⟩ : Heap).write 0 [] (.struct [.str ""]) =
        some h' ∧
      newPorter.deepMerge Host.trivial 2 (.addr exExport 0 [])
        (.direct exExport (.struct [.str ""])) newOptions
        ⟨[.struct [.str "1"]], []⟩ = .ok () h' :=
  (C6_struct_is_merged_fieldwise Host.trivial newPorter 0 newOptions exExport
    (.addr exExport 0 []) (.direct exExport (.struct [.str ""]))
    rfl rfl rfl rfl rfl).2.2 rfl 0 [] [.str ""] [.str "1"]
    ⟨[.struct [.str "1"]], []⟩ rfl rfl rfl rfl rfl
    (by simp [exExport, Ty.fields, Ty.underlying, isScalarKind, Ty.kind,
      tableLookup, newPorter])

/-! ## C4: without overwrite, non-empty scalars are kept -/

theorem Preserved.refl (h : Heap) : Preserved h h := fun _ _ _ hr _ => hr

theorem Preserved.trans {h1 h2 h3 : Heap} (h12 : Preserved h1 h2)
    (h23 : Preserved h2 h3) : Preserved h1 h3 :=
  fun a p v hr hv => h23 a p v (h12 a p v hr hv) hv

theorem Preserved.of_cells {h h' : Heap} (hc : h'.cells = h.cells) :
    Preserved h h' := by
  intro a p v hr _
  simpa [Heap.read, hc] using hr

theorem Preserved.alloc (h : Heap) (v : Val) : Preserved h (h.alloc v).1 := by
  intro a p w hr _
  unfold Heap.read at hr ⊢
  cases hc : h.cells[a]? with
  | none => simp [hc] at hr
  | some c =>
    have ha : a < h.cells.length := by
      rcases List.getElem?_eq_some_iff.mp hc with ⟨ha, _⟩; exact ha
    simp only [Heap.alloc, List.getElem?_append_left ha, hc]
    simpa [hc] using hr

theorem Val.nonEmptyScalar_not_struct {v : Val} (hv : v.nonEmptyScalar = true) :
    v.isStruct = false := by
  cases v <;> simp [Val.nonEmptyScalar] at hv <;> rfl

theorem Val.getPath_cons_isStruct {v w : Val} {i : Nat} {q : List Nat}
    (hg : v.getPath (i :: q) = some w) : v.isStruct = true := by
  cases v <;> simp [Val.getPath] at hg <;> rfl

/-- Replacing a value that is not a struct changes no other value that is not
a struct. -/
theorem Val.getPath_setPath_frame {v v' old w x : Val} {p p' : List Nat}
    (hs : v.setPath p x = some v') (ho : v.getPath p = some old)
    (hold : old.isStruct = false) (hw : v.getPath p' = some w)
    (hwn : w.isStruct = false) (hne : p' ≠ p) : v'.getPath p' = some w := by
  induction p generalizing v v' p' with
  | nil =>
    simp [Val.getPath] at ho
    subst ho
    cases p' with
    | nil => exact absurd rfl hne
    | cons j q => rw [Val.getPath_cons_isStruct hw] at hold; cases hold
  | cons i p1 ih =>
    cases v <;> simp [Val.setPath] at hs
    rename_i fs
    cases hfi : fs[i]? with
    | none => simp [hfi] at hs
    | some f =>
      simp [hfi] at hs
      cases hf : f.setPath p1 x with
      | none => simp [hf] at hs
      | some f' =>
        simp [hf] at hs
        subst hs
        have hi : i < fs.length := by
          rcases List.getElem?_eq_some_iff.mp hfi with ⟨hi, _⟩; exact hi
        cases p' with
        | nil =>
          simp [Val.getPath] at hw
          subst hw
          cases hwn
        | cons j q =>
          simp only [Val.getPath] at hw ho ⊢
          by_cases hji : j = i
          · subst hji
            simp only [hfi] at hw ho
            simp only [List.getElem?_set_self hi]
            exact ih hf ho hw (fun hq => hne (by rw [hq]))
          · rw [List.getElem?_set_ne (Ne.symm hji)]
            exact hw

/-- A write over a value that is neither a struct nor a non-empty scalar
keeps every non-empty scalar. -/
theorem Preserved.write {h h' : Heap} {a : Nat} {p : List Nat} {x old : Val}
    (hw : h.write a p x = some h') (hr : h.read a p = some old)
    (hs : old.isStruct = false) (hn : old.nonEmptyScalar = false) :
    Preserved h h' := by
  intro a' p' v hv hvn
  unfold Heap.write at hw
  unfold Heap.read at hr hv ⊢
  cases hc : h.cells[a]? with
  | none => simp [hc] at hw
  | some c =>
    simp only [hc] at hw hr
    cases hsp : c.setPath p x with
    | none => simp [hsp] at hw
    | some c' =>
      simp only [hsp, Option.some.injEq] at hw
      subst hw
      have ha : a < h.cells.length := by
        rcases List.getElem?_eq_some_iff.mp hc with ⟨ha, _⟩; exact ha
      by_cases haa : a' = a
      · subst haa
        simp only [hc] at hv
        simp only [List.getElem?_set_self ha]
        by_cases hpp : p' = p
        · subst hpp
          rw [hr] at hv
          injection hv with hv
          rw [hv, hvn] at hn
          cases hn
        · exact Val.getPath_setPath_frame hsp hr hs hv
            (Val.nonEmptyScalar_not_struct hvn) hpp
      · simp only [List.getElem?_set_ne (Ne.symm haa)]
        exact hv

theorem PresAt.pure {α : Type} (h : Heap) (a : α) : PresAt h (pure a : M α) :=
  Preserved.refl h

theorem PresAt.fail {α : Type} (h : Heap) (f : Fault) :
    PresAt h (M.fail f : M α) := Preserved.refl h

theorem PresAt.rd {α : Type} (h : Heap) (f : Heap → Except Fault α) :
    PresAt h (M.rd f) := by
  unfold PresAt
  rw [M.rd_apply]
  cases f h <;> exact Preserved.refl h

theorem PresAt.bind {α β : Type} {h : Heap} {x : M α} {k : α → M β}
    (hx : PresAt h x) (hk : ∀ a h', x h = .ok a h' → PresAt h' (k a)) :
    PresAt h (x >>= k) := by
  unfold PresAt at hx ⊢
  rw [M.bind_apply]
  cases hxh : x h with
  | ok a h' =>
    rw [hxh] at hx
    exact Preserved.trans hx (hk a h' hxh)
  | fail e h' =>
    rw [hxh] at hx
    exact hx

theorem PresAt.rd_bind {α β : Type} {h : Heap} {f : Heap → Except Fault α}
    {k : α → M β} (hk : ∀ a, f h = .ok a → PresAt h (k a)) :
    PresAt h (M.rd f >>= k) := by
  refine PresAt.bind (PresAt.rd h f) (fun a h' hx => ?_)
  rw [M.rd_apply] at hx
  cases hf : f h with
  | ok b =>
    rw [hf] at hx
    injection hx with hx1 hx2
    subst hx1 hx2
    exact hk _ hf
  | error e => rw [hf] at hx; cases hx

theorem Pres.pres_bind {α β : Type} {x : M α} {k : α → M β}
    (hx : Pres x) (hk : ∀ a, Pres (k a)) : Pres (x >>= k) :=
  fun h => PresAt.bind (hx h) (fun a h' _ => hk a h')

theorem PresAt.upd_Set {h : Heap} {dst x : Value} {old : Val}
    (hl : dst.load h = .ok old) (h1 : old.isStruct = false)
    (h2 : old.nonEmptyScalar = false) : PresAt h (M.upd (dst.Set x)) := by
  unfold PresAt
  rw [M.upd_apply]
  cases hs : dst.Set x h with
  | error e => exact Preserved.refl h
  | ok h' =>
    cases dst with
    | invalid => simp [Value.Set] at hs
    | direct t v => simp [Value.Set] at hs
    | addr t a p =>
      have hr : h.read a p = some old := by
        unfold Value.load at hl
        cases hrd : h.read a p with
        | none => simp [hrd] at hl
        | some y => simp [hrd] at hl; rw [hl]
      simp only [Value.Set] at hs
      split at hs
      · split at hs
        · split at hs
          · rename_i hw
            injection hs with hs
            subst hs
            exact Preserved.write hw hr h1 h2
          · cases hs
        · cases hs
      · cases hs
      · cases hs

theorem isEmptyValue_overwritable {h : Heap} {v : Value} {old : Val}
    (he : isEmptyValue h v = true) (hl : v.load h = .ok old) :
    old.isStruct = false ∧ old.nonEmptyScalar = false := by
  unfold isEmptyValue at he
  cases hk : v.kind <;> simp only [hk, Value.Len, Value.IsNil, hl] at he <;>
    first
    | (simp at he; done)
    | (cases old <;> simp_all [Val.isStruct, Val.nonEmptyScalar])

theorem derefInterface_old {h : Heap} {dst dstE : Value}
    (hd : derefInterface dst h = .ok dstE) (hv : dstE.IsValid = true)
    (he : isEmptyValue h dstE = true) :
    ∃ old, dst.load h = .ok old ∧ old.isStruct = false ∧
      old.nonEmptyScalar = false := by
  by_cases hk : dst.kind = .Interface
  · cases dst with
    | invalid => simp [Value.kind] at hk
    | direct t x =>
      refine ⟨x, rfl, ?_⟩
      simp only [derefInterface] at hd
      simp only [Value.kind_direct] at hk
      cases x with
      | iface d => simp [Val.isStruct, Val.nonEmptyScalar]
      | _ => simp [derefDirect, hk] at hd
    | addr t a p =>
      simp only [Value.kind_addr] at hk
      simp only [derefInterface, hk, if_true] at hd
      cases hr : h.read a p with
      | none => simp [hr] at hd
      | some x =>
        refine ⟨x, Value.load_addr hr, ?_⟩
        simp only [hr] at hd
        cases x with
        | iface d => simp [Val.isStruct, Val.nonEmptyScalar]
        | _ => simp [derefDirect, hk] at hd
  · rw [derefInterface_of_not_iface h hk] at hd
    injection hd with hd
    subst hd
    cases hl : dst.load h with
    | error e =>
      cases dst with
      | invalid => simp at hv
      | direct t x => simp at hl
      | addr t a p =>
        exfalso
        unfold isEmptyValue at he
        cases hkk : (Value.addr t a p).kind <;>
          simp [hkk, Value.Len, Value.IsNil, hl] at he
    | ok old => exact ⟨old, rfl, isEmptyValue_overwritable he hl⟩

/-- Without overwrite, `directMerge` keeps every non-empty scalar. -/
theorem directMerge_pres (dst src : Value) (o : Options)
    (ho : o.Overwrite = false) : Pres (directMerge dst src o) := by
  intro h
  unfold directMerge
  refine PresAt.rd_bind (fun dstE hdE => ?_)
  refine PresAt.rd_bind (fun srcE hsE => ?_)
  split
  next => exact PresAt.fail _ _
  next hv =>
    split
    next => exact PresAt.pure _ _
    next =>
      refine PresAt.rd_bind (fun dstT _ => ?_)
      refine PresAt.rd_bind (fun srcT _ => ?_)
      split
      next => exact PresAt.fail _ _
      next =>
        split
        next => exact PresAt.pure _ _
        next =>
          refine PresAt.rd_bind (fun empty hem => ?_)
          injection hem with hem
          split
          next hc =>
            simp only [ho, Bool.false_or] at hc
            rw [← hem] at hc
            have hv' : dstE.IsValid = true := by simpa using hv
            obtain ⟨old, hl, h1, h2⟩ := derefInterface_old hdE hv' hc
            exact PresAt.upd_Set hl h1 h2
          next => exact PresAt.pure _ _

theorem Pres.pres_pure {α : Type} (a : α) : Pres (pure a : M α) :=
  fun h => PresAt.pure h a

theorem Pres.pres_fail {α : Type} (f : Fault) : Pres (M.fail f : M α) :=
  fun h => PresAt.fail h f

theorem Pres.pres_rd {α : Type} (f : Heap → Except Fault α) : Pres (M.rd f) :=
  fun h => PresAt.rd h f

theorem Pres.upd_cells (f : Heap → Except Fault Heap)
    (hf : ∀ h h', f h = .ok h' → h'.cells = h.cells) : Pres (M.upd f) := by
  intro h
  unfold PresAt
  rw [M.upd_apply]
  cases hfh : f h with
  | ok h' => exact Preserved.of_cells (hf h h' hfh)
  | error e => exact Preserved.refl h

theorem SetMapIndex_cells (v : Value) (k : Key) (elem : Value) (h h' : Heap)
    (hs : v.SetMapIndex k elem h = .ok h') : h'.cells = h.cells := by
  unfold Value.SetMapIndex at hs
  repeat' split at hs
  all_goals first
    | (injection hs with hs; subst hs; rfl)
    | cases hs

theorem SetMapIndex_pres (v : Value) (k : Key) (elem : Value) :
    Pres (M.upd (v.SetMapIndex k elem)) :=
  Pres.upd_cells _ (SetMapIndex_cells v k elem)

theorem New_pres (t : Ty) : Pres (New t) := fun h => Preserved.alloc h _

theorem MakeMap_pres (t : Ty) : Pres (MakeMap t) :=
  fun h => Preserved.of_cells rfl

theorem newElem_pres (t : Ty) : Pres (newElem t) :=
  Pres.pres_bind (New_pres t) (fun _ => Pres.pres_rd _)

theorem callCustom_pres (m : porter) (f : Func) (d s : Value) (o : Options) :
    Pres (m.callCustom f d s o) := Pres.pres_rd _

theorem trueType_pres (v : Value) (t : Ty) : Pres (trueType v t) := by
  unfold trueType
  split
  · exact Pres.pres_bind (Pres.pres_rd _) (fun _ => Pres.pres_bind (Pres.pres_rd _) (fun _ => Pres.pres_pure _))
  · exact Pres.pres_pure _

/-- Without overwrite, `convert` keeps every non-empty scalar, if the
`deepMerge` it calls does. -/
theorem convert_pres (H : Host) (m : porter) (n : Nat)
    (rec : Value → Value → Options → M Unit) (o : Options)
    (ho : o.Overwrite = false) (hrec : ∀ d s, Pres (rec d s o))
    (dst src : Value) : Pres (m.convert H n rec dst src o) := by
  unfold porter.convert
  repeat' first
    | with_reducible exact Pres.pres_pure _
    | with_reducible exact Pres.pres_fail _
    | with_reducible exact Pres.pres_rd _
    | with_reducible exact trueType_pres _ _
    | with_reducible exact callCustom_pres _ _ _ _ _
    | with_reducible exact directMerge_pres _ _ _ ho
    | with_reducible exact hrec _ _
    | with_reducible refine Pres.pres_bind ?_ (fun _ => ?_)
    | split

/-- Without overwrite, the field loop keeps every non-empty scalar, if the
`deepMerge` it calls does. -/
theorem mergeFields_pres (rec : Value → Value → Options → M Unit)
    (o : Options) (hrec : ∀ d s, Pres (rec d s o)) (dst src : Value)
    (is : List Nat) : Pres (mergeFields rec dst src o is) := by
  induction is with
  | nil => exact Pres.pres_pure _
  | cons i is ih =>
    unfold mergeFields
    exact Pres.pres_bind (Pres.pres_rd _) (fun _ => Pres.pres_bind (Pres.pres_rd _)
      (fun _ => Pres.pres_bind (hrec _ _) (fun _ => ih)))

theorem mergeSlice_pres (dst src : Value) (o : Options)
    (ho : o.Overwrite = false) : Pres (mergeSlice dst src o) := by
  unfold mergeSlice
  repeat' first
    | with_reducible exact Pres.pres_pure _
    | with_reducible exact Pres.pres_fail _
    | with_reducible exact Pres.pres_rd _
    | with_reducible exact directMerge_pres _ _ _ ho
    | with_reducible refine Pres.pres_bind ?_ (fun _ => ?_)
    | split
    | dsimp only

theorem mergeMapKey_pres (H : Host) (m : porter) (n : Nat)
    (rec : Value → Value → Options → M Unit) (o : Options)
    (ho : o.Overwrite = false) (hrec : ∀ d s, Pres (rec d s o))
    (dst src : Value) (key : Key) :
    Pres (mergeMapKey H m n rec dst src o key) := by
  unfold mergeMapKey
  repeat' first
    | with_reducible exact Pres.pres_pure _
    | with_reducible exact Pres.pres_fail _
    | with_reducible exact Pres.pres_rd _
    | with_reducible exact SetMapIndex_pres _ _ _
    | with_reducible exact newElem_pres _
    | with_reducible exact convert_pres H m n rec o ho hrec _ _
    | with_reducible exact hrec _ _
    | with_reducible refine Pres.pres_bind ?_ (fun _ => ?_)
    | split

theorem mergeMapKeys_pres (H : Host) (m : porter) (n : Nat)
    (rec : Value → Value → Options → M Unit) (o : Options)
    (ho : o.Overwrite = false) (hrec : ∀ d s, Pres (rec d s o))
    (dst src : Value) (keys : List Key) :
    Pres (mergeMapKeys H m n rec dst src o keys) := by
  induction keys with
  | nil => exact Pres.pres_pure _
  | cons k ks ih =>
    unfold mergeMapKeys
    exact Pres.pres_bind (mergeMapKey_pres H m n rec o ho hrec dst src k) (fun _ => ih)

theorem IsNil_true_old {h : Heap} {dst : Value}
    (hn : dst.IsNil h = .ok true) :
    ∃ old, dst.load h = .ok old ∧ old.isStruct = false ∧
      old.nonEmptyScalar = false := by
  cases hl : dst.load h with
  | error e =>
    unfold Value.IsNil at hn
    cases hk : dst.kind <;> simp [hk, hl] at hn
  | ok old =>
    refine ⟨old, rfl, ?_⟩
    unfold Value.IsNil at hn
    cases hk : dst.kind <;> simp only [hk, hl] at hn <;>
      cases old <;> simp_all [Val.isStruct, Val.nonEmptyScalar]

theorem Value.load_of_cells {h h' : Heap} (v : Value)
    (hc : h'.cells = h.cells) : v.load h' = v.load h := by
  cases v <;> simp [Value.load, Heap.read, hc]

theorem Value.load_alloc {h : Heap} {v : Value} {old : Val} (x : Val)
    (hl : v.load h = .ok old) : v.load (h.alloc x).1 = .ok old := by
  cases v with
  | invalid => simp [Value.load] at hl
  | direct t y => exact hl
  | addr t a p =>
    simp only [Value.load] at hl ⊢
    cases hr : h.read a p with
    | none => simp [hr] at hl
    | some y =>
      simp only [hr] at hl
      have hy : y.nonEmptyScalar = true ∨ True := Or.inr trivial
      unfold Heap.read at hr ⊢
      cases hc : h.cells[a]? with
      | none => simp [hc] at hr
      | some c =>
        have ha : a < h.cells.length := by
          rcases List.getElem?_eq_some_iff.mp hc with ⟨ha, _⟩; exact ha
        simp only [Heap.alloc, List.getElem?_append_left ha, hc]
        simp only [hc] at hr
        simp [hr, hl]

/-- Without overwrite, one level of `deepMerge` keeps every non-empty scalar,
if the recursive calls do. -/
theorem deepMergeBody_pres (H : Host) (m : porter) (n : Nat)
    (rec : Value → Value → Options → M Unit) (o : Options)
    (ho : o.Overwrite = false) (hrec : ∀ d s, Pres (rec d s o))
    (dst src : Value) : Pres (m.deepMergeBody H n rec dst src o) := by
  unfold porter.deepMergeBody
  refine Pres.pres_bind (Pres.pres_rd _) (fun dstType => ?_)
  refine Pres.pres_bind (Pres.pres_rd _) (fun srcType => ?_)
  split
  · exact Pres.pres_fail _
  split
  · repeat' first
      | with_reducible exact Pres.pres_pure _
      | with_reducible exact Pres.pres_fail _
      | with_reducible exact callCustom_pres _ _ _ _ _
      | with_reducible exact directMerge_pres _ _ _ ho
      | with_reducible refine Pres.pres_bind ?_ (fun _ => ?_)
      | split
  split
  · -- struct
    split
    · exact directMerge_pres _ _ _ ho
    · exact Pres.pres_bind (Pres.pres_rd _) (fun _ => mergeFields_pres rec o hrec _ _ _)
  · -- map
    intro h
    refine PresAt.rd_bind (fun srcNil _ => ?_)
    split
    · exact PresAt.pure _ _
    refine PresAt.rd_bind (fun dstNil hdn => ?_)
    dsimp only
    have hK : ∀ y : Unit, Pres (do
        let keys ← M.rd fun h => Value.MapKeys h src
        mergeMapKeys H m n rec dst src o keys) :=
      fun _ => Pres.pres_bind (Pres.pres_rd _)
        (fun _ => mergeMapKeys_pres H m n rec o ho hrec _ _ _)
    split
    next hc =>
      subst hc
      obtain ⟨old, hl, h1, h2⟩ := IsNil_true_old hdn
      refine PresAt.bind (MakeMap_pres _ h) (fun made h' hm => ?_)
      have hl' : dst.load h' = .ok old := by
        simp only [MakeMap] at hm
        injection hm with _ hm
        subst hm
        exact (@Value.load_of_cells h h.allocMap.1 dst rfl).trans hl
      exact PresAt.bind (PresAt.upd_Set hl' h1 h2) (fun y h'' _ => hK y h'')
    next => exact PresAt.bind (PresAt.pure _ _) (fun y h'' _ => hK y h'')
  · -- slice
    refine Pres.pres_bind (Pres.pres_rd _) (fun _ => ?_)
    split
    · exact Pres.pres_pure _
    · exact mergeSlice_pres _ _ _ ho
  · -- ptr
    intro h
    refine PresAt.rd_bind (fun srcNil _ => ?_)
    split
    · exact PresAt.pure _ _
    refine PresAt.rd_bind (fun dstNil hdn => ?_)
    dsimp only
    have hK : ∀ y : Unit, Pres (do
        let dstE ← M.rd fun h => Value.Elem h dst
        let srcE ← M.rd fun h => Value.Elem h src
        let dstEType ← M.rd fun _ => dstE.typ
        let srcEType ← M.rd fun _ => srcE.typ
        if dstEType ≠ srcEType then m.convert H n rec dstE srcE o
        else rec dstE srcE o) := by
      intro _
      repeat' first
        | with_reducible exact convert_pres H m n rec o ho hrec _ _
        | with_reducible exact hrec _ _
        | with_reducible exact Pres.pres_rd _
        | with_reducible refine Pres.pres_bind ?_ (fun _ => ?_)
        | split
    split
    next hc =>
      subst hc
      obtain ⟨old, hl, h1, h2⟩ := IsNil_true_old hdn
      split
      next e _ =>
        refine PresAt.bind (New_pres _ h) (fun fresh h' hm => ?_)
        have hl' : dst.load h' = .ok old := by
          simp only [New] at hm
          injection hm with _ hm
          subst hm
          exact Value.load_alloc _ hl
        exact PresAt.bind (PresAt.upd_Set hl' h1 h2) (fun y h'' _ => hK y h'')
      next => exact PresAt.bind (PresAt.fail _ _) (fun y h'' _ => hK y h'')
    next => exact PresAt.bind (PresAt.pure _ _) (fun y h'' _ => hK y h'')
  · -- interface
    intro h
    refine PresAt.rd_bind (fun srcNil _ => ?_)
    split
    · exact PresAt.pure _ _
    refine PresAt.rd_bind (fun dstNil hdn => ?_)
    split
    next hc =>
      subst hc
      obtain ⟨old, hl, h1, h2⟩ := IsNil_true_old hdn
      split
      · exact PresAt.upd_Set hl h1 h2
      · exact PresAt.pure _ _
    next =>
      refine (?_ : Pres _) h
      repeat' first
        | with_reducible exact convert_pres H m n rec o ho hrec _ _
        | with_reducible exact directMerge_pres _ _ _ ho
        | with_reducible exact Pres.pres_rd _
        | with_reducible refine Pres.pres_bind ?_ (fun _ => ?_)
        | split
  · exact directMerge_pres _ _ _ ho

/-- Without overwrite, `deepMerge` keeps every non-empty scalar. -/
theorem deepMerge_pres (H : Host) (m : porter) (o : Options)
    (ho : o.Overwrite = false) (n : Nat) :
    ∀ dst src, Pres (m.deepMerge H n dst src o) := by
  induction n with
  | zero => intro dst src; exact Pres.pres_fail _
  | succ n ih =>
    intro dst src
    exact deepMergeBody_pres H m n _ o ho ih dst src

/-- C4: with `Overwrite` unset, for every registry (whatever merge and convert
functions are registered), every destination `dst` at a location `(a, p)`,
every source and every field `i`: if the field holds a non-empty scalar (true,
a non-zero integer, unsigned integer or float, a non-empty string) before
`deepMerge(dst, src)`, it holds the same value afterwards, whether the merge
returns normally or not.  (The type of `dst` is not restricted: the property
holds in particular for a struct whose fields are all exported.) -/
theorem C4_nonempty_scalar_field_kept (H : Host) (m : porter) (n : Nat)
    (o : Options) (ho : o.Overwrite = false) (T : Ty) (a : Nat) (p : List Nat)
    (src : Value) (i : Nat) (v : Val) (h : Heap)
    (hf : h.read a (p ++ [i]) = some v) (hv : v.nonEmptyScalar = true) :
    (m.deepMerge H n (.addr T a p) src o h).heap.read a (p ++ [i]) = some v :=
  deepMerge_pres H m o ho n _ _ h _ _ _ hf hv

theorem C4_nonempty_scalar_field_kept_witness :
    (({ mergeFuncs := [(.basic .Int, exAddInts)], convertFuncs := [] } :
        porter).deepMerge Host.trivial 2 (.addr exS 0 [])
      (.direct exS (.struct [.int 2])) { newOptions with Overwrite := false }
      ⟨[.struct [.int 1]], []⟩).heap.read 0 ([] ++ [0]) = some (.int 1) :=
  C4_nonempty_scalar_field_kept Host.trivial _ 2 _ rfl exS 0 [] _ 0 (.int 1)
    ⟨[.struct [.int 1]], []⟩ rfl rfl

/-! ## C8, C9: maps of scalars -/

theorem mapLookup_mapInsert (k k' : Key) (v : Val) (m : List (Key × Val)) :
    mapLookup k (mapInsert k' v m) =
      if k' = k then some v else mapLookup k m := by
  induction m with
  | nil => simp [mapInsert, mapLookup]
  | cons e m ih =>
    obtain ⟨k1, v1⟩ := e
    by_cases h1 : k1 = k'
    · subst h1
      by_cases h2 : k1 = k <;> simp [mapInsert, mapLookup, h2]
    · by_cases h2 : k1 = k
      · subst h2
        simp [mapInsert, mapLookup, h1, Ne.symm h1]
      · simp [mapInsert, mapLookup, h1, h2, ih]

theorem mapInsert_self {k : Key} {v : Val} {m : List (Key × Val)}
    (hl : mapLookup k m = some v) : mapInsert k v m = m := by
  induction m with
  | nil => simp [mapLookup] at hl
  | cons e m ih =>
    obtain ⟨k1, v1⟩ := e
    by_cases h1 : k1 = k
    · subst h1
      simp [mapLookup] at hl
      simp [mapInsert, hl]
    · simp [mapLookup, h1] at hl
      simp [mapInsert, h1, ih hl]

theorem mapLookup_isSome_iff (k : Key) (m : List (Key × Val)) :
    (∃ v, mapLookup k m = some v) ↔ k ∈ m.map (fun e => e.1) := by
  induction m with
  | nil => simp [mapLookup]
  | cons e m ih =>
    obtain ⟨k1, v1⟩ := e
    by_cases h1 : k1 = k
    · simp [mapLookup, h1]
    · simp only [mapLookup, h1, if_false, List.map_cons, List.mem_cons]
      rw [ih]
      constructor
      · exact fun hm => Or.inr hm
      · rintro (hm | hm)
        · exact absurd hm.symm h1
        · exact hm

theorem Extends.ext_refl (h : Heap) : Extends h h := fun _ _ _ hr => hr

theorem Extends.ext_trans {h1 h2 h3 : Heap} (h12 : Extends h1 h2)
    (h23 : Extends h2 h3) : Extends h1 h3 :=
  fun a p v hr => h23 a p v (h12 a p v hr)

theorem Extends.ext_of_cells {h h' : Heap} (hc : h'.cells = h.cells) :
    Extends h h' := by
  intro a p v hr
  simpa [Heap.read, hc] using hr

theorem Extends.append {h h' : Heap} {ex : List Val}
    (hc : h'.cells = h.cells ++ ex) : Extends h h' := by
  intro a p w hr
  unfold Heap.read at hr ⊢
  cases hcc : h.cells[a]? with
  | none => simp [hcc] at hr
  | some c =>
    have ha : a < h.cells.length := by
      rcases List.getElem?_eq_some_iff.mp hcc with ⟨ha, _⟩; exact ha
    rw [hc, List.getElem?_append_left ha, hcc]
    simpa [hcc] using hr

theorem Extends.load {h h' : Heap} (he : Extends h h') {v : Value} {x : Val}
    (hl : v.load h = .ok x) : v.load h' = .ok x := by
  cases v with
  | invalid => simp [Value.load] at hl
  | direct t y => exact hl
  | addr t a p =>
    simp only [Value.load] at hl ⊢
    cases hr : h.read a p with
    | none => simp [hr] at hl
    | some y =>
      simp only [hr] at hl
      rw [he a p y hr]
      exact hl

theorem Ty.zero_of_scalar : ∀ t : Ty, isScalarKind t.kind = true →
    t.zero = zeroOfKind t.kind
  | .basic k, _ => by simp [Ty.zero, Ty.kind]
  | .named _ u, hs => by
    simp only [Ty.kind] at hs
    simp only [Ty.zero, Ty.kind]
    exact Ty.zero_of_scalar u hs
  | .array _ _, hs => by simp [Ty.kind, isScalarKind] at hs
  | .chan _, hs => by simp [Ty.kind, isScalarKind] at hs
  | .func _ _, hs => by simp [Ty.kind, isScalarKind] at hs
  | .iface, hs => by simp [Ty.kind, isScalarKind] at hs
  | .map _ _, hs => by simp [Ty.kind, isScalarKind] at hs
  | .ptr _, hs => by simp [Ty.kind, isScalarKind] at hs
  | .slice _, hs => by simp [Ty.kind, isScalarKind] at hs
  | .struct _, hs => by simp [Ty.kind, isScalarKind] at hs

theorem isEmptyValue_zero {t : Ty} {h : Heap} {c : Nat}
    (hs : isScalarKind t.kind = true) (hr : h.read c [] = some t.zero) :
    isEmptyValue h (.addr t c []) = true := by
  rw [Ty.zero_of_scalar t hs] at hr
  unfold isEmptyValue
  cases hk : t.kind <;> simp [hk, isScalarKind] at hs <;>
    simp [hk, Value.load, hr, zeroOfKind, Value.Len, floatIsZero]

theorem isEmptyValue_direct_scalar {t : Ty} (h h' : Heap) (v : Val)
    (hs : isScalarKind t.kind = true) :
    isEmptyValue h (.direct t v) = isEmptyValue h' (.direct t v) := by
  unfold isEmptyValue
  cases hk : t.kind <;> simp [hk, isScalarKind] at hs <;>
    cases v <;> simp [hk, Value.load, Value.Len]

theorem newElem_apply (t : Ty) (h : Heap) :
    newElem t h = .ok (.addr t h.cells.length []) (h.alloc t.zero).1 := by
  simp [newElem, New, Value.Elem, Heap.alloc, Ty.elem, Ty.underlying, Ty.kind,
    Value.load, Value.typ]

theorem Heap.read_alloc_new (h : Heap) (v : Val) :
    (h.alloc v).1.read h.cells.length [] = some v := by
  simp [Heap.alloc, Heap.read, Val.getPath]

theorem MapCtx.srcEntry {h : Heap} {T E : Ty} {a : Nat} {p : List Nat}
    {src : Value} {rd rs : Nat} {md smap : List (Key × Val)}
    (c : MapCtx h T E a p src rd rs md smap) (key : Key) :
    mapEntry src key h =
      match mapLookup key smap with
      | some x => derefDirect E x
      | none => .ok .invalid := by
  have hk := Value.kind_of_typ c.styp
  simp only [mapEntry, Value.MapIndex, hk, c.kind, c.sload, c.styp, c.smap,
    c.elem]
  cases mapLookup key smap <;> simp [derefInterface]

theorem MapCtx.dstEntry {h : Heap} {T E : Ty} {a : Nat} {p : List Nat}
    {src : Value} {rd rs : Nat} {md smap : List (Key × Val)}
    (c : MapCtx h T E a p src rd rs md smap) (key : Key) :
    mapEntry (.addr T a p) key h =
      match mapLookup key md with
      | some x => derefDirect E x
      | none => .ok .invalid := by
  simp only [mapEntry, Value.MapIndex, Value.kind_addr, c.kind,
    Value.load_addr c.dst, Value.typ_addr, c.dmap, c.elem]
  cases mapLookup key md <;> simp [derefInterface]

theorem MapCtx.setMapIndex {h : Heap} {T E : Ty} {a : Nat} {p : List Nat}
    {src : Value} {rd rs : Nat} {md smap : List (Key × Val)}
    (c : MapCtx h T E a p src rd rs md smap) (key : Key) {elem : Value}
    {te : Ty} {x : Val} (ht : elem.typ = .ok te) (hl : elem.load h = .ok x)
    (ha : assignable E te = true) :
    Value.SetMapIndex (.addr T a p) key elem h =
      .ok (h.setMap rd (mapInsert key (assignTo E te x) md)) := by
  have hv : elem ≠ .invalid := by
    intro he; rw [he] at ht; simp [Value.typ] at ht
  unfold Value.SetMapIndex
  simp only [Value.kind_addr, c.kind, Value.load_addr c.dst, Value.typ_addr]
  cases elem with
  | invalid => exact absurd rfl hv
  | direct t y => simp_all [c.elem, c.dmap]
  | addr t b q => simp_all [c.elem, c.dmap]

/-- The key loop body for a key that `dst` lacks: the entry of `src` is
stored. -/
theorem mergeMapKey_absent (H : Host) (m : porter) (n : Nat)
    (rec : Value → Value → Options → M Unit) (o : Options)
    {h : Heap} {T E : Ty} {a : Nat} {p : List Nat}
    {src : Value} {rd rs : Nat} {md smap : List (Key × Val)}
    (c : MapCtx h T E a p src rd rs md smap) (key : Key) {xs sv : Val}
    {ts : Ty} (hxs : mapLookup key smap = some xs)
    (hleaf : LeafEntry m E xs ts sv) (hd : mapLookup key md = none) :
    mergeMapKey H m n rec (.addr T a p) src o key h =
      .ok () (h.setMap rd (mapInsert key xs md)) := by
  obtain ⟨hde, hat, has, _, _⟩ := hleaf
  have h1 := c.srcEntry key
  have h2 := c.dstEntry key
  simp only [hxs, hde] at h1
  simp only [hd] at h2
  have h3 := @MapCtx.setMapIndex _ _ _ _ _ _ _ _ _ _ c key (.direct ts sv) _ _ rfl rfl has
  rw [hat] at h3
  simp [mergeMapKey, h1, h2, h3]

/-- The key loop body for a key that `dst` has, with scalar entries of the
same type on both sides: the entry of `src` is stored when `Overwrite` is set
or the entry of `dst` is empty; the map is left as it is otherwise. -/
theorem mergeMapKey_present (H : Host) (m : porter) (n : Nat) (o : Options)
    {h : Heap} {T E : Ty} {a : Nat} {p : List Nat}
    {src : Value} {rd rs : Nat} {md smap : List (Key × Val)}
    (c : MapCtx h T E a p src rd rs md smap) (key : Key) {xs sv xd dv : Val}
    {ts : Ty} (hxs : mapLookup key smap = some xs)
    (hleaf : LeafEntry m E xs ts sv) (hd : mapLookup key md = some xd)
    (hdd : derefDirect E xd = .ok (.direct ts dv)) :
    ∃ h', mergeMapKey H m (n + 1) (m.deepMerge H (n + 1)) (.addr T a p) src o
        key h = .ok () h' ∧ Extends h h' ∧
      h'.maps = h.maps.set rd
        (if o.Overwrite = true ∨ isEmptyValue h (.direct ts dv) = true
          then mapInsert key xs md else md) := by
  obtain ⟨hde, hat, has, hsc, hreg⟩ := hleaf
  have h1 := c.srcEntry key
  have h2 := c.dstEntry key
  simp only [hxs, hde] at h1
  simp only [hd, hdd] at h2
  have hne : mergedInPlace ts.kind = false := by
    cases hk : ts.kind <;> simp [hk, isScalarKind] at hsc <;>
      simp [mergedInPlace]
  -- the scratch value
  have h4 := newElem_apply ts h
  have hrz := Heap.read_alloc_new h ts.zero
  obtain ⟨h2', hw, hdm⟩ := @deepMerge_scalar H m n o _ _ _ _ _ sv _ hsc hreg
    (Value.typ_direct ts sv) (Value.load_direct _ ts sv) hrz
  have hemp := isEmptyValue_zero hsc hrz
  simp only [hemp, or_true, if_true] at hdm
  have hcells : h2'.cells = h.cells ++ [sv] := by
    simp [Heap.write, Heap.alloc, Val.setPath] at hw
    simp [← hw]
  have hmaps : h2'.maps = h.maps := by
    simp [Heap.write, Heap.alloc, Val.setPath] at hw
    simp [← hw]
  have hext : Extends h h2' := Extends.append hcells
  have c2 : MapCtx h2' T E a p src rd rs md smap :=
    { kind := c.kind, elem := c.elem, dst := hext _ _ _ c.dst,
      styp := c.styp, sload := hext.load c.sload,
      dmap := by rw [hmaps]; exact c.dmap,
      smap := by rw [hmaps]; exact c.smap }
  have hld : (Value.addr ts h.cells.length []).load h2' = .ok sv :=
    Value.load_addr (Heap.read_write hw)
  have h3 := @MapCtx.setMapIndex _ _ _ _ _ _ _ _ _ _ c2 key (.addr ts h.cells.length []) _ _
    (Value.typ_addr _ _ _) hld has
  rw [hat] at h3
  by_cases hc : o.Overwrite = true ∨ isEmptyValue h (.direct ts dv) = true
  · refine ⟨h2'.setMap rd (mapInsert key xs md), ?_,
      Extends.ext_trans hext (Extends.ext_of_cells rfl), ?_⟩
    · have hc' : (o.Overwrite || isEmptyValue h (.direct ts dv)) = true := by
        simpa using hc
      simp [mergeMapKey, h1, h2, hne, h4, hdm, h3, hc, hc']
    · simp [hc, Heap.setMap, hmaps]
  · refine ⟨h2', ?_, hext, ?_⟩
    · have hc' : (o.Overwrite || isEmptyValue h (.direct ts dv)) = false := by
        simpa using hc
      simp [mergeMapKey, h1, h2, hne, h4, hdm, hc, hc']
    · simp only [hc, if_false, hmaps]
      exact (list_set_self c.dmap).symm

theorem entryIsEmpty_eq {E ts : Ty} {xd dv : Val} (h : Heap)
    (hdd : derefDirect E xd = .ok (.direct ts dv))
    (hs : isScalarKind ts.kind = true) :
    entryIsEmpty E xd = isEmptyValue h (.direct ts dv) := by
  simp only [entryIsEmpty, hdd]
  exact isEmptyValue_direct_scalar _ _ _ hs

/-- The key loop over scalar entries: every key visited ends with the merged
entry, every other key keeps its entry. -/
theorem mergeMapKeys_leaf (H : Host) (m : porter) (n : Nat) (o : Options)
    (T E : Ty) (a : Nat) (p : List Nat) (src : Value) (rd rs : Nat)
    (smap : List (Key × Val)) (ks : List Key) (hnd : ks.Nodup) :
    ∀ (h : Heap) (md : List (Key × Val)),
      MapCtx h T E a p src rd rs md smap →
      (∀ k ∈ ks, ∃ xs ts sv, mapLookup k smap = some xs ∧
        LeafEntry m E xs ts sv ∧
        ∀ xd, mapLookup k md = some xd →
          ∃ dv, derefDirect E xd = .ok (.direct ts dv)) →
      ∃ h' md', mergeMapKeys H m (n + 1) (m.deepMerge H (n + 1))
          (.addr T a p) src o ks h = .ok () h' ∧
        Extends h h' ∧ h'.maps = h.maps.set rd md' ∧
        ∀ k, mapLookup k md' =
          if k ∈ ks then mergedEntry o E (mapLookup k smap) (mapLookup k md)
          else mapLookup k md := by
  induction ks with
  | nil =>
    intro h md c _
    exact ⟨h, md, rfl, Extends.ext_refl h, (list_set_self c.dmap).symm,
      fun k => by simp⟩
  | cons key ks ih =>
    intro h md c hall
    have hnd' : ks.Nodup := (List.nodup_cons.mp hnd).2
    have hkey : key ∉ ks := (List.nodup_cons.mp hnd).1
    obtain ⟨xs, ts, sv, hxs, hleaf, hdst⟩ := hall key (List.mem_cons_self _ _)
    have hrd : rd < h.maps.length := by
      rcases List.getElem?_eq_some_iff.mp c.dmap with ⟨hi, _⟩; exact hi
    -- one step
    have hstep : ∃ h1 md1, mergeMapKey H m (n + 1) (m.deepMerge H (n + 1))
        (.addr T a p) src o key h = .ok () h1 ∧ Extends h h1 ∧
        h1.maps = h.maps.set rd md1 ∧
        (md1 = mapInsert key xs md ∨ md1 = md) ∧
        mapLookup key md1 =
          mergedEntry o E (mapLookup key smap) (mapLookup key md) := by
      cases hd : mapLookup key md with
      | none =>
        refine ⟨_, mapInsert key xs md,
          mergeMapKey_absent H m (n + 1) _ o c key hxs hleaf hd,
          Extends.ext_of_cells rfl, rfl, Or.inl rfl, ?_⟩
        simp [mapLookup_mapInsert, hxs, mergedEntry]
      | some xd =>
        obtain ⟨dv, hdd⟩ := hdst xd hd
        obtain ⟨h1, hm, hext, hmaps⟩ :=
          mergeMapKey_present H m n o c key hxs hleaf hd hdd
        have hem := entryIsEmpty_eq h hdd hleaf.2.2.2.1
        by_cases hc : o.Overwrite = true ∨ isEmptyValue h (.direct ts dv) = true
        · refine ⟨h1, mapInsert key xs md, hm, hext, by simpa [hc] using hmaps,
            Or.inl rfl, ?_⟩
          have hc' : o.Overwrite = true ∨ entryIsEmpty E xd = true := by
            rw [hem]; exact hc
          simp [mapLookup_mapInsert, hxs, mergedEntry, hc']
        · refine ⟨h1, md, hm, hext, by simpa [hc] using hmaps, Or.inr rfl, ?_⟩
          have hc' : ¬ (o.Overwrite = true ∨ entryIsEmpty E xd = true) := by
            rw [hem]; exact hc
          simp [hxs, hd, mergedEntry, hc']
    obtain ⟨h1, md1, hm1, hext1, hmaps1, hmd1, hlk1⟩ := hstep
    have hother : ∀ k, k ≠ key → mapLookup k md1 = mapLookup k md := by
      intro k hk
      rcases hmd1 with e | e
      · rw [e, mapLookup_mapInsert, if_neg (Ne.symm hk)]
      · rw [e]
    have c1 : MapCtx h1 T E a p src rd rs md1 smap :=
      { kind := c.kind, elem := c.elem, dst := hext1 _ _ _ c.dst,
        styp := c.styp, sload := hext1.load c.sload,
        dmap := by rw [hmaps1]; simp [hrd],
        smap := by
          rw [hmaps1]
          by_cases hrs : rd = rs
          · subst hrs
            have e : md = smap := by
              have := c.dmap; rw [c.smap] at this; injection this with this
              exact this.symm
            have : md1 = smap := by
              rcases hmd1 with e1 | e1
              · rw [e1, e, mapInsert_self hxs]
              · rw [e1, e]
            simp [hrd, this]
          · rw [List.getElem?_set_ne hrs]; exact c.smap }
    have hall1 : ∀ k ∈ ks, ∃ xs ts sv, mapLookup k smap = some xs ∧
        LeafEntry m E xs ts sv ∧
        ∀ xd, mapLookup k md1 = some xd →
          ∃ dv, derefDirect E xd = .ok (.direct ts dv) := by
      intro k hk
      obtain ⟨xs', ts', sv', h1', h2', h3'⟩ := hall k (List.mem_cons_of_mem _ hk)
      have hne : k ≠ key := fun e => hkey (e ▸ hk)
      exact ⟨xs', ts', sv', h1', h2', fun xd hxd => h3' xd (by rw [← hother k hne]; exact hxd)⟩
    obtain ⟨h', md', hm', hext', hmaps', hlk'⟩ := ih hnd' h1 md1 c1 hall1
    refine ⟨h', md', ?_, Extends.ext_trans hext1 hext', ?_, fun k => ?_⟩
    · simp only [mergeMapKeys, M.bind_apply, hm1]
      exact hm'
    · rw [hmaps', hmaps1, List.set_set]
    · rw [hlk' k]
      by_cases hk : k = key
      · subst hk
        simp [hkey, hlk1]
      · have : (k ∈ key :: ks) ↔ k ∈ ks := by simp [hk]
        simp only [this, hother k hk]

/-- A write over a value that is not a struct changes no other value that is
not a struct. -/
theorem Heap.read_write_frame {h h' : Heap} {a a' : Nat} {p p' : List Nat}
    {x old w : Val} (hw : h.write a p x = some h')
    (hr : h.read a p = some old) (hs : old.isStruct = false)
    (hv : h.read a' p' = some w) (hws : w.isStruct = false)
    (hne : ¬ (a' = a ∧ p' = p)) : h'.read a' p' = some w := by
  unfold Heap.write at hw
  unfold Heap.read at hr hv ⊢
  cases hc : h.cells[a]? with
  | none => simp [hc] at hw
  | some c =>
    simp only [hc] at hw hr
    cases hsp : c.setPath p x with
    | none => simp [hsp] at hw
    | some c' =>
      simp only [hsp, Option.some.injEq] at hw
      subst hw
      have ha : a < h.cells.length := by
        rcases List.getElem?_eq_some_iff.mp hc with ⟨ha, _⟩; exact ha
      by_cases haa : a' = a
      · subst haa
        simp only [hc] at hv
        simp only [List.getElem?_set_self ha]
        exact Val.getPath_setPath_frame hsp hr hs hv hws
          (fun hpp => hne ⟨rfl, hpp⟩)
      · simp only [List.getElem?_set_ne (Ne.symm haa)]
        exact hv

/-- `deepMerge` on maps with a non-nil source: the key loop over the keys of
the source, after a nil destination has been set to a new map. -/
theorem deepMerge_map (H : Host) (m : porter) (k : Nat) (o : Options)
    {h : Heap} {T E : Ty} {a : Nat} {p : List Nat} {src : Value} {rs : Nat}
    {smap : List (Key × Val)} (dr : Option Nat) (dmap : List (Key × Val))
    (hk : T.kind = .Map) (he : T.elem = some E)
    (hreg : tableLookup T m.mergeFuncs = none)
    (hd : h.read a p = some (.map dr))
    (hdm : match dr with
      | none => dmap = []
      | some rd => h.maps[rd]? = some dmap)
    (hst : src.typ = .ok T) (hsl : src.load h = .ok (.map (some rs)))
    (hsm : h.maps[rs]? = some smap) :
    ∃ h1 rd, MapCtx h1 T E a p src rd rs dmap smap ∧
      h1.maps.length = (match dr with
        | none => h.maps.length + 1
        | some _ => h.maps.length) ∧
      (∀ r, r < h.maps.length → h1.maps[r]? = h.maps[r]?) ∧
      m.deepMerge H (k + 1) (.addr T a p) src o h =
        mergeMapKeys H m k (m.deepMerge H k) (.addr T a p) src o
          (smap.map (fun e => e.1)) h1 := by
  have hsk := Value.kind_of_typ hst
  have hskm : src.kind = .Map := by rw [hsk, hk]
  have hsn : src.IsNil h = .ok false := by
    simp [Value.IsNil, hskm, hsl]
  have hrs : rs < h.maps.length := by
    rcases List.getElem?_eq_some_iff.mp hsm with ⟨hi, _⟩; exact hi
  cases dr with
  | some rd =>
    have c : MapCtx h T E a p src rd rs dmap smap :=
      ⟨hk, he, hd, hst, hsl, hdm, hsm⟩
    refine ⟨h, rd, c, rfl, fun _ _ => rfl, ?_⟩
    have hdn : (Value.addr T a p).IsNil h = .ok false := by
      simp [Value.IsNil, hk, Value.load_addr hd]
    have hkeys : src.MapKeys h = .ok (smap.map (fun e => e.1)) := by
      simp [Value.MapKeys, hskm, hsl, hsm]
    simp [porter.deepMerge, porter.deepMergeBody, hst, hreg, hk, hsn, hdn,
      hkeys]
  | none =>
    subst hdm
    obtain ⟨h1, hw⟩ := Heap.write_of_read (h := h.allocMap.1)
      (.map (some h.maps.length)) (show h.allocMap.1.read a p = some (.map none)
        from Extends.ext_of_cells (h := h) rfl _ _ _ hd)
    have hm1 : h1.maps = h.maps ++ [[]] := by
      unfold Heap.write at hw
      cases hc : h.allocMap.1.cells[a]? with
      | none => simp [hc] at hw
      | some c =>
        simp only [hc] at hw
        cases hsp : c.setPath p (.map (some h.maps.length)) with
        | none => simp [hsp] at hw
        | some c' =>
          simp only [hsp, Option.some.injEq] at hw
          rw [← hw]; rfl
    have hsl1 : src.load h1 = .ok (.map (some rs)) := by
      cases src with
      | invalid => simp [Value.load] at hsl
      | direct t y => exact hsl
      | addr t b q =>
        have hrb : h.read b q = some (.map (some rs)) := by
          simp only [Value.load] at hsl
          cases hr : h.read b q with
          | none => simp [hr] at hsl
          | some y => simp [hr] at hsl; rw [hsl]
        refine Value.load_addr (Heap.read_write_frame hw
          (Extends.ext_of_cells (h := h) rfl _ _ _ hd) rfl
          (Extends.ext_of_cells (h := h) rfl _ _ _ hrb) rfl ?_)
        rintro ⟨rfl, rfl⟩
        rw [hd] at hrb
        cases hrb
    have c : MapCtx h1 T E a p src h.maps.length rs [] smap :=
      { kind := hk, elem := he, dst := Heap.read_write hw, styp := hst,
        sload := hsl1,
        dmap := by rw [hm1]; simp,
        smap := by rw [hm1, List.getElem?_append_left hrs]; exact hsm }
    refine ⟨h1, h.maps.length, c, by simp [hm1], fun r hr => ?_, ?_⟩
    · rw [hm1, List.getElem?_append_left hr]
    · have hdn : (Value.addr T a p).IsNil h = .ok true := by
        simp [Value.IsNil, hk, Value.load_addr hd]
      have hkeys : src.MapKeys h1 = .ok (smap.map (fun e => e.1)) := by
        simp [Value.MapKeys, hskm, hsl1, c.smap]
      have hki : T.kind ≠ .Interface := by simp [hk]
      have hset : (Value.addr T a p).Set (.direct T (.map (some h.maps.length)))
          h.allocMap.1 = .ok h1 := by
        simp [Value.Set, assignable_self, assignTo_self, hki, hw]
      have hmk : MakeMap T h = .ok (.direct T (.map (some h.maps.length)))
          h.allocMap.1 := rfl
      simp [porter.deepMerge, porter.deepMergeBody, hst, hreg, hk, hsn, hdn,
        hmk, hset, hkeys]

/-- `deepMerge` on maps of scalars: the key-wise result. -/
theorem deepMerge_map_leaf (H : Host) (m : porter) (n : Nat) (o : Options)
    {h : Heap} {T E : Ty} {a : Nat} {p : List Nat} {src : Value} {rs : Nat}
    {smap : List (Key × Val)} (dr : Option Nat) (dmap : List (Key × Val))
    (hk : T.kind = .Map) (he : T.elem = some E)
    (hreg : tableLookup T m.mergeFuncs = none)
    (hd : h.read a p = some (.map dr))
    (hdm : match dr with
      | none => dmap = []
      | some rd => h.maps[rd]? = some dmap)
    (hst : src.typ = .ok T) (hsl : src.load h = .ok (.map (some rs)))
    (hsm : h.maps[rs]? = some smap)
    (hnd : (smap.map (fun e => e.1)).Nodup)
    (hall : ∀ k xs, mapLookup k smap = some xs → ∃ ts sv,
      LeafEntry m E xs ts sv ∧
      ∀ xd, mapLookup k dmap = some xd →
        ∃ dv, derefDirect E xd = .ok (.direct ts dv)) :
    ∃ h' rd md, m.deepMerge H (n + 2) (.addr T a p) src o h = .ok () h' ∧
      h'.read a p = some (.map (some rd)) ∧ h'.maps[rd]? = some md ∧
      ∀ k, mapLookup k md =
        mergedEntry o E (mapLookup k smap) (mapLookup k dmap) := by
  obtain ⟨h1, rd, c, _, _, hdeep⟩ :=
    deepMerge_map H m (n + 1) o dr dmap hk he hreg hd hdm hst hsl hsm
  have hall' : ∀ k ∈ smap.map (fun e => e.1), ∃ xs ts sv,
      mapLookup k smap = some xs ∧ LeafEntry m E xs ts sv ∧
      ∀ xd, mapLookup k dmap = some xd →
        ∃ dv, derefDirect E xd = .ok (.direct ts dv) := by
    intro k hk
    obtain ⟨xs, hxs⟩ := (mapLookup_isSome_iff k smap).mpr hk
    obtain ⟨ts, sv, h1', h2'⟩ := hall k xs hxs
    exact ⟨xs, ts, sv, hxs, h1', h2'⟩
  obtain ⟨h', md', hm, hext, hmaps, hlk⟩ :=
    mergeMapKeys_leaf H m n o T E a p src rd rs smap _ hnd h1 dmap c hall'
  have hrd : rd < h1.maps.length := by
    rcases List.getElem?_eq_some_iff.mp c.dmap with ⟨hi, _⟩; exact hi
  refine ⟨h', rd, md', by rw [hdeep]; exact hm, hext _ _ _ c.dst,
    by rw [hmaps]; simp [hrd], fun k => ?_⟩
  rw [hlk k]
  by_cases hk : k ∈ smap.map (fun e => e.1)
  · simp [hk]
  · have hn : mapLookup k smap = none := by
      cases hl : mapLookup k smap with
      | none => rfl
      | some v => exact absurd ((mapLookup_isSome_iff k smap).mp ⟨v, hl⟩) hk
    simp [hk, hn, mergedEntry]

/-- C8: with `Overwrite` set, for a settable destination map (nil, or the map
object `rd` with content `dmap`) and a non-nil source map `smap` of the same
type whose element type has string kind (no merge function being registered
for the map type or the element type), `deepMerge` returns no error and the
destination ends as the right-biased union: the entry of every key of the
source is the source's, the entry of every other key is the destination's
former one, and the keys of the result are those of either map.  A nil
destination counts as the empty map. -/
theorem C8_map_right_biased_union (H : Host) (m : porter) (n : Nat)
    (o : Options) (ho : o.Overwrite = true)
    {h : Heap} {T E : Ty} {a : Nat} {p : List Nat} {src : Value} {rs : Nat}
    {smap : List (Key × Val)} (dr : Option Nat) (dmap : List (Key × Val))
    (hk : T.kind = .Map) (he : T.elem = some E) (hE : E.kind = .String)
    (hreg : tableLookup T m.mergeFuncs = none)
    (hregE : tableLookup E m.mergeFuncs = none)
    (hd : h.read a p = some (.map dr))
    (hdm : match dr with
      | none => dmap = []
      | some rd => h.maps[rd]? = some dmap)
    (hst : src.typ = .ok T) (hsl : src.load h = .ok (.map (some rs)))
    (hsm : h.maps[rs]? = some smap)
    (hnd : (smap.map (fun e => e.1)).Nodup) :
    ∃ h' rd md, m.deepMerge H (n + 2) (.addr T a p) src o h = .ok () h' ∧
      h'.read a p = some (.map (some rd)) ∧ h'.maps[rd]? = some md ∧
      (∀ k v, mapLookup k smap = some v → mapLookup k md = some v) ∧
      (∀ k, mapLookup k smap = none → mapLookup k md = mapLookup k dmap) ∧
      (∀ k, (∃ v, mapLookup k md = some v) ↔
        ((∃ v, mapLookup k dmap = some v) ∨ ∃ v, mapLookup k smap = some v)) := by
  have hEi : E.kind ≠ .Interface := by simp [hE]
  have hall : ∀ k xs, mapLookup k smap = some xs → ∃ ts sv,
      LeafEntry m E xs ts sv ∧
      ∀ xd, mapLookup k dmap = some xd →
        ∃ dv, derefDirect E xd = .ok (.direct ts dv) := by
    intro k xs _
    refine ⟨E, xs, ⟨derefDirect_of_not_iface xs hEi, assignTo_self xs hEi,
      assignable_self E, by simp [hE, isScalarKind], hregE⟩, fun xd _ => ?_⟩
    exact ⟨xd, derefDirect_of_not_iface xd hEi⟩
  obtain ⟨h', rd, md, hm, hr, hmd, hlk⟩ :=
    deepMerge_map_leaf H m n o dr dmap hk he hreg hd hdm hst hsl hsm hnd hall
  have h1 : ∀ k v, mapLookup k smap = some v → mapLookup k md = some v := by
    intro k v hv
    rw [hlk k, hv]
    cases mapLookup k dmap <;> simp [mergedEntry, ho]
  have h2 : ∀ k, mapLookup k smap = none → mapLookup k md = mapLookup k dmap := by
    intro k hv
    rw [hlk k, hv]
    simp [mergedEntry]
  refine ⟨h', rd, md, hm, hr, hmd, h1, h2, fun k => ?_⟩
  cases hs : mapLookup k smap with
  | none => rw [h2 k hs]; simp
  | some v => rw [h1 k v hs]; simp

theorem C8_map_right_biased_union_witness :
    ∃ h' rd md, newPorter.deepMerge Host.trivial 2 (.addr exMapSS 0 [])
        (.direct exMapSS (.map (some 1))) newOptions exHeapSS = .ok () h' ∧
      h'.read 0 [] = some (.map (some rd)) ∧ h'.maps[rd]? = some md ∧
      (∀ k v, mapLookup k [(.str "1", .str "2"), (.str "3", .str "3")] = some v →
        mapLookup k md = some v) ∧
      (∀ k, mapLookup k [(.str "1", .str "2"), (.str "3", .str "3")] = none →
        mapLookup k md =
          mapLookup k [(.str "1", .str "1"), (.str "2", .str "2")]) ∧
      (∀ k, (∃ v, mapLookup k md = some v) ↔
        ((∃ v, mapLookup k [(.str "1", .str "1"), (.str "2", .str "2")] = some v) ∨
          ∃ v, mapLookup k [(.str "1", .str "2"), (.str "3", .str "3")] = some v)) :=
  @C8_map_right_biased_union Host.trivial newPorter 0 newOptions rfl
    exHeapSS exMapSS (.basic .String) 0 []
    (.direct exMapSS (.map (some 1))) 1 _ (some 0)
    [(.str "1", .str "1"), (.str "2", .str "2")]
    rfl rfl rfl rfl rfl rfl rfl rfl rfl rfl (by decide)

/-- C9: with `Overwrite` unset, for a settable destination map (nil, or the
map object `rd` with content `dmap`) and a non-nil source map `smap` of the
same type whose element type is an interface type, every entry of the source
holding a scalar (of a type with no merge function registered) and the
destination's entry under the same key, if any, holding a scalar of the same
type: `deepMerge` returns no error, and afterwards a key of the source that
the destination lacked has the source's entry; a key of both has the
destination's entry if that was not empty and the source's entry if it was
empty; a key of the destination alone keeps its entry. -/
theorem C9_map_preserves_nonempty (H : Host) (m : porter) (n : Nat)
    (o : Options) (ho : o.Overwrite = false)
    {h : Heap} {T E : Ty} {a : Nat} {p : List Nat} {src : Value} {rs : Nat}
    {smap : List (Key × Val)} (dr : Option Nat) (dmap : List (Key × Val))
    (hk : T.kind = .Map) (he : T.elem = some E) (hE : E.kind = .Interface)
    (hreg : tableLookup T m.mergeFuncs = none)
    (hd : h.read a p = some (.map dr))
    (hdm : match dr with
      | none => dmap = []
      | some rd => h.maps[rd]? = some dmap)
    (hst : src.typ = .ok T) (hsl : src.load h = .ok (.map (some rs)))
    (hsm : h.maps[rs]? = some smap)
    (hnd : (smap.map (fun e => e.1)).Nodup)
    (hscal : ∀ k xs, mapLookup k smap = some xs → ∃ ts sv,
      xs = .iface (some (ts, sv)) ∧ isScalarKind ts.kind = true ∧
      tableLookup ts m.mergeFuncs = none ∧
      ∀ xd, mapLookup k dmap = some xd → ∃ dv, xd = .iface (some (ts, dv))) :
    ∃ h' rd md, m.deepMerge H (n + 2) (.addr T a p) src o h = .ok () h' ∧
      h'.read a p = some (.map (some rd)) ∧ h'.maps[rd]? = some md ∧
      (∀ k xs, mapLookup k smap = some xs → mapLookup k dmap = none →
        mapLookup k md = some xs) ∧
      (∀ k xs xd, mapLookup k smap = some xs → mapLookup k dmap = some xd →
        entryIsEmpty E xd = false → mapLookup k md = some xd) ∧
      (∀ k xs xd, mapLookup k smap = some xs → mapLookup k dmap = some xd →
        entryIsEmpty E xd = true → mapLookup k md = some xs) ∧
      (∀ k, mapLookup k smap = none → mapLookup k md = mapLookup k dmap) := by
  have hall : ∀ k xs, mapLookup k smap = some xs → ∃ ts sv,
      LeafEntry m E xs ts sv ∧
      ∀ xd, mapLookup k dmap = some xd →
        ∃ dv, derefDirect E xd = .ok (.direct ts dv) := by
    intro k xs hxs
    obtain ⟨ts, sv, rfl, hsc, hn, hdst⟩ := hscal k xs hxs
    have hti : ts.kind ≠ .Interface := by
      intro hc; rw [hc] at hsc; simp [isScalarKind] at hsc
    refine ⟨ts, sv, ⟨?_, ?_, ?_, hsc, hn⟩, fun xd hxd => ?_⟩
    · simp [derefDirect, hE, derefDirect_of_not_iface sv hti]
    · simp [assignTo, hE, hti]
    · simp [assignable, hE]
    · obtain ⟨dv, rfl⟩ := hdst xd hxd
      exact ⟨dv, by simp [derefDirect, hE, derefDirect_of_not_iface dv hti]⟩
  obtain ⟨h', rd, md, hm, hr, hmd, hlk⟩ :=
    deepMerge_map_leaf H m n o dr dmap hk he hreg hd hdm hst hsl hsm hnd hall
  refine ⟨h', rd, md, hm, hr, hmd, ?_, ?_, ?_, ?_⟩
  · intro k xs h1 h2
    rw [hlk k, h1, h2]; rfl
  · intro k xs xd h1 h2 h3
    rw [hlk k, h1, h2]
    simp [mergedEntry, ho, h3]
  · intro k xs xd h1 h2 h3
    rw [hlk k, h1, h2]
    simp [mergedEntry, h3]
  · intro k h1
    rw [hlk k, h1]
    simp [mergedEntry]

theorem C9_map_preserves_nonempty_witness :
    ∃ h' rd md, newPorter.deepMerge Host.trivial 2 (.addr exMapSI 0 [])
        (.direct exMapSI (.map (some 1))) { newOptions with Overwrite := false }
        exHeapSI = .ok () h' ∧
      h'.read 0 [] = some (.map (some rd)) ∧ h'.maps[rd]? = some md ∧
      mapLookup (.str "new") md = some (.iface (some (.basic .Bool, .bool true))) ∧
      mapLookup (.str "int") md = some (.iface (some (.basic .Int, .int 1))) ∧
      mapLookup (.str "str") md =
        some (.iface (some (.basic .String, .str "2"))) := by
  obtain ⟨h', rd, md, h1, h2, h3, h4, h5, h6, _⟩ :=
    @C9_map_preserves_nonempty Host.trivial newPorter 0
      { newOptions with Overwrite := false } rfl
      exHeapSI exMapSI .iface 0 []
      (.direct exMapSI (.map (some 1))) 1 _ (some 0)
      [(.str "str", .iface (some (.basic .String, .str ""))),
       (.str "int", .iface (some (.basic .Int, .int 1)))]
      rfl rfl rfl rfl rfl rfl rfl rfl rfl (by decide)
      (by
        intro k xs hxs
        simp only [mapLookup] at hxs
        split at hxs
        · injection hxs with hxs
          subst hxs
          rename_i hk
          subst hk
          exact ⟨_, _, rfl, rfl, rfl, fun xd hxd => by
            simp [mapLookup] at hxd; exact ⟨_, hxd.symm⟩⟩
        · split at hxs
          · injection hxs with hxs
            subst hxs
            rename_i hk
            subst hk
            exact ⟨_, _, rfl, rfl, rfl, fun xd hxd => by
              simp [mapLookup] at hxd; exact ⟨_, hxd.symm⟩⟩
          · split at hxs
            · injection hxs with hxs
              subst hxs
              rename_i hk
              subst hk
              exact ⟨_, _, rfl, rfl, rfl, fun xd hxd => by
                simp [mapLookup] at hxd⟩
            · cases hxs)
  exact ⟨h', rd, md, h1, h2, h3, h4 _ _ rfl rfl, h5 _ _ _ rfl rfl rfl,
    h6 _ _ _ rfl rfl rfl⟩

/-! ## C20, C21: registering functions -/

/-- C20: `verifyCustomMergeFunctionSignature ft` returns no error exactly when
`ft` is a function type with three parameters and two results, the first
result type being the first parameter type, the third parameter type
`*Options` and the second result type `error`; its boolean result is then
true exactly when the first two parameter types differ. -/
theorem C20_verify_signature (ft : Ty) :
    ((verifyCustomMergeFunctionSignature ft).2 = none ↔
      ft.kind = .Func ∧ ∃ in0 in1,
        ft.ins = [in0, in1, .ptr optionsType] ∧ ft.outs = [in0, errorType]) ∧
    (∀ in0 in1 in2, (verifyCustomMergeFunctionSignature ft).2 = none →
      ft.ins = [in0, in1, in2] →
      ((verifyCustomMergeFunctionSignature ft).1 = true ↔ in0 ≠ in1)) := by
  unfold verifyCustomMergeFunctionSignature
  by_cases hk : ft.kind = .Func
  swap
  · simp [hk]
  rcases hi : ft.ins with _ | ⟨i0, _ | ⟨i1, _ | ⟨i2, _ | ⟨i3, r⟩⟩⟩⟩ <;>
    simp [hk]
  rcases ho : ft.outs with _ | ⟨o0, _ | ⟨o1, _ | ⟨o2, r⟩⟩⟩ <;> simp
  by_cases h1 : i0 = o0
  swap
  · simp [h1]
    intro _ h; exact absurd h.symm h1
  subst h1
  by_cases h2 : Ty.ptr optionsType = i2
  swap
  · simp [h2]
    intro h; exact absurd h.symm h2
  subst h2
  by_cases h3 : o1 = errorType
  · simp [h3]
  · simp [h3]

theorem C20_verify_signature_witness :
    ((verifyCustomMergeFunctionSignature (mergeFuncType (.basic .Int))).1 = true ↔
      Ty.basic .Int ≠ Ty.basic .Int) :=
  (C20_verify_signature (mergeFuncType (.basic .Int))).2 _ _ _ (by decide) rfl

/-- C21 (as stated, it fails): registering the well-formed merge function
`exAddInts` followed by the malformed `exBadFunc` returns an error, and yet
`exAddInts` is in `mergeFuncs` afterwards, which was empty before. -/
theorem C21_failed_registration_keeps_earlier :
    (newPorter.addCustomFuncs [exAddInts, exBadFunc]).2 =
        some (.inOutMismatch (.basic .String) (.basic .Int)) ∧
      (tableLookup (.basic .Int)
        (newPorter.addCustomFuncs [exAddInts, exBadFunc]).1.mergeFuncs).isSome
          = true ∧
      (tableLookup (.basic .Int) newPorter.mergeFuncs).isSome = false :=
  ⟨rfl, rfl, rfl⟩

theorem verifySignature_ok {ft : Ty}
    (hv : (verifyCustomMergeFunctionSignature ft).2 = none) :
    ∃ in0 in1, ft.ins = [in0, in1, .ptr optionsType] ∧
      verifyCustomMergeFunctionSignature ft = (decide (in0 ≠ in1), none) := by
  unfold verifyCustomMergeFunctionSignature at hv ⊢
  by_cases hk : ft.kind = .Func
  swap
  · simp [hk] at hv
  rcases hi : ft.ins with _ | ⟨i0, _ | ⟨i1, _ | ⟨i2, _ | ⟨i3, r⟩⟩⟩⟩ <;>
    simp [hk, hi] at hv ⊢
  rcases ho : ft.outs with _ | ⟨o0, _ | ⟨o1, _ | ⟨o2, r⟩⟩⟩ <;>
    simp [ho] at hv ⊢
  by_cases h1 : i0 = o0
  swap
  · simp [h1] at hv
  by_cases h2 : Ty.ptr optionsType = i2
  swap
  · simp [h1, h2] at hv
  by_cases h3 : o1 = errorType
  swap
  · simp [h1, h2, h3] at hv
  subst h1 h2 h3
  exact ⟨i0, i1, by simp, by simp⟩

theorem addCustomFuncs_cons_ok (m : porter) (fv : Func) (fns : List Func)
    {in0 in1 in2 : Ty}
    (hv : (verifyCustomMergeFunctionSignature fv.typ).2 = none)
    (hi : fv.typ.ins = [in0, in1, in2]) :
    m.addCustomFuncs (fv :: fns) = (m.store fv in0 in1).addCustomFuncs fns := by
  obtain ⟨j0, j1, hj, hver⟩ := verifySignature_ok hv
  rw [hi] at hj
  injection hj with e0 hj
  injection hj with e1 hj
  subst e0 e1
  by_cases he : in0 = in1
  · simp [porter.addCustomFuncs, hver, he, hi, porter.store]
  · simp [porter.addCustomFuncs, hver, he, hi, porter.store]

theorem addCustomFuncs_cons_err (m : porter) (fv : Func) (fns : List Func)
    {e : MergeError}
    (hv : (verifyCustomMergeFunctionSignature fv.typ).2 = some e) :
    m.addCustomFuncs (fv :: fns) = (m, some e) := by
  rcases hver : verifyCustomMergeFunctionSignature fv.typ with ⟨c, r⟩
  rw [hver] at hv
  simp only at hv
  subst hv
  simp [porter.addCustomFuncs, hver]

theorem addCustomFuncs_error_split (fns : List Func) :
    ∀ (m m' : porter) (e : MergeError),
      m.addCustomFuncs fns = (m', some e) →
      ∃ pre bad post, fns = pre ++ bad :: post ∧
        m.addCustomFuncs pre = (m', none) ∧
        (verifyCustomMergeFunctionSignature bad.typ).2 = some e := by
  induction fns with
  | nil => intro m m' e h; simp [porter.addCustomFuncs] at h
  | cons fv fns ih =>
    intro m m' e h
    cases hv : (verifyCustomMergeFunctionSignature fv.typ).2 with
    | some e' =>
      rw [addCustomFuncs_cons_err m fv fns hv] at h
      injection h with h1 h2
      injection h2 with h2
      subst h1 h2
      exact ⟨[], fv, fns, rfl, rfl, hv⟩
    | none =>
      obtain ⟨j0, j1, hj, _⟩ := verifySignature_ok hv
      rw [addCustomFuncs_cons_ok m fv fns hv hj] at h
      obtain ⟨pre, bad, post, hf, hp, hb⟩ := ih _ _ _ h
      refine ⟨fv :: pre, bad, post, by rw [hf]; rfl, ?_, hb⟩
      rw [addCustomFuncs_cons_ok m fv pre hv hj]
      exact hp

theorem addCustomFuncs_ok_all (fns : List Func) :
    ∀ (m m' : porter), m.addCustomFuncs fns = (m', none) →
      ∀ fv ∈ fns, (verifyCustomMergeFunctionSignature fv.typ).2 = none := by
  induction fns with
  | nil => intro m m' _ fv hfv; simp at hfv
  | cons f fns ih =>
    intro m m' h fv hfv
    cases hv : (verifyCustomMergeFunctionSignature f.typ).2 with
    | some e' =>
      rw [addCustomFuncs_cons_err m f fns hv] at h
      injection h with h1 h2
      cases h2
    | none =>
      obtain ⟨j0, j1, hj, _⟩ := verifySignature_ok hv
      rw [addCustomFuncs_cons_ok m f fns hv hj] at h
      rcases List.mem_cons.mp hfv with rfl | hm
      · exact hv
      · exact ih _ _ h fv hm

/-- C21 (amended): registration stops at the first malformed callback and
keeps what it stored before.  If `addCustomFuncs` returns an error, the list
splits into the callbacks before the first malformed one, that one, and the
rest; the error is the one of the malformed callback, and the two tables are
exactly as after registering the callbacks before it (neither the
malformed one nor a later one is stored).  If it returns no error, every
callback is well-formed.  A well-formed callback is stored in exactly one
table: `mergeFuncs` under its first parameter type when its first two
parameter types are equal, `convertFuncs` under the pair of those types
otherwise. -/
theorem C21_registration_stops_at_first_error (m : porter) (fns : List Func) :
    (∀ m' e, m.addCustomFuncs fns = (m', some e) →
      ∃ pre bad post, fns = pre ++ bad :: post ∧
        m.addCustomFuncs pre = (m', none) ∧
        (verifyCustomMergeFunctionSignature bad.typ).2 = some e) ∧
    (∀ m', m.addCustomFuncs fns = (m', none) →
      ∀ fv ∈ fns, (verifyCustomMergeFunctionSignature fv.typ).2 = none) ∧
    (∀ fv rest in0 in1 in2, fns = fv :: rest →
      (verifyCustomMergeFunctionSignature fv.typ).2 = none →
      fv.typ.ins = [in0, in1, in2] →
      m.addCustomFuncs fns = (m.store fv in0 in1).addCustomFuncs rest) :=
  ⟨addCustomFuncs_error_split fns m, addCustomFuncs_ok_all fns m,
    fun fv rest _ _ _ hf hv hi => hf ▸ addCustomFuncs_cons_ok m fv rest hv hi⟩

theorem C21_registration_stops_at_first_error_witness :
    ∃ pre bad post, [exAddInts, exBadFunc] = pre ++ bad :: post ∧
      newPorter.addCustomFuncs pre =
        ((newPorter.addCustomFuncs [exAddInts, exBadFunc]).1, none) ∧
      (verifyCustomMergeFunctionSignature bad.typ).2 =
        some (.inOutMismatch (.basic .String) (.basic .Int)) :=
  (C21_registration_stops_at_first_error newPorter [exAddInts, exBadFunc]).1 _ _ rfl

/-! ## C22: convertible -/

/-- C22: `convertible dst src` is the table of the specification applied to
the kinds of the two types: it holds exactly when both kinds are numeric, or
both complex, or both string.  So it depends on the kinds only, a defined
type behaves as its underlying type, and it is false for every pair with a
bool, for int and string in either direction, and whenever a side has a kind
outside the three families (the composite kinds among them). -/
theorem C22_convertible_table (dst src : Ty) :
    convertible dst src = convertibleKinds dst.kind src.kind ∧
    (∀ name, convertible (.named name dst) src = convertible dst src ∧
      convertible dst (.named name src) = convertible dst src) ∧
    (∀ dst2 src2 : Ty, dst2.kind = dst.kind → src2.kind = src.kind →
      convertible dst2 src2 = convertible dst src) ∧
    ((dst.kind = .Bool ∨ src.kind = .Bool) → convertible dst src = false) ∧
    ((isNumericKind dst.kind = true ∧ src.kind = .String) ∨
      (dst.kind = .String ∧ isNumericKind src.kind = true) →
      convertible dst src = false) ∧
    ((isNumericKind dst.kind = false ∧ isComplexKind dst.kind = false ∧
        dst.kind ≠ .String) ∨
      (isNumericKind src.kind = false ∧ isComplexKind src.kind = false ∧
        src.kind ≠ .String) → convertible dst src = false) := by
  have hmain : ∀ d s : Ty, convertible d s = convertibleKinds d.kind s.kind := by
    intro d s
    unfold convertible
    generalize d.kind = kd
    generalize s.kind = ks
    cases ks <;> cases kd <;> rfl
  refine ⟨hmain dst src, fun name => ⟨?_, ?_⟩, ?_, ?_, ?_, ?_⟩
  · rw [hmain, hmain]; rfl
  · rw [hmain, hmain]; rfl
  · intro d2 s2 h1 h2
    rw [hmain, hmain, h1, h2]
  · rw [hmain]
    rintro (h | h) <;> rw [h] <;> generalize Ty.kind _ = k <;> cases k <;> rfl
  · rw [hmain]
    rintro (⟨h1, h2⟩ | ⟨h1, h2⟩)
    · rw [h2]; revert h1; generalize dst.kind = k; cases k <;> simp [isNumericKind, convertibleKinds, isComplexKind]
    · rw [h1]; revert h2; generalize src.kind = k; cases k <;> simp [isNumericKind, convertibleKinds, isComplexKind]
  · rw [hmain]
    rintro (⟨h1, h2, h3⟩ | ⟨h1, h2, h3⟩)
    · simp [convertibleKinds, h1, h2, h3]
    · simp [convertibleKinds, h1, h2, h3]

theorem C22_convertible_table_witness :
    convertible (.named "tempInt" (.basic .Int)) (.basic .Int) = true ∧
      convertible (.basic .Int) (.basic .String) = false ∧
      convertible (.basic .Bool) (.basic .Bool) = false :=
  ⟨((C22_convertible_table (.basic .Int) (.basic .Int)).2.1 "tempInt").1.trans
      (by decide),
    (C22_convertible_table (.basic .Int) (.basic .String)).2.2.2.2.1
      (Or.inl ⟨by decide, by decide⟩),
    (C22_convertible_table (.basic .Bool) (.basic .Bool)).2.2.2.1
      (Or.inl (by decide))⟩

/-! ## C24: isEmptyValue -/

/-- C24: `isEmptyValue v` holds exactly when `v` is an array, map, slice or
string of length 0, the bool `false`, a signed or unsigned integer 0, a float
equal to 0, or a nil pointer or nil interface.  For a value of any other kind
(struct, complex, func, chan, ...) it is false; the zero value of a struct
type is not empty. -/
theorem C24_isEmptyValue_cases (h : Heap) (v : Value) :
    (isEmptyValue h v = true ↔
      (hasLenKind v.kind = true ∧ v.Len h = .ok 0) ∨
      (v.kind = .Bool ∧ v.load h = .ok (.bool false)) ∨
      (isSignedKind v.kind = true ∧ v.load h = .ok (.int 0)) ∨
      (isUnsignedKind v.kind = true ∧ v.load h = .ok (.uint 0)) ∨
      (isFloatKind v.kind = true ∧
        ∃ b, v.load h = .ok (.float b) ∧ floatIsZero b = true) ∨
      ((v.kind = .Interface ∨ v.kind = .Ptr) ∧ v.IsNil h = .ok true)) ∧
    ((v.kind = .Struct ∨ v.kind = .Complex64 ∨ v.kind = .Complex128 ∨
        v.kind = .Func ∨ v.kind = .Chan ∨ v.kind = .UnsafePointer ∨
        v.kind = .Invalid) → isEmptyValue h v = false) ∧
    (∀ name fields, isEmptyValue h
      (.direct (.named name (.struct fields))
        (Ty.zero (.named name (.struct fields)))) = false) := by
  refine ⟨?_, ?_, ?_⟩
  · unfold isEmptyValue
    generalize hk : v.kind = k
    cases k <;> simp [hasLenKind, isSignedKind, isUnsignedKind, isFloatKind]
    all_goals first
      | (cases hl : v.Len h <;> simp)
      | (cases hl : v.IsNil h <;> simp)
      | (cases hl : v.load h with
         | error e => simp
         | ok x => cases x <;> simp)
  · unfold isEmptyValue
    rintro (hk | hk | hk | hk | hk | hk | hk) <;> rw [hk]
  · intro name fields
    rfl

theorem C24_isEmptyValue_cases_witness :
    isEmptyValue ⟨[], []⟩ (.direct exS (.struct [.int 0])) = false :=
  (C24_isEmptyValue_cases ⟨[], []⟩ (.direct exS (.struct [.int 0]))).2.1
    (Or.inl (by decide))

/-! ## C11, C12: Append slice mode -/

theorem UniteSlice_ne_Append : UniteSlice ≠ AppendSliceMode := by decide

theorem directMerge_congr (dst src : Value) {o o' : Options}
    (ho : o.Overwrite = o'.Overwrite) :
    directMerge dst src o = directMerge dst src o' := by
  simp [directMerge, ho]

/-- The slice case of `deepMerge`: a nil source is skipped, another one goes
to `mergeSlice`. -/
theorem deepMerge_slice (H : Host) (m : porter) (n : Nat) (o : Options)
    {T : Ty} {dst src : Value} (hk : T.kind = .Slice)
    (hreg : tableLookup T m.mergeFuncs = none)
    (hdt : dst.typ = .ok T) (hst : src.typ = .ok T) (h : Heap) :
    m.deepMerge H (n + 1) dst src o h =
      match src.IsNil h with
      | .ok true => .ok () h
      | .ok false => mergeSlice dst src o h
      | .error e => .fail e h := by
  simp [porter.deepMerge, porter.deepMergeBody, hdt, hst, hreg,
    Value.kind_of_typ hdt, hk]
  cases hn : src.IsNil h with
  | error e => simp
  | ok b => cases b <;> simp

theorem IsNil_slice {T : Ty} {src : Value} {h : Heap} {sv : Option (List Val)}
    (hk : T.kind = .Slice) (hst : src.typ = .ok T)
    (hs : src.load h = .ok (.slice sv)) : src.IsNil h = .ok sv.isNone := by
  simp [Value.IsNil, Value.kind_of_typ hst, hk, hs]

theorem AppendSlice_eval {T : Ty} {dst src : Value} {h : Heap}
    {dv : Option (List Val)} {sv : List Val}
    (hk : T.kind = .Slice) (hdt : dst.typ = .ok T) (hst : src.typ = .ok T)
    (hd : dst.load h = .ok (.slice dv))
    (hs : src.load h = .ok (.slice (some sv))) :
    ∃ r, AppendSlice dst src h = .ok (.direct T (.slice r)) ∧
      r.getD [] = dv.getD [] ++ sv := by
  unfold AppendSlice
  simp only [Value.kind_of_typ hdt, Value.kind_of_typ hst, hk, hd, hs, hdt, hst]
  cases dv with
  | none =>
    cases sv with
    | nil => exact ⟨none, by simp, by simp⟩
    | cons x xs => exact ⟨some (x :: xs), by simp, by simp⟩
  | some d => exact ⟨some (d ++ sv), by simp, by simp⟩

theorem isEmptyValue_slice {T : Ty} {a : Nat} {p : List Nat} {h : Heap}
    {dv : Option (List Val)} (hk : T.kind = .Slice)
    (hd : h.read a p = some (.slice dv)) :
    isEmptyValue h (.addr T a p) = true ↔ (dv.getD []).length = 0 := by
  cases dv <;> simp [isEmptyValue, hk, Value.Len, Value.load_addr hd]

/-- `deepMerge` in Append slice mode, on a settable destination slice `dv` and
a non-nil source slice `sv`: the concatenation is assigned when the policy
allows it. -/
theorem deepMerge_append (H : Host) (m : porter) (n : Nat) (o : Options)
    (h : Heap) (T : Ty) (a : Nat) (p : List Nat) (dv : Option (List Val))
    (sv : List Val) (src : Value)
    (hk : T.kind = .Slice) (hreg : tableLookup T m.mergeFuncs = none)
    (hmode : o.SliceMode = AppendSliceMode)
    (hd : h.read a p = some (.slice dv))
    (hst : src.typ = .ok T) (hs : src.load h = .ok (.slice (some sv))) :
    ∃ h' r, m.deepMerge H (n + 1) (.addr T a p) src o h = .ok () h' ∧
      h'.read a p = some (.slice r) ∧
      r.getD [] = (if o.Overwrite = true ∨ (dv.getD []).length = 0
        then dv.getD [] ++ sv else dv.getD []) ∧
      (¬ (o.Overwrite = true ∨ (dv.getD []).length = 0) → h' = h) := by
  have hki : T.kind ≠ .Interface := by simp [hk]
  obtain ⟨r, hap, hr⟩ := AppendSlice_eval hk (Value.typ_addr T a p) hst
    (Value.load_addr hd) hs
  obtain ⟨h', hw, hdm⟩ := directMerge_addr o hki (Value.typ_direct T (.slice r))
    (Value.load_direct h T (.slice r)) hd
  have hemp := isEmptyValue_slice hk hd
  rw [deepMerge_slice H m n o hk hreg (Value.typ_addr T a p) hst,
    IsNil_slice hk hst hs]
  simp only [Option.isNone_some, mergeSlice, hmode, if_true, bind, M.bind,
    M.rd_apply, hap, hdm]
  by_cases hc : o.Overwrite = true ∨ (dv.getD []).length = 0
  · have hc' : o.Overwrite = true ∨ isEmptyValue h (.addr T a p) = true :=
      hc.imp id hemp.mpr
    rw [if_pos hc', if_pos hc]
    exact ⟨h', r, rfl, Heap.read_write hw, hr, fun hn => absurd hc hn⟩
  · have hc' : ¬ (o.Overwrite = true ∨ isEmptyValue h (.addr T a p) = true) :=
      fun hx => hc (hx.imp id hemp.mp)
    rw [if_neg hc', if_neg hc]
    exact ⟨h, dv, rfl, hd, rfl, fun _ => rfl⟩

/-- C11: in Append slice mode with `Overwrite` set, for a settable destination
slice `dv` (nil, empty or not) and a non-nil source slice `sv` of the same
type, with no merge function registered for that type, `deepMerge` returns no
error and the destination afterwards holds the concatenation: the elements of
`dv` followed by those of `sv`, so its length is the sum of the two
lengths. -/
theorem C11_append_slice (H : Host) (m : porter) (n : Nat) (o : Options)
    (h : Heap) (T : Ty) (a : Nat) (p : List Nat) (dv : Option (List Val))
    (sv : List Val) (src : Value)
    (hk : T.kind = .Slice) (hreg : tableLookup T m.mergeFuncs = none)
    (hmode : o.SliceMode = AppendSliceMode) (ho : o.Overwrite = true)
    (hd : h.read a p = some (.slice dv))
    (hst : src.typ = .ok T) (hs : src.load h = .ok (.slice (some sv))) :
    ∃ h' r, m.deepMerge H (n + 1) (.addr T a p) src o h = .ok () h' ∧
      h'.read a p = some (.slice r) ∧
      r.getD [] = dv.getD [] ++ sv ∧
      (r.getD []).length = (dv.getD []).length + sv.length ∧
      (dv.getD []) <+: (r.getD []) ∧ sv <:+ (r.getD []) := by
  obtain ⟨h', r, h1, h2, h3, _⟩ :=
    deepMerge_append H m n o h T a p dv sv src hk hreg hmode hd hst hs
  rw [if_pos (Or.inl ho)] at h3
  refine ⟨h', r, h1, h2, h3, ?_, ?_, ?_⟩
  · rw [h3, List.length_append]
  · rw [h3]; exact List.prefix_append _ _
  · rw [h3]; exact List.suffix_append _ _

theorem C11_append_slice_witness :
    ∃ h' r, newPorter.deepMerge Host.trivial 1
        (.addr (.slice (.basic .Int)) 0 [])
        (.direct (.slice (.basic .Int)) (.slice (some [.int 2, .int 3])))
        { newOptions with SliceMode := AppendSliceMode }
        ⟨[.slice (some [.int 1, .int 2])], []⟩ = .ok () h' ∧
      h'.read 0 [] = some (.slice r) ∧
      r.getD [] = (some [Val.int 1, Val.int 2]).getD [] ++ [.int 2, .int 3] ∧
      (r.getD []).length =
        ((some [Val.int 1, Val.int 2]).getD []).length
          + [Val.int 2, Val.int 3].length ∧
      ((some [Val.int 1, Val.int 2]).getD []) <+: (r.getD []) ∧
      [Val.int 2, Val.int 3] <:+ (r.getD []) :=
  C11_append_slice Host.trivial newPorter 0
    { newOptions with SliceMode := AppendSliceMode }
    ⟨[.slice (some [.int 1, .int 2])], []⟩ (.slice (.basic .Int)) 0 []
    (some [.int 1, .int 2]) [.int 2, .int 3] _ rfl rfl rfl rfl rfl rfl rfl

/-- C12 (as stated, it fails): in Append slice mode with `Overwrite` unset,
merging `[2, 3]` onto `[1, 2]` leaves `[1, 2]` (the test "without overwrite /
append mode / simple"), whereas with `Overwrite` set it gives
`[1, 2, 2, 3]`. -/
theorem C12_append_honours_overwrite :
    newPorter.deepMerge Host.trivial 1 (.addr (.slice (.basic .Int)) 0 [])
        (.direct (.slice (.basic .Int)) (.slice (some [.int 2, .int 3])))
        { newOptions with SliceMode := AppendSliceMode, Overwrite := false }
        ⟨[.slice (some [.int 1, .int 2])], []⟩ =
      .ok () ⟨[.slice (some [.int 1, .int 2])], []⟩ ∧
    newPorter.deepMerge Host.trivial 1 (.addr (.slice (.basic .Int)) 0 [])
        (.direct (.slice (.basic .Int)) (.slice (some [.int 2, .int 3])))
        { newOptions with SliceMode := AppendSliceMode, Overwrite := true }
        ⟨[.slice (some [.int 1, .int 2])], []⟩ =
      .ok () ⟨[.slice (some [.int 1, .int 2, .int 2, .int 3])], []⟩ :=
  ⟨rfl, rfl⟩

/-- C12 (amended): Append slice mode honours the overwrite policy.  With
`Overwrite` unset, for a settable destination slice `dv` and a non-nil source
slice `sv` of the same type (no merge function registered for it),
`deepMerge` returns no error; the destination afterwards holds the
concatenation of `dv` and `sv` (that is, the elements of `sv`) when `dv` has
length 0, and the destination and the whole heap are unchanged when `dv` is
not empty. -/
theorem C12_append_without_overwrite (H : Host) (m : porter) (n : Nat)
    (o : Options) (h : Heap) (T : Ty) (a : Nat) (p : List Nat)
    (dv : Option (List Val)) (sv : List Val) (src : Value)
    (hk : T.kind = .Slice) (hreg : tableLookup T m.mergeFuncs = none)
    (hmode : o.SliceMode = AppendSliceMode) (ho : o.Overwrite = false)
    (hd : h.read a p = some (.slice dv))
    (hst : src.typ = .ok T) (hs : src.load h = .ok (.slice (some sv))) :
    ∃ h' r, m.deepMerge H (n + 1) (.addr T a p) src o h = .ok () h' ∧
      h'.read a p = some (.slice r) ∧
      ((dv.getD []).length = 0 → r.getD [] = dv.getD [] ++ sv ∧ r.getD [] = sv) ∧
      ((dv.getD []).length ≠ 0 → r = dv ∧ h' = h) := by
  obtain ⟨h', r, h1, h2, h3, h4⟩ :=
    deepMerge_append H m n o h T a p dv sv src hk hreg hmode hd hst hs
  refine ⟨h', r, h1, h2, fun hl => ?_, fun hl => ?_⟩
  · rw [if_pos (Or.inr hl)] at h3
    refine ⟨h3, ?_⟩
    rw [h3, List.length_eq_zero.mp hl, List.nil_append]
  · have hh : h' = h := h4 (by simp [ho, hl])
    subst hh
    rw [hd] at h2
    injection h2 with h2
    injection h2 with h2
    exact ⟨h2.symm, rfl⟩

theorem C12_append_without_overwrite_witness :
    ∃ h' r, newPorter.deepMerge Host.trivial 1
        (.addr (.slice (.basic .Int)) 0 [])
        (.direct (.slice (.basic .Int)) (.slice (some [.int 2, .int 3])))
        { newOptions with SliceMode := AppendSliceMode, Overwrite := false }
        ⟨[.slice (some [.int 1, .int 2])], []⟩ = .ok () h' ∧
      h'.read 0 [] = some (.slice r) ∧
      (((some [Val.int 1, Val.int 2]).getD []).length = 0 →
        r.getD [] = (some [Val.int 1, Val.int 2]).getD [] ++ [.int 2, .int 3] ∧
          r.getD [] = [.int 2, .int 3]) ∧
      (((some [Val.int 1, Val.int 2]).getD []).length ≠ 0 →
        r = some [.int 1, .int 2] ∧
          h' = ⟨[.slice (some [.int 1, .int 2])], []⟩) :=
  C12_append_without_overwrite Host.trivial newPorter 0
    { newOptions with SliceMode := AppendSliceMode, Overwrite := false }
    ⟨[.slice (some [.int 1, .int 2])], []⟩ (.slice (.basic .Int)) 0 []
    (some [.int 1, .int 2]) [.int 2, .int 3] _ rfl rfl rfl rfl rfl rfl rfl

/-! ## C13, C14, C25: Unite slice mode -/

theorem UniteSlice_ne_Replace : UniteSlice ≠ ReplaceSlice := by decide

theorem keyEq_of_isIntOrString {x y : Val} (hx : x.isIntOrString = true)
    (hy : y.isIntOrString = true) : keyEq x y = decide (x = y) := by
  cases x <;> cases y <;> simp [Val.isIntOrString] at hx hy <;> simp [keyEq]

theorem any_keyEq {d : List Val} {y : Val}
    (hd : ∀ x ∈ d, x.isIntOrString = true) (hy : y.isIntOrString = true) :
    d.any (fun e => keyEq e y) = decide (y ∈ d) := by
  induction d with
  | nil => simp
  | cons x d ih =>
    have hx := hd x (List.mem_cons_self x d)
    have ih' := ih (fun z hz => hd z (List.mem_cons_of_mem x hz))
    rw [List.any_cons, ih', keyEq_of_isIntOrString hx hy]
    by_cases h1 : x = y
    · simp [h1]
    · have h2 : ¬ y = x := fun e => h1 e.symm
      simp [h1, h2]

theorem filter_new_elems {d s : List Val}
    (hd : ∀ x ∈ d, x.isIntOrString = true)
    (hs : ∀ x ∈ s, x.isIntOrString = true) :
    s.filter (fun key => !(d.any (fun e => keyEq e key))) =
      s.filter (fun key => decide (key ∉ d)) := by
  apply List.filter_congr
  intro y hy
  rw [any_keyEq hd (hs y hy)]
  simp

theorem hashable_of_isIntOrStringKind {E : Ty}
    (hE : isIntOrStringKind E.kind = true) :
    hashable E = true ∧ E.kind ≠ .Bool := by
  unfold isIntOrStringKind at hE
  unfold hashable
  generalize E.kind = k at hE
  cases k <;> simp [isSignedKind, isUnsignedKind] at hE ⊢

theorem sliceElems_eval {T : Ty} {v : Value} {h : Heap}
    {x : Option (List Val)} (hk : T.kind = .Slice) (ht : v.typ = .ok T)
    (hl : v.load h = .ok (.slice x)) : sliceElems v h = .ok (x.getD []) := by
  simp [sliceElems, Value.kind_of_typ ht, hk, hl]

theorem Append_eval {T : Ty} {dst : Value} {h : Heap}
    {dv : Option (List Val)} {xs : List Val}
    (hk : T.kind = .Slice) (hdt : dst.typ = .ok T)
    (hd : dst.load h = .ok (.slice dv)) :
    ∃ r, Append dst xs h = .ok (.direct T (.slice r)) ∧
      r.getD [] = dv.getD [] ++ xs := by
  unfold Append
  simp only [Value.kind_of_typ hdt, hk, hd, hdt]
  cases dv with
  | none =>
    cases xs with
    | nil => exact ⟨none, by simp, by simp⟩
    | cons x xs => exact ⟨some (x :: xs), by simp, by simp⟩
  | some d => exact ⟨some (d ++ xs), by simp, by simp⟩

/-- `deepMerge` in Unite slice mode on slices of integers or strings: the
elements of the source that the destination lacks are appended, in the
source's order, when the policy allows it (and nothing is assigned when there
is no such element). -/
theorem deepMerge_unite (H : Host) (m : porter) (n : Nat) (o : Options)
    (h : Heap) (T E : Ty) (a : Nat) (p : List Nat) (dv : Option (List Val))
    (sv : List Val) (src : Value)
    (hk : T.kind = .Slice) (he : T.elem = some E)
    (hE : isIntOrStringKind E.kind = true)
    (hreg : tableLookup T m.mergeFuncs = none)
    (hmode : o.SliceMode = UniteSlice)
    (hd : h.read a p = some (.slice dv))
    (hst : src.typ = .ok T) (hs : src.load h = .ok (.slice (some sv)))
    (hdv : ∀ x ∈ dv.getD [], x.isIntOrString = true)
    (hsv : ∀ x ∈ sv, x.isIntOrString = true) :
    ∃ h' r, m.deepMerge H (n + 1) (.addr T a p) src o h = .ok () h' ∧
      h'.read a p = some (.slice r) ∧
      r.getD [] = (if o.Overwrite = true ∨ (dv.getD []).length = 0
        then dv.getD [] ++ sv.filter (fun x => decide (x ∉ dv.getD []))
        else dv.getD []) := by
  have hki : T.kind ≠ .Interface := by simp [hk]
  obtain ⟨hha, hnb⟩ := hashable_of_isIntOrStringKind hE
  have hemp := isEmptyValue_slice hk hd
  rw [deepMerge_slice H m n o hk hreg (Value.typ_addr T a p) hst,
    IsNil_slice hk hst hs]
  simp only [Option.isNone_some, mergeSlice, hmode, UniteSlice_ne_Append,
    if_false, if_true, M.bind_apply, M.rd_apply, Value.typ_addr, he, hha, hnb,
    sliceElems_eval hk (Value.typ_addr T a p) (Value.load_addr hd),
    sliceElems_eval hk hst hs, Option.getD_some, filter_new_elems hdv hsv,
    Bool.not_true, Bool.false_or, decide_False, Bool.false_eq_true]
  by_cases hl : (sv.filter (fun x => decide (x ∉ dv.getD []))).length > 0
  · simp only [hl, if_true]
    obtain ⟨r, hap, hr⟩ := @Append_eval T (.addr T a p) h dv
      (sv.filter (fun x => decide (x ∉ dv.getD []))) hk (Value.typ_addr T a p)
      (Value.load_addr hd)
    obtain ⟨h', hw, hdm⟩ := directMerge_addr o hki
      (Value.typ_direct T (.slice r)) (Value.load_direct h T (.slice r)) hd
    simp only [M.bind_apply, M.rd_apply, hap, hdm]
    by_cases hc : o.Overwrite = true ∨ (dv.getD []).length = 0
    · have hc' : o.Overwrite = true ∨ isEmptyValue h (.addr T a p) = true :=
        hc.imp id hemp.mpr
      rw [if_pos hc', if_pos hc]
      exact ⟨h', r, rfl, Heap.read_write hw, hr⟩
    · have hc' : ¬ (o.Overwrite = true ∨ isEmptyValue h (.addr T a p) = true) :=
        fun hx => hc (hx.imp id hemp.mp)
      rw [if_neg hc', if_neg hc]
      exact ⟨h, dv, rfl, hd, rfl⟩
  · simp only [hl, if_false]
    have hnil : sv.filter (fun x => decide (x ∉ dv.getD [])) = [] := by
      apply List.eq_nil_of_length_eq_zero
      omega
    refine ⟨h, dv, rfl, hd, ?_⟩
    rw [hnil, List.append_nil, ite_self]

/-- C13: in Unite slice mode with `Overwrite` set, for a settable destination
slice `dv` and a non-nil source slice `sv` of the same type whose element
kind is an integer kind or string (no merge function registered for the
slice type), `deepMerge` returns no error and the destination afterwards
holds the elements of `dv` followed by exactly those elements of `sv` that do
not occur in `dv`, in the order of `sv`. -/
theorem C13_unite_slice (H : Host) (m : porter) (n : Nat) (o : Options)
    (h : Heap) (T E : Ty) (a : Nat) (p : List Nat) (dv : Option (List Val))
    (sv : List Val) (src : Value)
    (hk : T.kind = .Slice) (he : T.elem = some E)
    (hE : isIntOrStringKind E.kind = true)
    (hreg : tableLookup T m.mergeFuncs = none)
    (hmode : o.SliceMode = UniteSlice) (ho : o.Overwrite = true)
    (hd : h.read a p = some (.slice dv))
    (hst : src.typ = .ok T) (hs : src.load h = .ok (.slice (some sv)))
    (hdv : ∀ x ∈ dv.getD [], x.isIntOrString = true)
    (hsv : ∀ x ∈ sv, x.isIntOrString = true) :
    ∃ h' r, m.deepMerge H (n + 1) (.addr T a p) src o h = .ok () h' ∧
      h'.read a p = some (.slice r) ∧
      r.getD [] = dv.getD [] ++ sv.filter (fun x => decide (x ∉ dv.getD [])) := by
  obtain ⟨h', r, h1, h2, h3⟩ := deepMerge_unite H m n o h T E a p dv sv src
    hk he hE hreg hmode hd hst hs hdv hsv
  rw [if_pos (Or.inl ho)] at h3
  exact ⟨h', r, h1, h2, h3⟩

theorem C13_unite_slice_witness :
    ∃ h' r, newPorter.deepMerge Host.trivial 1
        (.addr (.slice (.basic .Int)) 0 [])
        (.direct (.slice (.basic .Int)) (.slice (some [.int 2, .int 3])))
        { newOptions with SliceMode := UniteSlice }
        ⟨[.slice (some [.int 1, .int 2])], []⟩ = .ok () h' ∧
      h'.read 0 [] = some (.slice r) ∧
      r.getD [] = (some [Val.int 1, Val.int 2]).getD [] ++
        [Val.int 2, Val.int 3].filter
          (fun x => decide (x ∉ (some [Val.int 1, Val.int 2]).getD [])) :=
  C13_unite_slice Host.trivial newPorter 0
    { newOptions with SliceMode := UniteSlice }
    ⟨[.slice (some [.int 1, .int 2])], []⟩ (.slice (.basic .Int)) (.basic .Int)
    0 [] (some [.int 1, .int 2]) [.int 2, .int 3] _ rfl rfl rfl rfl rfl rfl rfl
    rfl rfl (by decide) (by decide)

/-- C14: in Unite slice mode, when the element kind of the slice type is bool
or is not hashable, `deepMerge` (no merge function registered for the slice
type) does exactly what it does in Append mode on the same destination,
source, heap and other options: same outcome, same heap.  For instance
`[true, false]` united with `[true, false]` is
`[true, false, true, false]`. -/
theorem C14_unite_falls_back_to_append (H : Host) (m : porter) (n : Nat)
    (o : Options) (T E : Ty) (dst src : Value) (h : Heap)
    (hk : T.kind = .Slice) (he : T.elem = some E)
    (hE : hashable E = false ∨ E.kind = .Bool)
    (hreg : tableLookup T m.mergeFuncs = none)
    (hmode : o.SliceMode = UniteSlice)
    (hdt : dst.typ = .ok T) (hst : src.typ = .ok T) :
    m.deepMerge H (n + 1) dst src o h =
        m.deepMerge H (n + 1) dst src { o with SliceMode := AppendSliceMode } h ∧
      newPorter.deepMerge H 1 (.addr (.slice (.basic .Bool)) 0 [])
          (.direct (.slice (.basic .Bool))
            (.slice (some [.bool true, .bool false])))
          { newOptions with SliceMode := UniteSlice }
          ⟨[.slice (some [.bool true, .bool false])], []⟩ =
        .ok () ⟨[.slice (some [.bool true, .bool false, .bool true,
          .bool false])], []⟩ := by
  refine ⟨?_, rfl⟩
  rw [deepMerge_slice H m n o hk hreg hdt hst,
    deepMerge_slice H m n _ hk hreg hdt hst]
  have hfb : (!hashable E || decide (E.kind = .Bool)) = true := by
    rcases hE with hE | hE <;> simp [hE]
  have hdm : ∀ x, directMerge dst x o =
      directMerge dst x { o with SliceMode := AppendSliceMode } :=
    fun x => directMerge_congr dst x rfl
  cases hn : src.IsNil h with
  | error e => rfl
  | ok b =>
    cases b with
    | true => rfl
    | false =>
      simp only [mergeSlice, hmode, UniteSlice_ne_Append, if_false, if_true,
        M.bind_apply, M.rd_apply, hdt, he, hfb, hdm]

theorem C14_unite_falls_back_to_append_witness :
    newPorter.deepMerge Host.trivial 1 (.addr (.slice (.basic .Bool)) 0 [])
        (.direct (.slice (.basic .Bool)) (.slice (some [.bool true])))
        { newOptions with SliceMode := UniteSlice }
        ⟨[.slice (some [.bool true])], []⟩ =
      newPorter.deepMerge Host.trivial 1 (.addr (.slice (.basic .Bool)) 0 [])
        (.direct (.slice (.basic .Bool)) (.slice (some [.bool true])))
        { { newOptions with SliceMode := UniteSlice } with
          SliceMode := AppendSliceMode }
        ⟨[.slice (some [.bool true])], []⟩ :=
  (C14_unite_falls_back_to_append Host.trivial newPorter 0
    { newOptions with SliceMode := UniteSlice } (.slice (.basic .Bool))
    (.basic .Bool) (.addr (.slice (.basic .Bool)) 0 [])
    (.direct (.slice (.basic .Bool)) (.slice (some [.bool true])))
    ⟨[.slice (some [.bool true])], []⟩ rfl rfl
    (Or.inr rfl) rfl rfl rfl rfl).1

/-- C25 (as stated, it fails): in Unite slice mode with `Overwrite` set,
merging `[2, 2]` onto `[1]` gives `[1, 2, 2]`: the destination had no
duplicate, the result has one. -/
theorem C25_unite_keeps_source_repeats :
    newPorter.deepMerge Host.trivial 1 (.addr (.slice (.basic .Int)) 0 [])
        (.direct (.slice (.basic .Int)) (.slice (some [.int 2, .int 2])))
        { newOptions with SliceMode := UniteSlice }
        ⟨[.slice (some [.int 1])], []⟩ =
      .ok () ⟨[.slice (some [.int 1, .int 2, .int 2])], []⟩ ∧
    [Val.int 1].Nodup ∧ ¬ [Val.int 1, Val.int 2, Val.int 2].Nodup :=
  ⟨rfl, by decide, by decide⟩

/-- C25 (amended): in Unite slice mode with `Overwrite` set and integer or
string elements, for a destination slice `dv` without duplicates and a source
slice `sv` without duplicates, the merged slice has no duplicates.  (The
elements appended are those of `sv` that `dv` lacks, each as often as it
occurs in `sv`.) -/
theorem C25_unite_nodup (H : Host) (m : porter) (n : Nat) (o : Options)
    (h : Heap) (T E : Ty) (a : Nat) (p : List Nat) (dv : Option (List Val))
    (sv : List Val) (src : Value)
    (hk : T.kind = .Slice) (he : T.elem = some E)
    (hE : isIntOrStringKind E.kind = true)
    (hreg : tableLookup T m.mergeFuncs = none)
    (hmode : o.SliceMode = UniteSlice) (ho : o.Overwrite = true)
    (hd : h.read a p = some (.slice dv))
    (hst : src.typ = .ok T) (hs : src.load h = .ok (.slice (some sv)))
    (hdv : ∀ x ∈ dv.getD [], x.isIntOrString = true)
    (hsv : ∀ x ∈ sv, x.isIntOrString = true)
    (hdn : (dv.getD []).Nodup) (hsn : sv.Nodup) :
    ∃ h' r, m.deepMerge H (n + 1) (.addr T a p) src o h = .ok () h' ∧
      h'.read a p = some (.slice r) ∧ (r.getD []).Nodup ∧
      ∀ x, (r.getD []).count x =
        (dv.getD []).count x + if x ∈ dv.getD [] then 0 else sv.count x := by
  obtain ⟨h', r, h1, h2, h3⟩ := deepMerge_unite H m n o h T E a p dv sv src
    hk he hE hreg hmode hd hst hs hdv hsv
  rw [if_pos (Or.inl ho)] at h3
  refine ⟨h', r, h1, h2, ?_, fun x => ?_⟩
  · rw [h3]
    refine List.Nodup.append hdn (hsn.filter _) ?_
    intro x hx1 hx2
    have := (List.mem_filter.mp hx2).2
    simp at this
    exact this hx1
  · rw [h3, List.count_append]
    congr 1
    by_cases hx : x ∈ dv.getD []
    · rw [if_pos hx]
      apply List.count_eq_zero_of_not_mem
      intro hm
      have := (List.mem_filter.mp hm).2
      simp at this
      exact this hx
    · rw [if_neg hx, List.count_filter]
      simpa using hx

theorem C25_unite_nodup_witness :
    ∃ h' r, newPorter.deepMerge Host.trivial 1
        (.addr (.slice (.basic .Int)) 0 [])
        (.direct (.slice (.basic .Int)) (.slice (some [.int 2, .int 3])))
        { newOptions with SliceMode := UniteSlice }
        ⟨[.slice (some [.int 1, .int 2])], []⟩ = .ok () h' ∧
      h'.read 0 [] = some (.slice r) ∧ (r.getD []).Nodup ∧
      ∀ x, (r.getD []).count x =
        ((some [Val.int 1, Val.int 2]).getD []).count x +
          if x ∈ (some [Val.int 1, Val.int 2]).getD [] then 0
          else [Val.int 2, Val.int 3].count x :=
  C25_unite_nodup Host.trivial newPorter 0
    { newOptions with SliceMode := UniteSlice }
    ⟨[.slice (some [.int 1, .int 2])], []⟩ (.slice (.basic .Int)) (.basic .Int)
    0 [] (some [.int 1, .int 2]) [.int 2, .int 3] _ rfl rfl rfl rfl rfl rfl rfl
    rfl rfl (by decide) (by decide) (by decide) (by decide)

/-! ## C23: directMerge -/

theorem derefDirect_kind : ∀ {t : Ty} {x : Val} {e : Value} {te : Ty},
    derefDirect t x = .ok e → e.typ = .ok te → te.kind ≠ .Interface
  | t, .iface none, e, te, hd, ht => by
    simp only [derefDirect] at hd
    split at hd
    · injection hd with hd; subst hd; simp [Value.typ] at ht
    · rename_i hk
      injection hd with hd; subst hd
      simp only [Value.typ_direct] at ht
      injection ht with ht; subst ht; exact hk
  | t, .iface (some (t', v')), e, te, hd, ht => by
    simp only [derefDirect] at hd
    split at hd
    · exact derefDirect_kind hd ht
    · rename_i hk
      injection hd with hd; subst hd
      simp only [Value.typ_direct] at ht
      injection ht with ht; subst ht; exact hk
  | t, .bool _, e, te, hd, ht => by
    simp only [derefDirect] at hd
    split at hd
    · cases hd
    · rename_i hk
      injection hd with hd; subst hd
      simp only [Value.typ_direct] at ht
      injection ht with ht; subst ht; exact hk
  | t, .int _, e, te, hd, ht => by
    simp only [derefDirect] at hd
    split at hd
    · cases hd
    · rename_i hk
      injection hd with hd; subst hd
      simp only [Value.typ_direct] at ht
      injection ht with ht; subst ht; exact hk
  | t, .uint _, e, te, hd, ht => by
    simp only [derefDirect] at hd
    split at hd
    · cases hd
    · rename_i hk
      injection hd with hd; subst hd
      simp only [Value.typ_direct] at ht
      injection ht with ht; subst ht; exact hk
  | t, .float _, e, te, hd, ht => by
    simp only [derefDirect] at hd
    split at hd
    · cases hd
    · rename_i hk
      injection hd with hd; subst hd
      simp only [Value.typ_direct] at ht
      injection ht with ht; subst ht; exact hk
  | t, .complex _ _, e, te, hd, ht => by
    simp only [derefDirect] at hd
    split at hd
    · cases hd
    · rename_i hk
      injection hd with hd; subst hd
      simp only [Value.typ_direct] at ht
      injection ht with ht; subst ht; exact hk
  | t, .str _, e, te, hd, ht => by
    simp only [derefDirect] at hd
    split at hd
    · cases hd
    · rename_i hk
      injection hd with hd; subst hd
      simp only [Value.typ_direct] at ht
      injection ht with ht; subst ht; exact hk
  | t, .ptr _, e, te, hd, ht => by
    simp only [derefDirect] at hd
    split at hd
    · cases hd
    · rename_i hk
      injection hd with hd; subst hd
      simp only [Value.typ_direct] at ht
      injection ht with ht; subst ht; exact hk
  | t, .uptr _, e, te, hd, ht => by
    simp only [derefDirect] at hd
    split at hd
    · cases hd
    · rename_i hk
      injection hd with hd; subst hd
      simp only [Value.typ_direct] at ht
      injection ht with ht; subst ht; exact hk
  | t, .map _, e, te, hd, ht => by
    simp only [derefDirect] at hd
    split at hd
    · cases hd
    · rename_i hk
      injection hd with hd; subst hd
      simp only [Value.typ_direct] at ht
      injection ht with ht; subst ht; exact hk
  | t, .chan _, e, te, hd, ht => by
    simp only [derefDirect] at hd
    split at hd
    · cases hd
    · rename_i hk
      injection hd with hd; subst hd
      simp only [Value.typ_direct] at ht
      injection ht with ht; subst ht; exact hk
  | t, .func _, e, te, hd, ht => by
    simp only [derefDirect] at hd
    split at hd
    · cases hd
    · rename_i hk
      injection hd with hd; subst hd
      simp only [Value.typ_direct] at ht
      injection ht with ht; subst ht; exact hk
  | t, .slice _, e, te, hd, ht => by
    simp only [derefDirect] at hd
    split at hd
    · cases hd
    · rename_i hk
      injection hd with hd; subst hd
      simp only [Value.typ_direct] at ht
      injection ht with ht; subst ht; exact hk
  | t, .array _, e, te, hd, ht => by
    simp only [derefDirect] at hd
    split at hd
    · cases hd
    · rename_i hk
      injection hd with hd; subst hd
      simp only [Value.typ_direct] at ht
      injection ht with ht; subst ht; exact hk
  | t, .struct _, e, te, hd, ht => by
    simp only [derefDirect] at hd
    split at hd
    · cases hd
    · rename_i hk
      injection hd with hd; subst hd
      simp only [Value.typ_direct] at ht
      injection ht with ht; subst ht; exact hk

theorem derefInterface_typ {v e : Value} {h : Heap} {t : Ty}
    (hd : derefInterface v h = .ok e) (ht : e.typ = .ok t) :
    ∃ tv, v.typ = .ok tv ∧ (tv.kind ≠ .Interface → e = v) := by
  cases v with
  | invalid =>
    simp [derefInterface] at hd
    subst hd
    simp [Value.typ] at ht
  | direct tv x =>
    refine ⟨tv, rfl, fun hk => ?_⟩
    simp only [derefInterface] at hd
    rw [derefDirect_of_not_iface x hk] at hd
    injection hd with hd
    exact hd.symm
  | addr tv a p =>
    refine ⟨tv, rfl, fun hk => ?_⟩
    simp only [derefInterface, hk, if_false] at hd
    injection hd with hd
    exact hd.symm

/-- `directMerge` onto a settable destination, when the values behind the
interface layers of the two sides have the same type `TE`: the source value
is assigned exactly when the policy allows it. -/
theorem directMerge_eval {T TE : Ty} {a : Nat} {p : List Nat}
    {src dstE srcE : Value} {h : Heap} {sv dv : Val} (o : Options)
    (hd : h.read a p = some dv)
    (hde : derefInterface (.addr T a p) h = .ok dstE)
    (hse : derefInterface src h = .ok srcE)
    (hdt : dstE.typ = .ok TE) (hst : srcE.typ = .ok TE)
    (hsl : srcE.load h = .ok sv) :
    ∃ h', h.write a p (assignTo T TE sv) = some h' ∧
      directMerge (.addr T a p) src o h =
        .ok () (if o.Overwrite = true ∨ isEmptyValue h dstE = true
          then h' else h) := by
  obtain ⟨h', hw⟩ := Heap.write_of_read (assignTo T TE sv) hd
  refine ⟨h', hw, ?_⟩
  have has : assignable T TE = true := by
    by_cases hk : T.kind = .Interface
    · simp [assignable, hk]
    · obtain ⟨tv, htv, he⟩ := derefInterface_typ hde hdt
      simp only [Value.typ_addr] at htv
      injection htv with htv
      subst htv
      rw [he hk] at hdt
      simp only [Value.typ_addr] at hdt
      injection hdt with hdt
      subst hdt
      exact assignable_self _
  simp [directMerge, hde, hse, Value.IsValid_of_typ hdt,
    Value.IsValid_of_typ hst, hdt, hst]
  by_cases hc : o.Overwrite = true ∨ isEmptyValue h dstE = true
  · simp [hc, Value.Set, hst, hsl, has, hw]
  · simp [hc]

/-- C23: `directMerge` on a settable destination (the location `(a, p)` of
type `T`) and a source whose value behind the interface layers has the same
type `TE` as the destination's returns no error and assigns exactly when the
policy allows: afterwards the destination holds the source value when
`Overwrite` is set or the destination (behind its interface layers) is empty,
and the heap is unchanged otherwise.  A destination that is not of interface
type holds the very value of the source afterwards; so for pointers the
pointer itself is copied, and a typed nil source pointer under `Overwrite`
sets the destination to nil. -/
theorem C23_directMerge_policy {T TE : Ty} {a : Nat} {p : List Nat}
    {src dstE srcE : Value} {h : Heap} {sv dv : Val} (o : Options)
    (hd : h.read a p = some dv)
    (hde : derefInterface (.addr T a p) h = .ok dstE)
    (hse : derefInterface src h = .ok srcE)
    (hdt : dstE.typ = .ok TE) (hst : srcE.typ = .ok TE)
    (hsl : srcE.load h = .ok sv) :
    ∃ h', directMerge (.addr T a p) src o h = .ok () h' ∧
      ((o.Overwrite = true ∨ isEmptyValue h dstE = true) →
        h'.read a p = some (assignTo T TE sv) ∧
        (T.kind ≠ .Interface → h'.read a p = some sv) ∧
        (T.kind = .Interface → h'.read a p = some (.iface (some (TE, sv))))) ∧
      (¬ (o.Overwrite = true ∨ isEmptyValue h dstE = true) → h' = h) ∧
      (∀ x, T.kind = .Ptr → sv = .ptr x → o.Overwrite = true →
        h'.read a p = some (.ptr x)) := by
  obtain ⟨h', hw, hdm⟩ := directMerge_eval o hd hde hse hdt hst hsl
  have hTE : TE.kind ≠ .Interface := by
    intro hk
    cases src with
    | invalid =>
      simp [derefInterface] at hse
      subst hse
      simp [Value.typ] at hst
    | direct ts x => exact derefDirect_kind hse hst hk
    | addr ts b q =>
      simp only [derefInterface] at hse
      split at hse
      · split at hse
        · exact derefDirect_kind hse hst hk
        · cases hse
      · injection hse with hse
        subst hse
        simp only [Value.typ_addr] at hst
        injection hst with hst
        subst hst
        contradiction
  rw [hdm]
  by_cases hc : o.Overwrite = true ∨ isEmptyValue h dstE = true
  · rw [if_pos hc]
    have hr := Heap.read_write hw
    refine ⟨h', rfl, fun _ => ⟨hr, fun hk => ?_, fun hk => ?_⟩,
      fun hn => absurd hc hn, fun x hk hx _ => ?_⟩
    · rw [hr]; simp [assignTo, hk]
    · rw [hr]; simp [assignTo, hk, hTE]
    · rw [hr, hx]; simp [assignTo, hk]
  · rw [if_neg hc]
    exact ⟨h, rfl, fun hy => absurd hy hc, fun _ => rfl,
      fun x _ _ ho => absurd (Or.inl ho) hc⟩

theorem C23_directMerge_policy_witness :
    ∃ h', directMerge (.addr (.ptr (.basic .Int)) 0 [])
        (.direct (.ptr (.basic .Int)) (.ptr none)) newOptions
        ⟨[.ptr (some 1), .int 0], []⟩ = .ok () h' ∧
      ((newOptions.Overwrite = true ∨
          isEmptyValue ⟨[.ptr (some 1), .int 0], []⟩
            (.addr (.ptr (.basic .Int)) 0 []) = true) →
        h'.read 0 [] = some (assignTo (.ptr (.basic .Int)) (.ptr (.basic .Int))
          (.ptr none)) ∧
        (Ty.kind (.ptr (.basic .Int)) ≠ .Interface →
          h'.read 0 [] = some (.ptr none)) ∧
        (Ty.kind (.ptr (.basic .Int)) = .Interface →
          h'.read 0 [] =
            some (.iface (some (.ptr (.basic .Int), .ptr none))))) ∧
      (¬ (newOptions.Overwrite = true ∨
          isEmptyValue ⟨[.ptr (some 1), .int 0], []⟩
            (.addr (.ptr (.basic .Int)) 0 []) = true) →
        h' = ⟨[.ptr (some 1), .int 0], []⟩) ∧
      (∀ x, Ty.kind (.ptr (.basic .Int)) = .Ptr → Val.ptr none = .ptr x →
        newOptions.Overwrite = true → h'.read 0 [] = some (.ptr x)) :=
  C23_directMerge_policy newOptions rfl rfl rfl rfl rfl rfl

/-! ## C16, C17: interface slots and custom merge functions -/

/-- C16: `deepMerge` on interface-typed slots, with no merge function
registered for the interface type: when the settable destination slot holds
nil and the source slot holds a value, the destination slot holds that value
afterwards, whatever `Overwrite` is. -/
theorem C16_nil_interface_takes_source (H : Host) (m : porter) (n : Nat)
    (o : Options) (h : Heap) (T : Ty) (a : Nat) (p : List Nat) (src : Value)
    (d : Ty × Val)
    (hk : T.kind = .Interface) (hreg : tableLookup T m.mergeFuncs = none)
    (hd : h.read a p = some (.iface none))
    (hst : src.typ = .ok T) (hs : src.load h = .ok (.iface (some d))) :
    ∃ h', m.deepMerge H (n + 1) (.addr T a p) src o h = .ok () h' ∧
      h.write a p (.iface (some d)) = some h' ∧
      h'.read a p = some (.iface (some d)) := by
  obtain ⟨h', hw⟩ := Heap.write_of_read (.iface (some d)) hd
  have hsk := Value.kind_of_typ hst
  refine ⟨h', ?_, hw, Heap.read_write hw⟩
  simp [porter.deepMerge, porter.deepMergeBody, hst, hreg, hk, Value.IsNil,
    hsk, hs, Value.load_addr hd, Value.Set, assignable_self, assignTo, hw]

theorem C16_nil_interface_takes_source_witness :
    ∃ h', newPorter.deepMerge Host.trivial 1 (.addr .iface 0 [])
        (.direct .iface (.iface (some (.basic .Int, .int 2))))
        { newOptions with Overwrite := false } ⟨[.iface none], []⟩ = .ok () h' ∧
      (⟨[.iface none], []⟩ : Heap).write 0 []
        (.iface (some (.basic .Int, .int 2))) = some h' ∧
      h'.read 0 [] = some (.iface (some (.basic .Int, .int 2))) :=
  C16_nil_interface_takes_source Host.trivial newPorter 0
    { newOptions with Overwrite := false } ⟨[.iface none], []⟩ .iface 0 []
    (.direct .iface (.iface (some (.basic .Int, .int 2)))) (.basic .Int, .int 2)
    rfl rfl rfl rfl rfl

/-- C17 (as stated, it fails): with the merge function `exTakeSrc` registered
for `interface{}`, `deepMerge` on a destination slot of that type holding nil
(which is empty) and a source slot holding `5` returns the error
"directMerge: invalid dst" although the function returns `5` and no error;
the destination is still nil. -/
theorem C17_interface_merge_func_fails :
    ({ mergeFuncs := [(.iface, exTakeSrc)], convertFuncs := [] } : porter).deepMerge
        Host.trivial 1 (.addr .iface 0 [])
        (.direct .iface (.iface (some (.basic .Int, .int 5)))) newOptions
        ⟨[.iface none], []⟩ =
      .fail (.error .directMergeInvalidDst) ⟨[.iface none], []⟩ ∧
    isEmptyValue ⟨[.iface none], []⟩ (.addr .iface 0 []) = true ∧
    exTakeSrc.impl ⟨[.iface none], []⟩ (.iface none)
        (.iface (some (.basic .Int, .int 5))) newOptions.toOptionFields =
      .returns (.iface (some (.basic .Int, .int 5))) none :=
  ⟨rfl, rfl, rfl⟩

/-- `deepMerge` with a merge function registered for the type of the two
values: the function is called and its result goes to `directMerge`. -/
theorem deepMerge_custom (H : Host) (m : porter) (n : Nat) (o : Options)
    {T : Ty} {dst src : Value} {f : Func}
    (hreg : tableLookup T m.mergeFuncs = some f)
    (hdt : dst.typ = .ok T) (hst : src.typ = .ok T) (h : Heap) :
    m.deepMerge H (n + 1) dst src o h =
      match m.callCustom f dst src o h with
      | .ok (merged, none) h1 => directMerge dst merged o h1
      | .ok (_, some e) h1 => .fail (.error (.custom e)) h1
      | .fail e h1 => .fail e h1 := by
  simp only [porter.deepMerge, porter.deepMergeBody, M.bind_apply, M.rd_apply,
    hdt, hst, ne_eq, not_true_eq_false, if_false, hreg]
  cases hc : m.callCustom f dst src o h with
  | fail e h1 => rfl
  | ok r h1 =>
    obtain ⟨merged, err⟩ := r
    cases err <;> rfl

/-- C17 (amended): with a merge function `f` registered for exactly the type
`T` of the destination and the source, `T` not an interface type,
`deepMerge` calls `f` on the two values and goes through none of the built-in
kind logic.  If `f` returns `r` and no error, the result is folded through
the assignment policy: the destination holds `r` afterwards when `Overwrite`
is set or the destination was empty, and the heap is unchanged otherwise.  If
`f` returns an error, `deepMerge` returns it and the heap is unchanged. -/
theorem C17_custom_merge_func (H : Host) (m : porter) (n : Nat) (o : Options)
    (h : Heap) (T : Ty) (a : Nat) (p : List Nat) (src : Value) (f : Func)
    (dv sv : Val)
    (hk : T.kind ≠ .Interface) (hreg : tableLookup T m.mergeFuncs = some f)
    (hf : f.typ = mergeFuncType T)
    (hd : h.read a p = some dv)
    (hst : src.typ = .ok T) (hs : src.load h = .ok sv) :
    (∀ r, f.impl h dv sv o.toOptionFields = .returns r none →
      ∃ h', h.write a p r = some h' ∧
        m.deepMerge H (n + 1) (.addr T a p) src o h =
          .ok () (if o.Overwrite = true ∨ isEmptyValue h (.addr T a p) = true
            then h' else h)) ∧
    (∀ r e, f.impl h dv sv o.toOptionFields = .returns r (some e) →
      m.deepMerge H (n + 1) (.addr T a p) src o h =
        .fail (.error (.custom e)) h) := by
  have hcall : m.callCustom f (.addr T a p) src o h =
      match f.impl h dv sv o.toOptionFields with
      | .returns r e => .ok (.direct T r, e) h
      | .panics => .fail (.panic .inFunc) h := by
    simp only [porter.callCustom, M.rd_apply, hf, mergeFuncType, Ty.ins,
      Ty.outs, Ty.underlying, Value.typ_addr, hst, assignable_self,
      Bool.and_self, if_true, Value.load_addr hd, hs, assignTo_self _ hk]
    cases f.impl h dv sv o.toOptionFields <;> rfl
  rw [deepMerge_custom H m n o hreg (Value.typ_addr T a p) hst, hcall]
  refine ⟨fun r hr => ?_, fun r e hr => ?_⟩
  · rw [hr]
    obtain ⟨h', hw, hdm⟩ := directMerge_addr o hk (Value.typ_direct T r)
      (Value.load_direct h T r) hd
    exact ⟨h', hw, hdm⟩
  · rw [hr]

theorem C17_custom_merge_func_witness :
    ∃ h', (⟨[.int 1], []⟩ : Heap).write 0 [] (.int 3) = some h' ∧
      ({ mergeFuncs := [(.basic .Int, exAddInts)], convertFuncs := [] } :
          porter).deepMerge Host.trivial 1 (.addr (.basic .Int) 0 [])
        (.direct (.basic .Int) (.int 2)) { newOptions with Overwrite := false }
        ⟨[.int 1], []⟩ =
      .ok () (if ({ newOptions with Overwrite := false } : Options).Overwrite
            = true ∨
          isEmptyValue ⟨[.int 1], []⟩ (.addr (.basic .Int) 0 []) = true
        then h' else ⟨[.int 1], []⟩) :=
  (C17_custom_merge_func Host.trivial
    { mergeFuncs := [(.basic .Int, exAddInts)], convertFuncs := [] } 0
    { newOptions with Overwrite := false } ⟨[.int 1], []⟩ (.basic .Int) 0 []
    (.direct (.basic .Int) (.int 2)) exAddInts (.int 1) (.int 2)
    (by decide) rfl rfl rfl rfl rfl).1 (.int 3) rfl

/-! ## C18, C19: convert -/

theorem trueType_of_not_iface (v : Value) {t : Ty} (hk : t.kind ≠ .Interface)
    (h : Heap) : trueType v t h = .ok (t, t.kind) h := by
  simp [trueType, hk]

/-- C18: `convert` returns the error "can not convert" and leaves the heap as
it is, whenever the types `TD`, `TS` behind the interface layers of the
destination and the source are not of pointer kind, no convert function is
registered for the pair, and the built-in conversion is disabled or
`convertible TD TS` is false.  In particular a string source does not merge
into an int destination, and with `WithoutGoConvertion` an `int32` source
does not merge into an `int` destination. -/
theorem C18_convert_error (H : Host) (m : porter) (n : Nat)
    (rec : Value → Value → Options → M Unit) (o : Options) (h : Heap)
    (dst src : Value) (TD0 TS0 TD TS : Ty)
    (hdt : dst.typ = .ok TD0) (hst : src.typ = .ok TS0)
    (hdT : trueType dst TD0 h = .ok (TD, TD.kind) h)
    (hsT : trueType src TS0 h = .ok (TS, TS.kind) h)
    (hdk : TD.kind ≠ .Ptr) (hsk : TS.kind ≠ .Ptr)
    (hreg : tableLookup (pair.mk TD TS) m.convertFuncs = none)
    (hno : o.GoConvertion = false ∨ convertible TD TS = false) :
    m.convert H n rec dst src o h = .fail (.error (.cannotConvert TS TD)) h ∧
    Merge H 3 (some (.ptr (.basic .Int), .ptr (some 0)))
        (some (.basic .String, .str "a")) [] ⟨[.int 1], []⟩ =
      .fail (.error (.cannotConvert (.basic .String) (.basic .Int)))
        ⟨[.int 1], []⟩ ∧
    Merge H 3 (some (.ptr (.basic .Int), .ptr (some 0)))
        (some (.basic .Int32, .int 2)) [.WithoutGoConvertion] ⟨[.int 1], []⟩ =
      .fail (.error (.cannotConvert (.basic .Int32) (.basic .Int)))
        ⟨[.int 1], []⟩ := by
  refine ⟨?_, rfl, rfl⟩
  have hconv : m.converter H TD TS o = none := by
    unfold porter.converter
    rw [hreg]
    rcases hno with h1 | h1 <;> simp [h1]
  simp [porter.convert, hdt, hst, hdT, hsT, hconv, hdk, hsk]

theorem C18_convert_error_witness :
    newPorter.convert Host.trivial 1 (newPorter.deepMerge Host.trivial 1)
        (.addr (.basic .Int) 0 []) (.direct (.basic .Int32) (.int 2))
        { newOptions with GoConvertion := false } ⟨[.int 1], []⟩ =
      .fail (.error (.cannotConvert (.basic .Int32) (.basic .Int)))
        ⟨[.int 1], []⟩ :=
  (C18_convert_error Host.trivial newPorter 1 (newPorter.deepMerge Host.trivial 1)
    { newOptions with GoConvertion := false } ⟨[.int 1], []⟩
    (.addr (.basic .Int) 0 []) (.direct (.basic .Int32) (.int 2))
    (.basic .Int) (.basic .Int32) (.basic .Int) (.basic .Int32)
    rfl rfl rfl rfl (by decide) (by decide) rfl (Or.inl rfl)).1

theorem numClass_signed {k : Kind} (hk : isSignedKind k = true) :
    numClass k = .signed := by
  cases k <;> simp [isSignedKind] at hk <;> rfl

theorem numClass_unsigned {k : Kind} (hk : isUnsignedKind k = true) :
    numClass k = .unsigned := by
  cases k <;> simp [isUnsignedKind] at hk <;> rfl

theorem not_signed_of_unsigned {k : Kind} (hk : isUnsignedKind k = true) :
    isSignedKind k = false := by
  cases k <;> simp [isUnsignedKind] at hk <;> rfl

theorem intBits_pos (k : Kind) : 0 < intBits k := by
  cases k <;> simp [intBits]

theorem wrapInt_of_fits {k : Kind} {i : Int}
    (h1 : -(2 ^ (intBits k - 1) : Int) ≤ i) (h2 : i < 2 ^ (intBits k - 1)) :
    wrapInt k i = i := by
  unfold wrapInt
  have hb := intBits_pos k
  have hp : (2 : Int) ^ intBits k = 2 ^ (intBits k - 1) * 2 := by
    rw [← pow_succ]
    congr 1
    omega
  have hpos : (0 : Int) < 2 ^ (intBits k - 1) := by positivity
  rw [Int.emod_eq_of_lt (by omega) (by omega)]
  omega

theorem wrapUint_of_fits {k : Kind} {i : Int}
    (h1 : 0 ≤ i) (h2 : i < 2 ^ intBits k) : (wrapUint k i : Int) = i := by
  unfold wrapUint
  rw [Int.emod_eq_of_lt h1 h2]
  exact Int.toNat_of_nonneg h1

/-- Go's conversion between integer kinds: the result is an integer value of
the destination kind, and it holds the same number as the source whenever
that number is representable in the destination kind. -/
theorem Convert_integer (H : Host) {TS TD : Ty} {sv : Val}
    (hkd : isIntegerKind TD.kind = true)
    (hsv : sv.isIntOfKind TS.kind = true) :
    ∃ c, Convert H TS sv TD = some c ∧ c.isIntOfKind TD.kind = true ∧
      ∀ i, sv.toInt = some i → intFits TD.kind i = true → c.toInt = some i := by
  unfold Convert
  unfold isIntegerKind at hkd
  rcases Bool.or_eq_true _ _ |>.mp hkd with hd | hd
  · rw [numClass_signed hd]
    cases sv <;> simp [Val.isIntOfKind] at hsv
    · rw [numClass_signed hsv]
      refine ⟨_, rfl, by simp [Val.isIntOfKind, hd], fun i hi hf => ?_⟩
      simp only [Val.toInt, Option.some.injEq] at hi ⊢
      subst hi
      simp only [intFits, hd, if_true, Bool.and_eq_true, decide_eq_true_eq] at hf
      exact wrapInt_of_fits hf.1 hf.2
    · rw [numClass_unsigned hsv]
      refine ⟨_, rfl, by simp [Val.isIntOfKind, hd], fun i hi hf => ?_⟩
      simp only [Val.toInt, Option.some.injEq] at hi ⊢
      subst hi
      simp only [intFits, hd, if_true, Bool.and_eq_true, decide_eq_true_eq] at hf
      exact wrapInt_of_fits hf.1 hf.2
  · rw [numClass_unsigned hd]
    have hns := not_signed_of_unsigned hd
    cases sv <;> simp [Val.isIntOfKind] at hsv
    · rw [numClass_signed hsv]
      refine ⟨_, rfl, by simp [Val.isIntOfKind, hd], fun i hi hf => ?_⟩
      simp only [Val.toInt, Option.some.injEq] at hi ⊢
      subst hi
      simp only [intFits, hns, Bool.false_eq_true, if_false, Bool.and_eq_true,
        decide_eq_true_eq] at hf
      exact wrapUint_of_fits hf.1 hf.2
    · rw [numClass_unsigned hsv]
      refine ⟨_, rfl, by simp [Val.isIntOfKind, hd], fun i hi hf => ?_⟩
      simp only [Val.toInt, Option.some.injEq] at hi ⊢
      subst hi
      simp only [intFits, hns, Bool.false_eq_true, if_false, Bool.and_eq_true,
        decide_eq_true_eq] at hf
      exact wrapUint_of_fits hf.1 hf.2

theorem convertible_integer {TS TD : Ty}
    (hks : isIntegerKind TS.kind = true) (hkd : isIntegerKind TD.kind = true) :
    convertible TD TS = true := by
  unfold convertible
  unfold isIntegerKind at hks hkd
  generalize TD.kind = kd at hkd
  generalize TS.kind = ks at hks
  cases ks <;> simp [isSignedKind, isUnsignedKind] at hks <;>
    cases kd <;> simp [isSignedKind, isUnsignedKind] at hkd <;> rfl

theorem isEmptyValue_integer {T : Ty} {v : Value} {h : Heap} {x : Val}
    (hk : isIntegerKind T.kind = true) (ht : v.typ = .ok T)
    (hl : v.load h = .ok x) (hx : x.isIntOfKind T.kind = true) :
    isEmptyValue h v = decide (x.toInt = some 0) := by
  unfold isEmptyValue
  rw [Value.kind_of_typ ht, hl]
  unfold isIntegerKind at hk
  generalize T.kind = k at hk hx
  cases x <;> simp [Val.isIntOfKind] at hx <;>
    cases k <;> simp [isSignedKind, isUnsignedKind] at hx <;>
    simp [Val.toInt, beq_iff_eq, Bool.beq_eq_decide_eq]

theorem isIntegerKind_not_iface {T : Ty} (hk : isIntegerKind T.kind = true) :
    T.kind ≠ .Interface ∧ T.kind ≠ .Ptr := by
  unfold isIntegerKind at hk
  generalize T.kind = k at hk
  cases k <;> simp [isSignedKind, isUnsignedKind] at hk ⊢

/-- The built-in conversion applied by `convert` to a settable destination of
type `TD` holding `dv` and a source of type `TS` holding `sv`, neither an
interface type, when `Convert` yields `c`: the converted value is assigned
when `Overwrite` is set or the destination is empty. -/
theorem convert_builtin (H : Host) (m : porter) (n : Nat)
    (rec : Value → Value → Options → M Unit) (o : Options) {h : Heap}
    {TD TS : Ty} {a : Nat} {p : List Nat} {src : Value} {dv sv c : Val}
    (hkd : TD.kind ≠ .Interface) (hks : TS.kind ≠ .Interface)
    (hreg : tableLookup (pair.mk TD TS) m.convertFuncs = none)
    (hgo : o.GoConvertion = true) (hcv : convertible TD TS = true)
    (hd : h.read a p = some dv)
    (hst : src.typ = .ok TS) (hs : src.load h = .ok sv)
    (hc : Convert H TS sv TD = some c)
    (hemp : isEmptyValue h (.direct TD dv) = isEmptyValue h (.addr TD a p)) :
    ∃ h', h.write a p c = some h' ∧
      m.convert H n rec (.addr TD a p) src o h =
        .ok () (if o.Overwrite = true ∨ isEmptyValue h (.addr TD a p) = true
          then h' else h) := by
  obtain ⟨h', hw⟩ := Heap.write_of_read c hd
  refine ⟨h', hw, ?_⟩
  have hconv : m.converter H TD TS o = some (goConvertion H) := by
    simp [porter.converter, hreg, hgo, hcv]
  have hcall : m.callCustom (goConvertion H) (.addr TD a p) src o h =
      .ok (.direct .iface
        (if o.Overwrite = true ∨ isEmptyValue h (.addr TD a p) = true
          then .iface (some (TD, c)) else .iface (some (TD, dv))), none) h := by
    simp only [porter.callCustom, M.rd_apply, goConvertion, Value.typ_addr, hst,
      Value.load_addr hd, hs]
    by_cases hcond : o.Overwrite = true ∨ isEmptyValue h (.addr TD a p) = true
    · simp [assignable, assignTo, Ty.kind, Ty.ins, Ty.outs, Ty.underlying, hkd,
        hks, hemp, hcond, hc]
    · simp [assignable, assignTo, Ty.kind, Ty.ins, Ty.outs, Ty.underlying, hkd,
        hks, hemp, hcond]
  simp only [porter.convert, M.bind_apply, M.rd_apply, Value.typ_addr, hst,
    trueType_of_not_iface _ hkd, trueType_of_not_iface _ hks, hconv, hcall]
  by_cases hcond : o.Overwrite = true ∨ isEmptyValue h (.addr TD a p) = true
  · simp only [hcond, if_true]
    obtain ⟨h2, hw2, hdm⟩ := @directMerge_eval TD TD a p
      (.direct .iface (.iface (some (TD, c)))) (.addr TD a p) (.direct TD c)
      h c dv o hd (derefInterface_of_not_iface h hkd)
      (by simp [derefInterface, derefDirect, Ty.kind,
        derefDirect_of_not_iface c hkd])
      rfl rfl rfl
    rw [assignTo_self c hkd, hw] at hw2
    injection hw2 with hw2
    subst hw2
    rw [hdm, if_pos hcond]
  · simp only [hcond, if_false]
    obtain ⟨h2, hw2, hdm⟩ := @directMerge_eval TD TD a p
      (.direct .iface (.iface (some (TD, dv)))) (.addr TD a p) (.direct TD dv)
      h dv dv o hd (derefInterface_of_not_iface h hkd)
      (by simp [derefInterface, derefDirect, Ty.kind,
        derefDirect_of_not_iface dv hkd])
      rfl rfl rfl
    rw [hdm, if_neg hcond]

/-- C19: with the built-in conversion enabled and no convert function
registered for the pair, `convert` on a settable destination of an integer
type `TD` holding `dv` and a source of an integer type `TS` holding `sv`
returns no error; when `Overwrite` is set or `dv` is 0 the destination
afterwards holds Go's conversion of `sv` to `TD` (which is the number of `sv`
itself whenever that number is representable in the kind of `TD`), and
otherwise the heap is unchanged. -/
theorem C19_integer_conversion (H : Host) (m : porter) (n : Nat)
    (rec : Value → Value → Options → M Unit) (o : Options) (h : Heap)
    (TD TS : Ty) (a : Nat) (p : List Nat) (src : Value) (dv sv : Val)
    (hkd : isIntegerKind TD.kind = true) (hks : isIntegerKind TS.kind = true)
    (hreg : tableLookup (pair.mk TD TS) m.convertFuncs = none)
    (hgo : o.GoConvertion = true)
    (hd : h.read a p = some dv) (hdv : dv.isIntOfKind TD.kind = true)
    (hst : src.typ = .ok TS) (hs : src.load h = .ok sv)
    (hsv : sv.isIntOfKind TS.kind = true) :
    ∃ c h', Convert H TS sv TD = some c ∧
      m.convert H n rec (.addr TD a p) src o h = .ok () h' ∧
      ((o.Overwrite = true ∨ dv.toInt = some 0) → h'.read a p = some c) ∧
      (¬ (o.Overwrite = true ∨ dv.toInt = some 0) → h' = h) ∧
      c.isIntOfKind TD.kind = true ∧
      (∀ i, sv.toInt = some i → intFits TD.kind i = true →
        c.toInt = some i) := by
  obtain ⟨c, hc, hck, hfit⟩ := @Convert_integer H TS TD sv hkd hsv
  have he1 := isEmptyValue_integer hkd (Value.typ_addr TD a p)
    (Value.load_addr hd) hdv
  have he2 := isEmptyValue_integer hkd (Value.typ_direct TD dv)
    (Value.load_direct h TD dv) hdv
  obtain ⟨h', hw, hcv⟩ := convert_builtin H m n rec o
    (isIntegerKind_not_iface hkd).1 (isIntegerKind_not_iface hks).1 hreg hgo
    (convertible_integer hks hkd) hd hst hs hc (he2.trans he1.symm)
  rw [he1] at hcv
  simp only [decide_eq_true_eq] at hcv
  by_cases hcond : o.Overwrite = true ∨ dv.toInt = some 0
  · rw [if_pos hcond] at hcv
    exact ⟨c, h', hc, hcv, fun _ => Heap.read_write hw,
      fun hn => absurd hcond hn, hck, hfit⟩
  · rw [if_neg hcond] at hcv
    exact ⟨c, h, hc, hcv, fun hy => absurd hy hcond, fun _ => rfl, hck, hfit⟩

theorem C19_integer_conversion_witness :
    ∃ c h', Convert Host.trivial (.basic .Int) (.int 2)
          (.named "tempInt" (.basic .Int32)) = some c ∧
      newPorter.convert Host.trivial 1 (newPorter.deepMerge Host.trivial 1)
        (.addr (.named "tempInt" (.basic .Int32)) 0 [])
        (.direct (.basic .Int) (.int 2)) newOptions ⟨[.int 1], []⟩ = .ok () h' ∧
      ((newOptions.Overwrite = true ∨ (Val.int 1).toInt = some 0) →
        h'.read 0 [] = some c) ∧
      (¬ (newOptions.Overwrite = true ∨ (Val.int 1).toInt = some 0) →
        h' = ⟨[.int 1], []⟩) ∧
      c.isIntOfKind (Ty.kind (.named "tempInt" (.basic .Int32))) = true ∧
      (∀ i, (Val.int 2).toInt = some i →
        intFits (Ty.kind (.named "tempInt" (.basic .Int32))) i = true →
        c.toInt = some i) :=
  C19_integer_conversion Host.trivial newPorter 1
    (newPorter.deepMerge Host.trivial 1) newOptions ⟨[.int 1], []⟩
    (.named "tempInt" (.basic .Int32)) (.basic .Int) 0 []
    (.direct (.basic .Int) (.int 2)) (.int 1) (.int 2)
    rfl rfl rfl rfl rfl rfl rfl rfl rfl

/-! ## C26: maps of structs -/

/-- C26 (the code misses what the claim states): with `Overwrite` set,
merging the map `{"k": S{N: 2}}` onto the map `{"k": S{N: 1}}` returns no
error and changes nothing: the destination's entry under `"k"` is still
`S{N: 1}`, whose field `N` differs from the field `N` of the source's entry.
The entry `deepMerge` recurses against is the copy `MapIndex` returns, which
is not settable, and it is not stored back. -/
theorem C26_struct_entry_not_merged :
    newPorter.deepMerge Host.trivial 3 (.addr exMapStruct 0 [])
        (.direct exMapStruct (.map (some 1))) newOptions exHeapStruct =
      .ok () exHeapStruct ∧
    newOptions.Overwrite = true ∧
    mapLookup (.str "k") [(.str "k", .struct [.int 1])] =
      some (.struct [.int 1]) ∧
    mapLookup (.str "k") [(.str "k", .struct [.int 2])] =
      some (.struct [.int 2]) ∧
    (Val.struct [.int 1]).getPath [0] ≠ (Val.struct [.int 2]).getPath [0] :=
  ⟨rfl, rfl, rfl, rfl, by decide⟩

/-- `deepMerge` on a destination of scalar kind that is not settable: nothing
is assigned. -/
theorem deepMerge_direct_scalar (H : Host) (m : porter) (n : Nat) (o : Options)
    {T : Ty} (dv sv : Val) (h : Heap)
    (hk : isScalarKind T.kind = true)
    (hreg : tableLookup T m.mergeFuncs = none) :
    m.deepMerge H (n + 1) (.direct T dv) (.direct T sv) o h = .ok () h := by
  have hki : T.kind ≠ .Interface := by
    intro hc; rw [hc] at hk; simp [isScalarKind] at hk
  have hdm : directMerge (.direct T dv) (.direct T sv) o h = .ok () h := by
    simp [directMerge, derefInterface, derefDirect_of_not_iface, hki]
  have : m.deepMerge H (n + 1) (.direct T dv) (.direct T sv) o h =
      directMerge (.direct T dv) (.direct T sv) o h := by
    simp only [porter.deepMerge, porter.deepMergeBody, M.bind_apply, M.rd_apply,
      Value.typ_direct, ne_eq, not_true_eq_false, if_false, hreg,
      Value.kind_direct]
    generalize T.kind = k at hk
    cases k <;> simp [isScalarKind] at hk <;> rfl
  rw [this, hdm]

theorem mergeFields_direct (H : Host) (m : porter) (n : Nat) (o : Options)
    (E : Ty) (dfs sfs : List Val) (hk : E.kind = .Struct)
    (hdl : dfs.length = E.fields.length) (hsl : sfs.length = E.fields.length)
    (hsc : ∀ f ∈ E.fields, isScalarKind f.2.2.kind = true ∧
      tableLookup f.2.2 m.mergeFuncs = none)
    (is : List Nat) (his : ∀ i ∈ is, i < E.fields.length) (h : Heap) :
    mergeFields (m.deepMerge H (n + 1)) (.direct E (.struct dfs))
      (.direct E (.struct sfs)) o is h = .ok () h := by
  induction is with
  | nil => rfl
  | cons i is ih =>
    have hi := his i (List.mem_cons_self _ _)
    have hf : E.fields[i]? = some E.fields[i] := List.getElem?_eq_getElem hi
    obtain ⟨hs1, hs2⟩ := hsc E.fields[i] (List.getElem_mem hi)
    obtain ⟨dx, hd⟩ : ∃ x, dfs[i]? = some x :=
      ⟨_, List.getElem?_eq_getElem (by omega)⟩
    obtain ⟨sx, hs⟩ : ∃ x, sfs[i]? = some x :=
      ⟨_, List.getElem?_eq_getElem (by omega)⟩
    have hfd : (Value.direct E (.struct dfs)).Field i =
        .ok (.direct E.fields[i].2.2 dx) := by
      simp [Value.Field, hk, hf, hd]
    have hfs : (Value.direct E (.struct sfs)).Field i =
        .ok (.direct E.fields[i].2.2 sx) := by
      simp [Value.Field, hk, hf, hs]
    simp only [mergeFields, M.bind_apply, M.rd_apply, hfd, hfs,
      deepMerge_direct_scalar H m n o _ _ h hs1 hs2]
    exact ih (fun j hj => his j (List.mem_cons_of_mem _ hj))

/-- `deepMerge` on a struct value that is not settable, all of whose fields
are exported and of scalar kind: nothing is assigned. -/
theorem deepMerge_direct_struct (H : Host) (m : porter) (n : Nat) (o : Options)
    (E : Ty) (dfs sfs : List Val) (hk : E.kind = .Struct)
    (hex : hasUnexportedField E = false)
    (hreg : tableLookup E m.mergeFuncs = none)
    (hdl : dfs.length = E.fields.length) (hsl : sfs.length = E.fields.length)
    (hsc : ∀ f ∈ E.fields, isScalarKind f.2.2.kind = true ∧
      tableLookup f.2.2 m.mergeFuncs = none) (h : Heap) :
    m.deepMerge H (n + 2) (.direct E (.struct dfs)) (.direct E (.struct sfs))
      o h = .ok () h := by
  rw [deepMerge_struct_exported H m (n + 1) o E (.direct E (.struct dfs))
    (.direct E (.struct sfs)) hk hex hreg rfl rfl]
  exact mergeFields_direct H m n o E dfs sfs hk hdl hsl hsc _
    (fun i hi => List.mem_range.mp hi) h

/-- The key loop body for a key that `dst` lacks, the entry of `src` being of
the element type itself (not behind an interface): it is stored. -/
theorem mergeMapKey_absent_plain (H : Host) (m : porter) (n : Nat)
    (rec : Value → Value → Options → M Unit) (o : Options)
    {h : Heap} {T E : Ty} {a : Nat} {p : List Nat}
    {src : Value} {rd rs : Nat} {md smap : List (Key × Val)}
    (c : MapCtx h T E a p src rd rs md smap) (key : Key) {xs : Val}
    (hE : E.kind ≠ .Interface)
    (hxs : mapLookup key smap = some xs) (hd : mapLookup key md = none) :
    mergeMapKey H m n rec (.addr T a p) src o key h =
      .ok () (h.setMap rd (mapInsert key xs md)) := by
  have h1 := c.srcEntry key
  have h2 := c.dstEntry key
  simp only [hxs, derefDirect_of_not_iface xs hE] at h1
  simp only [hd] at h2
  have h3 := @MapCtx.setMapIndex _ _ _ _ _ _ _ _ _ _ c key (.direct E xs) _ _
    rfl rfl (assignable_self E)
  rw [assignTo_self xs hE] at h3
  simp [mergeMapKey, h1, h2, h3]

/-- The key loop body for a key that `dst` has, with struct entries on both
sides: the entries of a map are not settable, so nothing is assigned. -/
theorem mergeMapKey_struct (H : Host) (m : porter) (n : Nat) (o : Options)
    {h : Heap} {T E : Ty} {a : Nat} {p : List Nat}
    {src : Value} {rd rs : Nat} {md smap : List (Key × Val)}
    (c : MapCtx h T E a p src rd rs md smap) (hE : StructOfScalars m E)
    (key : Key) {xs xd : Val}
    (hxs : mapLookup key smap = some xs) (hs : xs.isStructOf E)
    (hd : mapLookup key md = some xd) (hds : xd.isStructOf E) :
    mergeMapKey H m (n + 2) (m.deepMerge H (n + 2)) (.addr T a p) src o key h =
      .ok () h := by
  obtain ⟨hk, hex, hreg, hsc⟩ := hE
  obtain ⟨sfs, rfl, hsl⟩ := hs
  obtain ⟨dfs, rfl, hdl⟩ := hds
  have hEi : E.kind ≠ .Interface := by simp [hk]
  have h1 := c.srcEntry key
  have h2 := c.dstEntry key
  simp only [hxs, derefDirect_of_not_iface _ hEi] at h1
  simp only [hd, derefDirect_of_not_iface _ hEi] at h2
  have hmip : mergedInPlace E.kind = true := by simp [mergedInPlace, hk]
  simp [mergeMapKey, h1, h2, hmip,
    deepMerge_direct_struct H m n o E dfs sfs hk hex hreg hdl hsl hsc]

/-- The key loop over struct entries: a key the destination has keeps its
entry, a key it lacks gets the entry of the source. -/
theorem mergeMapKeys_struct (H : Host) (m : porter) (n : Nat) (o : Options)
    (T E : Ty) (a : Nat) (p : List Nat) (src : Value) (rd rs : Nat)
    (smap : List (Key × Val)) (hE : StructOfScalars m E)
    (hsm : ∀ k xs, mapLookup k smap = some xs → xs.isStructOf E)
    (ks : List Key) (hnd : ks.Nodup)
    (hks : ∀ k ∈ ks, ∃ xs, mapLookup k smap = some xs) :
    ∀ (h : Heap) (md : List (Key × Val)),
      MapCtx h T E a p src rd rs md smap →
      (∀ k xd, mapLookup k md = some xd → xd.isStructOf E) →
      ∃ h' md', mergeMapKeys H m (n + 2) (m.deepMerge H (n + 2))
          (.addr T a p) src o ks h = .ok () h' ∧
        h'.cells = h.cells ∧ h'.maps = h.maps.set rd md' ∧
        ∀ k, mapLookup k md' =
          if k ∈ ks then keptEntry (mapLookup k smap) (mapLookup k md)
          else mapLookup k md := by
  have hEi : E.kind ≠ .Interface := by simp [hE.1]
  induction ks with
  | nil =>
    intro h md c _
    exact ⟨h, md, rfl, rfl, (list_set_self c.dmap).symm, fun k => by simp⟩
  | cons key ks ih =>
    intro h md c hmd
    have hnd' : ks.Nodup := (List.nodup_cons.mp hnd).2
    have hkey : key ∉ ks := (List.nodup_cons.mp hnd).1
    obtain ⟨xs, hxs⟩ := hks key (List.mem_cons_self _ _)
    have hrd : rd < h.maps.length := by
      rcases List.getElem?_eq_some_iff.mp c.dmap with ⟨hi, _⟩; exact hi
    have hstep : ∃ h1 md1, mergeMapKey H m (n + 2) (m.deepMerge H (n + 2))
        (.addr T a p) src o key h = .ok () h1 ∧ h1.cells = h.cells ∧
        h1.maps = h.maps.set rd md1 ∧
        (md1 = mapInsert key xs md ∨ md1 = md) ∧
        mapLookup key md1 = keptEntry (mapLookup key smap) (mapLookup key md) := by
      cases hd : mapLookup key md with
      | none =>
        refine ⟨_, mapInsert key xs md,
          mergeMapKey_absent_plain H m (n + 2) _ o c key hEi hxs hd,
          rfl, rfl, Or.inl rfl, ?_⟩
        simp [mapLookup_mapInsert, hxs, keptEntry]
      | some xd =>
        refine ⟨h, md, mergeMapKey_struct H m n o c hE key hxs (hsm _ _ hxs) hd
          (hmd _ _ hd), rfl, (list_set_self c.dmap).symm, Or.inr rfl, ?_⟩
        simp [hd, keptEntry]
    obtain ⟨h1, md1, hm1, hcells1, hmaps1, hmd1, hlk1⟩ := hstep
    have hext1 : Extends h h1 := Extends.ext_of_cells hcells1
    have hother : ∀ k, k ≠ key → mapLookup k md1 = mapLookup k md := by
      intro k hk
      rcases hmd1 with e | e
      · rw [e, mapLookup_mapInsert, if_neg (Ne.symm hk)]
      · rw [e]
    have c1 : MapCtx h1 T E a p src rd rs md1 smap :=
      { kind := c.kind, elem := c.elem, dst := hext1 _ _ _ c.dst,
        styp := c.styp, sload := hext1.load c.sload,
        dmap := by rw [hmaps1]; simp [hrd],
        smap := by
          rw [hmaps1]
          by_cases hrs : rd = rs
          · subst hrs
            have e : md = smap := by
              have := c.dmap; rw [c.smap] at this; injection this with this
              exact this.symm
            have : md1 = smap := by
              rcases hmd1 with e1 | e1
              · rw [e1, e, mapInsert_self hxs]
              · rw [e1, e]
            simp [hrd, this]
          · rw [List.getElem?_set_ne hrs]; exact c.smap }
    have hmd1' : ∀ k xd, mapLookup k md1 = some xd → xd.isStructOf E := by
      intro k xd hxd
      by_cases hk : k = key
      · subst hk
        rw [hlk1] at hxd
        cases hd : mapLookup k md with
        | none =>
          rw [hd] at hxd
          simp only [keptEntry] at hxd
          exact hsm _ _ hxd
        | some y =>
          rw [hd] at hxd
          simp only [keptEntry, Option.some.injEq] at hxd
          subst hxd
          exact hmd _ _ hd
      · rw [hother k hk] at hxd
        exact hmd _ _ hxd
    obtain ⟨h', md', hm', hcells', hmaps', hlk'⟩ :=
      ih hnd' (fun k hk => hks k (List.mem_cons_of_mem _ hk)) h1 md1 c1 hmd1'
    refine ⟨h', md', ?_, hcells'.trans hcells1, ?_, fun k => ?_⟩
    · simp only [mergeMapKeys, M.bind_apply, hm1]
      exact hm'
    · rw [hmaps', hmaps1, List.set_set]
    · rw [hlk' k]
      by_cases hk : k = key
      · subst hk
        simp [hkey, hlk1]
      · have : (k ∈ key :: ks) ↔ k ∈ ks := by simp [hk]
        simp only [this, hother k hk]

/-- What the code does for maps whose values are structs with only exported scalar
fields (no merge function registered for the types involved): for either
setting of `Overwrite`, `deepMerge` on a settable non-nil destination map and
a non-nil source map returns no error, and every key present in both maps
keeps the destination's entry as it was: the entries of a map are not
settable, so the merge of their fields assigns nothing.  (A key the
destination lacks gets the source's entry, every other key of the
destination keeps its entry, and no variable is written.) -/
theorem deepMerge_struct_entries_unchanged (H : Host) (m : porter) (n : Nat)
    (o : Options) {h : Heap} {T E : Ty} {a : Nat} {p : List Nat} {src : Value}
    {rd rs : Nat} {dmap smap : List (Key × Val)}
    (hk : T.kind = .Map) (he : T.elem = some E) (hE : StructOfScalars m E)
    (hreg : tableLookup T m.mergeFuncs = none)
    (hd : h.read a p = some (.map (some rd)))
    (hdm : h.maps[rd]? = some dmap)
    (hst : src.typ = .ok T) (hsl : src.load h = .ok (.map (some rs)))
    (hsm : h.maps[rs]? = some smap)
    (hnd : (smap.map (fun e => e.1)).Nodup)
    (hsv : ∀ k xs, mapLookup k smap = some xs → xs.isStructOf E)
    (hdv : ∀ k xd, mapLookup k dmap = some xd → xd.isStructOf E) :
    ∃ h' md, m.deepMerge H (n + 3) (.addr T a p) src o h = .ok () h' ∧
      h'.cells = h.cells ∧ h'.maps[rd]? = some md ∧
      (∀ k xs xd, mapLookup k smap = some xs → mapLookup k dmap = some xd →
        mapLookup k md = some xd) ∧
      (∀ k, mapLookup k md =
        keptEntry (mapLookup k smap) (mapLookup k dmap)) := by
  have c : MapCtx h T E a p src rd rs dmap smap :=
    ⟨hk, he, hd, hst, hsl, hdm, hsm⟩
  have hsk := Value.kind_of_typ hst
  have hskm : src.kind = .Map := by rw [hsk, hk]
  have hsn : src.IsNil h = .ok false := by simp [Value.IsNil, hskm, hsl]
  have hdn : (Value.addr T a p).IsNil h = .ok false := by
    simp [Value.IsNil, hk, Value.load_addr hd]
  have hkeys : src.MapKeys h = .ok (smap.map (fun e => e.1)) := by
    simp [Value.MapKeys, hskm, hsl, hsm]
  have hdeep : m.deepMerge H (n + 3) (.addr T a p) src o h =
      mergeMapKeys H m (n + 2) (m.deepMerge H (n + 2)) (.addr T a p) src o
        (smap.map (fun e => e.1)) h := by
    simp [porter.deepMerge, porter.deepMergeBody, hst, hreg, hk, hsn, hdn,
      hkeys]
  obtain ⟨h', md', hm, hcells, hmaps, hlk⟩ :=
    mergeMapKeys_struct H m n o T E a p src rd rs smap hE hsv _ hnd
      (fun k hk => (mapLookup_isSome_iff k smap).mpr hk) h dmap c hdv
  have hrd : rd < h.maps.length := by
    rcases List.getElem?_eq_some_iff.mp hdm with ⟨hi, _⟩; exact hi
  have hres : ∀ k, mapLookup k md' =
      keptEntry (mapLookup k smap) (mapLookup k dmap) := by
    intro k
    rw [hlk k]
    by_cases hk : k ∈ smap.map (fun e => e.1)
    · simp [hk]
    · have hn : mapLookup k smap = none := by
        cases hl : mapLookup k smap with
        | none => rfl
        | some v => exact absurd ((mapLookup_isSome_iff k smap).mp ⟨v, hl⟩) hk
      simp only [hk, if_false, hn, keptEntry]
      cases mapLookup k dmap <;> rfl
  refine ⟨h', md', by rw [hdeep]; exact hm, hcells, by rw [hmaps]; simp [hrd],
    fun k xs xd _ hxd => ?_, hres⟩
  rw [hres k, hxd]
  rfl

theorem deepMerge_struct_entries_unchanged_example :
    ∃ h' md, newPorter.deepMerge Host.trivial 3 (.addr exMapStruct 0 [])
        (.direct exMapStruct (.map (some 1))) newOptions exHeapStruct =
          .ok () h' ∧
      h'.cells = exHeapStruct.cells ∧ h'.maps[0]? = some md ∧
      (∀ k xs xd, mapLookup k [(.str "k", .struct [.int 2])] = some xs →
        mapLookup k [(.str "k", .struct [.int 1])] = some xd →
        mapLookup k md = some xd) ∧
      (∀ k, mapLookup k md =
        keptEntry (mapLookup k [(.str "k", .struct [.int 2])])
          (mapLookup k [(.str "k", .struct [.int 1])])) :=
  @deepMerge_struct_entries_unchanged Host.trivial newPorter 0 newOptions exHeapStruct
    exMapStruct exS 0 [] (.direct exMapStruct (.map (some 1))) 0 1
    [(.str "k", .struct [.int 1])] [(.str "k", .struct [.int 2])]
    rfl rfl
    ⟨rfl, rfl, rfl, fun f hf => by
      simp [exS, Ty.fields, Ty.underlying] at hf; subst hf; exact ⟨rfl, rfl⟩⟩
    rfl rfl rfl rfl rfl rfl (by decide)
    (fun k xs hxs => by
      simp only [mapLookup] at hxs
      split at hxs
      · injection hxs with hxs; subst hxs; exact ⟨_, rfl, rfl⟩
      · cases hxs)
    (fun k xd hxd => by
      simp only [mapLookup] at hxd
      split at hxd
      · injection hxd with hxd; subst hxd; exact ⟨_, rfl, rfl⟩
      · cases hxd)

/-! ## C27, C28: nil entries and nil pointers -/

/-- C27 (the code fails it): merging the map `{"k": nil}` onto the map
`{"k": 1}` (both `map[string]interface{}`) panics: `deepMerge` calls `Type()`
on the zero Value it got for the nil entry of the source.  And merging
`{"k": nil}` onto `{"k": nil}` deletes the key `"k"` from the
destination. -/
theorem C27_nil_source_entry_panics (H : Host) :
    Merge H 3 (some (.ptr exMapSI, .ptr (some 0)))
        (some (exMapSI, .map (some 1))) [] exHeapNilEntry =
      .fail (.panic .zeroValue) exHeapNilEntry ∧
    Merge H 3 (some (.ptr exMapSI, .ptr (some 0)))
        (some (exMapSI, .map (some 1))) []
        ⟨[.map (some 0)], [[(.str "k", .iface none)], [(.str "k", .iface none)]]⟩ =
      .ok () ⟨[.map (some 0)], [[], [(.str "k", .iface none)]]⟩ :=
  ⟨rfl, rfl⟩

/-- C28 (the code fails it): `convert` on a nil destination pointer of type
`*int` and a source of type `int32` (no convert function registered, built-in
conversion enabled, `Overwrite` set) panics: `derefPtr` yields the zero Value
for the nil pointer and `convert` calls `Type()` on it; nothing is
allocated.  `Merge` reaches this with the maps `{"k": (*int)(nil)}` and
`{"k": int32(2)}`. -/
theorem C28_convert_nil_pointer_panics (H : Host) :
    newPorter.convert H 3 (newPorter.deepMerge H 3)
        (.addr (.ptr (.basic .Int)) 0 []) (.direct (.basic .Int32) (.int 2))
        newOptions ⟨[.ptr none], []⟩ =
      .fail (.panic .zeroValue) ⟨[.ptr none], []⟩ ∧
    derefPtr ⟨[.ptr none], []⟩ 3 (.addr (.ptr (.basic .Int)) 0 []) =
      .ok .invalid ∧
    Merge H 3 (some (.ptr exMapSI, .ptr (some 0)))
        (some (exMapSI, .map (some 1))) [] exHeapNilPtrEntry =
      .fail (.panic .zeroValue) exHeapNilPtrEntry :=
  ⟨rfl, rfl, rfl⟩

/-! ## C29, C30: convert through pointers, nil sources -/

set_option maxRecDepth 8000 in
/-- C29: `convert` through pointers.  When no conversion is found for the
types `TD`, `TS` behind the interface layers of the two sides and one of them
is of pointer kind, `convert` dereferences both sides completely (to `dE` of
type `TDE` and `sE` of type `TSE`) and works on those: equal types go to
`deepMerge`; for different types a conversion found for `(TDE, TSE)` is
called and its result assigned through `directMerge`, and without one
`convert` returns the error naming the four types.  With the built-in
conversion and `Overwrite` set: for a destination `*int` pointing to 1 and a
source `*int32` pointing to 2 the destination's pointee becomes 2 and the
destination pointer stays what it was; for a destination `int` 1 and a source
`*int` pointing to 2 the destination becomes 2. -/
theorem C29_convert_through_pointers (H : Host) (m : porter) (n : Nat)
    (rec : Value → Value → Options → M Unit) (o : Options) (h : Heap)
    (dst src dE sE : Value) (TD0 TS0 TD TS TDE TSE : Ty) (KD KS : Kind)
    (hdt : dst.typ = .ok TD0) (hst : src.typ = .ok TS0)
    (hdT : trueType dst TD0 h = .ok (TD, KD) h)
    (hsT : trueType src TS0 h = .ok (TS, KS) h)
    (hconv : m.converter H TD TS o = none) (hptr : KD = .Ptr ∨ KS = .Ptr)
    (hdd : derefPtr h n dst = .ok dE) (hsd : derefPtr h n src = .ok sE)
    (hdet : dE.typ = .ok TDE) (hset : sE.typ = .ok TSE) :
    (TDE = TSE → m.convert H n rec dst src o h = rec dE sE o h) ∧
    (TDE ≠ TSE → ∀ cv, m.converter H TDE TSE o = some cv →
      m.convert H n rec dst src o h =
        match m.callCustom cv dE sE o h with
        | .ok (converted, none) h1 => directMerge dE converted o h1
        | .ok (_, some e) h1 => .fail (.error (.custom e)) h1
        | .fail e h1 => .fail e h1) ∧
    (TDE ≠ TSE → m.converter H TDE TSE o = none →
      m.convert H n rec dst src o h =
        .fail (.error (.cannotConvertElem TS TD TSE TDE)) h) ∧
    newPorter.convert H 3 (newPorter.deepMerge H 3)
        (.addr (.ptr (.basic .Int)) 0 [])
        (.direct (.ptr (.basic .Int32)) (.ptr (some 2))) newOptions
        ⟨[.ptr (some 1), .int 1, .int 2], []⟩ =
      .ok () ⟨[.ptr (some 1), .int 2, .int 2], []⟩ ∧
    newPorter.convert H 3 (newPorter.deepMerge H 3)
        (.addr (.basic .Int) 0 [])
        (.direct (.ptr (.basic .Int)) (.ptr (some 1))) newOptions
        ⟨[.int 1, .int 2], []⟩ =
      .ok () ⟨[.int 2, .int 2], []⟩ := by
  have hbase : m.convert H n rec dst src o h =
      if TDE ≠ TSE then
        match m.converter H TDE TSE o with
        | some cv =>
          match m.callCustom cv dE sE o h with
          | .ok (converted, none) h1 => directMerge dE converted o h1
          | .ok (_, some e) h1 => .fail (.error (.custom e)) h1
          | .fail e h1 => .fail e h1
        | none => .fail (.error (.cannotConvertElem TS TD TSE TDE)) h
      else rec dE sE o h := by
    simp only [porter.convert, M.bind_apply, M.rd_apply, hdt, hst, hdT, hsT,
      hconv, hptr, if_true, hdd, hsd, hdet, hset]
    by_cases hne : TDE = TSE
    · simp [hne]
    · simp only [ne_eq, hne, not_false_eq_true, if_true]
      cases hcv : m.converter H TDE TSE o with
      | none => rfl
      | some cv =>
        simp only [M.bind_apply]
        cases hc : m.callCustom cv dE sE o h with
        | fail e h1 => rfl
        | ok r h1 =>
          obtain ⟨converted, err⟩ := r
          cases err <;> rfl
  refine ⟨fun he => ?_, fun hne cv hcv => ?_, fun hne hcv => ?_, rfl, rfl⟩
  · rw [hbase, if_neg (not_not.mpr he)]
  · rw [hbase, if_pos hne, hcv]
  · rw [hbase, if_pos hne, hcv]

theorem C29_convert_through_pointers_witness :
    newPorter.convert Host.trivial 3 (newPorter.deepMerge Host.trivial 3)
        (.addr (.ptr (.basic .Int)) 0 [])
        (.direct (.ptr (.basic .Int32)) (.ptr (some 2))) newOptions
        ⟨[.ptr (some 1), .int 1, .int 2], []⟩ =
      match newPorter.callCustom (goConvertion Host.trivial)
          (.addr (.basic .Int) 1 []) (.addr (.basic .Int32) 2 []) newOptions
          ⟨[.ptr (some 1), .int 1, .int 2], []⟩ with
      | .ok (converted, none) h1 =>
        directMerge (.addr (.basic .Int) 1 []) converted newOptions h1
      | .ok (_, some e) h1 => .fail (.error (.custom e)) h1
      | .fail e h1 => .fail e h1 :=
  (C29_convert_through_pointers Host.trivial newPorter 3
    (newPorter.deepMerge Host.trivial 3) newOptions
    ⟨[.ptr (some 1), .int 1, .int 2], []⟩
    (.addr (.ptr (.basic .Int)) 0 [])
    (.direct (.ptr (.basic .Int32)) (.ptr (some 2)))
    (.addr (.basic .Int) 1 []) (.addr (.basic .Int32) 2 [])
    (.ptr (.basic .Int)) (.ptr (.basic .Int32))
    (.ptr (.basic .Int)) (.ptr (.basic .Int32))
    (.basic .Int) (.basic .Int32) .Ptr .Ptr
    rfl rfl rfl rfl rfl (Or.inl rfl) rfl rfl rfl rfl).2.1 (by decide)
    (goConvertion Host.trivial) rfl

theorem deepMerge_nil_source (H : Host) (m : porter) (n : Nat) (o : Options)
    {T : Ty} {dst src : Value} {h : Heap}
    (hk : T.kind = .Map ∨ T.kind = .Slice ∨ T.kind = .Ptr ∨
      T.kind = .Interface)
    (hreg : tableLookup T m.mergeFuncs = none)
    (hdt : dst.typ = .ok T) (hst : src.typ = .ok T)
    (hnil : src.IsNil h = .ok true) :
    m.deepMerge H (n + 1) dst src o h = .ok () h := by
  rcases hk with hk | hk | hk | hk <;>
    simp [porter.deepMerge, porter.deepMergeBody, hdt, hst, hreg,
      Value.kind_of_typ hdt, hk, hnil]

/-! ## C15: pointers -/

/-- Why the object graph has to be acyclic for the pointer case: on the cyclic
heap `exHeapCyc`, `deepMerge` on the destination pointer `s1.P` (which is
`&di`) and the distinct source pointer `&si`, both of type `*interface{}`,
returns no error and leaves the destination pointer identical to the source
pointer: the merge of the pointees reaches `s1` through the pointer held in
`di` and assigns the struct held in `si` to it as a whole, field `P`
included. -/
theorem deepMerge_cyclic_pointer_aliased :
    exHeapCyc.read 0 [0] = some (.ptr (some 1)) ∧
    newPorter.deepMerge Host.trivial 4 (.addr (.ptr .iface) 0 [0])
        (.direct (.ptr .iface) (.ptr (some 2))) newOptions exHeapCyc =
      .ok () ⟨[.struct [.ptr (some 2), .int 0],
        .iface (some (.ptr exCyc, .ptr (some 0))),
        .iface (some (exCyc, .struct [.ptr (some 2), .int 0]))], []⟩ ∧
    (newPorter.deepMerge Host.trivial 4 (.addr (.ptr .iface) 0 [0])
        (.direct (.ptr .iface) (.ptr (some 2))) newOptions
        exHeapCyc).heap.read 0 [0] = some (.ptr (some 2)) :=
  ⟨rfl, rfl, rfl⟩

theorem Heap.read_write_other {h h' : Heap} {a a' : Nat} {p : List Nat}
    {x : Val} (hw : h.write a p x = some h') (hne : a' ≠ a) (p' : List Nat) :
    h'.read a' p' = h.read a' p' := by
  unfold Heap.write at hw
  cases hc : h.cells[a]? with
  | none => simp [hc] at hw
  | some c =>
    simp only [hc] at hw
    cases hsp : c.setPath p x with
    | none => simp [hsp] at hw
    | some c' =>
      simp only [hsp, Option.some.injEq] at hw
      subst hw
      simp only [Heap.read, List.getElem?_set_ne (Ne.symm hne)]

theorem Heap.write_cells_length {h h' : Heap} {a : Nat} {p : List Nat}
    {x : Val} (hw : h.write a p x = some h') :
    h'.cells.length = h.cells.length ∧ h'.maps = h.maps := by
  unfold Heap.write at hw
  cases hc : h.cells[a]? with
  | none => simp [hc] at hw
  | some c =>
    simp only [hc] at hw
    cases hsp : c.setPath p x with
    | none => simp [hsp] at hw
    | some c' =>
      simp only [hsp, Option.some.injEq] at hw
      subst hw
      simp

theorem Heap.read_lt {h : Heap} {a : Nat} {p : List Nat} {v : Val}
    (hr : h.read a p = some v) : a < h.cells.length := by
  unfold Heap.read at hr
  cases hc : h.cells[a]? with
  | none => simp [hc] at hr
  | some c => exact (List.getElem?_eq_some_iff.mp hc).1

/-- The pointer case of `deepMerge` on a settable, non-nil destination
pointer of type `*E` and a non-nil source pointer: the destination pointer is
not written, the pointees are merged. -/
theorem deepMerge_ptr_nonnil (H : Host) (m : porter) (o : Options)
    {h : Heap} {E : Ty} {a : Nat} {p : List Nat} {src : Value} {d sa : Nat}
    (hreg : tableLookup (.ptr E) m.mergeFuncs = none)
    (hd : h.read a p = some (.ptr (some d)))
    (hst : src.typ = .ok (.ptr E)) (hsl : src.load h = .ok (.ptr (some sa)))
    (k : Nat) :
    m.deepMerge H (k + 1) (.addr (.ptr E) a p) src o h =
      m.deepMerge H k (.addr E d []) (.addr E sa []) o h := by
  have hsk : src.kind = .Ptr := by rw [Value.kind_of_typ hst]; rfl
  have hsn : src.IsNil h = .ok false := by simp [Value.IsNil, hsk, hsl]
  have hse : src.Elem h = .ok (.addr E sa []) := by
    simp [Value.Elem, hsk, hsl, hst, Ty.elem, Ty.underlying]
  have hdn : (Value.addr (.ptr E) a p).IsNil h = .ok false := by
    simp [Value.IsNil, Ty.kind, Value.load_addr hd]
  have hde : (Value.addr (.ptr E) a p).Elem h = .ok (.addr E d []) := by
    simp [Value.Elem, Ty.kind, Value.load_addr hd, Ty.elem, Ty.underlying]
  simp [porter.deepMerge, porter.deepMergeBody, hst, hreg, Ty.kind, hsn, hdn,
    hde, hse]

/-- The pointer case of `deepMerge` on a settable, nil destination pointer of
type `*E` and a non-nil source pointer: the destination is set to a pointer
to a new cell holding the zero value of `E`, then the pointees are merged. -/
theorem deepMerge_ptr_nil (H : Host) (m : porter) (o : Options)
    {h : Heap} {E : Ty} {a : Nat} {p : List Nat} {src : Value} {sa : Nat}
    (hreg : tableLookup (.ptr E) m.mergeFuncs = none)
    (hd : h.read a p = some (.ptr none))
    (hst : src.typ = .ok (.ptr E)) (hsl : src.load h = .ok (.ptr (some sa))) :
    ∃ h1, (h.alloc E.zero).1.write a p (.ptr (some h.cells.length)) = some h1 ∧
      ∀ k, m.deepMerge H (k + 1) (.addr (.ptr E) a p) src o h =
        m.deepMerge H k (.addr E h.cells.length []) (.addr E sa []) o h1 := by
  have hsk : src.kind = .Ptr := by rw [Value.kind_of_typ hst]; rfl
  have hsn : src.IsNil h = .ok false := by simp [Value.IsNil, hsk, hsl]
  have hd0 : (h.alloc E.zero).1.read a p = some (.ptr none) :=
    Extends.append (h := h) rfl _ _ _ hd
  obtain ⟨h1, hw⟩ := Heap.write_of_read (.ptr (some h.cells.length)) hd0
  refine ⟨h1, hw, fun k => ?_⟩
  have hsl1 : src.load h1 = .ok (.ptr (some sa)) := by
    cases src with
    | invalid => simp [Value.load] at hsl
    | direct t y => exact hsl
    | addr t b q =>
      have hrb : h.read b q = some (.ptr (some sa)) := by
        simp only [Value.load] at hsl
        cases hr : h.read b q with
        | none => simp [hr] at hsl
        | some y => simp [hr] at hsl; rw [hsl]
      refine Value.load_addr (Heap.read_write_frame hw hd0 rfl
        (Extends.append (h := h) rfl _ _ _ hrb) rfl ?_)
      rintro ⟨rfl, rfl⟩
      rw [hd] at hrb
      cases hrb
  have hse : src.Elem h1 = .ok (.addr E sa []) := by
    simp [Value.Elem, hsk, hsl1, hst, Ty.elem, Ty.underlying]
  have hdn : (Value.addr (.ptr E) a p).IsNil h = .ok true := by
    simp [Value.IsNil, Ty.kind, Value.load_addr hd]
  have hde : (Value.addr (.ptr E) a p).Elem h1 =
      .ok (.addr E h.cells.length []) := by
    simp [Value.Elem, Ty.kind, Value.load_addr (Heap.read_write hw), Ty.elem,
      Ty.underlying]
  have hnew : New E h = .ok (.direct (.ptr E) (.ptr (some h.cells.length)))
      (h.alloc E.zero).1 := rfl
  have hset : (Value.addr (.ptr E) a p).Set
      (.direct (.ptr E) (.ptr (some h.cells.length))) (h.alloc E.zero).1 =
        .ok h1 := by
    simp [Value.Set, assignable_self, assignTo, Ty.kind, hw]
  simp [porter.deepMerge, porter.deepMergeBody, hst, hreg, Ty.kind, hsn, hdn,
    Ty.elem, Ty.underlying, hnew, hset, hde, hse]

/-! ## Fields, and the kinds merged as a whole -/

theorem Field_addr_ok {T : Ty} {a : Nat} {p : List Nat} {i : Nat} {v : Value}
    (hf : (Value.addr T a p).Field i = .ok v) :
    ∃ x, T.fields[i]? = some x ∧ v = .addr x.2.2 a (p ++ [i]) := by
  unfold Value.Field at hf
  split at hf
  · simp only at hf
    cases hx : T.fields[i]? with
    | none => simp [hx] at hf
    | some x =>
      obtain ⟨n1, n2, ft⟩ := x
      simp only [hx] at hf
      injection hf with hf
      exact ⟨(n1, n2, ft), rfl, hf.symm⟩
  · cases hf

theorem Field_direct_ok {T : Ty} {sv : Val} {i : Nat} {v : Value}
    (hf : (Value.direct T sv).Field i = .ok v) :
    ∃ x fs f, T.fields[i]? = some x ∧ sv = .struct fs ∧ fs[i]? = some f ∧
      v = .direct x.2.2 f := by
  unfold Value.Field at hf
  split at hf
  · simp only at hf
    cases hx : T.fields[i]? with
    | none => simp [hx] at hf
    | some x =>
      obtain ⟨n1, n2, ft⟩ := x
      simp only [hx] at hf
      cases sv with
      | struct fs =>
        simp only at hf
        cases hg : fs[i]? with
        | none => simp [hg] at hf
        | some f =>
          simp only [hg] at hf
          injection hf with hf
          exact ⟨(n1, n2, ft), fs, f, rfl, rfl, hg, hf.symm⟩
      | _ => simp at hf
  · cases hf

theorem deepMerge_struct_unexported (H : Host) (m : porter) (n : Nat)
    (o : Options) {T : Ty} {dst src : Value}
    (hk : T.kind = .Struct) (hun : hasUnexportedField T = true)
    (hreg : tableLookup T m.mergeFuncs = none)
    (hdt : dst.typ = .ok T) (hst : src.typ = .ok T) (h : Heap) :
    m.deepMerge H (n + 1) dst src o h = directMerge dst src o h := by
  simp [porter.deepMerge, porter.deepMergeBody, hdt, hst, hreg,
    Value.kind_of_typ hdt, hk, hun]

theorem deepMerge_other_kind (H : Host) (m : porter) (n : Nat)
    (o : Options) {T : Ty} {dst src : Value}
    (h1 : T.kind ≠ .Struct) (h2 : T.kind ≠ .Map) (h3 : T.kind ≠ .Slice)
    (h4 : T.kind ≠ .Ptr) (h5 : T.kind ≠ .Interface)
    (hreg : tableLookup T m.mergeFuncs = none)
    (hdt : dst.typ = .ok T) (hst : src.typ = .ok T) (h : Heap) :
    m.deepMerge H (n + 1) dst src o h = directMerge dst src o h := by
  simp only [porter.deepMerge, porter.deepMergeBody, M.bind_apply, M.rd_apply,
    hdt, hst, ne_eq, not_true_eq_false, if_false, hreg, Value.kind_of_typ hdt]

theorem Set_self {T : Ty} {a : Nat} {p : List Nat} (hk : T.kind ≠ .Interface)
    (g : Heap) :
    (Value.addr T a p).Set (.addr T a p) g =
      match g.read a p with
      | some _ => .ok g
      | none => .error .stuck := by
  simp only [Value.Set, Value.typ_addr, Value.load]
  cases hr : g.read a p with
  | none => rfl
  | some v =>
    simp [assignable_self, assignTo_self v hk, Heap.write_read_self hr]

/-! ## C31: interface slots holding values of equal concrete types -/

theorem Heap.write_maps {h h' : Heap} {a : Nat} {p : List Nat} {x : Val}
    (hw : h.write a p x = some h') : h'.maps = h.maps := by
  unfold Heap.write at hw
  split at hw
  · split at hw
    · injection hw with hw
      subst hw
      rfl
    · cases hw
  · cases hw

/-- The value behind the interface layers of a handle of interface type whose
slot holds a value of a concrete type. -/
theorem derefInterface_concrete {v : Value} {h : Heap} {T TE : Ty} {x : Val}
    (hk : T.kind = .Interface) (hTE : TE.kind ≠ .Interface)
    (ht : v.typ = .ok T) (hl : v.load h = .ok (.iface (some (TE, x)))) :
    derefInterface v h = .ok (.direct TE x) := by
  cases v with
  | invalid => simp [Value.typ] at ht
  | direct tv y =>
    simp only [Value.typ_direct] at ht
    injection ht with ht
    subst ht
    simp only [Value.load] at hl
    injection hl with hl
    subst hl
    simp only [derefInterface, derefDirect, hk, if_true]
    exact derefDirect_of_not_iface x hTE
  | addr tv b q =>
    simp only [Value.typ_addr] at ht
    injection ht with ht
    subst ht
    simp only [Value.load] at hl
    cases hr : h.read b q with
    | none => simp [hr] at hl
    | some y =>
      simp only [hr] at hl
      injection hl with hl
      subst hl
      simp only [derefInterface, hk, if_true, hr, derefDirect]
      exact derefDirect_of_not_iface x hTE

/-- C31: `deepMerge` on interface-typed slots, with no merge function
registered for the interface type, when the settable destination slot
`(a, p)` holds a value `dv` of the concrete type `TD` and the source slot a
value `sv` of the concrete type `TS`.  When the two concrete types are equal
the slot goes to the assignment primitive and is not merged recursively: the
source's concrete value is assigned when `Overwrite` is set or the
destination's value is empty, so with `Overwrite` the slot holds exactly
`sv` of type `TS` afterwards (for a map or a slice: the source's, not a
union), and nothing else is written.  When the concrete types differ the two
slots are handed to `convert`. -/
theorem C31_interface_slot_replaced (H : Host) (m : porter) (n : Nat)
    (o : Options) (h : Heap) (T : Ty) (a : Nat) (p : List Nat) (src : Value)
    (TD TS : Ty) (dv sv : Val)
    (hk : T.kind = .Interface) (hreg : tableLookup T m.mergeFuncs = none)
    (hTD : TD.kind ≠ .Interface) (hTS : TS.kind ≠ .Interface)
    (hd : h.read a p = some (.iface (some (TD, dv))))
    (hst : src.typ = .ok T)
    (hs : src.load h = .ok (.iface (some (TS, sv)))) :
    (TD = TS →
      m.deepMerge H (n + 1) (.addr T a p) src o h =
        directMerge (.addr T a p) src o h ∧
      ∃ h', h.write a p (.iface (some (TS, sv))) = some h' ∧
        m.deepMerge H (n + 1) (.addr T a p) src o h =
          .ok () (if o.Overwrite = true ∨
            isEmptyValue h (.direct TD dv) = true then h' else h) ∧
        (o.Overwrite = true →
          m.deepMerge H (n + 1) (.addr T a p) src o h = .ok () h' ∧
          h'.read a p = some (.iface (some (TS, sv))) ∧
          h'.maps = h.maps)) ∧
    (TD ≠ TS →
      m.deepMerge H (n + 1) (.addr T a p) src o h =
        m.convert H n (m.deepMerge H n) (.addr T a p) src o h) := by
  have hde : derefInterface (.addr T a p) h = .ok (.direct TD dv) :=
    derefInterface_concrete hk hTD rfl (Value.load_addr hd)
  have hse : derefInterface src h = .ok (.direct TS sv) :=
    derefInterface_concrete hk hTS hst hs
  have hsk := Value.kind_of_typ hst
  have hbody : m.deepMerge H (n + 1) (.addr T a p) src o h =
      if TD ≠ TS then m.convert H n (m.deepMerge H n) (.addr T a p) src o h
      else directMerge (.addr T a p) src o h := by
    by_cases hne : TD = TS <;>
      simp [porter.deepMerge, porter.deepMergeBody, hst, hreg, hk,
        Value.IsNil, hsk, hs, Value.load_addr hd, hde, hse, hne]
  refine ⟨fun heq => ?_, fun hne => ?_⟩
  · subst heq
    rw [hbody]
    simp only [ne_eq, not_true_eq_false, if_false, true_and]
    obtain ⟨h', hw, hdm⟩ := directMerge_eval o hd hde hse rfl rfl rfl
    have ha : assignTo T TD sv = .iface (some (TD, sv)) := by
      simp [assignTo, hk, hTD]
    rw [ha] at hw
    refine ⟨h', hw, hdm, fun ho => ?_⟩
    rw [hdm]
    simp only [ho, true_or, if_true, true_and]
    exact ⟨Heap.read_write hw, Heap.write_maps hw⟩
  · rw [hbody]
    simp [hne]

theorem C31_interface_slot_replaced_witness :
    (exMapSS = exMapSS →
      newPorter.deepMerge Host.trivial 1 (.addr .iface 0 [])
          (.direct .iface (.iface (some (exMapSS, .map (some 1))))) newOptions
          exHeapIfaceMap =
        directMerge (.addr .iface 0 [])
          (.direct .iface (.iface (some (exMapSS, .map (some 1))))) newOptions
          exHeapIfaceMap ∧
      ∃ h', exHeapIfaceMap.write 0 []
            (.iface (some (exMapSS, .map (some 1)))) = some h' ∧
        newPorter.deepMerge Host.trivial 1 (.addr .iface 0 [])
            (.direct .iface (.iface (some (exMapSS, .map (some 1)))))
            newOptions exHeapIfaceMap =
          .ok () (if newOptions.Overwrite = true ∨
            isEmptyValue exHeapIfaceMap (.direct exMapSS (.map (some 0))) = true
            then h' else exHeapIfaceMap) ∧
        (newOptions.Overwrite = true →
          newPorter.deepMerge Host.trivial 1 (.addr .iface 0 [])
              (.direct .iface (.iface (some (exMapSS, .map (some 1)))))
              newOptions exHeapIfaceMap = .ok () h' ∧
          h'.read 0 [] = some (.iface (some (exMapSS, .map (some 1)))) ∧
          h'.maps = exHeapIfaceMap.maps)) ∧
    (exMapSS ≠ exMapSS →
      newPorter.deepMerge Host.trivial 1 (.addr .iface 0 [])
          (.direct .iface (.iface (some (exMapSS, .map (some 1))))) newOptions
          exHeapIfaceMap =
        newPorter.convert Host.trivial 0 (newPorter.deepMerge Host.trivial 0)
          (.addr .iface 0 [])
          (.direct .iface (.iface (some (exMapSS, .map (some 1))))) newOptions
          exHeapIfaceMap) :=
  C31_interface_slot_replaced Host.trivial newPorter 0 newOptions
    exHeapIfaceMap .iface 0 []
    (.direct .iface (.iface (some (exMapSS, .map (some 1))))) exMapSS exMapSS
    (.map (some 0)) (.map (some 1)) rfl rfl (by decide) (by decide) rfl rfl rfl

/-! ## Fields and nil tests of a source away from the destination -/

/-- A field of a source handle: its type, where it lives, and what it
holds. -/
theorem Field_src_ok {src sf : Value} {T : Ty} {i : Nat}
    (ht : src.typ = .ok T) (hf : src.Field i = .ok sf) :
    ∃ x, T.fields[i]? = some x ∧ sf.typ = .ok x.2.2 ∧
      (∀ a, src.awayFrom a = true → sf.awayFrom a = true) ∧
      ∀ h f, sf.load h = .ok f ↔
        ∃ fs, src.load h = .ok (.struct fs) ∧ fs[i]? = some f := by
  cases src with
  | invalid => simp [Value.typ] at ht
  | direct t sv =>
    simp only [Value.typ_direct] at ht
    injection ht with ht
    subst ht
    obtain ⟨x, fs, f0, hx, rfl, hfi, rfl⟩ := Field_direct_ok hf
    refine ⟨x, hx, rfl, fun _ _ => rfl, fun h f => ?_⟩
    simp only [Value.load, Except.ok.injEq, Val.struct.injEq]
    constructor
    · intro e
      exact ⟨fs, rfl, e ▸ hfi⟩
    · rintro ⟨fs2, e1, e2⟩
      subst e1
      rw [hfi] at e2
      injection e2
  | addr t b q =>
    simp only [Value.typ_addr] at ht
    injection ht with ht
    subst ht
    obtain ⟨x, hx, rfl⟩ := Field_addr_ok hf
    refine ⟨x, hx, rfl, fun a ha => ha, fun h f => ?_⟩
    simp only [Value.load, Heap.read_append]
    cases hr : h.read b q with
    | none => simp
    | some w =>
      simp only [Option.some_bind, Except.ok.injEq]
      cases w with
      | struct fs =>
        simp only [Val.getPath, Val.struct.injEq, exists_eq_left']
        cases hfi : fs[i]? with
        | none => simp
        | some f0 => simp [Val.getPath]
      | _ => simp [Val.getPath]

theorem IsNil_of_load {src : Value} {h g : Heap}
    (hl : src.load g = src.load h) : src.IsNil g = src.IsNil h := by
  unfold Value.IsNil
  rw [hl]

/-! ## C32: map entries not merged in place -/

theorem Heap.read_setMap (h : Heap) (r : Nat) (md : List (Key × Val))
    (a : Nat) (p : List Nat) : (h.setMap r md).read a p = h.read a p := rfl

theorem Value.load_setMap (h : Heap) (r : Nat) (md : List (Key × Val))
    (v : Value) : v.load (h.setMap r md) = v.load h := by
  cases v <;> rfl

theorem derefInterface_setMap (h : Heap) (r : Nat) (md : List (Key × Val))
    (v : Value) : derefInterface v (h.setMap r md) = derefInterface v h := by
  cases v <;> rfl

theorem Value.IsNil_setMap (h : Heap) (r : Nat) (md : List (Key × Val))
    (v : Value) : v.IsNil (h.setMap r md) = v.IsNil h := by
  simp only [Value.IsNil, Value.load_setMap]

theorem Value.Elem_setMap (h : Heap) (r : Nat) (md : List (Key × Val))
    (v : Value) : v.Elem (h.setMap r md) = v.Elem h := by
  simp only [Value.Elem, Value.load_setMap]

theorem derefPtr_setMap (h : Heap) (r : Nat) (md : List (Key × Val)) :
    ∀ (n : Nat) (v : Value), derefPtr (h.setMap r md) n v = derefPtr h n v := by
  intro n
  induction n with
  | zero => intro v; rfl
  | succ n ih =>
    intro v
    simp only [derefPtr, Value.Elem_setMap]
    split
    · cases v.Elem h with
      | ok e => exact ih e
      | error f => rfl
    · rfl

theorem Value.Len_setMap (h : Heap) (r : Nat) (md : List (Key × Val))
    {v : Value} (hk : v.kind ≠ .Map) :
    v.Len (h.setMap r md) = v.Len h := by
  simp only [Value.Len, Value.load_setMap]
  cases hkk : v.kind <;> first | exact absurd hkk hk | skip
  all_goals
    cases v.load h with
    | error e => rfl
    | ok x => cases x <;> first | rfl | (rename_i y; cases y <;> rfl)

theorem isEmptyValue_setMap (h : Heap) (r : Nat) (md : List (Key × Val))
    {v : Value} (hk : v.kind ≠ .Map) :
    isEmptyValue (h.setMap r md) v = isEmptyValue h v := by
  simp only [isEmptyValue, Value.Len_setMap h r md hk, Value.load_setMap,
    Value.IsNil_setMap]

theorem Heap.write_setMap (h : Heap) (r : Nat) (md : List (Key × Val))
    (a : Nat) (p : List Nat) (x : Val) :
    (h.setMap r md).write a p x = (h.write a p x).map (fun g => g.setMap r md) := by
  simp only [Heap.write, Heap.setMap]
  cases h.cells[a]? with
  | none => rfl
  | some c =>
    simp only
    cases c.setPath p x <;> rfl

theorem Heap.setMap_setMap (h : Heap) (r : Nat) (m1 m2 : List (Key × Val)) :
    (h.setMap r m1).setMap r m2 = h.setMap r m2 := by
  simp [Heap.setMap]

theorem Value.Set_setMap (h : Heap) (r : Nat) (md : List (Key × Val))
    (dst x : Value) :
    dst.Set x (h.setMap r md) = (dst.Set x h).map (fun g => g.setMap r md) := by
  cases dst with
  | invalid => rfl
  | direct t v => rfl
  | addr t a p =>
    simp only [Value.Set, Value.load_setMap, Heap.write_setMap]
    cases x.typ with
    | error e => cases x.load h <;> rfl
    | ok tx =>
      cases x.load h with
      | error e => rfl
      | ok xv =>
        simp only
        split
        · cases h.write a p (assignTo t tx xv) <;> rfl
        · rfl

theorem Scratch.scr_ret {α : Type} (r c : Nat) (a : α) :
    Scratch r c (pure a : M α) :=
  fun _ => ⟨fun _ => rfl, rfl, fun _ _ _ => rfl⟩

theorem Scratch.scr_fault {α : Type} (r c : Nat) (f : Fault) :
    Scratch r c (M.fail f : M α) :=
  fun _ => ⟨fun _ => rfl, rfl, fun _ _ _ => rfl⟩

theorem Scratch.scr_read {α : Type} (r c : Nat) (f : Heap → Except Fault α)
    (hf : ∀ h md, f (h.setMap r md) = f h) : Scratch r c (M.rd f) := by
  intro h
  refine ⟨fun md => ?_, ?_, fun a p _ => ?_⟩
  · simp only [M.rd, hf]
    cases f h <;> rfl
  · simp only [M.rd]
    cases f h <;> rfl
  · simp only [M.rd]
    cases f h <;> rfl

theorem Scratch.scr_seq {α β : Type} {r c : Nat} {x : M α} {k : α → M β}
    (hx : Scratch r c x)
    (hk : ∀ a, (∃ h g, x h = .ok a g) → Scratch r c (k a)) :
    Scratch r c (x >>= k) := by
  intro h
  obtain ⟨h1, h2, h3⟩ := hx h
  refine ⟨fun md => ?_, ?_, fun a p ha => ?_⟩
  · simp only [M.bind_apply, h1 md]
    cases hxh : x h with
    | fail e g => rfl
    | ok v g =>
      simp only [Res.setMap]
      exact ((hk v ⟨h, g, hxh⟩) g).1 md
  · simp only [M.bind_apply]
    cases hxh : x h with
    | fail e g => simpa [hxh, Res.heap] using h2
    | ok v g =>
      simp only
      rw [((hk v ⟨h, g, hxh⟩) g).2.1]
      simpa [hxh, Res.heap] using h2
  · simp only [M.bind_apply]
    cases hxh : x h with
    | fail e g => simpa [hxh, Res.heap] using h3 a p ha
    | ok v g =>
      simp only
      rw [((hk v ⟨h, g, hxh⟩) g).2.2 a p ha]
      simpa [hxh, Res.heap] using h3 a p ha

theorem M.rd_ok {α : Type} {f : Heap → Except Fault α} {h g : Heap} {a : α}
    (hr : M.rd f h = .ok a g) : f h = .ok a ∧ g = h := by
  simp only [M.rd] at hr
  cases hf : f h with
  | error e => simp [hf] at hr
  | ok b =>
    simp only [hf] at hr
    injection hr with h1 h2
    exact ⟨by rw [h1], h2.symm⟩

theorem Scratch.scr_set (r c : Nat) (t : Ty) (q : List Nat) (x : Value) :
    Scratch r c (M.upd ((Value.addr t c q).Set x)) := by
  intro h
  refine ⟨fun md => ?_, ?_, fun a p ha => ?_⟩
  · simp only [M.upd, Value.Set_setMap]
    cases (Value.addr t c q).Set x h <;> rfl
  · simp only [M.upd]
    cases hs : (Value.addr t c q).Set x h with
    | error e => rfl
    | ok g =>
      simp only [Res.heap]
      simp only [Value.Set] at hs
      split at hs
      · split at hs
        · split at hs
          · injection hs with hs
            subst hs
            rename_i hw
            exact Heap.write_maps hw
          · cases hs
        · cases hs
      · cases hs
      · cases hs
  · simp only [M.upd]
    cases hs : (Value.addr t c q).Set x h with
    | error e => rfl
    | ok g =>
      simp only [Res.heap]
      simp only [Value.Set] at hs
      split at hs
      · split at hs
        · split at hs
          · injection hs with hs
            subst hs
            rename_i hw
            exact Heap.read_write_other hw ha p
          · cases hs
        · cases hs
      · cases hs
      · cases hs

theorem directMerge_scratch (r c : Nat) (T : Ty) (q : List Nat) (src : Value)
    (o : Options) (hk1 : T.kind ≠ .Interface) (hk2 : T.kind ≠ .Map) :
    Scratch r c (directMerge (.addr T c q) src o) := by
  unfold directMerge
  refine Scratch.scr_seq (Scratch.scr_read _ _ _
    (fun h md => derefInterface_setMap h r md _)) (fun dstE hd => ?_)
  obtain ⟨h, g, hd⟩ := hd
  have hdE : dstE = .addr T c q := by
    have := (M.rd_ok hd).1
    rw [derefInterface_of_not_iface h (by exact hk1)] at this
    injection this with this
    exact this.symm
  subst hdE
  refine Scratch.scr_seq (Scratch.scr_read _ _ _
    (fun h md => derefInterface_setMap h r md _)) (fun srcE _ => ?_)
  split
  · exact Scratch.scr_fault _ _ _
  split
  · exact Scratch.scr_ret _ _ _
  refine Scratch.scr_seq (Scratch.scr_read _ _ _ (fun _ _ => rfl)) (fun dstT _ => ?_)
  refine Scratch.scr_seq (Scratch.scr_read _ _ _ (fun _ _ => rfl)) (fun srcT _ => ?_)
  split
  · exact Scratch.scr_fault _ _ _
  split
  · exact Scratch.scr_ret _ _ _
  refine Scratch.scr_seq (Scratch.scr_read _ _ _ (fun h md => by
    rw [isEmptyValue_setMap h r md (by exact hk2)])) (fun empty _ => ?_)
  split
  · exact Scratch.scr_set _ _ _ _ _
  · exact Scratch.scr_ret _ _ _

theorem callCustom_scratch (r c : Nat) (m : porter) (f : Func)
    (dst src : Value) (o : Options) (hf : ReadsNoMap r o f) :
    Scratch r c (m.callCustom f dst src o) := by
  unfold porter.callCustom
  exact Scratch.scr_read _ _ _ (fun h md => by
    simp only [Value.load_setMap, hf h md])

theorem mergeSlice_scratch (r c : Nat) (T : Ty) (q : List Nat) (src : Value)
    (o : Options) (hk1 : T.kind ≠ .Interface) (hk2 : T.kind ≠ .Map) :
    Scratch r c (mergeSlice (.addr T c q) src o) := by
  unfold mergeSlice
  split
  · refine Scratch.scr_seq (Scratch.scr_read _ _ _ (fun h md => by
      simp only [AppendSlice, Value.load_setMap])) (fun ap _ => ?_)
    exact directMerge_scratch r c T q ap o hk1 hk2
  split
  · refine Scratch.scr_seq (Scratch.scr_read _ _ _ (fun _ _ => rfl)) (fun dt _ => ?_)
    split
    · exact Scratch.scr_fault _ _ _
    · split
      · refine Scratch.scr_seq (Scratch.scr_read _ _ _ (fun h md => by
          simp only [AppendSlice, Value.load_setMap])) (fun ap _ => ?_)
        exact directMerge_scratch r c T q ap o hk1 hk2
      · refine Scratch.scr_seq (Scratch.scr_read _ _ _ (fun h md => by
          simp only [sliceElems, Value.load_setMap])) (fun ex _ => ?_)
        refine Scratch.scr_seq (Scratch.scr_read _ _ _ (fun h md => by
          simp only [sliceElems, Value.load_setMap])) (fun se _ => ?_)
        simp only []
        split
        · refine Scratch.scr_seq (Scratch.scr_read _ _ _ (fun h md => by
            simp only [Append, Value.load_setMap])) (fun ap _ => ?_)
          exact directMerge_scratch r c T q ap o hk1 hk2
        · exact Scratch.scr_ret _ _ _
  · exact directMerge_scratch r c T q src o hk1 hk2

/-- `deepMerge` on a scratch cell of a kind that is not merged in place (and
not an interface) works on that cell only, when the registered merge
functions do not look at the map object `r`. -/
theorem deepMerge_scratch (H : Host) (m : porter) (o : Options) (r c : Nat)
    (hfun : ∀ t f, tableLookup t m.mergeFuncs = some f → ReadsNoMap r o f)
    (n : Nat) (T : Ty) (q : List Nat) (src : Value)
    (hk1 : T.kind ≠ .Interface) (hk2 : mergedInPlace T.kind = false) :
    Scratch r c (m.deepMerge H n (.addr T c q) src o) := by
  have hM : T.kind ≠ .Map := by
    intro e; simp [mergedInPlace, e] at hk2
  have hS : T.kind ≠ .Struct := by
    intro e; simp [mergedInPlace, e] at hk2
  have hP : T.kind ≠ .Ptr := by
    intro e; simp [mergedInPlace, e] at hk2
  cases n with
  | zero => exact Scratch.scr_fault _ _ _
  | succ n =>
    simp only [porter.deepMerge]
    unfold porter.deepMergeBody
    refine Scratch.scr_seq (Scratch.scr_read _ _ _ (fun _ _ => rfl)) (fun dt hd => ?_)
    obtain ⟨h, g, hd⟩ := hd
    have hdt : dt = T := by
      have := (M.rd_ok hd).1
      simp only [Value.typ_addr] at this
      injection this with this
      exact this.symm
    subst hdt
    refine Scratch.scr_seq (Scratch.scr_read _ _ _ (fun _ _ => rfl)) (fun st _ => ?_)
    split
    · exact Scratch.scr_fault _ _ _
    split
    · rename_i f hf
      refine Scratch.scr_seq (callCustom_scratch r c m f _ _ o (hfun _ f hf))
        (fun res _ => ?_)
      obtain ⟨merged, err⟩ := res
      cases err with
      | some e => exact Scratch.scr_fault _ _ _
      | none => exact directMerge_scratch r c dt q merged o hk1 hM
    · simp only [Value.kind_addr]
      split
      · rename_i e; exact absurd e hS
      · rename_i e; exact absurd e hM
      · refine Scratch.scr_seq (Scratch.scr_read _ _ _
          (fun h md => Value.IsNil_setMap h r md _)) (fun b _ => ?_)
        split
        · exact Scratch.scr_ret _ _ _
        · exact mergeSlice_scratch r c dt q src o hk1 hM
      · rename_i e; exact absurd e hP
      · rename_i e; exact absurd e hk1
      · exact directMerge_scratch r c dt q src o hk1 hM

theorem goConvertion_readsNoMap (H : Host) (r : Nat) (o : Options)
    (ho : o.Overwrite = true) : ReadsNoMap r o (goConvertion H) := by
  intro h md x y
  simp [goConvertion, ho]

theorem converter_cases {H : Host} {m : porter} {d s : Ty} {o : Options}
    {f : Func} (hc : m.converter H d s o = some f) :
    (∃ pr, tableLookup pr m.convertFuncs = some f) ∨ f = goConvertion H := by
  unfold porter.converter at hc
  split at hc
  · rename_i g hg
    injection hc with hc
    subst hc
    exact Or.inl ⟨_, hg⟩
  · split at hc
    · injection hc with hc
      exact Or.inr hc.symm
    · cases hc

theorem derefPtr_self {v : Value} (h : Heap) (n : Nat)
    (h1 : v.kind ≠ .Ptr) (h2 : v.kind ≠ .Interface) :
    derefPtr h n v = .ok v := by
  cases n <;> simp [derefPtr, h1, h2]

/-- `convert` on a scratch cell of a kind that is not merged in place (and
not an interface) works on that cell only, when the functions it can call do
not look at the map object `r` and the function it calls for a same-typed
pair does the same. -/
theorem convert_scratch (H : Host) (m : porter) (o : Options) (r c : Nat)
    (ho : o.Overwrite = true)
    (hfun : ∀ pr f, tableLookup pr m.convertFuncs = some f → ReadsNoMap r o f)
    (n : Nat) (rec : Value → Value → Options → M Unit)
    (T : Ty) (q : List Nat) (src : Value)
    (hk1 : T.kind ≠ .Interface) (hk2 : mergedInPlace T.kind = false)
    (hrec : ∀ s, Scratch r c (rec (.addr T c q) s o)) :
    Scratch r c (m.convert H n rec (.addr T c q) src o) := by
  have hM : T.kind ≠ .Map := by
    intro e; simp [mergedInPlace, e] at hk2
  have hP : T.kind ≠ .Ptr := by
    intro e; simp [mergedInPlace, e] at hk2
  have hcv : ∀ d s f, m.converter H d s o = some f → ReadsNoMap r o f := by
    intro d s f hc
    rcases converter_cases hc with ⟨pr, hpr⟩ | e
    · exact hfun pr f hpr
    · rw [e]; exact goConvertion_readsNoMap H r o ho
  unfold porter.convert
  refine Scratch.scr_seq (Scratch.scr_read _ _ _ (fun _ _ => rfl))
    (fun dt hd => ?_)
  obtain ⟨h, g, hd⟩ := hd
  have hdt : dt = T := by
    have := (M.rd_ok hd).1
    simp only [Value.typ_addr] at this
    injection this with this
    exact this.symm
  subst hdt
  refine Scratch.scr_seq (Scratch.scr_read _ _ _ (fun _ _ => rfl))
    (fun st _ => ?_)
  have htt : ∀ (v : Value) (t : Ty), Scratch r c (trueType v t) := by
    intro v t
    unfold trueType
    split
    · refine Scratch.scr_seq (Scratch.scr_read _ _ _
        (fun h md => derefInterface_setMap h r md _)) (fun e _ => ?_)
      refine Scratch.scr_seq (Scratch.scr_read _ _ _ (fun _ _ => rfl))
        (fun te _ => ?_)
      exact Scratch.scr_ret _ _ _
    · exact Scratch.scr_ret _ _ _
  refine Scratch.scr_seq (htt _ _) (fun dtk hdk => ?_)
  obtain ⟨dstType, dstKind⟩ := dtk
  have hdk2 : dstKind = dt.kind := by
    obtain ⟨h, g, hdk⟩ := hdk
    simp only [trueType, hk1, if_false, M.pure_apply] at hdk
    injection hdk with hdk _
    injection hdk with _ hdk
    exact hdk.symm
  refine Scratch.scr_seq (htt _ _) (fun stk _ => ?_)
  obtain ⟨srcType, srcKind⟩ := stk
  simp only []
  split
  · rename_i f hf
    refine Scratch.scr_seq (callCustom_scratch r c m f _ _ o (hcv _ _ f hf))
      (fun res _ => ?_)
    obtain ⟨converted, err⟩ := res
    cases err with
    | some e => exact Scratch.scr_fault _ _ _
    | none => exact directMerge_scratch r c dt q converted o hk1 hM
  · split
    · refine Scratch.scr_seq (Scratch.scr_read _ _ _
        (fun h md => derefPtr_setMap h r md n _)) (fun dv hdv => ?_)
      obtain ⟨h, g, hdv⟩ := hdv
      have hdvE : dv = .addr dt c q := by
        have := (M.rd_ok hdv).1
        rw [derefPtr_self h n (by exact hP) (by exact hk1)] at this
        injection this with this
        exact this.symm
      subst hdvE
      refine Scratch.scr_seq (Scratch.scr_read _ _ _ (fun _ _ => rfl))
        (fun det _ => ?_)
      refine Scratch.scr_seq (Scratch.scr_read _ _ _
        (fun h md => derefPtr_setMap h r md n _)) (fun sv _ => ?_)
      refine Scratch.scr_seq (Scratch.scr_read _ _ _ (fun _ _ => rfl))
        (fun set _ => ?_)
      split
      · split
        · rename_i f hf
          refine Scratch.scr_seq
            (callCustom_scratch r c m f _ _ o (hcv _ _ f hf)) (fun res _ => ?_)
          obtain ⟨converted, err⟩ := res
          cases err with
          | some e => exact Scratch.scr_fault _ _ _
          | none => exact directMerge_scratch r c dt q converted o hk1 hM
        · exact Scratch.scr_fault _ _ _
      · exact hrec sv
    · exact Scratch.scr_fault _ _ _

theorem mapInsert_mapInsert (k : Key) (v w : Val) (m : List (Key × Val)) :
    mapInsert k v (mapInsert k w m) = mapInsert k v m := by
  induction m with
  | nil => simp [mapInsert]
  | cons e m ih =>
    obtain ⟨k1, v1⟩ := e
    by_cases h1 : k1 = k
    · simp [mapInsert, h1]
    · simp [mapInsert, h1, ih]

theorem mapErase_mapInsert (k : Key) (v : Val) (m : List (Key × Val)) :
    mapErase k (mapInsert k v m) = mapErase k m := by
  induction m with
  | nil => simp [mapInsert, mapErase]
  | cons e m ih =>
    obtain ⟨k1, v1⟩ := e
    by_cases h1 : k1 = k
    · simp [mapInsert, mapErase, h1]
    · simp only [mapErase] at ih
      simp only [mapInsert, mapErase, h1, if_false, List.filter_cons, ne_eq,
        not_false_eq_true, decide_True, if_true, ih]

theorem MapCtx.maps_lt {h : Heap} {T E : Ty} {a : Nat} {p : List Nat}
    {src : Value} {rd rs : Nat} {md smap : List (Key × Val)}
    (c : MapCtx h T E a p src rd rs md smap) : rd < h.maps.length :=
  (List.getElem?_eq_some_iff.mp c.dmap).1

/-- The situation of the key loop after the content of the destination's map
object is replaced. -/
theorem MapCtx.setEntry {h : Heap} {T E : Ty} {a : Nat} {p : List Nat}
    {src : Value} {rd rs : Nat} {md smap : List (Key × Val)}
    (c : MapCtx h T E a p src rd rs md smap) (hrs : rs ≠ rd)
    (md2 : List (Key × Val)) :
    MapCtx (h.setMap rd md2) T E a p src rd rs md2 smap :=
  { kind := c.kind, elem := c.elem, dst := c.dst, styp := c.styp,
    sload := by rw [Value.load_setMap]; exact c.sload,
    dmap := by
      simp only [Heap.setMap]
      exact List.getElem?_set_self c.maps_lt
    smap := by
      simp only [Heap.setMap]
      rw [List.getElem?_set_ne (Ne.symm hrs)]
      exact c.smap }

/-- Storing under a key does not depend on the entry the destination's map
held under that key. -/
theorem SetMapIndex_setEntry {g : Heap} {T E : Ty} {a : Nat} {p : List Nat}
    {src : Value} {rd rs : Nat} {md smap : List (Key × Val)}
    (c : MapCtx g T E a p src rd rs md smap) (key : Key) (xd2 : Val)
    (elem : Value) :
    Value.SetMapIndex (.addr T a p) key elem
        (g.setMap rd (mapInsert key xd2 md)) =
      Value.SetMapIndex (.addr T a p) key elem g := by
  have hlt := c.maps_lt
  have hget : (g.setMap rd (mapInsert key xd2 md)).maps[rd]? =
      some (mapInsert key xd2 md) := by
    simp only [Heap.setMap]
    exact List.getElem?_set_self hlt
  unfold Value.SetMapIndex
  simp only [Value.kind_addr, c.kind, Value.load_setMap, Value.load_addr c.dst,
    Value.typ_addr, hget, c.dmap, c.elem, Heap.setMap_setMap,
    mapInsert_mapInsert, mapErase_mapInsert]

/-- The step of the key loop for a key present in the destination whose entry
is not of a kind merged in place: the merge runs against a new zero value of
the entry's type, which is then stored under the key. -/
theorem mergeMapKey_scratch_form (H : Host) (m : porter) (n : Nat)
    (rec : Value → Value → Options → M Unit) (o : Options)
    {h : Heap} {T E : Ty} {a : Nat} {p : List Nat}
    {src : Value} {rd rs : Nat} {md smap : List (Key × Val)}
    (c : MapCtx h T E a p src rd rs md smap) (key : Key) {xd dv : Val}
    {TE : Ty} (ho : o.Overwrite = true)
    (hd : mapLookup key md = some xd)
    (hdd : derefDirect E xd = .ok (.direct TE dv))
    (hkind : mergedInPlace TE.kind = false) :
    mergeMapKey H m n rec (.addr T a p) src o key h =
      match mapEntry src key h with
      | .error f => .fail f h
      | .ok srcE =>
        match srcE.typ with
        | .error f => .fail f h
        | .ok TS =>
          match (if TE ≠ TS then
              m.convert H n rec (.addr TE h.cells.length []) srcE o
            else rec (.addr TE h.cells.length []) srcE o)
              (h.alloc TE.zero).1 with
          | .fail f g => .fail f g
          | .ok _ g =>
            match Value.SetMapIndex (.addr T a p) key
                (.addr TE h.cells.length []) g with
            | .ok g' => .ok () g'
            | .error f => .fail f g := by
  have d1 := c.dstEntry key
  simp only [hd, hdd] at d1
  cases hse : mapEntry src key h with
  | error f => simp [mergeMapKey, hse]
  | ok srcE =>
    cases hst : srcE.typ with
    | error f => simp [mergeMapKey, hse, d1, Value.IsValid, hst]
    | ok TS =>
      by_cases hne : TE = TS
      · subst hne
        simp [mergeMapKey, hse, d1, Value.IsValid, hst, hkind, ho,
          newElem_apply, M.upd]
        cases rec (.addr TE h.cells.length []) srcE o (h.alloc TE.zero).1 <;> rfl
      · simp [mergeMapKey, hse, d1, Value.IsValid, hst, hkind, ho,
          newElem_apply, hne, M.upd]
        cases m.convert H n rec (.addr TE h.cells.length []) srcE o
          (h.alloc TE.zero).1 <;> rfl

/-- The step of the key loop does not depend on the value the destination
holds under the key, for an entry that is not of a kind merged in place: run
from the heap in which the destination's entry `xd` is replaced by another
entry `xd2` of the same type behind its interface layers, a successful step
ends in the very same heap, and a step that fails fails the same way. -/
theorem mergeMapKey_entry_irrelevant (H : Host) (m : porter) (n : Nat)
    (o : Options) {h : Heap} {T E : Ty} {a : Nat} {p : List Nat}
    {src : Value} {rd rs : Nat} {md smap : List (Key × Val)}
    (c : MapCtx h T E a p src rd rs md smap) (hrs : rs ≠ rd) (key : Key)
    {xd : Val} (xd2 : Val) {dv dv2 : Val} {TE : Ty} (ho : o.Overwrite = true)
    (hfm : ∀ t f, tableLookup t m.mergeFuncs = some f → ReadsNoMap rd o f)
    (hfc : ∀ pr f, tableLookup pr m.convertFuncs = some f → ReadsNoMap rd o f)
    (hd : mapLookup key md = some xd)
    (hdd : derefDirect E xd = .ok (.direct TE dv))
    (hdd2 : derefDirect E xd2 = .ok (.direct TE dv2))
    (hkind : mergedInPlace TE.kind = false) :
    mergeMapKey H m n (m.deepMerge H n) (.addr T a p) src o key
        (h.setMap rd (mapInsert key xd2 md)) =
      match mergeMapKey H m n (m.deepMerge H n) (.addr T a p) src o key h with
      | .ok _ h' => .ok () h'
      | .fail f h' => .fail f (h'.setMap rd (mapInsert key xd2 md)) := by
  have hTE : TE.kind ≠ .Interface := fun hk => by
    have := derefDirect_kind hdd rfl
    exact this hk
  have c2 := c.setEntry hrs (mapInsert key xd2 md)
  have hd2 : mapLookup key (mapInsert key xd2 md) = some xd2 := by
    simp [mapLookup_mapInsert]
  rw [mergeMapKey_scratch_form H m n _ o c2 key ho hd2 hdd2 hkind,
    mergeMapKey_scratch_form H m n _ o c key ho hd hdd hkind]
  have hse : mapEntry src key (h.setMap rd (mapInsert key xd2 md)) =
      mapEntry src key h := by
    rw [c2.srcEntry, c.srcEntry]
  rw [hse]
  cases mapEntry src key h with
  | error f => rfl
  | ok srcE =>
    simp only []
    cases srcE.typ with
    | error f => rfl
    | ok TS =>
      simp only []
      have hX : Scratch rd h.cells.length
          (if TE ≠ TS then
            m.convert H n (m.deepMerge H n) (.addr TE h.cells.length []) srcE o
          else m.deepMerge H n (.addr TE h.cells.length []) srcE o) := by
        split
        · exact convert_scratch H m o rd _ ho hfc n _ TE [] srcE hTE hkind
            (fun s => deepMerge_scratch H m o rd _ hfm n TE [] s hTE hkind)
        · exact deepMerge_scratch H m o rd _ hfm n TE [] srcE hTE hkind
      obtain ⟨x1, x2, x3⟩ := hX (h.alloc TE.zero).1
      have x1' := x1 (mapInsert key xd2 md)
      have hal : ((h.setMap rd (mapInsert key xd2 md)).alloc TE.zero).1 =
          (h.alloc TE.zero).1.setMap rd (mapInsert key xd2 md) := rfl
      have hlen : (h.setMap rd (mapInsert key xd2 md)).cells.length =
          h.cells.length := rfl
      rw [hal, hlen, x1']
      cases hXr : (if TE ≠ TS then
            m.convert H n (m.deepMerge H n) (.addr TE h.cells.length []) srcE o
          else m.deepMerge H n (.addr TE h.cells.length []) srcE o)
          (h.alloc TE.zero).1 with
      | fail f g => rfl
      | ok u g =>
        simp only [hXr, Res.heap] at x2 x3
        have hext : Extends h g := by
          intro a' p' v hr
          have hlt := Heap.read_lt hr
          rw [x3 a' p' (Nat.ne_of_lt hlt)]
          exact @Extends.append h (h.alloc TE.zero).1 [TE.zero] rfl a' p' v hr
        have cg : MapCtx g T E a p src rd rs md smap :=
          { kind := c.kind, elem := c.elem, dst := hext _ _ _ c.dst,
            styp := c.styp, sload := hext.load c.sload,
            dmap := by rw [x2]; exact c.dmap,
            smap := by rw [x2]; exact c.smap }
        simp only [Res.setMap, SetMapIndex_setEntry cg key xd2]
        cases Value.SetMapIndex (.addr T a p) key (.addr TE h.cells.length []) g with
        | ok g' => rfl
        | error f => rfl

theorem mapInsert_comm {k k' : Key} (hne : k' ≠ k) (v w : Val)
    {m : List (Key × Val)} {x : Val} (hp : mapLookup k m = some x) :
    mapInsert k' v (mapInsert k w m) = mapInsert k w (mapInsert k' v m) := by
  induction m with
  | nil => simp [mapLookup] at hp
  | cons e m ih =>
    obtain ⟨k1, v1⟩ := e
    by_cases h1 : k1 = k
    · subst h1
      have h2 : ¬ k1 = k' := fun e => hne e.symm
      simp [mapInsert, h2]
    · simp only [mapLookup, h1, if_false] at hp
      by_cases h2 : k1 = k'
      · subst h2
        simp [mapInsert, h1]
      · simp [mapInsert, h1, h2, ih hp]

theorem mapErase_cons (k k1 : Key) (v1 : Val) (m : List (Key × Val)) :
    mapErase k ((k1, v1) :: m) =
      if k1 = k then mapErase k m else (k1, v1) :: mapErase k m := by
  by_cases h1 : k1 = k <;> simp [mapErase, List.filter_cons, h1]

theorem mapErase_mapInsert_ne {k k' : Key} (hne : k' ≠ k) (w : Val)
    {m : List (Key × Val)} {x : Val} (hp : mapLookup k m = some x) :
    mapErase k' (mapInsert k w m) = mapInsert k w (mapErase k' m) := by
  induction m with
  | nil => simp [mapLookup] at hp
  | cons e m ih =>
    obtain ⟨k1, v1⟩ := e
    by_cases h1 : k1 = k
    · subst h1
      have h2 : ¬ k1 = k' := fun e => hne e.symm
      simp [mapInsert, mapErase_cons, h2]
    · simp only [mapLookup, h1, if_false] at hp
      by_cases h2 : k1 = k'
      · subst h2
        simp [mapInsert, mapErase_cons, h1, ih hp]
      · simp [mapInsert, mapErase_cons, h1, h2, ih hp]

theorem mapLookup_mapErase_ne {k k' : Key} (hne : k ≠ k')
    (m : List (Key × Val)) :
    mapLookup k (mapErase k' m) = mapLookup k m := by
  induction m with
  | nil => simp [mapErase, mapLookup]
  | cons e m ih =>
    obtain ⟨k1, v1⟩ := e
    by_cases h2 : k1 = k'
    · subst h2
      have h3 : ¬ k1 = k := fun e => hne e.symm
      simp [mapErase_cons, mapLookup, h3, ih]
    · by_cases h3 : k1 = k
      · subst h3
        simp [mapErase_cons, mapLookup, h2]
      · simp [mapErase_cons, mapLookup, h2, h3, ih]

/-- Storing under a key `k2` commutes with the replacement of the entry the
destination's map holds under another key `kd`. -/
theorem SetMapIndex_setEntry_other {g : Heap} {T E : Ty} {a : Nat}
    {p : List Nat} {src : Value} {rd rs : Nat} {md smap : List (Key × Val)}
    (c : MapCtx g T E a p src rd rs md smap) {k2 kd : Key} (hne : k2 ≠ kd)
    {xd : Val} (hd : mapLookup kd md = some xd) (xd2 : Val) (elem : Value) :
    match Value.SetMapIndex (.addr T a p) k2 elem g with
    | .error f =>
      Value.SetMapIndex (.addr T a p) k2 elem
        (g.setMap rd (mapInsert kd xd2 md)) = .error f
    | .ok g' =>
      ∃ md', g' = g.setMap rd md' ∧ mapLookup kd md' = some xd ∧
        (∀ k3, k3 ≠ k2 → mapLookup k3 md' = mapLookup k3 md) ∧
        Value.SetMapIndex (.addr T a p) k2 elem
          (g.setMap rd (mapInsert kd xd2 md)) =
            .ok (g.setMap rd (mapInsert kd xd2 md')) := by
  have hlt := c.maps_lt
  have hget : (g.setMap rd (mapInsert kd xd2 md)).maps[rd]? =
      some (mapInsert kd xd2 md) := by
    simp only [Heap.setMap]
    exact List.getElem?_set_self hlt
  unfold Value.SetMapIndex
  simp only [Value.kind_addr, c.kind, Value.load_setMap, Value.load_addr c.dst,
    Value.typ_addr, hget, c.dmap, c.elem, Heap.setMap_setMap]
  cases elem with
  | invalid =>
    refine ⟨mapErase k2 md, rfl, ?_, fun k3 h3 => mapLookup_mapErase_ne h3 md, ?_⟩
    · rw [mapLookup_mapErase_ne (Ne.symm hne), hd]
    · rw [mapErase_mapInsert_ne hne xd2 hd]
  | direct t y =>
    simp only [Value.typ_direct, Value.load]
    by_cases has : assignable E t = true
    · simp only [has, if_true]
      refine ⟨_, rfl, ?_, fun k3 h3 => ?_, ?_⟩
      · rw [mapLookup_mapInsert, if_neg hne, hd]
      · rw [mapLookup_mapInsert, if_neg (Ne.symm h3)]
      · rw [mapInsert_comm hne _ xd2 hd]
    · simp only [has, if_false, Bool.false_eq_true]
  | addr t b q =>
    simp only [Value.typ_addr, Value.load]
    cases g.read b q with
    | none => rfl
    | some y =>
      simp only []
      by_cases has : assignable E t = true
      · simp only [has, if_true]
        refine ⟨_, rfl, ?_, fun k3 h3 => ?_, ?_⟩
        · rw [mapLookup_mapInsert, if_neg hne, hd]
        · rw [mapLookup_mapInsert, if_neg (Ne.symm h3)]
        · rw [mapInsert_comm hne _ xd2 hd]
      · simp only [has, if_false, Bool.false_eq_true]

/-- The step of the key loop for a key the destination does not hold (or
holds with a nil interface): the source's entry is stored under the key. -/
theorem mergeMapKey_invalid_form (H : Host) (m : porter) (n : Nat)
    (rec : Value → Value → Options → M Unit) (o : Options) (dst src : Value)
    (key : Key) (h : Heap) (hde : mapEntry dst key h = .ok .invalid) :
    mergeMapKey H m n rec dst src o key h =
      match mapEntry src key h with
      | .error f => .fail f h
      | .ok srcE =>
        match dst.SetMapIndex key srcE h with
        | .ok g => .ok () g
        | .error f => .fail f h := by
  cases hse : mapEntry src key h with
  | error f => simp [mergeMapKey, hse]
  | ok srcE =>
    simp only [mergeMapKey, M.bind_apply, M.rd_apply, hse, hde, Value.IsValid,
      Bool.not_false, if_true, M.upd]

/-- The step of the key loop for a key `k2` commutes with the replacement of
the entry the destination holds under another key `kd`, when the
destination's entry under `k2` is absent, nil, or not of a kind merged in
place. -/
theorem mergeMapKey_other_key (H : Host) (m : porter) (n : Nat)
    (o : Options) {h : Heap} {T E : Ty} {a : Nat} {p : List Nat}
    {src : Value} {rd rs : Nat} {md smap : List (Key × Val)}
    (c : MapCtx h T E a p src rd rs md smap) (hrs : rs ≠ rd) {k2 kd : Key}
    (hne : k2 ≠ kd) {xd : Val} (xd2 : Val) (ho : o.Overwrite = true)
    (hfm : ∀ t f, tableLookup t m.mergeFuncs = some f → ReadsNoMap rd o f)
    (hfc : ∀ pr f, tableLookup pr m.convertFuncs = some f → ReadsNoMap rd o f)
    (hd : mapLookup kd md = some xd)
    (hleaf : ∀ x, mapLookup k2 md = some x →
      derefDirect E x = .ok .invalid ∨
      ∃ t v, derefDirect E x = .ok (.direct t v) ∧ mergedInPlace t.kind = false)
    {h' : Heap}
    (hm : mergeMapKey H m n (m.deepMerge H n) (.addr T a p) src o k2 h =
      .ok () h') :
    ∃ md', MapCtx h' T E a p src rd rs md' smap ∧
      mapLookup kd md' = some xd ∧
      (∀ k3, k3 ≠ k2 → mapLookup k3 md' = mapLookup k3 md) ∧
      mergeMapKey H m n (m.deepMerge H n) (.addr T a p) src o k2
          (h.setMap rd (mapInsert kd xd2 md)) =
        .ok () (h'.setMap rd (mapInsert kd xd2 md')) := by
  have c2 := c.setEntry hrs (mapInsert kd xd2 md)
  have hse : mapEntry src k2 (h.setMap rd (mapInsert kd xd2 md)) =
      mapEntry src k2 h := by
    rw [c2.srcEntry, c.srcEntry]
  have hl2 : mapLookup k2 (mapInsert kd xd2 md) = mapLookup k2 md := by
    rw [mapLookup_mapInsert, if_neg (Ne.symm hne)]
  have hde : mapEntry (.addr T a p) k2 (h.setMap rd (mapInsert kd xd2 md)) =
      mapEntry (.addr T a p) k2 h := by
    rw [c2.dstEntry, c.dstEntry, hl2]
  -- the destination has no entry under the key
  have hinv : mapEntry (.addr T a p) k2 h = .ok .invalid →
      ∃ md', MapCtx h' T E a p src rd rs md' smap ∧
        mapLookup kd md' = some xd ∧
        (∀ k3, k3 ≠ k2 → mapLookup k3 md' = mapLookup k3 md) ∧
        mergeMapKey H m n (m.deepMerge H n) (.addr T a p) src o k2
            (h.setMap rd (mapInsert kd xd2 md)) =
          .ok () (h'.setMap rd (mapInsert kd xd2 md')) := by
    intro hdi
    rw [mergeMapKey_invalid_form H m n _ o _ _ k2 h hdi] at hm
    rw [mergeMapKey_invalid_form H m n _ o _ _ k2 _ (hde.trans hdi), hse]
    cases hs : mapEntry src k2 h with
    | error f => simp [hs] at hm
    | ok srcE =>
      simp only [hs] at hm ⊢
      have hcm := SetMapIndex_setEntry_other c hne hd xd2 srcE
      cases hsm : Value.SetMapIndex (.addr T a p) k2 srcE h with
      | error f => simp [hsm] at hm
      | ok g =>
        simp only [hsm] at hm hcm
        injection hm with _ hm
        subst hm
        obtain ⟨md', hg, h1, h2, h3⟩ := hcm
        refine ⟨md', ?_, h1, h2, ?_⟩
        · rw [hg]; exact c.setEntry hrs md'
        · rw [h3, hg, Heap.setMap_setMap]
  cases hl : mapLookup k2 md with
  | none =>
    apply hinv
    rw [c.dstEntry, hl]
  | some x =>
    rcases hleaf x hl with hx | ⟨TE, dv, hx, hkind⟩
    · apply hinv
      rw [c.dstEntry, hl]
      exact hx
    · have hTE : TE.kind ≠ .Interface := fun hk => derefDirect_kind hx rfl hk
      rw [mergeMapKey_scratch_form H m n _ o c k2 ho hl hx hkind] at hm
      rw [mergeMapKey_scratch_form H m n _ o c2 k2 ho (hl2.trans hl) hx hkind,
        hse]
      cases hs : mapEntry src k2 h with
      | error f => simp [hs] at hm
      | ok srcE =>
        simp only [hs] at hm ⊢
        cases hst : srcE.typ with
        | error f => simp [hst] at hm
        | ok TS =>
          simp only [hst] at hm ⊢
          have hX : Scratch rd h.cells.length
              (if TE ≠ TS then
                m.convert H n (m.deepMerge H n) (.addr TE h.cells.length [])
                  srcE o
              else m.deepMerge H n (.addr TE h.cells.length []) srcE o) := by
            split
            · exact convert_scratch H m o rd _ ho hfc n _ TE [] srcE hTE hkind
                (fun s => deepMerge_scratch H m o rd _ hfm n TE [] s hTE hkind)
            · exact deepMerge_scratch H m o rd _ hfm n TE [] srcE hTE hkind
          obtain ⟨x1, x2, x3⟩ := hX (h.alloc TE.zero).1
          have x1' := x1 (mapInsert kd xd2 md)
          have hal : ((h.setMap rd (mapInsert kd xd2 md)).alloc TE.zero).1 =
              (h.alloc TE.zero).1.setMap rd (mapInsert kd xd2 md) := rfl
          have hlen : (h.setMap rd (mapInsert kd xd2 md)).cells.length =
              h.cells.length := rfl
          rw [hal, hlen, x1']
          cases hXr : (if TE ≠ TS then
                m.convert H n (m.deepMerge H n) (.addr TE h.cells.length [])
                  srcE o
              else m.deepMerge H n (.addr TE h.cells.length []) srcE o)
              (h.alloc TE.zero).1 with
          | fail f g => simp [hXr] at hm
          | ok u g =>
            simp only [hXr, Res.heap] at x2 x3 hm
            have hext : Extends h g := by
              intro a' p' v hr
              have hlt := Heap.read_lt hr
              rw [x3 a' p' (Nat.ne_of_lt hlt)]
              exact @Extends.append h (h.alloc TE.zero).1 [TE.zero] rfl a' p' v hr
            have cg : MapCtx g T E a p src rd rs md smap :=
              { kind := c.kind, elem := c.elem, dst := hext _ _ _ c.dst,
                styp := c.styp, sload := hext.load c.sload,
                dmap := by rw [x2]; exact c.dmap,
                smap := by rw [x2]; exact c.smap }
            have hcm := SetMapIndex_setEntry_other cg hne hd xd2
              (.addr TE h.cells.length [])
            cases hsm : Value.SetMapIndex (.addr T a p) k2
                (.addr TE h.cells.length []) g with
            | error f => simp [hsm] at hm
            | ok g1 =>
              simp only [hsm] at hm hcm
              injection hm with _ hm
              subst hm
              obtain ⟨md', hg, h1, h2, h3⟩ := hcm
              refine ⟨md', ?_, h1, h2, ?_⟩
              · rw [hg]; exact cg.setEntry hrs md'
              · simp only [Res.setMap, h3, hg, Heap.setMap_setMap]

/-- The key loop does not depend on the value the destination holds under a
key `kd` the loop visits, for an entry that is not of a kind merged in place,
when the destination's entries under the other keys visited are absent, nil,
or not of a kind merged in place. -/
theorem mergeMapKeys_entry_irrelevant (H : Host) (m : porter) (n : Nat)
    (o : Options) (T E : Ty) (a : Nat) (p : List Nat) (src : Value)
    (rd rs : Nat) (smap : List (Key × Val)) (hrs : rs ≠ rd) (kd : Key)
    (xd xd2 dv dv2 : Val) (TE : Ty) (ho : o.Overwrite = true)
    (hfm : ∀ t f, tableLookup t m.mergeFuncs = some f → ReadsNoMap rd o f)
    (hfc : ∀ pr f, tableLookup pr m.convertFuncs = some f → ReadsNoMap rd o f)
    (hdd : derefDirect E xd = .ok (.direct TE dv))
    (hdd2 : derefDirect E xd2 = .ok (.direct TE dv2))
    (hkind : mergedInPlace TE.kind = false)
    (ks : List Key) (hnd : ks.Nodup) :
    ∀ (h : Heap) (md : List (Key × Val)) (h' : Heap),
      MapCtx h T E a p src rd rs md smap →
      mapLookup kd md = some xd →
      (∀ k2 ∈ ks, k2 ≠ kd → ∀ x, mapLookup k2 md = some x →
        derefDirect E x = .ok .invalid ∨
        ∃ t v, derefDirect E x = .ok (.direct t v) ∧
          mergedInPlace t.kind = false) →
      mergeMapKeys H m n (m.deepMerge H n) (.addr T a p) src o ks h =
        .ok () h' →
      (kd ∈ ks →
        mergeMapKeys H m n (m.deepMerge H n) (.addr T a p) src o ks
          (h.setMap rd (mapInsert kd xd2 md)) = .ok () h') ∧
      (kd ∉ ks → ∃ md', h'.maps[rd]? = some md' ∧
        mergeMapKeys H m n (m.deepMerge H n) (.addr T a p) src o ks
          (h.setMap rd (mapInsert kd xd2 md)) =
            .ok () (h'.setMap rd (mapInsert kd xd2 md'))) := by
  induction ks with
  | nil =>
    intro h md h' c hd _ hm
    simp only [mergeMapKeys, M.pure_apply] at hm
    injection hm with _ hm
    subst hm
    exact ⟨fun hmem => by simp at hmem, fun _ => ⟨md, c.dmap, rfl⟩⟩
  | cons k2 ks ih =>
    intro h md h' c hd hall hm
    have hnd' : ks.Nodup := (List.nodup_cons.mp hnd).2
    have hk2 : k2 ∉ ks := (List.nodup_cons.mp hnd).1
    simp only [mergeMapKeys, M.bind_apply] at hm ⊢
    cases hstep : mergeMapKey H m n (m.deepMerge H n) (.addr T a p) src o k2 h with
    | fail f g => simp [hstep] at hm
    | ok u g =>
      simp only [hstep] at hm
      by_cases hkk : k2 = kd
      · subst hkk
        have hA := mergeMapKey_entry_irrelevant H m n o c hrs k2 xd2
          ho hfm hfc hd hdd hdd2 hkind
        rw [hstep] at hA
        simp only [hA]
        exact ⟨fun _ => hm, fun hmem => absurd (List.mem_cons_self _ _) hmem⟩
      · obtain ⟨md', cg, h1, h2, h3⟩ := mergeMapKey_other_key H m n o c hrs hkk
          xd2 ho hfm hfc hd (hall k2 (List.mem_cons_self _ _) hkk) hstep
        simp only [h3]
        have hall' : ∀ k3 ∈ ks, k3 ≠ kd → ∀ x, mapLookup k3 md' = some x →
            derefDirect E x = .ok .invalid ∨
            ∃ t v, derefDirect E x = .ok (.direct t v) ∧
              mergedInPlace t.kind = false := by
          intro k3 hk3 hne3 x hx
          have hne : k3 ≠ k2 := fun e => hk2 (e ▸ hk3)
          rw [h2 k3 hne] at hx
          exact hall k3 (List.mem_cons_of_mem _ hk3) hne3 x hx
        obtain ⟨i1, i2⟩ := ih hnd' g md' h' cg h1 hall' hm
        refine ⟨fun hmem => ?_, fun hmem => ?_⟩
        · rcases List.mem_cons.mp hmem with e | e
          · exact absurd e.symm hkk
          · exact i1 e
        · exact i2 (fun e => hmem (List.mem_cons_of_mem _ e))

/-- `deepMerge` on maps, both non-nil, with no merge function registered for
the map type: the key loop over the keys of the source. -/
theorem deepMerge_map_ctx (H : Host) (m : porter) (n : Nat) (o : Options)
    {h : Heap} {T E : Ty} {a : Nat} {p : List Nat}
    {src : Value} {rd rs : Nat} {md smap : List (Key × Val)}
    (c : MapCtx h T E a p src rd rs md smap)
    (hreg : tableLookup T m.mergeFuncs = none) :
    m.deepMerge H (n + 1) (.addr T a p) src o h =
      mergeMapKeys H m n (m.deepMerge H n) (.addr T a p) src o
        (smap.map (fun e => e.1)) h := by
  have hsk := Value.kind_of_typ c.styp
  simp [porter.deepMerge, porter.deepMergeBody, c.styp, hreg, c.kind,
    Value.IsNil, hsk, c.sload, Value.load_addr c.dst, Value.MapKeys, c.smap]

theorem Ty.of_underlying_slice : ∀ (t el : Ty), t.underlying = .slice el →
    t.kind = .Slice ∧ t.zero = .slice none
  | .basic _, _, hu => by simp [Ty.underlying] at hu
  | .named _ u, el, hu => by
    simp only [Ty.underlying] at hu
    simp only [Ty.kind, Ty.zero]
    exact Ty.of_underlying_slice u el hu
  | .array _ _, _, hu => by simp [Ty.underlying] at hu
  | .chan _, _, hu => by simp [Ty.underlying] at hu
  | .func _ _, _, hu => by simp [Ty.underlying] at hu
  | .iface, _, hu => by simp [Ty.underlying] at hu
  | .map _ _, _, hu => by simp [Ty.underlying] at hu
  | .ptr _, _, hu => by simp [Ty.underlying] at hu
  | .slice _, _, _ => by simp [Ty.kind, Ty.zero]
  | .struct _, _, hu => by simp [Ty.underlying] at hu

theorem assignable_of_derefDirect {E TE : Ty} {x v : Val}
    (hd : derefDirect E x = .ok (.direct TE v)) : assignable E TE = true := by
  by_cases hk : E.kind = .Interface
  · simp [assignable, hk]
  · rw [derefDirect_of_not_iface x hk] at hd
    injection hd with hd
    injection hd with hd _
    subst hd
    exact assignable_self _

/-- The step of the key loop for a key present in the destination whose entry
is not of a kind merged in place, when the source's entry has the same type:
the entry ends as what `deepMerge` leaves in a new zero value. -/
theorem mergeMapKey_scratch_result (H : Host) (m : porter) (n : Nat)
    (o : Options) {h : Heap} {T E : Ty} {a : Nat} {p : List Nat}
    {src : Value} {rd rs : Nat} {md smap : List (Key × Val)}
    (c : MapCtx h T E a p src rd rs md smap) (key : Key)
    {xd dv xs sv val : Val} {TE : Ty} {g : Heap} (ho : o.Overwrite = true)
    (hfm : ∀ t f, tableLookup t m.mergeFuncs = some f → ReadsNoMap rd o f)
    (hd : mapLookup key md = some xd) (hs : mapLookup key smap = some xs)
    (hdd : derefDirect E xd = .ok (.direct TE dv))
    (hsd : derefDirect E xs = .ok (.direct TE sv))
    (hkind : mergedInPlace TE.kind = false)
    (hrun : m.deepMerge H n (.addr TE h.cells.length []) (.direct TE sv) o
      (h.alloc TE.zero).1 = .ok () g)
    (hval : g.read h.cells.length [] = some val) :
    mergeMapKey H m n (m.deepMerge H n) (.addr T a p) src o key h =
      .ok () (g.setMap rd (mapInsert key (assignTo E TE val) md)) := by
  have hTE : TE.kind ≠ .Interface := fun hk => derefDirect_kind hdd rfl hk
  have hse : mapEntry src key h = .ok (.direct TE sv) := by
    rw [c.srcEntry, hs]
    exact hsd
  rw [mergeMapKey_scratch_form H m n _ o c key ho hd hdd hkind, hse]
  simp only [Value.typ_direct, ne_eq, not_true_eq_false, if_false, hrun]
  obtain ⟨_, x2, x3⟩ := deepMerge_scratch H m o rd h.cells.length hfm n TE []
    (.direct TE sv) hTE hkind (h.alloc TE.zero).1
  simp only [hrun, Res.heap] at x2 x3
  have hext : Extends h g := by
    intro a' p' v hr
    have hlt := Heap.read_lt hr
    rw [x3 a' p' (Nat.ne_of_lt hlt)]
    exact @Extends.append h (h.alloc TE.zero).1 [TE.zero] rfl a' p' v hr
  have cg : MapCtx g T E a p src rd rs md smap :=
    { kind := c.kind, elem := c.elem, dst := hext _ _ _ c.dst,
      styp := c.styp, sload := hext.load c.sload,
      dmap := by rw [x2]; exact c.dmap,
      smap := by rw [x2]; exact c.smap }
  rw [cg.setMapIndex key (Value.typ_addr _ _ _) (Value.load_addr hval)
    (assignable_of_derefDirect hdd)]

/-- C32: `deepMerge` on maps with `Overwrite` set, both maps non-nil, the
source's map object not the destination's, no merge function registered for
the map type; `kd` is a key both maps hold, and the destination's entry under
it, behind its interface layers, has a type `TE` of a kind other than struct,
pointer or map; the registered functions do not look at the destination's map
object.  (1) The result does not depend on the value the destination holds
under `kd`: run from the heap in which that entry is replaced by any other
entry of type `TE`, the step of the key loop for `kd` ends in the very same
heap; and so does the whole `deepMerge`, when the destination's entries under
the other keys of the source are absent, nil, or not of a kind merged in
place either.  (2) In Append slice mode an entry of a slice type ends as the elements of
the source's entry, not as the destination's followed by the source's.  (3)
A merge function `f` registered for `TE` is called with the zero value and
the source's entry, and the entry ends as what it returns. -/
theorem C32_map_entry_ignores_prior_value (H : Host) (m : porter) (n : Nat)
    (o : Options) {h : Heap} {T E : Ty} {a : Nat} {p : List Nat}
    {src : Value} {rd rs : Nat} {md smap : List (Key × Val)}
    (c : MapCtx h T E a p src rd rs md smap) (hrs : rs ≠ rd)
    (hreg : tableLookup T m.mergeFuncs = none) (kd : Key)
    {xd dv xs : Val} {TE : Ty} (ho : o.Overwrite = true)
    (hfm : ∀ t f, tableLookup t m.mergeFuncs = some f → ReadsNoMap rd o f)
    (hfc : ∀ pr f, tableLookup pr m.convertFuncs = some f → ReadsNoMap rd o f)
    (hd : mapLookup kd md = some xd) (hs : mapLookup kd smap = some xs)
    (hdd : derefDirect E xd = .ok (.direct TE dv))
    (hkind : mergedInPlace TE.kind = false) :
    (∀ xd2 dv2, derefDirect E xd2 = .ok (.direct TE dv2) →
      (∀ h', mergeMapKey H m n (m.deepMerge H n) (.addr T a p) src o kd h =
          .ok () h' →
        mergeMapKey H m n (m.deepMerge H n) (.addr T a p) src o kd
          (h.setMap rd (mapInsert kd xd2 md)) = .ok () h') ∧
      ((smap.map (fun e => e.1)).Nodup →
        (∀ k2 ∈ smap.map (fun e => e.1), k2 ≠ kd →
          ∀ x, mapLookup k2 md = some x →
            derefDirect E x = .ok .invalid ∨
            ∃ t v, derefDirect E x = .ok (.direct t v) ∧
              mergedInPlace t.kind = false) →
        ∀ h', m.deepMerge H (n + 1) (.addr T a p) src o h = .ok () h' →
          m.deepMerge H (n + 1) (.addr T a p) src o
            (h.setMap rd (mapInsert kd xd2 md)) = .ok () h')) ∧
    (∀ ss el, TE.underlying = .slice el →
      tableLookup TE m.mergeFuncs = none →
      o.SliceMode = AppendSliceMode →
      derefDirect E xs = .ok (.direct TE (.slice (some ss))) →
      ∃ h' r, mergeMapKey H m (n + 1) (m.deepMerge H (n + 1)) (.addr T a p)
          src o kd h = .ok () h' ∧ r.getD [] = ss ∧
        h'.maps[rd]? = some (mapInsert kd (assignTo E TE (.slice r)) md)) ∧
    (∀ f sv r, tableLookup TE m.mergeFuncs = some f →
      f.typ = mergeFuncType TE →
      derefDirect E xs = .ok (.direct TE sv) →
      f.impl (h.alloc TE.zero).1 TE.zero sv o.toOptionFields =
        .returns r none →
      ∃ h', mergeMapKey H m (n + 1) (m.deepMerge H (n + 1)) (.addr T a p)
          src o kd h = .ok () h' ∧
        h'.maps[rd]? = some (mapInsert kd (assignTo E TE r) md)) := by
  have hTE : TE.kind ≠ .Interface := fun hk => derefDirect_kind hdd rfl hk
  have hz := Heap.read_alloc_new h TE.zero
  refine ⟨fun xd2 dv2 hdd2 => ⟨fun h' hm => ?_, fun hnd hall h' hm => ?_⟩,
    fun ss el hu hnone hmode hsd => ?_, fun f sv r hf hft hsd himpl => ?_⟩
  · have hA := mergeMapKey_entry_irrelevant H m n o c hrs kd xd2
      ho hfm hfc hd hdd hdd2 hkind
    rw [hm] at hA
    exact hA
  · rw [deepMerge_map_ctx H m n o c hreg] at hm
    rw [deepMerge_map_ctx H m n o (c.setEntry hrs (mapInsert kd xd2 md)) hreg]
    have hmem : kd ∈ smap.map (fun e => e.1) :=
      (mapLookup_isSome_iff kd smap).mp ⟨xs, hs⟩
    exact (mergeMapKeys_entry_irrelevant H m n o T E a p src rd rs smap hrs kd
      xd xd2 dv dv2 TE ho hfm hfc hdd hdd2 hkind _ hnd h md h' c hd hall hm).1
      hmem
  · obtain ⟨hk, hzero⟩ := Ty.of_underlying_slice TE el hu
    have hz2 : (h.alloc TE.zero).1.read h.cells.length [] =
        some (.slice none) := hz.trans (congrArg some hzero)
    obtain ⟨g, r, hrun, hval, hr, _⟩ := deepMerge_append H m n o
      (h.alloc TE.zero).1 TE h.cells.length [] none ss (.direct TE (.slice (some ss)))
      hk hnone hmode hz2 rfl rfl
    refine ⟨_, r, mergeMapKey_scratch_result H m (n + 1) o c kd ho hfm hd hs
      hdd hsd hkind hrun hval, ?_, ?_⟩
    · simpa [ho] using hr
    · simp only [Heap.setMap]
      obtain ⟨_, x2, _⟩ := deepMerge_scratch H m o rd h.cells.length hfm (n + 1)
        TE [] (.direct TE (.slice (some ss))) hTE hkind (h.alloc TE.zero).1
      simp only [hrun, Res.heap] at x2
      rw [x2]
      exact List.getElem?_set_self c.maps_lt
  · have hcall : m.callCustom f (.addr TE h.cells.length []) (.direct TE sv) o
        (h.alloc TE.zero).1 = .ok (.direct TE r, none) (h.alloc TE.zero).1 := by
      simp only [porter.callCustom, M.rd_apply, hft, mergeFuncType, Ty.ins,
        Ty.outs, Ty.underlying, Value.typ_addr, Value.typ_direct,
        assignable_self, Bool.and_self, if_true, Value.load_addr hz,
        Value.load_direct, assignTo_self _ hTE, himpl]
    obtain ⟨g, hw, hdm⟩ := directMerge_addr o hTE (Value.typ_direct TE r)
      (Value.load_direct (h.alloc TE.zero).1 TE r) hz
    simp only [ho, true_or, if_true] at hdm
    have hrun : m.deepMerge H (n + 1) (.addr TE h.cells.length [])
        (.direct TE sv) o (h.alloc TE.zero).1 = .ok () g := by
      rw [deepMerge_custom H m n o hf (Value.typ_addr _ _ _)
        (Value.typ_direct _ _), hcall]
      exact hdm
    refine ⟨_, mergeMapKey_scratch_result H m (n + 1) o c kd ho hfm hd hs
      hdd hsd hkind hrun (Heap.read_write hw), ?_⟩
    simp only [Heap.setMap]
    rw [Heap.write_maps hw]
    exact List.getElem?_set_self (by
      simpa [Heap.alloc] using c.maps_lt)

theorem C32_map_entry_ignores_prior_value_witness :
    newPorter.deepMerge Host.trivial 2 (.addr exMapSlices 0 [])
        (.direct exMapSlices (.map (some 1)))
        { newOptions with SliceMode := AppendSliceMode }
        (exHeapSlices.setMap 0 (mapInsert (.str "k") (.slice (some [.int 9]))
          [(.str "k", .slice (some [.int 1]))])) =
      .ok () ⟨[.map (some 0), .slice (some [.int 2])],
        [[(.str "k", .slice (some [.int 2]))],
         [(.str "k", .slice (some [.int 2]))]]⟩ ∧
    (∃ h' r, mergeMapKey Host.trivial newPorter 2
        (newPorter.deepMerge Host.trivial 2) (.addr exMapSlices 0 [])
        (.direct exMapSlices (.map (some 1)))
        { newOptions with SliceMode := AppendSliceMode } (.str "k")
        exHeapSlices = .ok () h' ∧ r.getD [] = [.int 2] ∧
      h'.maps[0]? = some (mapInsert (.str "k")
        (assignTo (.slice (.basic .Int)) (.slice (.basic .Int)) (.slice r))
        [(.str "k", .slice (some [.int 1]))])) ∧
    (∃ h', mergeMapKey Host.trivial
        { mergeFuncs := [(.basic .Int, exAddInts)], convertFuncs := [] } 2
        (porter.deepMerge Host.trivial
          { mergeFuncs := [(.basic .Int, exAddInts)], convertFuncs := [] } 2)
        (.addr exMapInts 0 []) (.direct exMapInts (.map (some 1))) newOptions
        (.str "k") exHeapInts = .ok () h' ∧
      h'.maps[0]? = some (mapInsert (.str "k")
        (assignTo (.basic .Int) (.basic .Int) (.int 2))
        [(.str "k", .int 5)])) :=
  ⟨((C32_map_entry_ignores_prior_value Host.trivial newPorter 1
        { newOptions with SliceMode := AppendSliceMode }
        (⟨rfl, rfl, rfl, rfl, rfl, rfl, rfl⟩ :
          MapCtx exHeapSlices exMapSlices (.slice (.basic .Int)) 0 []
            (.direct exMapSlices (.map (some 1))) 0 1
            [(.str "k", .slice (some [.int 1]))]
            [(.str "k", .slice (some [.int 2]))])
        (by decide) rfl (.str "k") rfl
        (fun _ _ hf => by simp [newPorter, tableLookup] at hf)
        (fun _ _ hf => by simp [newPorter, tableLookup] at hf)
        rfl rfl rfl rfl).1 (.slice (some [.int 9])) (.slice (some [.int 9]))
        rfl).2 (by decide)
      (fun k2 hk2 hne => absurd (by simpa using hk2) hne) _ rfl,
    (C32_map_entry_ignores_prior_value Host.trivial newPorter 1
        { newOptions with SliceMode := AppendSliceMode }
        (⟨rfl, rfl, rfl, rfl, rfl, rfl, rfl⟩ :
          MapCtx exHeapSlices exMapSlices (.slice (.basic .Int)) 0 []
            (.direct exMapSlices (.map (some 1))) 0 1
            [(.str "k", .slice (some [.int 1]))]
            [(.str "k", .slice (some [.int 2]))])
        (by decide) rfl (.str "k") rfl
        (fun _ _ hf => by simp [newPorter, tableLookup] at hf)
        (fun _ _ hf => by simp [newPorter, tableLookup] at hf)
        rfl rfl rfl rfl).2.1 [.int 2] (.basic .Int) rfl rfl rfl rfl,
    (C32_map_entry_ignores_prior_value Host.trivial
        { mergeFuncs := [(.basic .Int, exAddInts)], convertFuncs := [] } 1
        newOptions
        (⟨rfl, rfl, rfl, rfl, rfl, rfl, rfl⟩ :
          MapCtx exHeapInts exMapInts (.basic .Int) 0 []
            (.direct exMapInts (.map (some 1))) 0 1
            [(.str "k", .int 5)] [(.str "k", .int 2)])
        (by decide) rfl (.str "k") rfl
        (fun _ f hf => by
          simp only [tableLookup] at hf
          split at hf
          · injection hf with hf
            subst hf
            intro _ _ _ _
            rfl
          · cases hf)
        (fun _ _ hf => by simp [tableLookup] at hf)
        rfl rfl rfl rfl).2.2 exAddInts (.int 2) (.int 2) rfl rfl rfl rfl⟩

/-! ## Keeping a region of the heap apart -/

theorem list_mem_of_getElem? {α : Type} : ∀ {l : List α} {i : Nat} {x : α},
    l[i]? = some x → x ∈ l
  | [], i, x, h => by simp at h
  | y :: ys, 0, x, h => by
    simp only [List.getElem?_cons_zero, Option.some.injEq] at h
    exact h ▸ List.mem_cons_self _ _
  | y :: ys, i + 1, x, h => by
    simp only [List.getElem?_cons_succ] at h
    exact List.mem_cons_of_mem _ (list_mem_of_getElem? h)

theorem Val.mentionsList_false {B : Region} {vs : List Val} :
    Val.mentionsList B vs = false ↔ ∀ v ∈ vs, Val.mentions B v = false := by
  induction vs with
  | nil => simp [Val.mentionsList]
  | cons v vs ih => simp [Val.mentionsList, ih]

theorem Val.mentions_getPath {B : Region} : ∀ (p : List Nat) {v w : Val},
    Val.mentions B v = false → v.getPath p = some w →
    Val.mentions B w = false
  | [], v, w, hv, hg => by
    simp only [Val.getPath, Option.some.injEq] at hg
    exact hg ▸ hv
  | i :: p, v, w, hv, hg => by
    cases v with
    | struct fs =>
      simp only [Val.getPath] at hg
      cases hfi : fs[i]? with
      | none => simp [hfi] at hg
      | some f =>
        simp only [hfi] at hg
        simp only [Val.mentions] at hv
        have hf : Val.mentions B f = false :=
          Val.mentionsList_false.mp hv f (list_mem_of_getElem? hfi)
        exact Val.mentions_getPath p hf hg
    | _ => simp [Val.getPath] at hg

theorem Val.mentions_setPath {B : Region} : ∀ (p : List Nat) {v v' x : Val},
    Val.mentions B v = false → Val.mentions B x = false →
    v.setPath p x = some v' → Val.mentions B v' = false
  | [], v, v', x, _, hx, hs => by
    simp only [Val.setPath, Option.some.injEq] at hs
    exact hs ▸ hx
  | i :: p, v, v', x, hv, hx, hs => by
    cases v with
    | struct fs =>
      simp only [Val.setPath] at hs
      cases hfi : fs[i]? with
      | none => simp [hfi] at hs
      | some f =>
        simp only [hfi] at hs
        cases hf : f.setPath p x with
        | none => simp [hf] at hs
        | some f' =>
          simp only [hf, Option.some.injEq] at hs
          subst hs
          simp only [Val.mentions] at hv ⊢
          have hall := Val.mentionsList_false.mp hv
          have hf0 : Val.mentions B f = false :=
            hall f (list_mem_of_getElem? hfi)
          have hf' := Val.mentions_setPath p hf0 hx hf
          refine Val.mentionsList_false.mpr (fun w hw => ?_)
          rcases List.mem_or_eq_of_mem_set hw with h1 | h1
          · exact hall w h1
          · exact h1 ▸ hf'
    | _ => simp [Val.setPath] at hs

/-- Writing below a path leaves the locations whose path neither extends it
nor is extended by it as they are. -/
theorem Val.getPath_setPath_outside : ∀ (q : List Nat) {v v' x : Val}
    {r : List Nat}, v.setPath q x = some v' → ¬ q <+: r → ¬ r <+: q →
    v'.getPath r = v.getPath r
  | [], v, v', x, r, _, h1, _ => absurd (List.nil_prefix) h1
  | i :: q, v, v', x, [], _, _, h2 => absurd (List.nil_prefix) h2
  | i :: q, v, v', x, j :: r, hs, h1, h2 => by
    cases v with
    | struct fs =>
      simp only [Val.setPath] at hs
      cases hfi : fs[i]? with
      | none => simp [hfi] at hs
      | some f =>
        simp only [hfi] at hs
        cases hf : f.setPath q x with
        | none => simp [hf] at hs
        | some f' =>
          simp only [hf, Option.some.injEq] at hs
          subst hs
          simp only [Val.getPath]
          by_cases hij : i = j
          · subst hij
            have hlt : i < fs.length := (List.getElem?_eq_some_iff.mp hfi).1
            rw [List.getElem?_set_self hlt, hfi]
            simp only []
            refine Val.getPath_setPath_outside q hf (fun hp => h1 ?_)
              (fun hp => h2 ?_)
            · exact (List.prefix_cons_inj i).mpr hp
            · exact (List.prefix_cons_inj i).mpr hp
          · rw [List.getElem?_set_ne hij]
    | _ => simp [Val.setPath] at hs

theorem noRef_read {B : Region} {h : Heap} (hn : h.NoRef B) {c : Nat}
    (hc : B.cell c = false ∨ B.root c = true)
    {p : List Nat} {v : Val} (hr : h.read c p = some v) :
    Val.mentions B v = false := by
  unfold Heap.read at hr
  cases hx : h.cells[c]? with
  | none => simp [hx] at hr
  | some x =>
    simp only [hx] at hr
    exact Val.mentions_getPath p (hn.2.2.1 c x hx hc) hr

theorem noRef_load {B : Region} {h : Heap} (hn : h.NoRef B) {v : Value}
    (hv : v.clean B) {x : Val} (hl : v.load h = .ok x) :
    Val.mentions B x = false := by
  cases v with
  | invalid => simp [Value.load] at hl
  | direct t y =>
    simp only [Value.load, Except.ok.injEq] at hl
    exact hl ▸ hv
  | addr t b p =>
    simp only [Value.load] at hl
    cases hr : h.read b p with
    | none => simp [hr] at hl
    | some y =>
      simp only [hr, Except.ok.injEq] at hl
      exact hl ▸ noRef_read hn hv hr

theorem noRef_write {B : Region} {h g : Heap} (hn : h.NoRef B) {b : Nat}
    {q : List Nat} {x : Val} (hx : Val.mentions B x = false)
    (hw : h.write b q x = some g) : g.NoRef B := by
  unfold Heap.write at hw
  cases hc : h.cells[b]? with
  | none => simp [hc] at hw
  | some c =>
    simp only [hc] at hw
    cases hsp : c.setPath q x with
    | none => simp [hsp] at hw
    | some c' =>
      simp only [hsp, Option.some.injEq] at hw
      subst hw
      have hlt : b < h.cells.length := (List.getElem?_eq_some_iff.mp hc).1
      refine ⟨by simpa using hn.1, hn.2.1, fun d y hy hd => ?_, hn.2.2.2⟩
      by_cases hdb : d = b
      · subst hdb
        simp only [List.getElem?_set_self hlt, Option.some.injEq] at hy
        subst hy
        exact Val.mentions_setPath q (hn.2.2.1 d c hc hd) hx hsp
      · simp only [List.getElem?_set_ne (Ne.symm hdb)] at hy
        exact hn.2.2.1 d y hy hd

theorem Heap.read_write_outside {B : Region} {zone : Nat → List Nat → Prop}
    {h g : Heap} {t : Ty} {b : Nat}
    {q : List Nat} {x : Val} (hw : h.write b q x = some g)
    (ho : Outside B zone (.addr t b q)) {c : Nat} {r : List Nat}
    (hc : B.cell c = true) (hz : zone c r) : g.read c r = h.read c r := by
  by_cases hb : b = c
  · subst hb
    obtain ⟨h1, h2⟩ := ho hc r hz
    unfold Heap.write at hw
    cases hx : h.cells[b]? with
    | none => simp [hx] at hw
    | some y =>
      simp only [hx] at hw
      cases hsp : y.setPath q x with
      | none => simp [hsp] at hw
      | some c' =>
        simp only [hsp, Option.some.injEq] at hw
        subst hw
        have hlt : b < h.cells.length := (List.getElem?_eq_some_iff.mp hx).1
        simp only [Heap.read, List.getElem?_set_self hlt, hx]
        exact Val.getPath_setPath_outside q hsp h1 h2
  · exact Heap.read_write_other hw (Ne.symm hb) r

theorem noRef_alloc {B : Region} {h : Heap} (hn : h.NoRef B) {v : Val}
    (hv : Val.mentions B v = false) :
    (h.alloc v).1.NoRef B ∧ B.cell (h.alloc v).2 = false ∧
      ∀ c r, B.cell c = true → (h.alloc v).1.read c r = h.read c r := by
  have hnew : B.cell h.cells.length = false := by
    cases hb : B.cell h.cells.length with
    | false => rfl
    | true => exact absurd (hn.1 _ hb) (Nat.lt_irrefl _)
  refine ⟨⟨fun c hc => ?_, hn.2.1, fun c x hx hc => ?_, hn.2.2.2⟩, hnew,
    fun c r hc => ?_⟩
  · simp only [Heap.alloc, List.length_append]
    exact Nat.lt_add_right _ (hn.1 c hc)
  · simp only [Heap.alloc] at hx
    by_cases hlt : c < h.cells.length
    · rw [List.getElem?_append_left hlt] at hx
      exact hn.2.2.1 c x hx hc
    · rw [List.getElem?_append_right (Nat.le_of_not_lt hlt)] at hx
      cases hi : c - h.cells.length with
      | zero =>
        simp only [hi, List.getElem?_cons_zero, Option.some.injEq] at hx
        exact hx ▸ hv
      | succ j => simp [hi] at hx
  · simp only [Heap.read, Heap.alloc, List.getElem?_append_left (hn.1 c hc)]

theorem noRef_setMap {B : Region} {h : Heap} (hn : h.NoRef B) {r : Nat}
    (hr : B.map r = false)
    {md : List (Key × Val)} (hmd : ∀ e ∈ md, Val.mentions B e.2 = false) :
    (h.setMap r md).NoRef B := by
  refine ⟨hn.1, by simpa [Heap.setMap] using hn.2.1, hn.2.2.1,
    fun i mo hmo hi e he => ?_⟩
  simp only [Heap.setMap] at hmo
  by_cases hir : i = r
  · subst hir
    cases hlt : decide (i < h.maps.length) with
    | true =>
      rw [List.getElem?_set_self (of_decide_eq_true hlt)] at hmo
      injection hmo with hmo
      exact hmd e (hmo ▸ he)
    | false =>
      rw [List.getElem?_eq_none (by
        simpa using of_decide_eq_false hlt)] at hmo
      cases hmo
  · rw [List.getElem?_set_ne (Ne.symm hir)] at hmo
    exact hn.2.2.2 i mo hmo hi e he

theorem noRef_allocMap {B : Region} {h : Heap} (hn : h.NoRef B) :
    h.allocMap.1.NoRef B ∧ B.map h.allocMap.2 = false := by
  have hnew : B.map h.maps.length = false := by
    cases hb : B.map h.maps.length with
    | false => rfl
    | true => exact absurd (hn.2.1 _ hb) (Nat.lt_irrefl _)
  refine ⟨⟨hn.1, fun i hi => ?_, hn.2.2.1, fun i mo hmo hi e he => ?_⟩, hnew⟩
  · simp only [Heap.allocMap, List.length_append]
    exact Nat.lt_add_right _ (hn.2.1 i hi)
  · simp only [Heap.allocMap] at hmo
    by_cases hlt : i < h.maps.length
    · rw [List.getElem?_append_left hlt] at hmo
      exact hn.2.2.2 i mo hmo hi e he
    · rw [List.getElem?_append_right (Nat.le_of_not_lt hlt)] at hmo
      cases hj : i - h.maps.length with
      | zero =>
        simp only [hj, List.getElem?_cons_zero, Option.some.injEq] at hmo
        subst hmo
        simp at he
      | succ j => simp [hj] at hmo

theorem noRef_mapEntries {B : Region} {h : Heap} (hn : h.NoRef B) {r : Nat}
    (hr : B.map r = false)
    {md : List (Key × Val)} (hm : h.maps[r]? = some md) :
    ∀ e ∈ md, Val.mentions B e.2 = false :=
  hn.2.2.2 r md hm hr

theorem mapLookup_mem {k : Key} {v : Val} : ∀ {m : List (Key × Val)},
    mapLookup k m = some v → ∃ e ∈ m, e.2 = v
  | [], h => by simp [mapLookup] at h
  | (k1, v1) :: m, h => by
    simp only [mapLookup] at h
    split at h
    · injection h with h
      exact ⟨(k1, v1), List.mem_cons_self _ _, h⟩
    · obtain ⟨e, he, hv⟩ := mapLookup_mem h
      exact ⟨e, List.mem_cons_of_mem _ he, hv⟩

theorem mapInsert_mem {k : Key} {v : Val} : ∀ {m : List (Key × Val)}
    {e : Key × Val}, e ∈ mapInsert k v m → e = (k, v) ∨ e ∈ m
  | [], e, h => by
    simp only [mapInsert, List.mem_singleton] at h
    exact Or.inl h
  | (k1, v1) :: m, e, h => by
    simp only [mapInsert] at h
    split at h
    · rcases List.mem_cons.mp h with h1 | h1
      · exact Or.inl h1
      · exact Or.inr (List.mem_cons_of_mem _ h1)
    · rcases List.mem_cons.mp h with h1 | h1
      · exact Or.inr (h1 ▸ List.mem_cons_self _ _)
      · rcases mapInsert_mem h1 with h2 | h2
        · exact Or.inl h2
        · exact Or.inr (List.mem_cons_of_mem _ h2)

theorem mapErase_mem {k : Key} {m : List (Key × Val)} {e : Key × Val}
    (h : e ∈ mapErase k m) : e ∈ m := by
  simp only [mapErase] at h
  exact List.mem_of_mem_filter h

theorem assignTo_mentions {B : Region} (dst src : Ty) {x : Val}
    (hx : Val.mentions B x = false) :
    Val.mentions B (assignTo dst src x) = false := by
  unfold assignTo
  split
  · simpa [Val.mentions] using hx
  · exact hx

theorem zeroOfKind_mentions (B : Region) (k : Kind) :
    Val.mentions B (zeroOfKind k) = false := by
  cases k <;> simp [zeroOfKind, Val.mentions, Val.mentionsList]

theorem mentionsList_replicate {B : Region} {v : Val}
    (hv : Val.mentions B v = false) (n : Nat) :
    Val.mentionsList B (List.replicate n v) = false := by
  refine Val.mentionsList_false.mpr (fun w hw => ?_)
  rw [List.eq_of_mem_replicate hw]
  exact hv

mutual
theorem Ty.zero_mentions (B : Region) : ∀ t : Ty, Val.mentions B t.zero = false
  | .basic k => by simp only [Ty.zero]; exact zeroOfKind_mentions B k
  | .named _ u => by simp only [Ty.zero]; exact Ty.zero_mentions B u
  | .array n e => by
    simp only [Ty.zero, Val.mentions]
    exact mentionsList_replicate (Ty.zero_mentions B e) n
  | .chan _ => by simp [Ty.zero, Val.mentions]
  | .func _ _ => by simp [Ty.zero, Val.mentions]
  | .iface => by simp [Ty.zero, Val.mentions]
  | .map _ _ => by simp [Ty.zero, Val.mentions]
  | .ptr _ => by simp [Ty.zero, Val.mentions]
  | .slice _ => by simp [Ty.zero, Val.mentions]
  | .struct fs => by
    simp only [Ty.zero, Val.mentions]
    exact Ty.zeroFields_mentions B fs
theorem Ty.zeroFields_mentions (B : Region) :
    ∀ fs : List (String × String × Ty),
      Val.mentionsList B (Ty.zeroFields fs) = false
  | [] => by simp [Ty.zeroFields, Val.mentionsList]
  | (_, _, t) :: r => by
    simp only [Ty.zeroFields, Val.mentionsList, Bool.or_eq_false_iff]
    exact ⟨Ty.zero_mentions B t, Ty.zeroFields_mentions B r⟩
end

theorem safe_ret {α : Type} {B : Region} {zone : Nat → List Nat → Prop}
    {Q : α → Prop} {v : α} (hq : Q v) : Safe B zone Q (pure v : M α) := by
  intro h hn
  refine ⟨hn, fun _ _ _ _ => rfl, fun w g hw => ?_⟩
  simp only [M.pure_apply] at hw
  injection hw with h1 _
  exact h1 ▸ hq

theorem safe_fault {α : Type} {B : Region} {zone : Nat → List Nat → Prop}
    {Q : α → Prop} (f : Fault) : Safe B zone Q (M.fail f : M α) := by
  intro h hn
  exact ⟨hn, fun _ _ _ _ => rfl, fun w g hw => by cases hw⟩

theorem safe_read {α : Type} {B : Region} {zone : Nat → List Nat → Prop}
    {Q : α → Prop} (f : Heap → Except Fault α)
    (hf : ∀ h v, h.NoRef B → f h = .ok v → Q v) : Safe B zone Q (M.rd f) := by
  intro h hn
  simp only [M.rd]
  cases hfh : f h with
  | error e => exact ⟨hn, fun _ _ _ _ => rfl, fun w g hw => by cases hw⟩
  | ok v =>
    refine ⟨hn, fun _ _ _ _ => rfl, fun w g hw => ?_⟩
    injection hw with h1 _
    exact h1 ▸ hf h v hn hfh

theorem safe_seq {α β : Type} {B : Region} {zone : Nat → List Nat → Prop}
    {Q : α → Prop} {Q' : β → Prop} {x : M α} {k : α → M β}
    (hx : Safe B zone Q x) (hk : ∀ v, Q v → Safe B zone Q' (k v)) :
    Safe B zone Q' (x >>= k) := by
  intro h hn
  obtain ⟨h1, h2, h3⟩ := hx h hn
  simp only [M.bind_apply]
  cases hxh : x h with
  | fail e g =>
    rw [hxh] at h1 h2
    exact ⟨h1, h2, fun w g' hw => by cases hw⟩
  | ok v g =>
    rw [hxh] at h1 h2
    simp only [Res.heap] at h1 h2
    obtain ⟨k1, k2, k3⟩ := hk v (h3 v g hxh) g h1
    exact ⟨k1, fun c r hc hr => (k2 c r hc hr).trans (h2 c r hc hr), k3⟩

theorem safe_weaken {α : Type} {B : Region} {zone : Nat → List Nat → Prop}
    {Q Q' : α → Prop} {x : M α} (hx : Safe B zone Q x)
    (hq : ∀ v, Q v → Q' v) : Safe B zone Q' x := by
  intro h hn
  obtain ⟨h1, h2, h3⟩ := hx h hn
  exact ⟨h1, h2, fun v g hv => hq v (h3 v g hv)⟩

theorem safe_zone {α : Type} {B : Region}
    {zone zone' : Nat → List Nat → Prop}
    {Q : α → Prop} {x : M α} (hx : Safe B zone' Q x)
    (hz : ∀ c r, zone c r → zone' c r) : Safe B zone Q x := by
  intro h hn
  obtain ⟨h1, h2, h3⟩ := hx h hn
  exact ⟨h1, fun c r hc hr => h2 c r hc (hz c r hr), h3⟩

theorem Value.away_clean {B : Region} {v : Value} (hv : v.away B) :
    v.clean B := by
  cases v with
  | invalid => trivial
  | direct t x => exact hv
  | addr t b q => exact Or.inl hv

theorem Value.away_outside {B : Region} {v : Value} (hv : v.away B)
    (zone : Nat → List Nat → Prop) : Outside B zone v := by
  cases v with
  | invalid => trivial
  | direct t x => trivial
  | addr t b q =>
    intro hb
    have hv2 : B.cell b = false := hv
    rw [hv2] at hb
    cases hb

theorem Outside.of_empty {B : Region} (v : Value) :
    Outside B (fun _ _ => False) v := by
  cases v with
  | invalid => trivial
  | direct t x => trivial
  | addr t b q => exact fun _ _ hr => absurd hr id

theorem DstOk.of_away {B : Region} {zone : Nat → List Nat → Prop} {v : Value}
    (hv : v.away B) : DstOk B zone v :=
  ⟨Value.away_clean hv, Value.away_outside hv zone⟩

theorem safe_set {B : Region} {zone : Nat → List Nat → Prop} {dst x : Value}
    (hd : Outside B zone dst) (hdc : dst.clean B) (hx : x.clean B) :
    Safe B zone (fun _ : Unit => True) (M.upd (dst.Set x)) := by
  intro h hn
  simp only [M.upd]
  cases hs : dst.Set x h with
  | error e => exact ⟨hn, fun _ _ _ _ => rfl, fun _ _ _ => trivial⟩
  | ok g =>
    simp only [Res.heap]
    cases dst with
    | invalid => simp [Value.Set] at hs
    | direct t v => simp [Value.Set] at hs
    | addr t b q =>
      simp only [Value.Set] at hs
      cases htx : x.typ with
      | error e => simp [htx] at hs
      | ok tx =>
        cases hxl : x.load h with
        | error e => simp [htx, hxl] at hs
        | ok xv =>
          simp only [htx, hxl] at hs
          split at hs
          · cases hw : h.write b q (assignTo t tx xv) with
            | none => simp [hw] at hs
            | some g' =>
              simp only [hw, Except.ok.injEq] at hs
              subst hs
              have hxv := assignTo_mentions (B := B) t tx (noRef_load hn hx hxl)
              exact ⟨noRef_write hn hxv hw,
                fun c r hc hr => Heap.read_write_outside hw hd hc hr,
                fun _ _ _ => trivial⟩
          · cases hs

theorem safe_setMapIndex {B : Region} {zone : Nat → List Nat → Prop}
    {v : Value} (hv : v.clean B)
    (k : Key) {elem : Value} (he : elem.clean B) :
    Safe B zone (fun _ : Unit => True) (M.upd (v.SetMapIndex k elem)) := by
  intro h hn
  simp only [M.upd]
  cases hs : v.SetMapIndex k elem h with
  | error e => exact ⟨hn, fun _ _ _ _ => rfl, fun _ _ _ => trivial⟩
  | ok g =>
    simp only [Res.heap]
    refine ⟨?_, fun c r _ _ => ?_, fun _ _ _ => trivial⟩
    · unfold Value.SetMapIndex at hs
      split at hs
      · rename_i r0 t0 _ hvl _
        have hm0 := noRef_load hn hv hvl
        split at hs
        · split at hs
          · injection hs with hs
            exact hs ▸ hn
          · rename_i r1
            split at hs
            · rename_i mo hmo
              have hr1 : B.map r1 = false := by
                simpa [Val.mentions] using hm0
              injection hs with hs
              subst hs
              exact noRef_setMap hn hr1 (fun e he' =>
                noRef_mapEntries hn hr1 hmo e (mapErase_mem he'))
            · cases hs
        · split at hs
          · rename_i te x e0 hte hxl _
            split at hs
            · split at hs
              · cases hs
              · rename_i r1
                split at hs
                · rename_i mo hmo
                  have hr1 : B.map r1 = false := by
                    simpa [Val.mentions] using hm0
                  injection hs with hs
                  subst hs
                  refine noRef_setMap hn hr1 (fun e he' => ?_)
                  rcases mapInsert_mem he' with h1 | h1
                  · rw [h1]
                    exact assignTo_mentions _ _ (noRef_load hn he hxl)
                  · exact noRef_mapEntries hn hr1 hmo e h1
                · cases hs
            · cases hs
          · cases hs
          · cases hs
          · cases hs
      · cases hs
      · cases hs
    · rw [Heap.read, Heap.read, SetMapIndex_cells v k elem h g hs]

theorem safe_new {B : Region} {zone : Nat → List Nat → Prop} (t : Ty) :
    Safe B zone (fun v => v.away B) (New t) := by
  intro h hn
  obtain ⟨h1, h2, h3⟩ := noRef_alloc hn (Ty.zero_mentions B t)
  refine ⟨h1, fun c r hc _ => h3 c r hc, fun v g hv => ?_⟩
  simp only [New] at hv
  injection hv with hv _
  subst hv
  simpa [Value.away, Val.mentions] using h2

theorem safe_makeMap {B : Region} {zone : Nat → List Nat → Prop} (t : Ty) :
    Safe B zone (fun v => v.away B) (MakeMap t) := by
  intro h hn
  obtain ⟨h1, h2⟩ := noRef_allocMap hn
  refine ⟨h1, fun c r _ _ => rfl, fun v g hv => ?_⟩
  simp only [MakeMap] at hv
  injection hv with hv _
  subst hv
  simpa [Value.away, Val.mentions] using h2

theorem Value.Elem_away {B : Region} {h : Heap} (hn : h.NoRef B) {v e : Value}
    (hv : v.clean B) (he : v.Elem h = .ok e) : e.away B := by
  unfold Value.Elem at he
  split at he
  · cases hl : v.load h with
    | error f => simp [hl] at he
    | ok x =>
      have hx := noRef_load hn hv hl
      simp only [hl] at he
      split at he
      · injection he with he; subst he; trivial
      · rename_i t y heq
        injection he with he
        subst he
        injection heq with heq
        subst heq
        simpa [Value.away, Val.mentions] using hx
      · cases he
      · cases he
  · cases hl : v.load h with
    | error f => simp [hl] at he
    | ok x =>
      have hx := noRef_load hn hv hl
      simp only [hl] at he
      split at he
      · injection he with he; subst he; trivial
      · rename_i b t heq _
        injection heq with heq
        subst heq
        split at he
        · injection he with he
          subst he
          simpa [Value.away, Val.mentions] using hx
        · cases he
      · cases he
      · cases he
  · cases he

theorem safe_newElem {B : Region} {zone : Nat → List Nat → Prop} (t : Ty) :
    Safe B zone (fun v => v.away B) (newElem t) := by
  unfold newElem
  refine safe_seq (safe_new t) (fun p hp => ?_)
  exact safe_read _ (fun h v hn hv => Value.Elem_away hn (Value.away_clean hp) hv)

theorem derefDirect_away {B : Region} : ∀ (t : Ty) (x : Val) {e : Value},
    Val.mentions B x = false → derefDirect t x = .ok e → e.away B
  | t, .iface none, e, _, hd => by
    simp only [derefDirect] at hd
    split at hd <;> (injection hd with hd; subst hd; simp [Value.away, Val.mentions])
  | t, .iface (some (t', v')), e, hx, hd => by
    simp only [derefDirect] at hd
    split at hd
    · exact derefDirect_away t' v' (by simpa [Val.mentions] using hx) hd
    · injection hd with hd
      subst hd
      exact hx
  | t, .bool _, e, hx, hd => by
    simp only [derefDirect] at hd
    split at hd
    · cases hd
    · injection hd with hd; subst hd; exact hx
  | t, .int _, e, hx, hd => by
    simp only [derefDirect] at hd
    split at hd
    · cases hd
    · injection hd with hd; subst hd; exact hx
  | t, .uint _, e, hx, hd => by
    simp only [derefDirect] at hd
    split at hd
    · cases hd
    · injection hd with hd; subst hd; exact hx
  | t, .float _, e, hx, hd => by
    simp only [derefDirect] at hd
    split at hd
    · cases hd
    · injection hd with hd; subst hd; exact hx
  | t, .complex _ _, e, hx, hd => by
    simp only [derefDirect] at hd
    split at hd
    · cases hd
    · injection hd with hd; subst hd; exact hx
  | t, .str _, e, hx, hd => by
    simp only [derefDirect] at hd
    split at hd
    · cases hd
    · injection hd with hd; subst hd; exact hx
  | t, .ptr _, e, hx, hd => by
    simp only [derefDirect] at hd
    split at hd
    · cases hd
    · injection hd with hd; subst hd; exact hx
  | t, .uptr _, e, hx, hd => by
    simp only [derefDirect] at hd
    split at hd
    · cases hd
    · injection hd with hd; subst hd; exact hx
  | t, .map _, e, hx, hd => by
    simp only [derefDirect] at hd
    split at hd
    · cases hd
    · injection hd with hd; subst hd; exact hx
  | t, .chan _, e, hx, hd => by
    simp only [derefDirect] at hd
    split at hd
    · cases hd
    · injection hd with hd; subst hd; exact hx
  | t, .func _, e, hx, hd => by
    simp only [derefDirect] at hd
    split at hd
    · cases hd
    · injection hd with hd; subst hd; exact hx
  | t, .slice _, e, hx, hd => by
    simp only [derefDirect] at hd
    split at hd
    · cases hd
    · injection hd with hd; subst hd; exact hx
  | t, .array _, e, hx, hd => by
    simp only [derefDirect] at hd
    split at hd
    · cases hd
    · injection hd with hd; subst hd; exact hx
  | t, .struct _, e, hx, hd => by
    simp only [derefDirect] at hd
    split at hd
    · cases hd
    · injection hd with hd; subst hd; exact hx

/-- The value behind the interface layers of a destination handle is a
destination handle for the same zone. -/
theorem derefInterface_dstOk {B : Region} {zone : Nat → List Nat → Prop}
    {h : Heap} (hn : h.NoRef B) {v e : Value} (hv : DstOk B zone v)
    (hd : derefInterface v h = .ok e) : DstOk B zone e := by
  cases v with
  | invalid =>
    simp only [derefInterface] at hd
    injection hd with hd
    exact hd ▸ hv
  | direct t x => exact DstOk.of_away (derefDirect_away t x hv.1 hd)
  | addr t b q =>
    simp only [derefInterface] at hd
    split at hd
    · cases hr : h.read b q with
      | none => simp [hr] at hd
      | some x =>
        simp only [hr] at hd
        exact DstOk.of_away (derefDirect_away t x (noRef_read hn hv.1 hr) hd)
    · injection hd with hd
      exact hd ▸ hv

theorem derefInterface_clean {B : Region} {h : Heap} (hn : h.NoRef B)
    {v e : Value} (hv : v.clean B) (hd : derefInterface v h = .ok e) :
    e.clean B :=
  (@derefInterface_dstOk B (fun _ _ => False) h hn v e
    ⟨hv, Outside.of_empty _⟩ hd).1

theorem derefPtr_dstOk {B : Region} {zone : Nat → List Nat → Prop} {h : Heap}
    (hn : h.NoRef B) : ∀ (n : Nat) {v e : Value}, DstOk B zone v →
    derefPtr h n v = .ok e → DstOk B zone e
  | 0, v, e, hv, hd => by
    simp only [derefPtr] at hd
    split at hd
    · cases hd
    · injection hd with hd
      exact hd ▸ hv
  | n + 1, v, e, hv, hd => by
    simp only [derefPtr] at hd
    split at hd
    · cases he : v.Elem h with
      | error f => simp [he] at hd
      | ok w =>
        simp only [he] at hd
        exact derefPtr_dstOk hn n (DstOk.of_away (Value.Elem_away hn hv.1 he)) hd
    · injection hd with hd
      exact hd ▸ hv

theorem derefPtr_clean {B : Region} {h : Heap} (hn : h.NoRef B) (n : Nat)
    {v e : Value} (hv : v.clean B) (hd : derefPtr h n v = .ok e) :
    e.clean B :=
  (@derefPtr_dstOk B (fun _ _ => False) h hn n v e
    ⟨hv, Outside.of_empty _⟩ hd).1

theorem Field_dstOk {B : Region} {zone : Nat → List Nat → Prop} {v f : Value}
    {i : Nat} (hv : DstOk B zone v) (hf : v.Field i = .ok f) :
    DstOk B zone f := by
  cases v with
  | invalid => simp [Value.Field, Value.kind] at hf
  | direct t x =>
    obtain ⟨y, fs, w, _, rfl, hw, rfl⟩ := Field_direct_ok hf
    refine DstOk.of_away ?_
    have hx : Val.mentions B (.struct fs) = false := hv.1
    simp only [Val.mentions] at hx
    exact Val.mentionsList_false.mp hx w (list_mem_of_getElem? hw)
  | addr t b q =>
    obtain ⟨y, _, rfl⟩ := Field_addr_ok hf
    refine ⟨hv.1, fun hb r hr => ?_⟩
    obtain ⟨h1, h2⟩ := hv.2 hb r hr
    refine ⟨fun hp => h1 ((List.prefix_append q [i]).trans hp), fun hp => ?_⟩
    rcases List.prefix_concat_iff.mp hp with h3 | h3
    · exact h1 (h3 ▸ List.prefix_append q [i])
    · exact h2 h3

theorem Field_clean {B : Region} {v f : Value} {i : Nat} (hv : v.clean B)
    (hf : v.Field i = .ok f) : f.clean B :=
  (@Field_dstOk B (fun _ _ => False) v f i ⟨hv, Outside.of_empty _⟩ hf).1

theorem MapIndex_away {B : Region} {h : Heap} (hn : h.NoRef B) {v e : Value}
    (hv : v.clean B) {k : Key} (he : v.MapIndex h k = .ok e) : e.away B := by
  unfold Value.MapIndex at he
  split at he
  · injection he with he; subst he; trivial
  · rename_i r0 t0 _ hvl _
    have hr0 : B.map r0 = false := by
      simpa [Val.mentions] using noRef_load hn hv hvl
    split at he
    · rename_i mo e0 hmo _
      split at he
      · rename_i x hx
        injection he with he
        subst he
        obtain ⟨en, hen, hv2⟩ := mapLookup_mem hx
        exact hv2 ▸ noRef_mapEntries hn hr0 hmo en hen
      · injection he with he; subst he; trivial
    · cases he
  · cases he
  · cases he

theorem mapEntry_away {B : Region} {h : Heap} (hn : h.NoRef B) {v e : Value}
    (hv : v.clean B) {k : Key} (he : mapEntry v k h = .ok e) : e.away B := by
  unfold mapEntry at he
  cases hm : v.MapIndex h k with
  | error f => simp [hm] at he
  | ok w =>
    simp only [hm] at he
    have hw := MapIndex_away hn hv hm
    cases w with
    | invalid =>
      simp only [derefInterface] at he
      injection he with he; subst he; trivial
    | direct t x => exact derefDirect_away t x hw he
    | addr t b q =>
      unfold Value.MapIndex at hm
      repeat' split at hm
      all_goals cases hm

theorem mentionsList_append {B : Region} (xs ys : List Val) :
    Val.mentionsList B (xs ++ ys) =
      (Val.mentionsList B xs || Val.mentionsList B ys) := by
  induction xs with
  | nil => simp [Val.mentionsList]
  | cons x xs ih => simp [Val.mentionsList, ih, Bool.or_assoc]

theorem mentions_slice_getD {B : Region} {es : Option (List Val)}
    (h : Val.mentions B (.slice es) = false) :
    Val.mentionsList B (es.getD []) = false := by
  cases es with
  | none => simp [Val.mentionsList]
  | some l => simpa [Val.mentions] using h

theorem AppendSlice_away {B : Region} {h : Heap} (hn : h.NoRef B)
    {s t e : Value} (hs : s.clean B) (ht : t.clean B)
    (he : AppendSlice s t h = .ok e) : e.away B := by
  unfold AppendSlice at he
  split at he
  · rename_i x y ts tt _ _ hsl htl _ _
    have hx := mentions_slice_getD (noRef_load hn hs hsl)
    have hy := mentions_slice_getD (noRef_load hn ht htl)
    split at he
    · split at he
      · injection he with he; subst he; simp [Value.away, Val.mentions]
      · injection he with he
        subst he
        simp only [Value.away, Val.mentions, mentionsList_append, hx, hy,
          Bool.or_self]
    · cases he
  · cases he
  · cases he

theorem sliceElems_clean {B : Region} {h : Heap} (hn : h.NoRef B)
    {v : Value} {l : List Val} (hv : v.clean B)
    (he : sliceElems v h = .ok l) : Val.mentionsList B l = false := by
  unfold sliceElems at he
  split at he
  · rename_i x _ hl
    injection he with he
    subst he
    exact mentions_slice_getD (noRef_load hn hv hl)
  · cases he
  · cases he

theorem Append_away {B : Region} {h : Heap} (hn : h.NoRef B)
    {s e : Value} {xs : List Val} (hs : s.clean B)
    (hxs : Val.mentionsList B xs = false)
    (he : Append s xs h = .ok e) : e.away B := by
  unfold Append at he
  split at he
  · rename_i x ts _ hsl _
    have hx := mentions_slice_getD (noRef_load hn hs hsl)
    split at he
    · injection he with he; subst he; simp [Value.away, Val.mentions]
    · injection he with he
      subst he
      simp only [Value.away, Val.mentions, mentionsList_append, hx, hxs,
        Bool.or_self]
  · cases he
  · cases he

theorem mentionsList_filter {B : Region} {l : List Val} (p : Val → Bool)
    (hl : Val.mentionsList B l = false) :
    Val.mentionsList B (l.filter p) = false :=
  Val.mentionsList_false.mpr (fun v hv =>
    Val.mentionsList_false.mp hl v (List.mem_of_mem_filter hv))

theorem safe_callCustom {B : Region} {zone : Nat → List Nat → Prop} (m : porter)
    {f : Func} (hf : FunOk B f) {dst src : Value} (o : Options)
    (hd : dst.clean B) (hs : src.clean B) :
    Safe B zone (fun p : Value × Option String => p.1.away B)
      (m.callCustom f dst src o) := by
  unfold porter.callCustom
  refine safe_read _ (fun h v hn hv => ?_)
  split at hv
  · split at hv
    · split at hv
      · split at hv
        · rename_i dv sv hdl hsl
          split at hv
          · rename_i r e himpl
            split at hv
            · injection hv with hv
              subst hv
              exact hf h _ _ _ r e hn
                (assignTo_mentions _ _ (noRef_load hn hd hdl))
                (assignTo_mentions _ _ (noRef_load hn hs hsl)) himpl
            · cases hv
          · cases hv
        · cases hv
        · cases hv
      · cases hv
    · cases hv
    · cases hv
  · cases hv

theorem Convert_mentions {B : Region} {H : Host} {st dt : Ty} {sv c : Val}
    (hc : Convert H st sv dt = some c) : Val.mentions B c = false := by
  unfold Convert at hc
  split at hc <;>
    first
    | (injection hc with hc; subst hc; simp [Val.mentions])
    | (split at hc <;> (injection hc with hc; subst hc; simp [Val.mentions]))
    | cases hc

theorem goConvertion_funOk (B : Region) (H : Host) : FunOk B (goConvertion H) := by
  intro h x y o r e _ hx _ himpl
  simp only [goConvertion] at himpl
  split at himpl
  · split at himpl
    · split at himpl
      · split at himpl
        · rename_i c hc
          injection himpl with h1 _
          subst h1
          simpa [Val.mentions] using Convert_mentions hc
        · cases himpl
      · cases himpl
    · injection himpl with h1 _
      exact h1 ▸ hx
  · cases himpl

theorem converter_funOk {B : Region} {H : Host} {m : porter} {o : Options}
    (hfc : ∀ pr f, tableLookup pr m.convertFuncs = some f → FunOk B f)
    {d s : Ty} {f : Func} (hc : m.converter H d s o = some f) : FunOk B f := by
  rcases converter_cases hc with ⟨pr, hpr⟩ | e
  · exact hfc pr f hpr
  · rw [e]
    exact goConvertion_funOk B H

theorem safe_directMerge {B : Region} {zone : Nat → List Nat → Prop}
    {dst src : Value} (o : Options) (hd : DstOk B zone dst)
    (hs : src.clean B) :
    Safe B zone (fun _ : Unit => True) (directMerge dst src o) := by
  unfold directMerge
  refine safe_seq (Q := fun _ => True) (safe_read _ (fun _ _ _ _ => trivial))
    (fun dstE _ => ?_)
  refine safe_seq (Q := fun e : Value => e.clean B)
    (safe_read _ (fun h v hn hv => derefInterface_clean hn hs hv))
    (fun srcE hsE => ?_)
  split
  · exact safe_fault _
  split
  · exact safe_ret trivial
  refine safe_seq (Q := fun _ => True) (safe_read _ (fun _ _ _ _ => trivial))
    (fun dstT _ => ?_)
  refine safe_seq (Q := fun _ => True) (safe_read _ (fun _ _ _ _ => trivial))
    (fun srcT _ => ?_)
  split
  · exact safe_fault _
  split
  · exact safe_ret trivial
  refine safe_seq (Q := fun _ => True) (safe_read _ (fun _ _ _ _ => trivial))
    (fun empty _ => ?_)
  split
  · exact safe_set hd.2 hd.1 hsE
  · exact safe_ret trivial

theorem safe_mergeSlice {B : Region} {zone : Nat → List Nat → Prop}
    {dst src : Value} (o : Options) (hd : DstOk B zone dst)
    (hs : src.clean B) :
    Safe B zone (fun _ : Unit => True) (mergeSlice dst src o) := by
  unfold mergeSlice
  split
  · refine safe_seq (Q := fun e : Value => e.clean B)
      (safe_read _ (fun h v hn hv =>
        Value.away_clean (AppendSlice_away hn hd.1 hs hv))) (fun ap hap => ?_)
    exact safe_directMerge o hd hap
  split
  · refine safe_seq (Q := fun _ => True)
      (safe_read _ (fun _ _ _ _ => trivial)) (fun dt _ => ?_)
    split
    · exact safe_fault _
    · split
      · refine safe_seq (Q := fun e : Value => e.clean B)
          (safe_read _ (fun h v hn hv =>
            Value.away_clean (AppendSlice_away hn hd.1 hs hv)))
          (fun ap hap => ?_)
        exact safe_directMerge o hd hap
      · refine safe_seq (Q := fun _ => True)
          (safe_read _ (fun _ _ _ _ => trivial)) (fun ex _ => ?_)
        refine safe_seq (Q := fun l : List Val => Val.mentionsList B l = false)
          (safe_read _ (fun h v hn hv => sliceElems_clean hn hs hv))
          (fun se hse => ?_)
        simp only []
        split
        · refine safe_seq (Q := fun e : Value => e.clean B)
            (safe_read _ (fun h v hn hv =>
              Value.away_clean (Append_away hn hd.1
                (mentionsList_filter _ hse) hv))) (fun ap hap => ?_)
          exact safe_directMerge o hd hap
        · exact safe_ret trivial
  · exact safe_directMerge o hd hs

theorem safe_trueType {B : Region} {zone : Nat → List Nat → Prop} (v : Value)
    (t : Ty) : Safe B zone (fun _ : Ty × Kind => True) (trueType v t) := by
  unfold trueType
  split
  · refine safe_seq (Q := fun _ => True)
      (safe_read _ (fun _ _ _ _ => trivial)) (fun e _ => ?_)
    refine safe_seq (Q := fun _ => True)
      (safe_read _ (fun _ _ _ _ => trivial)) (fun te _ => ?_)
    exact safe_ret trivial
  · exact safe_ret trivial

/-- `convert` keeps the region apart and leaves the zone as it is, if the
`deepMerge` it calls does. -/
theorem safe_convert {B : Region} {zone : Nat → List Nat → Prop} (H : Host)
    (m : porter) (n : Nat) (rec : Value → Value → Options → M Unit)
    (o : Options)
    (hfc : ∀ pr f, tableLookup pr m.convertFuncs = some f → FunOk B f)
    (hrec : ∀ d s, DstOk B zone d → s.clean B →
      Safe B zone (fun _ : Unit => True) (rec d s o))
    {dst src : Value} (hd : DstOk B zone dst) (hs : src.clean B) :
    Safe B zone (fun _ : Unit => True) (m.convert H n rec dst src o) := by
  unfold porter.convert
  refine safe_seq (Q := fun _ => True) (safe_read _ (fun _ _ _ _ => trivial))
    (fun dt _ => ?_)
  refine safe_seq (Q := fun _ => True) (safe_read _ (fun _ _ _ _ => trivial))
    (fun st _ => ?_)
  refine safe_seq (safe_trueType _ _) (fun dtk _ => ?_)
  refine safe_seq (safe_trueType _ _) (fun stk _ => ?_)
  simp only []
  split
  · rename_i f hf
    refine safe_seq (safe_callCustom m (converter_funOk hfc hf) o hd.1 hs)
      (fun res hres => ?_)
    obtain ⟨converted, err⟩ := res
    cases err with
    | some e => exact safe_fault _
    | none => exact safe_directMerge o hd (Value.away_clean hres)
  · split
    · refine safe_seq (Q := fun e : Value => DstOk B zone e)
        (safe_read _ (fun h v hn hv => derefPtr_dstOk hn n hd hv))
        (fun dv hdv => ?_)
      refine safe_seq (Q := fun _ => True)
        (safe_read _ (fun _ _ _ _ => trivial)) (fun det _ => ?_)
      refine safe_seq (Q := fun e : Value => e.clean B)
        (safe_read _ (fun h v hn hv => derefPtr_clean hn n hs hv))
        (fun sv hsv => ?_)
      refine safe_seq (Q := fun _ => True)
        (safe_read _ (fun _ _ _ _ => trivial)) (fun set _ => ?_)
      split
      · split
        · rename_i f hf
          refine safe_seq
            (safe_callCustom m (converter_funOk hfc hf) o hdv.1 hsv)
            (fun res hres => ?_)
          obtain ⟨converted, err⟩ := res
          cases err with
          | some e => exact safe_fault _
          | none => exact safe_directMerge o hdv (Value.away_clean hres)
        · exact safe_fault _
      · exact hrec dv sv hdv hsv
    · exact safe_fault _

theorem safe_mergeFields {B : Region} {zone : Nat → List Nat → Prop}
    (rec : Value → Value → Options → M Unit) (o : Options)
    (hrec : ∀ d s, DstOk B zone d → s.clean B →
      Safe B zone (fun _ : Unit => True) (rec d s o))
    {dst src : Value} (hd : DstOk B zone dst) (hs : src.clean B)
    (is : List Nat) :
    Safe B zone (fun _ : Unit => True) (mergeFields rec dst src o is) := by
  induction is with
  | nil => exact safe_ret trivial
  | cons i is ih =>
    unfold mergeFields
    refine safe_seq (Q := fun e : Value => DstOk B zone e)
      (safe_read _ (fun h v _ hv => Field_dstOk hd hv)) (fun df hdf => ?_)
    refine safe_seq (Q := fun e : Value => e.clean B)
      (safe_read _ (fun h v _ hv => Field_clean hs hv)) (fun sf hsf => ?_)
    exact safe_seq (hrec df sf hdf hsf) (fun _ _ => ih)

theorem safe_mergeMapKey {B : Region} {zone : Nat → List Nat → Prop} (H : Host)
    (m : porter) (n : Nat) (rec : Value → Value → Options → M Unit)
    (o : Options)
    (hfc : ∀ pr f, tableLookup pr m.convertFuncs = some f → FunOk B f)
    (hrec : ∀ d s, DstOk B zone d → s.clean B →
      Safe B zone (fun _ : Unit => True) (rec d s o))
    {dst src : Value} (hd : dst.clean B) (hs : src.clean B) (key : Key) :
    Safe B zone (fun _ : Unit => True)
      (mergeMapKey H m n rec dst src o key) := by
  unfold mergeMapKey
  refine safe_seq (Q := fun e : Value => e.away B)
    (safe_read _ (fun h v hn hv => mapEntry_away hn hs hv))
    (fun srcE hsE => ?_)
  refine safe_seq (Q := fun e : Value => e.away B)
    (safe_read _ (fun h v hn hv => mapEntry_away hn hd hv))
    (fun dstE hdE => ?_)
  split
  · exact safe_setMapIndex hd _ (Value.away_clean hsE)
  refine safe_seq (Q := fun _ => True) (safe_read _ (fun _ _ _ _ => trivial))
    (fun st _ => ?_)
  refine safe_seq (Q := fun _ => True) (safe_read _ (fun _ _ _ _ => trivial))
    (fun dt _ => ?_)
  refine safe_seq (Q := fun _ => True) (safe_read _ (fun _ _ _ _ => trivial))
    (fun isEmpty _ => ?_)
  dsimp only
  have hTail : ∀ dE : Value, dE.away B → ∀ y : Unit,
      Safe B zone (fun _ : Unit => True)
        (if mergedInPlace dt.kind = true then pure ()
         else if (o.Overwrite || isEmpty) = true
           then M.upd (dst.SetMapIndex key dE) else pure ()) := by
    intro dE hdE2 _
    split
    · exact safe_ret trivial
    split
    · exact safe_setMapIndex hd _ (Value.away_clean hdE2)
    · exact safe_ret trivial
  have hMid : ∀ dE : Value, dE.away B →
      Safe B zone (fun _ : Unit => True)
        (if dt ≠ st then do
            let y ← porter.convert H m n rec dE srcE o
            (if mergedInPlace dt.kind = true then pure ()
             else if (o.Overwrite || isEmpty) = true
               then M.upd (dst.SetMapIndex key dE) else pure ())
          else do
            let y ← rec dE srcE o
            (if mergedInPlace dt.kind = true then pure ()
             else if (o.Overwrite || isEmpty) = true
               then M.upd (dst.SetMapIndex key dE) else pure ())) := by
    intro dE hdE2
    split
    · exact safe_seq (safe_convert H m n rec o hfc hrec (DstOk.of_away hdE2)
        (Value.away_clean hsE)) (fun y _ => hTail dE hdE2 y)
    · exact safe_seq (hrec _ _ (DstOk.of_away hdE2) (Value.away_clean hsE))
        (fun y _ => hTail dE hdE2 y)
  split
  · rename_i hc
    refine safe_seq (Q := fun e : Value => e.away B) (safe_ret hdE)
      (fun dE hdE2 => ?_)
    have hm := hMid dE hdE2
    simp only [hc, if_true] at hm
    exact hm
  · rename_i hc
    refine safe_seq (safe_newElem _) (fun dE hdE2 => ?_)
    have hm := hMid dE hdE2
    simp only [hc, if_false] at hm
    exact hm

theorem safe_mergeMapKeys {B : Region} {zone : Nat → List Nat → Prop} (H : Host)
    (m : porter) (n : Nat) (rec : Value → Value → Options → M Unit)
    (o : Options)
    (hfc : ∀ pr f, tableLookup pr m.convertFuncs = some f → FunOk B f)
    (hrec : ∀ d s, DstOk B zone d → s.clean B →
      Safe B zone (fun _ : Unit => True) (rec d s o))
    {dst src : Value} (hd : dst.clean B) (hs : src.clean B)
    (keys : List Key) :
    Safe B zone (fun _ : Unit => True)
      (mergeMapKeys H m n rec dst src o keys) := by
  induction keys with
  | nil => exact safe_ret trivial
  | cons k ks ih =>
    unfold mergeMapKeys
    exact safe_seq (safe_mergeMapKey H m n rec o hfc hrec hd hs k)
      (fun _ _ => ih)

/-- One level of `deepMerge` keeps the region apart and leaves the zone as it
is, if the recursive calls do. -/
theorem safe_deepMergeBody {B : Region} {zone : Nat → List Nat → Prop}
    (H : Host)
    (m : porter) (n : Nat) (rec : Value → Value → Options → M Unit)
    (o : Options)
    (hfm : ∀ t f, tableLookup t m.mergeFuncs = some f → FunOk B f)
    (hfc : ∀ pr f, tableLookup pr m.convertFuncs = some f → FunOk B f)
    (hrec : ∀ d s, DstOk B zone d → s.clean B →
      Safe B zone (fun _ : Unit => True) (rec d s o))
    {dst src : Value} (hd : DstOk B zone dst) (hs : src.clean B) :
    Safe B zone (fun _ : Unit => True)
      (m.deepMergeBody H n rec dst src o) := by
  have hElem : ∀ v : Value, v.clean B →
      Safe B zone (fun e : Value => e.away B) (M.rd (fun h => v.Elem h)) :=
    fun v hv => safe_read _ (fun h e hn he => Value.Elem_away hn hv he)
  unfold porter.deepMergeBody
  refine safe_seq (Q := fun _ => True) (safe_read _ (fun _ _ _ _ => trivial))
    (fun dt _ => ?_)
  refine safe_seq (Q := fun _ => True) (safe_read _ (fun _ _ _ _ => trivial))
    (fun st _ => ?_)
  split
  · exact safe_fault _
  split
  · rename_i f hf
    refine safe_seq (safe_callCustom m (hfm _ f hf) o hd.1 hs)
      (fun res hres => ?_)
    obtain ⟨merged, err⟩ := res
    cases err with
    | some e => exact safe_fault _
    | none => exact safe_directMerge o hd (Value.away_clean hres)
  split
  · -- struct
    split
    · exact safe_directMerge o hd hs
    · refine safe_seq (Q := fun _ => True)
        (safe_read _ (fun _ _ _ _ => trivial)) (fun nf _ => ?_)
      exact safe_mergeFields rec o hrec hd hs _
  · -- map
    refine safe_seq (Q := fun _ => True)
      (safe_read _ (fun _ _ _ _ => trivial)) (fun srcNil _ => ?_)
    split
    · exact safe_ret trivial
    refine safe_seq (Q := fun _ => True)
      (safe_read _ (fun _ _ _ _ => trivial)) (fun dstNil _ => ?_)
    dsimp only
    have hK : ∀ y : Unit, Safe B zone (fun _ : Unit => True) (do
        let keys ← M.rd fun h => Value.MapKeys h src
        mergeMapKeys H m n rec dst src o keys) :=
      fun _ => safe_seq (Q := fun _ => True)
        (safe_read _ (fun _ _ _ _ => trivial))
        (fun keys _ => safe_mergeMapKeys H m n rec o hfc hrec hd.1 hs keys)
    split
    · refine safe_seq (safe_makeMap _) (fun made hmade => ?_)
      exact safe_seq (Q := fun _ => True)
        (safe_set hd.2 hd.1 (Value.away_clean hmade)) (fun y _ => hK y)
    · exact safe_seq (Q := fun _ => True) (safe_ret trivial) (fun y _ => hK y)
  · -- slice
    refine safe_seq (Q := fun _ => True)
      (safe_read _ (fun _ _ _ _ => trivial)) (fun srcNil _ => ?_)
    split
    · exact safe_ret trivial
    · exact safe_mergeSlice o hd hs
  · -- ptr
    refine safe_seq (Q := fun _ => True)
      (safe_read _ (fun _ _ _ _ => trivial)) (fun srcNil _ => ?_)
    split
    · exact safe_ret trivial
    refine safe_seq (Q := fun _ => True)
      (safe_read _ (fun _ _ _ _ => trivial)) (fun dstNil _ => ?_)
    dsimp only
    have hK : ∀ y : Unit, Safe B zone (fun _ : Unit => True) (do
        let dstE ← M.rd fun h => Value.Elem h dst
        let srcE ← M.rd fun h => Value.Elem h src
        let dstEType ← M.rd fun _ => dstE.typ
        let srcEType ← M.rd fun _ => srcE.typ
        if dstEType ≠ srcEType then porter.convert H m n rec dstE srcE o
        else rec dstE srcE o) := by
      intro _
      refine safe_seq (hElem dst hd.1) (fun dstE hdE => ?_)
      refine safe_seq (hElem src hs) (fun srcE hsE => ?_)
      refine safe_seq (Q := fun _ => True)
        (safe_read _ (fun _ _ _ _ => trivial)) (fun det _ => ?_)
      refine safe_seq (Q := fun _ => True)
        (safe_read _ (fun _ _ _ _ => trivial)) (fun set _ => ?_)
      split
      · exact safe_convert H m n rec o hfc hrec (DstOk.of_away hdE)
          (Value.away_clean hsE)
      · exact hrec _ _ (DstOk.of_away hdE) (Value.away_clean hsE)
    split
    · split
      · refine safe_seq (safe_new _) (fun fresh hfresh => ?_)
        exact safe_seq (Q := fun _ => True)
          (safe_set hd.2 hd.1 (Value.away_clean hfresh)) (fun y _ => hK y)
      · exact safe_seq (Q := fun _ => True) (safe_fault _) (fun y _ => hK y)
    · exact safe_seq (Q := fun _ => True) (safe_ret trivial) (fun y _ => hK y)
  · -- interface
    refine safe_seq (Q := fun _ => True)
      (safe_read _ (fun _ _ _ _ => trivial)) (fun srcNil _ => ?_)
    split
    · exact safe_ret trivial
    refine safe_seq (Q := fun _ => True)
      (safe_read _ (fun _ _ _ _ => trivial)) (fun dstNil _ => ?_)
    split
    · split
      · exact safe_set hd.2 hd.1 hs
      · exact safe_ret trivial
    · refine safe_seq (Q := fun _ => True)
        (safe_read _ (fun _ _ _ _ => trivial)) (fun dstE _ => ?_)
      refine safe_seq (Q := fun _ => True)
        (safe_read _ (fun _ _ _ _ => trivial)) (fun srcE _ => ?_)
      refine safe_seq (Q := fun _ => True)
        (safe_read _ (fun _ _ _ _ => trivial)) (fun det _ => ?_)
      refine safe_seq (Q := fun _ => True)
        (safe_read _ (fun _ _ _ _ => trivial)) (fun set _ => ?_)
      split
      · exact safe_convert H m n rec o hfc hrec hd hs
      · exact safe_directMerge o hd hs
  · exact safe_directMerge o hd hs

/-- `deepMerge` keeps the region apart and writes its cells through the
destination handle only: with clean handles and registered functions that
make up no reference into the region, every location of the zone is left as
it is, whatever the fuel and the outcome. -/
theorem safe_deepMerge {B : Region} {zone : Nat → List Nat → Prop} (H : Host)
    (m : porter) (o : Options)
    (hfm : ∀ t f, tableLookup t m.mergeFuncs = some f → FunOk B f)
    (hfc : ∀ pr f, tableLookup pr m.convertFuncs = some f → FunOk B f)
    (n : Nat) : ∀ dst src, DstOk B zone dst → src.clean B →
      Safe B zone (fun _ : Unit => True) (m.deepMerge H n dst src o) := by
  induction n with
  | zero => intro dst src _ _; exact safe_fault _
  | succ n ih =>
    intro dst src hd hs
    exact safe_deepMergeBody H m n _ o hfm hfc ih hd hs

/-! ## C15: a destination pointer is never aliased to the source pointer -/

/-- C15: `deepMerge` on a settable destination pointer of type `*E` (held at
the location `(a, p)`, holding `da`) and a distinct non-nil source pointer
`sa` of the same type never makes the destination pointer identical to the
source pointer, for either setting of `Overwrite`, whatever the pointee type
and whatever the outcome of the merge of the pointees.  The object graph is
acyclic: the variable `a` that holds the destination pointer is a root of a
region `B` that nothing outside of it leads into, neither what the variable
itself holds nor the source; no merge function is registered for `*E`, and
the registered functions make up no reference into the region.  Then a
non-nil destination pointer keeps its identity (`d = da`, the variable is not
written), a nil one is set to a new pointee holding the zero value (`d` is
the new cell, the rest of the variable is as before), the pointees are then
merged, and after `deepMerge`, with any fuel, the variable is as at that
point: the destination pointer is `d`, different from the source pointer,
and a later write through the source pointer changes neither the destination
pointer nor its pointee.  With a pointee of scalar kind `deepMerge` returns no
error and the pointee holds the merged value. -/
theorem C15_pointer_not_aliased (H : Host) (m : porter) (n : Nat)
    (o : Options) (B : Region) (h : Heap) (E : Ty) (a : Nat) (p : List Nat)
    (src : Value) (da : Option Nat) (sa : Nat)
    (hreg : tableLookup (.ptr E) m.mergeFuncs = none)
    (hfm : ∀ t f, tableLookup t m.mergeFuncs = some f → FunOk B f)
    (hfc : ∀ pr f, tableLookup pr m.convertFuncs = some f → FunOk B f)
    (hn : h.NoRef B) (ha : B.cell a = true) (hroot : B.root a = true)
    (hsc : src.clean B)
    (hd : h.read a p = some (.ptr da))
    (hst : src.typ = .ok (.ptr E)) (hsl : src.load h = .ok (.ptr (some sa)))
    (hsa : sa < h.cells.length) (hne : da ≠ some sa) :
    ∃ d h1, d ≠ sa ∧ d ≠ a ∧ a ≠ sa ∧ h1.read a p = some (.ptr (some d)) ∧
      (∀ d', da = some d' → d = d' ∧ h1 = h) ∧
      (da = none → d = h.cells.length ∧ h1.read d [] = some E.zero ∧
        ∀ q, ¬ p <+: q → ¬ q <+: p → h1.read a q = h.read a q) ∧
      (∀ k, m.deepMerge H (k + 1) (.addr (.ptr E) a p) src o h =
        m.deepMerge H k (.addr E d []) (.addr E sa []) o h1) ∧
      (∀ k, (∀ q, (m.deepMerge H (k + 1) (.addr (.ptr E) a p) src o h).heap.read
            a q = h1.read a q) ∧
        (m.deepMerge H (k + 1) (.addr (.ptr E) a p) src o h).heap.read a p =
          some (.ptr (some d)) ∧
        ∀ x q g,
          (m.deepMerge H (k + 1) (.addr (.ptr E) a p) src o h).heap.write
            sa q x = some g →
          g.read a p = some (.ptr (some d)) ∧
          ∀ r, g.read d r =
            (m.deepMerge H (k + 1) (.addr (.ptr E) a p) src o h).heap.read
              d r) ∧
      (∀ dv sv, isScalarKind E.kind = true →
        tableLookup E m.mergeFuncs = none →
        h1.read d [] = some dv → h.read sa [] = some sv →
        ∃ h', m.deepMerge H (n + 2) (.addr (.ptr E) a p) src o h = .ok () h' ∧
          h'.read a p = some (.ptr (some d)) ∧
          h'.read d [] = some (if o.Overwrite = true ∨
              isEmptyValue h1 (.addr E d []) = true then sv else dv)) := by
  have hsaB : B.cell sa = false := by
    simpa [Val.mentions] using noRef_load hn hsc hsl
  have hasa : a ≠ sa := by
    intro e
    rw [e, hsaB] at ha
    cases ha
  -- the end state, from the equation for the pointees
  have hend : ∀ (d : Nat) (h1 : Heap), d ≠ sa → B.cell d = false →
      h1.NoRef B → h1.read a p = some (.ptr (some d)) →
      (∀ k, m.deepMerge H (k + 1) (.addr (.ptr E) a p) src o h =
        m.deepMerge H k (.addr E d []) (.addr E sa []) o h1) →
      ∀ k, (∀ q, (m.deepMerge H (k + 1) (.addr (.ptr E) a p) src o h).heap.read
            a q = h1.read a q) ∧
        (m.deepMerge H (k + 1) (.addr (.ptr E) a p) src o h).heap.read a p =
          some (.ptr (some d)) ∧
        ∀ x q g,
          (m.deepMerge H (k + 1) (.addr (.ptr E) a p) src o h).heap.write
            sa q x = some g →
          g.read a p = some (.ptr (some d)) ∧
          ∀ r, g.read d r =
            (m.deepMerge H (k + 1) (.addr (.ptr E) a p) src o h).heap.read
              d r := by
    intro d h1 hdsa hdB hn1 hptr heq k
    rw [heq k]
    have hsafe := @safe_deepMerge B (fun _ _ => True) H m o hfm hfc k
      (.addr E d []) (.addr E sa []) (DstOk.of_away (B := B) hdB)
      (Or.inl hsaB) h1 hn1
    have hall : ∀ q, (m.deepMerge H k (.addr E d []) (.addr E sa []) o
        h1).heap.read a q = h1.read a q :=
      fun q => hsafe.2.1 a q ha trivial
    refine ⟨hall, (hall p).trans hptr, fun x q g hw => ⟨?_, fun r => ?_⟩⟩
    · rw [Heap.read_write_other hw hasa]
      exact (hall p).trans hptr
    · exact Heap.read_write_other hw hdsa r
  -- the scalar part
  have hscalar : ∀ (d : Nat) (h1 : Heap), a ≠ d →
      h1.read a p = some (.ptr (some d)) →
      (∀ q, h1.read sa q = h.read sa q) →
      (∀ k, m.deepMerge H (k + 1) (.addr (.ptr E) a p) src o h =
        m.deepMerge H k (.addr E d []) (.addr E sa []) o h1) →
      ∀ dv sv, isScalarKind E.kind = true →
        tableLookup E m.mergeFuncs = none →
        h1.read d [] = some dv → h.read sa [] = some sv →
        ∃ h', m.deepMerge H (n + 2) (.addr (.ptr E) a p) src o h = .ok () h' ∧
          h'.read a p = some (.ptr (some d)) ∧
          h'.read d [] = some (if o.Overwrite = true ∨
              isEmptyValue h1 (.addr E d []) = true then sv else dv) := by
    intro d h1 had hptr hsrc heq dv sv hE hregE hdv hsv
    have hsv1 : h1.read sa [] = some sv := by rw [hsrc []]; exact hsv
    obtain ⟨h2, hw, hdm⟩ := deepMerge_scalar H m n o hE hregE
      (Value.typ_addr E sa []) (Value.load_addr hsv1) hdv
    rw [heq (n + 1), hdm]
    by_cases hc : o.Overwrite = true ∨ isEmptyValue h1 (.addr E d []) = true
    · rw [if_pos hc, if_pos hc]
      refine ⟨h2, rfl, ?_, Heap.read_write hw⟩
      rw [Heap.read_write_other hw had]; exact hptr
    · rw [if_neg hc, if_neg hc]
      exact ⟨h1, rfl, hptr, hdv⟩
  cases da with
  | some d =>
    have hdsa : d ≠ sa := fun e => hne (by rw [e])
    have hdB : B.cell d = false := by
      simpa [Val.mentions] using noRef_read hn (Or.inr hroot) hd
    have hda : d ≠ a := by
      intro e
      rw [e, ha] at hdB
      cases hdB
    have heq := deepMerge_ptr_nonnil H m o hreg hd hst hsl
    exact ⟨d, h, hdsa, hda, hasa, hd, fun d' hd' => ⟨(by injection hd'), rfl⟩,
      (fun hc => by cases hc), heq, hend d h hdsa hdB hn hd heq,
      hscalar d h (Ne.symm hda) hd (fun _ => rfl) heq⟩
  | none =>
    obtain ⟨h1, hw, heq⟩ := deepMerge_ptr_nil H m o hreg hd hst hsl
    have hal := Heap.read_lt hd
    have hdsa : h.cells.length ≠ sa := Nat.ne_of_gt hsa
    obtain ⟨hna, hnewB, hfr⟩ := noRef_alloc hn (Ty.zero_mentions B E)
    have hnewB2 : B.cell h.cells.length = false := hnewB
    have hn1 : h1.NoRef B :=
      noRef_write hna (by simpa [Val.mentions] using hnewB2) hw
    have hnew : h1.read h.cells.length [] = some E.zero := by
      rw [Heap.read_write_other hw (Nat.ne_of_gt hal)]
      exact Heap.read_alloc_new h E.zero
    have hsrc : ∀ q, h1.read sa q = h.read sa q := by
      intro q
      rw [Heap.read_write_other hw (Ne.symm hasa)]
      simp [Heap.read, Heap.alloc, List.getElem?_append_left hsa]
    have hrest : ∀ q, ¬ p <+: q → ¬ q <+: p → h1.read a q = h.read a q := by
      intro q h1q h2q
      have hout : Outside B (fun c r => c = a ∧ r = q)
          (.addr (.ptr E) a p) := by
        intro _ r hr
        rw [hr.2]
        exact ⟨h1q, h2q⟩
      rw [Heap.read_write_outside hw hout ha ⟨rfl, rfl⟩]
      exact hfr a q ha
    exact ⟨h.cells.length, h1, hdsa, Nat.ne_of_gt hal, hasa,
      Heap.read_write hw,
      (fun d' hd' => by cases hd'), fun _ => ⟨rfl, hnew, hrest⟩, heq,
      hend _ h1 hdsa hnewB2 hn1 (Heap.read_write hw) heq,
      hscalar _ h1 (Nat.ne_of_lt hal) (Heap.read_write hw) hsrc heq⟩

theorem exRegion_noRef :
    (⟨[.ptr none, .int 0, .int 1, .ptr (some 0)], []⟩ : Heap).NoRef exRegion := by
  refine ⟨fun c hc => ?_, fun i hi => ?_, fun c x hx hc => ?_,
    fun i mo hmo => ?_⟩
  · simp only [exRegion, Bool.or_eq_true, beq_iff_eq] at hc
    rcases hc with hc | hc <;> subst hc <;> decide
  · cases hi
  · match c, hx, hc with
    | 0, hx, _ => injection hx with hx; subst hx; rfl
    | 1, hx, _ => injection hx with hx; subst hx; rfl
    | 2, hx, _ => injection hx with hx; subst hx; rfl
    | 3, hx, hc => simp [exRegion] at hc
    | c + 4, hx, _ => simp at hx
  · simp at hmo

theorem C15_pointer_not_aliased_witness :
    ∃ d h1, d ≠ 2 ∧ d ≠ 0 ∧ 0 ≠ 2 ∧ h1.read 0 [] = some (.ptr (some d)) ∧
      (∀ d', (none : Option Nat) = some d' →
        d = d' ∧ h1 = ⟨[.ptr none, .int 0, .int 1, .ptr (some 0)], []⟩) ∧
      ((none : Option Nat) = none →
        d = (⟨[.ptr none, .int 0, .int 1, .ptr (some 0)], []⟩ :
          Heap).cells.length ∧
        h1.read d [] = some (Ty.zero (.basic .Int)) ∧
        ∀ q, ¬ [] <+: q → ¬ q <+: [] → h1.read 0 q =
          (⟨[.ptr none, .int 0, .int 1, .ptr (some 0)], []⟩ : Heap).read 0 q) ∧
      (∀ k, newPorter.deepMerge Host.trivial (k + 1)
          (.addr (.ptr (.basic .Int)) 0 [])
          (.direct (.ptr (.basic .Int)) (.ptr (some 2)))
          { newOptions with Overwrite := false }
          ⟨[.ptr none, .int 0, .int 1, .ptr (some 0)], []⟩ =
        newPorter.deepMerge Host.trivial k (.addr (.basic .Int) d [])
          (.addr (.basic .Int) 2 []) { newOptions with Overwrite := false }
          h1) ∧
      (∀ k, (∀ q, (newPorter.deepMerge Host.trivial (k + 1)
          (.addr (.ptr (.basic .Int)) 0 [])
          (.direct (.ptr (.basic .Int)) (.ptr (some 2)))
          { newOptions with Overwrite := false }
          ⟨[.ptr none, .int 0, .int 1, .ptr (some 0)], []⟩).heap.read 0 q =
            h1.read 0 q) ∧
        (newPorter.deepMerge Host.trivial (k + 1)
          (.addr (.ptr (.basic .Int)) 0 [])
          (.direct (.ptr (.basic .Int)) (.ptr (some 2)))
          { newOptions with Overwrite := false }
          ⟨[.ptr none, .int 0, .int 1, .ptr (some 0)], []⟩).heap.read 0 [] =
            some (.ptr (some d)) ∧
        ∀ x q g,
          (newPorter.deepMerge Host.trivial (k + 1)
            (.addr (.ptr (.basic .Int)) 0 [])
            (.direct (.ptr (.basic .Int)) (.ptr (some 2)))
            { newOptions with Overwrite := false }
            ⟨[.ptr none, .int 0, .int 1, .ptr (some 0)], []⟩).heap.write
              2 q x = some g →
          g.read 0 [] = some (.ptr (some d)) ∧
          ∀ r, g.read d r =
            (newPorter.deepMerge Host.trivial (k + 1)
              (.addr (.ptr (.basic .Int)) 0 [])
              (.direct (.ptr (.basic .Int)) (.ptr (some 2)))
              { newOptions with Overwrite := false }
              ⟨[.ptr none, .int 0, .int 1, .ptr (some 0)], []⟩).heap.read
                d r) ∧
      (∀ dv sv, isScalarKind (Ty.kind (.basic .Int)) = true →
        tableLookup (.basic .Int) newPorter.mergeFuncs = none →
        h1.read d [] = some dv →
        (⟨[.ptr none, .int 0, .int 1, .ptr (some 0)], []⟩ : Heap).read 2 [] =
          some sv →
        ∃ h', newPorter.deepMerge Host.trivial (0 + 2)
            (.addr (.ptr (.basic .Int)) 0 [])
            (.direct (.ptr (.basic .Int)) (.ptr (some 2)))
            { newOptions with Overwrite := false }
            ⟨[.ptr none, .int 0, .int 1, .ptr (some 0)], []⟩ = .ok () h' ∧
          h'.read 0 [] = some (.ptr (some d)) ∧
          h'.read d [] = some
            (if ({ newOptions with Overwrite := false } : Options).Overwrite
                = true ∨ isEmptyValue h1 (.addr (.basic .Int) d []) = true
              then sv else dv)) :=
  C15_pointer_not_aliased Host.trivial newPorter 0
    { newOptions with Overwrite := false } exRegion
    ⟨[.ptr none, .int 0, .int 1, .ptr (some 0)], []⟩
    (.basic .Int) 0 [] (.direct (.ptr (.basic .Int)) (.ptr (some 2))) none 2
    rfl (fun _ _ hf => by cases hf) (fun _ _ hf => by cases hf)
    exRegion_noRef rfl rfl rfl rfl rfl rfl (by decide) (by decide)

/-! ## C30: nil fields of a source struct -/

theorem Value.fixed_clean {B : Region} {a : Nat} {v : Value}
    (hv : v.fixed B a) : v.clean B := by
  cases v with
  | invalid => trivial
  | direct t x => exact hv
  | addr t s q => exact Or.inr hv.2.1

/-- What a fixed handle denotes is the same in two heaps that agree on the
roots other than `a`. -/
theorem Value.fixed_load {B : Region} {a : Nat} {v : Value} {h g : Heap}
    (hv : v.fixed B a)
    (hg : ∀ c r, B.cell c = true → c ≠ a → g.read c r = h.read c r) :
    v.load g = v.load h := by
  cases v with
  | invalid => rfl
  | direct t x => rfl
  | addr t s q =>
    simp only [Value.load]
    rw [hg s q hv.1 hv.2.2]

theorem Field_fixed {B : Region} {a : Nat} {v f : Value} {i : Nat}
    (hv : v.fixed B a) (hf : v.Field i = .ok f) : f.fixed B a := by
  cases v with
  | invalid => simp [Value.Field, Value.kind] at hf
  | direct t x =>
    obtain ⟨y, fs, w, _, rfl, hw, rfl⟩ := Field_direct_ok hf
    have hx : Val.mentions B (.struct fs) = false := hv
    simp only [Val.mentions] at hx
    exact Val.mentionsList_false.mp hx w (list_mem_of_getElem? hw)
  | addr t s q =>
    obtain ⟨y, _, rfl⟩ := Field_addr_ok hf
    exact hv

/-- The field loop of the struct case leaves the field `i` of the destination
as it is when the source's field `i` is nil: the step for the field `i` is a
no-op, and the steps for the other fields do not reach the variable `a`,
which nothing they follow leads to. -/
theorem mergeFields_keeps_field (H : Host) (m : porter) (k : Nat)
    (o : Options) (B : Region) (T Ti : Ty) (a : Nat) (p : List Nat)
    (src sf : Value) (i : Nat) (nm pk : String) (h : Heap)
    (hfm : ∀ t f, tableLookup t m.mergeFuncs = some f → FunOk B f)
    (hfc : ∀ pr f, tableLookup pr m.convertFuncs = some f → FunOk B f)
    (hfi : T.fields[i]? = some (nm, pk, Ti))
    (hk : Ti.kind = .Map ∨ Ti.kind = .Slice ∨ Ti.kind = .Ptr ∨
      Ti.kind = .Interface)
    (hregi : tableLookup Ti m.mergeFuncs = none)
    (hroot : B.root a = true)
    (hst : src.typ = .ok T) (hsrc : src.fixed B a)
    (hsf : src.Field i = .ok sf) (hnil : sf.IsNil h = .ok true) :
    ∀ (is : List Nat) (g : Heap), g.NoRef B →
      (∀ c r, B.cell c = true → (c ≠ a ∨ r = p ++ [i]) →
        g.read c r = h.read c r) →
      (mergeFields (m.deepMerge H k) (.addr T a p) src o is g).heap.NoRef B ∧
      ∀ c r, B.cell c = true → (c ≠ a ∨ r = p ++ [i]) →
        (mergeFields (m.deepMerge H k) (.addr T a p) src o is g).heap.read c r
          = h.read c r := by
  intro is
  induction is with
  | nil => intro g hg hz; exact ⟨hg, hz⟩
  | cons j is ih =>
    intro g hg hz
    simp only [mergeFields, M.bind_apply, M.rd_apply]
    cases hdf : (Value.addr T a p).Field j with
    | error e => exact ⟨hg, hz⟩
    | ok df =>
      cases hsj : src.Field j with
      | error e => exact ⟨hg, hz⟩
      | ok sj =>
        simp only []
        have hstep : (m.deepMerge H k df sj o g).heap.NoRef B ∧
            ∀ c r, B.cell c = true → (c ≠ a ∨ r = p ++ [i]) →
              (m.deepMerge H k df sj o g).heap.read c r = h.read c r := by
          obtain ⟨x, hx, hdfe⟩ := Field_addr_ok hdf
          by_cases hji : j = i
          · subst hji
            rw [hsf] at hsj
            injection hsj with hsj
            subst hsj
            rw [hfi] at hx
            injection hx with hx
            subst hx
            cases k with
            | zero => exact ⟨hg, hz⟩
            | succ k =>
              obtain ⟨x2, hx2, hsft, _, _⟩ := Field_src_ok hst hsf
              rw [hfi] at hx2
              injection hx2 with hx2
              subst hx2
              have hnil2 : sf.IsNil g = .ok true := by
                rw [IsNil_of_load (Value.fixed_load (Field_fixed hsrc hsf)
                  (fun c r hc hca => hz c r hc (Or.inl hca)))]
                exact hnil
              have hdt : df.typ = .ok Ti := by rw [hdfe]; rfl
              rw [deepMerge_nil_source H m k o hk hregi hdt hsft hnil2]
              exact ⟨hg, hz⟩
          · have hdok : DstOk B (fun c r => c ≠ a ∨ r = p ++ [i]) df := by
              rw [hdfe]
              refine ⟨Or.inr hroot, fun _ r hr => ?_⟩
              rcases hr with hr | hr
              · exact absurd rfl hr
              · rw [hr]
                constructor
                · intro hp
                  have := (List.prefix_append_right_inj p).mp hp
                  have h2 := List.IsPrefix.eq_of_length this rfl
                  injection h2 with h2
                  exact hji h2
                · intro hp
                  have := (List.prefix_append_right_inj p).mp hp
                  have h2 := List.IsPrefix.eq_of_length this rfl
                  injection h2 with h2
                  exact hji h2.symm
            have hs := safe_deepMerge H m o hfm hfc k df sj hdok
              (Field_clean (Value.fixed_clean hsrc) hsj) g hg
            exact ⟨hs.1, fun c r hc hr => (hs.2.1 c r hc hr).trans (hz c r hc hr)⟩
        cases hdm : m.deepMerge H k df sj o g with
        | fail e g1 =>
          rw [hdm] at hstep
          exact hstep
        | ok u g1 =>
          rw [hdm] at hstep
          exact ih g1 hstep.1 hstep.2

/-- `deepMerge` on structs whose fields are all exported leaves the field `i`
of the destination as it is when the source's field `i` is nil, whatever
fuel it is given and whatever its outcome. -/
theorem deepMerge_struct_keeps_field (H : Host) (m : porter) (n : Nat)
    (o : Options) (B : Region) (T Ti : Ty) (a : Nat) (p : List Nat)
    (src sf : Value) (i : Nat) (nm pk : String) (h : Heap)
    (hfm : ∀ t f, tableLookup t m.mergeFuncs = some f → FunOk B f)
    (hfc : ∀ pr f, tableLookup pr m.convertFuncs = some f → FunOk B f)
    (hkT : T.kind = .Struct) (hex : hasUnexportedField T = false)
    (hreg : tableLookup T m.mergeFuncs = none)
    (hfi : T.fields[i]? = some (nm, pk, Ti))
    (hk : Ti.kind = .Map ∨ Ti.kind = .Slice ∨ Ti.kind = .Ptr ∨
      Ti.kind = .Interface)
    (hregi : tableLookup Ti m.mergeFuncs = none)
    (hn : h.NoRef B) (ha : B.cell a = true) (hroot : B.root a = true)
    (hst : src.typ = .ok T) (hsrc : src.fixed B a)
    (hsf : src.Field i = .ok sf) (hnil : sf.IsNil h = .ok true) :
    (m.deepMerge H n (.addr T a p) src o h).heap.read a (p ++ [i]) =
      h.read a (p ++ [i]) := by
  cases n with
  | zero => rfl
  | succ k =>
    rw [deepMerge_struct_exported H m k o T (.addr T a p) src hkT hex hreg rfl hst]
    exact (mergeFields_keeps_field H m k o B T Ti a p src sf i nm pk h hfm hfc
      hfi hk hregi hroot hst hsrc hsf hnil _ h hn
      (fun _ _ _ _ => rfl)).2 a (p ++ [i]) ha (Or.inr rfl)

/-- C30 (as stated, it fails): with the default `Overwrite`, for the struct
type `U` that has an unexported field, the destination `U{P: &v}` and the
source `U{}` whose field `P` is nil, `deepMerge` and `Merge` assign the source
as one unit, so the field `P` of the destination is cleared.  With a merge
function registered for the struct type `W`, the function decides: one that
returns its source clears the field `P` of the destination `W{P: &v}` for the
source `W{}`. -/
theorem C30_nil_field_clears_destination :
    newPorter.deepMerge Host.trivial 1 (.addr exNilField 0 [])
        (.direct exNilField (.struct [.ptr none, .int 0])) newOptions
        ⟨[.struct [.ptr (some 1), .int 0], .int 5], []⟩ =
      .ok () ⟨[.struct [.ptr none, .int 0], .int 5], []⟩ ∧
    Merge Host.trivial 3 (some (.ptr exNilField, .ptr (some 0)))
        (some (exNilField, .struct [.ptr none, .int 0])) []
        ⟨[.struct [.ptr (some 1), .int 0], .int 5], []⟩ =
      .ok () ⟨[.struct [.ptr none, .int 0], .int 5], []⟩ ∧
    ({ mergeFuncs := [(exPtrField, exTakeSrcOf exPtrField)],
       convertFuncs := [] } : porter).deepMerge Host.trivial 1
        (.addr exPtrField 0 []) (.direct exPtrField (.struct [.ptr none]))
        newOptions ⟨[.struct [.ptr (some 1)], .int 5], []⟩ =
      .ok () ⟨[.struct [.ptr none], .int 5], []⟩ :=
  ⟨rfl, rfl, rfl⟩

/-- C30 (amended): for a destination of map, slice, pointer or interface kind
with no merge function registered for its type, and for every setting of
`Overwrite` and of the slice mode, `deepMerge` with a nil source of the same
type returns no error and leaves the heap, hence the destination, as it is
(first part; the test "Merge / with overwrite" keeps `Ptr` and `Map`, second
part).  So a nil pointer, map, slice or interface field `i` of a source struct
does not clear the field `i` of the destination when all the fields of the
struct type are exported and no merge function is registered for the struct
type or the field's type (third part): after `deepMerge` on the structs, with
any fuel and any outcome, the field `i` of the destination variable `a` holds
what it held.  There the object graph is acyclic: the variable `a` is a root
of a region `B` that nothing outside of it leads into, neither what the
variable itself holds nor the source, which is a value or another root; the
registered functions make up no reference into the region. -/
theorem C30_nil_source_keeps_destination (H : Host) (m : porter) (n : Nat)
    (o : Options) :
    (∀ (T : Ty) (dst src : Value) (h : Heap),
      (T.kind = .Map ∨ T.kind = .Slice ∨ T.kind = .Ptr ∨
        T.kind = .Interface) →
      tableLookup T m.mergeFuncs = none →
      dst.typ = .ok T → src.typ = .ok T → src.IsNil h = .ok true →
      m.deepMerge H (n + 1) dst src o h = .ok () h) ∧
    Merge H 3 (some (.ptr exTest, .ptr (some 0)))
        (some (exTest, .struct [.int 2, .str "2", .bool true, .ptr none,
          .slice (some [.str "2"]), .map none])) [] exHeapTest =
      .ok () ⟨[.struct [.int 2, .str "2", .bool true, .ptr (some 1),
          .slice (some [.str "2"]), .map (some 0)], .int 2],
        [[(.str "1", .str "1")]]⟩ ∧
    (∀ (B : Region) (T Ti : Ty) (a : Nat) (p : List Nat) (src sf : Value)
      (i : Nat) (nm pk : String) (h : Heap) (k : Nat),
      (∀ t f, tableLookup t m.mergeFuncs = some f → FunOk B f) →
      (∀ pr f, tableLookup pr m.convertFuncs = some f → FunOk B f) →
      T.kind = .Struct → hasUnexportedField T = false →
      tableLookup T m.mergeFuncs = none →
      T.fields[i]? = some (nm, pk, Ti) →
      (Ti.kind = .Map ∨ Ti.kind = .Slice ∨ Ti.kind = .Ptr ∨
        Ti.kind = .Interface) →
      tableLookup Ti m.mergeFuncs = none →
      h.NoRef B → B.cell a = true → B.root a = true →
      src.typ = .ok T → src.fixed B a →
      src.Field i = .ok sf → sf.IsNil h = .ok true →
      (m.deepMerge H k (.addr T a p) src o h).heap.read a (p ++ [i]) =
        h.read a (p ++ [i])) :=
  ⟨fun _ _ _ _ hk hreg hdt hst hnil =>
      deepMerge_nil_source H m n o hk hreg hdt hst hnil,
    rfl,
    fun B T Ti a p src sf i nm pk h k hfm hfc hkT hex hreg hfi hk hregi hn ha
        hroot hst hsrc hsf hnil =>
      deepMerge_struct_keeps_field H m k o B T Ti a p src sf i nm pk h hfm hfc
        hkT hex hreg hfi hk hregi hn ha hroot hst hsrc hsf hnil⟩

theorem exRegionTest_noRef : exHeapTest.NoRef exRegionTest := by
  refine ⟨fun c hc => ?_, fun i hi => ?_, fun c x hx hc => ?_,
    fun i mo hmo _ e he => ?_⟩
  · simp only [exRegionTest, beq_iff_eq] at hc
    subst hc
    decide
  · cases hi
  · match c, hx with
    | 0, hx => injection hx with hx; subst hx; rfl
    | 1, hx => injection hx with hx; subst hx; rfl
    | c + 2, hx => simp [exHeapTest] at hx
  · match i, hmo with
    | 0, hmo =>
      simp only [exHeapTest, List.getElem?_cons_zero, Option.some.injEq] at hmo
      subst hmo
      simp only [List.mem_singleton] at he
      subst he
      rfl
    | i + 1, hmo => simp [exHeapTest] at hmo

theorem C30_nil_source_keeps_destination_witness :
    newPorter.deepMerge Host.trivial (0 + 1) (.addr (.ptr (.basic .Int)) 0 [])
        (.direct (.ptr (.basic .Int)) (.ptr none)) newOptions
        ⟨[.ptr (some 1), .int 2], []⟩ =
      .ok () ⟨[.ptr (some 1), .int 2], []⟩ ∧
    (newPorter.deepMerge Host.trivial 3 (.addr exTest 0 [])
        (.direct exTest (.struct [.int 2, .str "2", .bool true, .ptr none,
          .slice (some [.str "2"]), .map none])) newOptions
        exHeapTest).heap.read 0 ([] ++ [3]) = exHeapTest.read 0 ([] ++ [3]) :=
  ⟨(C30_nil_source_keeps_destination Host.trivial newPorter 0 newOptions).1
      (.ptr (.basic .Int)) (.addr (.ptr (.basic .Int)) 0 [])
      (.direct (.ptr (.basic .Int)) (.ptr none)) ⟨[.ptr (some 1), .int 2], []⟩
      (Or.inr (Or.inr (Or.inl rfl))) rfl rfl rfl rfl,
    (C30_nil_source_keeps_destination Host.trivial newPorter 0 newOptions).2.2
      exRegionTest exTest (.ptr (.basic .Int)) 0 []
      (.direct exTest (.struct [.int 2, .str "2", .bool true, .ptr none,
        .slice (some [.str "2"]), .map none]))
      (.direct (.ptr (.basic .Int)) (.ptr none)) 3 "Ptr" "" exHeapTest 3
      (fun _ _ hf => by cases hf) (fun _ _ hf => by cases hf)
      rfl rfl rfl rfl (Or.inr (Or.inr (Or.inl rfl))) rfl
      exRegionTest_noRef rfl rfl rfl rfl rfl rfl⟩

/-! ## Merging twice: places, frames and agreement -/

theorem under_of_below {σ : Shape} {π : List Step} {c : Nat}
    (hb : σ.below π c) : σ.under π c := by
  obtain ⟨ρ, hρ, hp, _⟩ := hb
  exact ⟨ρ, hρ, hp⟩

theorem below_mono {σ : Shape} {π π' : List Step} {c : Nat}
    (hp : π <+: π') (hb : σ.below π' c) : σ.below π c := by
  obtain ⟨ρ, hρ, hp', hne⟩ := hb
  refine ⟨ρ, hρ, hp.trans hp', fun he => hne ?_⟩
  subst he
  exact List.IsPrefix.eq_of_length hp (Nat.le_antisymm hp.length_le hp'.length_le)

/-- A cell at or below a place that lies below `π` lies below `π`. -/
theorem below_of_under {σ : Shape} {π π' : List Step} {c : Nat}
    (hp : π <+: π') (hn : ¬ π' <+: π) (hu : σ.under π' c) : σ.below π c := by
  obtain ⟨ρ, hρ, hp'⟩ := hu
  refine ⟨ρ, hρ, hp.trans hp', fun he => hn ?_⟩
  subst he
  exact hp'

theorem quiet_refl (g : Heap) : Quiet g g := ⟨List.prefix_refl _, rfl⟩

theorem quiet_trans {g g1 g2 : Heap} (h1 : Quiet g g1) (h2 : Quiet g1 g2) :
    Quiet g g2 := ⟨h1.1.trans h2.1, h2.2.trans h1.2⟩

theorem quiet_cell {g g' : Heap} (hq : Quiet g g') {c : Nat}
    (hc : c < g.cells.length) : g'.cells[c]? = g.cells[c]? := by
  obtain ⟨t, ht⟩ := hq.1
  rw [← ht, List.getElem?_append_left hc]

theorem quiet_read {g g' : Heap} (hq : Quiet g g') {c : Nat}
    (hc : c < g.cells.length) (r : List Nat) : g'.read c r = g.read c r := by
  simp only [Heap.read, quiet_cell hq hc]

theorem quiet_length_le {g g' : Heap} (hq : Quiet g g') :
    g.cells.length ≤ g'.cells.length := hq.1.length_le

theorem sameAt_load {g h : Heap} {v : Value} (hs : SameAt g h v) :
    v.load g = v.load h := by
  cases v with
  | invalid => rfl
  | direct t x => rfl
  | addr t a q =>
    have hs2 : g.read a q = h.read a q := hs
    simp only [Value.load, hs2]

theorem sameAt_derefInterface {g h : Heap} {v : Value} (hs : SameAt g h v) :
    derefInterface v g = derefInterface v h := by
  cases v with
  | invalid => rfl
  | direct t x => rfl
  | addr t a q =>
    have hs2 : g.read a q = h.read a q := hs
    simp only [derefInterface, hs2]

theorem sameAt_isNil {g h : Heap} {v : Value} (hs : SameAt g h v) :
    v.IsNil g = v.IsNil h := IsNil_of_load (sameAt_load hs)

theorem sameAt_elem {g h : Heap} {v : Value} (hs : SameAt g h v) :
    v.Elem g = v.Elem h := by
  unfold Value.Elem
  rw [sameAt_load hs]

theorem sameAt_symm {g h : Heap} {v : Value} (hs : SameAt g h v) :
    SameAt h g v := by
  cases v with
  | invalid => trivial
  | direct t x => trivial
  | addr t a q => exact Eq.symm hs

theorem sameAt_trans {g h k : Heap} {v : Value} (h1 : SameAt g h v)
    (h2 : SameAt h k v) : SameAt g k v := by
  cases v with
  | invalid => trivial
  | direct t x => trivial
  | addr t a q => exact Eq.trans h1 h2

/-- What `derefInterface` returns has no interface type. -/
theorem derefInterface_kind {v e : Value} {h : Heap} {te : Ty}
    (hd : derefInterface v h = .ok e) (ht : e.typ = .ok te) :
    te.kind ≠ .Interface := by
  cases v with
  | invalid =>
    simp only [derefInterface] at hd
    injection hd with hd
    subst hd
    simp [Value.typ] at ht
  | direct t x => exact derefDirect_kind hd ht
  | addr t a q =>
    simp only [derefInterface] at hd
    split at hd
    · cases hr : h.read a q with
      | none => simp [hr] at hd
      | some x =>
        simp only [hr] at hd
        exact derefDirect_kind hd ht
    · rename_i hk
      injection hd with hd
      subst hd
      simp only [Value.typ_addr] at ht
      injection ht with ht
      exact ht ▸ hk

theorem derefDirect_form : ∀ (t : Ty) (x : Val) {e : Value},
    derefDirect t x = .ok e → e = .invalid ∨ ∃ te xe, e = .direct te xe
  | t, .iface none, e, hd => by
    simp only [derefDirect] at hd
    split at hd
    · injection hd with hd; exact Or.inl hd.symm
    · injection hd with hd; exact Or.inr ⟨_, _, hd.symm⟩
  | t, .iface (some (t', v')), e, hd => by
    simp only [derefDirect] at hd
    split at hd
    · exact derefDirect_form t' v' hd
    · injection hd with hd; exact Or.inr ⟨_, _, hd.symm⟩
  | t, .bool _, e, hd => by
    simp only [derefDirect] at hd
    split at hd
    · cases hd
    · injection hd with hd; exact Or.inr ⟨_, _, hd.symm⟩
  | t, .int _, e, hd => by
    simp only [derefDirect] at hd
    split at hd
    · cases hd
    · injection hd with hd; exact Or.inr ⟨_, _, hd.symm⟩
  | t, .uint _, e, hd => by
    simp only [derefDirect] at hd
    split at hd
    · cases hd
    · injection hd with hd; exact Or.inr ⟨_, _, hd.symm⟩
  | t, .float _, e, hd => by
    simp only [derefDirect] at hd
    split at hd
    · cases hd
    · injection hd with hd; exact Or.inr ⟨_, _, hd.symm⟩
  | t, .complex _ _, e, hd => by
    simp only [derefDirect] at hd
    split at hd
    · cases hd
    · injection hd with hd; exact Or.inr ⟨_, _, hd.symm⟩
  | t, .str _, e, hd => by
    simp only [derefDirect] at hd
    split at hd
    · cases hd
    · injection hd with hd; exact Or.inr ⟨_, _, hd.symm⟩
  | t, .ptr _, e, hd => by
    simp only [derefDirect] at hd
    split at hd
    · cases hd
    · injection hd with hd; exact Or.inr ⟨_, _, hd.symm⟩
  | t, .uptr _, e, hd => by
    simp only [derefDirect] at hd
    split at hd
    · cases hd
    · injection hd with hd; exact Or.inr ⟨_, _, hd.symm⟩
  | t, .map _, e, hd => by
    simp only [derefDirect] at hd
    split at hd
    · cases hd
    · injection hd with hd; exact Or.inr ⟨_, _, hd.symm⟩
  | t, .chan _, e, hd => by
    simp only [derefDirect] at hd
    split at hd
    · cases hd
    · injection hd with hd; exact Or.inr ⟨_, _, hd.symm⟩
  | t, .func _, e, hd => by
    simp only [derefDirect] at hd
    split at hd
    · cases hd
    · injection hd with hd; exact Or.inr ⟨_, _, hd.symm⟩
  | t, .slice _, e, hd => by
    simp only [derefDirect] at hd
    split at hd
    · cases hd
    · injection hd with hd; exact Or.inr ⟨_, _, hd.symm⟩
  | t, .array _, e, hd => by
    simp only [derefDirect] at hd
    split at hd
    · cases hd
    · injection hd with hd; exact Or.inr ⟨_, _, hd.symm⟩
  | t, .struct _, e, hd => by
    simp only [derefDirect] at hd
    split at hd
    · cases hd
    · injection hd with hd; exact Or.inr ⟨_, _, hd.symm⟩

/-- What the value behind the interface layers of a handle holds does not
depend on the heap when that value is a copy, and is what the handle denotes
when it is the handle itself. -/
theorem derefInterface_load {v e : Value} {h : Heap}
    (hd : derefInterface v h = .ok e) (g : Heap) (hs : SameAt g h v) :
    e.load g = e.load h := by
  cases v with
  | invalid =>
    simp only [derefInterface] at hd
    injection hd with hd
    subst hd
    rfl
  | direct t x =>
    rcases derefDirect_form t x hd with rfl | ⟨te, xe, rfl⟩ <;> rfl
  | addr t a q =>
    simp only [derefInterface] at hd
    split at hd
    · cases hr : h.read a q with
      | none => simp [hr] at hd
      | some x =>
        simp only [hr] at hd
        rcases derefDirect_form t x hd with rfl | ⟨te, xe, rfl⟩ <;> rfl
    · injection hd with hd
      subst hd
      exact sameAt_load hs

/-- What `directMerge` does, in one expression. -/
theorem directMerge_eq (dst src : Value) (o : Options) (h : Heap) :
    directMerge dst src o h =
      match derefInterface dst h with
      | .error e => .fail e h
      | .ok dstE =>
        match derefInterface src h with
        | .error e => .fail e h
        | .ok srcE =>
          if dstE.IsValid = false then
            .fail (.error .directMergeInvalidDst) h
          else if srcE.IsValid = false then .ok () h
          else
            match dstE.typ with
            | .error e => .fail e h
            | .ok dt =>
              match srcE.typ with
              | .error e => .fail e h
              | .ok st =>
                if dt ≠ st then .fail (.error (.directMergeType st dt)) h
                else if dst.CanSet = false then .ok () h
                else if (o.Overwrite || isEmptyValue h dstE) = true then
                  match dst.Set srcE h with
                  | .ok h' => .ok () h'
                  | .error e => .fail e h
                else .ok () h := by
  unfold directMerge
  simp only [M.bind_apply, M.rd_apply]
  cases hde : derefInterface dst h with
  | error e => rfl
  | ok dstE =>
    simp only []
    cases hse : derefInterface src h with
    | error e => rfl
    | ok srcE =>
      simp only []
      cases hv : dstE.IsValid with
      | false => simp
      | true =>
        cases hsv : srcE.IsValid with
        | false => simp
        | true =>
          simp only [Bool.not_true, Bool.false_eq_true, if_false,
            M.bind_apply, M.rd_apply]
          cases hdt : dstE.typ with
          | error e => rfl
          | ok dt =>
            simp only []
            cases hst : srcE.typ with
            | error e => rfl
            | ok st =>
              simp only []
              by_cases hne : dt = st
              · subst hne
                simp only [ne_eq, not_true_eq_false, if_false]
                cases hc : dst.CanSet with
                | false => simp
                | true =>
                  simp only [Bool.not_true, Bool.false_eq_true, if_false,
                    M.bind_apply, M.rd_apply]
                  by_cases hoe : (o.Overwrite || isEmptyValue h dstE) = true
                  · simp [hoe]
                  · simp [hoe]
              · simp [hne]

/-- The function `directMerge` under `Overwrite`, run a second time, changes nothing: the
first run left at the destination what the second run assigns. -/
theorem directMerge_twice {dst src : Value} {o : Options} {h h1 g : Heap}
    (ho : o.Overwrite = true)
    (hrun : directMerge dst src o h = .ok () h1)
    (hs : SameAt g h src) (hd : SameAt g h1 dst) :
    directMerge dst src o g = .ok () g := by
  rw [directMerge_eq] at hrun ⊢
  rw [sameAt_derefInterface hs]
  cases hse : derefInterface src h with
  | error e =>
    simp only [hse] at hrun
    cases hde : derefInterface dst h <;> simp [hde] at hrun
  | ok srcE =>
    have hsl : srcE.load g = srcE.load h := derefInterface_load hse g hs
    cases hde : derefInterface dst h with
    | error e => simp [hde] at hrun
    | ok dstE =>
      simp only [hde, hse] at hrun ⊢
      cases hv : dstE.IsValid with
      | false => simp [hv] at hrun
      | true =>
        cases hsv : srcE.IsValid with
        | false =>
          -- an invalid source: nothing is assigned
          simp only [hv, hsv, Bool.true_eq_false, if_false, if_true] at hrun
          injection hrun with _ hrun
          subst hrun
          rw [sameAt_derefInterface hd, hde]
          simp [hv, hsv]
        | true =>
          simp only [hv, hsv, Bool.true_eq_false, if_false] at hrun ⊢
          cases hdt : dstE.typ with
          | error e => simp [hdt] at hrun
          | ok dt =>
            cases hst : srcE.typ with
            | error e => simp [hdt, hst] at hrun
            | ok st =>
              simp only [hdt, hst] at hrun ⊢
              by_cases hne : dt = st
              · subst hne
                simp only [ne_eq, not_true_eq_false, if_false, ho,
                  Bool.true_or, if_true] at hrun ⊢
                cases dst with
                | invalid =>
                  simp only [derefInterface] at hde
                  injection hde with hde
                  subst hde
                  simp [Value.IsValid] at hv
                | direct t x =>
                  have hde2 : derefInterface (.direct t x) g = .ok dstE := hde
                  simp [hde2, hv, hdt, Value.CanSet]
                | addr t a q =>
                  have hd2 : g.read a q = h1.read a q := hd
                  simp only [Value.CanSet, Bool.true_eq_false, if_false,
                    Value.Set, hst] at hrun
                  cases hxl : srcE.load h with
                  | error e => simp [hxl] at hrun
                  | ok xv =>
                    simp only [hxl] at hrun
                    by_cases has : assignable t dt = true
                    · simp only [has, if_true] at hrun
                      cases hw : h.write a q (assignTo t dt xv) with
                      | none => simp [hw] at hrun
                      | some h' =>
                        simp only [hw] at hrun
                        injection hrun with _ hrun
                        subst hrun
                        have hr1 : g.read a q = some (assignTo t dt xv) := by
                          rw [hd2]; exact Heap.read_write hw
                        have hk : dt.kind ≠ .Interface :=
                          derefInterface_kind hse hst
                        by_cases hti : t.kind = .Interface
                        · have hdeg : derefInterface (.addr t a q) g =
                              .ok (.direct dt xv) := by
                            simp only [derefInterface, hti, if_true, hr1,
                              assignTo, hk, ne_eq, not_false_eq_true, and_self]
                            simp only [derefDirect, hti, if_true]
                            exact derefDirect_of_not_iface xv hk
                          simp only [hdeg, Value.IsValid, Bool.true_eq_false,
                            if_false, Value.typ_direct, ne_eq,
                            not_true_eq_false, Value.CanSet, Value.Set, hst,
                            hsl, hxl, has, if_true,
                            Heap.write_read_self hr1]
                        · have hdeg : derefInterface (.addr t a q) g =
                              .ok (.addr t a q) := by
                            simp [derefInterface, hti]
                          simp only [derefInterface, hti, if_false] at hde
                          injection hde with hde
                          subst hde
                          simp only [Value.typ_addr] at hdt
                          injection hdt with hdt
                          subst hdt
                          simp only [hdeg, Value.IsValid, Bool.true_eq_false,
                            if_false, Value.typ_addr, ne_eq,
                            not_true_eq_false, Value.CanSet, Value.Set, hst,
                            hsl, hxl, has, if_true,
                            Heap.write_read_self hr1]
                    · simp [has] at hrun
              · simp [hne] at hrun

theorem frame_refl (h : Heap) (σ : Shape) (π : List Step) (dst : Value) :
    Frame h h σ π dst :=
  ⟨Nat.le_refl _, Nat.le_refl _, fun _ _ _ _ _ => rfl, fun _ _ _ => rfl⟩

/-- A write leaves the other cells, and the locations of the same cell beside
the one written, as they are. -/
theorem Heap.read_write_free {h g : Heap} {a : Nat} {q : List Nat} {x : Val}
    (hw : h.write a q x = some g) {c : Nat} {r : List Nat}
    (hf : c = a → ¬ q <+: r ∧ ¬ r <+: q) : g.read c r = h.read c r := by
  by_cases hb : c = a
  · subst hb
    obtain ⟨h1, h2⟩ := hf rfl
    unfold Heap.write at hw
    cases hx : h.cells[c]? with
    | none => simp [hx] at hw
    | some y =>
      simp only [hx] at hw
      cases hsp : y.setPath q x with
      | none => simp [hsp] at hw
      | some c' =>
        simp only [hsp, Option.some.injEq] at hw
        subst hw
        have hlt : c < h.cells.length := (List.getElem?_eq_some_iff.mp hx).1
        simp only [Heap.read, List.getElem?_set_self hlt, hx]
        exact Val.getPath_setPath_outside q hsp h1 h2
  · exact Heap.read_write_other hw hb r

theorem frameAt_refl (h : Heap) (dst : Value) : FrameAt h h dst :=
  ⟨Nat.le_refl _, rfl, fun _ _ _ _ => rfl⟩

theorem frame_of_frameAt {h h1 : Heap} {dst : Value} (hf : FrameAt h h1 dst)
    (σ : Shape) (π : List Step) : Frame h h1 σ π dst :=
  ⟨hf.1, Nat.le_of_eq (by rw [hf.2.1]), fun c r hc _ hfree => hf.2.2 c r hc hfree,
    fun i _ _ => by rw [hf.2.1]⟩

theorem frameAt_trans {h h' h1 : Heap} {dst : Value} (h01 : FrameAt h h' dst)
    (h12 : FrameAt h' h1 dst) : FrameAt h h1 dst :=
  ⟨Nat.le_trans h01.1 h12.1, h12.2.1.trans h01.2.1, fun c r hc hfree =>
    (h12.2.2 c r (Nat.lt_of_lt_of_le hc h01.1) hfree).trans
      (h01.2.2 c r hc hfree)⟩

theorem frameAt_alloc (h : Heap) (v : Val) (dst : Value) :
    FrameAt h (h.alloc v).1 dst := by
  refine ⟨by simp [Heap.alloc], rfl, fun c r hc _ => ?_⟩
  simp only [Heap.read, Heap.alloc, List.getElem?_append_left hc]

theorem frameAt_write {h h1 : Heap} {t : Ty} {a : Nat} {q : List Nat}
    {x : Val} (hw : h.write a q x = some h1) :
    FrameAt h h1 (.addr t a q) := by
  obtain ⟨hl, hm⟩ := Heap.write_cells_length hw
  exact ⟨Nat.le_of_eq hl.symm, hm, fun c r _ hf => Heap.read_write_free hw hf⟩

theorem frameAt_set {dst x : Value} {h h1 : Heap}
    (hs : dst.Set x h = .ok h1) : FrameAt h h1 dst := by
  cases dst with
  | invalid => simp [Value.Set] at hs
  | direct t v => simp [Value.Set] at hs
  | addr t a q =>
    simp only [Value.Set] at hs
    cases htx : x.typ with
    | error e => simp [htx] at hs
    | ok tx =>
      cases hxl : x.load h with
      | error e => simp [htx, hxl] at hs
      | ok xv =>
        simp only [htx, hxl] at hs
        split at hs
        · cases hw : h.write a q (assignTo t tx xv) with
          | none => simp [hw] at hs
          | some g' =>
            simp only [hw, Except.ok.injEq] at hs
            subst hs
            exact frameAt_write hw
        · cases hs

theorem directMerge_frameAt {dst src : Value} {o : Options} {h h1 : Heap}
    (hrun : directMerge dst src o h = .ok () h1) : FrameAt h h1 dst := by
  rw [directMerge_eq] at hrun
  cases hde : derefInterface dst h with
  | error e => simp [hde] at hrun
  | ok dstE =>
    cases hse : derefInterface src h with
    | error e => simp [hde, hse] at hrun
    | ok srcE =>
      simp only [hde, hse] at hrun
      split at hrun
      · cases hrun
      split at hrun
      · injection hrun with _ hrun; subst hrun; exact frameAt_refl _ _
      cases hdt : dstE.typ with
      | error e => simp [hdt] at hrun
      | ok dt =>
        cases hst : srcE.typ with
        | error e => simp [hdt, hst] at hrun
        | ok st =>
          simp only [hdt, hst] at hrun
          split at hrun
          · cases hrun
          split at hrun
          · injection hrun with _ hrun; subst hrun; exact frameAt_refl _ _
          split at hrun
          · cases hs : dst.Set srcE h with
            | error e => simp [hs] at hrun
            | ok h' =>
              simp only [hs] at hrun
              injection hrun with _ hrun
              subst hrun
              exact frameAt_set hs
          · injection hrun with _ hrun; subst hrun; exact frameAt_refl _ _

theorem directMerge_frame {dst src : Value} {o : Options} {h h1 : Heap}
    (hrun : directMerge dst src o h = .ok () h1) (σ : Shape) (π : List Step) :
    Frame h h1 σ π dst :=
  frame_of_frameAt (directMerge_frameAt hrun) σ π

/-- The source is read the same in a heap that agrees with the outcome of a
merge: the merge did not write the source. -/
theorem agree_src {σ : Shape} {π : List Step} {dst src : Value}
    {h h1 g : Heap} (hok : SrcOk h σ) (hd : DstAt h σ π dst)
    (hs : SrcIn σ src) (hf : Frame h h1 σ π dst)
    (ha : Agree σ π dst h h1 g) : SameAt g h src := by
  cases src with
  | invalid => trivial
  | direct t x => trivial
  | addr t s r =>
    have hsc : σ.srcCell s = true := hs.1
    have hlt : s < h.cells.length :=
      Nat.lt_of_lt_of_le (hok.src_lt s hsc) hok.bound_le
    have hg : g.cells[s]? = h1.cells[s]? :=
      ha.2.2.1 s (Nat.lt_of_lt_of_le hlt hf.1) (Or.inr (Or.inr hsc))
    have hnu : ¬ σ.under π s := by
      rintro ⟨ρ, hρ, _⟩
      rw [hok.disj s ρ hρ] at hsc
      cases hsc
    have hfree : Free dst s r := by
      cases dst with
      | invalid => trivial
      | direct t x => trivial
      | addr t a q =>
        intro hsa
        exfalso
        subst hsa
        rcases hd.2.2 with hb | ⟨π0, hp, _⟩
        · exact absurd (hok.src_lt s hsc) (Nat.not_lt.mpr hb)
        · rw [hok.disj s π0 hp] at hsc
          cases hsc
    show g.read s r = h.read s r
    rw [← hf.2.2.1 s r hlt (fun hb => hnu (under_of_below hb)) hfree]
    simp only [Heap.read, hg]

theorem agree_dst {σ : Shape} {π : List Step} {dst : Value} {h h1 g : Heap}
    (ha : Agree σ π dst h h1 g) : SameAt g h1 dst := by
  cases dst with
  | invalid => trivial
  | direct t x => trivial
  | addr t a q => exact ha.2.2.2.2

/-- A merge that is `directMerge` whatever the fuel: the frame, and the second
run. -/
theorem leaf_main {H : Host} {m : porter} {o : Options} {σ : Shape}
    {π : List Step} {dst src : Value} {h h1 : Heap} {n : Nat}
    (ho : o.Overwrite = true)
    (heq : ∀ k g, m.deepMerge H (k + 1) dst src o g = directMerge dst src o g)
    (hok : SrcOk h σ) (hd : DstAt h σ π dst) (hs : SrcIn σ src)
    (hrun : m.deepMerge H (n + 1) dst src o h = .ok () h1) :
    Frame h h1 σ π dst ∧
      Settled σ π dst h h1 (fun k => m.deepMerge H k dst src o) := by
  rw [heq] at hrun
  have hf := directMerge_frame hrun σ π
  refine ⟨hf, 1, fun g ha k hk => ⟨g, ?_, quiet_refl g⟩⟩
  obtain ⟨j, rfl⟩ : ∃ j, k = j + 1 := ⟨k - 1, by omega⟩
  show m.deepMerge H (j + 1) dst src o g = .ok () g
  rw [heq]
  exact directMerge_twice ho hrun (agree_src hok hd hs hf ha) (agree_dst ha)

theorem fitsFields_get {σ : Shape} {π : List Step} :
    ∀ {fs : List Val} {i j : Nat} {v : Val},
      Val.fitsFields σ π i fs = true → fs[j]? = some v →
      v.fits σ (π ++ [.field (i + j)]) = true
  | [], i, j, v, _, hv => by simp at hv
  | f :: fs, i, 0, v, hf, hv => by
    simp only [List.getElem?_cons_zero, Option.some.injEq] at hv
    subst hv
    simp only [Val.fitsFields, Bool.and_eq_true] at hf
    exact hf.1
  | f :: fs, i, j + 1, v, hf, hv => by
    simp only [List.getElem?_cons_succ] at hv
    simp only [Val.fitsFields, Bool.and_eq_true] at hf
    have := fitsFields_get hf.2 hv
    rw [show i + (j + 1) = i + 1 + j by omega]
    exact this

theorem fits_field {σ : Shape} {π : List Step} {fs : List Val} {j : Nat}
    {v : Val} (hf : Val.fits σ π (.struct fs) = true) (hv : fs[j]? = some v) :
    v.fits σ (π ++ [.field j]) = true := by
  simp only [Val.fits] at hf
  simpa using fitsFields_get hf hv

theorem fits_getPath {σ : Shape} : ∀ (p : List Nat) {π : List Step}
    {v w : Val}, v.fits σ π = true → v.getPath p = some w →
    w.fits σ (π ++ p.map Step.field) = true
  | [], π, v, w, hv, hg => by
    simp only [Val.getPath, Option.some.injEq] at hg
    simpa using hg ▸ hv
  | i :: p, π, v, w, hv, hg => by
    cases v with
    | struct fs =>
      simp only [Val.getPath] at hg
      cases hfi : fs[i]? with
      | none => simp [hfi] at hg
      | some f =>
        simp only [hfi] at hg
        have := fits_getPath p (fits_field hv hfi) hg
        simpa using this
    | _ => simp [Val.getPath] at hg

/-- What a destination handle denotes can stand at its place. -/
theorem dstAt_load {σ : Shape} {h : Heap} {π : List Step} {dst : Value}
    (hd : DstAt h σ π dst) {x : Val} (hl : dst.load h = .ok x) :
    x.fits σ π = true := by
  cases dst with
  | invalid => simp [Value.load] at hl
  | direct t y =>
    simp only [Value.load, Except.ok.injEq] at hl
    exact hl ▸ hd
  | addr t a q =>
    simp only [Value.load] at hl
    cases hr : h.read a q with
    | none => simp [hr] at hl
    | some y =>
      simp only [hr, Except.ok.injEq] at hl
      exact hl ▸ hd.2.1 y hr

theorem dstAt_field {σ : Shape} {h : Heap} {π : List Step} {dst df : Value}
    {i : Nat} (hd : DstAt h σ π dst) (hf : dst.Field i = .ok df) :
    DstAt h σ (π ++ [.field i]) df := by
  cases dst with
  | invalid => simp [Value.Field, Value.kind] at hf
  | direct t x =>
    obtain ⟨y, fs, w, _, rfl, hw, rfl⟩ := Field_direct_ok hf
    exact fits_field hd hw
  | addr t a q =>
    obtain ⟨y, _, rfl⟩ := Field_addr_ok hf
    refine ⟨hd.1, fun x hx => ?_, ?_⟩
    · rw [Heap.read_append] at hx
      cases hr : h.read a q with
      | none => simp [hr] at hx
      | some w =>
        simp only [hr, Option.bind_some] at hx
        have := fits_getPath [i] (hd.2.1 w hr) hx
        simpa using this
    · rcases hd.2.2 with hb | ⟨π0, hp, he⟩
      · exact Or.inl hb
      · refine Or.inr ⟨π0, hp, ?_⟩
        rw [he]
        simp

theorem wellShaped_mono {σ : Shape} {h : Heap} {π π' : List Step}
    (hw : WellShaped h σ π) (hp : π <+: π') : WellShaped h σ π' :=
  ⟨fun c ρ x hc hρ hx => hw.1 c ρ x hc (hp.trans hρ) hx,
   fun r ρ mo hr hρ hm => hw.2 r ρ mo hr (hp.trans hρ) hm⟩

/-- The cell of a destination handle is not below a place beside the handle's
own. -/
theorem dstAt_not_under {σ : Shape} {h : Heap} (hok : SrcOk h σ)
    {π π' : List Step} {t : Ty} {a : Nat} {q : List Nat}
    (hd : DstAt h σ π (.addr t a q)) (hn : ¬ π' <+: π) : ¬ σ.under π' a := by
  rintro ⟨ρ, hρ, hpr⟩
  rcases hd.2.2 with hb | ⟨π0, hp, he⟩
  · exact absurd (hok.pos_lt a ρ hρ) (Nat.not_lt.mpr hb)
  · rw [hp] at hρ
    injection hρ with hρ
    subst hρ
    exact hn (he ▸ hpr.trans (List.prefix_append _ _))

theorem srcOk_frame {σ : Shape} {h h1 : Heap} {π : List Step} {dst : Value}
    (hok : SrcOk h σ) (hd : DstAt h σ π dst) (hf : Frame h h1 σ π dst) :
    SrcOk h1 σ := by
  have hcell : ∀ c, σ.srcCell c = true → h1.cells[c]? = h.cells[c]? := by
    intro c hc
    have hlt : c < h.cells.length :=
      Nat.lt_of_lt_of_le (hok.src_lt c hc) hok.bound_le
    have hnu : ¬ σ.under π c := by
      rintro ⟨ρ, hρ, _⟩
      rw [hok.disj c ρ hρ] at hc
      cases hc
    have hfree : Free dst c [] := by
      cases dst with
      | invalid => trivial
      | direct t x => trivial
      | addr t a q =>
        intro hsa
        exfalso
        subst hsa
        rcases hd.2.2 with hb | ⟨π0, hp, _⟩
        · exact absurd (hok.src_lt c hc) (Nat.not_lt.mpr hb)
        · rw [hok.disj c π0 hp] at hc
          cases hc
    have := hf.2.2.1 c [] hlt (fun hb => hnu (under_of_below hb)) hfree
    simp only [Heap.read] at this
    cases h1c : h1.cells[c]? <;> cases hc0 : h.cells[c]? <;>
      simp [h1c, hc0, Val.getPath] at this ⊢
    exact this
  refine ⟨Nat.le_trans hok.bound_le hf.1, Nat.le_trans hok.boundM_le hf.2.1,
    hok.pos_lt, hok.src_lt, hok.posM_lt, hok.srcM_lt, hok.disj, hok.disjM,
    fun c x hc hx => hok.cell_typed c x hc (by rw [← hcell c hc]; exact hx),
    fun r mo hr hm => ?_⟩
  have hlt : r < h.maps.length :=
    Nat.lt_of_lt_of_le (hok.srcM_lt r hr) hok.boundM_le
  have hnu : ¬ σ.underM π r := by
    rintro ⟨ρ, hρ, _⟩
    rw [hok.disjM r ρ hρ] at hr
    cases hr
  rw [hf.2.2.2 r hlt hnu] at hm
  exact hok.map_typed r mo hr hm

theorem walked_false_iff {k : Kind} : walked k = false ↔
    k ≠ .Struct ∧ k ≠ .Ptr ∧ k ≠ .Map ∧ k ≠ .Interface ∧ k ≠ .Slice := by
  cases k <;> simp [walked]

mutual
theorem typed_mono {σ : Shape} {d : Bool} {n n' : Nat} (hn : n ≤ n') :
    ∀ (t : Ty) (v : Val), v.typed σ d n t = true → v.typed σ d n' t = true
  | t, .struct fs, h => by
    simp only [Val.typed] at h ⊢
    split
    · rename_i hk
      simp only [hk, if_true] at h
      exact typedFields_mono hn t.fields fs h
    · rename_i hk
      simpa only [hk, if_false] using h
  | t, .ptr none, h => by simpa only [Val.typed] using h
  | t, .ptr (some c), h => by
    simp only [Val.typed] at h ⊢
    split
    · rename_i hk
      simp only [hk, if_true, Bool.and_eq_true, decide_eq_true_eq] at h ⊢
      exact ⟨⟨⟨h.1.1.1, h.1.1.2⟩, Nat.lt_of_lt_of_le h.1.2 hn⟩, h.2⟩
    · rename_i hk
      simpa only [hk, if_false] using h
  | t, .map none, h => by simpa only [Val.typed] using h
  | t, .map (some r), h => by
    simp only [Val.typed] at h ⊢
    split
    · rename_i hk
      simp only [hk, if_true, Bool.and_eq_true, decide_eq_true_eq] at h ⊢
      exact ⟨⟨⟨h.1.1.1, h.1.1.2⟩, Nat.lt_of_lt_of_le h.1.2 hn⟩, h.2⟩
    · rename_i hk
      simpa only [hk, if_false] using h
  | t, .iface none, h => by simpa only [Val.typed] using h
  | t, .iface (some (t', v')), h => by
    simp only [Val.typed] at h ⊢
    split
    · rename_i hk
      simp only [hk, if_true, Bool.and_eq_true] at h ⊢
      exact ⟨h.1, typed_mono hn t' v' h.2⟩
    · rename_i hk
      simpa only [hk, if_false] using h
  | t, .slice _, h => by simpa only [Val.typed] using h
  | t, .bool _, h => by simpa only [Val.typed] using h
  | t, .int _, h => by simpa only [Val.typed] using h
  | t, .uint _, h => by simpa only [Val.typed] using h
  | t, .float _, h => by simpa only [Val.typed] using h
  | t, .complex _ _, h => by simpa only [Val.typed] using h
  | t, .str _, h => by simpa only [Val.typed] using h
  | t, .uptr _, h => by simpa only [Val.typed] using h
  | t, .chan _, h => by simpa only [Val.typed] using h
  | t, .func _, h => by simpa only [Val.typed] using h
  | t, .array _, h => by simpa only [Val.typed] using h
theorem typedFields_mono {σ : Shape} {d : Bool} {n n' : Nat} (hn : n ≤ n') :
    ∀ (ts : List (String × String × Ty)) (vs : List Val),
      Val.typedFields σ d n ts vs = true → Val.typedFields σ d n' ts vs = true
  | [], [], _ => by simp [Val.typedFields]
  | [], _ :: _, h => by simp [Val.typedFields] at h
  | _ :: _, [], h => by simp [Val.typedFields] at h
  | (_, _, ft) :: ts, v :: vs, h => by
    simp only [Val.typedFields, Bool.and_eq_true] at h ⊢
    exact ⟨typed_mono hn ft v h.1, typedFields_mono hn ts vs h.2⟩
end

theorem typedFields_get {σ : Shape} {d : Bool} {n : Nat} :
    ∀ {ts : List (String × String × Ty)} {fs : List Val} {i : Nat}
      {x : String × String × Ty},
      Val.typedFields σ d n ts fs = true → ts[i]? = some x →
      ∃ f, fs[i]? = some f ∧ f.typed σ d n x.2.2 = true
  | [], [], i, x, _, hx => by simp at hx
  | [], _ :: _, i, x, h, _ => by simp [Val.typedFields] at h
  | _ :: _, [], i, x, h, _ => by simp [Val.typedFields] at h
  | (_, _, ft) :: ts, v :: vs, 0, x, h, hx => by
    simp only [List.getElem?_cons_zero, Option.some.injEq] at hx
    subst hx
    simp only [Val.typedFields, Bool.and_eq_true] at h
    exact ⟨v, by simp, h.1⟩
  | (_, _, ft) :: ts, v :: vs, i + 1, x, h, hx => by
    simp only [List.getElem?_cons_succ] at hx
    simp only [Val.typedFields, Bool.and_eq_true] at h
    obtain ⟨f, hf, hft⟩ := typedFields_get h.2 hx
    exact ⟨f, by simpa using hf, hft⟩

/-- A value of a struct type of the source is a struct with the fields of the
type. -/
theorem typed_struct {σ : Shape} {d : Bool} {n : Nat} {t : Ty} {v : Val}
    (hk : t.kind = .Struct) (h : v.typed σ d n t = true) :
    ∃ fs, v = .struct fs ∧ Val.typedFields σ d n t.fields fs = true := by
  cases v with
  | struct fs =>
    simp only [Val.typed, hk, if_true] at h
    exact ⟨fs, rfl, h⟩
  | iface a => rcases a with _ | ⟨t', v'⟩ <;> simp [Val.typed, hk, walked] at h
  | map a => cases a <;> simp [Val.typed, hk, walked] at h
  | ptr a => cases a <;> simp [Val.typed, hk, walked] at h
  | _ => simp [Val.typed, hk, walked] at h

theorem typed_ptr {σ : Shape} {d : Bool} {n : Nat} {t : Ty} {v : Val}
    (hk : t.kind = .Ptr) (h : v.typed σ d n t = true) :
    v = .ptr none ∨ ∃ c, v = .ptr (some c) ∧ σ.srcCell c = true ∧
      t.elem = some (σ.cellTy c) ∧ σ.rank c < n ∧
      (d = true → σ.deep c = true) := by
  cases v with
  | ptr a =>
    cases a with
    | none => exact Or.inl rfl
    | some c =>
      simp only [Val.typed, hk, if_true, Bool.and_eq_true, decide_eq_true_eq,
        Bool.or_eq_true, Bool.not_eq_true'] at h
      refine Or.inr ⟨c, rfl, h.1.1.1, h.1.1.2, h.1.2, fun hd => ?_⟩
      rcases h.2 with h2 | h2
      · rw [hd] at h2; cases h2
      · exact h2
  | iface a => rcases a with _ | ⟨t', v'⟩ <;> simp [Val.typed, hk, walked] at h
  | map a => cases a <;> simp [Val.typed, hk, walked] at h
  | _ => simp [Val.typed, hk, walked] at h

theorem typed_map {σ : Shape} {d : Bool} {n : Nat} {t : Ty} {v : Val}
    (hk : t.kind = .Map) (h : v.typed σ d n t = true) :
    v = .map none ∨ ∃ r, v = .map (some r) ∧ σ.srcMap r = true ∧
      t.elem = some (σ.mapTy r) ∧ σ.rankM r < n ∧
      (d = true → σ.deepM r = true) := by
  cases v with
  | map a =>
    cases a with
    | none => exact Or.inl rfl
    | some c =>
      simp only [Val.typed, hk, if_true, Bool.and_eq_true, decide_eq_true_eq,
        Bool.or_eq_true, Bool.not_eq_true'] at h
      refine Or.inr ⟨c, rfl, h.1.1.1, h.1.1.2, h.1.2, fun hd => ?_⟩
      rcases h.2 with h2 | h2
      · rw [hd] at h2; cases h2
      · exact h2
  | iface a => rcases a with _ | ⟨t', v'⟩ <;> simp [Val.typed, hk, walked] at h
  | ptr a => cases a <;> simp [Val.typed, hk, walked] at h
  | _ => simp [Val.typed, hk, walked] at h

theorem typed_iface {σ : Shape} {d : Bool} {n : Nat} {t : Ty} {v : Val}
    (hk : t.kind = .Interface) (h : v.typed σ d n t = true) :
    v = .iface none ∨ ∃ t' v', v = .iface (some (t', v')) ∧
      t'.kind ≠ .Interface ∧ v'.typed σ d n t' = true := by
  cases v with
  | iface a =>
    rcases a with _ | ⟨t', v'⟩
    · exact Or.inl rfl
    · simp only [Val.typed, hk, if_true, Bool.and_eq_true,
        decide_eq_true_eq] at h
      exact Or.inr ⟨t', v', rfl, h.1, h.2⟩
  | map a => cases a <;> simp [Val.typed, hk, walked] at h
  | ptr a => cases a <;> simp [Val.typed, hk, walked] at h
  | _ => simp [Val.typed, hk, walked] at h

theorem typed_slice {σ : Shape} {d : Bool} {n : Nat} {t : Ty} {v : Val}
    (hk : t.kind = .Slice) (h : v.typed σ d n t = true) :
    ∃ es, v = .slice es ∧ t.elem.isSome = true ∧
      (σ.unite = true → uniteSafe t es = true) := by
  cases v with
  | slice es =>
    simp only [Val.typed, hk, walked, decide_True, decide_False,
      Bool.or_true, Bool.not_true, Bool.false_or, Bool.true_and,
      Bool.or_false, Bool.and_eq_true, Bool.or_eq_true,
      Bool.not_eq_true'] at h
    refine ⟨es, rfl, h.1, fun hu => ?_⟩
    rcases h.2 with h2 | h2
    · rw [hu] at h2; cases h2
    · exact h2
  | iface a => rcases a with _ | ⟨t', v'⟩ <;> simp [Val.typed, hk, walked] at h
  | map a => cases a <;> simp [Val.typed, hk, walked] at h
  | ptr a => cases a <;> simp [Val.typed, hk, walked] at h
  | _ => simp [Val.typed, hk, walked] at h

theorem atPath_append (t : Ty) (q : List Nat) (i : Nat) :
    t.atPath (q ++ [i]) = (t.atPath q).bind (fun t' => t'.atPath [i]) := by
  induction q generalizing t with
  | nil => simp [Ty.atPath]
  | cons j q ih =>
    simp only [List.cons_append, Ty.atPath]
    split
    · cases hf : t.fields[j]? with
      | none => simp
      | some x =>
        obtain ⟨a, b, ft⟩ := x
        simp only
        exact ih ft
    · simp

theorem typed_getPath {σ : Shape} {d : Bool} {n : Nat} :
    ∀ (q : List Nat) {t t' : Ty} {v : Val}, v.typed σ d n t = true →
      t.atPath q = some t' →
      ∃ w, v.getPath q = some w ∧ w.typed σ d n t' = true
  | [], t, t', v, hv, ha => by
    simp only [Ty.atPath, Option.some.injEq] at ha
    subst ha
    exact ⟨v, rfl, hv⟩
  | i :: q, t, t', v, hv, ha => by
    simp only [Ty.atPath] at ha
    split at ha
    · rename_i hk
      obtain ⟨fs, rfl, hfs⟩ := typed_struct hk hv
      cases hf : t.fields[i]? with
      | none => simp [hf] at ha
      | some x =>
        obtain ⟨a, b, ft⟩ := x
        simp only [hf] at ha
        obtain ⟨f, hfi, hft⟩ := typedFields_get hfs hf
        obtain ⟨w, hw, hwt⟩ := typed_getPath q hft ha
        exact ⟨w, by simp [Val.getPath, hfi, hw], hwt⟩
    · cases ha

/-- What a source handle denotes is a value of its type. -/
theorem srcIn_load {σ : Shape} {h : Heap} (hok : SrcOk h σ) {src : Value}
    (hs : SrcIn σ src) {t : Ty} (ht : src.typ = .ok t) :
    ∃ x d n, src.load h = .ok x ∧ x.typed σ d n t = true := by
  cases src with
  | invalid => simp [Value.typ] at ht
  | direct t0 y =>
    simp only [Value.typ, Except.ok.injEq] at ht
    subst ht
    obtain ⟨d, n, hy⟩ := hs
    exact ⟨y, d, n, rfl, hy⟩
  | addr t0 s q =>
    simp only [Value.typ, Except.ok.injEq] at ht
    subst ht
    obtain ⟨hsc, hat⟩ := hs
    have hlt : s < h.cells.length :=
      Nat.lt_of_lt_of_le (hok.src_lt s hsc) hok.bound_le
    have hc : h.cells[s]? = some (h.cells[s]) := List.getElem?_eq_getElem hlt
    obtain ⟨w, hw, hwt⟩ := typed_getPath q (hok.cell_typed s _ hsc hc) hat
    exact ⟨w, _, _, by simp [Value.load, Heap.read, hc, hw], hwt⟩

theorem srcIn_field {σ : Shape} {src sf : Value} {i : Nat}
    (hs : SrcIn σ src) (hf : src.Field i = .ok sf) : SrcIn σ sf := by
  have hk : src.kind = .Struct := by
    unfold Value.Field at hf
    split at hf
    · assumption
    · cases hf
  cases src with
  | invalid => simp [Value.Field, Value.kind] at hf
  | direct t x =>
    obtain ⟨y, fs, w, hy, rfl, hw, rfl⟩ := Field_direct_ok hf
    obtain ⟨d, n, hx⟩ := hs
    obtain ⟨fs', hfs', hfs⟩ := typed_struct hk hx
    injection hfs' with hfs'
    subst hfs'
    obtain ⟨f, hfi, hft⟩ := typedFields_get hfs hy
    rw [hw] at hfi
    injection hfi with hfi
    subst hfi
    exact ⟨d, n, hft⟩
  | addr t s q =>
    obtain ⟨y, hy, rfl⟩ := Field_addr_ok hf
    refine ⟨hs.1, ?_⟩
    rw [atPath_append, hs.2]
    obtain ⟨a, b, ft⟩ := y
    simp [Ty.atPath, show t.kind = .Struct from hk, hy]

/-! ## Merging twice: structs -/

theorem not_prefix_field (π : List Step) {i j : Nat} (hij : i ≠ j) :
    ¬ (π ++ [Step.field i]) <+: (π ++ [Step.field j]) := by
  intro hp
  have h1 := (List.prefix_append_right_inj π).mp hp
  have h2 := List.IsPrefix.eq_of_length h1 rfl
  injection h2 with h2
  injection h2 with h2
  exact hij h2

theorem not_prefix_path (q : List Nat) {i j : Nat} (hij : i ≠ j) :
    ¬ (q ++ [i]) <+: (q ++ [j]) := by
  intro hp
  have h1 := (List.prefix_append_right_inj q).mp hp
  have h2 := List.IsPrefix.eq_of_length h1 rfl
  injection h2 with h2
  exact hij h2

/-- Two places of the same depth that a cell lies below are one place. -/
theorem under_both {σ : Shape} {π π' : List Step} {c : Nat}
    (h1 : σ.under π c) (h2 : σ.under π' c) (hl : π.length = π'.length) :
    π = π' := by
  obtain ⟨ρ, hρ, hp⟩ := h1
  obtain ⟨ρ', hρ', hp'⟩ := h2
  rw [hρ] at hρ'
  injection hρ' with hρ'
  subst hρ'
  exact List.IsPrefix.eq_of_length
    (List.prefix_of_prefix_length_le hp hp' (Nat.le_of_eq hl)) hl

theorem underM_both {σ : Shape} {π π' : List Step} {c : Nat}
    (h1 : σ.underM π c) (h2 : σ.underM π' c) (hl : π.length = π'.length) :
    π = π' := by
  obtain ⟨ρ, hρ, hp⟩ := h1
  obtain ⟨ρ', hρ', hp'⟩ := h2
  rw [hρ] at hρ'
  injection hρ' with hρ'
  subst hρ'
  exact List.IsPrefix.eq_of_length
    (List.prefix_of_prefix_length_le hp hp' (Nat.le_of_eq hl)) hl

theorem field_ne_of_ne (π : List Step) {i j : Nat} (hij : i ≠ j) :
    π ++ [Step.field i] ≠ π ++ [Step.field j] := by
  intro he
  exact not_prefix_field π hij (he ▸ List.prefix_refl _)

/-- A cell whose content a frame keeps. -/
theorem frame_cell {σ : Shape} {h h1 : Heap} {π : List Step} {dst : Value}
    (hf : Frame h h1 σ π dst) {c : Nat} (hc : c < h.cells.length)
    (hnu : ¬ σ.under π c) (hne : ∀ t a q, dst = .addr t a q → c ≠ a) :
    h1.cells[c]? = h.cells[c]? := by
  have hfree : Free dst c [] := by
    cases dst with
    | invalid => trivial
    | direct t x => trivial
    | addr t a q => exact fun hca => absurd hca (hne t a q rfl)
  have := hf.2.2.1 c [] hc (fun hb => hnu (under_of_below hb)) hfree
  simp only [Heap.read] at this
  cases h1c : h1.cells[c]? <;> cases hc0 : h.cells[c]? <;>
    simp [h1c, hc0, Val.getPath] at this ⊢
  exact this

/-- The cells of the shape, and the cells allocated since, are not the cell
of a destination handle of a place they are not below. -/
theorem dstAt_cell_ne {σ : Shape} {h : Heap} (hok : SrcOk h σ)
    {π π' : List Step} {t : Ty} {a : Nat} {q : List Nat}
    (hd : DstAt h σ π (.addr t a q)) (hn : ¬ π' <+: π) {c : Nat}
    (hc : σ.under π' c ∨ h.cells.length ≤ c ∨ σ.srcCell c = true) :
    c ≠ a := by
  rintro rfl
  rcases hc with hc | hc | hc
  · exact dstAt_not_under hok hd hn hc
  · exact absurd hd.1 (Nat.not_lt.mpr hc)
  · rcases hd.2.2 with hb | ⟨π0, hp, _⟩
    · exact absurd (hok.src_lt c hc) (Nat.not_lt.mpr hb)
    · rw [hok.disj c π0 hp] at hc
      cases hc

theorem wellShaped_frame {σ : Shape} {h h1 : Heap} {π πs : List Step}
    {ds : Value} (hok : SrcOk h σ) (hw : WellShaped h σ π)
    (hds : DstAt h σ πs ds) (hf : Frame h h1 σ πs ds)
    (hl : π.length = πs.length) (hne : π ≠ πs) : WellShaped h1 σ π := by
  refine ⟨fun c ρ x hc hρ hx => ?_, fun r ρ mo hr hρ hm => ?_⟩
  · have hu : σ.under π c := ⟨ρ, hc, hρ⟩
    have hlt : c < h.cells.length :=
      Nat.lt_of_lt_of_le (hok.pos_lt c ρ hc) hok.bound_le
    have hnu : ¬ σ.under πs c := fun hu2 => hne (under_both hu hu2 hl)
    have hca : ∀ t a q, ds = .addr t a q → c ≠ a := by
      intro t a q hds2
      subst hds2
      exact dstAt_cell_ne hok hds
        (fun hp => hne (List.IsPrefix.eq_of_length hp hl)) (Or.inl hu)
    rw [frame_cell hf hlt hnu hca] at hx
    exact hw.1 c ρ x hc hρ hx
  · have hu : σ.underM π r := ⟨ρ, hr, hρ⟩
    have hlt : r < h.maps.length :=
      Nat.lt_of_lt_of_le (hok.posM_lt r ρ hr) hok.boundM_le
    have hnu : ¬ σ.underM πs r := fun hu2 => hne (underM_both hu hu2 hl)
    rw [hf.2.2.2 r hlt hnu] at hm
    exact hw.2 r ρ mo hr hρ hm

/-- A destination handle of a place beside the one a merge worked at denotes
after the merge what it did before. -/
theorem dstAt_frame {σ : Shape} {h h1 : Heap} {π πs : List Step}
    {d ds : Value} (hok : SrcOk h σ) (hd : DstAt h σ π d)
    (hf : Frame h h1 σ πs ds) (hn : ¬ πs <+: π)
    (hfree : ∀ t a q, d = .addr t a q → Free ds a q) : DstAt h1 σ π d := by
  cases d with
  | invalid => trivial
  | direct t x => exact hd
  | addr t a q =>
    have hnu : ¬ σ.under πs a := dstAt_not_under hok hd hn
    have hr : h1.read a q = h.read a q :=
      hf.2.2.1 a q hd.1 (fun hb => hnu (under_of_below hb)) (hfree t a q rfl)
    exact ⟨Nat.lt_of_lt_of_le hd.1 hf.1, fun x hx => hd.2.1 x (hr ▸ hx), hd.2.2⟩

theorem sameAt_frame {σ : Shape} {h h1 : Heap} {π πs : List Step}
    {d ds : Value} (hok : SrcOk h σ) (hd : DstAt h σ π d)
    (hf : Frame h h1 σ πs ds) (hn : ¬ πs <+: π)
    (hfree : ∀ t a q, d = .addr t a q → Free ds a q) : SameAt h1 h d := by
  cases d with
  | invalid => trivial
  | direct t x => trivial
  | addr t a q =>
    have hnu : ¬ σ.under πs a := dstAt_not_under hok hd hn
    exact hf.2.2.1 a q hd.1 (fun hb => hnu (under_of_below hb)) (hfree t a q rfl)

/-- The handles of two fields of a struct handle denote locations that do not
overlap. -/
theorem field_free {dst di dj : Value} {i j : Nat} (hij : i ≠ j)
    (hi : dst.Field i = .ok di) (hj : dst.Field j = .ok dj) :
    ∀ t a q, dj = .addr t a q → Free di a q := by
  intro t a q hdj
  cases dst with
  | invalid => simp [Value.Field, Value.kind] at hi
  | direct t0 x =>
    obtain ⟨y, fs, w, _, rfl, hw, rfl⟩ := Field_direct_ok hi
    trivial
  | addr t0 a0 q0 =>
    obtain ⟨y, _, rfl⟩ := Field_addr_ok hi
    obtain ⟨y', _, hdj2⟩ := Field_addr_ok hj
    rw [hdj] at hdj2
    injection hdj2 with _ ha hq
    subst ha
    subst hq
    exact fun _ => ⟨not_prefix_path q0 hij, not_prefix_path q0 (Ne.symm hij)⟩

theorem mergeFields_cons_ok {dm : Value → Value → Options → M Unit}
    {dst src : Value} {o : Options} {i : Nat} {is : List Nat} {h h1 : Heap}
    (hrun : mergeFields dm dst src o (i :: is) h = .ok () h1) :
    ∃ df sf h', dst.Field i = .ok df ∧ src.Field i = .ok sf ∧
      dm df sf o h = .ok () h' ∧ mergeFields dm dst src o is h' = .ok () h1 := by
  simp only [mergeFields, M.bind_apply, M.rd_apply] at hrun
  cases hdf : dst.Field i with
  | error e => simp [hdf] at hrun
  | ok df =>
    cases hsf : src.Field i with
    | error e => simp [hdf, hsf] at hrun
    | ok sf =>
      simp only [hdf, hsf] at hrun
      cases hdm : dm df sf o h with
      | fail e g => simp [hdm] at hrun
      | ok u g =>
        simp only [hdm] at hrun
        exact ⟨df, sf, g, rfl, rfl, hdm, hrun⟩

theorem mergeFields_cons_eval {dm : Value → Value → Options → M Unit}
    {dst src : Value} {o : Options} {i : Nat} {is : List Nat} {g g1 : Heap}
    {df sf : Value} (hdf : dst.Field i = .ok df) (hsf : src.Field i = .ok sf)
    (hdm : dm df sf o g = .ok () g1) :
    mergeFields dm dst src o (i :: is) g = mergeFields dm dst src o is g1 := by
  simp only [mergeFields, M.bind_apply, M.rd_apply, hdf, hsf, hdm]

theorem cells_of_read {h h1 : Heap} {c : Nat}
    (hr : h1.read c [] = h.read c []) : h1.cells[c]? = h.cells[c]? := by
  simp only [Heap.read] at hr
  cases h1c : h1.cells[c]? <;> cases hc0 : h.cells[c]? <;>
    simp [h1c, hc0, Val.getPath] at hr ⊢
  exact hr

theorem read_of_cells {h h1 : Heap} {c : Nat}
    (hc : h1.cells[c]? = h.cells[c]?) (r : List Nat) :
    h1.read c r = h.read c r := by
  simp only [Heap.read, hc]

theorem sameAt_quiet {g g1 h1 : Heap} {d : Value} (hq : Quiet g g1)
    (hlt : ∀ t a q, d = .addr t a q → a < g.cells.length)
    (hs : SameAt g h1 d) : SameAt g1 h1 d := by
  cases d with
  | invalid => trivial
  | direct t x => trivial
  | addr t a q =>
    show g1.read a q = h1.read a q
    rw [quiet_read hq (hlt t a q rfl)]
    exact hs

/-- The field loop of the struct case: the frame, and the second run. -/
theorem mergeFields_main {H : Host} {m : porter} {o : Options} {n : Nat}
    (hrec : Main H m o n) (σ : Shape) (hmo : ModeOk o σ) (π : List Step)
    (dst src : Value) (hs : SrcIn σ src) :
    ∀ (is : List Nat), is.Nodup → ∀ (h h1 : Heap), SrcOk h σ →
      (∀ i ∈ is, WellShaped h σ (π ++ [.field i])) →
      (∀ i ∈ is, ∀ df, dst.Field i = .ok df →
        DstAt h σ (π ++ [.field i]) df) →
      mergeFields (m.deepMerge H n) dst src o is h = .ok () h1 →
      FrameL h h1 σ π dst is ∧
      ∃ n0, ∀ g, AgreeL σ π dst is h h1 g → ∀ k, n0 ≤ k →
        ∃ g', mergeFields (m.deepMerge H k) dst src o is g = .ok () g' ∧
          Quiet g g' := by
  intro is
  induction is with
  | nil =>
    intro _ h h1 _ _ _ hrun
    simp only [mergeFields, M.pure_apply] at hrun
    injection hrun with _ hrun
    subst hrun
    exact ⟨⟨Nat.le_refl _, Nat.le_refl _, fun _ _ _ _ _ => rfl,
      fun _ _ _ => rfl⟩, 0, fun g _ k _ => ⟨g, rfl, quiet_refl g⟩⟩
  | cons i is ih =>
    intro hnd h h1 hok hW hD hrun
    have hni : i ∉ is := (List.nodup_cons.mp hnd).1
    have hnd' : is.Nodup := (List.nodup_cons.mp hnd).2
    obtain ⟨df, sf, h', hdf, hsf, hdm, hrest⟩ := mergeFields_cons_ok hrun
    have hDi := hD i (List.mem_cons_self _ _) df hdf
    obtain ⟨hfc, nc, hsc⟩ := hrec σ (π ++ [.field i]) df sf h h' hmo hok
      (hW i (List.mem_cons_self _ _)) hDi (srcIn_field hs hsf) hdm
    have hok' : SrcOk h' σ := srcOk_frame hok hDi hfc
    have hne : ∀ j ∈ is, j ≠ i := fun j hj hji => hni (hji ▸ hj)
    have hW' : ∀ j ∈ is, WellShaped h' σ (π ++ [.field j]) := fun j hj =>
      wellShaped_frame hok (hW j (List.mem_cons_of_mem _ hj)) hDi hfc
        (by simp) (field_ne_of_ne π (hne j hj))
    have hD' : ∀ j ∈ is, ∀ dj, dst.Field j = .ok dj →
        DstAt h' σ (π ++ [.field j]) dj := fun j hj dj hdj =>
      dstAt_frame hok (hD j (List.mem_cons_of_mem _ hj) dj hdj) hfc
        (not_prefix_field π (Ne.symm (hne j hj)))
        (field_free (Ne.symm (hne j hj)) hdf hdj)
    obtain ⟨hfr, nr, hsr⟩ := ih hnd' h' h1 hok' hW' hD' hrest
    -- what the rest of the loop keeps of the field `i`
    have hkeep : ∀ c, c < h'.cells.length →
        (σ.under (π ++ [.field i]) c ∨ h.cells.length ≤ c ∨
          σ.srcCell c = true) → h1.cells[c]? = h'.cells[c]? := by
      intro c hc hreg
      refine cells_of_read (hfr.2.2.1 c [] hc (fun j hj hu0 => ?_)
        (fun j hj dj hdj => ?_))
      · have hu := under_of_below hu0
        rcases hreg with hu2 | hge | hsrc
        · exact field_ne_of_ne π (hne j hj) (under_both hu hu2 (by simp))
        · obtain ⟨ρ, hρ, _⟩ := hu
          exact absurd (Nat.lt_of_lt_of_le (hok.pos_lt c ρ hρ) hok.bound_le)
            (Nat.not_lt.mpr hge)
        · obtain ⟨ρ, hρ, _⟩ := hu
          rw [hok.disj c ρ hρ] at hsrc
          cases hsrc
      · cases dj with
        | invalid => trivial
        | direct t x => trivial
        | addr t a q =>
          intro hca
          exact absurd hca (dstAt_cell_ne hok
            (hD j (List.mem_cons_of_mem _ hj) _ hdj)
            (not_prefix_field π (Ne.symm (hne j hj))) hreg)
    have hkeepM : ∀ r, r < h'.maps.length →
        (σ.underM (π ++ [.field i]) r ∨ h.maps.length ≤ r ∨
          σ.srcMap r = true) → h1.maps[r]? = h'.maps[r]? := by
      intro r hr hreg
      refine hfr.2.2.2 r hr (fun j hj hu => ?_)
      rcases hreg with hu2 | hge | hsrc
      · exact field_ne_of_ne π (hne j hj) (underM_both hu hu2 (by simp))
      · obtain ⟨ρ, hρ, _⟩ := hu
        exact absurd (Nat.lt_of_lt_of_le (hok.posM_lt r ρ hρ) hok.boundM_le)
          (Nat.not_lt.mpr hge)
      · obtain ⟨ρ, hρ, _⟩ := hu
        rw [hok.disjM r ρ hρ] at hsrc
        cases hsrc
    have hkeepD : SameAt h1 h' df := by
      cases df with
      | invalid => trivial
      | direct t x => trivial
      | addr t a q =>
        exact hfr.2.2.1 a q (Nat.lt_of_lt_of_le hDi.1 hfc.1)
          (fun j hj hb => dstAt_not_under hok hDi
            (not_prefix_field π (hne j hj)) (under_of_below hb))
          (fun j hj dj hdj => field_free (hne j hj) hdj hdf t a q rfl)
    refine ⟨⟨Nat.le_trans hfc.1 hfr.1, Nat.le_trans hfc.2.1 hfr.2.1,
      fun c r hc hnu hfree => ?_, fun r hr hnu => ?_⟩, max nc nr,
      fun g hag k hk => ?_⟩
    · rw [hfr.2.2.1 c r (Nat.lt_of_lt_of_le hc hfc.1)
        (fun j hj => hnu j (List.mem_cons_of_mem _ hj))
        (fun j hj => hfree j (List.mem_cons_of_mem _ hj))]
      exact hfc.2.2.1 c r hc (hnu i (List.mem_cons_self _ _))
        (hfree i (List.mem_cons_self _ _) df hdf)
    · rw [hfr.2.2.2 r (Nat.lt_of_lt_of_le hr hfc.2.1)
        (fun j hj => hnu j (List.mem_cons_of_mem _ hj))]
      exact hfc.2.2.2 r hr (hnu i (List.mem_cons_self _ _))
    · -- the second run: the field `i`, then the rest
      have hagc : Agree σ (π ++ [.field i]) df h h' g := by
        refine ⟨Nat.le_trans hfr.1 hag.1, Nat.le_trans hfr.2.1 hag.2.1,
          fun c hc hreg => ?_, fun r hr hreg => ?_, ?_⟩
        · rw [← hkeep c hc hreg]
          refine hag.2.2.1 c (Nat.lt_of_lt_of_le hc hfr.1) ?_
          rcases hreg with hu | hge | hsrc
          · exact Or.inl ⟨i, List.mem_cons_self _ _, hu⟩
          · exact Or.inr (Or.inl hge)
          · exact Or.inr (Or.inr hsrc)
        · rw [← hkeepM r hr hreg]
          refine hag.2.2.2.1 r (Nat.lt_of_lt_of_le hr hfr.2.1) ?_
          rcases hreg with hu | hge | hsrc
          · exact Or.inl ⟨i, List.mem_cons_self _ _, hu⟩
          · exact Or.inr (Or.inl hge)
          · exact Or.inr (Or.inr hsrc)
        · have h1 := hag.2.2.2.2 i (List.mem_cons_self _ _) df hdf
          have h2 := sameAt_trans h1 hkeepD
          cases df with
          | invalid => trivial
          | direct t x => trivial
          | addr t a q => exact h2
      obtain ⟨g1, hg1, hq1⟩ := hsc g hagc k (Nat.le_trans (Nat.le_max_left _ _) hk)
      have hagr : AgreeL σ π dst is h' h1 g1 := by
        refine ⟨Nat.le_trans hag.1 (quiet_length_le hq1),
          by rw [hq1.2]; exact hag.2.1, fun c hc hreg => ?_,
          fun r hr hreg => ?_, fun j hj dj hdj => ?_⟩
        · rw [quiet_cell hq1 (Nat.lt_of_lt_of_le hc hag.1)]
          refine hag.2.2.1 c hc ?_
          rcases hreg with ⟨j, hj, hu⟩ | hge | hsrc
          · exact Or.inl ⟨j, List.mem_cons_of_mem _ hj, hu⟩
          · exact Or.inr (Or.inl (Nat.le_trans hfc.1 hge))
          · exact Or.inr (Or.inr hsrc)
        · rw [hq1.2]
          refine hag.2.2.2.1 r hr ?_
          rcases hreg with ⟨j, hj, hu⟩ | hge | hsrc
          · exact Or.inl ⟨j, List.mem_cons_of_mem _ hj, hu⟩
          · exact Or.inr (Or.inl (Nat.le_trans hfc.2.1 hge))
          · exact Or.inr (Or.inr hsrc)
        · refine sameAt_quiet hq1 (fun t a q hdj2 => ?_)
            (hag.2.2.2.2 j (List.mem_cons_of_mem _ hj) dj hdj)
          subst hdj2
          have := (hD j (List.mem_cons_of_mem _ hj) _ hdj).1
          exact Nat.lt_of_lt_of_le this
            (Nat.le_trans hfc.1 (Nat.le_trans hfr.1 hag.1))
      obtain ⟨g2, hg2, hq2⟩ := hsr g1 hagr k (Nat.le_trans (Nat.le_max_right _ _) hk)
      refine ⟨g2, ?_, quiet_trans hq1 hq2⟩
      rw [mergeFields_cons_eval hdf hsf hg1]
      exact hg2

theorem under_mono {σ : Shape} {π π' : List Step} {c : Nat}
    (hp : π <+: π') (hu : σ.under π' c) : σ.under π c := by
  obtain ⟨ρ, hρ, h1⟩ := hu
  exact ⟨ρ, hρ, hp.trans h1⟩

theorem underM_mono {σ : Shape} {π π' : List Step} {c : Nat}
    (hp : π <+: π') (hu : σ.underM π' c) : σ.underM π c := by
  obtain ⟨ρ, hρ, h1⟩ := hu
  exact ⟨ρ, hρ, hp.trans h1⟩

/-- A location that an assignment through a struct handle leaves alone is left
alone by an assignment through the handle of a field. -/
theorem free_field {dst df : Value} {i : Nat} (hf : dst.Field i = .ok df)
    {c : Nat} {r : List Nat} (hfree : Free dst c r) : Free df c r := by
  cases dst with
  | invalid => simp [Value.Field, Value.kind] at hf
  | direct t x =>
    obtain ⟨y, fs, w, _, rfl, hw, rfl⟩ := Field_direct_ok hf
    trivial
  | addr t a q =>
    obtain ⟨y, _, rfl⟩ := Field_addr_ok hf
    intro hca
    obtain ⟨h1, h2⟩ := hfree hca
    refine ⟨fun hp => h1 ((List.prefix_append q [i]).trans hp), fun hp => ?_⟩
    rcases List.prefix_concat_iff.mp hp with h3 | h3
    · exact h1 (h3 ▸ List.prefix_append q [i])
    · exact h2 h3

theorem sameAt_field {g h : Heap} {dst df : Value} {i : Nat}
    (hf : dst.Field i = .ok df) (hs : SameAt g h dst) : SameAt g h df := by
  cases dst with
  | invalid => simp [Value.Field, Value.kind] at hf
  | direct t x =>
    obtain ⟨y, fs, w, _, rfl, hw, rfl⟩ := Field_direct_ok hf
    trivial
  | addr t a q =>
    obtain ⟨y, _, rfl⟩ := Field_addr_ok hf
    show g.read a (q ++ [i]) = h.read a (q ++ [i])
    have hs2 : g.read a q = h.read a q := hs
    rw [Heap.read_append, Heap.read_append, hs2]

/-- The struct case of `deepMerge`, for a struct type whose fields are all
exported: the frame, and the second run. -/
theorem struct_main {H : Host} {m : porter} {o : Options} {n : Nat}
    (hrec : Main H m o n) {σ : Shape} {π : List Step} {dst src : Value}
    {T : Ty} {h h1 : Heap} (hmo : ModeOk o σ)
    (hk : T.kind = .Struct) (hex : hasUnexportedField T = false)
    (hreg : tableLookup T m.mergeFuncs = none)
    (hdt : dst.typ = .ok T) (hst : src.typ = .ok T)
    (hok : SrcOk h σ) (hw : WellShaped h σ π) (hd : DstAt h σ π dst)
    (hs : SrcIn σ src)
    (hrun : m.deepMerge H (n + 1) dst src o h = .ok () h1) :
    Frame h h1 σ π dst ∧
      Settled σ π dst h h1 (fun k => m.deepMerge H k dst src o) := by
  rw [deepMerge_struct_exported H m n o T dst src hk hex hreg hdt hst] at hrun
  obtain ⟨hfl, n0, hsl⟩ := mergeFields_main hrec σ hmo π dst src hs
    (List.range T.fields.length) (List.nodup_range _) h h1 hok
    (fun i _ => wellShaped_mono hw (List.prefix_append _ _))
    (fun i _ df hdf => dstAt_field hd hdf) hrun
  refine ⟨⟨hfl.1, hfl.2.1, fun c r hc hnu hfree => ?_, fun r hr hnu => ?_⟩,
    n0 + 1, fun g hag k hk' => ?_⟩
  · exact hfl.2.2.1 c r hc
      (fun i _ hu => hnu (below_mono (List.prefix_append _ _) hu))
      (fun i _ df hdf => free_field hdf hfree)
  · exact hfl.2.2.2 r hr
      (fun i _ hu => hnu (underM_mono (List.prefix_append _ _) hu))
  · obtain ⟨j, rfl⟩ : ∃ j, k = j + 1 := ⟨k - 1, by omega⟩
    have hagl : AgreeL σ π dst (List.range T.fields.length) h h1 g := by
      refine ⟨hag.1, hag.2.1, fun c hc hreg => hag.2.2.1 c hc ?_,
        fun r hr hreg => hag.2.2.2.1 r hr ?_,
        fun i _ df hdf => sameAt_field hdf (agree_dst hag)⟩
      · rcases hreg with ⟨i, _, hu⟩ | hge | hsrc
        · exact Or.inl (under_mono (List.prefix_append _ _) hu)
        · exact Or.inr (Or.inl hge)
        · exact Or.inr (Or.inr hsrc)
      · rcases hreg with ⟨i, _, hu⟩ | hge | hsrc
        · exact Or.inl (underM_mono (List.prefix_append _ _) hu)
        · exact Or.inr (Or.inl hge)
        · exact Or.inr (Or.inr hsrc)
    obtain ⟨g', hg', hq⟩ := hsl g hagl j (by omega)
    refine ⟨g', ?_, hq⟩
    show m.deepMerge H (j + 1) dst src o g = .ok () g'
    rw [deepMerge_struct_exported H m j o T dst src hk hex hreg hdt hst]
    exact hg'

/-! ## Merging twice: pointers -/

theorem fits_zeroOfKind (σ : Shape) (π : List Step) (k : Kind) :
    (zeroOfKind k).fits σ π = true := by
  cases k <;> simp [zeroOfKind, Val.fits, Val.fitsFields]

mutual
/-- The zero value of a type can stand at every place: it refers to nothing. -/
theorem fits_zero (σ : Shape) : ∀ (t : Ty) (π : List Step),
    t.zero.fits σ π = true
  | .basic k, π => by simp only [Ty.zero]; exact fits_zeroOfKind σ π k
  | .named _ u, π => by simp only [Ty.zero]; exact fits_zero σ u π
  | .array _ _, π => by simp [Ty.zero, Val.fits]
  | .chan _, π => by simp [Ty.zero, Val.fits]
  | .func _ _, π => by simp [Ty.zero, Val.fits]
  | .iface, π => by simp [Ty.zero, Val.fits]
  | .map _ _, π => by simp [Ty.zero, Val.fits]
  | .ptr _, π => by simp [Ty.zero, Val.fits]
  | .slice _, π => by simp [Ty.zero, Val.fits]
  | .struct fs, π => by
    simp only [Ty.zero, Val.fits]
    exact fitsFields_zero σ fs π 0
theorem fitsFields_zero (σ : Shape) :
    ∀ (fs : List (String × String × Ty)) (π : List Step) (i : Nat),
      Val.fitsFields σ π i (Ty.zeroFields fs) = true
  | [], π, i => by simp [Ty.zeroFields, Val.fitsFields]
  | (_, _, t) :: r, π, i => by
    simp only [Ty.zeroFields, Val.fitsFields, Bool.and_eq_true]
    exact ⟨fits_zero σ t _, fitsFields_zero σ r π (i + 1)⟩
end


/-- The pointee of a pointer handle of type `T`: an addressable value of the
element type of `T`. -/
theorem Elem_ptr_ok {v e : Value} {T : Ty} {g : Heap}
    (hk : T.kind = .Ptr) (ht : v.typ = .ok T) (he : v.Elem g = .ok e) :
    (v.load g = .ok (.ptr none) ∧ e = .invalid) ∨
    ∃ c E, v.load g = .ok (.ptr (some c)) ∧ T.elem = some E ∧
      e = .addr E c [] := by
  unfold Value.Elem at he
  rw [Value.kind_of_typ ht, hk] at he
  simp only [ht] at he
  cases hl : v.load g with
  | error f => simp [hl] at he
  | ok x =>
    simp only [hl] at he
    cases x with
    | ptr a =>
      cases a with
      | none =>
        simp only [Except.ok.injEq] at he
        exact Or.inl ⟨rfl, he.symm⟩
      | some c =>
        simp only at he
        cases hE : T.elem with
        | none => simp [hE] at he
        | some E =>
          simp only [hE, Except.ok.injEq] at he
          exact Or.inr ⟨c, E, rfl, rfl, he.symm⟩
    | _ => simp at he

/-- The pointer case of `deepMerge` on two non-nil pointers: the pointees are
merged. -/
theorem deepMerge_ptr_step (H : Host) (m : porter) (o : Options) (k : Nat)
    {T E : Ty} {dst src dstE srcE : Value} {g : Heap}
    (hk : T.kind = .Ptr) (hreg : tableLookup T m.mergeFuncs = none)
    (hdt : dst.typ = .ok T) (hst : src.typ = .ok T)
    (hsn : src.IsNil g = .ok false) (hdn : dst.IsNil g = .ok false)
    (hde : dst.Elem g = .ok dstE) (hse : src.Elem g = .ok srcE)
    (hdet : dstE.typ = .ok E) (hset : srcE.typ = .ok E) :
    m.deepMerge H (k + 1) dst src o g = m.deepMerge H k dstE srcE o g := by
  simp [porter.deepMerge, porter.deepMergeBody, hdt, hst, hreg,
    Value.kind_of_typ hdt, hk, hsn, hdn, hde, hse, hdet, hset]

theorem typ_of_elem {v e : Value} {T E : Ty} {g : Heap}
    (hk : T.kind = .Ptr) (ht : v.typ = .ok T) (he : v.Elem g = .ok e)
    (hE : e.typ = .ok E) : T.elem = some E ∧ ∃ c, e = .addr E c [] ∧
      v.load g = .ok (.ptr (some c)) := by
  rcases Elem_ptr_ok hk ht he with ⟨_, rfl⟩ | ⟨c, E', hl, hE', rfl⟩
  · simp [Value.typ] at hE
  · simp only [Value.typ, Except.ok.injEq] at hE
    subst hE
    exact ⟨hE', c, rfl, hl⟩

/-- What a successful run of the pointer case of `deepMerge` did. -/
theorem deepMerge_ptr_inv (H : Host) (m : porter) (o : Options) (n : Nat)
    {T : Ty} {dst src : Value} {h h1 : Heap}
    (hk : T.kind = .Ptr) (hreg : tableLookup T m.mergeFuncs = none)
    (hdt : dst.typ = .ok T) (hst : src.typ = .ok T)
    (hrun : m.deepMerge H (n + 1) dst src o h = .ok () h1) :
    (src.IsNil h = .ok true ∧ h1 = h) ∨
    (src.IsNil h = .ok false ∧ ∃ hb dstE srcE E,
      ((dst.IsNil h = .ok false ∧ hb = h) ∨
       (dst.IsNil h = .ok true ∧
        dst.Set (.direct (.ptr E) (.ptr (some h.cells.length)))
          (h.alloc E.zero).1 = .ok hb)) ∧
      dst.Elem hb = .ok dstE ∧ src.Elem hb = .ok srcE ∧
      dstE.typ = .ok E ∧ srcE.typ = .ok E ∧ T.elem = some E ∧
      m.deepMerge H n dstE srcE o hb = .ok () h1) := by
  simp only [porter.deepMerge, porter.deepMergeBody, M.bind_apply, M.rd_apply,
    hdt, hst, ne_eq, not_true_eq_false, if_false, hreg,
    Value.kind_of_typ hdt, hk] at hrun
  cases hsn : src.IsNil h with
  | error e => simp [hsn] at hrun
  | ok b =>
    cases b with
    | true =>
      simp only [hsn, if_true, M.pure_apply] at hrun
      injection hrun with _ hrun
      exact Or.inl ⟨rfl, hrun.symm⟩
    | false =>
      refine Or.inr ⟨rfl, ?_⟩
      simp only [hsn, Bool.false_eq_true, if_false, M.bind_apply,
        M.rd_apply] at hrun
      -- the tail, on the heap `hb` the first part leaves
      have htail : ∀ hb, ((M.rd (fun h => dst.Elem h)) >>= fun dstE =>
            (M.rd (fun h => src.Elem h)) >>= fun srcE =>
            (M.rd (fun _ => dstE.typ)) >>= fun dstEType =>
            (M.rd (fun _ => srcE.typ)) >>= fun srcEType =>
            if ¬ dstEType = srcEType then
              m.convert H n (m.deepMerge H n) dstE srcE o
            else m.deepMerge H n dstE srcE o) hb = .ok () h1 →
          ∃ dstE srcE E, dst.Elem hb = .ok dstE ∧ src.Elem hb = .ok srcE ∧
            dstE.typ = .ok E ∧ srcE.typ = .ok E ∧ T.elem = some E ∧
            m.deepMerge H n dstE srcE o hb = .ok () h1 := by
        intro hb ht
        simp only [M.bind_apply, M.rd_apply] at ht
        cases hde : dst.Elem hb with
        | error e => simp [hde] at ht
        | ok dstE =>
          cases hse : src.Elem hb with
          | error e => simp [hde, hse] at ht
          | ok srcE =>
            cases hdet : dstE.typ with
            | error e => simp [hde, hse, hdet] at ht
            | ok E =>
              cases hset : srcE.typ with
              | error e => simp [hde, hse, hdet, hset] at ht
              | ok E' =>
                obtain ⟨h1e, _⟩ := typ_of_elem hk hdt hde hdet
                obtain ⟨h2e, _⟩ := typ_of_elem hk hst hse hset
                have hEE : E' = E := by
                  rw [h1e] at h2e
                  injection h2e with h2e
                  exact h2e.symm
                subst hEE
                simp only [hde, hse, hdet, hset, ne_eq, not_true_eq_false,
                  if_false] at ht
                exact ⟨dstE, srcE, E', rfl, rfl, hdet, hset, h1e, ht⟩
      cases hdn : dst.IsNil h with
      | error e => simp [hdn] at hrun
      | ok bd =>
        cases bd with
        | false =>
          simp only [hdn, Bool.false_eq_true, if_false, M.pure_apply,
            M.bind_apply, M.rd_apply] at hrun
          obtain ⟨dstE, srcE, E, h1, h2, h3, h4, h5, h6⟩ := htail h (by
            simp only [M.bind_apply, M.rd_apply]; exact hrun)
          exact ⟨h, dstE, srcE, E, Or.inl ⟨rfl, rfl⟩, h1, h2, h3, h4, h5, h6⟩
        | true =>
          simp only [hdn, if_true] at hrun
          cases hE : T.elem with
          | none => simp [hE, M.fail_apply] at hrun
          | some E0 =>
            simp only [hE, M.bind_apply, New, M.upd_apply, M.rd_apply] at hrun
            cases hset : dst.Set
                (.direct (.ptr E0) (.ptr (some (h.alloc E0.zero).2)))
                (h.alloc E0.zero).1 with
            | error e => simp [hset] at hrun
            | ok hb =>
              simp only [hset] at hrun
              simp only [Heap.alloc] at hset
              obtain ⟨dstE, srcE, E, h1, h2, h3, h4, h5, h6⟩ := htail hb (by
                simp only [M.bind_apply, M.rd_apply]; exact hrun)
              have hEE : E = E0 := by
                rw [hE] at h5
                injection h5 with h5
                exact h5.symm
              subst hEE
              exact ⟨hb, dstE, srcE, E, Or.inr ⟨rfl, hset⟩, h1, h2, h3, h4,
                rfl, h6⟩

theorem srcOk_frameAt {σ : Shape} {h hb : Heap} {π : List Step} {dst : Value}
    (hok : SrcOk h σ) (hd : DstAt h σ π dst) (hf : FrameAt h hb dst) :
    SrcOk hb σ :=
  srcOk_frame hok hd (frame_of_frameAt hf σ π)

/-- An assignment through a destination handle keeps the shape of the places
that the handle is not below. -/
theorem wellShaped_frameAt {σ : Shape} {h hb : Heap} {π π' : List Step}
    {dst : Value} (hok : SrcOk h σ) (hd : DstAt h σ π dst)
    (hf : FrameAt h hb dst) (hn : ¬ π' <+: π) (hw : WellShaped h σ π') :
    WellShaped hb σ π' := by
  refine ⟨fun c ρ x hc hρ hx => ?_, fun r ρ mo hr hρ hm => ?_⟩
  · have hlt : c < h.cells.length :=
      Nat.lt_of_lt_of_le (hok.pos_lt c ρ hc) hok.bound_le
    have hfree : Free dst c [] := by
      cases dst with
      | invalid => trivial
      | direct t x => trivial
      | addr t a q =>
        intro hca
        subst hca
        exact absurd ⟨ρ, hc, hρ⟩ (dstAt_not_under hok hd hn)
    have := cells_of_read (hf.2.2 c [] hlt hfree)
    rw [this] at hx
    exact hw.1 c ρ x hc hρ hx
  · rw [hf.2.1] at hm
    exact hw.2 r ρ mo hr hρ hm

/-- A merge at a place `π'` below the place `π` of `dst`, after an assignment
through `dst`: the frame at `π`, and what a heap that agrees with the outcome
at `π` agrees on at `π'`. -/
theorem descend {σ : Shape} {h hb h1 : Heap} {π π' : List Step}
    {dst dstE : Value} (hok : SrcOk h σ) (hd : DstAt h σ π dst)
    (hp : π <+: π') (hn : ¬ π' <+: π) (hf0 : FrameAt h hb dst)
    (hde : DstAt hb σ π' dstE)
    (hcell : ∀ t c q, dstE = .addr t c q → σ.under π' c ∨ h.cells.length ≤ c)
    (hf : Frame hb h1 σ π' dstE) :
    Frame h h1 σ π dst ∧ SameAt h1 hb dst ∧
      ∀ g, Agree σ π dst h h1 g → Agree σ π' dstE hb h1 g := by
  have hfreeE : ∀ c r, c < h.cells.length → ¬ σ.below π c → Free dstE c r := by
    intro c r hc hnu
    cases dstE with
    | invalid => trivial
    | direct t x => trivial
    | addr t c' q' =>
      intro hcc
      subst hcc
      rcases hcell t c q' rfl with hu | hge
      · exact absurd (below_of_under hp hn hu) hnu
      · omega
  refine ⟨⟨Nat.le_trans hf0.1 hf.1, ?_, fun c r hc hnu hfree => ?_,
    fun i hi hnu => ?_⟩, ?_, fun g hag => ⟨hag.1, hag.2.1, fun c hc hreg => ?_,
    fun i hi hreg => ?_, ?_⟩⟩
  · have := hf.2.1
    rw [hf0.2.1] at this
    exact this
  · have hnu' : ¬ σ.below π' c := fun hu => hnu (below_mono hp hu)
    rw [hf.2.2.1 c r (Nat.lt_of_lt_of_le hc hf0.1) hnu' (hfreeE c r hc hnu)]
    exact hf0.2.2 c r hc hfree
  · have hnu' : ¬ σ.underM π' i := fun hu => hnu (underM_mono hp hu)
    rw [hf.2.2.2 i (by rw [hf0.2.1]; exact hi) hnu', hf0.2.1]
  · cases dst with
    | invalid => trivial
    | direct t x => trivial
    | addr t a q =>
      have hnu : ¬ σ.under π' a := dstAt_not_under hok hd hn
      have hnb : ¬ σ.below π a := by
        rintro ⟨ρ, hρ, hpr, hne⟩
        rcases hd.2.2 with hge | ⟨π0, hp0, he⟩
        · exact absurd (hok.pos_lt a ρ hρ) (Nat.not_lt.mpr hge)
        · rw [hp0] at hρ
          injection hρ with hρ
          subst hρ
          rw [he] at hpr
          have := List.IsPrefix.eq_of_length hpr
            (Nat.le_antisymm hpr.length_le (by simp))
          exact hne (by rw [he]; exact this.symm)
      exact hf.2.2.1 a q (Nat.lt_of_lt_of_le hd.1 hf0.1)
        (fun hb => hnu (under_of_below hb)) (hfreeE a q hd.1 hnb)
  · refine hag.2.2.1 c hc ?_
    rcases hreg with hu | hge | hs
    · exact Or.inl (under_mono hp hu)
    · exact Or.inr (Or.inl (Nat.le_trans hf0.1 hge))
    · exact Or.inr (Or.inr hs)
  · refine hag.2.2.2.1 i hi ?_
    rcases hreg with hu | hge | hs
    · exact Or.inl (underM_mono hp hu)
    · exact Or.inr (Or.inl (by rw [hf0.2.1] at hge; exact hge))
    · exact Or.inr (Or.inr hs)
  · cases dstE with
    | invalid => trivial
    | direct t x => trivial
    | addr t c q' =>
      show g.read c q' = h1.read c q'
      have hc1 : c < h1.cells.length := Nat.lt_of_lt_of_le hde.1 hf.1
      refine read_of_cells (hag.2.2.1 c hc1 ?_) q'
      rcases hcell t c q' rfl with hu | hge
      · exact Or.inl (under_mono hp hu)
      · exact Or.inr (Or.inl hge)

theorem not_prefix_snoc (π : List Step) (s : Step) : ¬ (π ++ [s]) <+: π := by
  intro hp
  have := hp.length_le
  simp at this

/-- The pointer case of `deepMerge`: the frame, and the second run. -/
theorem ptr_main {H : Host} {m : porter} {o : Options} {n : Nat}
    (hrec : Main H m o n) {σ : Shape} {π : List Step} {dst src : Value}
    {T : Ty} {h h1 : Heap} (hmo : ModeOk o σ)
    (hk : T.kind = .Ptr) (hreg : tableLookup T m.mergeFuncs = none)
    (hdt : dst.typ = .ok T) (hst : src.typ = .ok T)
    (hok : SrcOk h σ) (hw : WellShaped h σ π) (hd : DstAt h σ π dst)
    (hs : SrcIn σ src)
    (hrun : m.deepMerge H (n + 1) dst src o h = .ok () h1) :
    Frame h h1 σ π dst ∧
      Settled σ π dst h h1 (fun k => m.deepMerge H k dst src o) := by
  rcases deepMerge_ptr_inv H m o n hk hreg hdt hst hrun with
    ⟨hsn, rfl⟩ | ⟨hsn, hb, dstE, srcE, E, hpre, hde, hse, hdet, hset, hTE, hch⟩
  · refine ⟨frame_refl _ _ _ _, 1, fun g hag k hk' => ⟨g, ?_, quiet_refl g⟩⟩
    obtain ⟨j, rfl⟩ : ∃ j, k = j + 1 := ⟨k - 1, by omega⟩
    have hsg := agree_src hok hd hs (frame_refl _ _ _ _) hag
    exact deepMerge_nil_source H m j o (Or.inr (Or.inr (Or.inl hk))) hreg hdt
      hst (by rw [sameAt_isNil hsg]; exact hsn)
  · -- the heap `hb` in which the pointees are merged
    have hf0 : FrameAt h hb dst := by
      rcases hpre with ⟨_, rfl⟩ | ⟨_, hset0⟩
      · exact frameAt_refl _ _
      · exact frameAt_trans (frameAt_alloc h E.zero dst) (frameAt_set hset0)
    have hokb : SrcOk hb σ := srcOk_frameAt hok hd hf0
    have hnp : ¬ (π ++ [Step.elem]) <+: π := not_prefix_snoc π _
    have hwb : WellShaped hb σ (π ++ [.elem]) :=
      wellShaped_frameAt hok hd hf0 hnp
        (wellShaped_mono hw (List.prefix_append _ _))
    obtain ⟨_, c0, rfl, hdl⟩ := typ_of_elem hk hdt hde hdet
    obtain ⟨_, s0, rfl, hsl⟩ := typ_of_elem hk hst hse hset
    -- the source pointee
    have hsb : SameAt hb h src := by
      cases src with
      | invalid => trivial
      | direct t x => trivial
      | addr t s r =>
        have hsc : σ.srcCell s = true := hs.1
        have hlt : s < h.cells.length :=
          Nat.lt_of_lt_of_le (hok.src_lt s hsc) hok.bound_le
        refine hf0.2.2 s r hlt ?_
        cases dst with
        | invalid => trivial
        | direct t x => trivial
        | addr t a q =>
          intro hsa
          exfalso
          subst hsa
          rcases hd.2.2 with hge | ⟨π0, hp0, _⟩
          · exact absurd (hok.src_lt s hsc) (Nat.not_lt.mpr hge)
          · rw [hok.disj s π0 hp0] at hsc
            cases hsc
    obtain ⟨x, d, nn, hxl, hxt⟩ := srcIn_load hok hs hst
    rw [sameAt_load hsb, hxl] at hsl
    injection hsl with hsl
    subst hsl
    have hsE : SrcIn σ (.addr E s0 []) := by
      rcases typed_ptr hk hxt with hx | ⟨c, hx, hsc, hel, _, _⟩
      · cases hx
      · injection hx with hx
        injection hx with hx
        subst hx
        rw [hTE] at hel
        injection hel with hel
        exact ⟨hsc, by rw [← hel]; rfl⟩
    -- the destination pointee
    have hdE : DstAt hb σ (π ++ [.elem]) (.addr E c0 []) ∧
        (σ.under (π ++ [.elem]) c0 ∨ h.cells.length ≤ c0) := by
      rcases hpre with ⟨_, rfl⟩ | ⟨_, hset0⟩
      · have hfit := dstAt_load hd hdl
        simp only [Val.fits, decide_eq_true_eq] at hfit
        have hlt : c0 < hb.cells.length :=
          Nat.lt_of_lt_of_le (hok.pos_lt c0 _ hfit) hok.bound_le
        refine ⟨⟨hlt, fun y hy => ?_, Or.inr ⟨_, hfit, by simp⟩⟩,
          Or.inl ⟨_, hfit, List.prefix_refl _⟩⟩
        have hc : hb.cells[c0]? = some y := by
          simpa [Heap.read, List.getElem?_eq_getElem hlt, Val.getPath] using hy
        exact hw.1 c0 _ y hfit (List.prefix_append _ _) hc
      · cases dst with
        | invalid => simp [Value.Set] at hset0
        | direct t x => simp [Value.Set] at hset0
        | addr t a q =>
          simp only [Value.typ, Except.ok.injEq] at hdt
          subst hdt
          have hki : t.kind ≠ .Interface := by rw [hk]; decide
          simp only [Value.Set, Value.typ, Value.load] at hset0
          split at hset0
          · rename_i has
            cases hwr : (h.alloc E.zero).1.write a q
                (assignTo t (.ptr E) (.ptr (some h.cells.length))) with
            | none => simp [hwr] at hset0
            | some hb' =>
              simp only [hwr, Except.ok.injEq] at hset0
              subst hset0
              have hrd := Heap.read_write hwr
              simp only [Value.load, hrd, assignTo, hki, false_and, if_false,
                Except.ok.injEq, Val.ptr.injEq, Option.some.injEq] at hdl
              subst hdl
              obtain ⟨hlen, _⟩ := Heap.write_cells_length hwr
              have hne : h.cells.length ≠ a := Nat.ne_of_gt hd.1
              have hz : hb'.read h.cells.length [] = some E.zero := by
                rw [Heap.read_write_other hwr hne]
                exact Heap.read_alloc_new h E.zero
              refine ⟨⟨by rw [hlen]; simp [Heap.alloc], fun y hy => ?_,
                Or.inl hok.bound_le⟩, Or.inr (Nat.le_refl _)⟩
              rw [hz] at hy
              injection hy with hy
              subst hy
              exact fits_zero σ E _
          · cases hset0
    obtain ⟨hfc, n0, hset2⟩ := hrec σ (π ++ [.elem]) _ _ hb h1 hmo hokb hwb hdE.1 hsE hch
    obtain ⟨hfr, hsame, hagc⟩ := descend hok hd (List.prefix_append _ _) hnp hf0
      hdE.1 (fun t c q he => by injection he with _ he _; subst he; exact hdE.2)
      hfc
    refine ⟨hfr, n0 + 1, fun g hag k hk' => ?_⟩
    obtain ⟨j, rfl⟩ : ∃ j, k = j + 1 := ⟨k - 1, by omega⟩
    obtain ⟨g', hg', hq⟩ := hset2 g (hagc g hag) j (by omega)
    refine ⟨g', ?_, hq⟩
    have hsg : SameAt g h src := agree_src hok hd hs hfr hag
    have hsgb : SameAt g hb src := sameAt_trans hsg (sameAt_symm hsb)
    have hdg : SameAt g hb dst := sameAt_trans (agree_dst hag) hsame
    have hdnb : dst.IsNil hb = .ok false := by
      simp [Value.IsNil, Value.kind_of_typ hdt, hk, hdl]
    show m.deepMerge H (j + 1) dst src o g = .ok () g'
    rw [deepMerge_ptr_step H m o j hk hreg hdt hst
      (by rw [sameAt_isNil hsg]; exact hsn)
      (by rw [sameAt_isNil hdg]; exact hdnb)
      (by rw [sameAt_elem hdg]; exact hde)
      (by rw [sameAt_elem hsgb]; exact hse) hdet hset]
    exact hg'

/-! ## Merging twice: convert -/

theorem dynKept_refl (h : Heap) (v : Value) : DynKept h h v :=
  fun e te he ht => ⟨e, he, ht⟩

theorem dynKept_of_sameAt {h h1 : Heap} {v : Value} (hs : SameAt h1 h v) :
    DynKept h h1 v := fun e _ he ht =>
  ⟨e, by rw [sameAt_derefInterface hs]; exact he, ht⟩

theorem dynKept_trans {h h1 h2 : Heap} {v : Value} (h01 : DynKept h h1 v)
    (h12 : DynKept h1 h2 v) : DynKept h h2 v := fun e te he ht => by
  obtain ⟨e1, he1, ht1⟩ := h01 e te he ht
  exact h12 e1 te he1 ht1

/-- An assignment by `directMerge` keeps the type of the value behind the
interface layers of the destination. -/
theorem directMerge_kept {dst src : Value} {o : Options} {h h1 : Heap}
    (hrun : directMerge dst src o h = .ok () h1) : DynKept h h1 dst := by
  intro e te he hte
  rw [directMerge_eq, he] at hrun
  cases hse : derefInterface src h with
  | error f => simp [hse] at hrun
  | ok srcE =>
    simp only [hse] at hrun
    split at hrun
    · cases hrun
    split at hrun
    · injection hrun with _ hrun
      subst hrun
      exact ⟨e, he, hte⟩
    simp only [hte] at hrun
    cases hst : srcE.typ with
    | error f => simp [hst] at hrun
    | ok st =>
      simp only [hst] at hrun
      split at hrun
      · cases hrun
      rename_i hts
      have hts : te = st := by simpa using hts
      subst hts
      split at hrun
      · injection hrun with _ hrun
        subst hrun
        exact ⟨e, he, hte⟩
      split at hrun
      · cases hset : dst.Set srcE h with
        | error f => simp [hset] at hrun
        | ok h' =>
          simp only [hset] at hrun
          injection hrun with _ hrun
          subst hrun
          cases dst with
          | invalid => simp [Value.Set] at hset
          | direct t x => simp [Value.Set] at hset
          | addr t a q =>
            simp only [Value.Set, hst] at hset
            cases hxl : srcE.load h with
            | error f => simp [hxl] at hset
            | ok xv =>
              simp only [hxl] at hset
              split at hset
              · cases hw : h.write a q (assignTo t te xv) with
                | none => simp [hw] at hset
                | some h2 =>
                  simp only [hw, Except.ok.injEq] at hset
                  subst hset
                  have hr1 := Heap.read_write hw
                  have hk : te.kind ≠ .Interface := derefInterface_kind hse hst
                  by_cases hti : t.kind = .Interface
                  · refine ⟨.direct te xv, ?_, rfl⟩
                    simp only [derefInterface, hti, if_true, hr1,
                      assignTo, hk, ne_eq, not_false_eq_true, and_self]
                    simp only [derefDirect, hti, if_true]
                    exact derefDirect_of_not_iface xv hk
                  · simp only [derefInterface, hti, if_false] at he
                    exact ⟨.addr t a q, by simp [derefInterface, hti],
                      by injection he with he; rw [he]; exact hte⟩
              · cases hset
      · injection hrun with _ hrun
        subst hrun
        exact ⟨e, he, hte⟩

theorem trueType_eq (v : Value) (t : Ty) (h : Heap) :
    trueType v t h = match trueTypeOf v t h with
      | .ok r => .ok r h
      | .error f => .fail f h := by
  unfold trueType trueTypeOf
  split
  · simp only [M.bind_apply, M.rd_apply]
    cases derefInterface v h with
    | error f => rfl
    | ok e =>
      simp only []
      cases e.typ with
      | error f => rfl
      | ok te => rfl
  · rfl

/-- Porter.go `convert` decides, then acts. -/
theorem convert_eq_plan (H : Host) (m : porter) (n : Nat)
    (dm : Value → Value → Options → M Unit) (dst src : Value) (o : Options)
    (h : Heap) :
    m.convert H n dm dst src o h =
      match convPlan H m n dst src o h with
      | .error f => .fail f h
      | .ok (some f, d, s) => convStep m f d s o h
      | .ok (none, d, s) => dm d s o h := by
  unfold porter.convert convPlan
  simp only [M.bind_apply, M.rd_apply, trueType_eq]
  cases dst.typ with
  | error f => rfl
  | ok dT0 =>
    simp only []
    cases src.typ with
    | error f => rfl
    | ok sT0 =>
      simp only []
      cases trueTypeOf dst dT0 h with
      | error f => rfl
      | ok r1 =>
        obtain ⟨dT, dK⟩ := r1
        simp only []
        cases trueTypeOf src sT0 h with
        | error f => rfl
        | ok r2 =>
          obtain ⟨sT, sK⟩ := r2
          simp only []
          cases m.converter H dT sT o with
          | some f => rfl
          | none =>
            simp only []
            split
            · simp only [M.bind_apply, M.rd_apply]
              cases derefPtr h n dst with
              | error f => rfl
              | ok dE =>
                simp only []
                cases dE.typ with
                | error f => rfl
                | ok dET =>
                  simp only []
                  cases derefPtr h n src with
                  | error f => rfl
                  | ok sE =>
                    simp only []
                    cases sE.typ with
                    | error f => rfl
                    | ok sET =>
                      simp only []
                      split
                      · cases m.converter H dET sET o with
                        | some f => rfl
                        | none => rfl
                      · rfl
            · rfl

/-- What a successful `directMerge` did: nothing, or one assignment to the
destination of the value behind the interface layers of the source. -/
theorem directMerge_effect {dst src : Value} {o : Options} {h h1 : Heap}
    (hrun : directMerge dst src o h = .ok () h1) :
    h1 = h ∨ ∃ t a q te sv srcE, dst = .addr t a q ∧
      derefInterface src h = .ok srcE ∧ srcE.typ = .ok te ∧
      srcE.load h = .ok sv ∧ te.kind ≠ .Interface ∧
      h.write a q (assignTo t te sv) = some h1 := by
  rw [directMerge_eq] at hrun
  cases hde : derefInterface dst h with
  | error f => simp [hde] at hrun
  | ok dstE =>
    cases hse : derefInterface src h with
    | error f => simp [hde, hse] at hrun
    | ok srcE =>
      simp only [hde, hse] at hrun
      split at hrun
      · cases hrun
      split at hrun
      · injection hrun with _ hrun
        exact Or.inl hrun.symm
      cases hdt : dstE.typ with
      | error f => simp [hdt] at hrun
      | ok dt =>
        cases hst : srcE.typ with
        | error f => simp [hdt, hst] at hrun
        | ok st =>
          simp only [hdt, hst] at hrun
          split at hrun
          · cases hrun
          split at hrun
          · injection hrun with _ hrun
            exact Or.inl hrun.symm
          split at hrun
          · cases hset : dst.Set srcE h with
            | error f => simp [hset] at hrun
            | ok h' =>
              simp only [hset] at hrun
              injection hrun with _ hrun
              subst hrun
              cases dst with
              | invalid => simp [Value.Set] at hset
              | direct t x => simp [Value.Set] at hset
              | addr t a q =>
                simp only [Value.Set, hst] at hset
                cases hxl : srcE.load h with
                | error f => simp [hxl] at hset
                | ok xv =>
                  simp only [hxl] at hset
                  split at hset
                  · cases hw : h.write a q (assignTo t st xv) with
                    | none => simp [hw] at hset
                    | some h2 =>
                      simp only [hw, Except.ok.injEq] at hset
                      subst hset
                      exact Or.inr ⟨t, a, q, st, xv, srcE, rfl, rfl, hst, hxl,
                        derefInterface_kind hse hst, hw⟩
                  · cases hset
          · injection hrun with _ hrun
            exact Or.inl hrun.symm

/-- Under `Overwrite`, the built-in conversion looks at the type of the
destination only, not at its value, and not at the heap. -/
theorem goConvertion_congr (H : Host) {o : OptionFields}
    (ho : o.Overwrite = true) (h1 h2 : Heap) {a a' : Val} (b : Val)
    (hd : dynTy a = dynTy a') :
    (goConvertion H).impl h1 a b o = (goConvertion H).impl h2 a' b o := by
  cases a with
  | iface d =>
    rcases d with _ | ⟨dt, dv⟩
    · cases a' with
      | iface d' =>
        rcases d' with _ | ⟨dt', dv'⟩
        · rfl
        · simp [dynTy] at hd
      | _ => rfl
    · cases a' with
      | iface d' =>
        rcases d' with _ | ⟨dt', dv'⟩
        · simp [dynTy] at hd
        · simp only [dynTy, Option.some.injEq] at hd
          subst hd
          simp only [goConvertion, ho, Bool.true_or, if_true]
      | _ => simp [dynTy] at hd
  | _ =>
    cases a' with
    | iface d' =>
      rcases d' with _ | ⟨dt', dv'⟩
      · rfl
      · simp [dynTy] at hd
    | _ => rfl

theorem Convert_kind {H : Host} {st dt : Ty} {sv c : Val}
    (hc : Convert H st sv dt = some c) : dt.kind ≠ .Interface := by
  intro hk
  unfold Convert at hc
  rw [hk] at hc
  simp only [numClass] at hc
  split at hc <;> simp_all

/-- What the built-in conversion returns: the converted value, with the type
of the destination. -/
theorem goConvertion_returns (H : Host) {o : OptionFields}
    (ho : o.Overwrite = true) {h : Heap} {a b r : Val} {e : Option String}
    (hr : (goConvertion H).impl h a b o = .returns r e) :
    ∃ dt c, dynTy a = some dt ∧ r = .iface (some (dt, c)) ∧ e = none ∧
      dt.kind ≠ .Interface := by
  cases a with
  | iface d =>
    rcases d with _ | ⟨dt, dv⟩
    · simp [goConvertion] at hr
    · simp only [goConvertion, ho, Bool.true_or, if_true] at hr
      cases b with
      | iface sd =>
        rcases sd with _ | ⟨st, sv⟩
        · simp at hr
        · simp only at hr
          cases hc : Convert H st sv dt with
          | none => simp [hc] at hr
          | some c =>
            simp only [hc, FuncResult.returns.injEq] at hr
            exact ⟨dt, c, rfl, hr.1.symm, hr.2.symm, Convert_kind hc⟩
      | _ => simp at hr
  | _ => simp [goConvertion] at hr

/-- The call of the built-in conversion, in one expression. -/
theorem callCustom_go (H : Host) (m : porter) (dst src : Value) (o : Options)
    (g : Heap) :
    m.callCustom (goConvertion H) dst src o g =
      match dst.typ, src.typ with
      | .ok td, .ok ts =>
        match dst.load g, src.load g with
        | .ok dv, .ok sv =>
          match (goConvertion H).impl g (assignTo .iface td dv)
              (assignTo .iface ts sv) o.toOptionFields with
          | .returns r e => .ok (.direct .iface r, e) g
          | .panics => .fail (.panic .inFunc) g
        | .error e, _ => .fail e g
        | .ok _, .error e => .fail e g
      | .error e, _ => .fail e g
      | .ok _, .error e => .fail e g := by
  have hins : (goConvertion H).typ.ins = [.iface, .iface, .ptr optionsType] := rfl
  have houts : (goConvertion H).typ.outs = [.iface, errorType] := rfl
  have ha : ∀ t, assignable .iface t = true := fun t => by
    simp [assignable, Ty.kind]
  simp only [porter.callCustom, M.rd_apply, hins, houts]
  cases dst.typ <;> cases src.typ <;> try rfl
  simp only [ha, assignable_self, Bool.and_self, if_true]
  cases dst.load g <;> cases src.load g <;> try rfl
  simp only []
  cases (goConvertion H).impl g _ _ o.toOptionFields <;> rfl

/-- A conversion step with the built-in conversion under `Overwrite`: it
writes the destination only, and a second run changes nothing. -/
theorem convStep_main (H : Host) (m : porter) {o : Options}
    (ho : o.Overwrite = true) {dst src : Value} {h h1 : Heap}
    (hrun : convStep m (goConvertion H) dst src o h = .ok () h1) :
    FrameAt h h1 dst ∧ DynKept h h1 dst ∧
      ∀ g, SameAt g h src → SameAt g h1 dst →
        convStep m (goConvertion H) dst src o g = .ok () g := by
  simp only [convStep, M.bind_apply, callCustom_go] at hrun
  cases htd : dst.typ with
  | error e => simp [htd] at hrun
  | ok td =>
    cases hts : src.typ with
    | error e => simp [htd, hts] at hrun
    | ok ts =>
      cases hdl : dst.load h with
      | error e => simp [htd, hts, hdl] at hrun
      | ok dv =>
        cases hsl : src.load h with
        | error e => simp [htd, hts, hdl, hsl] at hrun
        | ok sv =>
          simp only [htd, hts, hdl, hsl] at hrun
          cases him : (goConvertion H).impl h (assignTo .iface td dv)
              (assignTo .iface ts sv) o.toOptionFields with
          | panics => simp [him] at hrun
          | returns r e =>
            simp only [him] at hrun
            obtain ⟨dt, c, hdy, rfl, rfl, hdk⟩ :=
              goConvertion_returns H ho him
            simp only [] at hrun
            refine ⟨directMerge_frameAt hrun, directMerge_kept hrun,
              fun g hsg hdg => ?_⟩
            -- the destination holds a value of the same type in `g`
            have hse : derefInterface
                (.direct .iface (.iface (some (dt, c)))) h =
                .ok (.direct dt c) := by
              simp only [derefInterface, derefDirect, Ty.kind, if_true]
              exact derefDirect_of_not_iface c hdk
            obtain ⟨dv1, hdl1, hdy1⟩ : ∃ dv1, dst.load h1 = .ok dv1 ∧
                dynTy (assignTo .iface td dv1) =
                  dynTy (assignTo .iface td dv) := by
              rcases directMerge_effect hrun with rfl |
                ⟨t, a, q, te, sv', srcE, rfl, hsE, hte, hsv', _, hw⟩
              · exact ⟨dv, hdl, rfl⟩
              · rw [hse] at hsE
                injection hsE with hsE
                subst hsE
                simp only [Value.typ, Except.ok.injEq] at hte htd
                subst hte
                subst htd
                simp only [Value.load, Except.ok.injEq] at hsv'
                subst hsv'
                refine ⟨assignTo t dt c, by
                  simp [Value.load, Heap.read_write hw], ?_⟩
                by_cases hti : t.kind = .Interface
                · have h1 : assignTo .iface t dv = dv := by
                    simp [assignTo, hti]
                  rw [h1] at hdy ⊢
                  rw [hdy]
                  simp [assignTo, hti, hdk, dynTy]
                · simp [assignTo, hti, Ty.kind, dynTy]
            have him2 : (goConvertion H).impl g (assignTo .iface td dv1)
                (assignTo .iface ts sv) o.toOptionFields =
                .returns (.iface (some (dt, c))) none := by
              rw [← him]
              exact goConvertion_congr H ho g h _ hdy1
            simp only [convStep, M.bind_apply, callCustom_go, htd, hts,
              sameAt_load hdg, hdl1, sameAt_load hsg, hsl, him2]
            exact directMerge_twice ho hrun trivial hdg

theorem derefPtr_kind (h : Heap) : ∀ (n : Nat) {v e : Value},
    derefPtr h n v = .ok e → e.kind ≠ .Ptr ∧ e.kind ≠ .Interface
  | 0, v, e, hd => by
    simp only [derefPtr] at hd
    split at hd
    · cases hd
    · rename_i hk
      injection hd with hd
      subst hd
      exact ⟨fun hp => hk (Or.inl hp), fun hp => hk (Or.inr hp)⟩
  | n + 1, v, e, hd => by
    simp only [derefPtr] at hd
    split at hd
    · cases he : v.Elem h with
      | error f => simp [he] at hd
      | ok e' =>
        simp only [he] at hd
        exact derefPtr_kind h n hd
    · rename_i hk
      injection hd with hd
      subst hd
      exact ⟨fun hp => hk (Or.inl hp), fun hp => hk (Or.inr hp)⟩

/-- A handle that is neither a pointer nor an interface is its own value
behind the pointers. -/
theorem derefPtr_done (g : Heap) (k : Nat) {v : Value}
    (hk : v.kind ≠ .Ptr ∧ v.kind ≠ .Interface) : derefPtr g k v = .ok v := by
  cases k <;> simp [derefPtr, hk.1, hk.2]

theorem derefPtr_step (g : Heap) (k : Nat) {v : Value}
    (hk : v.kind = .Ptr ∨ v.kind = .Interface) :
    derefPtr g (k + 1) v = match v.Elem g with
      | .ok e => derefPtr g k e
      | .error f => .error f := by
  show (if v.kind = .Ptr ∨ v.kind = .Interface then _ else _) = _
  rw [if_pos hk]

/-- The value an interface or pointer handle of the source leads to is a value
of the source. -/
theorem srcIn_elem {σ : Shape} {h : Heap} (hok : SrcOk h σ) {v e : Value}
    (hs : SrcIn σ v) (he : v.Elem h = .ok e) : SrcIn σ e := by
  cases hvt : v.typ with
  | error f =>
    cases v with
    | invalid => simp [Value.Elem, Value.kind] at he
    | direct t x => simp [Value.typ] at hvt
    | addr t a q => simp [Value.typ] at hvt
  | ok T =>
    obtain ⟨x, d, n, hxl, hxt⟩ := srcIn_load hok hs hvt
    have hkv := Value.kind_of_typ hvt
    unfold Value.Elem at he
    rw [hkv] at he
    split at he
    · rename_i hk
      rcases typed_iface hk hxt with rfl | ⟨t', v', rfl, _, hv'⟩
      · simp only [hxl, Except.ok.injEq] at he
        subst he
        trivial
      · simp only [hxl, Except.ok.injEq] at he
        subst he
        exact ⟨d, n, hv'⟩
    · rename_i hk
      rcases typed_ptr hk hxt with rfl | ⟨c, rfl, hsc, hel, _, _⟩
      · simp only [hxl, Except.ok.injEq] at he
        subst he
        trivial
      · simp only [hxl, hvt, hel, Except.ok.injEq] at he
        subst he
        exact ⟨hsc, rfl⟩
    · cases he

theorem srcSame_sameAt {σ : Shape} {h g : Heap} (hss : SrcSame σ h g)
    {v : Value} (hs : SrcIn σ v) : SameAt g h v := by
  cases v with
  | invalid => trivial
  | direct t x => trivial
  | addr t s q => exact read_of_cells (hss.1 s hs.1) q

/-- The value behind the pointers of a source handle is a value of the source,
and is found again in every heap that holds the same source. -/
theorem derefPtr_src {σ : Shape} {h : Heap} (hok : SrcOk h σ) :
    ∀ (n : Nat) {v e : Value}, SrcIn σ v → derefPtr h n v = .ok e →
      SrcIn σ e ∧ ∀ g, SrcSame σ h g → ∀ k, n ≤ k → derefPtr g k v = .ok e
  | 0, v, e, hs, hd => by
    simp only [derefPtr] at hd
    split at hd
    · cases hd
    · rename_i hk
      injection hd with hd
      subst hd
      exact ⟨hs, fun g _ k _ => derefPtr_done g k
        ⟨fun hp => hk (Or.inl hp), fun hp => hk (Or.inr hp)⟩⟩
  | n + 1, v, e, hs, hd => by
    by_cases hk : v.kind = .Ptr ∨ v.kind = .Interface
    · rw [derefPtr_step h n hk] at hd
      cases he : v.Elem h with
      | error f => simp [he] at hd
      | ok e' =>
        simp only [he] at hd
        obtain ⟨hse, hst⟩ := derefPtr_src hok n (srcIn_elem hok hs he) hd
        refine ⟨hse, fun g hss k hk' => ?_⟩
        obtain ⟨j, rfl⟩ : ∃ j, k = j + 1 := ⟨k - 1, by omega⟩
        rw [derefPtr_step g j hk, sameAt_elem (srcSame_sameAt hss hs), he]
        exact hst g hss j (by omega)
    · simp only [derefPtr, hk, if_false] at hd
      injection hd with hd
      subst hd
      exact ⟨hs, fun g _ k _ => derefPtr_done g k
        ⟨fun hp => hk (Or.inl hp), fun hp => hk (Or.inr hp)⟩⟩

/-- The value an interface or pointer handle of the destination leads to: a
copy of what the interface holds, at the same place, or the cell the pointer
leads to, at the place below. -/
theorem dstAt_elem {σ : Shape} {h : Heap} (hok : SrcOk h σ) {π : List Step}
    {v e : Value} (hd : DstAt h σ π v) (hw : WellShaped h σ π)
    (he : v.Elem h = .ok e) :
    e = .invalid ∨ (∃ t x, e = .direct t x ∧ x.fits σ π = true) ∨
      ∃ t c, e = .addr t c [] ∧ σ.cellPos c = some (π ++ [.elem]) ∧
        DstAt h σ (π ++ [.elem]) e := by
  unfold Value.Elem at he
  split at he
  · cases hl : v.load h with
    | error f => simp [hl] at he
    | ok x =>
      have hfit := dstAt_load hd hl
      simp only [hl] at he
      cases x with
      | iface dy =>
        rcases dy with _ | ⟨t, x'⟩
        · simp only [Except.ok.injEq] at he
          exact Or.inl he.symm
        · simp only [Except.ok.injEq] at he
          exact Or.inr (Or.inl ⟨t, x', he.symm, by simpa [Val.fits] using hfit⟩)
      | _ => simp at he
  · cases hl : v.load h with
    | error f => simp [hl] at he
    | ok x =>
      have hfit := dstAt_load hd hl
      simp only [hl] at he
      cases x with
      | ptr a =>
        cases a with
        | none =>
          simp only [Except.ok.injEq] at he
          exact Or.inl he.symm
        | some c =>
          cases hvt : v.typ with
          | error f => simp [hvt] at he
          | ok T =>
            simp only [hvt] at he
            cases hE : T.elem with
            | none => simp [hE] at he
            | some E =>
              simp only [hE, Except.ok.injEq] at he
              subst he
              simp only [Val.fits, decide_eq_true_eq] at hfit
              have hlt : c < h.cells.length :=
                Nat.lt_of_lt_of_le (hok.pos_lt c _ hfit) hok.bound_le
              refine Or.inr (Or.inr ⟨E, c, rfl, hfit, hlt, fun y hy => ?_,
                Or.inr ⟨_, hfit, by simp⟩⟩)
              have hc : h.cells[c]? = some y := by
                simpa [Heap.read, List.getElem?_eq_getElem hlt,
                  Val.getPath] using hy
              exact hw.1 c _ y hfit (List.prefix_append _ _) hc
      | _ => simp at he
  · cases he

/-- The value behind the pointers of a destination handle: its place, and the
heaps in which it is found again. -/
theorem derefPtr_dst {σ : Shape} {h : Heap} (hok : SrcOk h σ) :
    ∀ (n : Nat) {v dE : Value} {πv : List Step}, DstAt h σ πv v →
      WellShaped h σ πv → derefPtr h n v = .ok dE →
      ∃ π', πv <+: π' ∧ DstAt h σ π' dE ∧
        ((dE = v ∧ π' = πv) ∨ (dE ≠ v ∧ ∀ t c q, dE = .addr t c q →
          σ.cellPos c = some π' ∧ π' ≠ πv)) ∧
        ∀ g, (dE = v ∨ SameAt g h v) →
          (∀ c ρ, σ.cellPos c = some ρ → πv <+: ρ → ρ <+: π' →
            (∀ t q, dE ≠ .addr t c q) → g.cells[c]? = h.cells[c]?) →
          ∀ k, n ≤ k → derefPtr g k v = .ok dE
  | 0, v, dE, πv, hd, hw, hr => by
    simp only [derefPtr] at hr
    split at hr
    · cases hr
    · rename_i hk
      injection hr with hr
      subst hr
      exact ⟨πv, List.prefix_refl _, hd, Or.inl ⟨rfl, rfl⟩,
        fun g _ _ k _ => derefPtr_done g k
          ⟨fun hp => hk (Or.inl hp), fun hp => hk (Or.inr hp)⟩⟩
  | n + 1, v, dE, πv, hd, hw, hr => by
    by_cases hk : v.kind = .Ptr ∨ v.kind = .Interface
    · rw [derefPtr_step h n hk] at hr
      have hne : dE ≠ v := by
        rintro rfl
        have := derefPtr_kind h (n + 1) (by rw [derefPtr_step h n hk]; exact hr)
        rcases hk with hk | hk
        · exact this.1 hk
        · exact this.2 hk
      cases he : v.Elem h with
      | error f => simp [he] at hr
      | ok e =>
        simp only [he] at hr
        rcases dstAt_elem hok hd hw he with rfl | ⟨t, x, rfl, hfx⟩ |
          ⟨t, c, rfl, hpos, hde⟩
        · -- a nil pointer or interface
          have : dE = .invalid := by
            cases n <;> simp [derefPtr, Value.kind] at hr <;> exact hr.symm
          subst this
          refine ⟨πv, List.prefix_refl _, trivial, Or.inr ⟨hne, fun t c q hc => by
            cases hc⟩, fun g hs _ k hk' => ?_⟩
          obtain ⟨j, rfl⟩ : ∃ j, k = j + 1 := ⟨k - 1, by omega⟩
          rcases hs with hs | hs
          · exact absurd hs hne
          · rw [derefPtr_step g j hk, sameAt_elem hs, he]
            exact derefPtr_done g j ⟨by simp [Value.kind], by simp [Value.kind]⟩
        · -- a copy of what an interface holds, at the same place
          obtain ⟨π', hp, hdE, hfar, hst⟩ :=
            derefPtr_dst hok n (show DstAt h σ πv (.direct t x) from hfx) hw hr
          refine ⟨π', hp, hdE, Or.inr ⟨hne, fun t' c q hc => ?_⟩,
            fun g hs hcells k hk' => ?_⟩
          · rcases hfar with ⟨h1, _⟩ | ⟨_, h2⟩
            · rw [hc] at h1
              cases h1
            · exact h2 t' c q hc
          · obtain ⟨j, rfl⟩ : ∃ j, k = j + 1 := ⟨k - 1, by omega⟩
            rcases hs with hs | hs
            · exact absurd hs hne
            · rw [derefPtr_step g j hk, sameAt_elem hs, he]
              exact hst g (Or.inr trivial) hcells j (by omega)
        · -- the cell a pointer leads to, at the place below
          have hwe : WellShaped h σ (πv ++ [.elem]) :=
            wellShaped_mono hw (List.prefix_append _ _)
          obtain ⟨π', hp, hdE, hfar, hst⟩ := derefPtr_dst hok n hde hwe hr
          have hpv : πv <+: π' := (List.prefix_append _ _).trans hp
          have hnev : π' ≠ πv := by
            intro hpe
            rw [hpe] at hp
            exact not_prefix_snoc πv _ hp
          refine ⟨π', hpv, hdE, Or.inr ⟨hne, fun t' c' q hc => ?_⟩,
            fun g hs hcells k hk' => ?_⟩
          · rcases hfar with ⟨h1, h2⟩ | ⟨_, h2⟩
            · rw [hc] at h1
              injection h1 with _ h1 _
              subst h1
              rw [h2]
              exact ⟨hpos, by rw [← h2]; exact hnev⟩
            · exact ⟨(h2 t' c' q hc).1, hnev⟩
          · obtain ⟨j, rfl⟩ : ∃ j, k = j + 1 := ⟨k - 1, by omega⟩
            rcases hs with hs | hs
            · exact absurd hs hne
            · rw [derefPtr_step g j hk, sameAt_elem hs, he]
              refine hst g ?_ (fun c' ρ hc' h1 h2 h3 =>
                hcells c' ρ hc' ((List.prefix_append _ _).trans h1) h2 h3)
                j (by omega)
              rcases hfar with ⟨h1, _⟩ | ⟨h1, h2⟩
              · exact Or.inl h1
              · refine Or.inr (read_of_cells (hcells c _ hpos
                  (List.prefix_append _ _) hp (fun t' q hc => ?_)) [])
                have := (h2 t' c q hc).1
                rw [hpos] at this
                injection this with this
                exact (h2 t' c q hc).2 this.symm
    · simp only [derefPtr, hk, if_false] at hr
      injection hr with hr
      subst hr
      exact ⟨πv, List.prefix_refl _, hd, Or.inl ⟨rfl, rfl⟩,
        fun g _ _ k _ => derefPtr_done g k
          ⟨fun hp => hk (Or.inl hp), fun hp => hk (Or.inr hp)⟩⟩

/-- The cell of a destination handle does not lie below the place of the
handle. -/
theorem dstAt_not_below {σ : Shape} {h : Heap} (hok : SrcOk h σ)
    {π : List Step} {t : Ty} {a : Nat} {q : List Nat}
    (hd : DstAt h σ π (.addr t a q)) : ¬ σ.below π a := by
  rintro ⟨ρ, hρ, hpr, hne⟩
  rcases hd.2.2 with hge | ⟨π0, hp0, he⟩
  · exact absurd (hok.pos_lt a ρ hρ) (Nat.not_lt.mpr hge)
  · rw [hp0] at hρ
    injection hρ with hρ
    subst hρ
    rw [he] at hpr
    have := List.IsPrefix.eq_of_length hpr
      (Nat.le_antisymm hpr.length_le (by simp))
    exact hne (by rw [he]; exact this.symm)

/-- A merge at a place `π'` at or below the place `π` of `dst`, on a copy or
on another cell: the frame at `π`, and what a heap that agrees with the
outcome at `π` agrees on at `π'`. -/
theorem descendTo {σ : Shape} {h h1 : Heap} {π π' : List Step}
    {dst dstE : Value} (hok : SrcOk h σ) (hd : DstAt h σ π dst)
    (hp : π <+: π') (hde : DstAt h σ π' dstE)
    (hcell : ∀ t c q, dstE = .addr t c q → σ.cellPos c = some π' ∧ π' ≠ π)
    (hf : Frame h h1 σ π' dstE) :
    Frame h h1 σ π dst ∧ SameAt h1 h dst ∧
      ∀ g, Agree σ π dst h h1 g → Agree σ π' dstE h h1 g := by
  have hfreeE : ∀ c r, ¬ σ.below π c → Free dstE c r := by
    intro c r hnu
    cases dstE with
    | invalid => trivial
    | direct t x => trivial
    | addr t c' q' =>
      intro hcc
      subst hcc
      obtain ⟨hpos, hne⟩ := hcell t c q' rfl
      exact absurd ⟨π', hpos, hp, hne⟩ hnu
  refine ⟨⟨hf.1, hf.2.1, fun c r hc hnu hfree => ?_, fun i hi hnu => ?_⟩, ?_,
    fun g hag => ⟨hag.1, hag.2.1, fun c hc hreg => ?_,
    fun i hi hreg => ?_, ?_⟩⟩
  · exact hf.2.2.1 c r hc (fun hu => hnu (below_mono hp hu)) (hfreeE c r hnu)
  · exact hf.2.2.2 i hi (fun hu => hnu (underM_mono hp hu))
  · cases dst with
    | invalid => trivial
    | direct t x => trivial
    | addr t a q =>
      have hnb : ¬ σ.below π a := dstAt_not_below hok hd
      exact hf.2.2.1 a q hd.1 (fun hu => hnb (below_mono hp hu))
        (hfreeE a q hnb)
  · refine hag.2.2.1 c hc ?_
    rcases hreg with hu | hge | hs
    · exact Or.inl (under_mono hp hu)
    · exact Or.inr (Or.inl hge)
    · exact Or.inr (Or.inr hs)
  · refine hag.2.2.2.1 i hi ?_
    rcases hreg with hu | hge | hs
    · exact Or.inl (underM_mono hp hu)
    · exact Or.inr (Or.inl hge)
    · exact Or.inr (Or.inr hs)
  · cases dstE with
    | invalid => trivial
    | direct t x => trivial
    | addr t c q' =>
      show g.read c q' = h1.read c q'
      have hc1 : c < h1.cells.length := Nat.lt_of_lt_of_le hde.1 hf.1
      exact read_of_cells (hag.2.2.1 c hc1
        (Or.inl ⟨π', (hcell t c q' rfl).1, hp⟩)) q'

theorem trueTypeOf_kept {v : Value} {t : Ty} {h g : Heap} {r : Ty × Kind}
    (hr : trueTypeOf v t h = .ok r) (hk : DynKept h g v) :
    trueTypeOf v t g = .ok r := by
  unfold trueTypeOf at hr ⊢
  split
  · rename_i hti
    simp only [hti, if_true] at hr
    cases he : derefInterface v h with
    | error f => simp [he] at hr
    | ok e =>
      simp only [he] at hr
      cases hte : e.typ with
      | error f => simp [hte] at hr
      | ok te =>
        simp only [hte, Except.ok.injEq] at hr
        obtain ⟨e', he', hte'⟩ := hk e te he hte
        rw [he']
        simp only [hte']
        rw [← hr, Value.kind_of_typ hte, Value.kind_of_typ hte']
  · rename_i hti
    simpa only [hti, if_false] using hr

/-- What a plan of `convert` rests on. -/
theorem convPlan_inv {H : Host} {m : porter} {n : Nat} {dst src : Value}
    {o : Options} {h : Heap} {fo : Option Func} {d s : Value}
    (hp : convPlan H m n dst src o h = .ok (fo, d, s)) :
    ∃ dT0 sT0 dT dK sT sK, dst.typ = .ok dT0 ∧ src.typ = .ok sT0 ∧
      trueTypeOf dst dT0 h = .ok (dT, dK) ∧
      trueTypeOf src sT0 h = .ok (sT, sK) ∧
      ((∃ f, m.converter H dT sT o = some f ∧ fo = some f ∧ d = dst ∧
          s = src) ∨
       (m.converter H dT sT o = none ∧ (dK = .Ptr ∨ sK = .Ptr) ∧
        derefPtr h n dst = .ok d ∧ derefPtr h n src = .ok s ∧
        ∃ dET sET, d.typ = .ok dET ∧ s.typ = .ok sET ∧
          ((dET ≠ sET ∧ ∃ f, m.converter H dET sET o = some f ∧ fo = some f) ∨
           (dET = sET ∧ fo = none)))) := by
  unfold convPlan at hp
  cases h1 : dst.typ with
  | error f => simp [h1] at hp
  | ok dT0 =>
    cases h2 : src.typ with
    | error f => simp [h1, h2] at hp
    | ok sT0 =>
      cases h3 : trueTypeOf dst dT0 h with
      | error f => simp [h1, h2, h3] at hp
      | ok r1 =>
        obtain ⟨dT, dK⟩ := r1
        cases h4 : trueTypeOf src sT0 h with
        | error f => simp [h1, h2, h3, h4] at hp
        | ok r2 =>
          obtain ⟨sT, sK⟩ := r2
          simp only [h1, h2, h3, h4] at hp
          refine ⟨dT0, sT0, dT, dK, sT, sK, rfl, rfl, h3, h4, ?_⟩
          cases h5 : m.converter H dT sT o with
          | some f =>
            simp only [h5, Except.ok.injEq, Prod.mk.injEq] at hp
            exact Or.inl ⟨f, rfl, hp.1.symm, hp.2.1.symm, hp.2.2.symm⟩
          | none =>
            simp only [h5] at hp
            split at hp
            · rename_i hkk
              cases h6 : derefPtr h n dst with
              | error f => simp [h6] at hp
              | ok dE =>
                cases h7 : dE.typ with
                | error f => simp [h6, h7] at hp
                | ok dET =>
                  cases h8 : derefPtr h n src with
                  | error f => simp [h6, h7, h8] at hp
                  | ok sE =>
                    cases h9 : sE.typ with
                    | error f => simp [h6, h7, h8, h9] at hp
                    | ok sET =>
                      simp only [h6, h7, h8, h9] at hp
                      split at hp
                      · rename_i hne
                        cases h10 : m.converter H dET sET o with
                        | none => simp [h10] at hp
                        | some f =>
                          simp only [h10, Except.ok.injEq,
                            Prod.mk.injEq] at hp
                          obtain ⟨hp1, hp2, hp3⟩ := hp
                          subst hp2 hp3
                          exact Or.inr ⟨rfl, hkk, rfl, rfl, dET, sET, h7, h9,
                            Or.inl ⟨hne, f, h10, hp1.symm⟩⟩
                      · rename_i hne
                        simp only [Except.ok.injEq, Prod.mk.injEq] at hp
                        obtain ⟨hp1, hp2, hp3⟩ := hp
                        subst hp2 hp3
                        exact Or.inr ⟨rfl, hkk, rfl, rfl, dET, sET, h7, h9,
                          Or.inr ⟨by simpa using hne, hp1.symm⟩⟩
            · cases hp

/-- A plan of `convert` is found again in a heap in which `convert` reads what
it read. -/
theorem convPlan_again {H : Host} {m : porter} {n k : Nat} {dst src : Value}
    {o : Options} {h g : Heap} {fo : Option Func} {d s : Value}
    (hp : convPlan H m n dst src o h = .ok (fo, d, s))
    (hkd : DynKept h g dst) (hks : DynKept h g src)
    (hdd : derefPtr h n dst = .ok d → derefPtr g k dst = .ok d)
    (hds : derefPtr h n src = .ok s → derefPtr g k src = .ok s) :
    convPlan H m k dst src o g = .ok (fo, d, s) := by
  obtain ⟨dT0, sT0, dT, dK, sT, sK, h1, h2, h3, h4, hcase⟩ := convPlan_inv hp
  unfold convPlan
  simp only [h1, h2, trueTypeOf_kept h3 hkd, trueTypeOf_kept h4 hks]
  rcases hcase with ⟨f, h5, rfl, rfl, rfl⟩ |
    ⟨h5, hkk, h6, h8, dET, sET, h7, h9, hcase⟩
  · simp only [h5]
  · simp only [h5, hkk, if_true, hdd h6, hds h8, h7, h9]
    rcases hcase with ⟨hne, f, h10, rfl⟩ | ⟨rfl, rfl⟩
    · simp only [ne_eq, hne, not_false_eq_true, if_true, h10]
    · simp only [ne_eq, not_true_eq_false, if_false]

/-- The source is held the same in a heap that agrees with the outcome of a
merge: the merge did not write the source. -/
theorem agree_srcSame {σ : Shape} {π : List Step} {dst : Value}
    {h h1 g : Heap} (hok : SrcOk h σ) (hd : DstAt h σ π dst)
    (hf : Frame h h1 σ π dst) (ha : Agree σ π dst h h1 g) :
    SrcSame σ h g := by
  refine ⟨fun s hsc => ?_, fun r hr => ?_⟩
  · have hlt : s < h.cells.length :=
      Nat.lt_of_lt_of_le (hok.src_lt s hsc) hok.bound_le
    rw [ha.2.2.1 s (Nat.lt_of_lt_of_le hlt hf.1) (Or.inr (Or.inr hsc))]
    refine frame_cell hf hlt ?_ (fun t a q hdst => ?_)
    · rintro ⟨ρ, hρ, _⟩
      rw [hok.disj s ρ hρ] at hsc
      cases hsc
    · rintro rfl
      subst hdst
      rcases hd.2.2 with hb | ⟨π0, hp, _⟩
      · exact absurd (hok.src_lt s hsc) (Nat.not_lt.mpr hb)
      · rw [hok.disj s π0 hp] at hsc
        cases hsc
  · have hlt : r < h.maps.length :=
      Nat.lt_of_lt_of_le (hok.srcM_lt r hr) hok.boundM_le
    rw [ha.2.2.2.1 r (Nat.lt_of_lt_of_le hlt hf.2.1) (Or.inr (Or.inr hr))]
    refine hf.2.2.2 r hlt ?_
    rintro ⟨ρ, hρ, _⟩
    rw [hok.disjM r ρ hρ] at hr
    cases hr

theorem dynKept_of_kind {h g : Heap} {v : Value} (hk : v.kind ≠ .Interface) :
    DynKept h g v := by
  intro e te he ht
  rw [derefInterface_of_not_iface h hk] at he
  injection he with he
  subst he
  exact ⟨v, derefInterface_of_not_iface g hk, ht⟩

theorem converter_go {H : Host} {m : porter} (hcf : m.convertFuncs = [])
    {a b : Ty} {o : Options} {f : Func}
    (hc : m.converter H a b o = some f) : f = goConvertion H := by
  rcases converter_cases hc with ⟨pr, hpr⟩ | hf
  · rw [hcf] at hpr
    simp [tableLookup] at hpr
  · exact hf

/-- Porter.go `convert`, when no conversion function is registered: the frame,
the second run, and the type behind the interface layers of the
destination. -/
theorem conv_main {H : Host} {m : porter} {o : Options} {n : Nat}
    (ho : o.Overwrite = true) (hcf : m.convertFuncs = [])
    (hrec : Main H m o n) {σ : Shape} {π : List Step} {dst src : Value}
    {h h1 : Heap} (hmo : ModeOk o σ)
    (hok : SrcOk h σ) (hw : WellShaped h σ π) (hd : DstAt h σ π dst)
    (hs : SrcIn σ src)
    (hrun : m.convert H n (m.deepMerge H n) dst src o h = .ok () h1) :
    Frame h h1 σ π dst ∧
      Settled σ π dst h h1
        (fun k => m.convert H k (m.deepMerge H k) dst src o) ∧
      DynKept h h1 dst := by
  rw [convert_eq_plan] at hrun
  cases hp : convPlan H m n dst src o h with
  | error f => simp [hp] at hrun
  | ok p =>
    obtain ⟨fo, d, s⟩ := p
    simp only [hp] at hrun
    obtain ⟨dT0, sT0, dT, dK, sT, sK, h1t, h2t, h3, h4, hcase⟩ :=
      convPlan_inv hp
    rcases hcase with ⟨f, h5, rfl, rfl, rfl⟩ |
      ⟨h5, hkk, h6, h8, dET, sET, h7, h9, hcase⟩
    · -- a conversion of the two values themselves
      have := converter_go hcf h5
      subst this
      simp only [] at hrun
      obtain ⟨hfa, hkept, hagain⟩ := convStep_main H m ho hrun
      have hfr := frame_of_frameAt hfa σ π
      refine ⟨hfr, ⟨0, fun g hag k _ => ⟨g, ?_, quiet_refl g⟩⟩, hkept⟩
      have hsg := agree_src hok hd hs hfr hag
      have hdg := agree_dst hag
      have hpg : convPlan H m k d s o g =
          .ok (some (goConvertion H), d, s) :=
        convPlan_again hp (dynKept_trans hkept (dynKept_of_sameAt hdg))
          (dynKept_of_sameAt hsg)
          (fun hx => derefPtr_done g k (derefPtr_kind h n hx))
          (fun hx => derefPtr_done g k (derefPtr_kind h n hx))
      show m.convert H k (m.deepMerge H k) d s o g = .ok () g
      rw [convert_eq_plan, hpg]
      exact hagain g hsg hdg
    · -- the values behind the pointers
      obtain ⟨π', hpp, hdE, hfar, hstab⟩ := derefPtr_dst hok n hd hw h6
      obtain ⟨hsE, hsstab⟩ := derefPtr_src hok n hs h8
      have hwE := wellShaped_mono hw hpp
      have hdk := derefPtr_kind h n h6
      -- the merge of these values: its frame and its second run
      obtain ⟨hfc, n0, hsc⟩ : Frame h h1 σ π' d ∧ ∃ n0, ∀ g,
          Agree σ π' d h h1 g → ∀ k, n0 ≤ k → ∃ g',
            (match fo with
              | some f => convStep m f d s o
              | none => m.deepMerge H k d s o) g = .ok () g' ∧ Quiet g g' := by
        rcases hcase with ⟨hne, f, h10, rfl⟩ | ⟨rfl, rfl⟩
        · have := converter_go hcf h10
          subst this
          simp only [] at hrun
          obtain ⟨hfa, _, hagain⟩ := convStep_main H m ho hrun
          have hfr := frame_of_frameAt hfa σ π'
          refine ⟨hfr, 0, fun g hag k _ => ⟨g, ?_, quiet_refl g⟩⟩
          exact hagain g (agree_src hok hdE hsE hfr hag) (agree_dst hag)
        · simp only [] at hrun
          obtain ⟨hfr, n0, hset⟩ := hrec σ π' d s h h1 hmo hok hwE hdE hsE hrun
          exact ⟨hfr, n0, fun g hag k hk => hset g hag k hk⟩
      rcases hfar with ⟨rfl, rfl⟩ | ⟨hne, hcell⟩
      · -- the destination is not a pointer
        refine ⟨hfc, ⟨max n n0, fun g hag k hk => ?_⟩,
          dynKept_of_kind hdk.2⟩
        obtain ⟨g', hg', hq⟩ := hsc g hag k (by omega)
        refine ⟨g', ?_, hq⟩
        have hsg := agree_src hok hd hs hfc hag
        have hpg : convPlan H m k d src o g = .ok (fo, d, s) :=
          convPlan_again hp (dynKept_of_kind hdk.2) (dynKept_of_sameAt hsg)
            (fun _ => derefPtr_done g k hdk)
            (fun _ => hsstab g (agree_srcSame hok hd hfc hag) k (by omega))
        show m.convert H k (m.deepMerge H k) d src o g = .ok () g'
        rw [convert_eq_plan, hpg]
        cases fo with
        | some f => exact hg'
        | none => exact hg'
      · obtain ⟨hfr, hsame, hagc⟩ := descendTo hok hd hpp hdE hcell hfc
        refine ⟨hfr, ⟨max n n0, fun g hag k hk => ?_⟩,
          dynKept_of_sameAt hsame⟩
        obtain ⟨g', hg', hq⟩ := hsc g (hagc g hag) k (by omega)
        refine ⟨g', ?_, hq⟩
        have hsg := agree_src hok hd hs hfr hag
        have hdg : SameAt g h dst := sameAt_trans (agree_dst hag) hsame
        have hpg : convPlan H m k dst src o g = .ok (fo, d, s) := by
          refine convPlan_again hp (dynKept_of_sameAt hdg)
            (dynKept_of_sameAt hsg)
            (fun _ => hstab g (Or.inr hdg) (fun c ρ hc hp1 hp2 hnd => ?_) k
              (by omega))
            (fun _ => hsstab g (agree_srcSame hok hd hfr hag) k (by omega))
          have hlt : c < h.cells.length :=
            Nat.lt_of_lt_of_le (hok.pos_lt c ρ hc) hok.bound_le
          rw [hag.2.2.1 c (Nat.lt_of_lt_of_le hlt hfr.1) (Or.inl ⟨ρ, hc, hp1⟩)]
          refine cells_of_read (hfc.2.2.1 c [] hlt ?_ ?_)
          · rintro ⟨ρ', hc', hp3, hne'⟩
            rw [hc] at hc'
            injection hc' with hc'
            subst hc'
            exact hne' (List.IsPrefix.eq_of_length hp2
              (Nat.le_antisymm hp2.length_le hp3.length_le))
          · cases d with
            | invalid => trivial
            | direct t x => trivial
            | addr t c' q' =>
              intro hcc
              subst hcc
              exact absurd rfl (hnd t q')
        show m.convert H k (m.deepMerge H k) dst src o g = .ok () g'
        rw [convert_eq_plan, hpg]
        cases fo with
        | some f => exact hg'
        | none => exact hg'

/-! ## Merging twice: interfaces and slices -/

/-- The interface case of `deepMerge`, in one expression. -/
theorem deepMerge_iface (H : Host) (m : porter) (n : Nat) (o : Options)
    {T : Ty} {dst src : Value} (hk : T.kind = .Interface)
    (hreg : tableLookup T m.mergeFuncs = none)
    (hdt : dst.typ = .ok T) (hst : src.typ = .ok T) (h : Heap) :
    m.deepMerge H (n + 1) dst src o h =
      match src.IsNil h with
      | .error e => .fail e h
      | .ok true => .ok () h
      | .ok false =>
        match dst.IsNil h with
        | .error e => .fail e h
        | .ok true =>
          if dst.CanSet = true then
            match dst.Set src h with
            | .ok h' => .ok () h'
            | .error e => .fail e h
          else .ok () h
        | .ok false =>
          match derefInterface dst h with
          | .error e => .fail e h
          | .ok dE =>
            match derefInterface src h with
            | .error e => .fail e h
            | .ok sE =>
              match dE.typ with
              | .error e => .fail e h
              | .ok dt =>
                match sE.typ with
                | .error e => .fail e h
                | .ok st =>
                  if dt ≠ st then m.convert H n (m.deepMerge H n) dst src o h
                  else directMerge dst src o h := by
  simp only [porter.deepMerge, porter.deepMergeBody, M.bind_apply, M.rd_apply,
    hdt, hst, ne_eq, not_true_eq_false, if_false, hreg,
    Value.kind_of_typ hdt, hk]
  cases src.IsNil h with
  | error e => rfl
  | ok b =>
    cases b with
    | true => rfl
    | false =>
      simp only [Bool.false_eq_true, if_false, M.bind_apply, M.rd_apply]
      cases dst.IsNil h with
      | error e => rfl
      | ok bd =>
        cases bd with
        | true =>
          simp only [if_true]
          split
          · simp only [M.upd_apply]
          · rfl
        | false =>
          simp only [Bool.false_eq_true, if_false, M.bind_apply, M.rd_apply]
          cases derefInterface dst h with
          | error e => rfl
          | ok dE =>
            simp only []
            cases derefInterface src h with
            | error e => rfl
            | ok sE =>
              simp only []
              cases dE.typ with
              | error e => rfl
              | ok dt =>
                simp only []
                cases sE.typ with
                | error e => rfl
                | ok st =>
                  simp only []
                  split <;> rfl

/-- An interface handle behind which there is a value is not nil. -/
theorem isNil_of_deref {v e : Value} {g : Heap} {te : Ty}
    (hk : v.kind = .Interface) (hd : derefInterface v g = .ok e)
    (ht : e.typ = .ok te) : v.IsNil g = .ok false := by
  have key : ∀ T x, T.kind = .Interface → derefDirect T x = .ok e →
      ∃ d, x = .iface (some d) := by
    intro T x hT hx
    cases x with
    | iface dy =>
      cases dy with
      | none =>
        simp only [derefDirect, hT, if_true, Except.ok.injEq] at hx
        subst hx
        simp [Value.typ] at ht
      | some d => exact ⟨d, rfl⟩
    | _ => simp [derefDirect, hT] at hx
  cases v with
  | invalid => simp [Value.kind] at hk
  | direct T x =>
    obtain ⟨d, rfl⟩ := key T x hk hd
    simp [Value.IsNil, Value.kind, show T.kind = .Interface from hk,
      Value.load]
  | addr T a q =>
    have hT : T.kind = .Interface := hk
    simp only [derefInterface, hT, if_true] at hd
    cases hr : g.read a q with
    | none => simp [hr] at hd
    | some x =>
      simp only [hr] at hd
      obtain ⟨d, rfl⟩ := key T x hT hd
      simp [Value.IsNil, Value.kind, hT, Value.load, hr]

/-- The interface case of `deepMerge` on two interfaces that hold values. -/
theorem deepMerge_iface_step (H : Host) (m : porter) (k : Nat) (o : Options)
    {T dt st : Ty} {dst src dE sE : Value} {g : Heap}
    (hk : T.kind = .Interface) (hreg : tableLookup T m.mergeFuncs = none)
    (hdt : dst.typ = .ok T) (hst : src.typ = .ok T)
    (hde : derefInterface dst g = .ok dE) (hse : derefInterface src g = .ok sE)
    (hdE : dE.typ = .ok dt) (hsE : sE.typ = .ok st) :
    m.deepMerge H (k + 1) dst src o g =
      if dt ≠ st then m.convert H k (m.deepMerge H k) dst src o g
      else directMerge dst src o g := by
  rw [deepMerge_iface H m k o hk hreg hdt hst,
    isNil_of_deref (by rw [Value.kind_of_typ hst]; exact hk) hse hsE,
    isNil_of_deref (by rw [Value.kind_of_typ hdt]; exact hk) hde hdE]
  simp only [hde, hse, hdE, hsE]

/-- The interface case of `deepMerge`: the frame, and the second run. -/
theorem iface_main {H : Host} {m : porter} {o : Options} {n : Nat}
    (ho : o.Overwrite = true) (hcf : m.convertFuncs = [])
    (hrec : Main H m o n) {σ : Shape} {π : List Step} {dst src : Value}
    {T : Ty} {h h1 : Heap} (hmo : ModeOk o σ)
    (hk : T.kind = .Interface) (hreg : tableLookup T m.mergeFuncs = none)
    (hdt : dst.typ = .ok T) (hst : src.typ = .ok T)
    (hok : SrcOk h σ) (hw : WellShaped h σ π) (hd : DstAt h σ π dst)
    (hs : SrcIn σ src)
    (hrun : m.deepMerge H (n + 1) dst src o h = .ok () h1) :
    Frame h h1 σ π dst ∧
      Settled σ π dst h h1 (fun k => m.deepMerge H k dst src o) := by
  have hrun0 := hrun
  rw [deepMerge_iface H m n o hk hreg hdt hst] at hrun
  cases hsn : src.IsNil h with
  | error e => simp [hsn] at hrun
  | ok b =>
    cases b with
    | true =>
      simp only [hsn] at hrun
      injection hrun with _ hrun
      subst hrun
      refine ⟨frame_refl _ _ _ _, 1, fun g hag k hk' => ⟨g, ?_, quiet_refl g⟩⟩
      obtain ⟨j, rfl⟩ : ∃ j, k = j + 1 := ⟨k - 1, by omega⟩
      have hsg := agree_src hok hd hs (frame_refl _ _ _ _) hag
      exact deepMerge_nil_source H m j o (Or.inr (Or.inr (Or.inr hk))) hreg hdt
        hst (by rw [sameAt_isNil hsg]; exact hsn)
    | false =>
      simp only [hsn] at hrun
      -- what the source holds
      obtain ⟨x, d, nn, hxl, hxt⟩ := srcIn_load hok hs hst
      obtain ⟨t', v', rfl, ht', hv'⟩ : ∃ t' v', x = .iface (some (t', v')) ∧
          t'.kind ≠ .Interface ∧ v'.typed σ d nn t' = true := by
        rcases typed_iface hk hxt with rfl | hx
        · simp [Value.IsNil, Value.kind_of_typ hst, hk, hxl] at hsn
        · exact hx
      have hsd : ∀ g, SameAt g h src →
          derefInterface src g = .ok (.direct t' v') := by
        intro g hsg
        have hl : src.load g = .ok (.iface (some (t', v'))) := by
          rw [sameAt_load hsg]; exact hxl
        have hdd : derefDirect T (.iface (some (t', v'))) =
            .ok (.direct t' v') := by
          simp only [derefDirect, hk, if_true]
          exact derefDirect_of_not_iface v' ht'
        cases src with
        | invalid => simp [Value.load] at hl
        | direct t0 x0 =>
          simp only [Value.load, Except.ok.injEq] at hl
          simp only [Value.typ, Except.ok.injEq] at hst
          subst hl hst
          exact hdd
        | addr t0 s q =>
          simp only [Value.typ, Except.ok.injEq] at hst
          subst hst
          simp only [Value.load] at hl
          cases hr : g.read s q with
          | none => simp [hr] at hl
          | some y =>
            simp only [hr, Except.ok.injEq] at hl
            subst hl
            simp only [derefInterface, hk, if_true, hr]
            exact hdd
      cases hdn : dst.IsNil h with
      | error e => simp [hdn] at hrun
      | ok bd =>
        cases bd with
        | true =>
          simp only [hdn] at hrun
          by_cases hcs : dst.CanSet = true
          · -- the destination takes the value of the source
            simp only [hcs, if_true] at hrun
            cases hset : dst.Set src h with
            | error e => simp [hset] at hrun
            | ok h' =>
              simp only [hset] at hrun
              injection hrun with _ hrun
              subst hrun
              have hfr := frame_of_frameAt (frameAt_set hset) σ π
              refine ⟨hfr, 1, fun g hag k hk' => ⟨g, ?_, quiet_refl g⟩⟩
              obtain ⟨j, rfl⟩ : ∃ j, k = j + 1 := ⟨k - 1, by omega⟩
              have hsg := agree_src hok hd hs hfr hag
              have hdg := agree_dst hag
              cases dst with
              | invalid => simp [Value.CanSet] at hcs
              | direct t0 x0 => simp [Value.CanSet] at hcs
              | addr t0 a q =>
                simp only [Value.typ, Except.ok.injEq] at hdt
                subst hdt
                have hsk : src.kind = .Interface := by
                  rw [Value.kind_of_typ hst]; exact hk
                simp only [Value.Set, hst, hxl, assignable_self, if_true,
                  assignTo, hk, ne_eq, not_true_eq_false, and_false,
                  if_false] at hset
                cases hwr : h.write a q (.iface (some (t', v'))) with
                | none => simp [hwr] at hset
                | some h2 =>
                  simp only [hwr, Except.ok.injEq] at hset
                  subst hset
                  have hr1 : g.read a q = some (.iface (some (t', v'))) := by
                    have : g.read a q = h2.read a q := hdg
                    rw [this]; exact Heap.read_write hwr
                  have hdd : derefInterface (.addr t0 a q) g =
                      .ok (.direct t' v') := by
                    simp only [derefInterface, hk, if_true, hr1, derefDirect]
                    exact derefDirect_of_not_iface v' ht'
                  show m.deepMerge H (j + 1) (.addr t0 a q) src o g = .ok () g
                  rw [deepMerge_iface_step H m j o hk hreg
                    (show (Value.addr t0 a q).typ = .ok t0 from rfl) hst hdd
                    (hsd g hsg) rfl rfl]
                  simp only [ne_eq, not_true_eq_false, if_false]
                  rw [directMerge_eq, hdd, hsd g hsg]
                  have has : assignable t0 t' = true := by
                    simp [assignable, hk]
                  simp only [Value.IsValid, Bool.true_eq_false, if_false,
                    Value.typ, ne_eq, not_true_eq_false, Value.CanSet, ho,
                    Bool.true_or, if_true, Value.Set, Value.load, has,
                    assignTo, hk, ht', not_false_eq_true, and_self,
                    Heap.write_read_self hr1]
          · -- a destination that cannot be set stays nil
            simp only [hcs, if_false] at hrun
            injection hrun with _ hrun
            subst hrun
            refine ⟨frame_refl _ _ _ _, 1,
              fun g hag k hk' => ⟨g, ?_, quiet_refl g⟩⟩
            obtain ⟨j, rfl⟩ : ∃ j, k = j + 1 := ⟨k - 1, by omega⟩
            have hsg := agree_src hok hd hs (frame_refl _ _ _ _) hag
            have hdg := agree_dst hag
            show m.deepMerge H (j + 1) dst src o g = .ok () g
            rw [deepMerge_iface H m j o hk hreg hdt hst, sameAt_isNil hsg, hsn,
              sameAt_isNil hdg, hdn]
            simp [hcs]
        | false =>
          simp only [hdn] at hrun
          cases hde : derefInterface dst h with
          | error e => simp [hde] at hrun
          | ok dE =>
            simp only [hde, hsd h (by
              cases src <;> trivial)] at hrun
            cases hdE : dE.typ with
            | error e => simp [hdE] at hrun
            | ok dt =>
              simp only [hdE, Value.typ_direct] at hrun
              by_cases hne : dt = t'
              · -- the same type behind the interfaces
                subst hne
                simp only [ne_eq, not_true_eq_false, if_false] at hrun
                have hfr := directMerge_frame hrun σ π
                refine ⟨hfr, 1, fun g hag k hk' => ⟨g, ?_, quiet_refl g⟩⟩
                obtain ⟨j, rfl⟩ : ∃ j, k = j + 1 := ⟨k - 1, by omega⟩
                have hsg := agree_src hok hd hs hfr hag
                have hdg := agree_dst hag
                obtain ⟨e', he', hte'⟩ := directMerge_kept hrun dE dt hde hdE
                show m.deepMerge H (j + 1) dst src o g = .ok () g
                rw [deepMerge_iface_step H m j o hk hreg hdt hst
                  (by rw [sameAt_derefInterface hdg]; exact he')
                  (hsd g hsg) hte' rfl]
                simp only [ne_eq, not_true_eq_false, if_false]
                exact directMerge_twice ho hrun hsg hdg
              · -- different types: `convert`
                simp only [ne_eq, hne, not_false_eq_true, if_true] at hrun
                obtain ⟨hfr, ⟨n0, hset⟩, hkept⟩ :=
                  conv_main ho hcf hrec hmo hok hw hd hs hrun
                refine ⟨hfr, n0 + 1, fun g hag k hk' => ?_⟩
                obtain ⟨j, rfl⟩ : ∃ j, k = j + 1 := ⟨k - 1, by omega⟩
                obtain ⟨g', hg', hq⟩ := hset g hag j (by omega)
                refine ⟨g', ?_, hq⟩
                have hsg := agree_src hok hd hs hfr hag
                have hdg := agree_dst hag
                obtain ⟨e', he', hte'⟩ := hkept dE dt hde hdE
                show m.deepMerge H (j + 1) dst src o g = .ok () g'
                rw [deepMerge_iface_step H m j o hk hreg hdt hst
                  (by rw [sameAt_derefInterface hdg]; exact he')
                  (hsd g hsg) hte' rfl]
                simp only [ne_eq, hne, not_false_eq_true, if_true]
                exact hg'

theorem mergeSlice_plain (dst src : Value) {o : Options}
    (hna : o.SliceMode ≠ AppendSliceMode) (hnu : o.SliceMode ≠ UniteSlice) :
    mergeSlice dst src o = directMerge dst src o := by
  simp [mergeSlice, hna, hnu]

/-- What `mergeSlice` does in the slice mode Unite, in one expression. -/
theorem mergeSlice_unite_eq (dst src : Value) {o : Options} {T te : Ty}
    (g : Heap) (hu : o.SliceMode = UniteSlice) (hdt : dst.typ = .ok T)
    (hel : T.elem = some te) :
    mergeSlice dst src o g =
      if (!hashable te || decide (te.kind = .Bool)) = true then
        match AppendSlice dst src g with
        | .ok ap => directMerge dst ap o g
        | .error f => .fail f g
      else
        match sliceElems dst g with
        | .error f => .fail f g
        | .ok existed =>
          match sliceElems src g with
          | .error f => .fail f g
          | .ok srcElems =>
            if (srcElems.filter
                (fun key => !(existed.any (fun e => keyEq e key)))).length > 0
            then
              match Append dst (srcElems.filter
                  (fun key => !(existed.any (fun e => keyEq e key)))) g with
              | .ok ap => directMerge dst ap o g
              | .error f => .fail f g
            else .ok () g := by
  have hna : o.SliceMode ≠ AppendSliceMode := by rw [hu]; decide
  unfold mergeSlice
  rw [if_neg hna, if_pos hu]
  simp only [M.bind_apply, M.rd_apply, hdt, hel]
  by_cases hfb : (!hashable te || decide (te.kind = .Bool)) = true
  · rw [if_pos hfb, if_pos hfb]
    simp only [M.bind_apply, M.rd_apply]
    cases AppendSlice dst src g <;> rfl
  · rw [if_neg hfb, if_neg hfb]
    simp only [M.bind_apply, M.rd_apply]
    cases sliceElems dst g with
    | error f => rfl
    | ok existed =>
      simp only []
      cases sliceElems src g with
      | error f => rfl
      | ok srcElems =>
        simp only []
        split
        · simp only [M.bind_apply, M.rd_apply]
          cases Append dst _ g <;> rfl
        · rfl

theorem AppendSlice_load {s t v : Value} {h : Heap}
    (hh : AppendSlice s t h = .ok v) : ∃ a, s.load h = .ok (.slice a) := by
  unfold AppendSlice at hh
  split at hh
  · exact ⟨_, by assumption⟩
  · cases hh
  · cases hh

theorem sliceElems_load {v : Value} {h : Heap} {l : List Val}
    (hh : sliceElems v h = .ok l) : ∃ a, v.load h = .ok (.slice a) := by
  unfold sliceElems at hh
  split at hh
  · exact ⟨_, by assumption⟩
  · cases hh
  · cases hh

/-- In the slice mode Unite, a successful `mergeSlice` read a slice at the
destination. -/
theorem mergeSlice_unite_load {dst src : Value} {o : Options} {T te : Ty}
    {h h1 : Heap} (hu : o.SliceMode = UniteSlice)
    (hdt : dst.typ = .ok T) (hel : T.elem = some te)
    (hrun : mergeSlice dst src o h = .ok () h1) :
    ∃ a, dst.load h = .ok (.slice a) := by
  rw [mergeSlice_unite_eq dst src h hu hdt hel] at hrun
  split at hrun
  · cases hap : AppendSlice dst src h with
    | error f => simp [hap] at hrun
    | ok v => exact AppendSlice_load hap
  · cases hse : sliceElems dst h with
    | error f => simp [hse] at hrun
    | ok l => exact sliceElems_load hse

/-- What `mergeSlice` does in the slice mode Unite to two slices. -/
theorem mergeSlice_unite {dst src : Value} {o : Options} {T te : Ty}
    {g : Heap} {a b : Option (List Val)} (hu : o.SliceMode = UniteSlice)
    (hdt : dst.typ = .ok T) (hst : src.typ = .ok T) (hk : T.kind = .Slice)
    (hel : T.elem = some te) (hdl : dst.load g = .ok (.slice a))
    (hsl : src.load g = .ok (.slice b)) :
    mergeSlice dst src o g =
      match uniteOut te a b with
      | none => .ok () g
      | some R => directMerge dst (.direct T (.slice R)) o g := by
  have hdk : dst.kind = .Slice := by rw [Value.kind_of_typ hdt]; exact hk
  have hsk : src.kind = .Slice := by rw [Value.kind_of_typ hst]; exact hk
  rw [mergeSlice_unite_eq dst src g hu hdt hel]
  unfold uniteOut
  by_cases hfb : (!hashable te || decide (te.kind = .Bool)) = true
  · rw [if_pos hfb, if_pos hfb]
    simp only [AppendSlice, hdk, hsk, hdl, hsl, hdt, hst, if_true]
    cases a <;> cases hb : b.getD [] <;> rfl
  · rw [if_neg hfb, if_neg hfb]
    simp only [sliceElems, hdk, hsk, hdl, hsl]
    by_cases hpos : ((b.getD []).filter
        (fun key => !((a.getD []).any (fun e => keyEq e key)))).length > 0
    · rw [if_pos hpos, if_pos hpos]
      simp only [Append, hdk, hdl, hdt]
      cases a <;>
        cases hb : (b.getD []).filter
          (fun key => !((Option.getD _ []).any (fun e => keyEq e key))) <;>
        rfl
    · rw [if_neg hpos, if_neg hpos]

/-- Running Unite again on its own outcome: nothing is assigned, or the same
slice. -/
theorem uniteOut_again {T te : Ty} {a b R : Option (List Val)}
    (hel : T.elem = some te) (hsafe : uniteSafe T b = true)
    (hR : uniteOut te a b = some R) :
    uniteOut te R b = none ∨ uniteOut te R b = some R := by
  unfold uniteOut at hR ⊢
  cases b with
  | none =>
    by_cases hfb : (!hashable te || decide (te.kind = .Bool)) = true
    · simp only [hfb, if_true, Option.getD_none, Option.some.injEq] at hR ⊢
      subst hR
      cases a <;> simp [appendOut]
    · simp [hfb] at hR
  | some l =>
    simp only [uniteSafe, hel, Bool.or_eq_true, Bool.and_eq_true,
      List.isEmpty_iff] at hsafe
    by_cases hfb : (!hashable te || decide (te.kind = .Bool)) = true
    · rcases hsafe with rfl | hsafe
      · simp only [hfb, if_true, Option.getD_some, Option.some.injEq] at hR ⊢
        subst hR
        cases a <;> simp [appendOut]
      · exfalso
        simp only [Bool.or_eq_true, Bool.not_eq_true', decide_eq_true_eq]
          at hfb
        simp only [Bool.not_eq_true', decide_eq_false_iff_not] at hsafe
        rcases hfb with hfb | hfb
        · rw [hsafe.1.1] at hfb; cases hfb
        · exact hsafe.1.2 hfb
    · left
      simp only [hfb, if_false, Option.getD_some, Bool.false_eq_true] at hR ⊢
      split at hR
      · injection hR with hR
        subst hR
        have hall : ∀ e ∈ l, keyEq e e = true := by
          rcases hsafe with rfl | hsafe
          · intro e he; cases he
          · exact List.all_eq_true.mp hsafe.2
        have hnone : l.filter (fun key => !((Option.getD
            (appendOut a (l.filter (fun key =>
              !((a.getD []).any (fun e => keyEq e key))))) []).any
            (fun e => keyEq e key))) = [] := by
          rw [List.filter_eq_nil_iff]
          intro e he
          have hap : ∀ xs : List Val, xs ≠ [] →
              Option.getD (appendOut a xs) [] = a.getD [] ++ xs := by
            intro xs hxs
            cases a <;> cases xs <;> simp_all [appendOut]
          rename_i hpos
          rw [hap _ (by intro h0; rw [h0] at hpos; simp at hpos)]
          simp only [Bool.not_eq_true', Bool.not_eq_false, List.any_append,
            Bool.or_eq_true, List.any_eq_true]
          by_cases hin : ∃ x ∈ a.getD [], keyEq x e = true
          · exact Or.inl hin
          · refine Or.inr ⟨e, List.mem_filter.mpr ⟨he, ?_⟩, hall e he⟩
            simp only [Bool.not_eq_true', List.any_eq_false]
            intro x hx
            simpa using fun hke => hin ⟨x, hx, hke⟩
        simp [hnone]
      · cases hR

/-- Unite onto a nil slice for a source that is not empty gives the source. -/
theorem uniteOut_fresh (te : Ty) {l : List Val} (hl : l ≠ []) :
    uniteOut te none (some l) = some (some l) := by
  unfold uniteOut
  have hf : l.filter (fun key =>
      !(([] : List Val).any (fun e => keyEq e key))) = l := by
    simp
  have hap : appendOut none l = some l := by
    cases l with
    | nil => exact absurd rfl hl
    | cons x xs => rfl
  by_cases hfb : (!hashable te || decide (te.kind = .Bool)) = true
  · simp only [hfb, if_true, Option.getD_some, hap]
  · simp only [hfb, if_false, Option.getD_some, Option.getD_none, hf, hap,
      Bool.false_eq_true]
    have : l.length > 0 := List.length_pos.mpr hl
    simp [this]

/-- Unite of a slice with itself assigns nothing, or the slice itself. -/
theorem uniteOut_self {T te : Ty} {l : List Val} (hel : T.elem = some te)
    (hsafe : uniteSafe T (some l) = true) :
    uniteOut te (some l) (some l) = none ∨
      uniteOut te (some l) (some l) = some (some l) := by
  unfold uniteOut
  simp only [uniteSafe, hel, Bool.or_eq_true, Bool.and_eq_true,
    List.isEmpty_iff] at hsafe
  by_cases hfb : (!hashable te || decide (te.kind = .Bool)) = true
  · rcases hsafe with rfl | hsafe
    · right
      simp [hfb, appendOut]
    · exfalso
      simp only [Bool.or_eq_true, Bool.not_eq_true', decide_eq_true_eq] at hfb
      simp only [Bool.not_eq_true', decide_eq_false_iff_not] at hsafe
      rcases hfb with hfb | hfb
      · rw [hsafe.1.1] at hfb; cases hfb
      · exact hsafe.1.2 hfb
  · left
    have hall : ∀ e ∈ l, keyEq e e = true := by
      rcases hsafe with rfl | hsafe
      · intro e he; cases he
      · exact List.all_eq_true.mp hsafe.2
    have hnone : l.filter (fun key =>
        !(l.any (fun e => keyEq e key))) = [] := by
      rw [List.filter_eq_nil_iff]
      intro e he
      simp only [Bool.not_eq_true', Bool.not_eq_false, List.any_eq_true]
      exact ⟨e, he, hall e he⟩
    simp [hfb, hnone]

/-- Under `Overwrite`, `directMerge` of a copy of the value the destination
holds changes nothing. -/
theorem directMerge_same {o : Options} {v : Value} {g : Heap} {x : Val}
    {T : Ty} (hk : T.kind ≠ .Interface) (hvt : v.typ = .ok T)
    (hl : v.load g = .ok x) :
    directMerge v (.direct T x) o g = .ok () g := by
  cases v with
  | invalid => simp [Value.typ] at hvt
  | direct t y =>
    simp only [Value.typ_direct, Except.ok.injEq] at hvt
    subst hvt
    rw [directMerge_eq]
    simp [derefInterface_of_not_iface, hk, Value.kind, Value.IsValid,
      Value.typ, Value.CanSet]
  | addr t a q =>
    simp only [Value.typ_addr, Except.ok.injEq] at hvt
    subst hvt
    simp only [Value.load] at hl
    cases hr : g.read a q with
    | none => simp [hr] at hl
    | some y =>
      simp only [hr, Except.ok.injEq] at hl
      subst hl
      obtain ⟨h', hw, he⟩ := directMerge_addr o hk
        (show (Value.direct t y).typ = .ok t from rfl) rfl hr
      rw [he]
      rw [Heap.write_read_self hr] at hw
      injection hw with hw
      subst hw
      simp

/-- Under `Overwrite`, a successful `directMerge` of a value of the type of
the destination leaves a settable destination with the value. -/
theorem directMerge_sets {o : Options} (ho : o.Overwrite = true) {T : Ty}
    {a : Nat} {q : List Nat} {g g1 : Heap} {x y : Val}
    (hk : T.kind ≠ .Interface) (hr : g.read a q = some y)
    (hrun : directMerge (.addr T a q) (.direct T x) o g = .ok () g1) :
    g1.read a q = some x := by
  obtain ⟨h', hw, he⟩ := directMerge_addr o hk
    (show (Value.direct T x).typ = .ok T from rfl) rfl hr
  rw [he] at hrun
  simp only [ho, true_or, if_true] at hrun
  injection hrun with _ hrun
  subst hrun
  exact Heap.read_write hw

/-- The slice case of `deepMerge` in a slice mode other than Append: the
frame, and the second run. -/
theorem slice_main {H : Host} {m : porter} {o : Options} {n : Nat}
    (ho : o.Overwrite = true)
    {σ : Shape} {π : List Step} {dst src : Value} {T : Ty} {h h1 : Heap}
    (hm : ModeOk o σ)
    (hk : T.kind = .Slice) (hreg : tableLookup T m.mergeFuncs = none)
    (hdt : dst.typ = .ok T) (hst : src.typ = .ok T)
    (hok : SrcOk h σ) (hd : DstAt h σ π dst) (hs : SrcIn σ src)
    (hrun : m.deepMerge H (n + 1) dst src o h = .ok () h1) :
    Frame h h1 σ π dst ∧
      Settled σ π dst h h1 (fun k => m.deepMerge H k dst src o) := by
  rw [deepMerge_slice H m n o hk hreg hdt hst] at hrun
  cases hsn : src.IsNil h with
  | error e => simp [hsn] at hrun
  | ok b =>
    cases b with
    | true =>
      simp only [hsn] at hrun
      injection hrun with _ hrun
      subst hrun
      refine ⟨frame_refl _ _ _ _, 1, fun g hag k hk' => ⟨g, ?_, quiet_refl g⟩⟩
      obtain ⟨j, rfl⟩ : ∃ j, k = j + 1 := ⟨k - 1, by omega⟩
      have hsg := agree_src hok hd hs (frame_refl _ _ _ _) hag
      exact deepMerge_nil_source H m j o (Or.inr (Or.inl hk)) hreg hdt
        hst (by rw [sameAt_isNil hsg]; exact hsn)
    | false =>
      simp only [hsn] at hrun
      by_cases hu : o.SliceMode = UniteSlice
      · -- the slice mode Unite
        obtain ⟨x, d, nn, hxl, hxt⟩ := srcIn_load hok hs hst
        obtain ⟨es, rfl, hel, hsafe⟩ := typed_slice hk hxt
        obtain ⟨te, hte⟩ := Option.isSome_iff_exists.mp hel
        obtain ⟨a, hdl⟩ := mergeSlice_unite_load hu hdt hte hrun
        have hki : T.kind ≠ .Interface := by rw [hk]; decide
        rw [mergeSlice_unite hu hdt hst hk hte hdl hxl] at hrun
        have hrun2 : ∀ g a', SameAt g h src → dst.load g = .ok (.slice a') →
            ∀ j, m.deepMerge H (j + 1) dst src o g =
              match uniteOut te a' es with
              | none => .ok () g
              | some R => directMerge dst (.direct T (.slice R)) o g := by
          intro g a' hsg hdg j
          rw [deepMerge_slice H m j o hk hreg hdt hst, sameAt_isNil hsg, hsn]
          simp only []
          exact mergeSlice_unite hu hdt hst hk hte hdg
            (by rw [sameAt_load hsg]; exact hxl)
        cases hplan : uniteOut te a es with
        | none =>
          simp only [hplan] at hrun
          injection hrun with _ hrun
          subst hrun
          refine ⟨frame_refl _ _ _ _, 1, fun g hag k hk' =>
            ⟨g, ?_, quiet_refl g⟩⟩
          obtain ⟨j, rfl⟩ : ∃ j, k = j + 1 := ⟨k - 1, by omega⟩
          have hsg := agree_src hok hd hs (frame_refl _ _ _ _) hag
          show m.deepMerge H (j + 1) dst src o g = .ok () g
          rw [hrun2 g a hsg (by rw [sameAt_load (agree_dst hag)]; exact hdl) j,
            hplan]
        | some R =>
          simp only [hplan] at hrun
          have hfr := directMerge_frame hrun σ π
          refine ⟨hfr, 1, fun g hag k hk' => ⟨g, ?_, quiet_refl g⟩⟩
          obtain ⟨j, rfl⟩ : ∃ j, k = j + 1 := ⟨k - 1, by omega⟩
          have hsg := agree_src hok hd hs hfr hag
          have hdg := agree_dst hag
          have htw : directMerge dst (.direct T (.slice R)) o g = .ok () g :=
            directMerge_twice ho hrun trivial hdg
          show m.deepMerge H (j + 1) dst src o g = .ok () g
          cases hdst : dst with
          | invalid => rw [hdst] at hdt; simp [Value.typ] at hdt
          | direct t y =>
            rw [hdst] at hdl hrun2 htw
            rw [hrun2 g a hsg hdl j, hplan]
            exact htw
          | addr t c q =>
            rw [hdst] at hdl hrun2 htw hrun hdg hdt
            simp only [Value.typ_addr, Except.ok.injEq] at hdt
            subst hdt
            simp only [Value.load] at hdl
            cases hr : h.read c q with
            | none => simp [hr] at hdl
            | some y =>
              have h1r := directMerge_sets ho hki hr hrun
              have hgl : (Value.addr t c q).load g = .ok (.slice R) := by
                have hdg' : g.read c q = h1.read c q := hdg
                simp only [Value.load, hdg', h1r]
              rw [hrun2 g R hsg hgl j]
              rcases uniteOut_again hte
                (hsafe (hm.2 hu)) hplan with hn | hsame
              · rw [hn]
              · rw [hsame]
                exact htw
      · -- another slice mode, which replaces
        rw [mergeSlice_plain dst src hm.1 hu] at hrun
        have hfr := directMerge_frame hrun σ π
        refine ⟨hfr, 1, fun g hag k hk' => ⟨g, ?_, quiet_refl g⟩⟩
        obtain ⟨j, rfl⟩ : ∃ j, k = j + 1 := ⟨k - 1, by omega⟩
        have hsg := agree_src hok hd hs hfr hag
        show m.deepMerge H (j + 1) dst src o g = .ok () g
        rw [deepMerge_slice H m j o hk hreg hdt hst, sameAt_isNil hsg, hsn]
        simp only [mergeSlice_plain dst src hm.1 hu]
        exact directMerge_twice ho hrun hsg (agree_dst hag)

/-! ## Merging twice: values of the source merged into themselves and into new cells -/

/-- Under `Overwrite`, `directMerge` of a value onto itself changes nothing. -/
theorem directMerge_self {o : Options} (ho : o.Overwrite = true) {v : Value}
    {g : Heap} {x : Val} {T : Ty} (hvt : v.typ = .ok T)
    (hl : v.load g = .ok x)
    (hx : T.kind = .Interface → ∃ t' v', x = .iface (some (t', v')) ∧
      t'.kind ≠ .Interface) :
    directMerge v v o g = .ok () g := by
  rw [directMerge_eq]
  obtain ⟨e, te, xe, hde, hte, hset⟩ : ∃ e te xe,
      derefInterface v g = .ok e ∧ e.typ = .ok te ∧
      (v.CanSet = true → e.load g = .ok xe ∧ assignable T te = true ∧
        assignTo T te xe = x) := by
    by_cases hk : T.kind = .Interface
    · obtain ⟨t', v', rfl, ht'⟩ := hx hk
      have hdd : derefDirect T (.iface (some (t', v'))) =
          .ok (.direct t' v') := by
        simp only [derefDirect, hk, if_true]
        exact derefDirect_of_not_iface v' ht'
      refine ⟨.direct t' v', t', v', ?_, rfl, fun _ => ⟨rfl, by
        simp [assignable, hk], by simp [assignTo, hk, ht']⟩⟩
      cases v with
      | invalid => simp [Value.typ] at hvt
      | direct t0 x0 =>
        simp only [Value.typ_direct, Except.ok.injEq] at hvt
        simp only [Value.load_direct, Except.ok.injEq] at hl
        subst hvt hl
        exact hdd
      | addr t0 a q =>
        simp only [Value.typ_addr, Except.ok.injEq] at hvt
        subst hvt
        simp only [Value.load] at hl
        cases hr : g.read a q with
        | none => simp [hr] at hl
        | some y =>
          simp only [hr, Except.ok.injEq] at hl
          subst hl
          simp only [derefInterface, hk, if_true, hr]
          exact hdd
    · have hvk : v.kind ≠ .Interface := by
        rw [Value.kind_of_typ hvt]; exact hk
      exact ⟨v, T, x, derefInterface_of_not_iface g hvk, hvt,
        fun _ => ⟨hl, assignable_self T, assignTo_self x hk⟩⟩
  have hv : e.IsValid = true := Value.IsValid_of_typ hte
  simp only [hde, hv, Bool.true_eq_false, if_false, hte, ne_eq,
    not_true_eq_false, ho, Bool.true_or, if_true]
  cases v with
  | invalid => simp [Value.typ] at hvt
  | direct t0 x0 => simp [Value.CanSet]
  | addr t0 a q =>
    simp only [Value.typ_addr, Except.ok.injEq] at hvt
    subst hvt
    obtain ⟨h1, h2, h3⟩ := hset rfl
    simp only [Value.load] at hl
    cases hr : g.read a q with
    | none => simp [hr] at hl
    | some y =>
      simp only [hr, Except.ok.injEq] at hl
      subst hl
      simp [Value.CanSet, Value.Set, hte, h1, h2, h3, Heap.write_read_self hr]

theorem zero_slice : ∀ (t : Ty), t.kind = .Slice → t.elem.isSome = true →
    t.zero = .slice none
  | .basic k, hk, he => by simp [Ty.elem, Ty.underlying] at he
  | .named _ u, hk, he => by
    simp only [Ty.zero]
    exact zero_slice u hk (by simpa [Ty.elem, Ty.underlying] using he)
  | .array _ _, hk, _ => by simp [Ty.kind] at hk
  | .chan _, hk, _ => by simp [Ty.kind] at hk
  | .func _ _, hk, _ => by simp [Ty.kind] at hk
  | .iface, hk, _ => by simp [Ty.kind] at hk
  | .map _ _, hk, _ => by simp [Ty.kind] at hk
  | .ptr _, hk, _ => by simp [Ty.kind] at hk
  | .slice _, _, _ => by simp [Ty.zero]
  | .struct _, hk, _ => by simp [Ty.kind] at hk

/-- A write to a cell just allocated. -/
theorem write_alloc_new (g : Heap) (z x : Val) :
    (g.alloc z).1.write g.cells.length [] x =
      some ⟨g.cells ++ [x], g.maps⟩ := by
  simp [Heap.alloc, Heap.write, Val.setPath]

theorem load_alloc_iff {g : Heap} {v : Value} (z : Val)
    (hlt : ∀ t a q, v = .addr t a q → a < g.cells.length) :
    v.load (g.alloc z).1 = v.load g := by
  cases v with
  | invalid => rfl
  | direct t x => rfl
  | addr t a q =>
    simp only [Value.load, Heap.read, Heap.alloc,
      List.getElem?_append_left (hlt t a q rfl)]

/-- The function `directMerge` under `Overwrite` onto a cell just allocated, of a type that
is not an interface type, from a source of the same type: the cell takes the
value of the source. -/
theorem directMerge_fresh {o : Options} (ho : o.Overwrite = true) {te : Ty}
    (hk : te.kind ≠ .Interface) {s : Value} {g : Heap} {sv : Val} (z : Val)
    (hst : s.typ = .ok te) (hsl : s.load g = .ok sv)
    (hlt : ∀ t a q, s = .addr t a q → a < g.cells.length) :
    directMerge (.addr te g.cells.length []) s o (g.alloc z).1 =
      .ok () ⟨g.cells ++ [sv], g.maps⟩ := by
  have hsl' : s.load (g.alloc z).1 = .ok sv := by
    rw [load_alloc_iff z hlt]; exact hsl
  obtain ⟨h', hw, he⟩ := directMerge_addr o hk hst hsl'
    (Heap.read_alloc_new g z)
  rw [he, write_alloc_new] at *
  simp only [ho, true_or, if_true]
  injection hw with hw
  rw [hw]

theorem mergedInPlace_false {k : Kind} (hk : mergedInPlace k = false) :
    k ≠ .Struct ∧ k ≠ .Ptr ∧ k ≠ .Map := by
  cases k <;> simp [mergedInPlace] at hk ⊢

/-- Merging a value of the source into a cell just allocated, for a type whose
values are not merged in place: the cell takes the value (in the slice mode
Unite, unless the value is an empty slice that is not nil). -/
theorem copy_main (H : Host) (m : porter) {o : Options}
    (ho : o.Overwrite = true) {σ : Shape} (hm : ModeOk o σ)
    (hmf : m.mergeFuncs = []) {d : Bool} {N : Nat} {te : Ty}
    {x : Val} (hip : mergedInPlace te.kind = false)
    (hki : te.kind ≠ .Interface) (hx : x.typed σ d N te = true)
    (hne : o.SliceMode = UniteSlice → x ≠ .slice (some [])) (g : Heap)
    (j : Nat) :
    m.deepMerge H (j + 1) (.addr te g.cells.length []) (.direct te x) o
      (g.alloc te.zero).1 = .ok () ⟨g.cells ++ [x], g.maps⟩ := by
  obtain ⟨h1, h2, h3⟩ := mergedInPlace_false hip
  have hreg : tableLookup te m.mergeFuncs = none := by
    rw [hmf]; rfl
  have hdm : ∀ y, directMerge (.addr te g.cells.length []) (.direct te y) o
      (g.alloc te.zero).1 = .ok () ⟨g.cells ++ [y], g.maps⟩ := fun y =>
    directMerge_fresh ho hki (s := .direct te y) (g := g) te.zero rfl
      rfl (fun t a q he => by cases he)
  by_cases hs : te.kind = .Slice
  · obtain ⟨es, rfl, hel, _⟩ := typed_slice hs hx
    rw [deepMerge_slice H m j o hs hreg
      (show (Value.addr te g.cells.length []).typ = .ok te from rfl)
      (show (Value.direct te (.slice es)).typ = .ok te from rfl)]
    cases es with
    | none =>
      simp only [Value.IsNil, Value.kind, hs, Value.load_direct,
        Option.isNone_none]
      simp [Heap.alloc, zero_slice te hs hel]
    | some es =>
      simp only [Value.IsNil, Value.kind, hs, Value.load_direct,
        Option.isNone_some]
      by_cases hu : o.SliceMode = UniteSlice
      · obtain ⟨ty, hty⟩ := Option.isSome_iff_exists.mp hel
        have hes : es ≠ [] := fun he => hne hu (by rw [he])
        rw [mergeSlice_unite hu
          (show (Value.addr te g.cells.length []).typ = .ok te from rfl)
          (show (Value.direct te (.slice (some es))).typ = .ok te from rfl)
          hs hty
          (show (Value.addr te g.cells.length []).load (g.alloc te.zero).1 =
            .ok (.slice none) by
            simp [Value.load, Heap.read_alloc_new, zero_slice te hs hel])
          (show (Value.direct te (.slice (some es))).load (g.alloc te.zero).1 =
            .ok (.slice (some es)) from rfl),
          uniteOut_fresh ty hes]
        exact hdm _
      · rw [mergeSlice_plain _ _ hm.1 hu]
        exact hdm _
  · rw [deepMerge_other_kind H m j o h1 h3 hs h2 hki hreg
      (show (Value.addr te g.cells.length []).typ = .ok te from rfl)
      (show (Value.direct te x).typ = .ok te from rfl)]
    exact hdm _

/-- In a map object with distinct keys, every entry is found under its key. -/
theorem mapLookup_of_mem : ∀ {mo : List (Key × Val)} {e : Key × Val},
    (mo.map Prod.fst).Nodup → e ∈ mo → mapLookup e.1 mo = some e.2
  | [], e, _, he => by simp at he
  | (k1, v1) :: mo, e, hn, he => by
    simp only [List.map_cons, List.nodup_cons] at hn
    rcases List.mem_cons.mp he with rfl | he2
    · simp [mapLookup]
    · have hne : k1 ≠ e.1 := by
        intro hk1
        exact hn.1 (hk1 ▸ List.mem_map_of_mem Prod.fst he2)
      simp only [mapLookup, hne, if_false]
      exact mapLookup_of_mem hn.2 he2

theorem setMap_self {g : Heap} {r : Nat} {mo : List (Key × Val)}
    (hr : g.maps[r]? = some mo) : g.setMap r mo = g := by
  cases g with
  | mk cells maps =>
    simp only [Heap.setMap, Heap.mk.injEq, true_and]
    exact list_set_self hr

/-- The entry of a map handle under a key, behind its interface layers. -/
theorem mapEntry_eq {v : Value} {g : Heap} {T E : Ty} {r : Nat}
    {mo : List (Key × Val)} (hk : T.kind = .Map) (hvt : v.typ = .ok T)
    (hE : T.elem = some E) (hl : v.load g = .ok (.map (some r)))
    (hr : g.maps[r]? = some mo) (k : Key) :
    mapEntry v k g = match mapLookup k mo with
      | some y => derefDirect E y
      | none => .ok .invalid := by
  simp only [mapEntry, Value.MapIndex, Value.kind_of_typ hvt, hk, hl, hvt, hr,
    hE]
  cases mapLookup k mo with
  | none => rfl
  | some y => rfl

theorem setMapIndex_erase {v : Value} {g : Heap} {T : Ty} {r : Nat}
    {mo : List (Key × Val)} (hk : T.kind = .Map) (hvt : v.typ = .ok T)
    (hl : v.load g = .ok (.map (some r)))
    (hr : g.maps[r]? = some mo) (k : Key) :
    v.SetMapIndex k .invalid g = .ok (g.setMap r (mapErase k mo)) := by
  simp only [Value.SetMapIndex, Value.kind_of_typ hvt, hk, hl, hvt, hr]

theorem setMapIndex_insert {v e : Value} {g : Heap} {T E te : Ty} {r : Nat}
    {mo : List (Key × Val)} {x : Val} (hk : T.kind = .Map)
    (hvt : v.typ = .ok T) (hE : T.elem = some E)
    (hl : v.load g = .ok (.map (some r)))
    (hr : g.maps[r]? = some mo) (k : Key) (het : e.typ = .ok te)
    (hel : e.load g = .ok x) :
    v.SetMapIndex k e g =
      if assignable E te then
        .ok (g.setMap r (mapInsert k (assignTo E te x) mo))
      else .error (.panic (.notAssignable te E)) := by
  cases e with
  | invalid => simp [Value.typ] at het
  | direct t0 x0 =>
    simp only [Value.SetMapIndex, Value.kind_of_typ hvt, hk, hl, hvt, hr, het,
      hel, hE]
  | addr t0 a q =>
    simp only [Value.SetMapIndex, Value.kind_of_typ hvt, hk, hl, hvt, hr, het,
      hel, hE]

/-- The step of the key loop for a key that the destination does not hold. -/
theorem mergeMapKey_absent_eq (H : Host) (m : porter) (n : Nat)
    (dm : Value → Value → Options → M Unit) {dst src : Value} (o : Options)
    {key : Key} {g : Heap} {sE : Value}
    (hse : mapEntry src key g = .ok sE)
    (hde : mapEntry dst key g = .ok .invalid) :
    mergeMapKey H m n dm dst src o key g =
      M.upd (dst.SetMapIndex key sE) g := by
  simp [mergeMapKey, hse, hde, Value.IsValid]

/-- The step of the key loop for a key that the destination holds. -/
theorem mergeMapKey_present_eq (H : Host) (m : porter) (n : Nat)
    (dm : Value → Value → Options → M Unit) {dst src : Value} (o : Options)
    {key : Key} {g : Heap} {sE dE : Value} {sET dET : Ty}
    (hse : mapEntry src key g = .ok sE)
    (hde : mapEntry dst key g = .ok dE)
    (hst : sE.typ = .ok sET) (hdt : dE.typ = .ok dET) :
    mergeMapKey H m n dm dst src o key g =
      if mergedInPlace dET.kind = true then
        (if dET ≠ sET then m.convert H n dm dE sE o else dm dE sE o) g
      else
        match (if dET ≠ sET then
            m.convert H n dm (.addr dET g.cells.length []) sE o
          else dm (.addr dET g.cells.length []) sE o) (g.alloc dET.zero).1 with
        | .ok _ g1 =>
          if (o.Overwrite || isEmptyValue g dE) = true then
            M.upd (dst.SetMapIndex key (.addr dET g.cells.length [])) g1
          else .ok () g1
        | .fail e g1 => .fail e g1 := by
  have hv : dE.IsValid = true := Value.IsValid_of_typ hdt
  simp only [mergeMapKey, M.bind_apply, M.rd_apply, hse, hde, hv,
    Bool.not_true, Bool.false_eq_true, if_false, hst, hdt]
  have hb : ∀ (x : M Unit) (g0 : Heap),
      (x >>= fun _ => (pure () : M Unit)) g0 = x g0 := by
    intro x g0
    simp only [M.bind_apply]
    cases x g0 <;> rfl
  by_cases hip : mergedInPlace dET.kind = true
  · simp only [hip, if_true, M.pure_apply, M.bind_apply]
    by_cases hne : dET = sET
    · simp only [hne, ne_eq, not_true_eq_false, if_false]
      exact hb _ g
    · simp only [hne, ne_eq, not_false_eq_true, if_true]
      exact hb _ g
  · simp only [hip, Bool.false_eq_true, if_false, M.bind_apply,
      newElem_apply]
    by_cases hne : dET = sET
    · simp only [hne, ne_eq, not_true_eq_false, if_false, M.bind_apply]
      cases dm (.addr sET g.cells.length []) sE o (g.alloc sET.zero).1 with
      | fail e g1 => rfl
      | ok u g1 =>
        simp only []
        split <;> rfl
    · simp only [hne, ne_eq, not_false_eq_true, if_true, M.bind_apply]
      cases m.convert H n dm (.addr dET g.cells.length []) sE o
          (g.alloc dET.zero).1 with
      | fail e g1 => rfl
      | ok u g1 =>
        simp only []
        split <;> rfl

/-- The map case of `deepMerge` on two maps that are not nil. -/
theorem deepMerge_map_step (H : Host) (m : porter) (j : Nat) (o : Options)
    {T : Ty} {dst src : Value} {g : Heap} {keys : List Key}
    (hk : T.kind = .Map) (hreg : tableLookup T m.mergeFuncs = none)
    (hdt : dst.typ = .ok T) (hst : src.typ = .ok T)
    (hsn : src.IsNil g = .ok false) (hdn : dst.IsNil g = .ok false)
    (hkeys : src.MapKeys g = .ok keys) :
    m.deepMerge H (j + 1) dst src o g =
      mergeMapKeys H m j (m.deepMerge H j) dst src o keys g := by
  simp [porter.deepMerge, porter.deepMergeBody, hdt, hst, hreg,
    Value.kind_of_typ hdt, hk, hsn, hdn, hkeys]

theorem holds_typ {σ : Shape} {h : Heap} {v : Value} {t : Ty} {x : Val}
    (hh : Holds σ h v t x) : v.typ = .ok t := by
  rcases hh with rfl | ⟨s, q, rfl, _, _⟩ <;> rfl

theorem holds_load {σ : Shape} {h g : Heap} {v : Value} {t : Ty} {x : Val}
    (hh : Holds σ h v t x) (hss : SrcSame σ h g) : v.load g = .ok x := by
  rcases hh with rfl | ⟨s, q, rfl, hs, hr⟩
  · rfl
  · simp only [Value.load, read_of_cells (hss.1 s hs) q, hr]

theorem holds_lt {σ : Shape} {h g : Heap} (hok : SrcOk h σ) {v : Value}
    {t : Ty} {x : Val} (hh : Holds σ h v t x) (hss : SrcSame σ h g) :
    ∀ t' a q, v = .addr t' a q → a < g.cells.length := by
  intro t' a q hv
  rcases hh with rfl | ⟨s, q', rfl, hs, hr⟩
  · cases hv
  · injection hv with _ hv _
    subst hv
    have := hss.1 s hs
    have hlt : s < h.cells.length :=
      Nat.lt_of_lt_of_le (hok.src_lt s hs) hok.bound_le
    rw [List.getElem?_eq_getElem hlt] at this
    exact (List.getElem?_eq_some_iff.mp this).1

theorem srcSame_quiet {σ : Shape} {h g g' : Heap} (hok : SrcOk h σ)
    (hss : SrcSame σ h g) (hq : Quiet g g') : SrcSame σ h g' := by
  refine ⟨fun c hc => ?_, fun r hr => by rw [hq.2]; exact hss.2 r hr⟩
  have hlt : c < h.cells.length :=
    Nat.lt_of_lt_of_le (hok.src_lt c hc) hok.bound_le
  have h1 := hss.1 c hc
  have hcg : c < g.cells.length := by
    rw [List.getElem?_eq_getElem hlt] at h1
    exact (List.getElem?_eq_some_iff.mp h1).1
  rw [quiet_cell hq hcg]
  exact h1

/-- The field loop of a struct merged into itself. -/
theorem self_fields {H : Host} {m : porter} {o : Options} {σ : Shape}
    {h : Heap} (hok : SrcOk h σ) (v : Value) :
    ∀ (is : List Nat),
      (∀ i ∈ is, ∃ vf, v.Field i = .ok vf ∧ SelfOk H m o σ h vf) →
      ∃ n0, ∀ g, SrcSame σ h g → ∀ k, n0 ≤ k →
        ∃ g', mergeFields (m.deepMerge H k) v v o is g = .ok () g' ∧
          Quiet g g'
  | [], _ => ⟨0, fun g _ k _ => ⟨g, rfl, quiet_refl g⟩⟩
  | i :: is, hall => by
    obtain ⟨vf, hvf, n1, h1⟩ := hall i (List.mem_cons_self _ _)
    obtain ⟨n2, h2⟩ := self_fields hok v is
      (fun j hj => hall j (List.mem_cons_of_mem _ hj))
    refine ⟨max n1 n2, fun g hss k hk => ?_⟩
    obtain ⟨g1, hg1, hq1⟩ := h1 g hss k (by omega)
    obtain ⟨g2, hg2, hq2⟩ := h2 g1 (srcSame_quiet hok hss hq1) k (by omega)
    exact ⟨g2, by rw [mergeFields_cons_eval hvf hvf hg1]; exact hg2,
      quiet_trans hq1 hq2⟩

/-- The key loop of a map merged into itself. -/
theorem self_keys {H : Host} {m : porter} {o : Options} {σ : Shape}
    {h : Heap} (hok : SrcOk h σ) (v : Value) :
    ∀ (ks : List Key),
      (∀ key ∈ ks, ∃ n0, ∀ g, SrcSame σ h g → ∀ j, n0 ≤ j →
        ∃ g', mergeMapKey H m j (m.deepMerge H j) v v o key g = .ok () g' ∧
          Quiet g g') →
      ∃ n0, ∀ g, SrcSame σ h g → ∀ j, n0 ≤ j →
        ∃ g', mergeMapKeys H m j (m.deepMerge H j) v v o ks g = .ok () g' ∧
          Quiet g g'
  | [], _ => ⟨0, fun g _ k _ => ⟨g, rfl, quiet_refl g⟩⟩
  | key :: ks, hall => by
    obtain ⟨n1, h1⟩ := hall key (List.mem_cons_self _ _)
    obtain ⟨n2, h2⟩ := self_keys hok v ks
      (fun j hj => hall j (List.mem_cons_of_mem _ hj))
    refine ⟨max n1 n2, fun g hss k hk => ?_⟩
    obtain ⟨g1, hg1, hq1⟩ := h1 g hss k (by omega)
    obtain ⟨g2, hg2, hq2⟩ := h2 g1 (srcSame_quiet hok hss hq1) k (by omega)
    refine ⟨g2, ?_, quiet_trans hq1 hq2⟩
    simp only [mergeMapKeys, M.bind_apply, hg1]
    exact hg2

/-- What an entry of a map object of the source holds behind its interface
layers: a value of a concrete type, which the entry is the assignment of. -/
theorem entry_deref {σ : Shape} {N : Nat} {E : Ty} {y : Val}
    (hy : y.typed σ true N E = true)
    (hnn : E.kind = .Interface → y ≠ .iface none) :
    ∃ te x, derefDirect E y = .ok (.direct te x) ∧ te.kind ≠ .Interface ∧
      x.typed σ true N te = true ∧ assignable E te = true ∧
      assignTo E te x = y := by
  by_cases hk : E.kind = .Interface
  · rcases typed_iface hk hy with rfl | ⟨t', v', rfl, ht', hv'⟩
    · exact absurd rfl (hnn hk)
    · refine ⟨t', v', ?_, ht', hv', by simp [assignable, hk],
        by simp [assignTo, hk, ht']⟩
      simp only [derefDirect, hk, if_true]
      exact derefDirect_of_not_iface v' ht'
  · exact ⟨E, y, derefDirect_of_not_iface y hk, hk, hy, assignable_self E,
      assignTo_self y hk⟩

theorem emptySlice_assignTo (E te : Ty) :
    emptySlice (assignTo E te (.slice (some []))) = true := by
  unfold assignTo
  split <;> rfl

/-- The step of the key loop of a map of the source merged into itself: the
entry is merged into itself, or copied and stored again. -/
theorem self_key {H : Host} {m : porter} {o : Options}
    (ho : o.Overwrite = true) {σ : Shape} (hm : ModeOk o σ)
    (hmf : m.mergeFuncs = []) {h : Heap} (hok : SrcOk h σ)
    {v : Value} {T : Ty} {r : Nat} {mo : List (Key × Val)}
    (hk : T.kind = .Map) (hE : T.elem = some (σ.mapTy r))
    (hh : Holds σ h v T (.map (some r))) (hsr : σ.srcMap r = true)
    (hmo : h.maps[r]? = some mo) (hdeep : σ.deepM r = true)
    (hin : ∀ te x', x'.typed σ true (σ.rankM r) te = true →
      SelfOk H m o σ h (.direct te x'))
    {e : Key × Val} (he : e ∈ mo) :
    ∃ n0, ∀ g, SrcSame σ h g → ∀ j, n0 ≤ j →
      ∃ g', mergeMapKey H m j (m.deepMerge H j) v v o e.1 g = .ok () g' ∧
        Quiet g g' := by
  obtain ⟨hnd, hent⟩ := hok.map_typed r mo hsr hmo
  obtain ⟨hty, hnn⟩ := hent e he
  have hlk := mapLookup_of_mem hnd he
  obtain ⟨te, x, hdd, hte, hxt, has, hat⟩ :=
    entry_deref hty (fun _ => hnn.1 hdeep)
  have hvt := holds_typ hh
  have hme : ∀ g, SrcSame σ h g → mapEntry v e.1 g = .ok (.direct te x) := by
    intro g hss
    rw [mapEntry_eq hk hvt hE (holds_load hh hss)
      (by rw [hss.2 r hsr]; exact hmo), hlk]
    exact hdd
  by_cases hip : mergedInPlace te.kind = true
  · obtain ⟨n0, hself⟩ := hin te x hxt
    refine ⟨n0, fun g hss j hj => ?_⟩
    obtain ⟨g', hg', hq⟩ := hself g hss j hj
    refine ⟨g', ?_, hq⟩
    rw [mergeMapKey_present_eq H m j _ o (hme g hss) (hme g hss) rfl rfl]
    simp only [hip, if_true, ne_eq, not_true_eq_false, if_false]
    exact hg'
  · have hip' : mergedInPlace te.kind = false := by simpa using hip
    refine ⟨1, fun g hss j hj => ?_⟩
    obtain ⟨i, rfl⟩ : ∃ i, j = i + 1 := ⟨j - 1, by omega⟩
    refine ⟨⟨g.cells ++ [x], g.maps⟩, ?_, List.prefix_append _ _, rfl⟩
    rw [mergeMapKey_present_eq H m (i + 1) _ o (hme g hss) (hme g hss) rfl rfl]
    simp only [hip, if_false, ne_eq, not_true_eq_false, Bool.false_eq_true,
      copy_main H m ho hm hmf hip' hte hxt (fun hu hx => by
        have := hnn.2 (hm.2 hu)
        rw [← hat, hx, emptySlice_assignTo] at this
        cases this) g i, ho, Bool.true_or, if_true,
      M.upd_apply]
    have hl1 : v.load ⟨g.cells ++ [x], g.maps⟩ = .ok (.map (some r)) := by
      have := load_alloc_iff (g := g) x (holds_lt hok hh hss)
      simp only [Heap.alloc] at this
      rw [this]
      exact holds_load hh hss
    have hel : (Value.addr te g.cells.length []).load
        ⟨g.cells ++ [x], g.maps⟩ = .ok x := by
      simp [Value.load, Heap.read, Val.getPath]
    rw [setMapIndex_insert hk hvt hE hl1
      (show (Heap.mk (g.cells ++ [x]) g.maps).maps[r]? = some mo by
        show g.maps[r]? = some mo
        rw [hss.2 r hsr]; exact hmo) e.1
      (show (Value.addr te g.cells.length []).typ = .ok te from rfl) hel]
    simp only [has, if_true, hat, mapInsert_self hlk]
    rw [setMap_self (show (Heap.mk (g.cells ++ [x]) g.maps).maps[r]? = some mo
      by show g.maps[r]? = some mo; rw [hss.2 r hsr]; exact hmo)]

theorem sizeOf_field_lt {fs : List Val} {i : Nat} {f : Val}
    (hf : fs[i]? = some f) : sizeOf f < sizeOf (Val.struct fs) := by
  have hm : f ∈ fs := by
    obtain ⟨hi, hfi⟩ := List.getElem?_eq_some_iff.mp hf
    exact hfi ▸ List.getElem_mem hi
  have := List.sizeOf_lt_of_mem hm
  simp only [Val.struct.sizeOf_spec]
  omega

/-- Merging a value of the source that can be reached from an entry of a map
into itself changes nothing. -/
theorem self_main {H : Host} {m : porter} {o : Options}
    (ho : o.Overwrite = true) {σ : Shape} (hm : ModeOk o σ)
    (hmf : m.mergeFuncs = []) {h : Heap} (hok : SrcOk h σ) :
    ∀ (N : Nat) (x : Val) (t : Ty) (v : Value),
      x.typed σ true N t = true → Holds σ h v t x → SelfOk H m o σ h v := by
  intro N
  induction N using Nat.strong_induction_on with
  | _ N ihN =>
    have key : ∀ sz, ∀ (x : Val), sizeOf x ≤ sz → ∀ (t : Ty) (v : Value),
        x.typed σ true N t = true → Holds σ h v t x → SelfOk H m o σ h v := by
      intro sz
      induction sz using Nat.strong_induction_on with
      | _ sz ihS =>
        intro x hsz t v hxt hh
        have hvt := holds_typ hh
        have hreg : tableLookup t m.mergeFuncs = none := by rw [hmf]; rfl
        -- `directMerge` of the value into itself
        have hdm : (t.kind = .Interface → ∃ t' v', x = .iface (some (t', v')) ∧
            t'.kind ≠ .Interface) → ∀ g, SrcSame σ h g →
            directMerge v v o g = .ok () g := fun hx g hss =>
          directMerge_self ho hvt (holds_load hh hss) hx
        by_cases hks : t.kind = .Struct
        · by_cases hun : hasUnexportedField t = true
          · refine ⟨1, fun g hss k hk => ⟨g, ?_, quiet_refl g⟩⟩
            obtain ⟨j, rfl⟩ : ∃ j, k = j + 1 := ⟨k - 1, by omega⟩
            rw [deepMerge_struct_unexported H m j o hks hun hreg hvt hvt]
            exact hdm (fun hi => by rw [hks] at hi; cases hi) g hss
          · have hex : hasUnexportedField t = false := by simpa using hun
            obtain ⟨fs, rfl, hfs⟩ := typed_struct hks hxt
            obtain ⟨n0, hloop⟩ := self_fields (H := H) (m := m) (o := o) hok v
              (List.range t.fields.length) (fun i hi => by
                have hi' : i < t.fields.length := List.mem_range.mp hi
                have hti : t.fields[i]? = some (t.fields[i]) :=
                  List.getElem?_eq_getElem hi'
                obtain ⟨f, hfi, hft⟩ := typedFields_get hfs hti
                have hlt := sizeOf_field_lt hfi
                rcases hh with rfl | ⟨s, q, rfl, hs, hr⟩
                · refine ⟨.direct (t.fields[i]).2.2 f, ?_,
                    ihS (sizeOf f) (by omega) f (Nat.le_refl _) _ _ hft
                      (Or.inl rfl)⟩
                  simp [Value.Field, Value.kind, hks, hti, hfi]
                · refine ⟨.addr (t.fields[i]).2.2 s (q ++ [i]), ?_,
                    ihS (sizeOf f) (by omega) f (Nat.le_refl _) _ _ hft
                      (Or.inr ⟨s, q ++ [i], rfl, hs, ?_⟩)⟩
                  · simp [Value.Field, Value.kind, hks, hti]
                  · rw [Heap.read_append, hr]
                    simp [Val.getPath, hfi])
            refine ⟨n0 + 1, fun g hss k hk => ?_⟩
            obtain ⟨j, rfl⟩ : ∃ j, k = j + 1 := ⟨k - 1, by omega⟩
            obtain ⟨g', hg', hq⟩ := hloop g hss j (by omega)
            refine ⟨g', ?_, hq⟩
            rw [deepMerge_struct_exported H m j o t v v hks hex hreg hvt hvt]
            exact hg'
        by_cases hkp : t.kind = .Ptr
        · rcases typed_ptr hkp hxt with rfl | ⟨c, rfl, hsc, hel, hrk, hdp⟩
          · refine ⟨1, fun g hss k hk => ⟨g, ?_, quiet_refl g⟩⟩
            obtain ⟨j, rfl⟩ : ∃ j, k = j + 1 := ⟨k - 1, by omega⟩
            exact deepMerge_nil_source H m j o (Or.inr (Or.inr (Or.inl hkp)))
              hreg hvt hvt (by
                simp [Value.IsNil, Value.kind_of_typ hvt, hkp,
                  holds_load hh hss])
          · have hlt : c < h.cells.length :=
              Nat.lt_of_lt_of_le (hok.src_lt c hsc) hok.bound_le
            have hcc : h.cells[c]? = some (h.cells[c]) :=
              List.getElem?_eq_getElem hlt
            have hct := hok.cell_typed c _ hsc hcc
            rw [hdp rfl] at hct
            obtain ⟨n0, hself⟩ := ihN (σ.rank c) hrk (h.cells[c]) (σ.cellTy c)
              (.addr (σ.cellTy c) c []) hct
              (Or.inr ⟨c, [], rfl, hsc, by simp [Heap.read, hcc, Val.getPath]⟩)
            refine ⟨n0 + 1, fun g hss k hk => ?_⟩
            obtain ⟨j, rfl⟩ : ∃ j, k = j + 1 := ⟨k - 1, by omega⟩
            obtain ⟨g', hg', hq⟩ := hself g hss j (by omega)
            refine ⟨g', ?_, hq⟩
            have hl := holds_load hh hss
            have hn : v.IsNil g = .ok false := by
              simp [Value.IsNil, Value.kind_of_typ hvt, hkp, hl]
            have hel' : v.Elem g = .ok (.addr (σ.cellTy c) c []) := by
              simp [Value.Elem, Value.kind_of_typ hvt, hkp, hl, hvt, hel]
            rw [deepMerge_ptr_step H m o j hkp hreg hvt hvt hn hn hel' hel'
              rfl rfl]
            exact hg'
        by_cases hkm : t.kind = .Map
        · rcases typed_map hkm hxt with rfl | ⟨r, rfl, hsr, hel, hrk, hdp⟩
          · refine ⟨1, fun g hss k hk => ⟨g, ?_, quiet_refl g⟩⟩
            obtain ⟨j, rfl⟩ : ∃ j, k = j + 1 := ⟨k - 1, by omega⟩
            exact deepMerge_nil_source H m j o (Or.inl hkm)
              hreg hvt hvt (by
                simp [Value.IsNil, Value.kind_of_typ hvt, hkm,
                  holds_load hh hss])
          · have hlt : r < h.maps.length :=
              Nat.lt_of_lt_of_le (hok.srcM_lt r hsr) hok.boundM_le
            have hmo : h.maps[r]? = some (h.maps[r]) :=
              List.getElem?_eq_getElem hlt
            obtain ⟨n0, hloop⟩ := self_keys (H := H) (m := m) (o := o) hok v
              ((h.maps[r]).map Prod.fst) (fun key hkey => by
                obtain ⟨e, he, rfl⟩ := List.mem_map.mp hkey
                exact self_key ho hm hmf hok hkm hel hh hsr hmo (hdp rfl)
                  (fun te x' hx' => ihN (σ.rankM r) hrk x' te _ hx'
                    (Or.inl rfl)) he)
            refine ⟨n0 + 1, fun g hss k hk => ?_⟩
            obtain ⟨j, rfl⟩ : ∃ j, k = j + 1 := ⟨k - 1, by omega⟩
            obtain ⟨g', hg', hq⟩ := hloop g hss j (by omega)
            refine ⟨g', ?_, hq⟩
            have hl := holds_load hh hss
            have hn : v.IsNil g = .ok false := by
              simp [Value.IsNil, Value.kind_of_typ hvt, hkm, hl]
            have hkeys : v.MapKeys g = .ok ((h.maps[r]).map Prod.fst) := by
              simp [Value.MapKeys, Value.kind_of_typ hvt, hkm, hl,
                hss.2 r hsr, hmo]
            rw [deepMerge_map_step H m j o hkm hreg hvt hvt hn hn hkeys]
            exact hg'
        by_cases hki : t.kind = .Interface
        · rcases typed_iface hki hxt with rfl | ⟨t', v', rfl, ht', hv'⟩
          · refine ⟨1, fun g hss k hk => ⟨g, ?_, quiet_refl g⟩⟩
            obtain ⟨j, rfl⟩ : ∃ j, k = j + 1 := ⟨k - 1, by omega⟩
            exact deepMerge_nil_source H m j o
              (Or.inr (Or.inr (Or.inr hki)))
              hreg hvt hvt (by
                simp [Value.IsNil, Value.kind_of_typ hvt, hki,
                  holds_load hh hss])
          · refine ⟨1, fun g hss k hk => ⟨g, ?_, quiet_refl g⟩⟩
            obtain ⟨j, rfl⟩ : ∃ j, k = j + 1 := ⟨k - 1, by omega⟩
            have hl := holds_load hh hss
            have hdd : derefInterface v g = .ok (.direct t' v') := by
              have h0 : derefDirect t (.iface (some (t', v'))) =
                  .ok (.direct t' v') := by
                simp only [derefDirect, hki, if_true]
                exact derefDirect_of_not_iface v' ht'
              rcases hh with rfl | ⟨s, q, rfl, hs, hr⟩
              · exact h0
              · simp only [Value.load] at hl
                cases hr' : g.read s q with
                | none => simp [hr'] at hl
                | some y =>
                  simp only [hr', Except.ok.injEq] at hl
                  subst hl
                  simp only [derefInterface, hki, if_true, hr']
                  exact h0
            rw [deepMerge_iface_step H m j o hki hreg hvt hvt hdd hdd rfl rfl]
            simp only [ne_eq, not_true_eq_false, if_false]
            exact hdm (fun _ => ⟨t', v', rfl, ht'⟩) g hss
        by_cases hksl : t.kind = .Slice
        · obtain ⟨es, rfl, hel, hsafe⟩ := typed_slice hksl hxt
          refine ⟨1, fun g hss k hk => ⟨g, ?_, quiet_refl g⟩⟩
          obtain ⟨j, rfl⟩ : ∃ j, k = j + 1 := ⟨k - 1, by omega⟩
          rw [deepMerge_slice H m j o hksl hreg hvt hvt]
          have hl := holds_load hh hss
          cases es with
          | none =>
            simp [Value.IsNil, Value.kind_of_typ hvt, hksl, hl]
          | some es =>
            simp only [Value.IsNil, Value.kind_of_typ hvt, hksl, hl,
              Option.isNone_some]
            by_cases hu : o.SliceMode = UniteSlice
            · obtain ⟨ty, hty⟩ := Option.isSome_iff_exists.mp hel
              rw [mergeSlice_unite hu hvt hvt hksl hty hl hl]
              rcases uniteOut_self hty (hsafe (hm.2 hu)) with hn | hsame
              · rw [hn]
              · rw [hsame]
                exact directMerge_same hki hvt hl
            · rw [mergeSlice_plain _ _ hm.1 hu]
              exact hdm (fun hi => absurd hi hki) g hss
        · refine ⟨1, fun g hss k hk => ⟨g, ?_, quiet_refl g⟩⟩
          obtain ⟨j, rfl⟩ : ∃ j, k = j + 1 := ⟨k - 1, by omega⟩
          rw [deepMerge_other_kind H m j o hks hkm hksl hkp hki hreg hvt hvt]
          exact hdm (fun hi => absurd hi hki) g hss
    intro x t v hxt hh
    exact key (sizeOf x) x (Nat.le_refl _) t v hxt hh

theorem srcSame_refl (σ : Shape) (h : Heap) : SrcSame σ h h :=
  ⟨fun _ _ => rfl, fun _ _ => rfl⟩

theorem srcIn_lt {σ : Shape} {h g : Heap} (hok : SrcOk h σ)
    (hss : SrcSame σ h g) {s : Value} (hs : SrcIn σ s) :
    ∀ t a q, s = .addr t a q → a < g.cells.length := by
  intro t a q he
  subst he
  have hlt : a < h.cells.length :=
    Nat.lt_of_lt_of_le (hok.src_lt a hs.1) hok.bound_le
  have := hss.1 a hs.1
  rw [List.getElem?_eq_getElem hlt] at this
  exact (List.getElem?_eq_some_iff.mp this).1

/-- The heap with one more cell holds the same source. -/
theorem srcSame_alloc {σ : Shape} {h g : Heap} (hok : SrcOk h σ)
    (hss : SrcSame σ h g) (z : Val) : SrcSame σ h (g.alloc z).1 :=
  srcSame_quiet hok hss ⟨List.prefix_append _ _, rfl⟩

/-- Merging a value of the source into a cell just allocated, of the type of
the value, a type whose values are not merged in place: what the cell holds
afterwards depends on the source only. -/
theorem same_fresh (H : Host) (m : porter) {o : Options}
    (ho : o.Overwrite = true) {σ : Shape} (hm : ModeOk o σ)
    (hmf : m.mergeFuncs = []) {h : Heap} (hok : SrcOk h σ)
    {te : Ty} (hip : mergedInPlace te.kind = false)
    (hki : te.kind ≠ .Interface) {s : Value} (hs : SrcIn σ s)
    (hst : s.typ = .ok te) {n : Nat} {h2 : Heap}
    (hrun : m.deepMerge H n (.addr te h.cells.length []) s o
      (h.alloc te.zero).1 = .ok () h2) :
    ∃ R, h2 = ⟨h.cells ++ [R], h.maps⟩ ∧ ∀ g, SrcSame σ h g → ∀ j, n ≤ j →
      m.deepMerge H j (.addr te g.cells.length []) s o (g.alloc te.zero).1 =
        .ok () ⟨g.cells ++ [R], g.maps⟩ := by
  cases n with
  | zero => simp [porter.deepMerge, M.fail] at hrun
  | succ n =>
    obtain ⟨h1, h2', h3⟩ := mergedInPlace_false hip
    have hreg : tableLookup te m.mergeFuncs = none := by rw [hmf]; rfl
    obtain ⟨x, d, N, hxl, hxt⟩ := srcIn_load hok hs hst
    have hl : ∀ g, SrcSame σ h g → s.load g = .ok x := fun g hss => by
      rw [sameAt_load (srcSame_sameAt hss hs)]; exact hxl
    have hdm : ∀ g, SrcSame σ h g →
        directMerge (.addr te g.cells.length []) s o (g.alloc te.zero).1 =
          .ok () ⟨g.cells ++ [x], g.maps⟩ := fun g hss =>
      directMerge_fresh ho hki te.zero hst (hl g hss) (srcIn_lt hok hss hs)
    have hty : (Value.addr te h.cells.length []).typ = .ok te := rfl
    by_cases hsl : te.kind = .Slice
    · obtain ⟨es, rfl, hel, _⟩ := typed_slice hsl hxt
      have hnil : ∀ g, SrcSame σ h g →
          s.IsNil (g.alloc te.zero).1 = .ok es.isNone := fun g hss => by
        simp [Value.IsNil, Value.kind_of_typ hst, hsl,
          load_alloc_iff te.zero (srcIn_lt hok hss hs), hl g hss]
      rw [deepMerge_slice H m n o hsl hreg hty hst,
        hnil h (srcSame_refl σ h)] at hrun
      cases es with
      | none =>
        simp only [Option.isNone_none] at hrun
        injection hrun with _ hrun
        refine ⟨te.zero, hrun.symm, fun g hss j hj => ?_⟩
        obtain ⟨i, rfl⟩ : ∃ i, j = i + 1 := ⟨j - 1, by omega⟩
        rw [deepMerge_slice H m i o hsl hreg
          (show (Value.addr te g.cells.length []).typ = .ok te from rfl) hst,
          hnil g hss]
        rfl
      | some es =>
        simp only [Option.isNone_some] at hrun
        by_cases hu : o.SliceMode = UniteSlice
        · obtain ⟨ty, hety⟩ := Option.isSome_iff_exists.mp hel
          have hplan : ∀ g, SrcSame σ h g →
              mergeSlice (.addr te g.cells.length []) s o (g.alloc te.zero).1 =
                match uniteOut ty none (some es) with
                | none => .ok () (g.alloc te.zero).1
                | some R => directMerge (.addr te g.cells.length [])
                    (.direct te (.slice R)) o (g.alloc te.zero).1 :=
            fun g hss => mergeSlice_unite hu
              (show (Value.addr te g.cells.length []).typ = .ok te from rfl)
              hst hsl hety
              (show (Value.addr te g.cells.length []).load (g.alloc te.zero).1 =
                .ok (.slice none) by
                simp [Value.load, Heap.read_alloc_new, zero_slice te hsl hel])
              (by rw [load_alloc_iff te.zero (srcIn_lt hok hss hs)]
                  exact hl g hss)
          have hdf : ∀ (g : Heap) (y : Val),
              directMerge (.addr te g.cells.length []) (.direct te y) o
                (g.alloc te.zero).1 = .ok () ⟨g.cells ++ [y], g.maps⟩ :=
            fun g y => directMerge_fresh ho hki (s := .direct te y) (g := g)
              te.zero rfl rfl (fun t a q he => by cases he)
          rw [hplan h (srcSame_refl σ h)] at hrun
          cases hp : uniteOut ty none (some es) with
          | none =>
            simp only [hp] at hrun
            injection hrun with _ hrun
            refine ⟨te.zero, hrun.symm, fun g hss j hj => ?_⟩
            obtain ⟨i, rfl⟩ : ∃ i, j = i + 1 := ⟨j - 1, by omega⟩
            rw [deepMerge_slice H m i o hsl hreg
              (show (Value.addr te g.cells.length []).typ = .ok te from rfl)
              hst, hnil g hss]
            simp only [Option.isNone_some, hplan g hss, hp]
            rfl
          | some R =>
            simp only [hp, hdf] at hrun
            injection hrun with _ hrun
            refine ⟨_, hrun.symm, fun g hss j hj => ?_⟩
            obtain ⟨i, rfl⟩ : ∃ i, j = i + 1 := ⟨j - 1, by omega⟩
            rw [deepMerge_slice H m i o hsl hreg
              (show (Value.addr te g.cells.length []).typ = .ok te from rfl)
              hst, hnil g hss]
            simp only [Option.isNone_some, hplan g hss, hp, hdf]
        · simp only [mergeSlice_plain _ _ hm.1 hu,
            hdm h (srcSame_refl σ h)] at hrun
          injection hrun with _ hrun
          refine ⟨_, hrun.symm, fun g hss j hj => ?_⟩
          obtain ⟨i, rfl⟩ : ∃ i, j = i + 1 := ⟨j - 1, by omega⟩
          rw [deepMerge_slice H m i o hsl hreg
            (show (Value.addr te g.cells.length []).typ = .ok te from rfl) hst,
            hnil g hss]
          simp only [Option.isNone_some, mergeSlice_plain _ _ hm.1 hu]
          exact hdm g hss
    · rw [deepMerge_other_kind H m n o h1 h3 hsl h2' hki hreg hty hst,
        hdm h (srcSame_refl σ h)] at hrun
      injection hrun with _ hrun
      refine ⟨_, hrun.symm, fun g hss j hj => ?_⟩
      obtain ⟨i, rfl⟩ : ∃ i, j = i + 1 := ⟨j - 1, by omega⟩
      rw [deepMerge_other_kind H m i o h1 h3 hsl h2' hki hreg
        (show (Value.addr te g.cells.length []).typ = .ok te from rfl) hst]
      exact hdm g hss

/-- A conversion step with the built-in conversion onto a cell just allocated:
what the cell holds afterwards depends on the source only. -/
theorem conv_fresh (H : Host) (m : porter) {o : Options}
    (ho : o.Overwrite = true) {σ : Shape} {h : Heap} (hok : SrcOk h σ)
    {te : Ty} (hki : te.kind ≠ .Interface) {s : Value} (hs : SrcIn σ s)
    {h2 : Heap}
    (hrun : convStep m (goConvertion H) (.addr te h.cells.length []) s o
      (h.alloc te.zero).1 = .ok () h2) :
    ∃ R, h2 = ⟨h.cells ++ [R], h.maps⟩ ∧ ∀ g, SrcSame σ h g →
      convStep m (goConvertion H) (.addr te g.cells.length []) s o
        (g.alloc te.zero).1 = .ok () ⟨g.cells ++ [R], g.maps⟩ := by
  have hrun0 := hrun
  simp only [convStep, M.bind_apply, callCustom_go, Value.typ_addr] at hrun
  cases hst : s.typ with
  | error e => simp [hst] at hrun
  | ok st =>
    obtain ⟨x, d, N, hxl, hxt⟩ := srcIn_load hok hs hst
    have hl : ∀ g, SrcSame σ h g → s.load (g.alloc te.zero).1 = .ok x :=
      fun g hss => by
        rw [load_alloc_iff te.zero (srcIn_lt hok hss hs),
          sameAt_load (srcSame_sameAt hss hs)]
        exact hxl
    have hdl : ∀ g : Heap, (Value.addr te g.cells.length []).load
        (g.alloc te.zero).1 = .ok te.zero := fun g => by
      simp [Value.load, Heap.read_alloc_new]
    simp only [hst, hdl h, hl h (srcSame_refl σ h)] at hrun
    cases him : (goConvertion H).impl (h.alloc te.zero).1
        (assignTo .iface te te.zero) (assignTo .iface st x)
        o.toOptionFields with
    | panics => simp [him] at hrun
    | returns r e =>
      simp only [him] at hrun
      obtain ⟨dt, c, hdy, rfl, rfl, hdk⟩ := goConvertion_returns H ho him
      have hdt : dt = te := by
        simp [assignTo, hki, Ty.kind, dynTy] at hdy
        exact hdy.symm
      subst hdt
      simp only [] at hrun
      -- the assignment of the converted value
      have hdm : ∀ g : Heap, directMerge (.addr dt g.cells.length [])
          (.direct .iface (.iface (some (dt, c)))) o (g.alloc dt.zero).1 =
          .ok () ⟨g.cells ++ [c], g.maps⟩ := by
        intro g
        have hse : derefInterface
            (.direct .iface (.iface (some (dt, c)))) (g.alloc dt.zero).1 =
            .ok (.direct dt c) := by
          simp only [derefInterface, derefDirect, Ty.kind, if_true]
          exact derefDirect_of_not_iface c hdk
        obtain ⟨h', hw, he⟩ := directMerge_eval o
          (Heap.read_alloc_new g dt.zero)
          (derefInterface_of_not_iface _ (show
            (Value.addr dt g.cells.length []).kind ≠ .Interface from hki))
          hse rfl rfl rfl
        rw [he, assignTo_self c hki, write_alloc_new] at *
        simp only [ho, true_or, if_true]
        injection hw with hw
        rw [hw]
      rw [hdm h] at hrun
      injection hrun with _ hrun
      refine ⟨c, hrun.symm, fun g hss => ?_⟩
      have him2 : (goConvertion H).impl (g.alloc dt.zero).1
          (assignTo .iface dt dt.zero) (assignTo .iface st x)
          o.toOptionFields = .returns (.iface (some (dt, c))) none := by
        rw [← him]
        exact goConvertion_congr H ho _ _ _ rfl
      simp only [convStep, M.bind_apply, callCustom_go, Value.typ_addr, hst,
        hdl g, hl g hss, him2]
      exact hdm g

/-- A plan of `convert` for a destination cell of a type that is neither a
pointer nor an interface type: it works on the cell itself, and is the same
for another such cell in a heap in which the source is read the same. -/
theorem convPlan_scratch {H : Host} {m : porter} {n j : Nat} {te : Ty}
    {c b : Nat} {src : Value} {o : Options} {h g : Heap}
    {fo : Option Func} {d s : Value}
    (hkp : te.kind ≠ .Ptr) (hki : te.kind ≠ .Interface)
    (hp : convPlan H m n (.addr te c []) src o h = .ok (fo, d, s))
    (hks : DynKept h g src)
    (hds : derefPtr h n src = .ok s → derefPtr g j src = .ok s) :
    d = .addr te c [] ∧
      convPlan H m j (.addr te b []) src o g = .ok (fo, .addr te b [], s) := by
  obtain ⟨dT0, sT0, dT, dK, sT, sK, h1, h2, h3, h4, hcase⟩ := convPlan_inv hp
  simp only [Value.typ_addr, Except.ok.injEq] at h1
  subst h1
  have htt : ∀ (a : Nat) (g0 : Heap),
      trueTypeOf (.addr te a []) te g0 = .ok (te, te.kind) := by
    intro a g0
    simp [trueTypeOf, hki]
  rw [htt] at h3
  simp only [Except.ok.injEq, Prod.mk.injEq] at h3
  obtain ⟨rfl, rfl⟩ := h3
  have hdd : ∀ (a k : Nat) (g0 : Heap),
      derefPtr g0 k (.addr te a []) = .ok (.addr te a []) := fun a k g0 =>
    derefPtr_done g0 k ⟨hkp, hki⟩
  unfold convPlan
  simp only [Value.typ_addr, h2, htt, trueTypeOf_kept h4 hks]
  rcases hcase with ⟨f, h5, rfl, rfl, rfl⟩ |
    ⟨h5, hkk, h6, h8, dET, sET, h7, h9, hcase⟩
  · exact ⟨rfl, by simp only [h5]⟩
  · rw [hdd] at h6
    injection h6 with h6
    subst h6
    simp only [Value.typ_addr, Except.ok.injEq] at h7
    subst h7
    refine ⟨rfl, ?_⟩
    simp only [h5, hkk, if_true, hdd, Value.typ_addr, hds h8, h9]
    rcases hcase with ⟨hne, f, h10, rfl⟩ | ⟨rfl, rfl⟩
    · simp only [ne_eq, hne, not_false_eq_true, if_true, h10]
    · simp only [ne_eq, not_true_eq_false, if_false]

theorem srcOk_alloc {σ : Shape} {h : Heap} (hok : SrcOk h σ) (z : Val) :
    SrcOk (h.alloc z).1 σ := by
  have hc : ∀ c, σ.srcCell c = true →
      (h.alloc z).1.cells[c]? = h.cells[c]? := fun c hc => by
    simp only [Heap.alloc]
    exact List.getElem?_append_left
      (Nat.lt_of_lt_of_le (hok.src_lt c hc) hok.bound_le)
  exact ⟨Nat.le_trans hok.bound_le (by simp [Heap.alloc]), hok.boundM_le,
    hok.pos_lt, hok.src_lt, hok.posM_lt, hok.srcM_lt, hok.disj, hok.disjM,
    fun c x hs hx => hok.cell_typed c x hs (by rw [← hc c hs]; exact hx),
    hok.map_typed⟩

theorem srcSame_allocs {σ : Shape} {h g : Heap} (hok : SrcOk h σ)
    (hss : SrcSame σ h g) (z z' : Val) :
    SrcSame σ (h.alloc z).1 (g.alloc z').1 := by
  have h1 := srcSame_alloc hok hss z'
  refine ⟨fun c hc => ?_, h1.2⟩
  rw [h1.1 c hc]
  simp only [Heap.alloc]
  exact (List.getElem?_append_left
    (Nat.lt_of_lt_of_le (hok.src_lt c hc) hok.bound_le)).symm

/-- Merging a value of the source into a cell just allocated, of a type
whose values are not merged in place: what the cell holds afterwards depends
on the source only. -/
theorem scratch_main (H : Host) (m : porter) {o : Options}
    (ho : o.Overwrite = true) {σ : Shape} (hm : ModeOk o σ)
    (hmf : m.mergeFuncs = []) (hcf : m.convertFuncs = [])
    {h : Heap} (hok : SrcOk h σ)
    {te : Ty} (hip : mergedInPlace te.kind = false)
    (hki : te.kind ≠ .Interface) {sE : Value} (hs : SrcIn σ sE) {sET : Ty}
    (hst : sE.typ = .ok sET) {n : Nat} {h2 : Heap}
    (hrun : (if te ≠ sET then
        m.convert H n (m.deepMerge H n) (.addr te h.cells.length []) sE o
      else m.deepMerge H n (.addr te h.cells.length []) sE o)
      (h.alloc te.zero).1 = .ok () h2) :
    ∃ R, h2 = ⟨h.cells ++ [R], h.maps⟩ ∧ ∀ g, SrcSame σ h g → ∀ j, n ≤ j →
      (if te ≠ sET then
        m.convert H j (m.deepMerge H j) (.addr te g.cells.length []) sE o
      else m.deepMerge H j (.addr te g.cells.length []) sE o)
      (g.alloc te.zero).1 = .ok () ⟨g.cells ++ [R], g.maps⟩ := by
  by_cases hne : te = sET
  · subst hne
    simp only [ne_eq, not_true_eq_false, if_false] at hrun ⊢
    exact same_fresh H m ho hm hmf hok hip hki hs hst hrun
  · simp only [ne_eq, hne, not_false_eq_true, if_true] at hrun ⊢
    have hkp : te.kind ≠ .Ptr := (mergedInPlace_false hip).2.1
    rw [convert_eq_plan] at hrun
    cases hp : convPlan H m n (.addr te h.cells.length []) sE o
        (h.alloc te.zero).1 with
    | error f => simp [hp] at hrun
    | ok p =>
      obtain ⟨fo, d, s⟩ := p
      simp only [hp] at hrun
      have hok0 := srcOk_alloc hok te.zero
      -- the source side of the plan
      have hsrc : SrcIn σ s ∧ ∀ g, SrcSame σ h g → ∀ j, n ≤ j →
          (derefPtr (h.alloc te.zero).1 n sE = .ok s →
            derefPtr (g.alloc te.zero).1 j sE = .ok s) := by
        obtain ⟨dT0, sT0, dT, dK, sT, sK, h1, h2', h3, h4, hcase⟩ :=
          convPlan_inv hp
        rcases hcase with ⟨f, h5, _, _, rfl⟩ | ⟨h5, hkk, h6, h8, _⟩
        · exact ⟨hs, fun g hss j hj hx =>
            derefPtr_done _ j (derefPtr_kind _ n hx)⟩
        · obtain ⟨hsE, hstab⟩ := derefPtr_src hok0 n hs h8
          exact ⟨hsE, fun g hss j hj _ =>
            hstab _ (srcSame_allocs hok hss _ _) j hj⟩
      have hplan : ∀ g, SrcSame σ h g → ∀ j, n ≤ j →
          convPlan H m j (.addr te g.cells.length []) sE o
            (g.alloc te.zero).1 = .ok (fo, .addr te g.cells.length [], s) :=
        fun g hss j hj => (convPlan_scratch hkp hki hp
          (dynKept_of_sameAt (srcSame_sameAt (srcSame_allocs hok hss _ _) hs))
          (hsrc.2 g hss j hj)).2
      have hd : d = .addr te h.cells.length [] :=
        (convPlan_scratch (b := 0) (g := h) (j := n) hkp hki hp
          (fun e te' he hte => by
            have hsa : SameAt h (h.alloc te.zero).1 sE :=
              sameAt_symm (srcSame_sameAt
                (srcSame_alloc hok (srcSame_refl σ h) te.zero) hs)
            exact ⟨e, by rw [sameAt_derefInterface hsa]; exact he, hte⟩)
          (fun hx => by
            have := (derefPtr_src hok0 n hs hx).2 h ⟨fun c hc => by
              simp only [Heap.alloc]
              exact (List.getElem?_append_left (Nat.lt_of_lt_of_le
                (hok.src_lt c hc) hok.bound_le)).symm, fun _ _ => rfl⟩ n
              (Nat.le_refl _)
            exact this)).1
      subst hd
      obtain ⟨dT0, sT0, dT, dK, sT, sK, h1, h2', h3, h4, hcase⟩ :=
        convPlan_inv hp
      have hfo : (∃ f, fo = some f ∧ f = goConvertion H) ∨
          (fo = none ∧ s.typ = .ok te) := by
        rcases hcase with ⟨f, h5, rfl, _, _⟩ |
          ⟨h5, hkk, h6, h8, dET, sET', h7, h9, hcase⟩
        · exact Or.inl ⟨f, rfl, converter_go hcf h5⟩
        · simp only [Value.typ_addr, Except.ok.injEq] at h7
          subst h7
          rcases hcase with ⟨_, f, h10, rfl⟩ | ⟨rfl, rfl⟩
          · exact Or.inl ⟨f, rfl, converter_go hcf h10⟩
          · exact Or.inr ⟨rfl, h9⟩
      rcases hfo with ⟨f, rfl, rfl⟩ | ⟨rfl, hsty⟩
      · simp only [] at hrun
        obtain ⟨R, hR, hagain⟩ := conv_fresh H m ho hok hki hsrc.1 hrun
        refine ⟨R, hR, fun g hss j hj => ?_⟩
        rw [convert_eq_plan, hplan g hss j hj]
        exact hagain g hss
      · simp only [] at hrun
        obtain ⟨R, hR, hagain⟩ :=
          same_fresh H m ho hm hmf hok hip hki hsrc.1 hsty hrun
        refine ⟨R, hR, fun g hss j hj => ?_⟩
        rw [convert_eq_plan, hplan g hss j hj]
        exact hagain g hss j hj

/-! ## Merging twice: maps -/

theorem mapLookup_mapErase (k k' : Key) (m : List (Key × Val)) :
    mapLookup k' (mapErase k m) = if k' = k then none else mapLookup k' m := by
  induction m with
  | nil => simp [mapErase, mapLookup]
  | cons e m ih =>
    obtain ⟨k1, v1⟩ := e
    simp only [mapErase] at ih ⊢
    by_cases h1 : k1 = k
    · subst h1
      simp only [List.filter_cons, ne_eq, not_true_eq_false, decide_False,
        Bool.false_eq_true, if_false, ih, mapLookup]
      by_cases h2 : k' = k1
      · subst h2; simp
      · simp [h2, Ne.symm h2]
    · simp only [List.filter_cons, ne_eq, h1, not_false_eq_true, decide_True,
        if_true, mapLookup, ih]
      by_cases h2 : k1 = k'
      · subst h2; simp [h1]
      · simp [h2]

theorem mapErase_absent {k : Key} {m : List (Key × Val)}
    (hl : mapLookup k m = none) : mapErase k m = m := by
  induction m with
  | nil => rfl
  | cons e m ih =>
    obtain ⟨k1, v1⟩ := e
    simp only [mapLookup] at hl
    split at hl
    · cases hl
    · rename_i hne
      simp only [mapErase] at ih ⊢
      rw [List.filter_cons]
      simp only [ne_eq, hne, not_false_eq_true, decide_True, if_true, ih hl]

theorem setMap_get (h : Heap) (r : Nat) (m : List (Key × Val)) (i : Nat) :
    (h.setMap r m).maps[i]? =
      if i = r then (if r < h.maps.length then some m else none)
      else h.maps[i]? := by
  simp only [Heap.setMap]
  by_cases hi : i = r
  · subst hi
    by_cases hl : i < h.maps.length
    · simp [hl, List.getElem?_set_self hl]
    · simp only [hl, if_false, if_true]
      exact List.getElem?_eq_none (by simp; omega)
  · simp [hi, List.getElem?_set_ne (Ne.symm hi)]

/-- A value behind the interface layers of a value that can stand at a place
can stand there. -/
theorem fits_derefDirect {σ : Shape} {ρ : List Step} :
    ∀ {E : Ty} {y : Val} {te : Ty} {x : Val},
      derefDirect E y = .ok (.direct te x) → y.fits σ ρ = true →
      x.fits σ ρ = true
  | E, .iface none, te, x, hd, _ => by
    simp only [derefDirect] at hd
    split at hd
    · cases hd
    · injection hd with hd
      injection hd with _ hd
      subst hd
      simp [Val.fits]
  | E, .iface (some (t', v')), te, x, hd, hf => by
    simp only [derefDirect] at hd
    split at hd
    · exact fits_derefDirect hd (by simpa [Val.fits] using hf)
    · injection hd with hd
      injection hd with _ hd
      subst hd
      exact hf
  | E, .bool _, te, x, hd, hf => by
    simp only [derefDirect] at hd
    split at hd
    · cases hd
    · injection hd with hd; injection hd with _ hd; subst hd; exact hf
  | E, .int _, te, x, hd, hf => by
    simp only [derefDirect] at hd
    split at hd
    · cases hd
    · injection hd with hd; injection hd with _ hd; subst hd; exact hf
  | E, .uint _, te, x, hd, hf => by
    simp only [derefDirect] at hd
    split at hd
    · cases hd
    · injection hd with hd; injection hd with _ hd; subst hd; exact hf
  | E, .float _, te, x, hd, hf => by
    simp only [derefDirect] at hd
    split at hd
    · cases hd
    · injection hd with hd; injection hd with _ hd; subst hd; exact hf
  | E, .complex _ _, te, x, hd, hf => by
    simp only [derefDirect] at hd
    split at hd
    · cases hd
    · injection hd with hd; injection hd with _ hd; subst hd; exact hf
  | E, .str _, te, x, hd, hf => by
    simp only [derefDirect] at hd
    split at hd
    · cases hd
    · injection hd with hd; injection hd with _ hd; subst hd; exact hf
  | E, .ptr _, te, x, hd, hf => by
    simp only [derefDirect] at hd
    split at hd
    · cases hd
    · injection hd with hd; injection hd with _ hd; subst hd; exact hf
  | E, .uptr _, te, x, hd, hf => by
    simp only [derefDirect] at hd
    split at hd
    · cases hd
    · injection hd with hd; injection hd with _ hd; subst hd; exact hf
  | E, .map _, te, x, hd, hf => by
    simp only [derefDirect] at hd
    split at hd
    · cases hd
    · injection hd with hd; injection hd with _ hd; subst hd; exact hf
  | E, .chan _, te, x, hd, hf => by
    simp only [derefDirect] at hd
    split at hd
    · cases hd
    · injection hd with hd; injection hd with _ hd; subst hd; exact hf
  | E, .func _, te, x, hd, hf => by
    simp only [derefDirect] at hd
    split at hd
    · cases hd
    · injection hd with hd; injection hd with _ hd; subst hd; exact hf
  | E, .slice _, te, x, hd, hf => by
    simp only [derefDirect] at hd
    split at hd
    · cases hd
    · injection hd with hd; injection hd with _ hd; subst hd; exact hf
  | E, .array _, te, x, hd, hf => by
    simp only [derefDirect] at hd
    split at hd
    · cases hd
    · injection hd with hd; injection hd with _ hd; subst hd; exact hf
  | E, .struct _, te, x, hd, hf => by
    simp only [derefDirect] at hd
    split at hd
    · cases hd
    · injection hd with hd; injection hd with _ hd; subst hd; exact hf

/-- The value stored for a value taken from behind the interface layers of an
entry leads back to it. -/
theorem derefDirect_assignTo {E te : Ty} {y x : Val}
    (hd : derefDirect E y = .ok (.direct te x)) (R : Val) :
    te.kind ≠ .Interface ∧ assignable E te = true ∧
      derefDirect E (assignTo E te R) = .ok (.direct te R) := by
  have hte : te.kind ≠ .Interface := derefDirect_kind hd rfl
  by_cases hk : E.kind = .Interface
  · refine ⟨hte, by simp [assignable, hk], ?_⟩
    simp only [assignTo, hk, hte, ne_eq, not_false_eq_true, and_self, if_true,
      derefDirect]
    exact derefDirect_of_not_iface R hte
  · rw [derefDirect_of_not_iface y hk] at hd
    injection hd with hd
    injection hd with hd _
    subst hd
    exact ⟨hte, assignable_self E, by
      rw [assignTo_self R hk]; exact derefDirect_of_not_iface R hk⟩

theorem dstCell_not_below {σ : Shape} {h : Heap} (hok : SrcOk h σ)
    {π : List Step} {t : Ty} {a : Nat} {q : List Nat}
    (hd : DstCell h σ π (.addr t a q)) (s : Step) :
    ¬ σ.below (π ++ [s]) a := by
  rintro ⟨ρ, hρ, hpr, _⟩
  rcases hd.2 with hge | ⟨π0, hp0, he⟩
  · exact absurd (hok.pos_lt a ρ hρ) (Nat.not_lt.mpr hge)
  · rw [hp0] at hρ
    injection hρ with hρ
    subst hρ
    rw [he] at hpr
    have := hpr.length_le
    simp at this

theorem dstCell_of_dstAt {σ : Shape} {h : Heap} {π : List Step} {dst : Value}
    (hd : DstAt h σ π dst) : DstCell h σ π dst := by
  cases dst with
  | invalid => trivial
  | direct t x => trivial
  | addr t a q => exact ⟨hd.1, hd.2.2⟩

theorem dstCell_not_src {σ : Shape} {h : Heap} (hok : SrcOk h σ)
    {π : List Step} {t : Ty} {a : Nat} {q : List Nat}
    (hd : DstCell h σ π (.addr t a q)) : σ.srcCell a = false := by
  rcases hd.2 with hge | ⟨π0, hp0, _⟩
  · cases hs : σ.srcCell a with
    | false => rfl
    | true => exact absurd (hok.src_lt a hs) (Nat.not_lt.mpr hge)
  · exact hok.disj a π0 hp0

/-- The step of the key loop fails on a key that the destination holds and
under which the source holds a nil interface. -/
theorem mergeMapKey_src_invalid (H : Host) (m : porter) (n : Nat)
    (dm : Value → Value → Options → M Unit) {dst src : Value} (o : Options)
    {key : Key} {g g' : Heap} {dE : Value}
    (hse : mapEntry src key g = .ok .invalid)
    (hde : mapEntry dst key g = .ok dE) (hv : dE.IsValid = true) :
    mergeMapKey H m n dm dst src o key g ≠ .ok () g' := by
  simp [mergeMapKey, hse, hde, hv, Value.typ]

theorem rd_not_src {σ : Shape} {π : List Step} {dst src : Value} {T E : Ty}
    {rd rs : Nat} {h : Heap} (hok : SrcOk h σ)
    (hc : KeyCtx σ π dst src T E rd rs) : σ.srcMap rd = false := by
  rcases hc.place with hp | hge
  · exact hok.disjM rd π hp
  · cases hs : σ.srcMap rd with
    | false => rfl
    | true => exact absurd (hok.srcM_lt rd hs) (Nat.not_lt.mpr hge)

theorem rd_not_underM {σ : Shape} {π : List Step} {dst src : Value} {T E : Ty}
    {rd rs : Nat} {h : Heap} (hok : SrcOk h σ)
    (hc : KeyCtx σ π dst src T E rd rs) (s : Step) :
    ¬ σ.underM (π ++ [s]) rd := by
  rintro ⟨ρ, hρ, hpr⟩
  rcases hc.place with hp | hge
  · rw [hp] at hρ
    injection hρ with hρ
    subst hρ
    exact not_prefix_snoc _ _ hpr
  · exact absurd (hok.posM_lt rd ρ hρ) (Nat.not_lt.mpr hge)

/-- What a heap that agrees with the outcome of the key loop holds: the
source, the two maps, and the entries of the destination under the keys. -/
theorem agreeK_facts {σ : Shape} {π : List Step} {dst src : Value} {T E : Ty}
    {rd rs : Nat} {ms : List (Key × Val)} {ks : List Key} {h h1 g : Heap}
    (hc : KeyCtx σ π dst src T E rd rs)
    (hi : KeyInv σ π dst src rd rs ms h) (hf : FrameK σ π rd ks h h1)
    (ha : AgreeK σ π dst rd ks h h1 g) :
    SrcSame σ h g ∧ dst.load h1 = .ok (.map (some rd)) ∧
      dst.load g = .ok (.map (some rd)) ∧
      src.load g = .ok (.map (some rs)) ∧ g.maps[rs]? = some ms := by
  have hss : SrcSame σ h g := by
    refine ⟨fun c hs => ?_, fun r hs => ?_⟩
    · have hlt : c < h.cells.length :=
        Nat.lt_of_lt_of_le (hi.ok.src_lt c hs) hi.ok.bound_le
      rw [ha.2.2.1 c (Nat.lt_of_lt_of_le hlt hf.1) (Or.inr (Or.inr hs))]
      refine cells_of_read (hf.2.2.1 c [] hlt (fun k _ => ?_))
      rintro ⟨ρ, hρ, _⟩
      rw [hi.ok.disj c ρ hρ] at hs
      cases hs
    · have hlt : r < h.maps.length :=
        Nat.lt_of_lt_of_le (hi.ok.srcM_lt r hs) hi.ok.boundM_le
      rw [ha.2.2.2.1 r (Nat.lt_of_lt_of_le hlt hf.2.1) (Or.inr (Or.inr hs))]
      refine hf.2.2.2.1 r hlt ?_ (fun k _ => ?_)
      · rintro rfl
        rw [rd_not_src hi.ok hc] at hs
        cases hs
      · rintro ⟨ρ, hρ, _⟩
        rw [hi.ok.disjM r ρ hρ] at hs
        cases hs
  have hd1 : dst.load h1 = .ok (.map (some rd)) := by
    rw [← hi.dload]
    cases hdst : dst with
    | invalid => rfl
    | direct t x => rfl
    | addr t a q =>
      have hdc := hi.dcell
      rw [hdst] at hdc
      simp only [Value.load, hf.2.2.1 a q hdc.1
        (fun k _ => dstCell_not_below hi.ok hdc _)]
  refine ⟨hss, hd1, ?_, ?_, ?_⟩
  · rw [sameAt_load ha.2.2.2.2.1]; exact hd1
  · rw [sameAt_load (srcSame_sameAt hss hc.srcIn)]; exact hi.sload
  · rw [hss.2 rs hc.srcM]; exact hi.smap

theorem frameK_set {σ : Shape} {π : List Step} {rd : Nat} {k : Key}
    {h h1 : Heap} {md md' : List (Key × Val)} {e : List Val}
    (hrd : rd < h.maps.length) (hmd : h.maps[rd]? = some md)
    (hcells : h1.cells = h.cells ++ e) (hmaps : h1.maps = h.maps.set rd md')
    (hlk : ∀ k', k' ≠ k → mapLookup k' md' = mapLookup k' md) :
    FrameK σ π rd [k] h h1 := by
  refine ⟨by simp [hcells], by simp [hmaps], fun c r hc _ => ?_,
    fun i hi hne _ => ?_, md, md', hmd, ?_, fun k' hk' => ?_⟩
  · simp only [Heap.read, hcells, List.getElem?_append_left hc]
  · rw [hmaps, List.getElem?_set_ne (Ne.symm hne)]
  · rw [hmaps, List.getElem?_set_self hrd]
  · exact hlk k' (by simpa using hk')

/-- Storing under a key the value the map holds there changes nothing. -/
theorem setMapIndex_same {v e : Value} {g : Heap} {T E te : Ty} {r : Nat}
    {mg : List (Key × Val)} {x : Val} {k : Key} (hk : T.kind = .Map)
    (hvt : v.typ = .ok T) (hE : T.elem = some E)
    (hl : v.load g = .ok (.map (some r))) (hr : g.maps[r]? = some mg)
    (het : e.typ = .ok te) (hel : e.load g = .ok x)
    (has : assignable E te = true)
    (hlk : mapLookup k mg = some (assignTo E te x)) :
    v.SetMapIndex k e g = .ok g := by
  rw [setMapIndex_insert hk hvt hE hl hr k het hel]
  simp only [has, if_true, mapInsert_self hlk, setMap_self hr]

/-- One step of the key loop: its frame, and its second run. -/
theorem key_main {H : Host} {m : porter} {o : Options} {n : Nat}
    (ho : o.Overwrite = true)
    (hmf : m.mergeFuncs = []) (hcf : m.convertFuncs = [])
    (hrec : Main H m o n) {σ : Shape} (hm : ModeOk o σ) {π : List Step}
    {dst src : Value}
    {T E : Ty} {rd rs : Nat} {ms : List (Key × Val)} {h h1 : Heap} {k : Key}
    (hc : KeyCtx σ π dst src T E rd rs)
    (hi : KeyInv σ π dst src rd rs ms h) (hfit : KeyFit σ π rd h k)
    (hmem : k ∈ ms.map Prod.fst)
    (hrun : mergeMapKey H m n (m.deepMerge H n) dst src o k h = .ok () h1) :
    FrameK σ π rd [k] h h1 ∧ ∃ n0, ∀ g, AgreeK σ π dst rd [k] h h1 g →
      ∀ j, n0 ≤ j → ∃ g',
        mergeMapKey H m j (m.deepMerge H j) dst src o k g = .ok () g' ∧
          Quiet g g' := by
  obtain ⟨md, hmd⟩ : ∃ md, h.maps[rd]? = some md :=
    ⟨_, List.getElem?_eq_getElem hi.rdlt⟩
  obtain ⟨ys, hys⟩ := (mapLookup_isSome_iff k ms).mpr hmem
  obtain ⟨hnd, hent⟩ := hi.ok.map_typed rs ms hc.srcM hi.smap
  have hyt : ys.typed σ true (σ.rankM rs) E = true ∧
      (σ.unite = true → emptySlice ys = false) := by
    obtain ⟨e, he, hev⟩ := mapLookup_mem hys
    rw [hc.elemS, ← hev]
    exact ⟨(hent e he).1, (hent e he).2.2⟩
  obtain ⟨hyt, hyne⟩ := hyt
  -- the entries in a heap that holds the two maps
  have hse0 : ∀ g, src.load g = .ok (.map (some rs)) →
      g.maps[rs]? = some ms → mapEntry src k g = derefDirect E ys :=
    fun g hl hr => by
      rw [mapEntry_eq hc.kind hc.styp hc.elem hl hr, hys]
  have hde0 : ∀ g mg, dst.load g = .ok (.map (some rd)) →
      g.maps[rd]? = some mg → mapEntry dst k g =
        match mapLookup k mg with
        | some y => derefDirect E y
        | none => .ok .invalid :=
    fun g mg hl hr => mapEntry_eq hc.kind hc.dtyp hc.elem hl hr k
  have hse := hse0 h hi.sload hi.smap
  have hde := hde0 h md hi.dload hmd
  cases hsd : derefDirect E ys with
  | error f =>
    rw [hsd] at hse
    simp [mergeMapKey, hse] at hrun
  | ok sE =>
    rw [hsd] at hse
    -- the destination has no entry under the key
    have hA : mapEntry dst k h = .ok .invalid →
        FrameK σ π rd [k] h h1 ∧ ∃ n0, ∀ g, AgreeK σ π dst rd [k] h h1 g →
          ∀ j, n0 ≤ j → ∃ g',
            mergeMapKey H m j (m.deepMerge H j) dst src o k g = .ok () g' ∧
              Quiet g g' := by
      intro hdi
      rw [mergeMapKey_absent_eq H m n _ o hse hdi] at hrun
      simp only [M.upd_apply] at hrun
      rcases derefDirect_form E ys hsd with rfl | ⟨te, x, rfl⟩
      · -- nothing to store: the key is deleted
        rw [setMapIndex_erase hc.kind hc.dtyp hi.dload hmd] at hrun
        injection hrun with _ hrun
        subst hrun
        have hfr : FrameK σ π rd [k] h (h.setMap rd (mapErase k md)) :=
          frameK_set (e := []) hi.rdlt hmd (by simp [Heap.setMap]) rfl
            (fun k' hk' => by rw [mapLookup_mapErase]; simp [hk'])
        refine ⟨hfr, 0, fun g hag j _ => ⟨g, ?_, quiet_refl g⟩⟩
        obtain ⟨hss, _, hdl, hsl, hsm⟩ := agreeK_facts hc hi hfr hag
        obtain ⟨mg, md', hmg, hmd', hlk⟩ := hag.2.2.2.2.2
        have hmd'' : md' = mapErase k md := by
          have := setMap_get h rd (mapErase k md) rd
          simp only [if_true, hi.rdlt] at this
          rw [this] at hmd'
          injection hmd' with hmd'
          exact hmd'.symm
        have hlg : mapLookup k mg = none := by
          rw [hlk k (List.mem_singleton_self k), hmd'', mapLookup_mapErase]
          simp
        rw [mergeMapKey_absent_eq H m j _ o
          (by rw [hse0 g hsl hsm]; exact hsd)
          (by rw [hde0 g mg hdl hmg, hlg])]
        simp only [M.upd_apply,
          setMapIndex_erase hc.kind hc.dtyp hdl hmg, mapErase_absent hlg,
          setMap_self hmg]
      · -- the entry of the source is stored
        obtain ⟨hte, has, hdr⟩ := derefDirect_assignTo hsd x
        rw [setMapIndex_insert hc.kind hc.dtyp hc.elem hi.dload hmd k
          (show (Value.direct te x).typ = .ok te from rfl) rfl] at hrun
        simp only [has, if_true] at hrun
        injection hrun with _ hrun
        subst hrun
        have hfr : FrameK σ π rd [k] h
            (h.setMap rd (mapInsert k (assignTo E te x) md)) :=
          frameK_set (e := []) hi.rdlt hmd (by simp [Heap.setMap]) rfl
            (fun k' hk' => by
              rw [mapLookup_mapInsert]; simp [Ne.symm hk'])
        -- the value stored is a value of the source
        obtain ⟨hxt, hat⟩ : x.typed σ true (σ.rankM rs) te = true ∧
            assignTo E te x = ys := by
          obtain ⟨te', x', hdd', _, hxt', _, hat'⟩ := entry_deref hyt
            (fun hk hy => by
              rw [hy] at hsd
              simp [derefDirect, hk] at hsd)
          rw [hsd] at hdd'
          injection hdd' with hdd'
          injection hdd' with e1 e2
          subst e1 e2
          exact ⟨hxt', hat'⟩
        have hxne : o.SliceMode = UniteSlice → x ≠ .slice (some []) :=
          fun hu hx => by
            have := hyne (hm.2 hu)
            rw [← hat, hx, emptySlice_assignTo] at this
            cases this
        obtain ⟨n0, hself⟩ : ∃ n0, ∀ g, SrcSame σ h g → ∀ j, n0 ≤ j →
            ∃ g', (if mergedInPlace te.kind = true then
                m.deepMerge H j (.direct te x) (.direct te x) o g
              else match m.deepMerge H j (.addr te g.cells.length [])
                  (.direct te x) o (g.alloc te.zero).1 with
                | .ok _ g1 =>
                  M.upd (dst.SetMapIndex k (.addr te g.cells.length [])) g1
                | .fail e g1 => .fail e g1) = .ok () g' ∧ Quiet g g' ∨
              ¬ (dst.load g = .ok (.map (some rd)) ∧ ∃ mg,
                g.maps[rd]? = some mg ∧
                mapLookup k mg = some (assignTo E te x)) := by
          by_cases hip : mergedInPlace te.kind = true
          · obtain ⟨n0, hs0⟩ := self_main ho hm hmf hi.ok (σ.rankM rs) x te
              (.direct te x) hxt (Or.inl rfl)
            refine ⟨n0, fun g hss j hj => ?_⟩
            obtain ⟨g', hg', hq⟩ := hs0 g hss j hj
            exact ⟨g', Or.inl ⟨by simp only [hip, if_true]; exact hg', hq⟩⟩
          · have hip' : mergedInPlace te.kind = false := by simpa using hip
            refine ⟨1, fun g hss j hj => ?_⟩
            obtain ⟨i, rfl⟩ : ∃ i, j = i + 1 := ⟨j - 1, by omega⟩
            refine ⟨⟨g.cells ++ [x], g.maps⟩, ?_⟩
            by_cases hgd : dst.load g = .ok (.map (some rd)) ∧ ∃ mg,
                g.maps[rd]? = some mg ∧
                mapLookup k mg = some (assignTo E te x)
            · obtain ⟨hdl, mg, hmg, hlg⟩ := hgd
              refine Or.inl ⟨?_, List.prefix_append _ _, rfl⟩
              simp only [hip, if_false, Bool.false_eq_true,
                copy_main H m ho hm hmf hip' hte hxt hxne g i]
              have hl1 : dst.load ⟨g.cells ++ [x], g.maps⟩ =
                  .ok (.map (some rd)) := by
                rw [← hdl]
                cases hdst : dst with
                | invalid => rfl
                | direct t0 x0 => rfl
                | addr t0 a q =>
                  rw [hdst] at hdl
                  simp only [Value.load] at hdl ⊢
                  have ha : a < g.cells.length := by
                    cases hr : g.read a q with
                    | none => simp [hr] at hdl
                    | some y => exact Heap.read_lt hr
                  simp only [Heap.read, List.getElem?_append_left ha]
              simp only [M.upd_apply]
              rw [setMapIndex_same hc.kind hc.dtyp hc.elem hl1
                (show (Heap.mk (g.cells ++ [x]) g.maps).maps[rd]? = some mg
                  from hmg)
                (show (Value.addr te g.cells.length []).typ = .ok te from rfl)
                (by simp [Value.load, Heap.read, Val.getPath]) has hlg]
            · exact Or.inr hgd
        refine ⟨hfr, n0, fun g hag j hj => ?_⟩
        obtain ⟨hss, _, hdl, hsl, hsm⟩ := agreeK_facts hc hi hfr hag
        obtain ⟨mg, md', hmg, hmd', hlk⟩ := hag.2.2.2.2.2
        have hmd'' : md' = mapInsert k (assignTo E te x) md := by
          have := setMap_get h rd (mapInsert k (assignTo E te x) md) rd
          simp only [if_true, hi.rdlt] at this
          rw [this] at hmd'
          injection hmd' with hmd'
          exact hmd'.symm
        have hlg : mapLookup k mg = some (assignTo E te x) := by
          rw [hlk k (List.mem_singleton_self k), hmd'', mapLookup_mapInsert]
          simp
        obtain ⟨g', hg'⟩ := hself g hss j hj
        rcases hg' with ⟨hg', hq⟩ | hno
        · refine ⟨g', ?_, hq⟩
          rw [mergeMapKey_present_eq H m j _ o
            (by rw [hse0 g hsl hsm]; exact hsd)
            (by rw [hde0 g mg hdl hmg, hlg]; exact hdr)
            (show (Value.direct te x).typ = .ok te from rfl)
            (show (Value.direct te x).typ = .ok te from rfl)]
          simp only [ne_eq, not_true_eq_false, if_false, ho, Bool.true_or,
            if_true]
          exact hg'
        · exact absurd ⟨hdl, mg, hmg, hlg⟩ hno
    cases hld : mapLookup k md with
    | none =>
      rw [hld] at hde
      exact hA hde
    | some yd =>
      rw [hld] at hde
      simp only [] at hde
      cases hdd : derefDirect E yd with
      | error f =>
        rw [hdd] at hde
        simp [mergeMapKey, hse, hde] at hrun
      | ok dE =>
        rw [hdd] at hde
        rcases derefDirect_form E yd hdd with rfl | ⟨dET, xd, rfl⟩
        · exact hA hde
        · -- the destination holds an entry under the key
          rcases derefDirect_form E ys hsd with rfl | ⟨sET, xs, rfl⟩
          · exact absurd hrun (mergeMapKey_src_invalid H m n _ o hse hde rfl)
          have hsIn : SrcIn σ (.direct sET xs) := by
            by_cases hki : E.kind = .Interface
            · rcases typed_iface hki hyt with rfl | ⟨t', v', rfl, ht', hv'⟩
              · simp [derefDirect, hki] at hsd
              · simp only [derefDirect, hki, if_true] at hsd
                rw [derefDirect_of_not_iface v' ht'] at hsd
                injection hsd with hsd
                injection hsd with h1 h2
                subst h1 h2
                exact ⟨true, _, hv'⟩
            · rw [derefDirect_of_not_iface ys hki] at hsd
              injection hsd with hsd
              injection hsd with h1 h2
              subst h1 h2
              exact ⟨true, _, hyt⟩
          rw [mergeMapKey_present_eq H m n _ o hse hde
            (show (Value.direct sET xs).typ = .ok sET from rfl)
            (show (Value.direct dET xd).typ = .ok dET from rfl)] at hrun
          by_cases hip : mergedInPlace dET.kind = true
          · -- merged in place, below the place of the entry
            simp only [hip, if_true] at hrun
            have hdE : DstAt h σ (π ++ [.key k]) (.direct dET xd) :=
              fits_derefDirect hdd (hfit.2 md yd hmd hld)
            obtain ⟨hfc, n0, hset⟩ : Frame h h1 σ (π ++ [.key k])
                (.direct dET xd) ∧ ∃ n0, ∀ g,
                Agree σ (π ++ [.key k]) (.direct dET xd) h h1 g → ∀ j,
                n0 ≤ j → ∃ g', (if dET ≠ sET then
                    m.convert H j (m.deepMerge H j) (.direct dET xd)
                      (.direct sET xs) o
                  else m.deepMerge H j (.direct dET xd) (.direct sET xs) o) g =
                  .ok () g' ∧ Quiet g g' := by
              by_cases hne : dET = sET
              · subst hne
                simp only [ne_eq, not_true_eq_false, if_false] at hrun ⊢
                exact hrec σ _ _ _ h h1 hm hi.ok hfit.1 hdE hsIn hrun
              · simp only [ne_eq, hne, not_false_eq_true, if_true] at hrun ⊢
                obtain ⟨h1', h2', _⟩ :=
                  conv_main ho hcf hrec hm hi.ok hfit.1 hdE hsIn hrun
                exact ⟨h1', h2'⟩
            have hrd1 : h1.maps[rd]? = h.maps[rd]? :=
              hfc.2.2.2 rd hi.rdlt (rd_not_underM hi.ok hc _)
            have hfr : FrameK σ π rd [k] h h1 :=
              ⟨hfc.1, hfc.2.1, fun c r hcl hnb => hfc.2.2.1 c r hcl
                (hnb k (List.mem_singleton_self k)) trivial,
              fun i hil _ hnu => hfc.2.2.2 i hil
                (hnu k (List.mem_singleton_self k)),
              md, md, hmd, by rw [hrd1]; exact hmd, fun _ _ => rfl⟩
            refine ⟨hfr, n0, fun g hag j hj => ?_⟩
            obtain ⟨hss, _, hdl, hsl, hsm⟩ := agreeK_facts hc hi hfr hag
            obtain ⟨mg, md', hmg, hmd', hlk⟩ := hag.2.2.2.2.2
            have hlg : mapLookup k mg = some yd := by
              rw [hlk k (List.mem_singleton_self k)]
              rw [hrd1, hmd] at hmd'
              injection hmd' with hmd'
              rw [← hmd']
              exact hld
            obtain ⟨g', hg', hq⟩ := hset g ⟨hag.1, hag.2.1,
              fun c hcl hreg => hag.2.2.1 c hcl (by
                rcases hreg with hu | hge | hs
                · exact Or.inl ⟨k, List.mem_singleton_self k, hu⟩
                · exact Or.inr (Or.inl hge)
                · exact Or.inr (Or.inr hs)),
              fun i hil hreg => hag.2.2.2.1 i hil (by
                rcases hreg with hu | hge | hs
                · exact Or.inl ⟨k, List.mem_singleton_self k, hu⟩
                · exact Or.inr (Or.inl hge)
                · exact Or.inr (Or.inr hs)), trivial⟩ j hj
            refine ⟨g', ?_, hq⟩
            rw [mergeMapKey_present_eq H m j _ o
              (by rw [hse0 g hsl hsm]; exact hsd)
              (by rw [hde0 g mg hdl hmg, hlg]; exact hdd)
              (show (Value.direct sET xs).typ = .ok sET from rfl)
              (show (Value.direct dET xd).typ = .ok dET from rfl)]
            simp only [hip, if_true]
            exact hg'
          · -- merged in a new cell, and stored
            have hip' : mergedInPlace dET.kind = false := by simpa using hip
            simp only [hip, if_false, Bool.false_eq_true, ho, Bool.true_or,
              if_true] at hrun
            obtain ⟨hdk, has, hdr⟩ := derefDirect_assignTo hdd xd
            cases hx : (if dET ≠ sET then
                m.convert H n (m.deepMerge H n) (.addr dET h.cells.length [])
                  (.direct sET xs) o
              else m.deepMerge H n (.addr dET h.cells.length [])
                (.direct sET xs) o) (h.alloc dET.zero).1 with
            | fail e g1 => simp [hx] at hrun
            | ok u h2 =>
              simp only [hx, M.upd_apply] at hrun
              obtain ⟨R, hR, hagain⟩ := scratch_main H m ho hm hmf hcf hi.ok
                hip' hdk hsIn (show (Value.direct sET xs).typ = .ok sET
                  from rfl) hx
              subst hR
              have hl2 : dst.load ⟨h.cells ++ [R], h.maps⟩ =
                  .ok (.map (some rd)) := by
                have := load_alloc_iff (g := h) (v := dst) R (by
                  intro t a q hdst
                  have hdc := hi.dcell
                  rw [hdst] at hdc
                  exact hdc.1)
                simp only [Heap.alloc] at this
                rw [this]
                exact hi.dload
              rw [setMapIndex_insert hc.kind hc.dtyp hc.elem hl2
                (show (Heap.mk (h.cells ++ [R]) h.maps).maps[rd]? = some md
                  from hmd) k
                (show (Value.addr dET h.cells.length []).typ = .ok dET
                  from rfl)
                (show (Value.addr dET h.cells.length []).load
                  ⟨h.cells ++ [R], h.maps⟩ = .ok R by
                  simp [Value.load, Heap.read, Val.getPath])] at hrun
              simp only [has, if_true] at hrun
              injection hrun with _ hrun
              subst hrun
              have hfr : FrameK σ π rd [k] h
                  ((Heap.mk (h.cells ++ [R]) h.maps).setMap rd
                    (mapInsert k (assignTo E dET R) md)) :=
                frameK_set (e := [R]) hi.rdlt hmd (by simp [Heap.setMap]) rfl
                  (fun k' hk' => by
                    rw [mapLookup_mapInsert]; simp [Ne.symm hk'])
              refine ⟨hfr, n, fun g hag j hj => ?_⟩
              obtain ⟨hss, _, hdl, hsl, hsm⟩ := agreeK_facts hc hi hfr hag
              obtain ⟨mg, md', hmg, hmd', hlk⟩ := hag.2.2.2.2.2
              have hmd'' : md' = mapInsert k (assignTo E dET R) md := by
                have := setMap_get ⟨h.cells ++ [R], h.maps⟩ rd
                  (mapInsert k (assignTo E dET R) md) rd
                simp only [if_true] at this
                rw [if_pos (show rd < (Heap.mk (h.cells ++ [R])
                  h.maps).maps.length from hi.rdlt)] at this
                rw [this] at hmd'
                injection hmd' with hmd'
                exact hmd'.symm
              have hlg : mapLookup k mg = some (assignTo E dET R) := by
                rw [hlk k (List.mem_singleton_self k), hmd'',
                  mapLookup_mapInsert]
                simp
              refine ⟨⟨g.cells ++ [R], g.maps⟩, ?_,
                List.prefix_append _ _, rfl⟩
              rw [mergeMapKey_present_eq H m j _ o
                (by rw [hse0 g hsl hsm]; exact hsd)
                (by rw [hde0 g mg hdl hmg, hlg]
                    exact (derefDirect_assignTo hdd R).2.2)
                (show (Value.direct sET xs).typ = .ok sET from rfl)
                (show (Value.direct dET R).typ = .ok dET from rfl)]
              simp only [hip, if_false, Bool.false_eq_true, ho, Bool.true_or,
                if_true, hagain g hss j hj, M.upd_apply]
              have hl1 : dst.load ⟨g.cells ++ [R], g.maps⟩ =
                  .ok (.map (some rd)) := by
                rw [← hdl]
                cases hdst : dst with
                | invalid => rfl
                | direct t0 x0 => rfl
                | addr t0 a q =>
                  rw [hdst] at hdl
                  simp only [Value.load] at hdl ⊢
                  have ha : a < g.cells.length := by
                    cases hr : g.read a q with
                    | none => simp [hr] at hdl
                    | some y => exact Heap.read_lt hr
                  simp only [Heap.read, List.getElem?_append_left ha]
              rw [setMapIndex_same hc.kind hc.dtyp hc.elem hl1
                (show (Heap.mk (g.cells ++ [R]) g.maps).maps[rd]? = some mg
                  from hmg)
                (show (Value.addr dET g.cells.length []).typ = .ok dET
                  from rfl)
                (by simp [Value.load, Heap.read, Val.getPath]) has hlg]

theorem key_snoc_ne (π : List Step) {k k' : Key} (hne : k ≠ k') :
    π ++ [Step.key k] ≠ π ++ [Step.key k'] := by
  intro he
  have := List.append_cancel_left he
  injection this with h1
  injection h1 with h2
  exact hne h2

theorem frameK_srcSame {σ : Shape} {π : List Step} {dst src : Value}
    {T E : Ty} {rd rs : Nat} {ks : List Key} {h h1 : Heap} (hok : SrcOk h σ)
    (hc : KeyCtx σ π dst src T E rd rs) (hf : FrameK σ π rd ks h h1) :
    SrcSame σ h h1 := by
  refine ⟨fun c hs => ?_, fun r hs => ?_⟩
  · have hlt : c < h.cells.length :=
      Nat.lt_of_lt_of_le (hok.src_lt c hs) hok.bound_le
    refine cells_of_read (hf.2.2.1 c [] hlt (fun k _ => ?_))
    rintro ⟨ρ, hρ, _⟩
    rw [hok.disj c ρ hρ] at hs
    cases hs
  · have hlt : r < h.maps.length :=
      Nat.lt_of_lt_of_le (hok.srcM_lt r hs) hok.boundM_le
    refine hf.2.2.2.1 r hlt ?_ (fun k _ => ?_)
    · rintro rfl
      rw [rd_not_src hok hc] at hs
      cases hs
    · rintro ⟨ρ, hρ, _⟩
      rw [hok.disjM r ρ hρ] at hs
      cases hs

theorem srcOk_of_same {σ : Shape} {h h1 : Heap} (hok : SrcOk h σ)
    (hss : SrcSame σ h h1) (hl : h.cells.length ≤ h1.cells.length)
    (hlm : h.maps.length ≤ h1.maps.length) : SrcOk h1 σ :=
  ⟨Nat.le_trans hok.bound_le hl, Nat.le_trans hok.boundM_le hlm,
    hok.pos_lt, hok.src_lt, hok.posM_lt, hok.srcM_lt, hok.disj, hok.disjM,
    fun c x hs hx => hok.cell_typed c x hs (by rw [← hss.1 c hs]; exact hx),
    fun r mo hs hx => hok.map_typed r mo hs (by rw [← hss.2 r hs]; exact hx)⟩

theorem frameK_dload {σ : Shape} {π : List Step} {dst src : Value}
    {rd rs : Nat} {ms : List (Key × Val)} {ks : List Key} {h h1 : Heap}
    (hi : KeyInv σ π dst src rd rs ms h) (hf : FrameK σ π rd ks h h1) :
    SameAt h1 h dst := by
  cases hdst : dst with
  | invalid => trivial
  | direct t x => trivial
  | addr t a q =>
    have hdc := hi.dcell
    rw [hdst] at hdc
    exact hf.2.2.1 a q hdc.1 (fun k _ => dstCell_not_below hi.ok hdc _)

/-- The invariant of the key loop holds after the steps for some keys. -/
theorem keyInv_frameK {σ : Shape} {π : List Step} {dst src : Value}
    {T E : Ty} {rd rs : Nat} {ms : List (Key × Val)} {ks : List Key}
    {h h1 : Heap} (hc : KeyCtx σ π dst src T E rd rs)
    (hi : KeyInv σ π dst src rd rs ms h) (hf : FrameK σ π rd ks h h1) :
    KeyInv σ π dst src rd rs ms h1 := by
  have hss := frameK_srcSame hi.ok hc hf
  refine ⟨srcOk_of_same hi.ok hss hf.1 hf.2.1, ?_, ?_, ?_, ?_,
    Nat.lt_of_lt_of_le hi.rdlt hf.2.1⟩
  · have hdc := hi.dcell
    cases hdst : dst with
    | invalid => trivial
    | direct t x => trivial
    | addr t a q =>
      rw [hdst] at hdc
      exact ⟨Nat.lt_of_lt_of_le hdc.1 hf.1, hdc.2⟩
  · rw [sameAt_load (frameK_dload hi hf)]; exact hi.dload
  · rw [sameAt_load (srcSame_sameAt hss hc.srcIn)]; exact hi.sload
  · rw [hss.2 rs hc.srcM]; exact hi.smap

/-- The steps for some keys keep what the loop needs for another key. -/
theorem keyFit_frameK {σ : Shape} {π : List Step} {dst src : Value}
    {T E : Ty} {rd rs : Nat} {ms : List (Key × Val)} {ks : List Key}
    {h h1 : Heap} (hc : KeyCtx σ π dst src T E rd rs)
    (hi : KeyInv σ π dst src rd rs ms h) (hf : FrameK σ π rd ks h h1)
    {k : Key} (hk : k ∉ ks) (hfit : KeyFit σ π rd h k) :
    KeyFit σ π rd h1 k := by
  have hne : ∀ k' ∈ ks, π ++ [Step.key k'] ≠ π ++ [Step.key k] :=
    fun k' hk' => key_snoc_ne π (fun he => hk (he ▸ hk'))
  refine ⟨⟨fun c ρ x hcp hρ hx => ?_, fun r ρ mo hr hρ hmo => ?_⟩,
    fun md1 y hmd1 hy => ?_⟩
  · have hlt : c < h.cells.length :=
      Nat.lt_of_lt_of_le (hi.ok.pos_lt c ρ hcp) hi.ok.bound_le
    have := cells_of_read (hf.2.2.1 c [] hlt (fun k' hk' hb =>
      hne k' hk' (under_both (under_of_below hb) ⟨ρ, hcp, hρ⟩ (by simp))))
    rw [this] at hx
    exact hfit.1.1 c ρ x hcp hρ hx
  · have hlt : r < h.maps.length :=
      Nat.lt_of_lt_of_le (hi.ok.posM_lt r ρ hr) hi.ok.boundM_le
    have hnr : r ≠ rd := by
      rintro rfl
      exact rd_not_underM hi.ok hc _ ⟨ρ, hr, hρ⟩
    have := hf.2.2.2.1 r hlt hnr (fun k' hk' hb =>
      hne k' hk' (underM_both hb ⟨ρ, hr, hρ⟩ (by simp)))
    rw [this] at hmo
    exact hfit.1.2 r ρ mo hr hρ hmo
  · obtain ⟨md, md', hmd, hmd', hlk⟩ := hf.2.2.2.2
    rw [hmd'] at hmd1
    injection hmd1 with hmd1
    subst hmd1
    rw [hlk k hk] at hy
    exact hfit.2 md y hmd hy

theorem frameK_trans {σ : Shape} {π : List Step} {rd : Nat} {k : Key}
    {ks : List Key}
    {h hk h1 : Heap} (h01 : FrameK σ π rd [k] h hk)
    (h12 : FrameK σ π rd ks hk h1) : FrameK σ π rd (k :: ks) h h1 := by
  obtain ⟨md, md', hmd, hmd', hlk⟩ := h01.2.2.2.2
  obtain ⟨md1, md'', hmd1, hmd'', hlk'⟩ := h12.2.2.2.2
  rw [hmd'] at hmd1
  injection hmd1 with hmd1
  subst hmd1
  refine ⟨Nat.le_trans h01.1 h12.1, Nat.le_trans h01.2.1 h12.2.1,
    fun c r hc hnb => ?_, fun i hi hne hnu => ?_, md, md'', hmd, hmd'',
    fun k' hk' => ?_⟩
  · rw [h12.2.2.1 c r (Nat.lt_of_lt_of_le hc h01.1)
      (fun k' hk' => hnb k' (List.mem_cons_of_mem _ hk'))]
    exact h01.2.2.1 c r hc
      (fun k' hk' => hnb k' (by rw [List.mem_singleton.mp hk']; simp))
  · rw [h12.2.2.2.1 i (Nat.lt_of_lt_of_le hi h01.2.1) hne
      (fun k' hk' => hnu k' (List.mem_cons_of_mem _ hk'))]
    exact h01.2.2.2.1 i hi hne
      (fun k' hk' => hnu k' (by rw [List.mem_singleton.mp hk']; simp))
  · rw [hlk' k' (fun hm => hk' (List.mem_cons_of_mem _ hm))]
    exact hlk k' (fun hm => hk' (by rw [List.mem_singleton.mp hm]; simp))

/-- The key loop: its frame, and its second run. -/
theorem keys_main {H : Host} {m : porter} {o : Options} {n : Nat}
    (ho : o.Overwrite = true)
    (hmf : m.mergeFuncs = []) (hcf : m.convertFuncs = [])
    (hrec : Main H m o n) {σ : Shape} (hm : ModeOk o σ) {π : List Step}
    {dst src : Value}
    {T E : Ty} {rd rs : Nat} {ms : List (Key × Val)}
    (hc : KeyCtx σ π dst src T E rd rs) :
    ∀ (ks : List Key) (h h1 : Heap), ks.Nodup →
      (∀ k ∈ ks, k ∈ ms.map Prod.fst) → KeyInv σ π dst src rd rs ms h →
      (∀ k ∈ ks, KeyFit σ π rd h k) →
      mergeMapKeys H m n (m.deepMerge H n) dst src o ks h = .ok () h1 →
      FrameK σ π rd ks h h1 ∧ ∃ n0, ∀ g, AgreeK σ π dst rd ks h h1 g →
        ∀ j, n0 ≤ j → ∃ g',
          mergeMapKeys H m j (m.deepMerge H j) dst src o ks g = .ok () g' ∧
            Quiet g g' := by
  intro ks
  induction ks with
  | nil =>
    intro h h1 _ _ hi _ hrun
    simp only [mergeMapKeys, M.pure_apply] at hrun
    injection hrun with _ hrun
    subst hrun
    obtain ⟨md, hmd⟩ : ∃ md, h.maps[rd]? = some md :=
      ⟨_, List.getElem?_eq_getElem hi.rdlt⟩
    exact ⟨⟨Nat.le_refl _, Nat.le_refl _, fun _ _ _ _ => rfl,
      fun _ _ _ _ => rfl, md, md, hmd, hmd, fun _ _ => rfl⟩, 0,
      fun g _ j _ => ⟨g, rfl, quiet_refl g⟩⟩
  | cons k ks ih =>
    intro h h1 hnd hsub hi hfit hrun
    simp only [mergeMapKeys, M.bind_apply] at hrun
    cases hstep : mergeMapKey H m n (m.deepMerge H n) dst src o k h with
    | fail e g1 => simp [hstep] at hrun
    | ok u hk =>
      simp only [hstep] at hrun
      have hkn : k ∉ ks := (List.nodup_cons.mp hnd).1
      obtain ⟨hf1, n1, hs1⟩ := key_main ho hmf hcf hrec hm hc hi
        (hfit k (List.mem_cons_self k ks)) (hsub k (List.mem_cons_self k ks))
        hstep
      have hik := keyInv_frameK hc hi hf1
      obtain ⟨hf2, n2, hs2⟩ := ih hk h1 (List.nodup_cons.mp hnd).2
        (fun k' hk' => hsub k' (List.mem_cons_of_mem _ hk')) hik
        (fun k' hk' => keyFit_frameK hc hi hf1
          (by
            intro hm1
            rw [List.mem_singleton.mp hm1] at hk'
            exact hkn hk')
          (hfit k' (List.mem_cons_of_mem _ hk'))) hrun
      refine ⟨frameK_trans hf1 hf2, max n1 n2, fun g hag j hj => ?_⟩
      obtain ⟨mg, md'', hmg, hmd'', hlkg⟩ := hag.2.2.2.2.2
      obtain ⟨mdk, md2, hmdk, hmd2, hlk2⟩ := hf2.2.2.2.2
      rw [hmd''] at hmd2
      injection hmd2 with hmd2
      subst hmd2
      have hposlt : ∀ c, (∃ ρ, σ.cellPos c = some ρ) → c < h.cells.length :=
        fun c ⟨ρ, hρ⟩ => Nat.lt_of_lt_of_le (hi.ok.pos_lt c ρ hρ) hi.ok.bound_le
      -- the heap agrees with the outcome of the first step
      have hag1 : AgreeK σ π dst rd [k] h hk g := by
        refine ⟨Nat.le_trans hf2.1 hag.1, Nat.le_trans hf2.2.1 hag.2.1,
          fun c hcl hreg => ?_, fun i hil hreg => ?_, ?_, mg, mdk, hmg, hmdk,
          fun k' hk' => ?_⟩
        · rw [hag.2.2.1 c (Nat.lt_of_lt_of_le hcl hf2.1) (by
            rcases hreg with ⟨k', hk', hu⟩ | hge | hs
            · exact Or.inl ⟨k', by
                rw [List.mem_singleton.mp hk']; simp, hu⟩
            · exact Or.inr (Or.inl hge)
            · exact Or.inr (Or.inr hs))]
          refine cells_of_read (hf2.2.2.1 c [] hcl (fun k' hk' hb => ?_))
          rcases hreg with ⟨k0, hk0, hu⟩ | hge | hs
          · rw [List.mem_singleton.mp hk0] at hu
            exact key_snoc_ne π (fun he : k' = k => hkn (he ▸ hk'))
              (under_both (under_of_below hb) hu (by simp))
          · obtain ⟨ρ, hρ, _⟩ := hb
            exact absurd (hposlt c ⟨ρ, hρ⟩) (Nat.not_lt.mpr hge)
          · obtain ⟨ρ, hρ, _⟩ := hb
            rw [hi.ok.disj c ρ hρ] at hs
            cases hs
        · rw [hag.2.2.2.1 i (Nat.lt_of_lt_of_le hil hf2.2.1) (by
            rcases hreg with ⟨k', hk', hu⟩ | hge | hs
            · exact Or.inl ⟨k', by
                rw [List.mem_singleton.mp hk']; simp, hu⟩
            · exact Or.inr (Or.inl hge)
            · exact Or.inr (Or.inr hs))]
          refine hf2.2.2.2.1 i hil ?_ (fun k' hk' hb => ?_)
          · rintro rfl
            rcases hreg with ⟨k0, hk0, hu⟩ | hge | hs
            · exact rd_not_underM hi.ok hc _ hu
            · exact absurd hi.rdlt (Nat.not_lt.mpr hge)
            · rw [rd_not_src hi.ok hc] at hs
              cases hs
          · rcases hreg with ⟨k0, hk0, hu⟩ | hge | hs
            · rw [List.mem_singleton.mp hk0] at hu
              exact key_snoc_ne π (fun he : k' = k => hkn (he ▸ hk'))
                (underM_both hb hu (by simp))
            · obtain ⟨ρ, hρ, _⟩ := hb
              exact absurd (Nat.lt_of_lt_of_le (hi.ok.posM_lt i ρ hρ)
                hi.ok.boundM_le) (Nat.not_lt.mpr hge)
            · obtain ⟨ρ, hρ, _⟩ := hb
              rw [hi.ok.disjM i ρ hρ] at hs
              cases hs
        · exact sameAt_trans hag.2.2.2.2.1 (frameK_dload hik hf2)
        · rw [List.mem_singleton.mp hk']
          rw [hlkg k (List.mem_cons_self k ks)]
          exact hlk2 k hkn
      obtain ⟨g1, hg1, hq1⟩ := hs1 g hag1 j (le_of_max_le_left hj)
      -- and the heap after the step with the outcome of the loop
      have hag2 : AgreeK σ π dst rd ks hk h1 g1 := by
        refine ⟨Nat.le_trans hag.1 (quiet_length_le hq1),
          by rw [hq1.2]; exact hag.2.1,
          fun c hcl hreg => ?_, fun i hil hreg => ?_, ?_, mg, md'',
          by rw [hq1.2]; exact hmg, hmd'',
          fun k' hk' => hlkg k' (List.mem_cons_of_mem _ hk')⟩
        · rw [quiet_cell hq1 (Nat.lt_of_lt_of_le hcl hag.1)]
          refine hag.2.2.1 c hcl ?_
          rcases hreg with ⟨k', hk', hu⟩ | hge | hs
          · exact Or.inl ⟨k', List.mem_cons_of_mem _ hk', hu⟩
          · exact Or.inr (Or.inl (Nat.le_trans hf1.1 hge))
          · exact Or.inr (Or.inr hs)
        · rw [hq1.2]
          refine hag.2.2.2.1 i hil ?_
          rcases hreg with ⟨k', hk', hu⟩ | hge | hs
          · exact Or.inl ⟨k', List.mem_cons_of_mem _ hk', hu⟩
          · exact Or.inr (Or.inl (Nat.le_trans hf1.2.1 hge))
          · exact Or.inr (Or.inr hs)
        · have hsa := hag.2.2.2.2.1
          cases hdst : dst with
          | invalid => trivial
          | direct t x => trivial
          | addr t a q =>
            rw [hdst] at hsa
            have hdc := hi.dcell
            rw [hdst] at hdc
            show g1.read a q = h1.read a q
            rw [quiet_read hq1 (Nat.lt_of_lt_of_le hdc.1
              (Nat.le_trans (Nat.le_trans hf1.1 hf2.1) hag.1))]
            exact hsa
      obtain ⟨g2, hg2, hq2⟩ := hs2 g1 hag2 j (le_of_max_le_right hj)
      refine ⟨g2, ?_, quiet_trans hq1 hq2⟩
      simp only [mergeMapKeys, M.bind_apply, hg1, hg2]

theorem mapLookup_mem_key {k : Key} {v : Val} : ∀ {m : List (Key × Val)},
    mapLookup k m = some v → (k, v) ∈ m
  | [], h => by simp [mapLookup] at h
  | (k1, v1) :: m, h => by
    simp only [mapLookup] at h
    by_cases h1 : k1 = k
    · simp only [h1, if_true, Option.some.injEq] at h
      subst h1 h
      exact List.mem_cons_self _ _
    · simp only [h1, if_false] at h
      exact List.mem_cons_of_mem _ (mapLookup_mem_key h)

/-- What a successful run of the map case of `deepMerge` did. -/
theorem deepMerge_map_inv (H : Host) (m : porter) (o : Options) (n : Nat)
    {T : Ty} {dst src : Value} {h h1 : Heap}
    (hk : T.kind = .Map) (hreg : tableLookup T m.mergeFuncs = none)
    (hdt : dst.typ = .ok T) (hst : src.typ = .ok T)
    (hrun : m.deepMerge H (n + 1) dst src o h = .ok () h1) :
    (src.IsNil h = .ok true ∧ h1 = h) ∨
    (src.IsNil h = .ok false ∧ ∃ hb keys,
      ((dst.IsNil h = .ok false ∧ hb = h) ∨
       (dst.IsNil h = .ok true ∧
        dst.Set (.direct T (.map (some h.maps.length))) h.allocMap.1 =
          .ok hb)) ∧
      src.MapKeys hb = .ok keys ∧
      mergeMapKeys H m n (m.deepMerge H n) dst src o keys hb = .ok () h1) := by
  simp only [porter.deepMerge, porter.deepMergeBody, M.bind_apply, M.rd_apply,
    hdt, hst, ne_eq, not_true_eq_false, if_false, hreg,
    Value.kind_of_typ hdt, hk] at hrun
  cases hsn : src.IsNil h with
  | error e => simp [hsn] at hrun
  | ok b =>
    cases b with
    | true =>
      simp only [hsn, if_true, M.pure_apply] at hrun
      injection hrun with _ hrun
      exact Or.inl ⟨rfl, hrun.symm⟩
    | false =>
      refine Or.inr ⟨rfl, ?_⟩
      simp only [hsn, Bool.false_eq_true, if_false, M.bind_apply,
        M.rd_apply] at hrun
      have htail : ∀ hb, ((M.rd (fun h => src.MapKeys h)) >>= fun keys =>
            mergeMapKeys H m n (m.deepMerge H n) dst src o keys) hb =
            .ok () h1 →
          ∃ keys, src.MapKeys hb = .ok keys ∧
            mergeMapKeys H m n (m.deepMerge H n) dst src o keys hb =
              .ok () h1 := by
        intro hb ht
        simp only [M.bind_apply, M.rd_apply] at ht
        cases hmk : src.MapKeys hb with
        | error e => simp [hmk] at ht
        | ok keys =>
          simp only [hmk] at ht
          exact ⟨keys, rfl, ht⟩
      cases hdn : dst.IsNil h with
      | error e => simp [hdn] at hrun
      | ok bd =>
        cases bd with
        | false =>
          simp only [hdn, Bool.false_eq_true, if_false, M.pure_apply,
            M.bind_apply, M.rd_apply] at hrun
          obtain ⟨keys, h1k, h2k⟩ := htail h (by
            simp only [M.bind_apply, M.rd_apply]; exact hrun)
          exact ⟨h, keys, Or.inl ⟨rfl, rfl⟩, h1k, h2k⟩
        | true =>
          simp only [hdn, if_true, MakeMap, M.bind_apply, M.upd_apply]
            at hrun
          cases hset : dst.Set (.direct T (.map (some h.allocMap.2)))
              h.allocMap.1 with
          | error e => simp [hset] at hrun
          | ok hb =>
            simp only [hset] at hrun
            obtain ⟨keys, h1k, h2k⟩ := htail hb (by
              simp only [M.bind_apply, M.rd_apply]; exact hrun)
            exact ⟨hb, keys, Or.inr ⟨rfl, hset⟩, h1k, h2k⟩

/-- The map case of `deepMerge`: the frame, and the second run. -/
theorem map_main {H : Host} {m : porter} {o : Options} {n : Nat}
    (ho : o.Overwrite = true)
    (hmf : m.mergeFuncs = []) (hcf : m.convertFuncs = [])
    (hrec : Main H m o n) {σ : Shape} {π : List Step} {dst src : Value}
    {T : Ty} {h h1 : Heap} (hm : ModeOk o σ)
    (hk : T.kind = .Map) (hreg : tableLookup T m.mergeFuncs = none)
    (hdt : dst.typ = .ok T) (hst : src.typ = .ok T)
    (hok : SrcOk h σ) (hw : WellShaped h σ π) (hd : DstAt h σ π dst)
    (hs : SrcIn σ src)
    (hrun : m.deepMerge H (n + 1) dst src o h = .ok () h1) :
    Frame h h1 σ π dst ∧
      Settled σ π dst h h1 (fun k => m.deepMerge H k dst src o) := by
  rcases deepMerge_map_inv H m o n hk hreg hdt hst hrun with
    ⟨hsn, rfl⟩ | ⟨hsn, hb, keys, hpre, hkeys, hloop⟩
  · refine ⟨frame_refl _ _ _ _, 1, fun g hag k hk' => ⟨g, ?_, quiet_refl g⟩⟩
    obtain ⟨j, rfl⟩ : ∃ j, k = j + 1 := ⟨k - 1, by omega⟩
    have hsg := agree_src hok hd hs (frame_refl _ _ _ _) hag
    exact deepMerge_nil_source H m j o (Or.inl hk) hreg hdt
      hst (by rw [sameAt_isNil hsg]; exact hsn)
  · obtain ⟨x, d, nn, hxl, hxt⟩ := srcIn_load hok hs hst
    rcases typed_map hk hxt with rfl | ⟨rs, rfl, hsrm, hel, _, _⟩
    · simp [Value.IsNil, Value.kind_of_typ hst, hk, hxl] at hsn
    -- the heap `hb` in which the keys are merged
    have hP : ∃ rd, h.cells.length ≤ hb.cells.length ∧
        h.maps.length ≤ hb.maps.length ∧
        (∀ c r, c < h.cells.length → Free dst c r →
          hb.read c r = h.read c r) ∧
        (∀ i, i < h.maps.length → hb.maps[i]? = h.maps[i]?) ∧
        dst.load hb = .ok (.map (some rd)) ∧ rd < hb.maps.length ∧
        (σ.mapPos rd = some π ∨ h.maps.length ≤ rd) ∧
        (∀ k md y, hb.maps[rd]? = some md → mapLookup k md = some y →
          y.fits σ (π ++ [.key k]) = true) := by
      rcases hpre with ⟨hdn, rfl⟩ | ⟨hdn, hset0⟩
      · obtain ⟨y, _, _, hyl, _⟩ : ∃ y, True ∧ True ∧ dst.load hb = .ok y ∧
            True := by
          cases hl : dst.load hb with
          | error e => simp [Value.IsNil, Value.kind_of_typ hdt, hk, hl] at hdn
          | ok y => exact ⟨y, trivial, trivial, rfl, trivial⟩
        have hfit := dstAt_load hd hyl
        cases y with
        | map r =>
          cases r with
          | none =>
            simp [Value.IsNil, Value.kind_of_typ hdt, hk, hyl] at hdn
          | some rd =>
            simp only [Val.fits, decide_eq_true_eq] at hfit
            refine ⟨rd, Nat.le_refl _, Nat.le_refl _, fun _ _ _ _ => rfl,
              fun _ _ => rfl, hyl,
              Nat.lt_of_lt_of_le (hok.posM_lt rd π hfit) hok.boundM_le,
              Or.inl hfit, fun k md y hmd hy => ?_⟩
            exact hw.2 rd π md hfit (List.prefix_refl _) hmd (k, y)
              (mapLookup_mem_key hy)
        | _ => simp [Value.IsNil, Value.kind_of_typ hdt, hk, hyl] at hdn
      · have hfa := frameAt_set hset0
        have hml : hb.maps = h.maps ++ [[]] := hfa.2.1
        refine ⟨h.maps.length, hfa.1, by rw [hml]; simp,
          fun c r hc hfree => hfa.2.2 c r hc hfree,
          fun i hi => by rw [hml, List.getElem?_append_left hi], ?_,
          by rw [hml]; simp, Or.inr (Nat.le_refl _),
          fun k md y hmd hy => ?_⟩
        · cases dst with
          | invalid => simp [Value.Set] at hset0
          | direct t x => simp [Value.Set] at hset0
          | addr t a q =>
            simp only [Value.typ, Except.ok.injEq] at hdt
            subst hdt
            have hki : t.kind ≠ .Interface := by rw [hk]; decide
            simp only [Value.Set, Value.typ, Value.load] at hset0
            split at hset0
            · cases hwr : h.allocMap.1.write a q
                  (assignTo t t (.map (some h.maps.length))) with
              | none => simp [hwr] at hset0
              | some hb' =>
                simp only [hwr, Except.ok.injEq] at hset0
                subst hset0
                have hrd := Heap.read_write hwr
                simp only [Value.load, hrd, assignTo, hki, false_and,
                  if_false]
            · cases hset0
        · rw [hml, List.getElem?_append_right (Nat.le_refl _)] at hmd
          simp at hmd
          subst hmd
          simp [mapLookup] at hy
    obtain ⟨rd, hP1, hP2, hP3, hP4, hP5, hP6, hP7, hP8⟩ := hP
    have hdc : DstCell h σ π dst := dstCell_of_dstAt hd
    have hss : SrcSame σ h hb := by
      refine ⟨fun c hc => ?_, fun r hr => hP4 r
        (Nat.lt_of_lt_of_le (hok.srcM_lt r hr) hok.boundM_le)⟩
      refine cells_of_read (hP3 c []
        (Nat.lt_of_lt_of_le (hok.src_lt c hc) hok.bound_le) ?_)
      cases hdst : dst with
      | invalid => trivial
      | direct t x => trivial
      | addr t a q =>
        intro hca
        exfalso
        rw [hdst] at hdc
        rw [hca, dstCell_not_src hok hdc] at hc
        cases hc
    have hokb : SrcOk hb σ := srcOk_of_same hok hss hP1 hP2
    have hsl : src.load hb = .ok (.map (some rs)) := by
      rw [sameAt_load (srcSame_sameAt hss hs)]; exact hxl
    obtain ⟨ms, hms, rfl⟩ : ∃ ms, hb.maps[rs]? = some ms ∧
        keys = ms.map Prod.fst := by
      simp only [Value.MapKeys, Value.kind_of_typ hst, hk, hsl] at hkeys
      cases hr : hb.maps[rs]? with
      | none => simp [hr] at hkeys
      | some ms =>
        simp only [hr, Except.ok.injEq] at hkeys
        exact ⟨ms, rfl, hkeys.symm⟩
    have hc : KeyCtx σ π dst src T (σ.mapTy rs) rd rs :=
      ⟨hk, hdt, hst, hel, rfl, hsrm, hs,
        hP7.imp id (fun hge => Nat.le_trans hok.boundM_le hge)⟩
    have hi : KeyInv σ π dst src rd rs ms hb := by
      refine ⟨hokb, ?_, hP5, hsl, hms, hP6⟩
      cases hdst : dst with
      | invalid => trivial
      | direct t x => trivial
      | addr t a q =>
        rw [hdst] at hdc
        exact ⟨Nat.lt_of_lt_of_le hdc.1 hP1, hdc.2⟩
    have hfit : ∀ k ∈ ms.map Prod.fst, KeyFit σ π rd hb k := by
      intro k _
      refine ⟨⟨fun c ρ y hcp hρ hy => ?_, fun r ρ mo hr hρ hmo => ?_⟩,
        hP8 k⟩
      · have hlt : c < h.cells.length :=
          Nat.lt_of_lt_of_le (hok.pos_lt c ρ hcp) hok.bound_le
        have hfree : Free dst c [] := by
          cases hdst : dst with
          | invalid => trivial
          | direct t x => trivial
          | addr t a q =>
            intro hca
            subst hca
            rw [hdst] at hd
            exact absurd ⟨ρ, hcp, hρ⟩
              (dstAt_not_under hok hd (not_prefix_snoc π _))
        rw [cells_of_read (hP3 c [] hlt hfree)] at hy
        exact hw.1 c ρ y hcp ((List.prefix_append _ _).trans hρ) hy
      · rw [hP4 r (Nat.lt_of_lt_of_le (hok.posM_lt r ρ hr) hok.boundM_le)]
          at hmo
        exact hw.2 r ρ mo hr ((List.prefix_append _ _).trans hρ) hmo
    obtain ⟨hfk, n0, hs2⟩ := keys_main ho hmf hcf hrec hm hc (ms.map Prod.fst)
      hb h1 (hokb.map_typed rs ms hsrm hms).1 (fun _ hk' => hk') hi hfit hloop
    have hrdne : ∀ i, i < h.maps.length → ¬ σ.underM π i → i ≠ rd := by
      rintro i hil hnu rfl
      rcases hP7 with hp | hge
      · exact hnu ⟨π, hp, List.prefix_refl _⟩
      · exact absurd hil (Nat.not_lt.mpr hge)
    have hfr : Frame h h1 σ π dst := by
      refine ⟨Nat.le_trans hP1 hfk.1, Nat.le_trans hP2 hfk.2.1,
        fun c r hcl hnb hfree => ?_, fun i hil hnu => ?_⟩
      · rw [hfk.2.2.1 c r (Nat.lt_of_lt_of_le hcl hP1) (fun k _ hb' =>
          hnb (below_mono (List.prefix_append _ _) hb'))]
        exact hP3 c r hcl hfree
      · rw [hfk.2.2.2.1 i (Nat.lt_of_lt_of_le hil hP2) (hrdne i hil hnu)
          (fun k _ hb' => hnu (underM_mono (List.prefix_append _ _) hb'))]
        exact hP4 i hil
    refine ⟨hfr, n0 + 1, fun g hag k hk' => ?_⟩
    obtain ⟨j, rfl⟩ : ∃ j, k = j + 1 := ⟨k - 1, by omega⟩
    have hrd1 : rd < h1.maps.length := Nat.lt_of_lt_of_le hP6 hfk.2.1
    obtain ⟨md', hmd'⟩ : ∃ md', h1.maps[rd]? = some md' :=
      ⟨_, List.getElem?_eq_getElem hrd1⟩
    have hagk : AgreeK σ π dst rd (ms.map Prod.fst) hb h1 g := by
      refine ⟨hag.1, hag.2.1, fun c hcl hreg => hag.2.2.1 c hcl ?_,
        fun i hil hreg => hag.2.2.2.1 i hil ?_, agree_dst hag, md', md',
        ?_, hmd', fun _ _ => rfl⟩
      · rcases hreg with ⟨k, _, hu⟩ | hge | hsc
        · exact Or.inl (under_mono (List.prefix_append _ _) hu)
        · exact Or.inr (Or.inl (Nat.le_trans hP1 hge))
        · exact Or.inr (Or.inr hsc)
      · rcases hreg with ⟨k, _, hu⟩ | hge | hsc
        · exact Or.inl (underM_mono (List.prefix_append _ _) hu)
        · exact Or.inr (Or.inl (Nat.le_trans hP2 hge))
        · exact Or.inr (Or.inr hsc)
      · rw [hag.2.2.2.1 rd hrd1 (by
          rcases hP7 with hp | hge
          · exact Or.inl ⟨π, hp, List.prefix_refl _⟩
          · exact Or.inr (Or.inl hge))]
        exact hmd'
    obtain ⟨g', hg', hq⟩ := hs2 g hagk j (by omega)
    refine ⟨g', ?_, hq⟩
    obtain ⟨_, _, hdlg, hslg, hsmg⟩ := agreeK_facts hc hi hfk hagk
    show m.deepMerge H (j + 1) dst src o g = .ok () g'
    rw [deepMerge_map_step H m j o hk hreg hdt hst
      (by simp [Value.IsNil, Value.kind_of_typ hst, hk, hslg])
      (by simp [Value.IsNil, Value.kind_of_typ hdt, hk, hdlg])
      (show src.MapKeys g = .ok (ms.map Prod.fst) by
        simp [Value.MapKeys, Value.kind_of_typ hst, hk, hslg, hsmg])]
    exact hg'

/-! ## Merging twice: deepMerge, defaultMerge and merge -/

/-- A successful run of `deepMerge` had two values of one type. -/
theorem deepMerge_types (H : Host) (m : porter) (n : Nat) (o : Options)
    {dst src : Value} {h h1 : Heap}
    (hrun : m.deepMerge H (n + 1) dst src o h = .ok () h1) :
    ∃ T, dst.typ = .ok T ∧ src.typ = .ok T := by
  simp only [porter.deepMerge, porter.deepMergeBody, M.bind_apply,
    M.rd_apply] at hrun
  cases hdt : dst.typ with
  | error e => simp [hdt] at hrun
  | ok T =>
    cases hst : src.typ with
    | error e => simp [hdt, hst] at hrun
    | ok T' =>
      by_cases hne : T = T'
      · subst hne
        exact ⟨T, rfl, rfl⟩
      · simp [hdt, hst, hne, M.fail] at hrun

/-- With overwriting, a slice mode other than Append and no registered
function, a successful merge of a value of the source into the destination changes the
destination only, and running it again afterwards changes nothing. -/
theorem main_all {H : Host} {m : porter} {o : Options}
    (ho : o.Overwrite = true)
    (hmf : m.mergeFuncs = []) (hcf : m.convertFuncs = []) :
    ∀ n, Main H m o n := by
  intro n
  induction n with
  | zero =>
    intro σ π dst src h h1 _ _ _ _ _ hrun
    simp [porter.deepMerge, M.fail] at hrun
  | succ n ih =>
    intro σ π dst src h h1 hm hok hw hd hs hrun
    obtain ⟨T, hdt, hst⟩ := deepMerge_types H m n o hrun
    have hreg : tableLookup T m.mergeFuncs = none := by
      rw [hmf]; rfl
    by_cases h1k : T.kind = .Struct
    · cases hun : hasUnexportedField T with
      | true =>
        exact leaf_main ho (fun k g =>
          deepMerge_struct_unexported H m k o h1k hun hreg hdt hst g)
          hok hd hs hrun
      | false => exact struct_main ih hm h1k hun hreg hdt hst hok hw hd hs hrun
    by_cases h2k : T.kind = .Map
    · exact map_main ho hmf hcf ih hm h2k hreg hdt hst hok hw hd hs hrun
    by_cases h3k : T.kind = .Slice
    · exact slice_main ho hm h3k hreg hdt hst hok hd hs hrun
    by_cases h4k : T.kind = .Ptr
    · exact ptr_main ih hm h4k hreg hdt hst hok hw hd hs hrun
    by_cases h5k : T.kind = .Interface
    · exact iface_main ho hcf ih hm h5k hreg hdt hst hok hw hd hs hrun
    exact leaf_main ho (fun k g =>
      deepMerge_other_kind H m k o h1k h2k h3k h4k h5k hreg hdt hst g)
      hok hd hs hrun

/-- What a successful run of `merge` with a source that is not nil did. -/
theorem merge_inv (H : Host) (n : Nat) (dst : Iface) (s : Ty × Val)
    (o : Options) {h h1 : Heap}
    (hrun : merge H n dst (some s) o h = .ok () h1) :
    ∃ vDst vSrc h', resolveValues n dst (some s) h = .ok (vDst, vSrc) ∧
      o.delegate.defaultMerge H n vDst vSrc o h = .ok () h' ∧
      vDst.Set vDst h' = .ok h1 := by
  simp only [merge, Option.isNone_some, Bool.false_eq_true, if_false,
    M.bind_apply, M.rd_apply] at hrun
  cases hres : resolveValues n dst (some s) h with
  | error f => simp [hres] at hrun
  | ok p =>
    obtain ⟨vDst, vSrc⟩ := p
    simp only [hres] at hrun
    cases hdm : o.delegate.defaultMerge H n vDst vSrc o h with
    | fail e g => simp [hdm] at hrun
    | ok u h' =>
      simp only [hdm, M.upd_apply] at hrun
      cases hset : vDst.Set vDst h' with
      | error f => simp [hset] at hrun
      | ok h2 =>
        simp only [hset] at hrun
        injection hrun with _ hrun
        subst hrun
        exact ⟨vDst, vSrc, h', rfl, hdm, hset⟩

theorem resolveValues_inv {n : Nat} {dst src : Iface} {h : Heap}
    {vDst vSrc : Value}
    (hres : resolveValues n dst src h = .ok (vDst, vSrc)) :
    dst.isNone = false ∧ (ValueOf dst).kind = .Ptr ∧
      derefPtr h n (ValueOf dst) = .ok vDst ∧ vDst.IsValid = true ∧
      derefPtr h n (ValueOf src) = .ok vSrc ∧ vSrc.IsValid = true := by
  unfold resolveValues at hres
  cases hdn : dst.isNone with
  | true => simp [hdn] at hres
  | false =>
    by_cases hk : (ValueOf dst).kind = .Ptr
    · simp only [hdn, Bool.false_eq_true, if_false, ne_eq, hk,
        not_true_eq_false] at hres
      cases hd : derefPtr h n (ValueOf dst) with
      | error f => simp [hd] at hres
      | ok d =>
        simp only [hd] at hres
        cases hdv : d.IsValid with
        | false => simp [hdv] at hres
        | true =>
          simp only [hdv, Bool.not_true, Bool.false_eq_true, if_false] at hres
          cases hs : derefPtr h n (ValueOf src) with
          | error f => simp [hs] at hres
          | ok s =>
            simp only [hs] at hres
            cases hsv : s.IsValid with
            | false => simp [hsv] at hres
            | true =>
              simp only [hsv, Bool.not_true, Bool.false_eq_true, if_false,
                Except.ok.injEq, Prod.mk.injEq] at hres
              obtain ⟨rfl, rfl⟩ := hres
              exact ⟨rfl, hk, rfl, hdv, rfl, hsv⟩
    · simp [hdn, hk] at hres

theorem resolveValues_of {n : Nat} {dst src : Iface} {h : Heap}
    {vDst vSrc : Value} (h1 : dst.isNone = false)
    (h2 : (ValueOf dst).kind = .Ptr)
    (h3 : derefPtr h n (ValueOf dst) = .ok vDst) (h4 : vDst.IsValid = true)
    (h5 : derefPtr h n (ValueOf src) = .ok vSrc) (h6 : vSrc.IsValid = true) :
    resolveValues n dst src h = .ok (vDst, vSrc) := by
  simp [resolveValues, h1, h2, h3, h4, h5, h6]

/-- A merge keeps the source. -/
theorem frame_srcSame {σ : Shape} {h h1 : Heap} {π : List Step} {dst : Value}
    (hok : SrcOk h σ) (hd : DstAt h σ π dst) (hf : Frame h h1 σ π dst) :
    SrcSame σ h h1 := by
  have hdc := dstCell_of_dstAt hd
  refine ⟨fun c hc => ?_, fun r hr => ?_⟩
  · have hlt : c < h.cells.length :=
      Nat.lt_of_lt_of_le (hok.src_lt c hc) hok.bound_le
    refine cells_of_read (hf.2.2.1 c [] hlt ?_ ?_)
    · rintro ⟨ρ, hρ, _⟩
      rw [hok.disj c ρ hρ] at hc
      cases hc
    · cases hdst : dst with
      | invalid => trivial
      | direct t x => trivial
      | addr t a q =>
        intro hca
        exfalso
        rw [hdst] at hdc
        rw [hca, dstCell_not_src hok hdc] at hc
        cases hc
  · refine hf.2.2.2 r
      (Nat.lt_of_lt_of_le (hok.srcM_lt r hr) hok.boundM_le) ?_
    rintro ⟨ρ, hρ, _⟩
    rw [hok.disjM r ρ hρ] at hr
    cases hr

theorem agree_self (σ : Shape) (π : List Step) (dst : Value) (h h1 : Heap) :
    Agree σ π dst h h1 h1 := by
  refine ⟨Nat.le_refl _, Nat.le_refl _, fun _ _ _ => rfl, fun _ _ _ => rfl,
    ?_⟩
  cases dst <;> trivial

/-- The function `defaultMerge`: the frame, and the second run. -/
theorem defaultMerge_main {H : Host} {m : porter} {o : Options}
    (ho : o.Overwrite = true)
    (hmf : m.mergeFuncs = []) (hcf : m.convertFuncs = []) {n : Nat}
    {σ : Shape} {π : List Step} {dst src : Value} {h h1 : Heap}
    (hm : ModeOk o σ)
    (hok : SrcOk h σ) (hw : WellShaped h σ π) (hd : DstAt h σ π dst)
    (hs : SrcIn σ src)
    (hrun : m.defaultMerge H n dst src o h = .ok () h1) :
    Frame h h1 σ π dst ∧
      Settled σ π dst h h1 (fun k => m.defaultMerge H k dst src o) := by
  simp only [porter.defaultMerge, M.bind_apply, M.rd_apply] at hrun
  cases hdt : dst.typ with
  | error f => simp [hdt] at hrun
  | ok dT =>
    cases hst : src.typ with
    | error f => simp [hdt, hst] at hrun
    | ok sT =>
      simp only [hdt, hst] at hrun
      have heq : ∀ k g, m.defaultMerge H k dst src o g =
          (if dT ≠ sT then m.convert H k (m.deepMerge H k) dst src o
            else m.deepMerge H k dst src o) g := by
        intro k g
        simp only [porter.defaultMerge, M.bind_apply, M.rd_apply, hdt, hst]
      by_cases hne : dT = sT
      · simp only [ne_eq, hne, not_true_eq_false, if_false] at hrun heq
        obtain ⟨hf, n0, hs2⟩ :=
          main_all ho hmf hcf n σ π dst src h h1 hm hok hw hd hs hrun
        exact ⟨hf, n0, fun g hag k hk => by
          show ∃ g', m.defaultMerge H k dst src o g = _ ∧ _
          rw [heq]; exact hs2 g hag k hk⟩
      · simp only [ne_eq, hne, not_false_eq_true, if_true] at hrun heq
        obtain ⟨hf, ⟨n0, hs2⟩, _⟩ :=
          conv_main ho hcf (main_all ho hmf hcf n) hm hok hw hd hs hrun
        exact ⟨hf, n0, fun g hag k hk => by
          show ∃ g', m.defaultMerge H k dst src o g = _ ∧ _
          rw [heq]; exact hs2 g hag k hk⟩

/-- With overwriting, a slice mode other than Append and no registered
function: after a successful `merge` of a source into a destination that shares nothing with
it, a second `merge` with enough fuel succeeds and leaves every cell and every
map object as it is. -/
theorem merge_twice (H : Host) {o : Options}
    (ho : o.Overwrite = true)
    (hmf : o.delegate.mergeFuncs = []) (hcf : o.delegate.convertFuncs = [])
    {σ : Shape} {n : Nat} {dst src : Iface} {h h1 : Heap}
    (hm : ModeOk o σ)
    (hok : SrcOk h σ) (hw : WellShaped h σ []) (hd : DstAt h σ [] (ValueOf dst))
    (hs : SrcIn σ (ValueOf src))
    (hrun : merge H n dst src o h = .ok () h1) :
    ∃ n0, ∀ k, n0 ≤ k → ∃ h2, merge H k dst src o h1 = .ok () h2 ∧
      Quiet h1 h2 := by
  cases src with
  | none =>
    simp only [merge, Option.isNone_none, if_true, M.pure_apply] at hrun
    exact ⟨0, fun k _ => ⟨h1, by simp [merge, M.pure_apply], quiet_refl h1⟩⟩
  | some s =>
    obtain ⟨vDst, vSrc, h', hres, hdm, hset⟩ := merge_inv H n dst s o hrun
    obtain ⟨r1, r2, r3, r4, r5, r6⟩ := resolveValues_inv hres
    obtain ⟨π', hpre, hdE, hcase, hagain⟩ := derefPtr_dst hok n hd hw r3
    obtain ⟨hsE, hsagain⟩ := derefPtr_src hok n hs r5
    obtain ⟨hkp, hki⟩ := derefPtr_kind h n r3
    have hwE : WellShaped h σ π' := wellShaped_mono hw hpre
    obtain ⟨hf, n0, hs2⟩ := defaultMerge_main ho hmf hcf hm hok hwE hdE hsE hdm
    -- the final assignment of the destination to itself
    have h1eq : h1 = h' := by
      cases hv : vDst with
      | invalid => rw [hv] at hset; simp [Value.Set] at hset
      | direct t x => rw [hv] at hset; simp [Value.Set] at hset
      | addr t a q =>
        rw [hv] at hset hki
        have hkt : t.kind ≠ .Interface := hki
        rw [Set_self hkt] at hset
        cases hr : h'.read a q with
        | none => simp [hr] at hset
        | some y =>
          simp only [hr, Except.ok.injEq] at hset
          exact hset.symm
    subst h1eq
    refine ⟨max n n0, fun k hk => ?_⟩
    obtain ⟨g', hg', hq⟩ := hs2 h1 (agree_self σ π' vDst h h1) k
      (le_of_max_le_right hk)
    have hss : SrcSame σ h h1 := frame_srcSame hok hdE hf
    have hd2 : derefPtr h1 k (ValueOf dst) = .ok vDst := by
      refine hagain h1 (Or.inr ?_) (fun c ρ hcp _ hρ hnot => ?_) k
        (le_of_max_le_left hk)
      · cases dst with
        | none => trivial
        | some p => trivial
      · have hlt : c < h.cells.length :=
          Nat.lt_of_lt_of_le (hok.pos_lt c ρ hcp) hok.bound_le
        refine cells_of_read (hf.2.2.1 c [] hlt ?_ ?_)
        · rintro ⟨ρ', hcp', hp', hne'⟩
          rw [hcp] at hcp'
          injection hcp' with hcp'
          subst hcp'
          exact hne' (List.IsPrefix.eq_of_length hρ
            (Nat.le_antisymm hρ.length_le hp'.length_le))
        · cases hv : vDst with
          | invalid => trivial
          | direct t x => trivial
          | addr t a q =>
            intro hca
            exact absurd (hca ▸ hv) (hnot t q)
    have hs2' : derefPtr h1 k (ValueOf (some s)) = .ok vSrc :=
      hsagain h1 hss k (le_of_max_le_left hk)
    have hres2 : resolveValues k dst (some s) h1 = .ok (vDst, vSrc) :=
      resolveValues_of r1 r2 hd2 r4 hs2' r6
    refine ⟨g', ?_, hq⟩
    have hsetg : vDst.Set vDst g' = .ok g' := by
      cases hv : vDst with
      | invalid => rw [hv] at hset; simp [Value.Set] at hset
      | direct t x => rw [hv] at hset; simp [Value.Set] at hset
      | addr t a q =>
        rw [hv] at hset hki
        have hkt : t.kind ≠ .Interface := hki
        rw [Set_self hkt] at hset ⊢
        cases hr : h1.read a q with
        | none => simp [hr] at hset
        | some y =>
          have hlt : a < h1.cells.length := Heap.read_lt hr
          rw [quiet_read hq hlt, hr]
    simp only [merge, Option.isNone_some, Bool.false_eq_true, if_false,
      M.bind_apply, M.rd_apply, hres2, hg', M.upd_apply, hsetg]

/-! ## C3, C33: merging twice -/

theorem exShapeW_srcOk : SrcOk exHeapW exShapeW := by
  refine ⟨by decide, by decide, ?_, ?_, ?_, ?_, ?_, ?_, ?_, ?_⟩
  · intro c ρ h
    rcases c with _ | _ | c <;> simp [exShapeW] at h ⊢
  · intro c h
    simp only [exShapeW, beq_iff_eq] at h
    subst h
    decide
  · intro r ρ h
    rcases r with _ | r <;> simp [exShapeW] at h ⊢
  · intro r h
    simp only [exShapeW, beq_iff_eq] at h
    subst h
    decide
  · intro c ρ h
    rcases c with _ | _ | c <;> simp [exShapeW] at h ⊢
  · intro r ρ h
    rcases r with _ | r <;> simp [exShapeW] at h ⊢
  · intro c x hc hx
    simp only [exShapeW, beq_iff_eq] at hc
    subst hc
    simp only [exHeapW, List.getElem?_cons_succ, List.getElem?_cons_zero,
      Option.some.injEq] at hx
    subst hx
    rfl
  · intro r mo hr hmo
    simp only [exShapeW, beq_iff_eq] at hr
    subst hr
    simp only [exHeapW, List.getElem?_cons_succ, List.getElem?_cons_zero,
      Option.some.injEq] at hmo
    subst hmo
    refine ⟨by decide, fun e he => ?_⟩
    simp only [List.mem_singleton] at he
    subst he
    exact ⟨rfl, fun h => by simp [exShapeW] at h, fun _ => rfl⟩

theorem exShapeW_wellShaped : WellShaped exHeapW exShapeW [] := by
  refine ⟨fun c ρ x hc _ hx => ?_, fun r ρ mo hr _ hmo => ?_⟩
  · rcases c with _ | _ | c
    · simp only [exShapeW, Option.some.injEq] at hc
      simp only [exHeapW, List.getElem?_cons_zero, Option.some.injEq] at hx
      subst hc hx
      simp [Val.fits, Val.fitsFields, exShapeW]
    · simp only [exShapeW, Option.some.injEq] at hc
      simp only [exHeapW, List.getElem?_cons_succ, List.getElem?_cons_zero,
        Option.some.injEq] at hx
      subst hc hx
      simp [Val.fits]
    · simp [exShapeW] at hc
  · rcases r with _ | r
    · simp only [exShapeW, Option.some.injEq] at hr
      simp only [exHeapW, List.getElem?_cons_zero, Option.some.injEq] at hmo
      subst hr hmo
      intro e he
      simp only [List.mem_singleton] at he
      subst he
      simp [Val.fits]
    · simp [exShapeW] at hr

theorem exShapeW_dst : DstAt exHeapW exShapeW [] (ValueOf exDstW) := by
  simp [DstAt, ValueOf, exDstW, Val.fits, exShapeW]

theorem exShapeW_src : SrcIn exShapeW (ValueOf exSrcW) := by
  refine ⟨false, 1, ?_⟩
  simp [exSrcW, exW, Val.typed, Val.typedFields, Ty.kind, Ty.underlying,
    Ty.fields, Ty.elem, exShapeW, walked, uniteSafe, hashable, keyEq]

/-- C33 (as stated, it fails), under the default options.  First input, in
which the source shares a variable with the destination: the destination `&d`
with `d := PQ{Q: &x}` and the source `PQ{P: &x, Q: &y}`, `x = 1`, `y = 7`.
The first `Merge` succeeds and leaves `*d.P = 1` (a fresh pointee, cell 3,
that took the value of `x` before `x` was overwritten through `d.Q`); the
second `Merge` succeeds and leaves `*d.P = 7`.  Second input, in which a map
reached through an entry of the source map holds a nil interface: the
destination `&d` with `d` an empty `map[string]map[string]interface{}` and the
source `{"m": {"k": nil}}`.  The first `Merge` succeeds and leaves `d["m"]`
the map `{"k": nil}`; the second `Merge` succeeds and deletes the key "k" from
it.  Third input, in which two fields of the destination hold one map object:
the destination `&d` with `d := DS{A: m, B: m}`, `m` an empty map, and the
source `DS{P: &x, A: {"k": &x}, B: {"k": &y}}`.  The first `Merge` succeeds
and leaves `*d.P = 1` (cell 3) and `x = 7`, overwritten through `m["k"]`; the
second `Merge` succeeds and leaves `*d.P = 7`. -/
theorem C33_second_merge_differs :
    Merge Host.trivial 5 exDstPQ exSrcPQ [] exHeapPQ =
      .ok () ⟨[.struct [.ptr (some 3), .ptr (some 1)], .int 7, .int 7, .int 1],
        []⟩ ∧
    Merge Host.trivial 5 exDstPQ exSrcPQ []
        ⟨[.struct [.ptr (some 3), .ptr (some 1)], .int 7, .int 7, .int 1], []⟩ =
      .ok () ⟨[.struct [.ptr (some 3), .ptr (some 1)], .int 7, .int 7, .int 7],
        []⟩ ∧
    Merge Host.trivial 5 (some (.ptr exMapNested, .ptr (some 0)))
        (some (exMapNested, .map (some 1))) [] exHeapNested =
      .ok () ⟨[.map (some 0)],
        [[(.str "m", .map (some 2))], [(.str "m", .map (some 2))],
         [(.str "k", .iface none)]]⟩ ∧
    Merge Host.trivial 5 (some (.ptr exMapNested, .ptr (some 0)))
        (some (exMapNested, .map (some 1))) []
        ⟨[.map (some 0)],
          [[(.str "m", .map (some 2))], [(.str "m", .map (some 2))],
           [(.str "k", .iface none)]]⟩ =
      .ok () ⟨[.map (some 0)],
        [[(.str "m", .map (some 2))], [(.str "m", .map (some 2))], []]⟩ ∧
    Merge Host.trivial 6 exDstDS exSrcDS [] exHeapDS =
      .ok () ⟨[.struct [.ptr (some 3), .map (some 0), .map (some 0)], .int 7,
          .int 7, .int 1],
        [[(.str "k", .ptr (some 1))], [(.str "k", .ptr (some 1))],
         [(.str "k", .ptr (some 2))]]⟩ ∧
    Merge Host.trivial 6 exDstDS exSrcDS []
        ⟨[.struct [.ptr (some 3), .map (some 0), .map (some 0)], .int 7,
          .int 7, .int 1],
        [[(.str "k", .ptr (some 1))], [(.str "k", .ptr (some 1))],
         [(.str "k", .ptr (some 2))]]⟩ =
      .ok () ⟨[.struct [.ptr (some 3), .map (some 0), .map (some 0)], .int 7,
          .int 7, .int 7],
        [[(.str "k", .ptr (some 1))], [(.str "k", .ptr (some 1))],
         [(.str "k", .ptr (some 2))]]⟩ :=
  ⟨rfl, rfl, rfl, rfl, rfl, rfl⟩

/-- C33 (amended): under the default options, on a memory that has a shape
`σ` for the two arguments: the destination is a tree (every cell and map
object of it is reached from `dst` along one path of fields, pointees and map
entries, its place), the source is made of other cells and map objects, is
well typed and acyclic, and no map object reached through an entry of a map of
the source holds a nil interface.  If `Merge(dst, src)` succeeds, then a
second `Merge(dst, src)`, run with enough fuel on the memory the first call
left, succeeds too and leaves every cell and every map object of that memory
as it is: it only adds cells that nothing refers to (the variables that
`reflect.New` makes for the entries of maps that are not merged in place). -/
theorem C33_merge_twice_default (H : Host) (σ : Shape) (n : Nat)
    (dst src : Iface) (h h1 : Heap)
    (hok : SrcOk h σ) (hw : WellShaped h σ [])
    (hd : DstAt h σ [] (ValueOf dst)) (hs : SrcIn σ (ValueOf src))
    (hfirst : Merge H n dst src [] h = .ok () h1) :
    ∃ n0, ∀ k, n0 ≤ k →
      ∃ h2, Merge H k dst src [] h1 = .ok () h2 ∧ Quiet h1 h2 :=
  merge_twice H (o := newOptions) rfl rfl rfl
    ⟨by decide, fun hu => absurd hu (by decide)⟩ hok hw hd hs hfirst

theorem C33_merge_twice_default_witness :
    SrcOk exHeapW exShapeW ∧ WellShaped exHeapW exShapeW [] ∧
      DstAt exHeapW exShapeW [] (ValueOf exDstW) ∧
      SrcIn exShapeW (ValueOf exSrcW) ∧
      Merge Host.trivial 5 exDstW exSrcW [] exHeapW = .ok () exHeapW1 ∧
      ∃ n0, ∀ k, n0 ≤ k → ∃ h2,
        Merge Host.trivial k exDstW exSrcW [] exHeapW1 = .ok () h2 ∧
          Quiet exHeapW1 h2 :=
  ⟨exShapeW_srcOk, exShapeW_wellShaped, exShapeW_dst, exShapeW_src, rfl,
    C33_merge_twice_default Host.trivial exShapeW 5 exDstW exSrcW exHeapW
      exHeapW1 exShapeW_srcOk exShapeW_wellShaped exShapeW_dst exShapeW_src
      rfl⟩

/-- C3 (as stated, it fails), with `Overwrite` set.  In the slice mode Append,
`Merge(&d, []int{2, 3})` with `d = []int{1, 2}` gives `[1, 2, 2, 3]`, then
`[1, 2, 2, 3, 2, 3]`.  In the slice mode Unite: `Merge(&d, []bool{true})` with
`d = []bool{true}` gives `[true, true]`, then `[true, true, true]` (slices of
bool are appended); `Merge(&d, []float64{NaN})` with `d` nil gives `[NaN]`,
then `[NaN, NaN]` (a NaN is no key of the set of elements); `Merge(&d, src)`
with `d` an empty `map[string][]int` and `src = {"k": []int{}}` gives
`d["k"]` empty, then `d["k"]` nil.  With the merge function
`func(dst, src int) { return dst + src }` registered, `Merge(&d, 2)` with
`d = 1` gives 3, then 5.  And in the slice mode Unite, the destination `&d`
with `d := PQ{Q: &x}` and the source `PQ{P: &x, Q: &y}`, `x = 1`, `y = 7`,
which share the variable `x`: the first `Merge` leaves `*d.P = 1`, the second
one `*d.P = 7`. -/
theorem C3_second_merge_differs :
    (Merge Host.trivial 3 exDstSlice exSrcSlice
        [.WithSliceMode AppendSliceMode] exHeapSlice =
      .ok () ⟨[.slice (some [.int 1, .int 2, .int 2, .int 3])], []⟩ ∧
    Merge Host.trivial 3 exDstSlice exSrcSlice
        [.WithSliceMode AppendSliceMode]
        ⟨[.slice (some [.int 1, .int 2, .int 2, .int 3])], []⟩ =
      .ok () ⟨[.slice (some [.int 1, .int 2, .int 2, .int 3, .int 2,
        .int 3])], []⟩) ∧
    (Merge Host.trivial 3 (some (.ptr (.slice (.basic .Bool)), .ptr (some 0)))
        (some (.slice (.basic .Bool), .slice (some [.bool true])))
        [.WithSliceMode UniteSlice] ⟨[.slice (some [.bool true])], []⟩ =
      .ok () ⟨[.slice (some [.bool true, .bool true])], []⟩ ∧
    Merge Host.trivial 3 (some (.ptr (.slice (.basic .Bool)), .ptr (some 0)))
        (some (.slice (.basic .Bool), .slice (some [.bool true])))
        [.WithSliceMode UniteSlice]
        ⟨[.slice (some [.bool true, .bool true])], []⟩ =
      .ok () ⟨[.slice (some [.bool true, .bool true, .bool true])], []⟩) ∧
    (floatIsNaN 0x7FF8000000000000 = true ∧
    Merge Host.trivial 3
        (some (.ptr (.slice (.basic .Float64)), .ptr (some 0)))
        (some (.slice (.basic .Float64),
          .slice (some [.float 0x7FF8000000000000])))
        [.WithSliceMode UniteSlice] ⟨[.slice none], []⟩ =
      .ok () ⟨[.slice (some [.float 0x7FF8000000000000])], []⟩ ∧
    Merge Host.trivial 3
        (some (.ptr (.slice (.basic .Float64)), .ptr (some 0)))
        (some (.slice (.basic .Float64),
          .slice (some [.float 0x7FF8000000000000])))
        [.WithSliceMode UniteSlice]
        ⟨[.slice (some [.float 0x7FF8000000000000])], []⟩ =
      .ok () ⟨[.slice (some [.float 0x7FF8000000000000,
        .float 0x7FF8000000000000])], []⟩) ∧
    (Merge Host.trivial 4 (some (.ptr exMapSlices, .ptr (some 0)))
        (some (exMapSlices, .map (some 1))) [.WithSliceMode UniteSlice]
        ⟨[.map (some 0)], [[], [(.str "k", .slice (some []))]]⟩ =
      .ok () ⟨[.map (some 0)],
        [[(.str "k", .slice (some []))], [(.str "k", .slice (some []))]]⟩ ∧
    Merge Host.trivial 4 (some (.ptr exMapSlices, .ptr (some 0)))
        (some (exMapSlices, .map (some 1))) [.WithSliceMode UniteSlice]
        ⟨[.map (some 0)],
          [[(.str "k", .slice (some []))], [(.str "k", .slice (some []))]]⟩ =
      .ok () ⟨[.map (some 0), .slice none],
        [[(.str "k", .slice none)], [(.str "k", .slice (some []))]]⟩) ∧
    (Merge Host.trivial 3 (some (.ptr (.basic .Int), .ptr (some 0)))
        (some (.basic .Int, .int 2)) [.WithMergeFuncs [exAddInts]]
        ⟨[.int 1], []⟩ = .ok () ⟨[.int 3], []⟩ ∧
    Merge Host.trivial 3 (some (.ptr (.basic .Int), .ptr (some 0)))
        (some (.basic .Int, .int 2)) [.WithMergeFuncs [exAddInts]]
        ⟨[.int 3], []⟩ = .ok () ⟨[.int 5], []⟩) ∧
    (Merge Host.trivial 5 exDstPQ exSrcPQ [.WithSliceMode UniteSlice]
        exHeapPQ =
      .ok () ⟨[.struct [.ptr (some 3), .ptr (some 1)], .int 7, .int 7, .int 1],
        []⟩ ∧
    Merge Host.trivial 5 exDstPQ exSrcPQ [.WithSliceMode UniteSlice]
        ⟨[.struct [.ptr (some 3), .ptr (some 1)], .int 7, .int 7, .int 1], []⟩ =
      .ok () ⟨[.struct [.ptr (some 3), .ptr (some 1)], .int 7, .int 7, .int 7],
        []⟩) :=
  ⟨⟨rfl, rfl⟩, ⟨rfl, rfl⟩, ⟨by decide, rfl, rfl⟩, ⟨rfl, rfl⟩, ⟨rfl, rfl⟩,
    ⟨rfl, rfl⟩⟩

/-- C3 (amended): with `Overwrite` set, a slice mode other than Append and no
function registered, on a memory that has a shape `σ` for the two arguments:
the destination is a tree (every cell and map object of it is reached from
`dst` along one path, its place), the source is made of other cells and map
objects, is well typed and acyclic, no map object reached through an entry of
a map of the source holds a nil interface, and in the slice mode Unite every
slice of the source is nil or empty or has elements of a hashable kind other
than bool that are no NaN, and no entry of a map of the source is an empty
slice that is not nil.  If `Merge(dst, src)` succeeds, then a second
`Merge(dst, src)`, run with enough fuel on the memory the first call left,
succeeds too and leaves every cell and every map object of that memory as it
is: it only adds cells that nothing refers to. -/
theorem C3_merge_twice_overwrite (H : Host) (σ : Shape) (n : Nat)
    (dst src : Iface) (opts : List OptionFunc) (o : Options) (h h1 : Heap)
    (hopts : applyOptions opts newOptions = .ok o)
    (ho : o.Overwrite = true) (hm : ModeOk o σ)
    (hmf : o.delegate.mergeFuncs = []) (hcf : o.delegate.convertFuncs = [])
    (hok : SrcOk h σ) (hw : WellShaped h σ [])
    (hd : DstAt h σ [] (ValueOf dst)) (hs : SrcIn σ (ValueOf src))
    (hfirst : Merge H n dst src opts h = .ok () h1) :
    ∃ n0, ∀ k, n0 ≤ k →
      ∃ h2, Merge H k dst src opts h1 = .ok () h2 ∧ Quiet h1 h2 := by
  simp only [Merge, hopts] at hfirst ⊢
  exact merge_twice H ho hmf hcf hm hok hw hd hs hfirst

theorem C3_merge_twice_overwrite_witness :
    SrcOk exHeapW exShapeW ∧ WellShaped exHeapW exShapeW [] ∧
      DstAt exHeapW exShapeW [] (ValueOf exDstW) ∧
      SrcIn exShapeW (ValueOf exSrcW) ∧
      Merge Host.trivial 5 exDstW exSrcW [.WithSliceMode UniteSlice] exHeapW =
        .ok () exHeapW2 ∧
      ∃ n0, ∀ k, n0 ≤ k → ∃ h2,
        Merge Host.trivial k exDstW exSrcW [.WithSliceMode UniteSlice]
          exHeapW2 = .ok () h2 ∧ Quiet exHeapW2 h2 :=
  ⟨exShapeW_srcOk, exShapeW_wellShaped, exShapeW_dst, exShapeW_src, rfl,
    C3_merge_twice_overwrite Host.trivial exShapeW 5 exDstW exSrcW
      [.WithSliceMode UniteSlice] { newOptions with SliceMode := UniteSlice }
      exHeapW exHeapW2 rfl rfl ⟨by decide, fun _ => rfl⟩ rfl rfl
      exShapeW_srcOk exShapeW_wellShaped exShapeW_dst exShapeW_src rfl⟩

end Gomerge
